import Mathlib

/-!
# Network simplex core of Spatial-KWD (`KWD_NetSimplex.h`)

A shallow embedding of the class `KWD::NetSimplex<V, C>` instantiated at an exact
(integer) value and cost type.  Machine integers are modelled by `Int`; the two
type maxima `std::numeric_limits<V>::max()` and `std::numeric_limits<C>::max()`
are fields of the solver (`MAX` and `COST_MAX`).

Conventions of the embedding:

* every `std::vector` is a `List`; an access outside the vector is undefined
  behaviour in C++ and is `none` here (`rd`, `wr`);
* every `for`/`while` loop is a recursive function on a step counter; a loop that
  does not stop within its counter yields `none`;
* the outer pivot loop of `start` takes its step counter as an argument (`fuel`);
* the wall clock is not modelled: the default time limit is the largest `double`,
  so the `TIMELIMIT` branch of `start` is never taken;
* `negeps = nextafter(-opt_tolerance, -0.0)` lies strictly between `-1` and `0`;
  with an integer cost type `Cost min = negeps` is `0`, and the comparisons
  `min < negeps` and `min >= negeps` are `min < 0` and `min >= 0`.
-/

namespace KWD

/-- Checked read `xs[i]`: `none` when `i` is outside the vector. -/
def rd {α : Type} (xs : List α) (i : Int) : Option α :=
  if 0 ≤ i then xs[i.toNat]? else none

/-- Checked write `xs[i] = v`: `none` when `i` is outside the vector. -/
def wr {α : Type} (xs : List α) (i : Int) (v : α) : Option (List α) :=
  if 0 ≤ i ∧ i < (xs.length : Int) then some (xs.set i.toNat v) else none

/-- Search of `floorSqrt`: the largest `k` below the bound with `k * k <= n`. -/
def floorSqrtAux (n : Nat) : Nat → Nat
  | 0 => 0
  | k + 1 => if (k + 1) * (k + 1) ≤ n then k + 1 else floorSqrtAux n k

/-- The value of `int(std::sqrt(double(n)))` for a count `n`: the integer square root. -/
def floorSqrt (n : Nat) : Nat := floorSqrtAux n n

/-- Result status of a solve (`enum class ProblemType`). -/
inductive ProblemType where
  | INFEASIBLE
  | OPTIMAL
  | UNBOUNDED
  | TIMELIMIT
  deriving DecidableEq, Repr

/-- State constant `STATE_TREE = false`. -/
def STATE_TREE : Bool := false
/-- State constant `STATE_LOWER = true`. -/
def STATE_LOWER : Bool := true
/-- Direction constant `DIR_DOWN = -1`. -/
def DIR_DOWN : Int := -1
/-- Direction constant `DIR_UP = 1`. -/
def DIR_UP : Int := 1

/-- An arc candidate `GVar<int, C>`: first point, second point, distance. -/
structure Var where
  a : Int
  b : Int
  c : Int
  deriving DecidableEq, Repr

/-- The data members of `NetSimplex` (clock, verbosity and benchmarking left out). -/
structure NetSimplex where
  node_num : Int
  arc_num : Int
  dummy_arc : Int
  next_arc : Int
  sum_supply : Int
  source : List Int
  target : List Int
  supply : List Int
  flow : List Int
  cost : List Int
  pi : List Int
  parent : List Int
  pred : List Int
  thread : List Int
  rev_thread : List Int
  succ_num : List Int
  last_succ : List Int
  pred_dir : List Int
  state : List Bool
  root : Int
  in_arc : Int
  join : Int
  u_in : Int
  v_in : Int
  u_out : Int
  v_out : Int
  delta : Int
  MAX : Int
  COST_MAX : Int
  iterations : Nat
  deriving DecidableEq

namespace NetSimplex

/-- The constant `INF`: an integer type has no infinity, so `INF = MAX`. -/
def INF (ns : NetSimplex) : Int := ns.MAX

/-- Constructor `NetSimplex(INIT, node_num, arc_num)`; `maxV` and `maxC` are the maxima
of the value and cost types.  The reserve calls do not change the vectors. -/
def create (maxV maxC : Int) (node_num : Nat) : NetSimplex :=
  { node_num := node_num
    arc_num := node_num
    dummy_arc := node_num
    next_arc := node_num
    sum_supply := 0
    source := List.replicate node_num 0
    target := List.replicate node_num 0
    supply := List.replicate (node_num + 1) 0
    flow := List.replicate node_num 0
    cost := List.replicate node_num 0
    pi := List.replicate (node_num + 1) 0
    parent := List.replicate (node_num + 1) 0
    pred := List.replicate (node_num + 1) 0
    thread := List.replicate (node_num + 1) 0
    rev_thread := List.replicate (node_num + 1) 0
    succ_num := List.replicate (node_num + 1) 0
    last_succ := List.replicate (node_num + 1) 0
    pred_dir := List.replicate (node_num + 1) 0
    state := List.replicate node_num STATE_LOWER
    root := -1
    in_arc := -1
    join := -1
    u_in := -1
    v_in := -1
    u_out := -1
    v_out := -1
    delta := 0
    MAX := maxV
    COST_MAX := maxC
    iterations := 0 }

/-- Method `addNode(i, b)`: `_supply[i] = b`. -/
def addNode (ns : NetSimplex) (i : Int) (b : Int) : Option NetSimplex := do
  let supply ← wr ns.supply i b
  some { ns with supply := supply }

/-- Method `addArc(a, b, c)`: appends an arc and returns its id with the new solver. -/
def addArc (ns : NetSimplex) (a b c : Int) : Int × NetSimplex :=
  ((ns.source.length : Int),
   { ns with
     source := ns.source ++ [a]
     target := ns.target ++ [b]
     cost := ns.cost ++ [c]
     flow := ns.flow ++ [0]
     state := ns.state ++ [STATE_LOWER]
     arc_num := ns.arc_num + 1 })

/-- Method `setArc(idx, a, b, c)`: overwrites the arc at `_dummy_arc + idx`. -/
def setArc (ns : NetSimplex) (idx : Int) (a b c : Int) : Option NetSimplex := do
  let source ← wr ns.source (ns.dummy_arc + idx) a
  let target ← wr ns.target (ns.dummy_arc + idx) b
  let cost ← wr ns.cost (ns.dummy_arc + idx) c
  let flow ← wr ns.flow (ns.dummy_arc + idx) 0
  let state ← wr ns.state (ns.dummy_arc + idx) STATE_LOWER
  some { ns with source := source, target := target, cost := cost, flow := flow,
                 state := state, arc_num := ns.arc_num + 1 }

/-- Method `resizeArcMemory(s)`: grows the arc vectors by `s` entries. -/
def resizeArcMemory (ns : NetSimplex) (s : Nat) : NetSimplex :=
  { ns with
    source := ns.source ++ List.replicate s (-1)
    target := ns.target ++ List.replicate s (-1)
    cost := ns.cost ++ List.replicate s (-1)
    flow := ns.flow ++ List.replicate s 0
    state := ns.state ++ List.replicate s STATE_LOWER }

/-- The reduced cost `_cost[e] + _pi[_source[e]] - _pi[_target[e]]` of arc `e`. -/
def redCost (ns : NetSimplex) (e : Int) : Option Int := do
  let c ← rd ns.cost e
  let src ← rd ns.source e
  let tgt ← rd ns.target e
  let ps ← rd ns.pi src
  let pt ← rd ns.pi tgt
  some (c + ps - pt)

/-- The signed reduced cost `_state[e] * (_cost[e] + _pi[_source[e]] - _pi[_target[e]])`. -/
def signedRedCost (ns : NetSimplex) (e : Int) : Option Int := do
  let st ← rd ns.state e
  let r ← redCost ns e
  some ((if st then 1 else 0) * r)

/-- Assignment `_source[i] = v`. -/
@[noinline]
def set_source (ns : NetSimplex) (i v : Int) : Option NetSimplex :=
  (wr ns.source i v).map fun xs => { ns with source := xs }

/-- Assignment `_target[i] = v`. -/
@[noinline]
def set_target (ns : NetSimplex) (i v : Int) : Option NetSimplex :=
  (wr ns.target i v).map fun xs => { ns with target := xs }

/-- Assignment `_supply[i] = v`. -/
@[noinline]
def set_supply (ns : NetSimplex) (i v : Int) : Option NetSimplex :=
  (wr ns.supply i v).map fun xs => { ns with supply := xs }

/-- Assignment `_flow[i] = v`. -/
@[noinline]
def set_flow (ns : NetSimplex) (i v : Int) : Option NetSimplex :=
  (wr ns.flow i v).map fun xs => { ns with flow := xs }

/-- Assignment `_cost[i] = v`. -/
@[noinline]
def set_cost (ns : NetSimplex) (i v : Int) : Option NetSimplex :=
  (wr ns.cost i v).map fun xs => { ns with cost := xs }

/-- Assignment `_pi[i] = v`. -/
@[noinline]
def set_pi (ns : NetSimplex) (i v : Int) : Option NetSimplex :=
  (wr ns.pi i v).map fun xs => { ns with pi := xs }

/-- Assignment `_parent[i] = v`. -/
@[noinline]
def set_parent (ns : NetSimplex) (i v : Int) : Option NetSimplex :=
  (wr ns.parent i v).map fun xs => { ns with parent := xs }

/-- Assignment `_pred[i] = v`. -/
@[noinline]
def set_pred (ns : NetSimplex) (i v : Int) : Option NetSimplex :=
  (wr ns.pred i v).map fun xs => { ns with pred := xs }

/-- Assignment `_thread[i] = v`. -/
@[noinline]
def set_thread (ns : NetSimplex) (i v : Int) : Option NetSimplex :=
  (wr ns.thread i v).map fun xs => { ns with thread := xs }

/-- Assignment `_rev_thread[i] = v`. -/
@[noinline]
def set_rev_thread (ns : NetSimplex) (i v : Int) : Option NetSimplex :=
  (wr ns.rev_thread i v).map fun xs => { ns with rev_thread := xs }

/-- Assignment `_succ_num[i] = v`. -/
@[noinline]
def set_succ_num (ns : NetSimplex) (i v : Int) : Option NetSimplex :=
  (wr ns.succ_num i v).map fun xs => { ns with succ_num := xs }

/-- Assignment `_last_succ[i] = v`. -/
@[noinline]
def set_last_succ (ns : NetSimplex) (i v : Int) : Option NetSimplex :=
  (wr ns.last_succ i v).map fun xs => { ns with last_succ := xs }

/-- Assignment `_pred_dir[i] = v`. -/
@[noinline]
def set_pred_dir (ns : NetSimplex) (i v : Int) : Option NetSimplex :=
  (wr ns.pred_dir i v).map fun xs => { ns with pred_dir := xs }

/-- Assignment `_state[i] = v`. -/
@[noinline]
def set_state (ns : NetSimplex) (i : Int) (v : Bool) : Option NetSimplex :=
  (wr ns.state i v).map fun xs => { ns with state := xs }

/-- Bound on the number of steps of the inner loops (walks along `_parent` and `_thread`). -/
def loopBound (ns : NetSimplex) : Nat := (ns.node_num.toNat + 2) * (ns.node_num.toNat + 2)

/-- Loop of `run`: `for (e = 0; e < _arc_num; ++e) { _state[e] = STATE_LOWER; _flow[e] = 0; }`. -/
def runReset : Nat → Int → NetSimplex → Option NetSimplex
  | 0, _, ns => some ns
  | k + 1, e, ns => do
    let ns ← ns.set_state e STATE_LOWER
    let ns ← ns.set_flow e 0
    runReset k (e + 1) ns

/-- Loop of `init`: `for (i = 0; i != _node_num; ++i) _sum_supply += _supply[i];`. -/
def initSum : Nat → Int → NetSimplex → Option NetSimplex
  | 0, _, ns => some ns
  | k + 1, i, ns => do
    let b ← rd ns.supply i
    initSum k (i + 1) { ns with sum_supply := ns.sum_supply + b }

/-- Branch `_supply[u] >= 0` of the loop of `init`: the artificial arc is `u -> root`. -/
def initArcUp (u e b : Int) (ns : NetSimplex) : Option NetSimplex := do
  let ns ← ns.set_pred_dir u DIR_UP
  let ns ← ns.set_pi u 0
  let ns ← ns.set_source e u
  let ns ← ns.set_target e ns.root
  let ns ← ns.set_flow e b
  ns.set_cost e 0

/-- Branch `_supply[u] < 0` of the loop of `init`: the artificial arc is `root -> u`. -/
def initArcDown (ART_COST : Int) (u e b : Int) (ns : NetSimplex) : Option NetSimplex := do
  let ns ← ns.set_pred_dir u DIR_DOWN
  let ns ← ns.set_pi u ART_COST
  let ns ← ns.set_source e ns.root
  let ns ← ns.set_target e u
  let ns ← ns.set_flow e (-b)
  ns.set_cost e ART_COST

/-- Part of the body of the loop of `init` that sets the tree links of node `u`. -/
def initArcTree (u e : Int) (ns : NetSimplex) : Option NetSimplex := do
  let ns ← ns.set_parent u ns.root
  let ns ← ns.set_pred u e
  let ns ← ns.set_thread u (u + 1)
  let ns ← ns.set_rev_thread (u + 1) u
  let ns ← ns.set_succ_num u 1
  let ns ← ns.set_last_succ u u
  ns.set_state e STATE_TREE

/-- Body of the loop of `init` that adds the artificial arc `e` of node `u`. -/
def initArc (ART_COST : Int) (u e : Int) (ns : NetSimplex) : Option NetSimplex := do
  let ns ← initArcTree u e ns
  let b ← rd ns.supply u
  if b ≥ 0 then initArcUp u e b ns else initArcDown ART_COST u e b ns

/-- Loop of `init` adding the artificial arcs: `for (u = 0, e = 0; u != _node_num; ++u, ++e)`. -/
def initArcs (ART_COST : Int) : Nat → Int → Int → NetSimplex → Option NetSimplex
  | 0, _, _, ns => some ns
  | k + 1, u, e, ns => do
    let ns ← initArc ART_COST u e ns
    initArcs ART_COST k (u + 1) (e + 1) ns

/-- The artificial cost of an exact cost type: `numeric_limits<Cost>::max() / 2 + 1`. -/
def artCost (ns : NetSimplex) : Int := ns.COST_MAX / 2 + 1

/-- The assignments of `init` for the artificial root node. -/
def initRoot (ns : NetSimplex) : Option NetSimplex := do
  let ns ← ns.set_parent ns.root (-1)
  let ns ← ns.set_pred ns.root (-1)
  let ns ← ns.set_thread ns.root 0
  let ns ← ns.set_rev_thread 0 ns.root
  let ns ← ns.set_succ_num ns.root (ns.node_num + 1)
  let ns ← ns.set_last_succ ns.root (ns.root - 1)
  let ns ← ns.set_supply ns.root (-ns.sum_supply)
  ns.set_pi ns.root 0

/-- Method `init()`: builds the star basis of artificial arcs; `false` when there is no node. -/
def init (ns : NetSimplex) : Option (Bool × NetSimplex) :=
  if ns.node_num = 0 then some (false, ns) else do
    let ns ← initSum ns.node_num.toNat 0 { ns with sum_supply := 0 }
    let ns ← initRoot { ns with root := ns.node_num }
    let ns ← initArcs ns.artCost ns.node_num.toNat 0 0 ns
    some (true, ns)

/-- Method `totalCost()`, loop part: sums `_flow[e] * _cost[e]` over the arcs from `e` on
whose endpoints both differ from the root. -/
def totalCostLoop (ns : NetSimplex) : Nat → Int → Int → Option Int
  | 0, _, c => some c
  | k + 1, e, c => do
    let src ← rd ns.source e
    let tgt ← rd ns.target e
    if src ≠ ns.root ∧ tgt ≠ ns.root then do
      let f ← rd ns.flow e
      let w ← rd ns.cost e
      totalCostLoop ns k (e + 1) (c + f * w)
    else totalCostLoop ns k (e + 1) c

/-- Method `totalCost()`. -/
def totalCost (ns : NetSimplex) : Option Int :=
  totalCostLoop ns (ns.arc_num - ns.dummy_arc).toNat ns.dummy_arc 0

/-- Method `potential(n)`. -/
def potential (ns : NetSimplex) (n : Int) : Option Int := rd ns.pi n

end NetSimplex

/-- The data members of `BlockSearchPivotRule` that are copied from the solver or owned by
the rule; the references to the solver's vectors are passed as the solver itself. -/
structure BlockSearchPivotRule where
  arc_num : Int
  dummy_arc : Int
  block_size : Int
  next_arc : Int
  deriving DecidableEq, Repr

/-- Local variables of one call of `findEnteringArc`; `committed` records that the
jump to `search_end` was taken. -/
structure Scan where
  min : Int
  cnt : Int
  in_arc : Int
  committed : Bool
  deriving DecidableEq, Repr

namespace BlockSearchPivotRule

/-- Constructor of the pivot rule: `_block_size = max(int(sqrt(_arc_num - _dummy_arc)), 20)`. -/
def create (ns : NetSimplex) : BlockSearchPivotRule :=
  { arc_num := ns.arc_num
    dummy_arc := ns.dummy_arc
    next_arc := ns.next_arc
    block_size := max (floorSqrt (ns.arc_num - ns.dummy_arc).toNat : Int) 20 }

/-- One `for` loop of `findEnteringArc`, run over `k` arcs starting at arc `e`. -/
def scanArcs (ns : NetSimplex) (block_size : Int) : Nat → Int → Scan → Option Scan
  | 0, _, sc => some sc
  | k + 1, e, sc => do
    let c ← ns.signedRedCost e
    let sc := if c < sc.min then { sc with min := c, in_arc := e } else sc
    let cnt := sc.cnt - 1
    if cnt = 0 then
      if sc.min < 0 then some { sc with cnt := cnt, committed := true }
      else scanArcs ns block_size k (e + 1) { sc with cnt := block_size }
    else scanArcs ns block_size k (e + 1) { sc with cnt := cnt }

/-- Method `findEnteringArc()`: the flag returned, the rule and the solver (whose `in_arc`
the rule writes through its reference). -/
def findEnteringArc (p : BlockSearchPivotRule) (ns : NetSimplex) :
    Option (Bool × BlockSearchPivotRule × NetSimplex) := do
  let sc0 : Scan := { min := 0, cnt := p.block_size, in_arc := ns.in_arc, committed := false }
  let sc1 ← scanArcs ns p.block_size (p.arc_num - p.next_arc).toNat p.next_arc sc0
  if sc1.committed then
    some (true, { p with next_arc := sc1.in_arc }, { ns with in_arc := sc1.in_arc })
  else do
    let sc2 ← scanArcs ns p.block_size (p.next_arc - p.dummy_arc).toNat p.dummy_arc sc1
    if sc2.committed then
      some (true, { p with next_arc := sc2.in_arc }, { ns with in_arc := sc2.in_arc })
    else if sc2.min ≥ 0 then
      some (false, p, { ns with in_arc := sc2.in_arc })
    else
      some (true, { p with next_arc := sc2.in_arc }, { ns with in_arc := sc2.in_arc })

end BlockSearchPivotRule

namespace NetSimplex

/-- Loop of `findJoinNode`: `while (u != v)` moving the node with the smaller `_succ_num` up. -/
def findJoinLoop (ns : NetSimplex) : Nat → Int → Int → Option Int
  | 0, _, _ => none
  | k + 1, u, v =>
    if u = v then some u else do
      let su ← rd ns.succ_num u
      let sv ← rd ns.succ_num v
      if su < sv then do
        let p ← rd ns.parent u
        findJoinLoop ns k p v
      else do
        let p ← rd ns.parent v
        findJoinLoop ns k u p

/-- Method `findJoinNode()`. -/
def findJoinNode (ns : NetSimplex) : Option NetSimplex := do
  let u ← rd ns.source ns.in_arc
  let v ← rd ns.target ns.in_arc
  let j ← findJoinLoop ns ns.loopBound u v
  some { ns with join := j }

/-- First loop of `findLeavingArc`: from the first node to the join, strict `<`. -/
def findLeavingFirst : Nat → Int → NetSimplex → Int → Option (NetSimplex × Int)
  | 0, _, _, _ => none
  | k + 1, u, ns, result =>
    if u = ns.join then some (ns, result) else do
      let e ← rd ns.pred u
      let f ← rd ns.flow e
      let dir ← rd ns.pred_dir u
      let d := if dir = DIR_DOWN then ns.INF - f else f
      let p ← rd ns.parent u
      if d < ns.delta then findLeavingFirst k p { ns with delta := d, u_out := u } 1
      else findLeavingFirst k p ns result

/-- Second loop of `findLeavingArc`: from the second node to the join, `<=`. -/
def findLeavingSecond : Nat → Int → NetSimplex → Int → Option (NetSimplex × Int)
  | 0, _, _, _ => none
  | k + 1, u, ns, result =>
    if u = ns.join then some (ns, result) else do
      let e ← rd ns.pred u
      let f ← rd ns.flow e
      let dir ← rd ns.pred_dir u
      let d := if dir = DIR_UP then ns.INF - f else f
      let p ← rd ns.parent u
      if d ≤ ns.delta then findLeavingSecond k p { ns with delta := d, u_out := u } 2
      else findLeavingSecond k p ns result

/-- Method `findLeavingArc()`: the flag `result != 0` and the solver. -/
def findLeavingArc (ns : NetSimplex) : Option (Bool × NetSimplex) := do
  let first ← rd ns.source ns.in_arc
  let second ← rd ns.target ns.in_arc
  let ns := { ns with delta := ns.MAX }
  let (ns, result) ← findLeavingFirst ns.loopBound first ns 0
  let (ns, result) ← findLeavingSecond ns.loopBound second ns result
  if result = 1 then some (true, { ns with u_in := first, v_in := second })
  else some (result ≠ 0, { ns with u_in := second, v_in := first })

/-- First loop of `changeFlow`: `_flow[_pred[u]] -= _pred_dir[u] * delta` up to the join. -/
def changeFlowFirst : Nat → Int → NetSimplex → Option NetSimplex
  | 0, _, _ => none
  | k + 1, u, ns =>
    if u = ns.join then some ns else do
      let e ← rd ns.pred u
      let f ← rd ns.flow e
      let dir ← rd ns.pred_dir u
      let ns ← ns.set_flow e (f - dir * ns.delta)
      let p ← rd ns.parent u
      changeFlowFirst k p ns

/-- Second loop of `changeFlow`: `_flow[_pred[u]] += _pred_dir[u] * delta` up to the join. -/
def changeFlowSecond : Nat → Int → NetSimplex → Option NetSimplex
  | 0, _, _ => none
  | k + 1, u, ns =>
    if u = ns.join then some ns else do
      let e ← rd ns.pred u
      let f ← rd ns.flow e
      let dir ← rd ns.pred_dir u
      let ns ← ns.set_flow e (f + dir * ns.delta)
      let p ← rd ns.parent u
      changeFlowSecond k p ns

/-- The augmentation of `changeFlow`, done when `delta > 0`. -/
def augment (ns : NetSimplex) : Option NetSimplex := do
  let f ← rd ns.flow ns.in_arc
  let ns ← ns.set_flow ns.in_arc (f + ns.delta)
  let s ← rd ns.source ns.in_arc
  let ns ← changeFlowFirst ns.loopBound s ns
  let t ← rd ns.target ns.in_arc
  changeFlowSecond ns.loopBound t ns

/-- Method `changeFlow()`. -/
def changeFlow (ns : NetSimplex) : Option NetSimplex := do
  let ns ← if ns.delta > 0 then augment ns else some ns
  let ns ← ns.set_state ns.in_arc STATE_TREE
  let e ← rd ns.pred ns.u_out
  ns.set_state e STATE_LOWER

/-- Local variables of the stem loop of `updateTreeStructure`. -/
structure Stem where
  stem : Int
  par_stem : Int
  last : Int
  after : Int
  dirty_revs : List Int
  deriving DecidableEq, Repr

/-- Case `u_in == u_out` of `updateTreeStructure`. -/
def updateTreeSame (ns : NetSimplex) (old_rev_thread old_last_succ : Int) :
    Option NetSimplex := do
  let ns ← ns.set_parent ns.u_in ns.v_in
  let ns ← ns.set_pred ns.u_in ns.in_arc
  let src ← rd ns.source ns.in_arc
  let ns ← ns.set_pred_dir ns.u_in (if ns.u_in = src then DIR_UP else DIR_DOWN)
  let t ← rd ns.thread ns.v_in
  if t ≠ ns.u_out then do
    let after ← rd ns.thread old_last_succ
    let ns ← ns.set_thread old_rev_thread after
    let ns ← ns.set_rev_thread after old_rev_thread
    let after ← rd ns.thread ns.v_in
    let ns ← ns.set_thread ns.v_in ns.u_out
    let ns ← ns.set_rev_thread ns.u_out ns.v_in
    let ns ← ns.set_thread old_last_succ after
    ns.set_rev_thread after old_last_succ
  else some ns

/-- The `while (stem != u_out)` loop of `updateTreeStructure`. -/
def stemLoop : Nat → NetSimplex → Stem → Option (NetSimplex × Stem)
  | 0, _, _ => none
  | k + 1, ns, st =>
    if st.stem = ns.u_out then some (ns, st) else do
      let next_stem ← rd ns.parent st.stem
      let ns ← ns.set_thread st.last next_stem
      let before ← rd ns.rev_thread st.stem
      let ns ← ns.set_thread before st.after
      let ns ← ns.set_rev_thread st.after before
      let ns ← ns.set_parent st.stem st.par_stem
      let ls ← rd ns.last_succ next_stem
      let lp ← rd ns.last_succ st.stem
      let last ← if ls = lp then rd ns.rev_thread st.stem else some ls
      let after ← rd ns.thread last
      stemLoop k ns { stem := next_stem, par_stem := st.stem, last := last, after := after,
                      dirty_revs := st.dirty_revs ++ [st.last] }

/-- The loop `for (i ...) { u = _dirty_revs[i]; _rev_thread[_thread[u]] = u; }`. -/
def dirtyLoop : List Int → NetSimplex → Option NetSimplex
  | [], ns => some ns
  | u :: us, ns => do
    let t ← rd ns.thread u
    let ns ← ns.set_rev_thread t u
    dirtyLoop us ns

/-- The loop over the stem nodes from `u_out` to `u_in` updating `_pred`, `_pred_dir`,
`_succ_num` and `_last_succ`. -/
def stemUpdate : Nat → NetSimplex → Int → Int → Int → Int → Option NetSimplex
  | 0, _, _, _, _, _ => none
  | k + 1, ns, u, p, tmp_sc, tmp_ls =>
    if u = ns.u_in then some ns else do
      let pp ← rd ns.pred p
      let ns ← ns.set_pred u pp
      let dp ← rd ns.pred_dir p
      let ns ← ns.set_pred_dir u (-dp)
      let su ← rd ns.succ_num u
      let sp ← rd ns.succ_num p
      let ns ← ns.set_succ_num u (tmp_sc + (su - sp))
      let ns ← ns.set_last_succ p tmp_ls
      let p2 ← rd ns.parent p
      stemUpdate k ns p p2 (tmp_sc + (su - sp)) tmp_ls

/-- Case `u_in != u_out` of `updateTreeStructure`, first part: the stem loop and the
thread updates that follow it; returns the solver and the `_dirty_revs` list. -/
def updateTreeStemThread (ns : NetSimplex) (old_rev_thread old_last_succ : Int) :
    Option (NetSimplex × List Int) := do
  let thread_continue ←
    if old_rev_thread = ns.v_in then rd ns.thread old_last_succ else rd ns.thread ns.v_in
  let last ← rd ns.last_succ ns.u_in
  let after ← rd ns.thread last
  let ns ← ns.set_thread ns.v_in ns.u_in
  let r ← stemLoop ns.loopBound ns
    { stem := ns.u_in, par_stem := ns.v_in, last := last, after := after,
      dirty_revs := [ns.v_in] }
  let ns ← r.1.set_parent r.1.u_out r.2.par_stem
  let ns ← ns.set_thread r.2.last thread_continue
  let ns ← ns.set_rev_thread thread_continue r.2.last
  let ns ← ns.set_last_succ ns.u_out r.2.last
  if old_rev_thread ≠ ns.v_in then do
    let ns ← ns.set_thread old_rev_thread r.2.after
    let ns ← ns.set_rev_thread r.2.after old_rev_thread
    some (ns, r.2.dirty_revs)
  else some (ns, r.2.dirty_revs)

/-- Case `u_in != u_out` of `updateTreeStructure`, second part: `_rev_thread` is rebuilt
from `_dirty_revs` and `_pred`, `_pred_dir`, `_succ_num`, `_last_succ` are updated
along the stem. -/
def updateTreeStemPred (ns : NetSimplex) (dirty_revs : List Int) (old_succ_num : Int) :
    Option NetSimplex := do
  let ns ← dirtyLoop dirty_revs ns
  let tmp_ls ← rd ns.last_succ ns.u_out
  let p ← rd ns.parent ns.u_out
  let ns ← stemUpdate ns.loopBound ns ns.u_out p 0 tmp_ls
  let ns ← ns.set_pred ns.u_in ns.in_arc
  let src ← rd ns.source ns.in_arc
  let ns ← ns.set_pred_dir ns.u_in (if ns.u_in = src then DIR_UP else DIR_DOWN)
  ns.set_succ_num ns.u_in old_succ_num

/-- Case `u_in != u_out` of `updateTreeStructure`. -/
def updateTreeStem (ns : NetSimplex) (old_rev_thread old_succ_num old_last_succ : Int) :
    Option NetSimplex := do
  let r ← updateTreeStemThread ns old_rev_thread old_last_succ
  updateTreeStemPred r.1 r.2 old_succ_num

/-- The loop updating `_last_succ` from `v_in` towards the root. -/
def lastSuccIn (last_succ_out : Int) : Nat → NetSimplex → Int → Option NetSimplex
  | 0, _, _ => none
  | k + 1, ns, u =>
    if u = -1 then some ns else do
      let l ← rd ns.last_succ u
      if l = ns.v_in then do
        let ns ← ns.set_last_succ u last_succ_out
        let p ← rd ns.parent u
        lastSuccIn last_succ_out k ns p
      else some ns

/-- The loop updating `_last_succ` from `v_out` towards the root, writing `value`. -/
def lastSuccOut (up_limit_out old_last_succ value : Int) :
    Nat → NetSimplex → Int → Option NetSimplex
  | 0, _, _ => none
  | k + 1, ns, u =>
    if u = up_limit_out then some ns else do
      let l ← rd ns.last_succ u
      if l = old_last_succ then do
        let ns ← ns.set_last_succ u value
        let p ← rd ns.parent u
        lastSuccOut up_limit_out old_last_succ value k ns p
      else some ns

/-- The loops `for (u = ...; u != join; u = _parent[u]) _succ_num[u] += d;`. -/
def succNumLoop (d : Int) : Nat → NetSimplex → Int → Option NetSimplex
  | 0, _, _ => none
  | k + 1, ns, u =>
    if u = ns.join then some ns else do
      let n ← rd ns.succ_num u
      let ns ← ns.set_succ_num u (n + d)
      let p ← rd ns.parent u
      succNumLoop d k ns p

/-- Method `updateTreeStructure()`. -/
def updateTreeStructure (ns : NetSimplex) : Option NetSimplex := do
  let old_rev_thread ← rd ns.rev_thread ns.u_out
  let old_succ_num ← rd ns.succ_num ns.u_out
  let old_last_succ ← rd ns.last_succ ns.u_out
  let v_out ← rd ns.parent ns.u_out
  let ns := { ns with v_out := v_out }
  let ns ← if ns.u_in = ns.u_out then updateTreeSame ns old_rev_thread old_last_succ
    else updateTreeStem ns old_rev_thread old_succ_num old_last_succ
  let lj ← rd ns.last_succ ns.join
  let up_limit_out := if lj = ns.v_in then ns.join else -1
  let last_succ_out ← rd ns.last_succ ns.u_out
  let ns ← lastSuccIn last_succ_out ns.loopBound ns ns.v_in
  let ns ← if ns.join ≠ old_rev_thread ∧ ns.v_in ≠ old_rev_thread then
      lastSuccOut up_limit_out old_last_succ old_rev_thread ns.loopBound ns ns.v_out
    else if last_succ_out ≠ old_last_succ then
      lastSuccOut up_limit_out old_last_succ last_succ_out ns.loopBound ns ns.v_out
    else some ns
  let ns ← succNumLoop old_succ_num ns.loopBound ns ns.v_in
  succNumLoop (-old_succ_num) ns.loopBound ns ns.v_out

/-- Loop of `updatePotential`: `for (u = u_in; u != end; u = _thread[u]) _pi[u] += sigma;`. -/
def potentialLoop (sigma stop : Int) : Nat → NetSimplex → Int → Option NetSimplex
  | 0, _, _ => none
  | k + 1, ns, u =>
    if u = stop then some ns else do
      let x ← rd ns.pi u
      let ns ← ns.set_pi u (x + sigma)
      let t ← rd ns.thread u
      potentialLoop sigma stop k ns t

/-- Method `updatePotential()`. -/
def updatePotential (ns : NetSimplex) : Option NetSimplex := do
  let pv ← rd ns.pi ns.v_in
  let pu ← rd ns.pi ns.u_in
  let dir ← rd ns.pred_dir ns.u_in
  let c ← rd ns.cost ns.in_arc
  let sigma := pv - pu - dir * c
  let l ← rd ns.last_succ ns.u_in
  let stop ← rd ns.thread l
  potentialLoop sigma stop ns.loopBound ns ns.u_in

/-- Body of the pivot loop of `start` once an entering arc has been found. -/
def pivot (ns : NetSimplex) : Option NetSimplex := do
  let ns ← findJoinNode ns
  let (_, ns) ← findLeavingArc ns
  let ns ← changeFlow ns
  let ns ← updateTreeStructure ns
  let ns ← updatePotential ns
  some { ns with iterations := ns.iterations + 1 }

/-- The `while (true)` loop of `start`, run for at most `fuel` rounds. -/
def startLoop : Nat → BlockSearchPivotRule → NetSimplex → Option (ProblemType × NetSimplex)
  | 0, _, _ => none
  | fuel + 1, p, ns => do
    let (go, p, ns) ← p.findEnteringArc ns
    if go then do
      let ns ← pivot ns
      startLoop fuel p ns
    else some (ProblemType.OPTIMAL, ns)

/-- Method `start(pivot_rule)` with the block search rule. -/
def start (fuel : Nat) (ns : NetSimplex) : Option (ProblemType × NetSimplex) :=
  startLoop fuel (BlockSearchPivotRule.create ns) ns

/-- Method `run()`: resets flows and states, calls `init` and then `start`. -/
def run (fuel : Nat) (ns : NetSimplex) : Option (ProblemType × NetSimplex) := do
  let ns ← runReset ns.arc_num.toNat 0 { ns with iterations := 0 }
  let (ok, ns) ← init ns
  if ok then start fuel ns else some (ProblemType.INFEASIBLE, ns)

/-- Method `reRun()`: `start` without re-initialisation. -/
def reRun (fuel : Nat) (ns : NetSimplex) : Option (ProblemType × NetSimplex) :=
  start fuel ns

/-- The `while (e < e_max)` loop of `updateArcs`: the first arc from `e` on that is at its
lower bound with positive reduced cost (`> 1e-09`, which is `> 0` on integers). -/
def updateArcsSeek (ns : NetSimplex) (e_max : Int) : Nat → Int → Option Int
  | 0, _ => none
  | k + 1, e =>
    if e < e_max then do
      let st ← rd ns.state e
      if st = STATE_LOWER then do
        let r ← redCost ns e
        if r > 0 then some e else updateArcsSeek ns e_max k (e + 1)
      else updateArcsSeek ns e_max k (e + 1)
    else some e

/-- First `for` loop of `updateArcs`: candidates overwrite stored arcs; returns the
candidates left, the solver, `e` and `new_arc`. -/
def updateArcsReplace (e_max : Int) :
    List Var → NetSimplex → Int → Int → Option (List Var × NetSimplex × Int × Int)
  | [], ns, e, new_arc => some ([], ns, e, new_arc)
  | a :: rest, ns, e, new_arc => do
    let e ← updateArcsSeek ns e_max ((e_max - e).toNat + 1) e
    if e ≥ e_max then some (a :: rest, ns, e, new_arc) else do
      let ns ← ns.set_source e a.a
      let ns ← ns.set_target e a.b
      let ns ← ns.set_cost e a.c
      let ns := if new_arc = 0 then { ns with next_arc := e } else ns
      updateArcsReplace e_max rest ns e (new_arc + 1)

/-- Second `for` loop of `updateArcs`: the candidates left are appended with `addArc`. -/
def updateArcsAppend (e : Int) : List Var → NetSimplex → Int → NetSimplex × Int
  | [], ns, new_arc => (ns, new_arc)
  | a :: rest, ns, new_arc =>
    let ns := (ns.addArc a.a a.b a.c).2
    let ns := if new_arc = 0 then { ns with next_arc := e } else ns
    updateArcsAppend e rest ns (new_arc + 1)

/-- Method `updateArcs(as)`: the number of arcs stored and the solver. -/
def updateArcs (ns : NetSimplex) (as : List Var) : Option (Int × NetSimplex) := do
  let (rest, ns1, e, new_arc) ← updateArcsReplace ns.arc_num as ns ns.dummy_arc 0
  let (ns2, new_arc) := updateArcsAppend e rest ns1 new_arc
  some (new_arc, ns2)

end NetSimplex

/-! ## Building instances -/

namespace NetSimplex

/-- Calls `addNode(i, b)` for the supplies of a list, starting at node `i`. -/
def addNodes : List Int → Int → NetSimplex → Option NetSimplex
  | [], _, ns => some ns
  | b :: bs, i, ns => do
    let ns ← ns.addNode i b
    addNodes bs (i + 1) ns

/-- Calls `addArc(a, b, c)` for the arcs of a list, in order. -/
def addArcs : List Var → NetSimplex → NetSimplex
  | [], ns => ns
  | a :: rest, ns => addArcs rest (ns.addArc a.a a.b a.c).2

/-- A solver for 32-bit `int` values and costs with the given supplies (one node per
entry) and real arcs, as a caller builds it before `run`. -/
def ofInstance (supply : List Int) (arcs : List Var) : Option NetSimplex :=
  (addNodes supply 0 (create 2147483647 2147483647 supply.length)).map (addArcs arcs)

/-- The flow `_flow[e]` of arc `e`. -/
def flowOf (ns : NetSimplex) (e : Int) : Option Int := rd ns.flow e

end NetSimplex

/-! ## Scenarios -/

/-- Scenario S1: two nodes with supplies `+1, -1` and one arc `0 -> 1` of cost 7. -/
def scenarioS1 : Option NetSimplex :=
  NetSimplex.ofInstance [1, -1] [⟨0, 1, 7⟩]

/-- Scenario S2: supplies `+3, +2, -1, -4` and the arcs `0->2` (1), `0->3` (4), `1->2` (2),
`1->3` (3), added in that order. -/
def scenarioS2 : Option NetSimplex :=
  NetSimplex.ofInstance [3, 2, -1, -4] [⟨0, 2, 1⟩, ⟨0, 3, 4⟩, ⟨1, 2, 2⟩, ⟨1, 3, 3⟩]

/-- The difference `potential(0) - potential(1)` after a solve. -/
def potentialDiff01 (r : ProblemType × NetSimplex) : Option Int := do
  let p0 ← r.2.potential 0
  let p1 ← r.2.potential 1
  some (p0 - p1)

/-- The scan record after arc `e` with signed reduced cost `c` has been compared. -/
def Scan.step (sc : Scan) (e c : Int) : Scan :=
  if c < sc.min then { sc with min := c, in_arc := e } else sc

namespace NetSimplex

/-- The scalar members that a solve never changes. -/
def SameSize (ns ns' : NetSimplex) : Prop :=
  ns'.node_num = ns.node_num ∧ ns'.arc_num = ns.arc_num ∧ ns'.dummy_arc = ns.dummy_arc ∧
  ns'.next_arc = ns.next_arc ∧ ns'.MAX = ns.MAX ∧ ns'.COST_MAX = ns.COST_MAX

end NetSimplex

/-- An instance with a negative arc cost: supplies `0, -1, +1`, arcs `0->1` (cost 1) and
`2->0` (cost -3). -/
def scenarioNegCost : Option NetSimplex :=
  NetSimplex.ofInstance [0, -1, 1] [⟨0, 1, 1⟩, ⟨2, 0, -3⟩]

/-- The solver of scenario S1 before `run`. -/
def solverS1 : NetSimplex :=
  scenarioS1.getD (NetSimplex.create 2147483647 2147483647 0)

/-- The solver of scenario S1 after `run`. -/
def solvedS1 : NetSimplex :=
  ((NetSimplex.run 5 solverS1).map fun r => r.2).getD solverS1


/-- Names of the integer vectors of the solver. -/
inductive Fld where
  | source
  | target
  | supply
  | flow
  | cost
  | pi
  | parent
  | pred
  | thread
  | rev_thread
  | succ_num
  | last_succ
  | pred_dir
  deriving DecidableEq, Repr

/-- Names of the integer scalars of the solver. -/
inductive Sc where
  | node_num
  | arc_num
  | dummy_arc
  | next_arc
  | sum_supply
  | root
  | in_arc
  | join
  | u_in
  | v_in
  | u_out
  | v_out
  | delta
  | MAX
  | COST_MAX
  deriving DecidableEq, Repr

namespace NetSimplex

/-- The integer vector of the solver with a given name. -/
def arr (ns : NetSimplex) : Fld → List Int
  | Fld.source => ns.source
  | Fld.target => ns.target
  | Fld.supply => ns.supply
  | Fld.flow => ns.flow
  | Fld.cost => ns.cost
  | Fld.pi => ns.pi
  | Fld.parent => ns.parent
  | Fld.pred => ns.pred
  | Fld.thread => ns.thread
  | Fld.rev_thread => ns.rev_thread
  | Fld.succ_num => ns.succ_num
  | Fld.last_succ => ns.last_succ
  | Fld.pred_dir => ns.pred_dir

/-- The integer scalar of the solver with a given name. -/
def sc (ns : NetSimplex) : Sc → Int
  | Sc.node_num => ns.node_num
  | Sc.arc_num => ns.arc_num
  | Sc.dummy_arc => ns.dummy_arc
  | Sc.next_arc => ns.next_arc
  | Sc.sum_supply => ns.sum_supply
  | Sc.root => ns.root
  | Sc.in_arc => ns.in_arc
  | Sc.join => ns.join
  | Sc.u_in => ns.u_in
  | Sc.v_in => ns.v_in
  | Sc.u_out => ns.u_out
  | Sc.v_out => ns.v_out
  | Sc.delta => ns.delta
  | Sc.MAX => ns.MAX
  | Sc.COST_MAX => ns.COST_MAX

/-- Frame condition: from `ns` to `ns'` only the vectors named in `fs` and the scalars
named in `gs` may have changed, and no vector has changed its length. -/
def Keeps (fs : List Fld) (gs : List Sc) (ns ns' : NetSimplex) : Prop :=
  (∀ f, f ∉ fs → ns'.arr f = ns.arr f) ∧
  (∀ f, (ns'.arr f).length = (ns.arr f).length) ∧
  (∀ g, g ∉ gs → ns'.sc g = ns.sc g) ∧
  ns'.state.length = ns.state.length ∧
  ns'.iterations = ns.iterations

end NetSimplex

/-- Whether a vector is indexed by nodes (otherwise it is indexed by arcs). -/
def Fld.isNode : Fld → Bool
  | Fld.source => false
  | Fld.target => false
  | Fld.flow => false
  | Fld.cost => false
  | _ => true

namespace NetSimplex

/-- The node vectors have `n + 1` entries and the arc vectors have `m` entries. -/
def Sized (ns : NetSimplex) (n m : Nat) : Prop :=
  (∀ f, (ns.arr f).length = if f.isNode then n + 1 else m) ∧ ns.state.length = m

/-- The flow `init` puts on the artificial arc of a node with supply `b`. -/
def initFlow (b : Int) : Int := if b ≥ 0 then b else -b

/-- The vectors written by the loop of `init`. -/
def initFields : List Fld :=
  [Fld.parent, Fld.pred, Fld.thread, Fld.rev_thread, Fld.succ_num, Fld.last_succ, Fld.pred_dir,
   Fld.pi, Fld.source, Fld.target, Fld.flow, Fld.cost]

/-- The vectors written for the root by `init`. -/
def rootFields : List Fld :=
  [Fld.parent, Fld.pred, Fld.thread, Fld.rev_thread, Fld.succ_num, Fld.last_succ, Fld.supply,
   Fld.pi]

end NetSimplex

/-- What a call that may throw `std::runtime_error` does: it returns a value or throws. -/
inductive Outcome (α : Type) where
  | returned (a : α)
  | thrown (msg : String)
  deriving DecidableEq, Repr

namespace NetSimplex

/-- Loop of `checkFeasibility`: `for (e = 0; e != _dummy_arc; ++e) if (fabs(_flow[e]) > 1e-09)
throw ...`; on integers `fabs(f) > 1e-09` is `|f| > 0`. -/
def checkFeasibilityLoop (ns : NetSimplex) : Nat → Int → Option (Outcome ProblemType)
  | 0, _ => some (Outcome.returned ProblemType.OPTIMAL)
  | k + 1, e => do
    let f ← rd ns.flow e
    if |f| > 0 then some (Outcome.thrown "ERROR 3: flow on dummy arcs")
    else checkFeasibilityLoop ns k (e + 1)

/-- Method `checkFeasibility()`. -/
def checkFeasibility (ns : NetSimplex) : Option (Outcome ProblemType) :=
  checkFeasibilityLoop ns ns.dummy_arc.toNat 0

/-- Method `num_arcs()`: `_source.size() - _dummy_arc`. -/
def num_arcs (ns : NetSimplex) : Int := (ns.source.length : Int) - ns.dummy_arc

/-- The contribution of arc `e` to the total cost in the words of the specification:
`flow[e] * cost[e]` when neither endpoint is the root, nothing otherwise. -/
def arcCostSpec (ns : NetSimplex) (e : Int) : Int :=
  if (rd ns.source e).getD 0 ≠ ns.root ∧ (rd ns.target e).getD 0 ≠ ns.root then
    (rd ns.flow e).getD 0 * (rd ns.cost e).getD 0
  else 0

/-- The total cost in the words of the specification: the sum of `arcCostSpec` over the
arcs `_dummy_arc, ..., _arc_num - 1` (the dummy arcs `0 .. N-1` are not in the range). -/
def totalCostSpec (ns : NetSimplex) : Int :=
  ((List.range (ns.arc_num - ns.dummy_arc).toNat).map fun i : Nat =>
    arcCostSpec ns (ns.dummy_arc + (i : Int))).sum

end NetSimplex

/-- Scenario S3: supplies `+1, -1` and no real arc. -/
def scenarioS3 : Option NetSimplex := NetSimplex.ofInstance [1, -1] []

/-- The first `k` rounds of the loop of `start`: `findEnteringArc` followed by the pivot;
`none` when fewer than `k` entering arcs are found or a step fails. -/
def NetSimplex.rounds : Nat → BlockSearchPivotRule → NetSimplex →
    Option (BlockSearchPivotRule × NetSimplex)
  | 0, p, ns => some (p, ns)
  | k + 1, p, ns => do
    let (go, p, ns) ← p.findEnteringArc ns
    if go then do
      let ns ← NetSimplex.pivot ns
      NetSimplex.rounds k p ns
    else none

/-- The solver after `run` has reset the arcs and called `init`, before the pivot loop. -/
def NetSimplex.prepared (ns : NetSimplex) : Option NetSimplex := do
  let ns ← NetSimplex.runReset ns.arc_num.toNat 0 { ns with iterations := 0 }
  let (_, ns) ← NetSimplex.init ns
  some ns

/-- Two nodes with supply 0 and the arcs `0 -> 1` and `1 -> 0`, both of cost `-1`. -/
def scenarioNegCycle : Option NetSimplex :=
  NetSimplex.ofInstance [0, 0] [⟨0, 1, -1⟩, ⟨1, 0, -1⟩]

/-- Scenario S5 up to the first `reRun`: ten nodes, supply `+1` at node 0 and `-1` at node 9,
an initial `run()`, then `updateArcs` with the arcs `0->1`, `1->2`, `2->3` of cost 1 and a
`reRun()`. -/
def scenarioS5FirstBatch : Option NetSimplex :=
  (NetSimplex.ofInstance [1, 0, 0, 0, 0, 0, 0, 0, 0, -1] []).bind fun ns =>
    (NetSimplex.run 5 ns).bind fun r =>
      (r.2.updateArcs [⟨0, 1, 1⟩, ⟨1, 2, 1⟩, ⟨2, 3, 1⟩]).bind fun r =>
        (NetSimplex.reRun 5 r.2).map fun r => r.2

namespace NetSimplex

/-- Arc `j` has the same source, target and cost in both solvers. -/
def SameArc (ns ns' : NetSimplex) (j : Int) : Prop :=
  rd ns'.source j = rd ns.source j ∧ rd ns'.target j = rd ns.target j ∧
    rd ns'.cost j = rd ns.cost j

/-- Arc `j` is at its lower bound with positive reduced cost. -/
def Replaceable (ns : NetSimplex) (j : Int) : Prop :=
  rd ns.state j = some STATE_LOWER ∧ ∃ r, redCost ns j = some r ∧ r > 0

/-- What the first loop of `updateArcs` keeps: the node vectors, the flows and the states,
every arc beyond slot `e`, and every replaced arc was replaceable in the original solver. -/
def ReplaceInv (ns cur : NetSimplex) (e : Int) : Prop :=
  Keeps [Fld.source, Fld.target, Fld.cost] [Sc.next_arc] ns cur ∧ cur.state = ns.state ∧
  (∀ j : Int, e < j → SameArc ns cur j) ∧
  ∀ j : Int, ¬ SameArc ns cur j → Replaceable ns j

/-- Solver `b` extends `a` by appended arcs: the node vectors are the same and every arc slot
of `a` holds the same entries in `b`. -/
def Extends (a b : NetSimplex) : Prop :=
  (∀ f : Fld, f.isNode = true → b.arr f = a.arr f) ∧
  (∀ j : Int, j < a.source.length → rd b.source j = rd a.source j) ∧
  (∀ j : Int, j < a.target.length → rd b.target j = rd a.target j) ∧
  (∀ j : Int, j < a.cost.length → rd b.cost j = rd a.cost j) ∧
  (∀ j : Int, j < a.flow.length → rd b.flow j = rd a.flow j) ∧
  (∀ j : Int, j < a.state.length → rd b.state j = rd a.state j) ∧
  a.source.length ≤ b.source.length ∧ a.target.length ≤ b.target.length ∧
  a.cost.length ≤ b.cost.length ∧ a.flow.length ≤ b.flow.length ∧
  a.state.length ≤ b.state.length

end NetSimplex

/-- The solver of scenario S1 after `run` and `updateArcs` with the one arc `1->0` of cost 5. -/
def updatedS1 : NetSimplex :=
  ((solvedS1.updateArcs [⟨1, 0, 5⟩]).map fun r => r.2).getD solvedS1

namespace NetSimplex

/-- What a step of `init` keeps when it writes arcs below `n` only and potentials 0 only:
zero potentials stay zero, the supplies below `n` and the arcs from `n` on are as before. -/
def InitFrame (n : Int) (a b : NetSimplex) : Prop :=
  (∀ i : Int, rd a.pi i = some 0 → rd b.pi i = some 0) ∧
  (∀ j : Int, j < n → rd b.supply j = rd a.supply j) ∧
  ∀ j : Int, n ≤ j → rd b.source j = rd a.source j ∧ rd b.target j = rd a.target j ∧
    rd b.cost j = rd a.cost j ∧ rd b.flow j = rd a.flow j ∧ rd b.state j = rd a.state j

end NetSimplex

namespace NetSimplex

/-- The vectors a pivot may write. -/
def pivotFields : List Fld :=
  [Fld.flow, Fld.pi, Fld.parent, Fld.pred, Fld.thread, Fld.rev_thread, Fld.succ_num,
   Fld.last_succ, Fld.pred_dir]

end NetSimplex

namespace NetSimplex

/-- The scalars a pivot may write. -/
def pivotScalars : List Sc := [Sc.join, Sc.u_in, Sc.v_in, Sc.u_out, Sc.v_out, Sc.delta]

end NetSimplex

namespace NetSimplex

/-- Frame condition of the parts of a pivot. -/
def PivotKeeps (a b : NetSimplex) : Prop := Keeps pivotFields pivotScalars a b

end NetSimplex

namespace NetSimplex

/-- The writes of one round of the loop of `init`, for node `u` of supply `bu`: each vector
of `b` is the vector of `a` with one entry written. -/
def ArcWrites (A : Int) (a b : NetSimplex) (u bu : Int) : Prop :=
  wr a.parent u a.root = some b.parent ∧
  wr a.pred u u = some b.pred ∧
  wr a.thread u (u + 1) = some b.thread ∧
  wr a.rev_thread (u + 1) u = some b.rev_thread ∧
  wr a.succ_num u 1 = some b.succ_num ∧
  wr a.last_succ u u = some b.last_succ ∧
  wr a.state u STATE_TREE = some b.state ∧
  wr a.pred_dir u (if bu ≥ 0 then DIR_UP else DIR_DOWN) = some b.pred_dir ∧
  wr a.pi u (if bu ≥ 0 then 0 else A) = some b.pi ∧
  wr a.source u (if bu ≥ 0 then u else a.root) = some b.source ∧
  wr a.target u (if bu ≥ 0 then a.root else u) = some b.target ∧
  wr a.flow u (initFlow bu) = some b.flow ∧
  wr a.cost u (if bu ≥ 0 then 0 else A) = some b.cost

end NetSimplex

namespace NetSimplex

/-- The entries of the initial star basis for node `u` of supply `bu`. -/
def StarNode (A : Int) (ns : NetSimplex) (u bu : Int) : Prop :=
  rd ns.parent u = some ns.root ∧
  rd ns.pred u = some u ∧
  rd ns.thread u = some (u + 1) ∧
  rd ns.rev_thread (u + 1) = some u ∧
  rd ns.succ_num u = some 1 ∧
  rd ns.last_succ u = some u ∧
  rd ns.state u = some STATE_TREE ∧
  rd ns.pred_dir u = some (if bu ≥ 0 then DIR_UP else DIR_DOWN) ∧
  rd ns.pi u = some (if bu ≥ 0 then 0 else A) ∧
  rd ns.source u = some (if bu ≥ 0 then u else ns.root) ∧
  rd ns.target u = some (if bu ≥ 0 then ns.root else u) ∧
  rd ns.flow u = some (initFlow bu) ∧
  rd ns.cost u = some (if bu ≥ 0 then 0 else A)

end NetSimplex

namespace NetSimplex

/-- The entries of the initial star basis for the root. -/
def StarRoot (ns : NetSimplex) : Prop :=
  rd ns.parent ns.root = some (-1) ∧ rd ns.pred ns.root = some (-1) ∧
  rd ns.thread ns.root = some 0 ∧ rd ns.rev_thread 0 = some ns.root ∧
  rd ns.succ_num ns.root = some (ns.node_num + 1) ∧
  rd ns.last_succ ns.root = some (ns.root - 1) ∧
  rd ns.supply ns.root = some (-ns.sum_supply) ∧ rd ns.pi ns.root = some 0

end NetSimplex

namespace NetSimplex

/-- Frame condition of the tree phase of a pivot, seen from the root `n`: the entries of
`pred`, `parent` and `pred_dir` at `n` stay, and of the scalars only `v_out` may change. -/
def RootKeeps (n : Int) (a b : NetSimplex) : Prop :=
  Keeps pivotFields [Sc.v_out] a b ∧ rd b.pred n = rd a.pred n ∧
  rd b.parent n = rd a.parent n ∧ rd b.pred_dir n = rd a.pred_dir n

end NetSimplex

namespace NetSimplex

/-- Two solvers that differ at most in the scalars named in `gs`. -/
def Agree (gs : List Sc) (a b : NetSimplex) : Prop := Keeps [] gs a b ∧ b.state = a.state

end NetSimplex

namespace NetSimplex

/-- Loop of `init` for an inexact cost type, over `k` arcs from arc `i` on:
`if (_cost[i] > ART_COST) ART_COST = _cost[i];`. -/
def artCostLoop (ns : NetSimplex) : Nat → Int → Int → Option Int
  | 0, _, a => some a
  | k + 1, i, a => do
    let c ← rd ns.cost i
    artCostLoop ns k (i + 1) (if c > a then c else a)

end NetSimplex

namespace NetSimplex

/-- The artificial cost `ART_COST` that `init` computes; `isExact` stands for
`std::numeric_limits<Cost>::is_exact`.  For an inexact cost type the costs are taken as exact
numbers, without rounding. -/
def initArtCost (isExact : Bool) (ns : NetSimplex) : Option Int :=
  if isExact then some (ns.COST_MAX / 2 + 1)
  else do
    let a ← artCostLoop ns (ns.arc_num - ns.dummy_arc).toNat ns.dummy_arc 0
    some ((a + 1) * ns.node_num)

end NetSimplex

namespace NetSimplex

/-- The costs of the real arcs `_dummy_arc, ..., _arc_num - 1`. -/
def realCosts (ns : NetSimplex) : List Int :=
  (ns.cost.drop ns.dummy_arc.toNat).take (ns.arc_num - ns.dummy_arc).toNat

end NetSimplex

namespace NetSimplex

/-- The artificial cost of a floating cost type in the words of the specification:
`(1 + max_real_arc_cost) * N`, with the largest cost among the real arcs. -/
def artCostSpecFloat (ns : NetSimplex) : Option Int :=
  (realCosts ns).max?.map fun M => (1 + M) * ns.node_num

end NetSimplex

/-- Two nodes with supplies `+1, -1` and one arc `0 -> 1` of cost `-3`. -/
def solverNegArc : NetSimplex :=
  (NetSimplex.ofInstance [1, -1] [⟨0, 1, -3⟩]).getD (NetSimplex.create 2147483647 2147483647 0)

/-- The three verbosity values `KWD_VAL_SILENT`, `KWD_VAL_INFO` and `KWD_VAL_DEBUG`. -/
inductive Verbosity where
  | SILENT
  | INFO
  | DEBUG
  deriving DecidableEq, Repr

/-- The members `_timelimit`, `_verbosity` and `N_IT_LOG` of the solver. -/
structure Settings where
  timelimit : Int
  verbosity : Verbosity
  N_IT_LOG : Int
  deriving DecidableEq, Repr

namespace Settings

/-- The values the constructor gives the three members; `tmax` stands for
`std::numeric_limits<double>::max()`. -/
def create (tmax : Int) : Settings :=
  { timelimit := tmax, verbosity := Verbosity.INFO, N_IT_LOG := 1000 }

end Settings

namespace Settings

/-- Method `setTimelimit(t)`. -/
def setTimelimit (s : Settings) (t : Int) : Settings := { s with timelimit := t }

end Settings

namespace Settings

/-- Method `setVerbosity(v)` for one of the three verbosity values. -/
def setVerbosity (s : Settings) (v : Verbosity) : Settings :=
  let s := { s with verbosity := v }
  let s := if v = Verbosity.DEBUG then { s with N_IT_LOG := 100000 } else s
  let s := if v = Verbosity.INFO then { s with N_IT_LOG := 10000000 } else s
  if v = Verbosity.SILENT then { s with N_IT_LOG := 0 } else s

end Settings

namespace Settings

/-- The test of `start` after `_iterations++`, at iteration count `i`, when the clock shows
the time `tot` since the call of `start`: `N_IT_LOG > 0`, `_iterations % N_IT_LOG == 0` and
`tot > _timelimit`. -/
def timedOut (s : Settings) (i : Nat) (tot : Int) : Bool :=
  decide (s.N_IT_LOG > 0 ∧ (i : Int) % s.N_IT_LOG = 0 ∧ tot > s.timelimit)

end Settings

namespace NetSimplex

/-- The `while (true)` loop of `start` with its time limit test, run for at most `fuel`
rounds; `elapsed i` is the time the clock shows since the call of `start` when it is read at
iteration count `i`.  The progress lines of verbosity `DEBUG` are output only. -/
def startLoopTimed (cfg : Settings) (elapsed : Nat → Int) :
    Nat → BlockSearchPivotRule → NetSimplex → Option (ProblemType × NetSimplex)
  | 0, _, _ => none
  | fuel + 1, p, ns => do
    let (go, p, ns) ← p.findEnteringArc ns
    if go then do
      let ns ← pivot ns
      if cfg.timedOut ns.iterations (elapsed ns.iterations) then
        some (ProblemType.TIMELIMIT, ns)
      else startLoopTimed cfg elapsed fuel p ns
    else some (ProblemType.OPTIMAL, ns)

end NetSimplex

namespace NetSimplex

/-- Method `start(pivot_rule)` with the time limit test. -/
def startTimed (cfg : Settings) (elapsed : Nat → Int) (fuel : Nat) (ns : NetSimplex) :
    Option (ProblemType × NetSimplex) :=
  startLoopTimed cfg elapsed fuel (BlockSearchPivotRule.create ns) ns

end NetSimplex

namespace NetSimplex

/-- Method `run()` with the time limit test of `start`. -/
def runTimed (cfg : Settings) (elapsed : Nat → Int) (fuel : Nat) (ns : NetSimplex) :
    Option (ProblemType × NetSimplex) := do
  let ns ← runReset ns.arc_num.toNat 0 { ns with iterations := 0 }
  let (ok, ns) ← init ns
  if ok then startTimed cfg elapsed fuel ns else some (ProblemType.INFEASIBLE, ns)

end NetSimplex

/-- The solver of the negative cycle scenario before `run`. -/
def solverNegCycle : NetSimplex :=
  scenarioNegCycle.getD (NetSimplex.create 2147483647 2147483647 0)

/-- The negative cycle scenario after an odd number `i >= 3` of pivots. -/
def negCycleOdd (i : Nat) : NetSimplex :=
  { node_num := 2, arc_num := 4, dummy_arc := 2, next_arc := 2, sum_supply := 0,
    source := [0, 1, 0, 1], target := [2, 2, 1, 0], supply := [0, 0, 0],
    flow := [0, 0, 2147483647, 2147483647], cost := [0, 0, -1, -1], pi := [1, 0, 0],
    parent := [1, 2, -1], pred := [2, 1, -1], thread := [2, 0, 1], rev_thread := [1, 2, 0],
    succ_num := [1, 2, 3], last_succ := [0, 0, 0], pred_dir := [1, 1, 0],
    state := [true, false, false, true],
    root := 2, in_arc := 2, join := 1, u_in := 0, v_in := 1, u_out := 0, v_out := 1, delta := 0,
    MAX := 2147483647, COST_MAX := 2147483647, iterations := i }

/-- The negative cycle scenario after an even number `i >= 4` of pivots. -/
def negCycleEven (i : Nat) : NetSimplex :=
  { node_num := 2, arc_num := 4, dummy_arc := 2, next_arc := 2, sum_supply := 0,
    source := [0, 1, 0, 1], target := [2, 2, 1, 0], supply := [0, 0, 0],
    flow := [0, 0, 2147483647, 2147483647], cost := [0, 0, -1, -1], pi := [-1, 0, 0],
    parent := [1, 2, -1], pred := [3, 1, -1], thread := [2, 0, 1], rev_thread := [1, 2, 0],
    succ_num := [1, 2, 3], last_succ := [0, 0, 0], pred_dir := [-1, 1, 0],
    state := [true, false, true, false],
    root := 2, in_arc := 3, join := 1, u_in := 0, v_in := 1, u_out := 0, v_out := 1, delta := 0,
    MAX := 2147483647, COST_MAX := 2147483647, iterations := i }

/-- The pivot rule of the negative cycle scenario with its cursor at arc `e`. -/
def negCycleRule (e : Int) : BlockSearchPivotRule :=
  { arc_num := 4, dummy_arc := 2, block_size := 20, next_arc := e }

/-- The settings of the time limit scenario: time limit 0, the given verbosity. -/
def zeroLimit (v : Verbosity) : Settings := ((Settings.create 0).setTimelimit 0).setVerbosity v

namespace NetSimplex

/-- The entry `_parent[u]`, or `-1` outside the vector. -/
def par (ns : NetSimplex) (u : Int) : Int := (rd ns.parent u).getD (-1)

end NetSimplex

namespace NetSimplex

/-- The entry `_pred[u]`, or `-1` outside the vector. -/
def predOf (ns : NetSimplex) (u : Int) : Int := (rd ns.pred u).getD (-1)

end NetSimplex

namespace NetSimplex

/-- The entry `_pred_dir[u]`, or `0` outside the vector. -/
def dirOf (ns : NetSimplex) (u : Int) : Int := (rd ns.pred_dir u).getD 0

end NetSimplex

namespace NetSimplex

/-- The entry `_flow[e]`, or `0` outside the vector. -/
def flowAt (ns : NetSimplex) (e : Int) : Int := (rd ns.flow e).getD 0

end NetSimplex

namespace NetSimplex

/-- The nodes `u, _parent[u], ...` that come before node `j` on the way up from `u`. -/
def Walk (ns : NetSimplex) (j : Int) : Int → List Int → Prop
  | u, [] => u = j
  | u, x :: l => x = u ∧ u ≠ j ∧ Walk ns j (ns.par u) l

end NetSimplex

namespace NetSimplex

/-- The value `d` that the loops of `findLeavingArc` compute for node `u`: on the first walk
`INF - flow` for `DIR_DOWN`, on the second walk `INF - flow` for `DIR_UP`, else the flow. -/
def walkResidual (ns : NetSimplex) (first : Bool) (u : Int) : Int :=
  if ns.dirOf u = (if first then DIR_DOWN else DIR_UP) then ns.INF - ns.flowAt (ns.predOf u)
  else ns.flowAt (ns.predOf u)

end NetSimplex

namespace NetSimplex

/-- The residual of node `u` in the words of the specification: the flow of `pred[u]` when
the augmentation decreases it (`pred_dir` `UP` on the first walk, `DOWN` on the second), and
`INF` minus that flow otherwise. -/
def residualSpec (ns : NetSimplex) (first : Bool) (u : Int) : Int :=
  if ns.dirOf u = (if first then DIR_UP else DIR_DOWN) then ns.flowAt (ns.predOf u)
  else ns.INF - ns.flowAt (ns.predOf u)

end NetSimplex

/-- Scenario S2 after `init`, the first `findEnteringArc` and `findJoinNode`. -/
def joinedS2 : NetSimplex :=
  ((scenarioS2.bind NetSimplex.prepared).bind fun ns =>
    ((BlockSearchPivotRule.create ns).findEnteringArc ns).bind fun r =>
      NetSimplex.findJoinNode r.2.2).getD (NetSimplex.create 2147483647 2147483647 0)

/-- Scenario S2 after the first `findLeavingArc`. -/
def leavingS2 : Bool × NetSimplex :=
  (NetSimplex.findLeavingArc joinedS2).getD (false, joinedS2)

namespace NetSimplex

/-- The entry `_source[e]`, or `-1` outside the vector. -/
def srcOf (ns : NetSimplex) (e : Int) : Int := (rd ns.source e).getD (-1)

end NetSimplex

namespace NetSimplex

/-- The entry `_target[e]`, or `-1` outside the vector. -/
def tgtOf (ns : NetSimplex) (e : Int) : Int := (rd ns.target e).getD (-1)

end NetSimplex

namespace NetSimplex

/-- The entry `_state[e]`, or `STATE_LOWER` outside the vector. -/
def stateAt (ns : NetSimplex) (e : Int) : Bool := (rd ns.state e).getD STATE_LOWER

end NetSimplex

namespace NetSimplex

/-- The entry `_succ_num[u]`, or `0` outside the vector. -/
def succOf (ns : NetSimplex) (u : Int) : Int := (rd ns.succ_num u).getD 0

end NetSimplex

namespace NetSimplex

/-- The part of the basis invariants that `findJoinNode`, `findLeavingArc`, `changeFlow` and
the updates of `_parent`, `_pred` and `_pred_dir` rely on, for `n` real nodes and `m` arcs:
the root `n` has no parent and no predecessor arc; from every real node the parent chain
reaches the root; the predecessor arc of a real node joins it to its parent, `pred_dir` says
which end the node is; `_succ_num` grows strictly from a node to its parent. -/
structure TreeBasis (ns : NetSimplex) (n m : Nat) : Prop where
  sized : ns.Sized n m
  nodes : ns.node_num = n
  root : ns.root = n
  parent_root : rd ns.parent n = some (-1)
  pred_root : rd ns.pred n = some (-1)
  reach : ∀ u : Int, 0 ≤ u → u < n → ∃ k : Nat, (ns.par)^[k] u = n
  parent_range : ∀ u : Int, 0 ≤ u → u < n → 0 ≤ ns.par u ∧ ns.par u ≤ n
  pred_range : ∀ u : Int, 0 ≤ u → u < n → 0 ≤ ns.predOf u ∧ ns.predOf u < m
  pred_arc : ∀ u : Int, 0 ≤ u → u < n →
    (ns.dirOf u = DIR_UP ∧ ns.srcOf (ns.predOf u) = u ∧ ns.tgtOf (ns.predOf u) = ns.par u) ∨
    (ns.dirOf u = DIR_DOWN ∧ ns.srcOf (ns.predOf u) = ns.par u ∧ ns.tgtOf (ns.predOf u) = u)
  succ_lt : ∀ u : Int, 0 ≤ u → u < n → ns.succOf u < ns.succOf (ns.par u)

end NetSimplex

namespace NetSimplex

/-- The sum of `_pred_dir[x]` over the nodes `x` of a list whose predecessor arc is `e`. -/
def dirSum (ns : NetSimplex) (l : List Int) (e : Int) : Int :=
  ((l.filter fun x => decide (ns.predOf x = e)).map ns.dirOf).sum

end NetSimplex

/-- Two nodes with supplies `+1, -1` and the arcs `0 -> 1` and `1 -> 0`, both of cost `-1`. -/
def scenarioSupplyCycle : Option NetSimplex :=
  NetSimplex.ofInstance [1, -1] [⟨0, 1, -1⟩, ⟨1, 0, -1⟩]

/-- Scenario S1 after `init` and the first `findEnteringArc`. -/
def enteredS1 : NetSimplex :=
  ((scenarioS1.bind NetSimplex.prepared).bind fun ns =>
    ((BlockSearchPivotRule.create ns).findEnteringArc ns).map fun r => r.2.2).getD
      (NetSimplex.create 2147483647 2147483647 0)

/-- Scenario S1 after the first `findJoinNode`. -/
def joinedS1 : NetSimplex := (NetSimplex.findJoinNode enteredS1).getD enteredS1

/-- Scenario S1 after the first `findLeavingArc`. -/
def leavingS1 : Bool × NetSimplex := (NetSimplex.findLeavingArc joinedS1).getD (false, joinedS1)

/-- Scenario S1 after the first `changeFlow`. -/
def changedS1 : NetSimplex := (NetSimplex.changeFlow leavingS1.2).getD leavingS1.2

namespace NetSimplex

/-- Frame condition of the tree update: from `a` to `b` only the vectors named in `w` may
have changed; the arc states, all scalars and the iteration counter are the same. -/
def Writes (w : List Fld) (a b : NetSimplex) : Prop := Keeps w [] a b ∧ b.state = a.state

end NetSimplex

namespace NetSimplex

/-- The vectors written by the thread part of the tree update. -/
def threadFields : List Fld := [Fld.thread, Fld.rev_thread, Fld.parent, Fld.last_succ]

end NetSimplex

namespace NetSimplex

/-- The vectors written by the predecessor part of the tree update. -/
def predFields : List Fld :=
  [Fld.rev_thread, Fld.pred, Fld.pred_dir, Fld.succ_num, Fld.last_succ]

end NetSimplex

namespace NetSimplex

/-- The vectors written by `updateTreeStructure`. -/
def treeFields : List Fld :=
  [Fld.parent, Fld.pred, Fld.pred_dir, Fld.thread, Fld.rev_thread, Fld.succ_num, Fld.last_succ]

end NetSimplex

namespace NetSimplex

/-- The parent of node `x` after the stem `l` has been turned around: the first stem node
gets `v0`, every later stem node gets the stem node before it, and a node off the stem
keeps `d`. -/
def stemParent (v0 : Int) : List Int → Int → Int → Int
  | [], _, d => d
  | s :: l, x, d => if x = s then v0 else stemParent s l x d

end NetSimplex

namespace NetSimplex

/-- The spanning tree of a basis for `n` real nodes and `m` arcs, as C24 describes it: the
root `n` has no parent and no predecessor arc; from every real node the parent chain reaches
the root; the predecessor arc of a real node joins it to its parent, and `_pred_dir` says
which end the node is. -/
structure SpanningTree (ns : NetSimplex) (n m : Nat) : Prop where
  sized : ns.Sized n m
  nodes : ns.node_num = n
  root : ns.root = n
  parent_root : rd ns.parent n = some (-1)
  pred_root : rd ns.pred n = some (-1)
  reach : ∀ u : Int, 0 ≤ u → u < n → ∃ k : Nat, (ns.par)^[k] u = n
  parent_range : ∀ u : Int, 0 ≤ u → u < n → 0 ≤ ns.par u ∧ ns.par u ≤ n
  pred_range : ∀ u : Int, 0 ≤ u → u < n → 0 ≤ ns.predOf u ∧ ns.predOf u < m
  pred_arc : ∀ u : Int, 0 ≤ u → u < n →
    (ns.dirOf u = DIR_UP ∧ ns.srcOf (ns.predOf u) = u ∧ ns.tgtOf (ns.predOf u) = ns.par u) ∨
    (ns.dirOf u = DIR_DOWN ∧ ns.srcOf (ns.predOf u) = ns.par u ∧ ns.tgtOf (ns.predOf u) = u)

end NetSimplex

namespace NetSimplex

/-- The exchange of the basis: the set of predecessor arcs of the real nodes after the
update is the set before it, without `pred[u_out]` and with the entering arc. -/
def Exchanged (a b : NetSimplex) (n : Nat) : Prop :=
  ∀ e : Int, (∃ u : Int, 0 ≤ u ∧ u < n ∧ b.predOf u = e) ↔
    (e = a.in_arc ∨ ((∃ u : Int, 0 ≤ u ∧ u < n ∧ a.predOf u = e) ∧ e ≠ a.predOf a.u_out))

end NetSimplex

/-- Three nodes with supplies `0, +1, -1` and the arcs `0 -> 2` (cost 4) and `1 -> 0`
(cost 2): the second pivot turns around a stem of two nodes. -/
def scenarioStem : Option NetSimplex :=
  NetSimplex.ofInstance [0, 1, -1] [⟨0, 2, 4⟩, ⟨1, 0, 2⟩]

/-- The stem scenario after `init`, one complete pivot and the second `findEnteringArc`. -/
def enteredStem : NetSimplex :=
  ((scenarioStem.bind NetSimplex.prepared).bind fun ns =>
    ((BlockSearchPivotRule.create ns).findEnteringArc ns).bind fun r =>
      (NetSimplex.pivot r.2.2).bind fun ns1 =>
        (r.2.1.findEnteringArc ns1).map fun r1 => r1.2.2).getD
      (NetSimplex.create 2147483647 2147483647 0)

/-- The stem scenario after the second `findJoinNode`. -/
def joinedStem : NetSimplex := (NetSimplex.findJoinNode enteredStem).getD enteredStem

/-- The stem scenario after the second `findLeavingArc`. -/
def leavingStem : Bool × NetSimplex :=
  (NetSimplex.findLeavingArc joinedStem).getD (false, joinedStem)

/-- The stem scenario after the second `changeFlow`. -/
def changedStem : NetSimplex := (NetSimplex.changeFlow leavingStem.2).getD leavingStem.2

/-- The stem scenario after the second `updateTreeStructure`. -/
def treeStem : NetSimplex := (NetSimplex.updateTreeStructure changedStem).getD changedStem

namespace NetSimplex

/-- The arcs below `m` that are in state `STATE_TREE`. -/
def treeArcs (ns : NetSimplex) (m : Nat) : List Nat :=
  (List.range m).filter fun e => ns.stateAt (e : Int) == STATE_TREE

end NetSimplex

namespace NetSimplex

/-- The arc states match the basis: an arc below `m` is in state `STATE_TREE` exactly when
it is the predecessor arc of a real node. -/
def StatesMatch (ns : NetSimplex) (n m : Nat) : Prop :=
  ∀ e : Int, 0 ≤ e → e < m →
    (ns.stateAt e = STATE_TREE ↔ ∃ u : Int, 0 ≤ u ∧ u < n ∧ ns.predOf u = e)

end NetSimplex

/-- The `k` consecutive arc ids from `e` on, in increasing order. -/
def arcsFrom : Int → Nat → List Int
  | _, 0 => []
  | e, k + 1 => e :: arcsFrom (e + 1) k

namespace BlockSearchPivotRule

/-- The order in which a full pass of `findEnteringArc` meets the arcs: from `_next_arc` to
the last arc, then from `_dummy_arc` up to `_next_arc`. -/
def scanOrder (p : BlockSearchPivotRule) : List Int :=
  arcsFrom p.next_arc (p.arc_num - p.next_arc).toNat ++
    arcsFrom p.dummy_arc (p.next_arc - p.dummy_arc).toNat

end BlockSearchPivotRule

namespace NetSimplex

/-- The signed reduced cost of arc `e` as a total function (0 where an index is out of
range). -/
def signedOf (ns : NetSimplex) (e : Int) : Int := (ns.signedRedCost e).getD 0

end NetSimplex

/-- The value `m` and the arc `a` are the running minimum of a scan that started with minimum
0 and arc `a0` and has met the arcs `H`: `m` is below 0 and all the signed reduced costs met;
while it is 0 the arc is still `a0`; once it is negative, `a` is the first arc of `H` whose
signed reduced cost is `m`. -/
def FirstMin (ns : NetSimplex) (a0 : Int) (H : List Int) (m a : Int) : Prop :=
  m ≤ 0 ∧ (∀ x ∈ H, m ≤ ns.signedOf x) ∧ (m = 0 → a = a0) ∧
  (m < 0 → ∃ H1 H2, H = H1 ++ a :: H2 ∧ ns.signedOf a = m ∧ ∀ x ∈ H1, m < ns.signedOf x)

/-- The state of a scan that has met the arcs `H` without committing: `B` of them lie in
completed blocks, none of which held an eligible arc, and `cnt` counts down the rest of the
current block. -/
structure ScanInv (ns : NetSimplex) (bs : Int) (a0 : Int) (H : List Int) (B : Nat)
    (sc : Scan) : Prop where
  uncommitted : sc.committed = false
  cnt_pos : 1 ≤ sc.cnt
  cnt_le : sc.cnt ≤ bs
  len : (H.length : Int) = B + (bs - sc.cnt)
  blocks : ∃ q : Nat, (B : Int) = q * bs
  clean : ∀ x ∈ H.take B, 0 ≤ ns.signedOf x
  best : FirstMin ns a0 H sc.min sc.in_arc

/-- The state of a scan that has committed after the arcs `H`: `H` ends at a block boundary,
the blocks before the last one held no eligible arc, and the minimum is negative. -/
def ScanDone (ns : NetSimplex) (bs : Int) (a0 : Int) (H : List Int) (sc : Scan) : Prop :=
  ∃ B q : Nat, (B : Int) = q * bs ∧ (H.length : Int) = B + bs ∧
    (∀ x ∈ H.take B, 0 ≤ ns.signedOf x) ∧ FirstMin ns a0 H sc.min sc.in_arc ∧ sc.min < 0

namespace BlockSearchPivotRule

/-- The choice of the block search, in the words of the specification: for some `q`, the
first `q` blocks of the scan order hold no eligible arc, and among the arcs examined (the
first `q + 1` blocks, or the whole pass where it is shorter) `a` has a negative signed
reduced cost that is strictly below those of the arcs examined before it and not above those
of the arcs examined after it. -/
def Chosen (p : BlockSearchPivotRule) (ns : NetSimplex) (a : Int) : Prop :=
  ∃ (q : Nat) (H1 H2 : List Int),
    p.scanOrder.take ((q + 1) * p.block_size.toNat) = H1 ++ a :: H2 ∧
    (∀ x ∈ p.scanOrder.take (q * p.block_size.toNat), 0 ≤ ns.signedOf x) ∧
    ns.signedOf a < 0 ∧ (∀ x ∈ H1, ns.signedOf a < ns.signedOf x) ∧
    (∀ x ∈ H2, ns.signedOf a ≤ ns.signedOf x)

end BlockSearchPivotRule

/-- Scenario S2 after the reset loop of `run` and `init`, before the first pivot. -/
def preparedS2 : NetSimplex := (scenarioS2.bind NetSimplex.prepared).getD solverS1

/-- A pivot rule for scenario S2 with blocks of two arcs and the cursor at arc 6. -/
def ruleS2 : BlockSearchPivotRule := { arc_num := 8, dummy_arc := 4, block_size := 2, next_arc := 6 }

/-- A call of one of the methods that store arcs. -/
inductive ArcOp where
  | addArc (a b c : Int)
  | setArc (idx a b c : Int)
  | resizeArcMemory (s : Nat)
  | updateArcs (as : List Var)

/-- The slots a call adds beyond the arcs it counts: `resizeArcMemory(s)` adds `s` slots and
counts none, `setArc` counts an arc and adds no slot, `addArc` and `updateArcs` add a slot for
every arc they count. -/
def ArcOp.slack : ArcOp → Int
  | ArcOp.addArc _ _ _ => 0
  | ArcOp.setArc _ _ _ _ => -1
  | ArcOp.resizeArcMemory s => s
  | ArcOp.updateArcs _ => 0

/-- The slots a sequence of calls adds beyond the arcs it counts. -/
def slackOf : List ArcOp → Int
  | [] => 0
  | op :: ops => op.slack + slackOf ops

namespace NetSimplex

/-- The solver after one call. -/
def applyOp (ns : NetSimplex) : ArcOp → Option NetSimplex
  | ArcOp.addArc a b c => some (ns.addArc a b c).2
  | ArcOp.setArc idx a b c => ns.setArc idx a b c
  | ArcOp.resizeArcMemory s => some (ns.resizeArcMemory s)
  | ArcOp.updateArcs as => (ns.updateArcs as).map fun r => r.2

end NetSimplex

namespace NetSimplex

/-- The solver after a sequence of calls. -/
def applyOps : List ArcOp → NetSimplex → Option NetSimplex
  | [], ns => some ns
  | op :: ops, ns => (ns.applyOp op).bind (applyOps ops)

end NetSimplex

namespace NetSimplex

/-- The five arc vectors have the length `L`. -/
def ArcLen (ns : NetSimplex) (L : Nat) : Prop :=
  ns.source.length = L ∧ ns.target.length = L ∧ ns.cost.length = L ∧ ns.flow.length = L ∧
    ns.state.length = L

end NetSimplex

/-- The stem scenario after its second complete pivot. -/
def pivotedStem : NetSimplex := (NetSimplex.pivot enteredStem).getD enteredStem

namespace NetSimplex

/-- Node `w` is in the subtree of node `u`: the parent chain of `w` passes through `u`. -/
def Anc (ns : NetSimplex) (u w : Int) : Prop := ∃ k : Nat, (ns.par)^[k] w = u

end NetSimplex

namespace NetSimplex

/-- The entries of `_succ_num` are the subtree sizes: for every node `u` of `0..n` there is
a list without repetitions of exactly the nodes of the subtree of `u`, of length
`_succ_num[u]`. -/
def SubtreeSizes (ns : NetSimplex) (n : Nat) : Prop :=
  ∀ u : Int, 0 ≤ u → u ≤ n →
    ∃ blk : List Int, blk.Nodup ∧ (∀ w, w ∈ blk ↔ ns.Anc u w) ∧ (blk.length : Int) = ns.succOf u

end NetSimplex

/-- The stem scenario after the second `updatePotential`. -/
def potentialStem : NetSimplex := (NetSimplex.updatePotential treeStem).getD treeStem

/-- A value of a numeric type with infinity (`std::numeric_limits<Value>::has_infinity`): a
finite number or `+inf`. -/
inductive Val where
  | fin (v : Int)
  | inf
  deriving DecidableEq, Repr

namespace Val

/-- The comparison `a < b`. -/
def lt : Val → Val → Bool
  | fin a, fin b => decide (a < b)
  | fin _, inf => true
  | inf, _ => false


/-- The comparison `a <= b`. -/
def le : Val → Val → Bool
  | fin a, fin b => decide (a ≤ b)
  | _, inf => true
  | inf, fin _ => false


/-- The difference `a - f` for a finite `f`: `inf - f = inf`. -/
def subFin : Val → Int → Val
  | fin a, f => fin (a - f)
  | inf, _ => inf

end Val

/-- The members that `findLeavingArc` reads and writes, in `NetSimplex` and in
`NetSimplexCapacity`, for a value type with infinity: `MAX` is the largest finite value and
`INF` is `Val.inf`; the flows are finite values. `cap` and `state` are members of
`NetSimplexCapacity` only (`STATE_UPPER = -1`, `STATE_TREE = 0`, `STATE_LOWER = 1`). -/
structure LeavingSearch where
  source : List Int
  target : List Int
  parent : List Int
  pred : List Int
  pred_dir : List Int
  flow : List Int
  cap : List Val
  state : List Int
  in_arc : Int
  join : Int
  u_in : Int
  v_in : Int
  u_out : Int
  delta : Val
  MAX : Int
  deriving DecidableEq

namespace NetSimplexInfinity

/-- First loop of `NetSimplex::findLeavingArc` for a value type with infinity: `d = INF - d`
for `DIR_DOWN`, strict `<`. -/
def findLeavingFirst : Nat → Int → LeavingSearch → Int → Option (LeavingSearch × Int)
  | 0, _, _, _ => none
  | k + 1, u, ns, result =>
    if u = ns.join then some (ns, result) else do
      let e ← rd ns.pred u
      let f ← rd ns.flow e
      let dir ← rd ns.pred_dir u
      let d := if dir = DIR_DOWN then Val.inf.subFin f else Val.fin f
      let p ← rd ns.parent u
      if d.lt ns.delta then findLeavingFirst k p { ns with delta := d, u_out := u } 1
      else findLeavingFirst k p ns result


/-- Second loop of `NetSimplex::findLeavingArc` for a value type with infinity:
`d = INF - d` for `DIR_UP`, `<=`. -/
def findLeavingSecond : Nat → Int → LeavingSearch → Int → Option (LeavingSearch × Int)
  | 0, _, _, _ => none
  | k + 1, u, ns, result =>
    if u = ns.join then some (ns, result) else do
      let e ← rd ns.pred u
      let f ← rd ns.flow e
      let dir ← rd ns.pred_dir u
      let d := if dir = DIR_UP then Val.inf.subFin f else Val.fin f
      let p ← rd ns.parent u
      if d.le ns.delta then findLeavingSecond k p { ns with delta := d, u_out := u } 2
      else findLeavingSecond k p ns result


/-- Method `NetSimplex::findLeavingArc()` for a value type with infinity, with loops of at
most `k` steps: `delta = MAX` at the start. -/
def findLeavingArc (k : Nat) (ns : LeavingSearch) : Option (Bool × LeavingSearch) := do
  let first ← rd ns.source ns.in_arc
  let second ← rd ns.target ns.in_arc
  let ns := { ns with delta := Val.fin ns.MAX }
  let (ns, result) ← findLeavingFirst k first ns 0
  let (ns, result) ← findLeavingSecond k second ns result
  if result = 1 then some (true, { ns with u_in := first, v_in := second })
  else some (result ≠ 0, { ns with u_in := second, v_in := first })

end NetSimplexInfinity

namespace NetSimplexCapacity

/-- The constant `STATE_LOWER` of `NetSimplexCapacity`. -/
def STATE_LOWER : Int := 1


/-- First loop of `NetSimplexCapacity::findLeavingArc`: for `DIR_DOWN`,
`d = c >= MAX ? INF : c - d` with `c = _cap[e]`; strict `<`. -/
def findLeavingFirst : Nat → Int → LeavingSearch → Int → Option (LeavingSearch × Int)
  | 0, _, _, _ => none
  | k + 1, u, ns, result =>
    if u = ns.join then some (ns, result) else do
      let e ← rd ns.pred u
      let f ← rd ns.flow e
      let dir ← rd ns.pred_dir u
      let d ← if dir = DIR_DOWN then do
          let c ← rd ns.cap e
          some (if (Val.fin ns.MAX).le c then Val.inf else c.subFin f)
        else some (Val.fin f)
      let p ← rd ns.parent u
      if d.lt ns.delta then findLeavingFirst k p { ns with delta := d, u_out := u } 1
      else findLeavingFirst k p ns result


/-- Second loop of `NetSimplexCapacity::findLeavingArc`: for `DIR_UP`,
`d = c >= MAX ? INF : c - d` with `c = _cap[e]`; `<=`. -/
def findLeavingSecond : Nat → Int → LeavingSearch → Int → Option (LeavingSearch × Int)
  | 0, _, _, _ => none
  | k + 1, u, ns, result =>
    if u = ns.join then some (ns, result) else do
      let e ← rd ns.pred u
      let f ← rd ns.flow e
      let dir ← rd ns.pred_dir u
      let d ← if dir = DIR_UP then do
          let c ← rd ns.cap e
          some (if (Val.fin ns.MAX).le c then Val.inf else c.subFin f)
        else some (Val.fin f)
      let p ← rd ns.parent u
      if d.le ns.delta then findLeavingSecond k p { ns with delta := d, u_out := u } 2
      else findLeavingSecond k p ns result


/-- Method `NetSimplexCapacity::findLeavingArc()`, with loops of at most `k` steps: the
direction of the cycle depends on the state of the entering arc, and `delta` starts at
`_cap[in_arc]`. -/
def findLeavingArc (k : Nat) (ns : LeavingSearch) : Option (Bool × LeavingSearch) := do
  let st ← rd ns.state ns.in_arc
  let s ← rd ns.source ns.in_arc
  let t ← rd ns.target ns.in_arc
  let first := if st = STATE_LOWER then s else t
  let second := if st = STATE_LOWER then t else s
  let c ← rd ns.cap ns.in_arc
  let ns := { ns with delta := c }
  let (ns, result) ← findLeavingFirst k first ns 0
  let (ns, result) ← findLeavingSecond k second ns result
  if result = 1 then some (true, { ns with u_in := first, v_in := second })
  else some (result ≠ 0, { ns with u_in := second, v_in := first })

end NetSimplexCapacity

/-- Every arc has an infinite capacity: the capacity vector has the length of the flow
vector and holds `INF` only. -/
def InfiniteCaps (a : LeavingSearch) : Prop := a.cap = List.replicate a.flow.length Val.inf

/-- How the search of `NetSimplexCapacity` (state `sC`, result `rC`) relates to the search of
`NetSimplex` (state `sN`, result `rN`) on the same data: either the two are in the same
state, or `NetSimplex` has not yet found a candidate (`delta = MAX`, result 0) while
`NetSimplexCapacity` holds a `delta` that is not below `MAX`. -/
def SearchRel (sN : LeavingSearch) (rN : Int) (sC : LeavingSearch) (rC : Int) : Prop :=
  (sC = sN ∧ rC = rN) ∨
  (∃ dc uo, sC = { sN with delta := dc, u_out := uo } ∧ sN.delta = Val.fin sN.MAX ∧ rN = 0 ∧
    (Val.fin sN.MAX).le dc = true)

/-- The nodes from `u` up the tree to `j`, `j` excluded: `l` lists `u`, `parent[u]`, ... as
the loops `for (u = first; u != join; u = _parent[u])` visit them. -/
def TreePath (parent : List Int) (j : Int) : Int → List Int → Prop
  | u, [] => u = j
  | u, x :: l => x = u ∧ u ≠ j ∧ ∃ p, rd parent u = some p ∧ TreePath parent j p l

/-- The predecessor arc of every node of `l`, its flow and its direction can be read. -/
def LeavingSearch.Readable (a : LeavingSearch) (l : List Int) : Prop :=
  ∀ x ∈ l, ∃ e f dir, rd a.pred x = some e ∧ rd a.flow e = some f ∧ rd a.pred_dir x = some dir

/-- Node `x` hangs on a tree arc with direction `dir` whose flow is `f`. -/
def LeavingSearch.ArcAt (a : LeavingSearch) (x dir f : Int) : Prop :=
  ∃ e, rd a.pred x = some e ∧ rd a.flow e = some f ∧ rd a.pred_dir x = some dir

/-- Two nodes 0 and 1 under the root 2 (tree arcs 0: 0 -> 2 and 1: 1 -> 2, both `DIR_UP`),
entering arc 2: 0 -> 1 at its lower bound, all capacities infinite, `MAX = 100`: the flow of
arc 0, which decreases on the first path, is `f0`. -/
def searchStar (f0 : Int) : LeavingSearch :=
  { source := [0, 1, 0], target := [2, 2, 1], parent := [2, 2, -1], pred := [0, 1, -1],
    pred_dir := [1, 1, 0], flow := [f0, 0, 0], cap := [Val.inf, Val.inf, Val.inf],
    state := [0, 0, 1], in_arc := 2, join := 2, u_in := -1, v_in := -1, u_out := -1,
    delta := Val.fin 0, MAX := 100 }

/-- What the claim compares: the return value, `delta`, `u_out`, `u_in` and `v_in`. -/
def LeavingSearch.outcome (r : Bool × LeavingSearch) : Bool × Val × Int × Int × Int :=
  (r.1, r.2.delta, r.2.u_out, r.2.u_in, r.2.v_in)

namespace NetSimplex

/-- The entry `_thread[u]`, or `-1` outside the vector. -/
def thr (ns : NetSimplex) (u : Int) : Int := (rd ns.thread u).getD (-1)

/-- The entry `_rev_thread[u]`, or `-1` outside the vector. -/
def revOf (ns : NetSimplex) (u : Int) : Int := (rd ns.rev_thread u).getD (-1)

/-- The entry `_last_succ[u]`, or `-1` outside the vector. -/
def lastOf (ns : NetSimplex) (u : Int) : Int := (rd ns.last_succ u).getD (-1)

/-- The traversal invariants of the basis for `n` real nodes, with the thread order `T`:
`T` lists the nodes `0..n` once, root first; `_thread` leads from each node of `T` to the
next and from the last back to the root, and `_rev_thread` leads back; the subtree of every
node `u` is a block of consecutive nodes of `T` that starts with `u`, has `_succ_num[u]`
nodes and ends with `_last_succ[u]` (so `T` is a depth-first pre-order of the tree). -/
structure Threaded (ns : NetSimplex) (n m : Nat) (T : List Int) : Prop where
  tree : ns.SpanningTree n m
  head : T.head? = some (n : Int)
  nodup : T.Nodup
  mem : ∀ u : Int, u ∈ T ↔ 0 ≤ u ∧ u ≤ n
  link : List.Chain' (fun a b => ns.thr a = b ∧ ns.revOf b = a) (T ++ [(n : Int)])
  blocks : ∀ u : Int, 0 ≤ u → u ≤ n → ∃ pre blk post : List Int,
    T = pre ++ (u :: blk) ++ post ∧ (∀ w, w ∈ u :: blk ↔ ns.Anc u w) ∧
    ((u :: blk).length : Int) = ns.succOf u ∧ (u :: blk).getLast? = some (ns.lastOf u)

/-- The list `L` with the list `X` inserted after the first occurrence of `v`. -/
def insAfter (v : Int) (X : List Int) : List Int → List Int
  | [] => []
  | a :: L => if a = v then a :: (X ++ L) else a :: insAfter v X L

/-- The nodes threaded after the old block of the current stem node: the parts `Y` of the
remaining segments, then `Z`. -/
def tailOf (Z : List Int) : List (List Int × List Int) → List Int
  | [] => Z
  | sg :: rest => sg.2 ++ tailOf Z rest

/-- The stem nodes still to come: the first nodes of the parts `P` of the segments. -/
def stemHeads : List (List Int × List Int) → List Int
  | [] => []
  | sg :: rest => sg.1.head?.toList ++ stemHeads rest

/-- The new block after the remaining segments have been appended to `N`. -/
def stemNew (N : List Int) : List (List Int × List Int) → List Int
  | [] => N
  | sg :: rest => stemNew (N ++ sg.1 ++ sg.2) rest

/-- The old block of the last stem node: every segment `(P, Y)` wraps the block so far. -/
def stemOld (Bs : List Int) : List (List Int × List Int) → List Int
  | [] => Bs
  | sg :: rest => stemOld (sg.1 ++ Bs ++ sg.2) rest

/-- What the stem loop needs to know of the old thread order, for the stem node `s` with
old block `Bs` and the segments `(P, Y)` of the stem nodes above it: the block of the parent
of `s` is `P ++ Bs ++ Y`, `P` starts with that parent and ends with the node threaded before
`s`, `Y` is empty exactly when parent and `s` have the same last successor, and `P` and `Y`
are threaded as listed, `Y` leading on into the rest. -/
def StemFacts (o : NetSimplex) (vin uo : Int) (Z : List Int) :
    Int → List Int → List (List Int × List Int) → Prop
  | s, _, [] => s = uo
  | s, Bs, sg :: rest =>
    s ≠ uo ∧ s ∈ Bs ∧ sg.1.head? = some (o.par s) ∧ sg.1.getLast? = some (o.revOf s) ∧
    (sg.2 = [] → o.lastOf (o.par s) = o.lastOf s) ∧
    (sg.2 ≠ [] → o.lastOf (o.par s) ≠ o.lastOf s ∧ sg.2.getLast? = some (o.lastOf (o.par s))) ∧
    List.Chain' (fun x y => o.thr x = y ∧ o.revOf y = x) sg.1 ∧
    List.Chain' (fun x y => o.thr x = y ∧ o.revOf y = x)
      (sg.2 ++ (tailOf Z rest).head?.toList) ∧
    (sg.1 ++ Bs ++ sg.2 ++ tailOf Z rest).Nodup ∧ vin ∉ sg.1 ++ Bs ++ sg.2 ∧
    StemFacts o vin uo Z (o.par s) (sg.1 ++ Bs ++ sg.2) rest

end NetSimplex

namespace NetSimplex

/-- The tree `c` is the tree `a` with the stem `l ++ [u_out]` turned around: both are
spanning trees, `l` leads from `u_in` up to `u_out`, no stem node is an ancestor of `v_in`,
and the parents in `c` are those of `a` but on the stem, where `u_in` hangs below `v_in` and
every other stem node below the stem node before it. -/
structure Turned (a c : NetSimplex) (n m : Nat) (l : List Int) : Prop where
  old : SpanningTree a n m
  new : SpanningTree c n m
  walk : Walk a a.u_out a.u_in l
  stem : ∀ y ∈ l ++ [a.u_out], 0 ≤ y ∧ y < n ∧ ¬ a.Anc y a.v_in
  vin : 0 ≤ a.v_in ∧ a.v_in ≤ n
  par : ∀ z, c.par z = stemParent a.v_in (l ++ [a.u_out]) z (a.par z)

/-- The blocks of the stem nodes in the old thread order: for the stem node `s` with block
`Bs` and the segments `(P, Y)` of the stem nodes above it, `P` starts with the parent of `s`
and `P ++ Bs ++ Y` is the block of that parent. -/
def StemShape (o : NetSimplex) (uo : Int) : Int → List Int → List (List Int × List Int) → Prop
  | s, _, [] => s = uo
  | s, Bs, sg :: rest =>
    s ≠ uo ∧ sg.1.head? = some (o.par s) ∧ (∀ w, w ∈ sg.1 ++ Bs ++ sg.2 ↔ o.Anc (o.par s) w) ∧
    StemShape o uo (o.par s) (sg.1 ++ Bs ++ sg.2) rest

/-- The new block `B'` of `u_in` is the old block `u_out :: blk` of `u_out` re-ordered along
the stem: the block of `u_in` first, then for every stem node above `u_in`, on the way up to
`u_out`, the rest of its block. -/
def Reordered (o : NetSimplex) (blk B' : List Int) : Prop :=
  ∃ (B0 : List Int) (segs : List (List Int × List Int)),
    B' = stemNew B0 segs ∧ o.u_out :: blk = stemOld B0 segs ∧ B0.head? = some o.u_in ∧
    (∀ w, w ∈ B0 ↔ o.Anc o.u_in w) ∧ StemShape o o.u_out o.u_in B0 segs

end NetSimplex

/-- The list `X` is a block of consecutive nodes of the list `L`. -/
def IsBlock (X L : List Int) : Prop := ∃ A Y : List Int, L = A ++ X ++ Y

namespace NetSimplex

/-- The state `c` after the first part of the tree update of `a` (the case distinction on
`u_in == u_out`): the block `u_out :: blk` has been re-ordered to `B'` and put into the
thread order after `v_in`; `_thread` and `_rev_thread` follow the new order; all stem nodes
have the last node of `B'` as `_last_succ`; `_succ_num[u_in]` is the old `_succ_num[u_out]`
and every other stem node has lost the old `_succ_num` of its new parent. -/
structure Spliced (a c : NetSimplex) (n : Nat) (l pre blk post B' : List Int) : Prop where
  order : B'.Perm (a.u_out :: blk)
  head : B'.head? = some a.u_in
  shape : Reordered a blk B'
  link : List.Chain' (fun x y => c.thr x = y ∧ c.revOf y = x)
    (insAfter a.v_in B' (pre ++ post) ++ [(n : Int)])
  last_end : B'.getLast? = some (c.lastOf a.u_out)
  last_stem : ∀ x, c.lastOf x = if x ∈ l ++ [a.u_out] then c.lastOf a.u_out else a.lastOf x
  succ_in : c.succOf a.u_in = a.succOf a.u_out
  succ_stem : ∀ x ∈ l ++ [a.u_out], x ≠ a.u_in →
    c.succOf x = a.succOf a.u_out - a.succOf (c.par x)
  succ_off : ∀ x, x ∉ l ++ [a.u_out] → c.succOf x = a.succOf x

/-- The setting of the second part of the tree update: `a` is the state before the update
with its thread order `T`, `c` a state with the new tree; `v_out` is the old parent of
`u_out`, and `join` is the lowest common ancestor of `v_in` and `u_in` in the old tree, above
`u_out`. -/
structure Pivoted (a c : NetSimplex) (n m : Nat) (T l : List Int) : Prop where
  thr : Threaded a n m T
  turn : Turned a c n m l
  vout : a.v_out = a.par a.u_out
  join0 : 0 ≤ a.join ∧ a.join ≤ n
  join_in : a.Anc a.join a.v_in
  join_out : a.Anc a.join a.u_out
  lca : ∀ x, a.Anc x a.v_in → a.Anc x a.u_in → a.Anc x a.join

end NetSimplex

namespace NetSimplex

/-- The entry `_pi[u]`, or `0` outside the vector. -/
def piOf (ns : NetSimplex) (u : Int) : Int := (rd ns.pi u).getD 0

/-- The entry `_cost[e]`, or `0` outside the vector. -/
def costOf (ns : NetSimplex) (e : Int) : Int := (rd ns.cost e).getD 0

/-- The tree arcs have reduced cost zero: every arc below `m` in state `STATE_TREE` has
`cost[e] + pi[source[e]] - pi[target[e]] = 0`. -/
def TreeReduced (ns : NetSimplex) (m : Nat) : Prop :=
  ∀ e : Int, 0 ≤ e → e < m → ns.stateAt e = STATE_TREE → ns.redCost e = some 0

end NetSimplex

namespace NetSimplex

/-- The entry `_supply[u]`, or `0` outside the vector. -/
def supplyOf (ns : NetSimplex) (u : Int) : Int := (rd ns.supply u).getD 0

/-- The sum of the flows of the arcs below `m` with source `u` minus the sum of the flows of
the arcs below `m` with target `u`. -/
def netOut (ns : NetSimplex) (m : Nat) (u : Int) : Int :=
  ((List.range m).map fun e : Nat => if ns.srcOf e = u then ns.flowAt e else 0).sum -
    ((List.range m).map fun e : Nat => if ns.tgtOf e = u then ns.flowAt e else 0).sum

/-- Flow balance at the real nodes: for every node `u` of `0..n-1` the flow leaving `u` minus
the flow entering `u`, over all arcs below `m`, is `supply[u]`. -/
def Balanced (ns : NetSimplex) (n m : Nat) : Prop :=
  ∀ u : Int, 0 ≤ u → u < n → ns.netOut m u = ns.supplyOf u

/-- The sign with which the flow of arc `e` counts at node `u`: `1` when `u` is the source,
`-1` when `u` is the target, `0` when it is neither or both. -/
def incid (ns : NetSimplex) (u e : Int) : Int :=
  (if ns.srcOf e = u then 1 else 0) - (if ns.tgtOf e = u then 1 else 0)

end NetSimplex

/-- Five nodes with supplies `MAX, -MAX, MAX, -MAX, 0` for `MAX = 2147483647`, the largest
`int`, and the arcs `0 -> 4`, `1 -> 3`, `4 -> 1`, all of cost 0. -/
def scenarioFullSupply : Option NetSimplex :=
  NetSimplex.ofInstance [2147483647, -2147483647, 2147483647, -2147483647, 0]
    [⟨0, 4, 0⟩, ⟨1, 3, 0⟩, ⟨4, 1, 0⟩]

/-- The solver of the full supply scenario before `run`. -/
def solverFullSupply : NetSimplex :=
  scenarioFullSupply.getD (NetSimplex.create 2147483647 2147483647 0)

/-- The full supply scenario after an even number `i >= 4` of pivots. -/
def fullSupplyEven (i : Nat) : NetSimplex :=
  { node_num := 5, arc_num := 8, dummy_arc := 5, next_arc := 5, sum_supply := 0,
    source := [0, 5, 2, 5, 4, 0, 1, 4], target := [5, 1, 5, 3, 5, 4, 3, 1],
    supply := [2147483647, -2147483647, 2147483647, -2147483647, 0, 0],
    flow := [0, 0, 2147483647, 2147483647, 0, 2147483647, 0, 2147483647],
    cost := [0, 1073741824, 0, 1073741824, 0, 0, 0, 0],
    pi := [0, 1073741824, 0, 1073741824, 1073741824, 0],
    parent := [5, 3, 5, 5, 1, -1], pred := [0, 6, 2, 3, 7, -1], thread := [2, 4, 3, 1, 5, 0],
    rev_thread := [5, 3, 0, 2, 1, 4], succ_num := [1, 2, 1, 3, 1, 6],
    last_succ := [0, 4, 2, 4, 4, 4], pred_dir := [1, 1, 1, -1, 1, 0],
    state := [false, true, false, false, true, true, false, false],
    root := 5, in_arc := 7, join := 5, u_in := 4, v_in := 1, u_out := 4, v_out := 0, delta := 0,
    MAX := 2147483647, COST_MAX := 2147483647, iterations := i }

/-- The full supply scenario after an odd number `i >= 5` of pivots. -/
def fullSupplyOdd (i : Nat) : NetSimplex :=
  { node_num := 5, arc_num := 8, dummy_arc := 5, next_arc := 5, sum_supply := 0,
    source := [0, 5, 2, 5, 4, 0, 1, 4], target := [5, 1, 5, 3, 5, 4, 3, 1],
    supply := [2147483647, -2147483647, 2147483647, -2147483647, 0, 0],
    flow := [0, 0, 2147483647, 2147483647, 0, 2147483647, 0, 2147483647],
    cost := [0, 1073741824, 0, 1073741824, 0, 0, 0, 0],
    pi := [0, 1073741824, 0, 1073741824, 0, 0],
    parent := [5, 3, 5, 5, 0, -1], pred := [0, 6, 2, 3, 5, -1], thread := [4, 5, 3, 1, 2, 0],
    rev_thread := [5, 3, 4, 2, 0, 1], succ_num := [2, 1, 1, 2, 1, 6],
    last_succ := [4, 1, 2, 1, 4, 1], pred_dir := [1, 1, 1, -1, -1, 0],
    state := [false, true, false, false, true, false, false, true],
    root := 5, in_arc := 5, join := 5, u_in := 4, v_in := 0, u_out := 4, v_out := 1, delta := 0,
    MAX := 2147483647, COST_MAX := 2147483647, iterations := i }

/-- The pivot rule of the full supply scenario with its cursor at arc `e`. -/
def fullSupplyRule (e : Int) : BlockSearchPivotRule :=
  { arc_num := 8, dummy_arc := 5, block_size := 20, next_arc := e }

/-- Scenario S5 with unit costs, in full: the solver of `scenarioS5FirstBatch`, then
`updateArcs` with the arcs `3->4`, `4->5`, `5->6` and a `reRun()`, then `updateArcs` with the
arcs `6->7`, `7->8`, `8->9` and a last `reRun()`; the result of that `reRun()`. -/
def scenarioS5 : Option (ProblemType × NetSimplex) :=
  scenarioS5FirstBatch.bind fun ns =>
    (ns.updateArcs [⟨3, 4, 1⟩, ⟨4, 5, 1⟩, ⟨5, 6, 1⟩]).bind fun r =>
      (NetSimplex.reRun 5 r.2).bind fun r =>
        (r.2.updateArcs [⟨6, 7, 1⟩, ⟨7, 8, 1⟩, ⟨8, 9, 1⟩]).bind fun r =>
          NetSimplex.reRun 5 r.2

/-- The solver for two nodes with supplies `s` and `-s` and the one arc `0 -> 1` of cost `c`,
as `ofInstance` builds it. -/
def solverTwoNode (s c : Int) : NetSimplex :=
  { node_num := 2, arc_num := 3, dummy_arc := 2, next_arc := 2, sum_supply := 0
    source := [0, 0, 0], target := [0, 0, 1], supply := [s, -s, 0]
    flow := [0, 0, 0], cost := [0, 0, c], pi := [0, 0, 0]
    parent := [0, 0, 0], pred := [0, 0, 0], thread := [0, 0, 0], rev_thread := [0, 0, 0]
    succ_num := [0, 0, 0], last_succ := [0, 0, 0], pred_dir := [0, 0, 0]
    state := [true, true, true]
    root := -1, in_arc := -1, join := -1, u_in := -1, v_in := -1, u_out := -1, v_out := -1
    delta := 0, MAX := 2147483647, COST_MAX := 2147483647, iterations := 0 }

/-- The two-node solver after `init`: the star basis of the two dummy arcs. -/
def starTwoNode (s c : Int) : NetSimplex :=
  { solverTwoNode s c with
    source := [0, 2, 0], target := [2, 1, 1], flow := [s, s, 0], cost := [0, 1073741824, c]
    pi := [0, 1073741824, 0], parent := [2, 2, -1], pred := [0, 1, -1], thread := [1, 2, 0]
    rev_thread := [2, 0, 1], succ_num := [1, 1, 3], last_succ := [0, 1, 1]
    pred_dir := [1, -1, 0], state := [false, false, true], root := 2 }

/-- The two-node solver after the pivot on the arc `0 -> 1`. -/
def solvedTwoNode (s c : Int) : NetSimplex :=
  { starTwoNode s c with
    flow := [0, 0, s], pi := [0, c, 0], parent := [2, 0, -1], pred := [0, 2, -1]
    succ_num := [2, 1, 3], last_succ := [1, 1, 1], state := [false, true, false]
    in_arc := 2, join := 2, u_in := 1, v_in := 0, u_out := 1, v_out := 2, delta := s
    iterations := 1 }

/-- The two-node solver with its star basis and the entering arc `0 -> 1` chosen. -/
def enteredTwoNode (s c : Int) : NetSimplex := { starTwoNode s c with in_arc := 2 }

/-- The two-node solver after `findJoinNode`. -/
def joinedTwoNode (s c : Int) : NetSimplex := { enteredTwoNode s c with join := 2 }

/-- The two-node solver after `findLeavingArc`. -/
def leavingTwoNode (s c : Int) : NetSimplex :=
  { joinedTwoNode s c with u_in := 1, v_in := 0, u_out := 1, delta := s }

/-- The two-node solver after `changeFlow`. -/
def changedTwoNode (s c : Int) : NetSimplex :=
  { leavingTwoNode s c with flow := [0, 0, s], state := [false, true, false] }

/-- The two-node solver after `updateTreeStructure`. -/
def treeTwoNode (s c : Int) : NetSimplex :=
  { solvedTwoNode s c with pi := [0, 1073741824, 0], iterations := 0 }

/-- The pivot rule of the two-node solver. -/
def ruleTwoNode : BlockSearchPivotRule :=
  { arc_num := 3, dummy_arc := 2, block_size := 20, next_arc := 2 }

namespace NetSimplex

/-- The reduced cost of arc `e` read through the accessors:
`cost[e] + pi[source[e]] - pi[target[e]]`. -/
def rcOf (ns : NetSimplex) (e : Int) : Int :=
  ns.costOf e + ns.piOf (ns.srcOf e) - ns.piOf (ns.tgtOf e)

/-- The sum of the absolute values of the supplies of the real nodes `0..n-1`. -/
def supplyAbs (ns : NetSimplex) (n : Nat) : Int :=
  ((List.range n).map fun v : Nat => ((ns.supplyOf (v : Int)).natAbs : Int)).sum

/-- The instance data a solve relies on, for `n` real nodes, `m` arcs and a potential `p`:
the real arcs `n..m-1` join real nodes, the dummy arc of node `e` is `e -> n` with cost 0 or
`n -> e` with the artificial cost, every arc has a non-negative reduced cost under `p` (so
no cycle has a negative cost; for non-negative costs `p = 0` serves), and twice the sum of
the absolute supplies is below `MAX`. -/
structure Regular (ns : NetSimplex) (n m : Nat) (p : Int → Int) : Prop where
  real_arcs : ∀ e : Int, (n : Int) ≤ e → e < m →
    (0 ≤ ns.srcOf e ∧ ns.srcOf e < n) ∧ (0 ≤ ns.tgtOf e ∧ ns.tgtOf e < n)
  dummy_arcs : ∀ e : Int, 0 ≤ e → e < n →
    (ns.srcOf e = e ∧ ns.tgtOf e = n ∧ ns.costOf e = 0) ∨
      (ns.srcOf e = n ∧ ns.tgtOf e = e ∧ ns.costOf e = ns.artCost)
  dual : ∀ e : Int, 0 ≤ e → e < m → 0 ≤ ns.costOf e + p (ns.srcOf e) - p (ns.tgtOf e)
  supplies : 2 * ns.supplyAbs n < ns.MAX

/-- The invariant of the pivot loop on a regular instance: the traversal invariants of the
basis, arc states that match the basis, reduced cost zero on the tree arcs, flow balance,
non-negative flows that vanish off the tree, and potential 0 at the root. -/
structure Optimizing (ns : NetSimplex) (n m : Nat) : Prop where
  threaded : ∃ T, ns.Threaded n m T
  states : ns.StatesMatch n m
  reduced : ns.TreeReduced m
  balanced : ns.Balanced n m
  off : ∀ e : Int, 0 ≤ e → e < m → ns.stateAt e ≠ STATE_TREE → ns.flowAt e = 0
  nonneg : ∀ e, 0 ≤ ns.flowAt e
  pi_root : ns.piOf n = 0

/-- The two solvers hold the same vectors, arc states, node count, root, `MAX` and maximal
cost. -/
def SameVectors (a b : NetSimplex) : Prop :=
  (∀ f : Fld, b.arr f = a.arr f) ∧ b.state = a.state ∧ b.node_num = a.node_num ∧
    b.root = a.root ∧ b.MAX = a.MAX ∧ b.COST_MAX = a.COST_MAX

/-- The net outflow at node `u` of a flow `g` on the real arcs `n..m-1`: the flow leaving
`u` minus the flow entering `u`. -/
def realOut (ns : NetSimplex) (n m : Nat) (g : Int → Int) (u : Int) : Int :=
  ((List.range (m - n)).map fun i : Nat =>
    g ((n : Int) + (i : Int)) * ns.incid u ((n : Int) + (i : Int))).sum

/-- The cost of a flow `g` on the real arcs `n..m-1`. -/
def realCost (ns : NetSimplex) (n m : Nat) (g : Int → Int) : Int :=
  ((List.range (m - n)).map fun i : Nat =>
    ns.costOf ((n : Int) + (i : Int)) * g ((n : Int) + (i : Int))).sum

end NetSimplex

/-- The solver for supplies `+1, -1` and the one arc `0 -> 1` whose cost is the artificial
cost `1073741824` of a 32-bit cost type. -/
def solverArtCost : NetSimplex :=
  (NetSimplex.ofInstance [1, -1] [⟨0, 1, 1073741824⟩]).getD
    (NetSimplex.create 2147483647 2147483647 0)

/-- The solver of scenario S2 before `run`. -/
def solverS2 : NetSimplex :=
  scenarioS2.getD (NetSimplex.create 2147483647 2147483647 0)

/-- The solver of scenario S2 after `run`. -/
def solvedS2 : NetSimplex :=
  ((NetSimplex.run 10 solverS2).map fun r => r.2).getD solverS2

/-- The flow that sends one unit over arc 2 and nothing elsewhere. -/
def unitFlow (e : Int) : Int := if e = 2 then 1 else 0

/-! ## Reads and writes of vectors -/

theorem rd_eq_some {α : Type} {xs : List α} {i : Int} {v : α} :
    rd xs i = some v ↔ 0 ≤ i ∧ xs[i.toNat]? = some v := by
  unfold rd
  split <;> simp [*]

theorem rd_some_range {α : Type} {xs : List α} {i : Int} {v : α} (h : rd xs i = some v) :
    0 ≤ i ∧ i < (xs.length : Int) := by
  obtain ⟨h0, h1⟩ := rd_eq_some.1 h
  refine ⟨h0, ?_⟩
  have := (List.getElem?_eq_some_iff.1 h1).1
  omega

theorem rd_of_range {α : Type} (xs : List α) {i : Int} (h0 : 0 ≤ i) (h1 : i < (xs.length : Int)) :
    ∃ v, rd xs i = some v := by
  have hlt : i.toNat < xs.length := by omega
  exact ⟨xs[i.toNat], by simp [rd, h0, List.getElem?_eq_getElem hlt]⟩

theorem wr_eq_some {α : Type} {xs ys : List α} {i : Int} {v : α} :
    wr xs i v = some ys ↔ (0 ≤ i ∧ i < (xs.length : Int)) ∧ ys = xs.set i.toNat v := by
  unfold wr
  split <;> simp [*, eq_comm]

theorem wr_length {α : Type} {xs ys : List α} {i : Int} {v : α} (h : wr xs i v = some ys) :
    ys.length = xs.length := by
  obtain ⟨_, rfl⟩ := wr_eq_some.1 h
  simp

theorem rd_wr_same {α : Type} {xs ys : List α} {i : Int} {v : α} (h : wr xs i v = some ys) :
    rd ys i = some v := by
  obtain ⟨⟨h0, h1⟩, rfl⟩ := wr_eq_some.1 h
  have hlt : i.toNat < xs.length := by omega
  simp [rd, h0, hlt]

theorem rd_wr_ne {α : Type} {xs ys : List α} {i j : Int} {v : α} (h : wr xs i v = some ys)
    (hne : j ≠ i) : rd ys j = rd xs j := by
  obtain ⟨⟨h0, h1⟩, rfl⟩ := wr_eq_some.1 h
  unfold rd
  split
  · have : i.toNat ≠ j.toNat := by omega
    simp [List.getElem?_set_ne this]
  · rfl

theorem wr_of_range {α : Type} (xs : List α) {i : Int} (v : α) (h0 : 0 ≤ i)
    (h1 : i < (xs.length : Int)) : ∃ ys, wr xs i v = some ys :=
  ⟨xs.set i.toNat v, by simp [wr, h0, h1]⟩


/-- C7, as stated, fails: after `run()` on scenario S1 the potentials are `pi[0] = 0` and
`pi[1] = 7`, so `potential(0) - potential(1)` is not `7`. -/
theorem C7_potential_diff_not_7 :
    (scenarioS1.bind (NetSimplex.run 5)).bind potentialDiff01 ≠ some 7 := by
  decide

/-- C7, amended: after `run()` on scenario S1 the solve is `OPTIMAL` and the potentials
satisfy `potential(0) - potential(1) = -7` (that is `potential(1) - potential(0) = 7`, the
convention under which the tree arc `0 -> 1` has reduced cost `7 + pi[0] - pi[1] = 0`). -/
theorem C7_potential_diff :
    (scenarioS1.bind (NetSimplex.run 5)).map (fun r => r.1) = some ProblemType.OPTIMAL ∧
    (scenarioS1.bind (NetSimplex.run 5)).bind potentialDiff01 = some (-7) ∧
    (scenarioS1.bind (NetSimplex.run 5)).bind (fun r => r.2.redCost 2) = some 0 := by
  decide

/-- C8: on scenario S2 `run()` returns `OPTIMAL`, the four dummy arcs end with flow 0
and `total_cost()` is 15. -/
theorem C8_scenario_S2 :
    (scenarioS2.bind (NetSimplex.run 10)).map (fun r => r.1) = some ProblemType.OPTIMAL ∧
    (scenarioS2.bind (NetSimplex.run 10)).map (fun r => r.2.flow.take 4) = some [0, 0, 0, 0] ∧
    (scenarioS2.bind (NetSimplex.run 10)).bind (fun r => r.2.totalCost) = some 15 := by
  decide

/-! ## The entering arc search and the optimality certificate -/



theorem BlockSearchPivotRule.scanArcs_succ (ns : NetSimplex) (bs : Int) (k : Nat) (e : Int)
    (sc : Scan) :
    BlockSearchPivotRule.scanArcs ns bs (k + 1) e sc =
      (ns.signedRedCost e).bind fun c =>
        if (sc.step e c).cnt - 1 = 0 then
          if (sc.step e c).min < 0 then
            some { sc.step e c with cnt := (sc.step e c).cnt - 1, committed := true }
          else BlockSearchPivotRule.scanArcs ns bs k (e + 1) { sc.step e c with cnt := bs }
        else BlockSearchPivotRule.scanArcs ns bs k (e + 1)
          { sc.step e c with cnt := (sc.step e c).cnt - 1 } := rfl

theorem Scan.step_facts (sc : Scan) (e c : Int) :
    (sc.step e c).committed = sc.committed ∧ (sc.step e c).min ≤ sc.min ∧
      (sc.step e c).min ≤ c := by
  unfold Scan.step
  split <;> simp <;> omega

theorem BlockSearchPivotRule.scanArcs_not_committed (ns : NetSimplex) (bs : Int) :
    ∀ (k : Nat) (e : Int) (sc sc' : Scan),
      BlockSearchPivotRule.scanArcs ns bs k e sc = some sc' → sc'.committed = false →
      sc.committed = false ∧ sc'.min ≤ sc.min ∧
      ∀ j : Int, e ≤ j → j < e + k → ∃ r, ns.signedRedCost j = some r ∧ sc'.min ≤ r := by
  intro k
  induction k with
  | zero =>
    intro e sc sc' h hc
    simp only [BlockSearchPivotRule.scanArcs, Option.some.injEq] at h
    subst h
    refine ⟨hc, le_refl _, ?_⟩
    intro j h1 h2
    omega
  | succ k ih =>
    intro e sc sc' h hc
    rw [BlockSearchPivotRule.scanArcs_succ] at h
    simp only [Option.bind_eq_some] at h
    obtain ⟨c, hcq, h⟩ := h
    obtain ⟨f1, f2, f3⟩ := sc.step_facts e c
    have fin : ∀ sc1 : Scan, sc1.committed = sc.committed → sc1.min = (sc.step e c).min →
        BlockSearchPivotRule.scanArcs ns bs k (e + 1) sc1 = some sc' →
        sc.committed = false ∧ sc'.min ≤ sc.min ∧
        ∀ j : Int, e ≤ j → j < e + (k + 1 : Nat) → ∃ r, ns.signedRedCost j = some r ∧ sc'.min ≤ r := by
      intro sc1 g1 g2 g3
      obtain ⟨h1, h2, h3⟩ := ih _ _ _ g3 hc
      refine ⟨by rw [← g1]; exact h1, by omega, ?_⟩
      intro j hj1 hj2
      by_cases hje : j = e
      · subst hje
        exact ⟨c, hcq, by omega⟩
      · exact h3 j (by omega) (by push_cast at hj2 ⊢; omega)
    split at h
    · split at h
      · simp only [Option.some.injEq] at h
        subst h
        simp at hc
      · exact fin _ (by exact f1) (by rfl) h
    · exact fin _ (by exact f1) (by rfl) h


theorem NetSimplex.signedRedCost_in_arc (ns : NetSimplex) (a e : Int) :
    ({ ns with in_arc := a } : NetSimplex).signedRedCost e = ns.signedRedCost e := rfl

theorem BlockSearchPivotRule.findEnteringArc_false {p p' : BlockSearchPivotRule}
    {ns ns' : NetSimplex} (h : p.findEnteringArc ns = some (false, p', ns')) :
    p' = p ∧ (∃ a, ns' = { ns with in_arc := a }) ∧
    ∀ j : Int, p.dummy_arc ≤ j → j < p.arc_num →
      ∃ r, ns.signedRedCost j = some r ∧ 0 ≤ r := by
  simp only [BlockSearchPivotRule.findEnteringArc, Option.bind_eq_bind, Option.bind_eq_some] at h
  obtain ⟨sc1, h1, h⟩ := h
  split at h
  · simp at h
  · rename_i hc1
    simp only [Option.bind_eq_some] at h
    obtain ⟨sc2, h2, h⟩ := h
    split at h
    · simp at h
    · rename_i hc2
      split at h
      · rename_i hmin
        simp only [Option.some.injEq, Prod.mk.injEq, true_and] at h
        obtain ⟨rfl, rfl⟩ := h
        refine ⟨rfl, ⟨_, rfl⟩, ?_⟩
        obtain ⟨_, g2, g3⟩ := BlockSearchPivotRule.scanArcs_not_committed ns _ _ _ _ _ h2
          (by simpa using hc2)
        obtain ⟨_, _, k3⟩ := BlockSearchPivotRule.scanArcs_not_committed ns _ _ _ _ _ h1
          (by simpa using hc1)
        intro j hj1 hj2
        by_cases hj : p.next_arc ≤ j
        · obtain ⟨r, hr1, hr2⟩ := k3 j hj (by
            have : ((p.arc_num - p.next_arc).toNat : Int) = p.arc_num - p.next_arc := by omega
            omega)
          exact ⟨r, hr1, by omega⟩
        · obtain ⟨r, hr1, hr2⟩ := g3 j hj1 (by
            have : ((p.next_arc - p.dummy_arc).toNat : Int) = p.next_arc - p.dummy_arc := by omega
            omega)
          exact ⟨r, hr1, by omega⟩
      · simp at h

theorem BlockSearchPivotRule.findEnteringArc_bounds {p p' : BlockSearchPivotRule}
    {ns ns' : NetSimplex} {b : Bool} (h : p.findEnteringArc ns = some (b, p', ns')) :
    p'.dummy_arc = p.dummy_arc ∧ p'.arc_num = p.arc_num := by
  simp only [BlockSearchPivotRule.findEnteringArc, Option.bind_eq_bind, Option.bind_eq_some] at h
  obtain ⟨sc1, h1, h⟩ := h
  split at h
  · simp only [Option.some.injEq, Prod.mk.injEq] at h
    obtain ⟨_, rfl, _⟩ := h
    exact ⟨rfl, rfl⟩
  · simp only [Option.bind_eq_some] at h
    obtain ⟨sc2, h2, h⟩ := h
    split at h
    · simp only [Option.some.injEq, Prod.mk.injEq] at h
      obtain ⟨_, rfl, _⟩ := h
      exact ⟨rfl, rfl⟩
    · split at h <;>
      · simp only [Option.some.injEq, Prod.mk.injEq] at h
        obtain ⟨_, rfl, _⟩ := h
        exact ⟨rfl, rfl⟩

theorem NetSimplex.startLoop_optimal :
    ∀ (fuel : Nat) (p : BlockSearchPivotRule) (ns ns' : NetSimplex) (st : ProblemType),
      NetSimplex.startLoop fuel p ns = some (st, ns') →
      st = ProblemType.OPTIMAL ∧
      ∀ j : Int, p.dummy_arc ≤ j → j < p.arc_num →
        ∃ r, ns'.signedRedCost j = some r ∧ 0 ≤ r := by
  intro fuel
  induction fuel with
  | zero => intro p ns ns' st h; simp [NetSimplex.startLoop] at h
  | succ fuel ih =>
    intro p ns ns' st h
    simp only [NetSimplex.startLoop, Option.bind_eq_bind, Option.bind_eq_some] at h
    obtain ⟨⟨go, p1, ns1⟩, h1, h⟩ := h
    cases go with
    | true =>
      simp only [if_true, Option.bind_eq_some] at h
      obtain ⟨ns2, _, h⟩ := h
      obtain ⟨g1, g2⟩ := ih _ _ _ _ h
      obtain ⟨b1, b2⟩ := BlockSearchPivotRule.findEnteringArc_bounds h1
      rw [b1, b2] at g2
      exact ⟨g1, g2⟩
    | false =>
      simp only [Bool.false_eq_true, if_false, Option.some.injEq, Prod.mk.injEq] at h
      obtain ⟨rfl, rfl⟩ := h
      obtain ⟨_, ⟨a, rfl⟩, g⟩ := BlockSearchPivotRule.findEnteringArc_false h1
      exact ⟨rfl, g⟩


/-! ## Members that a solve leaves unchanged -/

namespace NetSimplex

theorem set_source_eq_some {ns ns' : NetSimplex} {i : Int} {v : Int} :
    ns.set_source i v = some ns' ↔ ∃ xs, wr ns.source i v = some xs ∧ ns' = { ns with source := xs } := by
  unfold set_source
  cases wr ns.source i v with
  | none => simp
  | some xs => simp [eq_comm]

theorem set_target_eq_some {ns ns' : NetSimplex} {i : Int} {v : Int} :
    ns.set_target i v = some ns' ↔ ∃ xs, wr ns.target i v = some xs ∧ ns' = { ns with target := xs } := by
  unfold set_target
  cases wr ns.target i v with
  | none => simp
  | some xs => simp [eq_comm]

theorem set_supply_eq_some {ns ns' : NetSimplex} {i : Int} {v : Int} :
    ns.set_supply i v = some ns' ↔ ∃ xs, wr ns.supply i v = some xs ∧ ns' = { ns with supply := xs } := by
  unfold set_supply
  cases wr ns.supply i v with
  | none => simp
  | some xs => simp [eq_comm]

theorem set_flow_eq_some {ns ns' : NetSimplex} {i : Int} {v : Int} :
    ns.set_flow i v = some ns' ↔ ∃ xs, wr ns.flow i v = some xs ∧ ns' = { ns with flow := xs } := by
  unfold set_flow
  cases wr ns.flow i v with
  | none => simp
  | some xs => simp [eq_comm]

theorem set_cost_eq_some {ns ns' : NetSimplex} {i : Int} {v : Int} :
    ns.set_cost i v = some ns' ↔ ∃ xs, wr ns.cost i v = some xs ∧ ns' = { ns with cost := xs } := by
  unfold set_cost
  cases wr ns.cost i v with
  | none => simp
  | some xs => simp [eq_comm]

theorem set_pi_eq_some {ns ns' : NetSimplex} {i : Int} {v : Int} :
    ns.set_pi i v = some ns' ↔ ∃ xs, wr ns.pi i v = some xs ∧ ns' = { ns with pi := xs } := by
  unfold set_pi
  cases wr ns.pi i v with
  | none => simp
  | some xs => simp [eq_comm]

theorem set_parent_eq_some {ns ns' : NetSimplex} {i : Int} {v : Int} :
    ns.set_parent i v = some ns' ↔ ∃ xs, wr ns.parent i v = some xs ∧ ns' = { ns with parent := xs } := by
  unfold set_parent
  cases wr ns.parent i v with
  | none => simp
  | some xs => simp [eq_comm]

theorem set_pred_eq_some {ns ns' : NetSimplex} {i : Int} {v : Int} :
    ns.set_pred i v = some ns' ↔ ∃ xs, wr ns.pred i v = some xs ∧ ns' = { ns with pred := xs } := by
  unfold set_pred
  cases wr ns.pred i v with
  | none => simp
  | some xs => simp [eq_comm]

theorem set_thread_eq_some {ns ns' : NetSimplex} {i : Int} {v : Int} :
    ns.set_thread i v = some ns' ↔ ∃ xs, wr ns.thread i v = some xs ∧ ns' = { ns with thread := xs } := by
  unfold set_thread
  cases wr ns.thread i v with
  | none => simp
  | some xs => simp [eq_comm]

theorem set_rev_thread_eq_some {ns ns' : NetSimplex} {i : Int} {v : Int} :
    ns.set_rev_thread i v = some ns' ↔ ∃ xs, wr ns.rev_thread i v = some xs ∧ ns' = { ns with rev_thread := xs } := by
  unfold set_rev_thread
  cases wr ns.rev_thread i v with
  | none => simp
  | some xs => simp [eq_comm]

theorem set_succ_num_eq_some {ns ns' : NetSimplex} {i : Int} {v : Int} :
    ns.set_succ_num i v = some ns' ↔ ∃ xs, wr ns.succ_num i v = some xs ∧ ns' = { ns with succ_num := xs } := by
  unfold set_succ_num
  cases wr ns.succ_num i v with
  | none => simp
  | some xs => simp [eq_comm]

theorem set_last_succ_eq_some {ns ns' : NetSimplex} {i : Int} {v : Int} :
    ns.set_last_succ i v = some ns' ↔ ∃ xs, wr ns.last_succ i v = some xs ∧ ns' = { ns with last_succ := xs } := by
  unfold set_last_succ
  cases wr ns.last_succ i v with
  | none => simp
  | some xs => simp [eq_comm]

theorem set_pred_dir_eq_some {ns ns' : NetSimplex} {i : Int} {v : Int} :
    ns.set_pred_dir i v = some ns' ↔ ∃ xs, wr ns.pred_dir i v = some xs ∧ ns' = { ns with pred_dir := xs } := by
  unfold set_pred_dir
  cases wr ns.pred_dir i v with
  | none => simp
  | some xs => simp [eq_comm]

theorem set_state_eq_some {ns ns' : NetSimplex} {i : Int} {v : Bool} :
    ns.set_state i v = some ns' ↔ ∃ xs, wr ns.state i v = some xs ∧ ns' = { ns with state := xs } := by
  unfold set_state
  cases wr ns.state i v with
  | none => simp
  | some xs => simp [eq_comm]




theorem SameSize.same (ns : NetSimplex) : SameSize ns ns := ⟨rfl, rfl, rfl, rfl, rfl, rfl⟩

theorem SameSize.chain {a b c : NetSimplex} (h1 : SameSize a b) (h2 : SameSize b c) :
    SameSize a c := by
  unfold SameSize at *
  refine ⟨?_, ?_, ?_, ?_, ?_, ?_⟩
  · rw [h2.1, h1.1]
  · rw [h2.2.1, h1.2.1]
  · rw [h2.2.2.1, h1.2.2.1]
  · rw [h2.2.2.2.1, h1.2.2.2.1]
  · rw [h2.2.2.2.2.1, h1.2.2.2.2.1]
  · rw [h2.2.2.2.2.2, h1.2.2.2.2.2]

theorem set_source_sameSize {ns ns' : NetSimplex} {i : Int} {v : Int}
    (h : ns.set_source i v = some ns') : SameSize ns ns' := by
  obtain ⟨xs, _, rfl⟩ := set_source_eq_some.1 h
  exact ⟨rfl, rfl, rfl, rfl, rfl, rfl⟩

theorem set_target_sameSize {ns ns' : NetSimplex} {i : Int} {v : Int}
    (h : ns.set_target i v = some ns') : SameSize ns ns' := by
  obtain ⟨xs, _, rfl⟩ := set_target_eq_some.1 h
  exact ⟨rfl, rfl, rfl, rfl, rfl, rfl⟩

theorem set_supply_sameSize {ns ns' : NetSimplex} {i : Int} {v : Int}
    (h : ns.set_supply i v = some ns') : SameSize ns ns' := by
  obtain ⟨xs, _, rfl⟩ := set_supply_eq_some.1 h
  exact ⟨rfl, rfl, rfl, rfl, rfl, rfl⟩

theorem set_flow_sameSize {ns ns' : NetSimplex} {i : Int} {v : Int}
    (h : ns.set_flow i v = some ns') : SameSize ns ns' := by
  obtain ⟨xs, _, rfl⟩ := set_flow_eq_some.1 h
  exact ⟨rfl, rfl, rfl, rfl, rfl, rfl⟩

theorem set_cost_sameSize {ns ns' : NetSimplex} {i : Int} {v : Int}
    (h : ns.set_cost i v = some ns') : SameSize ns ns' := by
  obtain ⟨xs, _, rfl⟩ := set_cost_eq_some.1 h
  exact ⟨rfl, rfl, rfl, rfl, rfl, rfl⟩

theorem set_pi_sameSize {ns ns' : NetSimplex} {i : Int} {v : Int}
    (h : ns.set_pi i v = some ns') : SameSize ns ns' := by
  obtain ⟨xs, _, rfl⟩ := set_pi_eq_some.1 h
  exact ⟨rfl, rfl, rfl, rfl, rfl, rfl⟩

theorem set_parent_sameSize {ns ns' : NetSimplex} {i : Int} {v : Int}
    (h : ns.set_parent i v = some ns') : SameSize ns ns' := by
  obtain ⟨xs, _, rfl⟩ := set_parent_eq_some.1 h
  exact ⟨rfl, rfl, rfl, rfl, rfl, rfl⟩

theorem set_pred_sameSize {ns ns' : NetSimplex} {i : Int} {v : Int}
    (h : ns.set_pred i v = some ns') : SameSize ns ns' := by
  obtain ⟨xs, _, rfl⟩ := set_pred_eq_some.1 h
  exact ⟨rfl, rfl, rfl, rfl, rfl, rfl⟩

theorem set_thread_sameSize {ns ns' : NetSimplex} {i : Int} {v : Int}
    (h : ns.set_thread i v = some ns') : SameSize ns ns' := by
  obtain ⟨xs, _, rfl⟩ := set_thread_eq_some.1 h
  exact ⟨rfl, rfl, rfl, rfl, rfl, rfl⟩

theorem set_rev_thread_sameSize {ns ns' : NetSimplex} {i : Int} {v : Int}
    (h : ns.set_rev_thread i v = some ns') : SameSize ns ns' := by
  obtain ⟨xs, _, rfl⟩ := set_rev_thread_eq_some.1 h
  exact ⟨rfl, rfl, rfl, rfl, rfl, rfl⟩

theorem set_succ_num_sameSize {ns ns' : NetSimplex} {i : Int} {v : Int}
    (h : ns.set_succ_num i v = some ns') : SameSize ns ns' := by
  obtain ⟨xs, _, rfl⟩ := set_succ_num_eq_some.1 h
  exact ⟨rfl, rfl, rfl, rfl, rfl, rfl⟩

theorem set_last_succ_sameSize {ns ns' : NetSimplex} {i : Int} {v : Int}
    (h : ns.set_last_succ i v = some ns') : SameSize ns ns' := by
  obtain ⟨xs, _, rfl⟩ := set_last_succ_eq_some.1 h
  exact ⟨rfl, rfl, rfl, rfl, rfl, rfl⟩

theorem set_pred_dir_sameSize {ns ns' : NetSimplex} {i : Int} {v : Int}
    (h : ns.set_pred_dir i v = some ns') : SameSize ns ns' := by
  obtain ⟨xs, _, rfl⟩ := set_pred_dir_eq_some.1 h
  exact ⟨rfl, rfl, rfl, rfl, rfl, rfl⟩

theorem set_state_sameSize {ns ns' : NetSimplex} {i : Int} {v : Bool}
    (h : ns.set_state i v = some ns') : SameSize ns ns' := by
  obtain ⟨xs, _, rfl⟩ := set_state_eq_some.1 h
  exact ⟨rfl, rfl, rfl, rfl, rfl, rfl⟩


theorem runReset_sameSize : ∀ (k : Nat) (e : Int) (ns ns' : NetSimplex),
    runReset k e ns = some ns' → SameSize ns ns' := by
  intro k
  induction k with
  | zero =>
    intro e ns ns' h
    simp only [runReset, Option.some.injEq] at h
    subst h
    exact SameSize.same _
  | succ k ih =>
    intro e ns ns' h
    simp only [runReset, Option.bind_eq_bind, Option.bind_eq_some] at h
    obtain ⟨n1, h1, n2, h2, h3⟩ := h
    exact (set_state_sameSize h1).chain ((set_flow_sameSize h2).chain (ih _ _ _ h3))

theorem initSum_sameSize : ∀ (k : Nat) (i : Int) (ns ns' : NetSimplex),
    initSum k i ns = some ns' → SameSize ns ns' := by
  intro k
  induction k with
  | zero =>
    intro e ns ns' h
    simp only [initSum, Option.some.injEq] at h
    subst h
    exact SameSize.same _
  | succ k ih =>
    intro e ns ns' h
    simp only [initSum, Option.bind_eq_bind, Option.bind_eq_some] at h
    obtain ⟨b, _, h3⟩ := h
    have t := ih _ _ _ h3
    exact t

theorem initArc_sameSize {A u e : Int} {ns ns' : NetSimplex}
    (h : initArc A u e ns = some ns') : SameSize ns ns' := by
  simp only [initArc, initArcTree, initArcUp, initArcDown, Option.bind_eq_bind,
    Option.bind_eq_some] at h
  obtain ⟨n7, ⟨n1, h1, n2, h2, n3, h3, n4, h4, n5, h5, n6, h6, h7⟩, b, _, h⟩ := h
  have t := (set_parent_sameSize h1).chain ((set_pred_sameSize h2).chain
    ((set_thread_sameSize h3).chain ((set_rev_thread_sameSize h4).chain
    ((set_succ_num_sameSize h5).chain ((set_last_succ_sameSize h6).chain
    (set_state_sameSize h7))))))
  split at h
  · simp only [Option.bind_eq_some] at h
    obtain ⟨m1, g1, m2, g2, m3, g3, m4, g4, m5, g5, g6⟩ := h
    exact t.chain ((set_pred_dir_sameSize g1).chain ((set_pi_sameSize g2).chain
      ((set_source_sameSize g3).chain ((set_target_sameSize g4).chain
      ((set_flow_sameSize g5).chain (set_cost_sameSize g6))))))
  · simp only [Option.bind_eq_some] at h
    obtain ⟨m1, g1, m2, g2, m3, g3, m4, g4, m5, g5, g6⟩ := h
    exact t.chain ((set_pred_dir_sameSize g1).chain ((set_pi_sameSize g2).chain
      ((set_source_sameSize g3).chain ((set_target_sameSize g4).chain
      ((set_flow_sameSize g5).chain (set_cost_sameSize g6))))))

theorem initArcs_sameSize (A : Int) : ∀ (k : Nat) (u e : Int) (ns ns' : NetSimplex),
    initArcs A k u e ns = some ns' → SameSize ns ns' := by
  intro k
  induction k with
  | zero =>
    intro u e ns ns' h
    simp only [initArcs, Option.some.injEq] at h
    subst h
    exact SameSize.same _
  | succ k ih =>
    intro u e ns ns' h
    simp only [initArcs, Option.bind_eq_bind, Option.bind_eq_some] at h
    obtain ⟨n1, h1, h2⟩ := h
    exact (initArc_sameSize h1).chain (ih _ _ _ _ h2)

theorem initRoot_sameSize {ns ns' : NetSimplex} (h : initRoot ns = some ns') :
    SameSize ns ns' := by
  simp only [initRoot, Option.bind_eq_bind, Option.bind_eq_some] at h
  obtain ⟨n1, h1, n2, h2, n3, h3, n4, h4, n5, h5, n6, h6, n7, h7, h8⟩ := h
  exact (set_parent_sameSize h1).chain ((set_pred_sameSize h2).chain ((set_thread_sameSize h3).chain
    ((set_rev_thread_sameSize h4).chain ((set_succ_num_sameSize h5).chain
    ((set_last_succ_sameSize h6).chain ((set_supply_sameSize h7).chain
    (set_pi_sameSize h8)))))))

theorem init_sameSize {ns ns' : NetSimplex} {b : Bool} (h : init ns = some (b, ns')) :
    SameSize ns ns' := by
  unfold init at h
  split at h
  · simp only [Option.some.injEq, Prod.mk.injEq] at h
    obtain ⟨_, rfl⟩ := h
    exact SameSize.same _
  · simp only [Option.bind_eq_bind, Option.bind_eq_some, Option.some.injEq, Prod.mk.injEq] at h
    obtain ⟨n0, h0, n1, h1, n9, h9, _, rfl⟩ := h
    have t0 := initSum_sameSize _ _ _ _ h0
    have t0' : SameSize ns n0 := t0
    have t1' := initRoot_sameSize h1
    have t1 : SameSize n0 n1 := t1'
    exact t0'.chain (t1.chain (initArcs_sameSize _ _ _ _ _ _ h9))

end NetSimplex


/-- C2, as stated, fails: on `scenarioNegCost` `run()` returns `OPTIMAL` while the dummy
arc `0` is at its lower bound with signed reduced cost `-3`, below `-opt_tolerance`. -/
theorem C2_dummy_arc_negative :
    (scenarioNegCost.bind (NetSimplex.run 5)).map (fun r => r.1) = some ProblemType.OPTIMAL ∧
    (scenarioNegCost.bind (NetSimplex.run 5)).bind (fun r => r.2.signedRedCost 0) =
      some (-3) := by
  decide

/-- C2, amended: whenever `run()` or `reRun()` returns `OPTIMAL`, every real arc `e`
(`_dummy_arc <= e < _arc_num`, the arcs the pivot rule scans) has
`state[e] * (cost[e] + pi[source[e]] - pi[target[e]]) >= 0`, hence `>= -opt_tolerance`. -/
theorem C2_certificate_real_arcs (fuel : Nat) (ns ns' : NetSimplex)
    (h : NetSimplex.run fuel ns = some (ProblemType.OPTIMAL, ns') ∨
         NetSimplex.reRun fuel ns = some (ProblemType.OPTIMAL, ns')) :
    ∀ e : Int, ns.dummy_arc ≤ e → e < ns.arc_num →
      ∃ r, ns'.signedRedCost e = some r ∧ 0 ≤ r := by
  rcases h with h | h
  · simp only [NetSimplex.run, Option.bind_eq_bind, Option.bind_eq_some] at h
    obtain ⟨n1, h1, ⟨ok, n2⟩, h2, h3⟩ := h
    have s1' := NetSimplex.runReset_sameSize _ _ _ _ h1
    have s1 : NetSimplex.SameSize ns n1 := s1'
    have s2 := NetSimplex.init_sameSize h2
    cases ok with
    | false => simp at h3
    | true =>
      simp only [if_true] at h3
      have g := (NetSimplex.startLoop_optimal _ _ _ _ _ h3).2
      intro e h4 h5
      apply g e
      · show n2.dummy_arc ≤ e
        rw [s2.2.2.1, s1.2.2.1]; exact h4
      · show e < n2.arc_num
        rw [s2.2.1, s1.2.1]; exact h5
  · exact (NetSimplex.startLoop_optimal _ _ _ _ _ h).2

/-- C2, amended, on scenario S1: the solve returns `OPTIMAL` and the certificate holds. -/
theorem C2_certificate_real_arcs_S1 :
    (NetSimplex.run 5 solverS1 = some (ProblemType.OPTIMAL, solvedS1) ∨
      NetSimplex.reRun 5 solverS1 = some (ProblemType.OPTIMAL, solvedS1)) ∧
    ∀ e : Int, solverS1.dummy_arc ≤ e → e < solverS1.arc_num →
      ∃ r, solvedS1.signedRedCost e = some r ∧ 0 ≤ r :=
  ⟨Or.inl (by decide), C2_certificate_real_arcs 5 solverS1 solvedS1 (Or.inl (by decide))⟩

/-! ## Frame conditions -/

namespace NetSimplex

theorem Keeps.unchanged (fs : List Fld) (gs : List Sc) (ns : NetSimplex) : Keeps fs gs ns ns :=
  ⟨fun _ _ => rfl, fun _ => rfl, fun _ _ => rfl, rfl, rfl⟩

theorem Keeps.seq {fs fs' : List Fld} {gs gs' : List Sc} {a b c : NetSimplex}
    (h1 : Keeps fs gs a b) (h2 : Keeps fs' gs' b c) : Keeps (fs ++ fs') (gs ++ gs') a c := by
  obtain ⟨a1, a2, a3, a4, a5⟩ := h1
  obtain ⟨b1, b2, b3, b4, b5⟩ := h2
  refine ⟨?_, ?_, ?_, b4.trans a4, b5.trans a5⟩
  · intro f hf
    rw [List.mem_append, not_or] at hf
    exact (b1 f hf.2).trans (a1 f hf.1)
  · intro f
    exact (b2 f).trans (a2 f)
  · intro g hg
    rw [List.mem_append, not_or] at hg
    exact (b3 g hg.2).trans (a3 g hg.1)

theorem Keeps.mono {fs fs' : List Fld} {gs gs' : List Sc} {a b : NetSimplex}
    (h : Keeps fs gs a b) (hf : ∀ f, f ∈ fs → f ∈ fs') (hg : ∀ g, g ∈ gs → g ∈ gs') :
    Keeps fs' gs' a b :=
  ⟨fun f h' => h.1 f fun m => h' (hf f m), h.2.1, fun g h' => h.2.2.1 g fun m => h' (hg g m),
    h.2.2.2.1, h.2.2.2.2⟩

theorem set_source_spec {ns ns' : NetSimplex} {i v : Int} (h : ns.set_source i v = some ns') :
    wr ns.source i v = some ns'.source ∧ Keeps [Fld.source] [] ns ns' ∧ ns'.state = ns.state := by
  obtain ⟨xs, hx, rfl⟩ := set_source_eq_some.1 h
  refine ⟨hx, ⟨?_, ?_, ?_, rfl, rfl⟩, rfl⟩
  · intro f hf
    cases f <;> first | rfl | exact absurd (List.mem_singleton.2 rfl) hf
  · intro f
    cases f <;> first | exact wr_length hx | rfl
  · intro g _
    cases g <;> rfl

theorem set_source_ok (ns : NetSimplex) {i : Int} (v : Int) (h0 : 0 ≤ i)
    (h1 : i < ((ns.arr Fld.source).length : Int)) : ∃ ns', ns.set_source i v = some ns' := by
  obtain ⟨xs, hx⟩ := wr_of_range ns.source v h0 h1
  exact ⟨_, set_source_eq_some.2 ⟨xs, hx, rfl⟩⟩

theorem set_target_spec {ns ns' : NetSimplex} {i v : Int} (h : ns.set_target i v = some ns') :
    wr ns.target i v = some ns'.target ∧ Keeps [Fld.target] [] ns ns' ∧ ns'.state = ns.state := by
  obtain ⟨xs, hx, rfl⟩ := set_target_eq_some.1 h
  refine ⟨hx, ⟨?_, ?_, ?_, rfl, rfl⟩, rfl⟩
  · intro f hf
    cases f <;> first | rfl | exact absurd (List.mem_singleton.2 rfl) hf
  · intro f
    cases f <;> first | exact wr_length hx | rfl
  · intro g _
    cases g <;> rfl

theorem set_target_ok (ns : NetSimplex) {i : Int} (v : Int) (h0 : 0 ≤ i)
    (h1 : i < ((ns.arr Fld.target).length : Int)) : ∃ ns', ns.set_target i v = some ns' := by
  obtain ⟨xs, hx⟩ := wr_of_range ns.target v h0 h1
  exact ⟨_, set_target_eq_some.2 ⟨xs, hx, rfl⟩⟩

theorem set_supply_spec {ns ns' : NetSimplex} {i v : Int} (h : ns.set_supply i v = some ns') :
    wr ns.supply i v = some ns'.supply ∧ Keeps [Fld.supply] [] ns ns' ∧ ns'.state = ns.state := by
  obtain ⟨xs, hx, rfl⟩ := set_supply_eq_some.1 h
  refine ⟨hx, ⟨?_, ?_, ?_, rfl, rfl⟩, rfl⟩
  · intro f hf
    cases f <;> first | rfl | exact absurd (List.mem_singleton.2 rfl) hf
  · intro f
    cases f <;> first | exact wr_length hx | rfl
  · intro g _
    cases g <;> rfl

theorem set_supply_ok (ns : NetSimplex) {i : Int} (v : Int) (h0 : 0 ≤ i)
    (h1 : i < ((ns.arr Fld.supply).length : Int)) : ∃ ns', ns.set_supply i v = some ns' := by
  obtain ⟨xs, hx⟩ := wr_of_range ns.supply v h0 h1
  exact ⟨_, set_supply_eq_some.2 ⟨xs, hx, rfl⟩⟩

theorem set_flow_spec {ns ns' : NetSimplex} {i v : Int} (h : ns.set_flow i v = some ns') :
    wr ns.flow i v = some ns'.flow ∧ Keeps [Fld.flow] [] ns ns' ∧ ns'.state = ns.state := by
  obtain ⟨xs, hx, rfl⟩ := set_flow_eq_some.1 h
  refine ⟨hx, ⟨?_, ?_, ?_, rfl, rfl⟩, rfl⟩
  · intro f hf
    cases f <;> first | rfl | exact absurd (List.mem_singleton.2 rfl) hf
  · intro f
    cases f <;> first | exact wr_length hx | rfl
  · intro g _
    cases g <;> rfl

theorem set_flow_ok (ns : NetSimplex) {i : Int} (v : Int) (h0 : 0 ≤ i)
    (h1 : i < ((ns.arr Fld.flow).length : Int)) : ∃ ns', ns.set_flow i v = some ns' := by
  obtain ⟨xs, hx⟩ := wr_of_range ns.flow v h0 h1
  exact ⟨_, set_flow_eq_some.2 ⟨xs, hx, rfl⟩⟩

theorem set_cost_spec {ns ns' : NetSimplex} {i v : Int} (h : ns.set_cost i v = some ns') :
    wr ns.cost i v = some ns'.cost ∧ Keeps [Fld.cost] [] ns ns' ∧ ns'.state = ns.state := by
  obtain ⟨xs, hx, rfl⟩ := set_cost_eq_some.1 h
  refine ⟨hx, ⟨?_, ?_, ?_, rfl, rfl⟩, rfl⟩
  · intro f hf
    cases f <;> first | rfl | exact absurd (List.mem_singleton.2 rfl) hf
  · intro f
    cases f <;> first | exact wr_length hx | rfl
  · intro g _
    cases g <;> rfl

theorem set_cost_ok (ns : NetSimplex) {i : Int} (v : Int) (h0 : 0 ≤ i)
    (h1 : i < ((ns.arr Fld.cost).length : Int)) : ∃ ns', ns.set_cost i v = some ns' := by
  obtain ⟨xs, hx⟩ := wr_of_range ns.cost v h0 h1
  exact ⟨_, set_cost_eq_some.2 ⟨xs, hx, rfl⟩⟩

theorem set_pi_spec {ns ns' : NetSimplex} {i v : Int} (h : ns.set_pi i v = some ns') :
    wr ns.pi i v = some ns'.pi ∧ Keeps [Fld.pi] [] ns ns' ∧ ns'.state = ns.state := by
  obtain ⟨xs, hx, rfl⟩ := set_pi_eq_some.1 h
  refine ⟨hx, ⟨?_, ?_, ?_, rfl, rfl⟩, rfl⟩
  · intro f hf
    cases f <;> first | rfl | exact absurd (List.mem_singleton.2 rfl) hf
  · intro f
    cases f <;> first | exact wr_length hx | rfl
  · intro g _
    cases g <;> rfl

theorem set_pi_ok (ns : NetSimplex) {i : Int} (v : Int) (h0 : 0 ≤ i)
    (h1 : i < ((ns.arr Fld.pi).length : Int)) : ∃ ns', ns.set_pi i v = some ns' := by
  obtain ⟨xs, hx⟩ := wr_of_range ns.pi v h0 h1
  exact ⟨_, set_pi_eq_some.2 ⟨xs, hx, rfl⟩⟩

theorem set_parent_spec {ns ns' : NetSimplex} {i v : Int} (h : ns.set_parent i v = some ns') :
    wr ns.parent i v = some ns'.parent ∧ Keeps [Fld.parent] [] ns ns' ∧ ns'.state = ns.state := by
  obtain ⟨xs, hx, rfl⟩ := set_parent_eq_some.1 h
  refine ⟨hx, ⟨?_, ?_, ?_, rfl, rfl⟩, rfl⟩
  · intro f hf
    cases f <;> first | rfl | exact absurd (List.mem_singleton.2 rfl) hf
  · intro f
    cases f <;> first | exact wr_length hx | rfl
  · intro g _
    cases g <;> rfl

theorem set_parent_ok (ns : NetSimplex) {i : Int} (v : Int) (h0 : 0 ≤ i)
    (h1 : i < ((ns.arr Fld.parent).length : Int)) : ∃ ns', ns.set_parent i v = some ns' := by
  obtain ⟨xs, hx⟩ := wr_of_range ns.parent v h0 h1
  exact ⟨_, set_parent_eq_some.2 ⟨xs, hx, rfl⟩⟩

theorem set_pred_spec {ns ns' : NetSimplex} {i v : Int} (h : ns.set_pred i v = some ns') :
    wr ns.pred i v = some ns'.pred ∧ Keeps [Fld.pred] [] ns ns' ∧ ns'.state = ns.state := by
  obtain ⟨xs, hx, rfl⟩ := set_pred_eq_some.1 h
  refine ⟨hx, ⟨?_, ?_, ?_, rfl, rfl⟩, rfl⟩
  · intro f hf
    cases f <;> first | rfl | exact absurd (List.mem_singleton.2 rfl) hf
  · intro f
    cases f <;> first | exact wr_length hx | rfl
  · intro g _
    cases g <;> rfl

theorem set_pred_ok (ns : NetSimplex) {i : Int} (v : Int) (h0 : 0 ≤ i)
    (h1 : i < ((ns.arr Fld.pred).length : Int)) : ∃ ns', ns.set_pred i v = some ns' := by
  obtain ⟨xs, hx⟩ := wr_of_range ns.pred v h0 h1
  exact ⟨_, set_pred_eq_some.2 ⟨xs, hx, rfl⟩⟩

theorem set_thread_spec {ns ns' : NetSimplex} {i v : Int} (h : ns.set_thread i v = some ns') :
    wr ns.thread i v = some ns'.thread ∧ Keeps [Fld.thread] [] ns ns' ∧ ns'.state = ns.state := by
  obtain ⟨xs, hx, rfl⟩ := set_thread_eq_some.1 h
  refine ⟨hx, ⟨?_, ?_, ?_, rfl, rfl⟩, rfl⟩
  · intro f hf
    cases f <;> first | rfl | exact absurd (List.mem_singleton.2 rfl) hf
  · intro f
    cases f <;> first | exact wr_length hx | rfl
  · intro g _
    cases g <;> rfl

theorem set_thread_ok (ns : NetSimplex) {i : Int} (v : Int) (h0 : 0 ≤ i)
    (h1 : i < ((ns.arr Fld.thread).length : Int)) : ∃ ns', ns.set_thread i v = some ns' := by
  obtain ⟨xs, hx⟩ := wr_of_range ns.thread v h0 h1
  exact ⟨_, set_thread_eq_some.2 ⟨xs, hx, rfl⟩⟩

theorem set_rev_thread_spec {ns ns' : NetSimplex} {i v : Int} (h : ns.set_rev_thread i v = some ns') :
    wr ns.rev_thread i v = some ns'.rev_thread ∧ Keeps [Fld.rev_thread] [] ns ns' ∧ ns'.state = ns.state := by
  obtain ⟨xs, hx, rfl⟩ := set_rev_thread_eq_some.1 h
  refine ⟨hx, ⟨?_, ?_, ?_, rfl, rfl⟩, rfl⟩
  · intro f hf
    cases f <;> first | rfl | exact absurd (List.mem_singleton.2 rfl) hf
  · intro f
    cases f <;> first | exact wr_length hx | rfl
  · intro g _
    cases g <;> rfl

theorem set_rev_thread_ok (ns : NetSimplex) {i : Int} (v : Int) (h0 : 0 ≤ i)
    (h1 : i < ((ns.arr Fld.rev_thread).length : Int)) : ∃ ns', ns.set_rev_thread i v = some ns' := by
  obtain ⟨xs, hx⟩ := wr_of_range ns.rev_thread v h0 h1
  exact ⟨_, set_rev_thread_eq_some.2 ⟨xs, hx, rfl⟩⟩

theorem set_succ_num_spec {ns ns' : NetSimplex} {i v : Int} (h : ns.set_succ_num i v = some ns') :
    wr ns.succ_num i v = some ns'.succ_num ∧ Keeps [Fld.succ_num] [] ns ns' ∧ ns'.state = ns.state := by
  obtain ⟨xs, hx, rfl⟩ := set_succ_num_eq_some.1 h
  refine ⟨hx, ⟨?_, ?_, ?_, rfl, rfl⟩, rfl⟩
  · intro f hf
    cases f <;> first | rfl | exact absurd (List.mem_singleton.2 rfl) hf
  · intro f
    cases f <;> first | exact wr_length hx | rfl
  · intro g _
    cases g <;> rfl

theorem set_succ_num_ok (ns : NetSimplex) {i : Int} (v : Int) (h0 : 0 ≤ i)
    (h1 : i < ((ns.arr Fld.succ_num).length : Int)) : ∃ ns', ns.set_succ_num i v = some ns' := by
  obtain ⟨xs, hx⟩ := wr_of_range ns.succ_num v h0 h1
  exact ⟨_, set_succ_num_eq_some.2 ⟨xs, hx, rfl⟩⟩

theorem set_last_succ_spec {ns ns' : NetSimplex} {i v : Int} (h : ns.set_last_succ i v = some ns') :
    wr ns.last_succ i v = some ns'.last_succ ∧ Keeps [Fld.last_succ] [] ns ns' ∧ ns'.state = ns.state := by
  obtain ⟨xs, hx, rfl⟩ := set_last_succ_eq_some.1 h
  refine ⟨hx, ⟨?_, ?_, ?_, rfl, rfl⟩, rfl⟩
  · intro f hf
    cases f <;> first | rfl | exact absurd (List.mem_singleton.2 rfl) hf
  · intro f
    cases f <;> first | exact wr_length hx | rfl
  · intro g _
    cases g <;> rfl

theorem set_last_succ_ok (ns : NetSimplex) {i : Int} (v : Int) (h0 : 0 ≤ i)
    (h1 : i < ((ns.arr Fld.last_succ).length : Int)) : ∃ ns', ns.set_last_succ i v = some ns' := by
  obtain ⟨xs, hx⟩ := wr_of_range ns.last_succ v h0 h1
  exact ⟨_, set_last_succ_eq_some.2 ⟨xs, hx, rfl⟩⟩

theorem set_pred_dir_spec {ns ns' : NetSimplex} {i v : Int} (h : ns.set_pred_dir i v = some ns') :
    wr ns.pred_dir i v = some ns'.pred_dir ∧ Keeps [Fld.pred_dir] [] ns ns' ∧ ns'.state = ns.state := by
  obtain ⟨xs, hx, rfl⟩ := set_pred_dir_eq_some.1 h
  refine ⟨hx, ⟨?_, ?_, ?_, rfl, rfl⟩, rfl⟩
  · intro f hf
    cases f <;> first | rfl | exact absurd (List.mem_singleton.2 rfl) hf
  · intro f
    cases f <;> first | exact wr_length hx | rfl
  · intro g _
    cases g <;> rfl

theorem set_pred_dir_ok (ns : NetSimplex) {i : Int} (v : Int) (h0 : 0 ≤ i)
    (h1 : i < ((ns.arr Fld.pred_dir).length : Int)) : ∃ ns', ns.set_pred_dir i v = some ns' := by
  obtain ⟨xs, hx⟩ := wr_of_range ns.pred_dir v h0 h1
  exact ⟨_, set_pred_dir_eq_some.2 ⟨xs, hx, rfl⟩⟩

theorem set_state_spec {ns ns' : NetSimplex} {i : Int} {v : Bool}
    (h : ns.set_state i v = some ns') :
    wr ns.state i v = some ns'.state ∧ Keeps [] [] ns ns' := by
  obtain ⟨xs, hx, rfl⟩ := set_state_eq_some.1 h
  refine ⟨hx, ⟨?_, ?_, ?_, wr_length hx, rfl⟩⟩
  · intro f _
    cases f <;> rfl
  · intro f
    cases f <;> rfl
  · intro g _
    cases g <;> rfl

theorem set_state_ok (ns : NetSimplex) {i : Int} (v : Bool) (h0 : 0 ≤ i)
    (h1 : i < (ns.state.length : Int)) : ∃ ns', ns.set_state i v = some ns' := by
  obtain ⟨xs, hx⟩ := wr_of_range ns.state v h0 h1
  exact ⟨_, set_state_eq_some.2 ⟨xs, hx, rfl⟩⟩

end NetSimplex

/-! ## Initialisation succeeds on well-sized solvers -/

namespace NetSimplex

theorem Keeps.sized {fs : List Fld} {gs : List Sc} {a b : NetSimplex} {n m : Nat}
    (h : Keeps fs gs a b) (hs : Sized a n m) : Sized b n m :=
  ⟨fun f => (h.2.1 f).trans (hs.1 f), h.2.2.2.1.trans hs.2⟩

theorem initArcTree_ok (u : Int) (ns : NetSimplex) (n m : Nat) (hs : Sized ns n m)
    (hu0 : 0 ≤ u) (hun : u < n) (hnm : n ≤ m) :
    ∃ ns', initArcTree u u ns = some ns' ∧
      Keeps [Fld.parent, Fld.pred, Fld.thread, Fld.rev_thread, Fld.succ_num, Fld.last_succ] []
        ns ns' := by
  have L : ∀ (x : NetSimplex) (fs : List Fld), Keeps fs [] ns x → ∀ f : Fld,
      u + 1 < ((x.arr f).length : Int) ∨ (f.isNode = false ∧ u < ((x.arr f).length : Int)) := by
    intro x fs hk f
    rw [hk.2.1 f, hs.1 f]
    cases f <;> simp [Fld.isNode] <;> omega
  have Ln : ∀ (x : NetSimplex) (fs : List Fld), Keeps fs [] ns x → ∀ f : Fld, f.isNode = true →
      u + 1 < ((x.arr f).length : Int) := by
    intro x fs hk f hf
    rcases L x fs hk f with h | h
    · exact h
    · rw [hf] at h; exact absurd h.1 (by simp)
  have k0 := Keeps.unchanged [] [] ns
  obtain ⟨n1, e1⟩ := set_parent_ok ns (i := u) ns.root hu0 (by have := Ln _ _ k0 Fld.parent rfl; omega)
  have k1 := k0.seq (set_parent_spec e1).2.1
  obtain ⟨n2, e2⟩ := set_pred_ok n1 (i := u) u hu0 (by have := Ln _ _ k1 Fld.pred rfl; omega)
  have k2 := k1.seq (set_pred_spec e2).2.1
  obtain ⟨n3, e3⟩ := set_thread_ok n2 (i := u) (u + 1) hu0 (by have := Ln _ _ k2 Fld.thread rfl; omega)
  have k3 := k2.seq (set_thread_spec e3).2.1
  obtain ⟨n4, e4⟩ := set_rev_thread_ok n3 (i := u + 1) u (by omega) (Ln _ _ k3 Fld.rev_thread rfl)
  have k4 := k3.seq (set_rev_thread_spec e4).2.1
  obtain ⟨n5, e5⟩ := set_succ_num_ok n4 (i := u) 1 hu0 (by have := Ln _ _ k4 Fld.succ_num rfl; omega)
  have k5 := k4.seq (set_succ_num_spec e5).2.1
  obtain ⟨n6, e6⟩ := set_last_succ_ok n5 (i := u) u hu0 (by have := Ln _ _ k5 Fld.last_succ rfl; omega)
  have k6 := k5.seq (set_last_succ_spec e6).2.1
  obtain ⟨n7, e7⟩ := set_state_ok n6 (i := u) STATE_TREE hu0 (by rw [k6.2.2.2.1, hs.2]; omega)
  have k7 := k6.seq (set_state_spec e7).2
  refine ⟨n7, ?_, k7.mono (by decide) (by decide)⟩
  simp only [initArcTree, Option.bind_eq_bind, e1, e2, e3, e4, e5, e6, e7, Option.some_bind]

theorem initArcUp_ok (u b : Int) (ns : NetSimplex) (n m : Nat) (hs : Sized ns n m)
    (hu0 : 0 ≤ u) (hun : u < n) (hnm : n ≤ m) :
    ∃ ns', initArcUp u u b ns = some ns' ∧ Keeps initFields [] ns ns' ∧
      ns'.state = ns.state ∧ rd ns'.flow u = some (b) ∧
      ∀ j : Int, j ≠ u → rd ns'.flow j = rd ns.flow j := by
  have L : ∀ (x : NetSimplex) (fs : List Fld), Keeps fs [] ns x → ∀ f : Fld,
      u < ((x.arr f).length : Int) := by
    intro x fs hk f
    rw [hk.2.1 f, hs.1 f]
    cases f <;> simp [Fld.isNode] <;> omega
  have k0 := Keeps.unchanged [] [] ns
  obtain ⟨n1, e1⟩ := set_pred_dir_ok ns (i := u) DIR_UP hu0 (L _ _ k0 Fld.pred_dir)
  have k1 := k0.seq (set_pred_dir_spec e1).2.1
  obtain ⟨n2, e2⟩ := set_pi_ok n1 (i := u) (0) hu0 (L _ _ k1 Fld.pi)
  have k2 := k1.seq (set_pi_spec e2).2.1
  obtain ⟨n3, e3⟩ := set_source_ok n2 (i := u) (u) hu0 (L _ _ k2 Fld.source)
  have k3 := k2.seq (set_source_spec e3).2.1
  obtain ⟨n4, e4⟩ := set_target_ok n3 (i := u) (n3.root) hu0 (L _ _ k3 Fld.target)
  have k4 := k3.seq (set_target_spec e4).2.1
  obtain ⟨n5, e5⟩ := set_flow_ok n4 (i := u) (b) hu0 (L _ _ k4 Fld.flow)
  have k5 := k4.seq (set_flow_spec e5).2.1
  obtain ⟨n6, e6⟩ := set_cost_ok n5 (i := u) (0) hu0 (L _ _ k5 Fld.cost)
  have k6 := k5.seq (set_cost_spec e6).2.1
  have hf6 : n6.flow = n5.flow := (set_cost_spec e6).2.1.1 Fld.flow (by decide)
  have hf4 : n4.flow = ns.flow := k4.1 Fld.flow (by decide)
  have w5 := (set_flow_spec e5).1
  refine ⟨n6, ?_, k6.mono (by decide) (by decide), ?_, ?_, ?_⟩
  · simp only [initArcUp, Option.bind_eq_bind, e1, e2, e3, e4, e5, e6, Option.some_bind]
  · rw [(set_cost_spec e6).2.2, (set_flow_spec e5).2.2, (set_target_spec e4).2.2,
      (set_source_spec e3).2.2, (set_pi_spec e2).2.2, (set_pred_dir_spec e1).2.2]
  · rw [hf6]; exact rd_wr_same w5
  · intro j hj
    rw [hf6, rd_wr_ne w5 hj, hf4]

theorem initArcDown_ok (A u b : Int) (ns : NetSimplex) (n m : Nat) (hs : Sized ns n m)
    (hu0 : 0 ≤ u) (hun : u < n) (hnm : n ≤ m) :
    ∃ ns', initArcDown A u u b ns = some ns' ∧ Keeps initFields [] ns ns' ∧
      ns'.state = ns.state ∧ rd ns'.flow u = some (-b) ∧
      ∀ j : Int, j ≠ u → rd ns'.flow j = rd ns.flow j := by
  have L : ∀ (x : NetSimplex) (fs : List Fld), Keeps fs [] ns x → ∀ f : Fld,
      u < ((x.arr f).length : Int) := by
    intro x fs hk f
    rw [hk.2.1 f, hs.1 f]
    cases f <;> simp [Fld.isNode] <;> omega
  have k0 := Keeps.unchanged [] [] ns
  obtain ⟨n1, e1⟩ := set_pred_dir_ok ns (i := u) DIR_DOWN hu0 (L _ _ k0 Fld.pred_dir)
  have k1 := k0.seq (set_pred_dir_spec e1).2.1
  obtain ⟨n2, e2⟩ := set_pi_ok n1 (i := u) (A) hu0 (L _ _ k1 Fld.pi)
  have k2 := k1.seq (set_pi_spec e2).2.1
  obtain ⟨n3, e3⟩ := set_source_ok n2 (i := u) (n2.root) hu0 (L _ _ k2 Fld.source)
  have k3 := k2.seq (set_source_spec e3).2.1
  obtain ⟨n4, e4⟩ := set_target_ok n3 (i := u) (u) hu0 (L _ _ k3 Fld.target)
  have k4 := k3.seq (set_target_spec e4).2.1
  obtain ⟨n5, e5⟩ := set_flow_ok n4 (i := u) (-b) hu0 (L _ _ k4 Fld.flow)
  have k5 := k4.seq (set_flow_spec e5).2.1
  obtain ⟨n6, e6⟩ := set_cost_ok n5 (i := u) (A) hu0 (L _ _ k5 Fld.cost)
  have k6 := k5.seq (set_cost_spec e6).2.1
  have hf6 : n6.flow = n5.flow := (set_cost_spec e6).2.1.1 Fld.flow (by decide)
  have hf4 : n4.flow = ns.flow := k4.1 Fld.flow (by decide)
  have w5 := (set_flow_spec e5).1
  refine ⟨n6, ?_, k6.mono (by decide) (by decide), ?_, ?_, ?_⟩
  · simp only [initArcDown, Option.bind_eq_bind, e1, e2, e3, e4, e5, e6, Option.some_bind]
  · rw [(set_cost_spec e6).2.2, (set_flow_spec e5).2.2, (set_target_spec e4).2.2,
      (set_source_spec e3).2.2, (set_pi_spec e2).2.2, (set_pred_dir_spec e1).2.2]
  · rw [hf6]; exact rd_wr_same w5
  · intro j hj
    rw [hf6, rd_wr_ne w5 hj, hf4]

theorem initArc_ok (A u : Int) (ns : NetSimplex) (n m : Nat) (hs : Sized ns n m)
    (hu0 : 0 ≤ u) (hun : u < n) (hnm : n ≤ m) :
    ∃ ns' b, initArc A u u ns = some ns' ∧ rd ns.supply u = some b ∧
      Keeps initFields [] ns ns' ∧ rd ns'.flow u = some (initFlow b) ∧
      ∀ j : Int, j ≠ u → rd ns'.flow j = rd ns.flow j := by
  obtain ⟨n1, e1, k1⟩ := initArcTree_ok u ns n m hs hu0 hun hnm
  have hs1 := k1.sized hs
  have hsup : n1.supply = ns.supply := k1.1 Fld.supply (by decide)
  have hfl : n1.flow = ns.flow := k1.1 Fld.flow (by decide)
  obtain ⟨b, hb⟩ := rd_of_range ns.supply hu0 (by
    have := hs.1 Fld.supply
    simp only [arr, Fld.isNode, if_true] at this
    omega)
  by_cases hb0 : b ≥ 0
  · obtain ⟨n2, e2, k2, _, f1, f2⟩ := initArcUp_ok u b n1 n m hs1 hu0 hun hnm
    refine ⟨n2, b, ?_, hb, (k1.seq k2).mono (by decide) (by decide), ?_, ?_⟩
    · simp only [initArc, Option.bind_eq_bind, e1, Option.some_bind, hsup, hb, hb0, if_true, e2]
    · simpa only [initFlow, hb0, if_true] using f1
    · intro j hj; rw [f2 j hj, hfl]
  · obtain ⟨n2, e2, k2, _, f1, f2⟩ := initArcDown_ok A u b n1 n m hs1 hu0 hun hnm
    refine ⟨n2, b, ?_, hb, (k1.seq k2).mono (by decide) (by decide), ?_, ?_⟩
    · simp only [initArc, Option.bind_eq_bind, e1, Option.some_bind, hsup, hb, hb0, if_false, e2]
    · simpa only [initFlow, hb0, if_false] using f1
    · intro j hj; rw [f2 j hj, hfl]

theorem initArcs_ok (A : Int) (n m : Nat) (hnm : n ≤ m) :
    ∀ (k : Nat) (u : Int) (ns : NetSimplex), Sized ns n m → 0 ≤ u → u + k ≤ n →
    ∃ ns', initArcs A k u u ns = some ns' ∧ Keeps initFields [] ns ns' ∧
      (∀ j : Int, u ≤ j → j < u + k →
        ∃ b, rd ns.supply j = some b ∧ rd ns'.flow j = some (initFlow b)) ∧
      ∀ j : Int, j < u → rd ns'.flow j = rd ns.flow j := by
  intro k
  induction k with
  | zero =>
    intro u ns _ _ _
    exact ⟨ns, rfl, Keeps.unchanged _ _ _, fun j h1 h2 => by omega, fun _ _ => rfl⟩
  | succ k ih =>
    intro u ns hs hu0 huk
    obtain ⟨n1, b, e1, hb, k1, f1, f2⟩ := initArc_ok A u ns n m hs hu0 (by omega) hnm
    obtain ⟨n2, e2, k2, g1, g2⟩ := ih (u + 1) n1 (k1.sized hs) (by omega) (by push_cast at huk; omega)
    have hsup : n1.supply = ns.supply := k1.1 Fld.supply (by decide)
    refine ⟨n2, ?_, (k1.seq k2).mono (by simp) (by simp), ?_, ?_⟩
    · simp only [initArcs, Option.bind_eq_bind, e1, Option.some_bind, e2]
    · intro j hj1 hj2
      by_cases hj : j = u
      · subst hj
        exact ⟨b, hb, by rw [g2 j (by omega)]; exact f1⟩
      · obtain ⟨b', hb', hf'⟩ := g1 j (by omega) (by push_cast at hj2; omega)
        exact ⟨b', by rw [← hsup]; exact hb', hf'⟩
    · intro j hj
      rw [g2 j (by omega), f2 j (by omega)]

theorem Sized.len_arc {ns : NetSimplex} {n m : Nat} (hs : Sized ns n m) (f : Fld)
    (hf : f.isNode = false) : (ns.arr f).length = m := by
  rw [hs.1 f, hf]; simp

theorem Sized.len_node {ns : NetSimplex} {n m : Nat} (hs : Sized ns n m) (f : Fld)
    (hf : f.isNode = true) : (ns.arr f).length = n + 1 := by
  rw [hs.1 f, hf]; simp

theorem runReset_ok (n m : Nat) : ∀ (k : Nat) (e : Int) (ns : NetSimplex), Sized ns n m →
    0 ≤ e → e + k ≤ m → ∃ ns', runReset k e ns = some ns' ∧ Keeps [Fld.flow] [] ns ns' := by
  intro k
  induction k with
  | zero =>
    intro e ns _ _ _
    exact ⟨ns, rfl, Keeps.unchanged _ _ _⟩
  | succ k ih =>
    intro e ns hs he hk
    obtain ⟨n1, e1⟩ := set_state_ok ns (i := e) STATE_LOWER he (by rw [hs.2]; push_cast at hk; omega)
    have k1 := (set_state_spec e1).2
    obtain ⟨n2, e2⟩ := set_flow_ok n1 (i := e) 0 he (by
      rw [k1.2.1, hs.len_arc Fld.flow rfl]; push_cast at hk; omega)
    have k2 := k1.seq (set_flow_spec e2).2.1
    obtain ⟨n3, e3, k3⟩ := ih (e + 1) n2 (k2.sized hs) (by omega) (by push_cast at hk; omega)
    refine ⟨n3, ?_, (k2.seq k3).mono (by simp) (by simp)⟩
    simp only [runReset, Option.bind_eq_bind, e1, e2, Option.some_bind, e3]

theorem initSum_ok (n m : Nat) : ∀ (k : Nat) (i : Int) (ns : NetSimplex), Sized ns n m →
    0 ≤ i → i + k ≤ n + 1 → ∃ ns', initSum k i ns = some ns' ∧
      Keeps [] [Sc.sum_supply] ns ns' := by
  intro k
  induction k with
  | zero =>
    intro i ns _ _ _
    exact ⟨ns, rfl, Keeps.unchanged _ _ _⟩
  | succ k ih =>
    intro i ns hs hi hk
    obtain ⟨b, hb⟩ := rd_of_range ns.supply hi (by
      have := hs.1 Fld.supply
      simp only [arr, Fld.isNode, if_true] at this
      push_cast at hk; omega)
    have k1 : Keeps [] [Sc.sum_supply] ns { ns with sum_supply := ns.sum_supply + b } := by
      refine ⟨fun f _ => by cases f <;> rfl, fun f => by cases f <;> rfl, ?_, rfl, rfl⟩
      intro g hg
      cases g <;> first | rfl | exact absurd (List.mem_singleton.2 rfl) hg
    obtain ⟨n2, e2, k2⟩ := ih (i + 1) _ (k1.sized hs) (by omega) (by push_cast at hk; omega)
    refine ⟨n2, ?_, (k1.seq k2).mono (by simp) (by simp)⟩
    simp only [initSum, Option.bind_eq_bind, hb, Option.some_bind, e2]

theorem keeps_sum_supply (ns : NetSimplex) (x : Int) :
    Keeps [] [Sc.sum_supply] ns { ns with sum_supply := x } := by
  refine ⟨fun f _ => by cases f <;> rfl, fun f => by cases f <;> rfl, ?_, rfl, rfl⟩
  intro g hg
  cases g <;> first | rfl | exact absurd (List.mem_singleton.2 rfl) hg

theorem keeps_root (ns : NetSimplex) (x : Int) :
    Keeps [] [Sc.root] ns { ns with root := x } := by
  refine ⟨fun f _ => by cases f <;> rfl, fun f => by cases f <;> rfl, ?_, rfl, rfl⟩
  intro g hg
  cases g <;> first | rfl | exact absurd (List.mem_singleton.2 rfl) hg

theorem initRoot_ok (nr : NetSimplex) (n m : Nat) (hsr : Sized nr n m) (hroot : nr.root = n) :
    ∃ ns', initRoot nr = some ns' ∧ Keeps rootFields [] nr ns' ∧
      ∀ j : Int, j ≠ n → rd ns'.supply j = rd nr.supply j := by
  have q0 := Keeps.unchanged [] [] nr
  have hr0 : nr.root = n := (show _ = nr.root from q0.2.2.1 Sc.root (by decide)).trans hroot
  obtain ⟨r1, e1⟩ := set_parent_ok nr (i := nr.root) (-1) (by omega) (by
    rw [q0.2.1, hsr.len_node Fld.parent rfl]; omega)
  have q1 := q0.seq (set_parent_spec e1).2.1
  have hr1 : r1.root = n := (show _ = nr.root from q1.2.2.1 Sc.root (by decide)).trans hroot
  obtain ⟨r2, e2⟩ := set_pred_ok r1 (i := r1.root) (-1) (by omega) (by
    rw [q1.2.1, hsr.len_node Fld.pred rfl]; omega)
  have q2 := q1.seq (set_pred_spec e2).2.1
  have hr2 : r2.root = n := (show _ = nr.root from q2.2.2.1 Sc.root (by decide)).trans hroot
  obtain ⟨r3, e3⟩ := set_thread_ok r2 (i := r2.root) (0) (by omega) (by
    rw [q2.2.1, hsr.len_node Fld.thread rfl]; omega)
  have q3 := q2.seq (set_thread_spec e3).2.1
  have hr3 : r3.root = n := (show _ = nr.root from q3.2.2.1 Sc.root (by decide)).trans hroot
  obtain ⟨r4, e4⟩ := set_rev_thread_ok r3 (i := 0) (r3.root) (by omega) (by
    rw [q3.2.1, hsr.len_node Fld.rev_thread rfl]; omega)
  have q4 := q3.seq (set_rev_thread_spec e4).2.1
  have hr4 : r4.root = n := (show _ = nr.root from q4.2.2.1 Sc.root (by decide)).trans hroot
  obtain ⟨r5, e5⟩ := set_succ_num_ok r4 (i := r4.root) (r4.node_num + 1) (by omega) (by
    rw [q4.2.1, hsr.len_node Fld.succ_num rfl]; omega)
  have q5 := q4.seq (set_succ_num_spec e5).2.1
  have hr5 : r5.root = n := (show _ = nr.root from q5.2.2.1 Sc.root (by decide)).trans hroot
  obtain ⟨r6, e6⟩ := set_last_succ_ok r5 (i := r5.root) (r5.root - 1) (by omega) (by
    rw [q5.2.1, hsr.len_node Fld.last_succ rfl]; omega)
  have q6 := q5.seq (set_last_succ_spec e6).2.1
  have hr6 : r6.root = n := (show _ = nr.root from q6.2.2.1 Sc.root (by decide)).trans hroot
  obtain ⟨r7, e7⟩ := set_supply_ok r6 (i := r6.root) (-r6.sum_supply) (by omega) (by
    rw [q6.2.1, hsr.len_node Fld.supply rfl]; omega)
  have q7 := q6.seq (set_supply_spec e7).2.1
  have hr7 : r7.root = n := (show _ = nr.root from q7.2.2.1 Sc.root (by decide)).trans hroot
  obtain ⟨r8, e8⟩ := set_pi_ok r7 (i := r7.root) (0) (by omega) (by
    rw [q7.2.1, hsr.len_node Fld.pi rfl]; omega)
  have q8 := q7.seq (set_pi_spec e8).2.1
  refine ⟨r8, ?_, q8.mono (by decide) (by decide), ?_⟩
  · simp only [initRoot, Option.bind_eq_bind, e1, e2, e3, e4, e5, e6, e7, e8, Option.some_bind]
  · intro j hj
    have h1 : r6.supply = nr.supply := q6.1 Fld.supply (by decide)
    have h2 : r8.supply = r7.supply := (set_pi_spec e8).2.1.1 Fld.supply (by decide)
    have w7 := (set_supply_spec e7).1
    rw [h2, rd_wr_ne w7 (by omega), h1]

theorem init_ok (ns : NetSimplex) (n m : Nat) (hs : Sized ns n m) (hN : ns.node_num = n)
    (hn1 : 1 ≤ n) (hnm : n ≤ m) :
    ∃ ns', init ns = some (true, ns') ∧
      Keeps (Fld.supply :: initFields) [Sc.sum_supply, Sc.root] ns ns' ∧
      ∀ j : Int, 0 ≤ j → j < n →
        ∃ b, rd ns.supply j = some b ∧ rd ns'.flow j = some (initFlow b) := by
  have ka := keeps_sum_supply ns 0
  obtain ⟨n0, e0, kb⟩ := initSum_ok n m ns.node_num.toNat 0 _ (ka.sized hs) (le_refl _) (by
    rw [hN]; simp)
  have kc := keeps_root n0 n0.node_num
  have k0 := (ka.seq kb).seq kc
  have hnn : n0.node_num = n :=
    (show n0.node_num = ns.node_num from (ka.seq kb).2.2.1 Sc.node_num (by decide)).trans hN
  obtain ⟨r8, e8, q8, hsup⟩ := initRoot_ok _ n m (k0.sized hs) hnn
  have hn8 : r8.node_num = n :=
    (show r8.node_num = ns.node_num from (k0.seq q8).2.2.1 Sc.node_num (by decide)).trans hN
  obtain ⟨n9, e9, k9, g1, g2⟩ := initArcs_ok r8.artCost n m hnm r8.node_num.toNat 0 r8
    ((k0.seq q8).sized hs) (le_refl _) (by rw [hn8]; simp)
  refine ⟨n9, ?_, ((k0.seq q8).seq k9).mono (by decide) (by decide), ?_⟩
  · have hne : ¬ ns.node_num = 0 := by omega
    simp only [init, hne, if_false, Option.bind_eq_bind, e0, Option.some_bind, e8, e9]
  · intro j hj0 hjn
    obtain ⟨b, hb, hf⟩ := g1 j hj0 (by rw [hn8]; simp; omega)
    refine ⟨b, ?_, hf⟩
    rw [hsup j (by omega)] at hb
    have h1 : n0.supply = ns.supply := (ka.seq kb).1 Fld.supply (by decide)
    rw [← h1]
    exact hb

theorem start_no_arcs (fuel : Nat) (ns : NetSimplex) (h1 : ns.arc_num = ns.dummy_arc)
    (h2 : ns.next_arc = ns.dummy_arc) :
    start (fuel + 1) ns = some (ProblemType.OPTIMAL, ns) := by
  have e : BlockSearchPivotRule.findEnteringArc (BlockSearchPivotRule.create ns) ns =
      some (false, BlockSearchPivotRule.create ns, ns) := by
    have a1 : (ns.arc_num - ns.next_arc).toNat = 0 := by rw [h1, h2]; simp
    have a2 : (ns.next_arc - ns.dummy_arc).toNat = 0 := by rw [h2]; simp
    simp only [BlockSearchPivotRule.create, BlockSearchPivotRule.findEnteringArc, a1, a2,
      BlockSearchPivotRule.scanArcs, Option.bind_eq_bind,
      Option.some_bind, Bool.false_eq_true, if_false, ge_iff_le, le_refl, if_true]
  simp only [start, startLoop, Option.bind_eq_bind, e, Option.some_bind, Bool.false_eq_true,
    if_false]

theorem addNode_eq (ns : NetSimplex) (i b : Int) : ns.addNode i b = ns.set_supply i b := by
  unfold addNode set_supply
  cases wr ns.supply i b <;> rfl

theorem addNodes_ok (n m : Nat) : ∀ (bs : List Int) (i : Int) (ns : NetSimplex), Sized ns n m →
    0 ≤ i → i + bs.length ≤ n →
    ∃ ns', addNodes bs i ns = some ns' ∧ Keeps [Fld.supply] [] ns ns' ∧ ns'.state = ns.state ∧
      (∀ j : Nat, ∀ hj : j < bs.length, rd ns'.supply (i + j) = some (bs.get ⟨j, hj⟩)) ∧
      ∀ j : Int, j < i → rd ns'.supply j = rd ns.supply j := by
  intro bs
  induction bs with
  | nil =>
    intro i ns _ _ _
    exact ⟨ns, rfl, Keeps.unchanged _ _ _, rfl, fun j hj => absurd hj (by simp), fun _ _ => rfl⟩
  | cons b bs ih =>
    intro i ns hs hi hk
    simp only [List.length_cons, Nat.cast_add, Nat.cast_one] at hk
    obtain ⟨n1, e1⟩ := set_supply_ok ns (i := i) b hi (by
      rw [hs.len_node Fld.supply rfl]; push_cast; omega)
    obtain ⟨w1, k1, s1⟩ := set_supply_spec e1
    obtain ⟨n2, e2, k2, s2, g1, g2⟩ := ih (i + 1) n1 (k1.sized hs) (by omega) (by omega)
    refine ⟨n2, ?_, (k1.seq k2).mono (by simp) (by simp), s2.trans s1, ?_, ?_⟩
    · simp only [addNodes, Option.bind_eq_bind, addNode_eq, e1, Option.some_bind, e2]
    · intro j hj
      cases j with
      | zero =>
        simp only [Nat.cast_zero, add_zero, List.get_eq_getElem, List.getElem_cons_zero]
        rw [g2 i (by omega)]
        exact rd_wr_same w1
      | succ j =>
        have := g1 j (by simpa using hj)
        simp only [List.get_eq_getElem, List.getElem_cons_succ] at this ⊢
        rw [← this]
        congr 1
        push_cast
        omega
    · intro j hj
      rw [g2 j (by omega), rd_wr_ne w1 (by omega)]

theorem create_sized (maxV maxC : Int) (n : Nat) : Sized (create maxV maxC n) n n := by
  refine ⟨fun f => ?_, ?_⟩
  · cases f <;> simp [create, arr, Fld.isNode]
  · simp [create]

end NetSimplex

/-! ## Scenario S3: no real arcs -/

theorem NetSimplex.initFlow_eq_abs (b : Int) : NetSimplex.initFlow b = |b| := by
  unfold NetSimplex.initFlow
  split
  · rw [abs_of_nonneg]; assumption
  · rw [abs_of_neg]; omega

/-- C9: for every list of supplies with `N >= 1` entries and no real arcs, building the
solver succeeds, `run()` (with any positive number of rounds allowed) returns `OPTIMAL`
after zero pivots, and every dummy arc `u` carries flow `|supply[u]|`. -/
theorem C9_no_real_arcs (supply : List Int) (fuel : Nat) (h : supply ≠ []) :
    ∃ ns ns', NetSimplex.ofInstance supply [] = some ns ∧
      NetSimplex.run (fuel + 1) ns = some (ProblemType.OPTIMAL, ns') ∧
      ns'.iterations = 0 ∧
      ∀ u : Nat, ∀ hu : u < supply.length,
        ns'.flowOf u = some |supply.get ⟨u, hu⟩| := by
  have hlen : 1 ≤ supply.length := by
    cases supply with
    | nil => exact absurd rfl h
    | cons a t => simp
  have hs0 := NetSimplex.create_sized 2147483647 2147483647 supply.length
  obtain ⟨ns, e1, k1, _, g1, _⟩ := NetSimplex.addNodes_ok supply.length supply.length supply 0
    _ hs0 (le_refl _) (by omega)
  have hs1 := k1.sized hs0
  have hit : ns.iterations = 0 := k1.2.2.2.2
  have hnn : ns.node_num = supply.length := k1.2.2.1 Sc.node_num (by decide)
  have han : ns.arc_num = supply.length := k1.2.2.1 Sc.arc_num (by decide)
  have hdn : ns.dummy_arc = supply.length := k1.2.2.1 Sc.dummy_arc (by decide)
  have hxn : ns.next_arc = supply.length := k1.2.2.1 Sc.next_arc (by decide)
  have hres : ({ ns with iterations := 0 } : NetSimplex) = ns := by
    cases ns; simp only at hit; subst hit; rfl
  obtain ⟨n2, e2, k2⟩ := NetSimplex.runReset_ok supply.length supply.length
    ns.arc_num.toNat 0 ns hs1 (le_refl _) (by rw [han]; simp)
  obtain ⟨n3, e3, k3, g3⟩ := NetSimplex.init_ok n2 supply.length supply.length (k2.sized hs1)
    ((show n2.node_num = ns.node_num from k2.2.2.1 Sc.node_num (by decide)).trans hnn)
    hlen (le_refl _)
  have k23 := k2.seq k3
  have h3a : n3.arc_num = n3.dummy_arc :=
    ((show n3.arc_num = ns.arc_num from k23.2.2.1 Sc.arc_num (by decide)).trans han).trans
      ((show n3.dummy_arc = ns.dummy_arc from k23.2.2.1 Sc.dummy_arc (by decide)).trans hdn).symm
  have h3x : n3.next_arc = n3.dummy_arc :=
    ((show n3.next_arc = ns.next_arc from k23.2.2.1 Sc.next_arc (by decide)).trans hxn).trans
      ((show n3.dummy_arc = ns.dummy_arc from k23.2.2.1 Sc.dummy_arc (by decide)).trans hdn).symm
  refine ⟨ns, n3, ?_, ?_, ?_, ?_⟩
  · simp only [NetSimplex.ofInstance, e1, Option.map_some', NetSimplex.addArcs]
  · simp only [NetSimplex.run, hres, Option.bind_eq_bind, e2, Option.some_bind, e3, if_true]
    exact NetSimplex.start_no_arcs fuel n3 h3a h3x
  · exact k23.2.2.2.2.trans hit
  · intro u hu
    obtain ⟨b, hb, hf⟩ := g3 u (by omega) (by exact_mod_cast hu)
    have hsup : n2.supply = ns.supply := k2.1 Fld.supply (by decide)
    have := g1 u hu
    simp only [zero_add] at this
    rw [hsup, this] at hb
    simp only [Option.some.injEq] at hb
    subst hb
    rw [← NetSimplex.initFlow_eq_abs]
    exact hf

/-- C9 at `N = 2`, supplies `+1, -1`: the run is `OPTIMAL` with zero pivots and the dummy
arcs keep flow `|supply[u]|`; in particular the dummy arc of node 0 retains flow 1. -/
theorem C9_no_real_arcs_S3 :
    ([1, -1] : List Int) ≠ [] ∧
    ∃ ns ns', NetSimplex.ofInstance [1, -1] [] = some ns ∧
      NetSimplex.run (0 + 1) ns = some (ProblemType.OPTIMAL, ns') ∧
      ns'.iterations = 0 ∧
      ∀ u : Nat, ∀ hu : u < ([1, -1] : List Int).length,
        ns'.flowOf u = some |([1, -1] : List Int).get ⟨u, hu⟩| :=
  ⟨by decide, C9_no_real_arcs [1, -1] 0 (by decide)⟩

/-! ## Step lemmas for the pivot loop -/

namespace NetSimplex

theorem initArc_pos {A u e b : Int} {ns ns' : NetSimplex} (h1 : initArcTree u e ns = some ns')
    (h2 : rd ns'.supply u = some b) (h3 : b ≥ 0) :
    initArc A u e ns = initArcUp u e b ns' := by
  simp only [initArc, Option.bind_eq_bind, h1, Option.some_bind, h2, h3, if_true]

theorem initArc_neg {A u e b : Int} {ns ns' : NetSimplex} (h1 : initArcTree u e ns = some ns')
    (h2 : rd ns'.supply u = some b) (h3 : ¬ b ≥ 0) :
    initArc A u e ns = initArcDown A u e b ns' := by
  simp only [initArc, Option.bind_eq_bind, h1, Option.some_bind, h2, h3, if_false]

theorem findLeavingFirst_stop (k : Nat) (ns : NetSimplex) (result : Int) :
    findLeavingFirst (k + 1) ns.join ns result = some (ns, result) := by
  simp only [findLeavingFirst, if_true]

theorem findLeavingFirst_step {k : Nat} {u e f dir p : Int} {ns : NetSimplex} (result : Int)
    (hu : u ≠ ns.join) (h1 : rd ns.pred u = some e) (h2 : rd ns.flow e = some f)
    (h3 : rd ns.pred_dir u = some dir) (h4 : rd ns.parent u = some p) :
    findLeavingFirst (k + 1) u ns result =
      if (if dir = DIR_DOWN then ns.INF - f else f) < ns.delta then
        findLeavingFirst k p
          { ns with delta := if dir = DIR_DOWN then ns.INF - f else f, u_out := u } 1
      else findLeavingFirst k p ns result := by
  simp only [findLeavingFirst, hu, if_false, Option.bind_eq_bind, h1, h2, h3, h4,
    Option.some_bind]

theorem findLeavingSecond_stop (k : Nat) (ns : NetSimplex) (result : Int) :
    findLeavingSecond (k + 1) ns.join ns result = some (ns, result) := by
  simp only [findLeavingSecond, if_true]

theorem findLeavingSecond_step {k : Nat} {u e f dir p : Int} {ns : NetSimplex} (result : Int)
    (hu : u ≠ ns.join) (h1 : rd ns.pred u = some e) (h2 : rd ns.flow e = some f)
    (h3 : rd ns.pred_dir u = some dir) (h4 : rd ns.parent u = some p) :
    findLeavingSecond (k + 1) u ns result =
      if (if dir = DIR_UP then ns.INF - f else f) ≤ ns.delta then
        findLeavingSecond k p
          { ns with delta := if dir = DIR_UP then ns.INF - f else f, u_out := u } 2
      else findLeavingSecond k p ns result := by
  simp only [findLeavingSecond, hu, if_false, Option.bind_eq_bind, h1, h2, h3, h4,
    Option.some_bind]

theorem changeFlow_pos {ns a : NetSimplex} (h : ns.delta > 0) (ha : augment ns = some a) :
    changeFlow ns =
      (a.set_state a.in_arc STATE_TREE).bind fun x =>
        (rd x.pred x.u_out).bind fun e => x.set_state e STATE_LOWER := by
  simp only [changeFlow, h, if_true, Option.bind_eq_bind, ha, Option.some_bind]

theorem changeFlow_zero {ns : NetSimplex} (h : ¬ ns.delta > 0) :
    changeFlow ns =
      (ns.set_state ns.in_arc STATE_TREE).bind fun x =>
        (rd x.pred x.u_out).bind fun e => x.set_state e STATE_LOWER := by
  simp only [changeFlow, h, if_false, Option.bind_eq_bind, Option.some_bind]

theorem pivot_eq {ns a l f g h : NetSimplex} {b : Bool} (h1 : findJoinNode ns = some a)
    (h2 : findLeavingArc a = some (b, l)) (h3 : changeFlow l = some f)
    (h4 : updateTreeStructure f = some g) (h5 : updatePotential g = some h) :
    pivot ns = some { h with iterations := h.iterations + 1 } := by
  simp only [pivot, Option.bind_eq_bind, h1, Option.some_bind, h2, h3, h4, h5]

theorem startLoop_go {fuel : Nat} {p p' : BlockSearchPivotRule} {ns a b : NetSimplex}
    (h1 : p.findEnteringArc ns = some (true, p', a)) (h2 : pivot a = some b) :
    startLoop (fuel + 1) p ns = startLoop fuel p' b := by
  simp only [startLoop, Option.bind_eq_bind, h1, Option.some_bind, if_true, h2]

theorem startLoop_stop {fuel : Nat} {p p' : BlockSearchPivotRule} {ns a : NetSimplex}
    (h1 : p.findEnteringArc ns = some (false, p', a)) :
    startLoop (fuel + 1) p ns = some (ProblemType.OPTIMAL, a) := by
  simp only [startLoop, Option.bind_eq_bind, h1, Option.some_bind, Bool.false_eq_true, if_false]

end NetSimplex

theorem Scan.step_lt {sc : Scan} {e c : Int} (h : c < sc.min) :
    sc.step e c = { sc with min := c, in_arc := e } := by
  simp only [Scan.step, h, if_true]

theorem Scan.step_ge {sc : Scan} {e c : Int} (h : ¬ c < sc.min) : sc.step e c = sc := by
  simp only [Scan.step, h, if_false]

theorem BlockSearchPivotRule.scanArcs_nonneg (ns : NetSimplex) (bs : Int) :
    ∀ (k : Nat) (e : Int) (sc : Scan), sc.min = 0 → sc.committed = false →
      (∀ j : Int, e ≤ j → j < e + k → ∃ r, ns.signedRedCost j = some r ∧ 0 ≤ r) →
      ∃ sc', BlockSearchPivotRule.scanArcs ns bs k e sc = some sc' ∧ sc'.min = 0 ∧
        sc'.committed = false ∧ sc'.in_arc = sc.in_arc := by
  intro k
  induction k with
  | zero =>
    intro e sc h1 h2 _
    exact ⟨sc, rfl, h1, h2, rfl⟩
  | succ k ih =>
    intro e sc h1 h2 h3
    obtain ⟨r, hr, hr0⟩ := h3 e (le_refl _) (by push_cast; omega)
    have hst : sc.step e r = sc := Scan.step_ge (by rw [h1]; omega)
    have hrec : ∀ sc1 : Scan, sc1.min = 0 → sc1.committed = false → sc1.in_arc = sc.in_arc →
        ∃ sc', BlockSearchPivotRule.scanArcs ns bs k (e + 1) sc1 = some sc' ∧ sc'.min = 0 ∧
          sc'.committed = false ∧ sc'.in_arc = sc.in_arc := by
      intro sc1 g1 g2 g3
      obtain ⟨sc', q1, q2, q3, q4⟩ := ih (e + 1) sc1 g1 g2 (fun j hj1 hj2 =>
        h3 j (by omega) (by push_cast; omega))
      exact ⟨sc', q1, q2, q3, q4.trans g3⟩
    rw [BlockSearchPivotRule.scanArcs_succ, hr, Option.some_bind, hst]
    have hmin : ¬ sc.min < 0 := by rw [h1]; omega
    by_cases hc : sc.cnt - 1 = 0
    · simp only [hc, if_true, hmin, if_false]
      exact hrec _ h1 h2 rfl
    · simp only [hc, if_false]
      exact hrec _ h1 h2 rfl

theorem BlockSearchPivotRule.findEnteringArc_none (p : BlockSearchPivotRule) (ns : NetSimplex)
    (h1 : p.dummy_arc ≤ p.next_arc) (h2 : p.next_arc ≤ p.arc_num)
    (h : ∀ j : Int, p.dummy_arc ≤ j → j < p.arc_num →
      ∃ r, ns.signedRedCost j = some r ∧ 0 ≤ r) :
    p.findEnteringArc ns = some (false, p, ns) := by
  obtain ⟨sc1, e1, m1, c1, i1⟩ := BlockSearchPivotRule.scanArcs_nonneg ns p.block_size
    (p.arc_num - p.next_arc).toNat p.next_arc
    { min := 0, cnt := p.block_size, in_arc := ns.in_arc, committed := false } rfl rfl
    (fun j hj1 hj2 => h j (by omega) (by omega))
  obtain ⟨sc2, e2, m2, c2, i2⟩ := BlockSearchPivotRule.scanArcs_nonneg ns p.block_size
    (p.next_arc - p.dummy_arc).toNat p.dummy_arc sc1 m1 c1
    (fun j hj1 hj2 => h j (by omega) (by omega))
  have hi : sc2.in_arc = ns.in_arc := i2.trans i1
  simp only [BlockSearchPivotRule.findEnteringArc, Option.bind_eq_bind, e1, Option.some_bind,
    c1, Bool.false_eq_true, if_false, e2, c2, m2, ge_iff_le, le_refl, if_true, hi]

/-! ## The feasibility check -/

theorem NetSimplex.checkFeasibilityLoop_zero (ns : NetSimplex) :
    ∀ (k : Nat) (e : Int), (∀ j : Int, e ≤ j → j < e + k → rd ns.flow j = some 0) →
      NetSimplex.checkFeasibilityLoop ns k e = some (Outcome.returned ProblemType.OPTIMAL) := by
  intro k
  induction k with
  | zero => intro e _; rfl
  | succ k ih =>
    intro e h
    have h0 := h e (le_refl _) (by push_cast; omega)
    simp only [NetSimplex.checkFeasibilityLoop, Option.bind_eq_bind, h0, Option.some_bind,
      abs_zero, gt_iff_lt, lt_self_iff_false, if_false]
    exact ih (e + 1) fun j hj1 hj2 => h j (by omega) (by push_cast; omega)

theorem NetSimplex.checkFeasibilityLoop_nonzero (ns : NetSimplex) :
    ∀ (k : Nat) (e : Int), (∀ j : Int, e ≤ j → j < e + k → (rd ns.flow j).isSome) →
      (∃ j : Int, e ≤ j ∧ j < e + k ∧ rd ns.flow j ≠ some 0) →
      NetSimplex.checkFeasibilityLoop ns k e =
        some (Outcome.thrown "ERROR 3: flow on dummy arcs") := by
  intro k
  induction k with
  | zero =>
    intro e _ h
    obtain ⟨j, h1, h2, _⟩ := h
    simp only [Nat.cast_zero, add_zero] at h2
    omega
  | succ k ih =>
    intro e hs h
    have hse := hs e (le_refl _) (by push_cast; omega)
    obtain ⟨f, hf⟩ := Option.isSome_iff_exists.1 hse
    simp only [NetSimplex.checkFeasibilityLoop, Option.bind_eq_bind, hf, Option.some_bind]
    by_cases hf0 : f = 0
    · subst hf0
      simp only [abs_zero, gt_iff_lt, lt_self_iff_false, if_false]
      apply ih (e + 1) (fun j hj1 hj2 => hs j (by omega) (by push_cast; omega))
      obtain ⟨j, h1, h2, h3⟩ := h
      refine ⟨j, ?_, by push_cast at h2; omega, h3⟩
      by_contra hlt
      have : j = e := by omega
      subst this
      exact h3 hf
    · have : |f| > 0 := abs_pos.2 hf0
      simp only [this, if_true]

/-- C13, as stated, fails: after `run()` on scenario S3 both dummy arcs carry flow 1 and
`checkFeasibility()` throws a runtime error; it does not return `INFEASIBLE`. -/
theorem C13_throws_not_infeasible :
    ((scenarioS3.bind (NetSimplex.run 1)).bind fun r => r.2.checkFeasibility) =
      some (Outcome.thrown "ERROR 3: flow on dummy arcs") ∧
    ((scenarioS3.bind (NetSimplex.run 1)).bind fun r => r.2.checkFeasibility) ≠
      some (Outcome.returned ProblemType.INFEASIBLE) := by
  decide

/-- C13, amended: when the flows of the dummy arcs `0 .. N-1` can be read,
`checkFeasibility()` returns `OPTIMAL` if every dummy arc has flow 0 (`|flow| <= 1e-09`),
and otherwise throws a runtime error; it never returns `INFEASIBLE`. -/
theorem C13_checkFeasibility (ns : NetSimplex)
    (h : ∀ e : Int, 0 ≤ e → e < ns.dummy_arc → (rd ns.flow e).isSome) :
    ((∀ e : Int, 0 ≤ e → e < ns.dummy_arc → rd ns.flow e = some 0) →
      ns.checkFeasibility = some (Outcome.returned ProblemType.OPTIMAL)) ∧
    ((∃ e : Int, 0 ≤ e ∧ e < ns.dummy_arc ∧ rd ns.flow e ≠ some 0) →
      ns.checkFeasibility = some (Outcome.thrown "ERROR 3: flow on dummy arcs")) ∧
    ns.checkFeasibility ≠ some (Outcome.returned ProblemType.INFEASIBLE) := by
  have hk : ∀ j : Int, 0 ≤ j → j < 0 + (ns.dummy_arc.toNat : Int) → j < ns.dummy_arc := by
    intro j h0 hj; omega
  have hk' : ∀ j : Int, 0 ≤ j → j < ns.dummy_arc → j < 0 + (ns.dummy_arc.toNat : Int) := by
    intro j h0 hj; omega
  have A : (∀ e : Int, 0 ≤ e → e < ns.dummy_arc → rd ns.flow e = some 0) →
      ns.checkFeasibility = some (Outcome.returned ProblemType.OPTIMAL) := fun h0 =>
    NetSimplex.checkFeasibilityLoop_zero ns _ 0 fun j hj1 hj2 => h0 j hj1 (hk j hj1 hj2)
  have B : (∃ e : Int, 0 ≤ e ∧ e < ns.dummy_arc ∧ rd ns.flow e ≠ some 0) →
      ns.checkFeasibility = some (Outcome.thrown "ERROR 3: flow on dummy arcs") := by
    intro ⟨e, h1, h2, h3⟩
    exact NetSimplex.checkFeasibilityLoop_nonzero ns _ 0
      (fun j hj1 hj2 => h j hj1 (hk j hj1 hj2)) ⟨e, h1, hk' e h1 h2, h3⟩
  refine ⟨A, B, ?_⟩
  by_cases hz : ∀ e : Int, 0 ≤ e → e < ns.dummy_arc → rd ns.flow e = some 0
  · rw [A hz]; simp
  · have : ∃ e : Int, 0 ≤ e ∧ e < ns.dummy_arc ∧ rd ns.flow e ≠ some 0 := by
      by_contra hne
      apply hz
      intro e h1 h2
      by_contra h3
      exact hne ⟨e, h1, h2, h3⟩
    rw [B this]; simp

/-- C13, amended, on the solved scenario S1: the dummy flows are readable and zero, and
`checkFeasibility()` returns `OPTIMAL`. -/
theorem C13_checkFeasibility_S1 :
    (∀ e : Int, 0 ≤ e → e < solvedS1.dummy_arc → (rd solvedS1.flow e).isSome) ∧
    solvedS1.checkFeasibility = some (Outcome.returned ProblemType.OPTIMAL) := by
  have h : ∀ e : Int, 0 ≤ e → e < solvedS1.dummy_arc → rd solvedS1.flow e = some 0 := by
    intro e h0 h1
    have h2 : e < 2 := h1
    interval_cases e <;> rfl
  have hs : ∀ e : Int, 0 ≤ e → e < solvedS1.dummy_arc → (rd solvedS1.flow e).isSome := by
    intro e h0 h1
    rw [h e h0 h1]; rfl
  exact ⟨hs, (C13_checkFeasibility solvedS1 hs).1 h⟩

/-! ## The arc interface and the total cost -/

theorem rd_append_left {α : Type} (xs ys : List α) {i : Int} (h : i < (xs.length : Int)) :
    rd (xs ++ ys) i = rd xs i := by
  unfold rd
  split
  · rw [List.getElem?_append_left (by omega)]
  · rfl

theorem rd_append_length {α : Type} (xs : List α) (y : α) (ys : List α) :
    rd (xs ++ y :: ys) (xs.length : Int) = some y := by
  unfold rd
  simp only [Nat.cast_nonneg, if_true, Int.toNat_ofNat]
  rw [List.getElem?_append_right (le_refl _)]
  simp

/-- C17: on a solver with `N` nodes whose five arc vectors hold `N + k` arcs (the `N` dummy
slots and `k` real arcs appended with `addArc`), `addArc(a, b, c)` returns `N + k`; the
arc with that id then has source `a`, target `b`, cost `c`, flow 0 and state
`AT_LOWER_BOUND`, every arc stored before is unchanged, and `num_arcs()` has grown by 1. -/
theorem C17_addArc (ns : NetSimplex) (N k : Nat) (a b c : Int)
    (hs : ns.source.length = N + k) (ht : ns.target.length = N + k)
    (hc : ns.cost.length = N + k) (hf : ns.flow.length = N + k)
    (hst : ns.state.length = N + k) (hd : ns.dummy_arc = N) :
    (ns.addArc a b c).1 = N + k ∧
    rd (ns.addArc a b c).2.source (N + k) = some a ∧
    rd (ns.addArc a b c).2.target (N + k) = some b ∧
    rd (ns.addArc a b c).2.cost (N + k) = some c ∧
    rd (ns.addArc a b c).2.flow (N + k) = some 0 ∧
    rd (ns.addArc a b c).2.state (N + k) = some STATE_LOWER ∧
    (∀ e : Int, e < N + k →
      rd (ns.addArc a b c).2.source e = rd ns.source e ∧
      rd (ns.addArc a b c).2.target e = rd ns.target e ∧
      rd (ns.addArc a b c).2.cost e = rd ns.cost e ∧
      rd (ns.addArc a b c).2.flow e = rd ns.flow e ∧
      rd (ns.addArc a b c).2.state e = rd ns.state e) ∧
    (ns.addArc a b c).2.num_arcs = ns.num_arcs + 1 ∧
    ns.num_arcs = k := by
  have e1 : ((N : Int) + k) = ((N + k : Nat) : Int) := by push_cast; rfl
  refine ⟨?_, ?_, ?_, ?_, ?_, ?_, ?_, ?_, ?_⟩
  · simp only [NetSimplex.addArc, hs]; push_cast; rfl
  · rw [e1, ← hs]; exact rd_append_length _ _ _
  · rw [e1, ← ht]; exact rd_append_length _ _ _
  · rw [e1, ← hc]; exact rd_append_length _ _ _
  · rw [e1, ← hf]; exact rd_append_length _ _ _
  · rw [e1, ← hst]; exact rd_append_length _ _ _
  · intro e he
    refine ⟨?_, ?_, ?_, ?_, ?_⟩
    · exact rd_append_left _ _ (by rw [hs]; push_cast; omega)
    · exact rd_append_left _ _ (by rw [ht]; push_cast; omega)
    · exact rd_append_left _ _ (by rw [hc]; push_cast; omega)
    · exact rd_append_left _ _ (by rw [hf]; push_cast; omega)
    · exact rd_append_left _ _ (by rw [hst]; push_cast; omega)
  · simp only [NetSimplex.num_arcs, NetSimplex.addArc, List.length_append, List.length_singleton]
    push_cast; ring
  · simp only [NetSimplex.num_arcs, hs, hd]; push_cast; ring

/-- C17 on the solver of scenario S1 (`N = 2`, one real arc): `addArc(1, 0, 5)` returns 3. -/
theorem C17_addArc_S1 :
    (solverS1.source.length = 2 + 1 ∧ solverS1.target.length = 2 + 1 ∧
      solverS1.cost.length = 2 + 1 ∧ solverS1.flow.length = 2 + 1 ∧
      solverS1.state.length = 2 + 1 ∧ solverS1.dummy_arc = (2 : Nat)) ∧
    (solverS1.addArc 1 0 5).1 = (2 : Nat) + (1 : Nat) :=
  ⟨by decide, (C17_addArc solverS1 2 1 1 0 5 (by decide) (by decide) (by decide) (by decide)
    (by decide) (by decide)).1⟩



/-- C18: for a logical index `idx` of a stored arc (`0 <= idx`, `_dummy_arc + idx` inside the
five arc vectors), `setArc(idx, a, b, c)` succeeds, the arc with id `_dummy_arc + idx` then
has source `a`, target `b`, cost `c`, flow 0 and state `AT_LOWER_BOUND`, and the source,
target, cost, flow and state of every other arc are unchanged. -/
theorem C18_setArc (ns : NetSimplex) (idx a b c : Int) (hd : 0 ≤ ns.dummy_arc) (hi : 0 ≤ idx)
    (hs : ns.dummy_arc + idx < ns.source.length) (ht : ns.dummy_arc + idx < ns.target.length)
    (hc : ns.dummy_arc + idx < ns.cost.length) (hf : ns.dummy_arc + idx < ns.flow.length)
    (hst : ns.dummy_arc + idx < ns.state.length) :
    ∃ ns', ns.setArc idx a b c = some ns' ∧
      rd ns'.source (ns.dummy_arc + idx) = some a ∧
      rd ns'.target (ns.dummy_arc + idx) = some b ∧
      rd ns'.cost (ns.dummy_arc + idx) = some c ∧
      rd ns'.flow (ns.dummy_arc + idx) = some 0 ∧
      rd ns'.state (ns.dummy_arc + idx) = some STATE_LOWER ∧
      ∀ e : Int, e ≠ ns.dummy_arc + idx →
        rd ns'.source e = rd ns.source e ∧ rd ns'.target e = rd ns.target e ∧
        rd ns'.cost e = rd ns.cost e ∧ rd ns'.flow e = rd ns.flow e ∧
        rd ns'.state e = rd ns.state e := by
  have h0 : 0 ≤ ns.dummy_arc + idx := by omega
  obtain ⟨x1, w1⟩ := wr_of_range ns.source a h0 hs
  obtain ⟨x2, w2⟩ := wr_of_range ns.target b h0 ht
  obtain ⟨x3, w3⟩ := wr_of_range ns.cost c h0 hc
  obtain ⟨x4, w4⟩ := wr_of_range ns.flow 0 h0 hf
  obtain ⟨x5, w5⟩ := wr_of_range ns.state STATE_LOWER h0 hst
  refine ⟨{ ns with source := x1, target := x2, cost := x3, flow := x4, state := x5,
                    arc_num := ns.arc_num + 1 }, ?_, rd_wr_same w1, rd_wr_same w2,
    rd_wr_same w3, rd_wr_same w4, rd_wr_same w5, ?_⟩
  · simp only [NetSimplex.setArc, Option.bind_eq_bind, w1, w2, w3, w4, w5, Option.some_bind]
  · intro e he
    exact ⟨rd_wr_ne w1 he, rd_wr_ne w2 he, rd_wr_ne w3 he, rd_wr_ne w4 he, rd_wr_ne w5 he⟩

/-- C18 on the solver of scenario S1: `setArc(0, 1, 0, 5)` overwrites arc 2 in place. -/
theorem C18_setArc_S1 :
    (0 ≤ solverS1.dummy_arc ∧ (0 : Int) ≤ 0 ∧
      solverS1.dummy_arc + 0 < solverS1.source.length) ∧
    ∃ ns', solverS1.setArc 0 1 0 5 = some ns' ∧
      rd ns'.source (solverS1.dummy_arc + 0) = some 1 ∧
      rd ns'.target (solverS1.dummy_arc + 0) = some 0 ∧
      rd ns'.cost (solverS1.dummy_arc + 0) = some 5 ∧
      rd ns'.flow (solverS1.dummy_arc + 0) = some 0 ∧
      rd ns'.state (solverS1.dummy_arc + 0) = some STATE_LOWER ∧
      ∀ e : Int, e ≠ solverS1.dummy_arc + 0 →
        rd ns'.source e = rd solverS1.source e ∧ rd ns'.target e = rd solverS1.target e ∧
        rd ns'.cost e = rd solverS1.cost e ∧ rd ns'.flow e = rd solverS1.flow e ∧
        rd ns'.state e = rd solverS1.state e :=
  ⟨by decide, C18_setArc solverS1 0 1 0 5 (by decide) (by decide) (by decide) (by decide)
    (by decide) (by decide) (by decide)⟩

theorem NetSimplex.totalCostLoop_eq (ns : NetSimplex) :
    ∀ (k : Nat) (e c : Int),
      (∀ j : Int, e ≤ j → j < e + k → (rd ns.source j).isSome ∧ (rd ns.target j).isSome ∧
        (rd ns.flow j).isSome ∧ (rd ns.cost j).isSome) →
      NetSimplex.totalCostLoop ns k e c =
        some (c + ((List.range k).map fun i : Nat => NetSimplex.arcCostSpec ns (e + (i : Int))).sum) := by
  intro k
  induction k with
  | zero => intro e c _; simp [NetSimplex.totalCostLoop]
  | succ k ih =>
    intro e c h
    obtain ⟨h1, h2, h3, h4⟩ := h e (le_refl _) (by push_cast; omega)
    obtain ⟨s, hs⟩ := Option.isSome_iff_exists.1 h1
    obtain ⟨t, ht⟩ := Option.isSome_iff_exists.1 h2
    obtain ⟨f, hf⟩ := Option.isSome_iff_exists.1 h3
    obtain ⟨w, hw⟩ := Option.isSome_iff_exists.1 h4
    have hrec := fun c' => ih (e + 1) c' fun j hj1 hj2 => h j (by omega) (by push_cast; omega)
    have hsum : ((List.range (k + 1)).map fun i : Nat => NetSimplex.arcCostSpec ns (e + (i : Int))).sum =
        NetSimplex.arcCostSpec ns e +
          ((List.range k).map fun i : Nat => NetSimplex.arcCostSpec ns (e + 1 + (i : Int))).sum := by
      rw [List.range_succ_eq_map, List.map_cons, List.sum_cons, List.map_map]
      simp only [Nat.cast_zero, add_zero]
      congr 2
      apply List.map_congr_left
      intro i _
      simp only [Function.comp, Nat.succ_eq_add_one, Nat.cast_add, Nat.cast_one]
      congr 1
      ring
    simp only [NetSimplex.totalCostLoop, Option.bind_eq_bind, hs, ht, Option.some_bind]
    by_cases hcond : s ≠ ns.root ∧ t ≠ ns.root
    · simp only [hcond, and_self, if_true, ne_eq, not_false_eq_true, hf, hw, Option.some_bind]
      rw [hrec, hsum]
      have : NetSimplex.arcCostSpec ns e = f * w := by
        simp only [NetSimplex.arcCostSpec, hs, ht, hf, hw, Option.getD_some, hcond, and_self,
          if_true, ne_eq, not_false_eq_true]
      rw [this, add_assoc]
    · simp only [hcond, if_false]
      rw [hrec, hsum]
      have : NetSimplex.arcCostSpec ns e = 0 := by
        simp only [NetSimplex.arcCostSpec, hs, ht, Option.getD_some, hcond, if_false]
      rw [this, zero_add]

/-- C19: when the arcs `_dummy_arc .. _arc_num - 1` are stored, `total_cost()` is the sum of
`flow[e] * cost[e]` over exactly those arcs `e` whose source and target both differ from
the root (`totalCostSpec`); the dummy arcs `0 .. _dummy_arc - 1` are outside the range. -/
theorem C19_totalCost (ns : NetSimplex)
    (h : ∀ e : Int, ns.dummy_arc ≤ e → e < ns.arc_num →
      (rd ns.source e).isSome ∧ (rd ns.target e).isSome ∧ (rd ns.flow e).isSome ∧
        (rd ns.cost e).isSome) :
    ns.totalCost = some ns.totalCostSpec := by
  unfold NetSimplex.totalCost NetSimplex.totalCostSpec
  rw [NetSimplex.totalCostLoop_eq ns _ _ 0 (fun j hj1 hj2 => h j hj1 (by omega)), zero_add]


/-- C19 on the solved scenario S1: the stored real arc is readable and `total_cost()` is the
specification's sum. -/
theorem C19_totalCost_S1 :
    (∀ e : Int, solvedS1.dummy_arc ≤ e → e < solvedS1.arc_num →
      (rd solvedS1.source e).isSome ∧ (rd solvedS1.target e).isSome ∧
        (rd solvedS1.flow e).isSome ∧ (rd solvedS1.cost e).isSome) ∧
    solvedS1.totalCost = some solvedS1.totalCostSpec := by
  have h : ∀ e : Int, solvedS1.dummy_arc ≤ e → e < solvedS1.arc_num →
      (rd solvedS1.source e).isSome ∧ (rd solvedS1.target e).isSome ∧
        (rd solvedS1.flow e).isSome ∧ (rd solvedS1.cost e).isSome := by
    intro e h0 h1
    have h2 : 2 ≤ e := h0
    have h3 : e < 3 := h1
    interval_cases e
    decide
  exact ⟨h, C19_totalCost solvedS1 h⟩

/-! ## Missing status reports and the slot reuse of `updateArcs` -/

/-- C14 (code defect): on `scenarioNegCycle` the second pivot ends the leaving-arc search
with `delta = MAX`; the solve does not stop there: it augments the flow of both real arcs by
`MAX` and goes on.  No call of `start` ever returns `UNBOUNDED`. -/
theorem C14_unbounded_not_reported :
    (((scenarioNegCycle.bind NetSimplex.prepared).bind fun ns =>
      NetSimplex.rounds 2 (BlockSearchPivotRule.create ns) ns).map fun r =>
        (r.2.delta, r.2.MAX, r.2.flow)) =
      some (2147483647, 2147483647, [0, 0, 2147483647, 2147483647]) ∧
    ∀ (fuel : Nat) (ns ns' : NetSimplex) (st : ProblemType),
      NetSimplex.start fuel ns = some (st, ns') → st ≠ ProblemType.UNBOUNDED := by
  refine ⟨by decide, ?_⟩
  intro fuel ns ns' st h
  rw [(NetSimplex.startLoop_optimal _ _ _ _ _ h).1]
  decide

/-- C15 (code defect): in scenario S5 the second `updateArcs` call, with the candidates
`3->4`, `4->5`, `5->6`, returns 3 but writes all three to slot 10: afterwards the real arcs
are `5->6`, `1->2`, `2->3`, so the candidates `3->4` and `4->5` are not stored. -/
theorem C15_same_slot_overwritten :
    ((scenarioS5FirstBatch.bind fun ns =>
      ns.updateArcs [⟨3, 4, 1⟩, ⟨4, 5, 1⟩, ⟨5, 6, 1⟩]).map fun r =>
        (r.1, r.2.arc_num, r.2.source.drop 10, r.2.target.drop 10)) =
      some (3, 13, [5, 1, 2], [6, 2, 3]) := by
  decide

/-! ## updateArcs and the basis -/

namespace NetSimplex

theorem updateArcsSeek_spec (ns : NetSimplex) (e_max : Int) :
    ∀ (k : Nat) (e e' : Int), updateArcsSeek ns e_max k e = some e' →
      e ≤ e' ∧ (e' < e_max → Replaceable ns e') := by
  intro k
  induction k with
  | zero => intro e e' h; simp [updateArcsSeek] at h
  | succ k ih =>
    intro e e' h
    unfold updateArcsSeek at h
    split at h
    · simp only [Option.bind_eq_bind, Option.bind_eq_some] at h
      obtain ⟨st, hst, h⟩ := h
      split at h
      · rename_i hlow
        simp only [Option.bind_eq_some] at h
        obtain ⟨r, hr, h⟩ := h
        split at h
        · rename_i hpos
          simp only [Option.some.injEq] at h
          subst h
          exact ⟨le_refl _, fun _ => ⟨by rw [hst, hlow], r, hr, hpos⟩⟩
        · obtain ⟨h1, h2⟩ := ih _ _ h
          exact ⟨by omega, h2⟩
      · obtain ⟨h1, h2⟩ := ih _ _ h
        exact ⟨by omega, h2⟩
    · rename_i hge
      simp only [Option.some.injEq] at h
      subst h
      exact ⟨le_refl _, fun hlt => absurd hlt hge⟩

theorem redCost_congr {a b : NetSimplex} {j : Int} (h : SameArc a b j) (hpi : b.pi = a.pi) :
    redCost b j = redCost a j := by
  unfold redCost
  rw [h.1, h.2.1, h.2.2, hpi]

theorem updateArcsReplace_inv (ns : NetSimplex) (e_max : Int) :
    ∀ (as rest : List Var) (cur out : NetSimplex) (e e' k k' : Int),
      ReplaceInv ns cur e →
      updateArcsReplace e_max as cur e k = some (rest, out, e', k') →
      ReplaceInv ns out e' := by
  intro as
  induction as with
  | nil =>
    intro rest cur out e e' k k' hinv h
    simp only [updateArcsReplace, Option.some.injEq, Prod.mk.injEq] at h
    obtain ⟨_, rfl, rfl, _⟩ := h
    exact hinv
  | cons a as ih =>
    intro rest cur out e e' k k' hinv h
    simp only [updateArcsReplace, Option.bind_eq_bind, Option.bind_eq_some] at h
    obtain ⟨e1, hseek, h⟩ := h
    obtain ⟨hle, hrep⟩ := updateArcsSeek_spec cur e_max _ _ _ hseek
    obtain ⟨hk, hstate, hafter, hchg⟩ := hinv
    have hinv1 : ReplaceInv ns cur e1 :=
      ⟨hk, hstate, fun j hj => hafter j (by omega), hchg⟩
    split at h
    · simp only [Option.some.injEq, Prod.mk.injEq] at h
      obtain ⟨_, rfl, rfl, _⟩ := h
      exact hinv1
    · rename_i hlt
      simp only [Option.bind_eq_some] at h
      obtain ⟨n1, h1, n2, h2, n3, h3, h⟩ := h
      obtain ⟨w1, k1, s1⟩ := set_source_spec h1
      obtain ⟨w2, k2, s2⟩ := set_target_spec h2
      obtain ⟨w3, k3, s3⟩ := set_cost_spec h3
      have hrep1 : Replaceable ns e1 := by
        by_cases hsame : SameArc ns cur e1
        · obtain ⟨q1, r, q2, q3⟩ := hrep (by omega)
          have hpi : cur.pi = ns.pi := hk.1 Fld.pi (by decide)
          exact ⟨by rw [← hstate]; exact q1, r, by rw [← redCost_congr hsame hpi]; exact q2, q3⟩
        · exact hchg e1 hsame
      have k123 : Keeps [Fld.source, Fld.target, Fld.cost] [] cur n3 :=
        ((k1.seq k2).seq k3).mono (by decide) (by decide)
      have hs3 : n3.state = ns.state := by rw [s3, s2, s1, hstate]
      have hsrc3 : n3.source = n1.source := (k2.seq k3).1 Fld.source (by decide)
      have htgt3 : n3.target = n2.target := k3.1 Fld.target (by decide)
      have htgt1 : n1.target = cur.target := k1.1 Fld.target (by decide)
      have hcst2 : n2.cost = cur.cost := (k1.seq k2).1 Fld.cost (by decide)
      have hother : ∀ j : Int, j ≠ e1 → SameArc cur n3 j := by
        intro j hj
        refine ⟨?_, ?_, ?_⟩
        · rw [hsrc3]; exact rd_wr_ne w1 hj
        · rw [htgt3, rd_wr_ne w2 hj, htgt1]
        · rw [rd_wr_ne w3 hj, hcst2]
      have hinv3 : ∀ x : NetSimplex, Keeps [] [Sc.next_arc] n3 x → x.state = n3.state →
          ReplaceInv ns x e1 := by
        intro x kx sx
        have hsx : ∀ j : Int, SameArc n3 x j := by
          intro j
          have a1 : x.source = n3.source := kx.1 Fld.source (by decide)
          have a2 : x.target = n3.target := kx.1 Fld.target (by decide)
          have a3 : x.cost = n3.cost := kx.1 Fld.cost (by decide)
          exact ⟨by rw [a1], by rw [a2], by rw [a3]⟩
        refine ⟨((hk.seq k123).seq kx).mono (by decide) (by decide), by rw [sx, hs3], ?_, ?_⟩
        · intro j hj
          have c1 := hafter j (by omega)
          have c2 := hother j (by omega)
          have c3 := hsx j
          exact ⟨by rw [c3.1, c2.1, c1.1], by rw [c3.2.1, c2.2.1, c1.2.1],
            by rw [c3.2.2, c2.2.2, c1.2.2]⟩
        · intro j hj
          by_cases hje : j = e1
          · subst hje; exact hrep1
          · apply hchg j
            intro c1
            apply hj
            have c2 := hother j hje
            have c3 := hsx j
            exact ⟨by rw [c3.1, c2.1, c1.1], by rw [c3.2.1, c2.2.1, c1.2.1],
              by rw [c3.2.2, c2.2.2, c1.2.2]⟩
      by_cases hk0 : k = 0
      · simp only [hk0, if_true] at h
        have kx : Keeps [] [Sc.next_arc] n3 { n3 with next_arc := e1 } := by
          refine ⟨fun f _ => by cases f <;> rfl, fun f => by cases f <;> rfl, ?_, rfl, rfl⟩
          intro g hg
          cases g <;> first | rfl | exact absurd (List.mem_singleton.2 rfl) hg
        have hx := hinv3 _ kx rfl
        exact ih _ _ _ _ _ _ _ hx h
      · simp only [hk0, if_false] at h
        exact ih _ _ _ _ _ _ _ (hinv3 _ (Keeps.unchanged _ _ _) rfl) h

theorem extends_self (a : NetSimplex) : Extends a a :=
  ⟨fun _ _ => rfl, fun _ _ => rfl, fun _ _ => rfl, fun _ _ => rfl, fun _ _ => rfl,
    fun _ _ => rfl, le_refl _, le_refl _, le_refl _, le_refl _, le_refl _⟩

theorem extends_seq {a b c : NetSimplex} (h1 : Extends a b) (h2 : Extends b c) :
    Extends a c := by
  obtain ⟨p0, p1, p2, p3, p4, p5, l1, l2, l3, l4, l5⟩ := h1
  obtain ⟨q0, q1, q2, q3, q4, q5, m1, m2, m3, m4, m5⟩ := h2
  refine ⟨fun f hf => (q0 f hf).trans (p0 f hf), ?_, ?_, ?_, ?_, ?_, l1.trans m1, l2.trans m2,
    l3.trans m3, l4.trans m4, l5.trans m5⟩
  · intro j hj; rw [q1 j (by omega), p1 j hj]
  · intro j hj; rw [q2 j (by omega), p2 j hj]
  · intro j hj; rw [q3 j (by omega), p3 j hj]
  · intro j hj; rw [q4 j (by omega), p4 j hj]
  · intro j hj; rw [q5 j (by omega), p5 j hj]

theorem addArc_extends (ns : NetSimplex) (a b c : Int) : Extends ns (ns.addArc a b c).2 := by
  refine ⟨fun f hf => by cases f <;> first | rfl | simp [Fld.isNode] at hf,
    fun j hj => rd_append_left _ _ hj, fun j hj => rd_append_left _ _ hj,
    fun j hj => rd_append_left _ _ hj, fun j hj => rd_append_left _ _ hj,
    fun j hj => rd_append_left _ _ hj, ?_, ?_, ?_, ?_, ?_⟩ <;>
  simp [addArc]

theorem next_arc_extends (ns : NetSimplex) (e : Int) :
    Extends ns { ns with next_arc := e } :=
  ⟨fun f _ => by cases f <;> rfl, fun _ _ => rfl, fun _ _ => rfl, fun _ _ => rfl,
    fun _ _ => rfl, fun _ _ => rfl, le_refl _, le_refl _, le_refl _, le_refl _, le_refl _⟩

theorem updateArcsAppend_extends (e : Int) :
    ∀ (rest : List Var) (cur : NetSimplex) (k : Int),
      Extends cur (updateArcsAppend e rest cur k).1 := by
  intro rest
  induction rest with
  | nil => intro cur k; exact extends_self cur
  | cons a rest ih =>
    intro cur k
    simp only [updateArcsAppend]
    by_cases hk : k = 0
    · simp only [hk, if_true]
      exact extends_seq (extends_seq (addArc_extends cur a.a a.b a.c) (next_arc_extends _ e)) (ih _ _)
    · simp only [hk, if_false]
      exact extends_seq (addArc_extends cur a.a a.b a.c) (ih _ _)

end NetSimplex

/-- C16: `updateArcs` leaves every node vector (potentials, the basis-tree vectors
`parent`, `pred`, `pred_dir`, `thread`, `rev_thread`, `succ_num`, `last_succ`, and the
supplies) unchanged, leaves the flow and state of every stored arc unchanged, and changes
source, target or cost only of stored arcs that are at their lower bound (never in state
`TREE`) with reduced cost `> 0` (`> 1e-09`) when they are first overwritten. -/
theorem C16_updateArcs_frame (ns ns' : NetSimplex) (n m : Nat) (as : List Var) (k : Int)
    (hs : ns.Sized n m) (h : ns.updateArcs as = some (k, ns')) :
    (∀ f : Fld, f.isNode = true → ns'.arr f = ns.arr f) ∧
    (∀ e : Int, e < m → rd ns'.flow e = rd ns.flow e ∧ rd ns'.state e = rd ns.state e) ∧
    ∀ e : Int, e < m →
      (rd ns'.source e ≠ rd ns.source e ∨ rd ns'.target e ≠ rd ns.target e ∨
        rd ns'.cost e ≠ rd ns.cost e) →
      rd ns.state e = some STATE_LOWER ∧ ∃ r, ns.redCost e = some r ∧ r > 0 := by
  simp only [NetSimplex.updateArcs, Option.bind_eq_bind, Option.bind_eq_some,
    Option.some.injEq, Prod.mk.injEq] at h
  obtain ⟨⟨rest, cur, e, k1⟩, h1, h2, h3⟩ := h
  have hinv0 : NetSimplex.ReplaceInv ns ns ns.dummy_arc :=
    ⟨(NetSimplex.Keeps.unchanged _ _ _), rfl, fun _ _ => ⟨rfl, rfl, rfl⟩,
      fun j hj => absurd ⟨rfl, rfl, rfl⟩ hj⟩
  obtain ⟨kk, hst, _, hchg⟩ := NetSimplex.updateArcsReplace_inv ns _ _ _ _ _ _ _ _ _ hinv0 h1
  have hext := NetSimplex.updateArcsAppend_extends e rest cur k1
  rw [h3] at hext
  obtain ⟨p0, p1, p2, p3, p4, p5, _⟩ := hext
  have hsz := kk.sized hs
  have lsrc : cur.source.length = m := hsz.len_arc Fld.source rfl
  have ltgt : cur.target.length = m := hsz.len_arc Fld.target rfl
  have lcst : cur.cost.length = m := hsz.len_arc Fld.cost rfl
  have lflw : cur.flow.length = m := hsz.len_arc Fld.flow rfl
  have lst : cur.state.length = m := hsz.2
  refine ⟨?_, ?_, ?_⟩
  · intro f hf
    rw [p0 f hf]
    exact kk.1 f (by cases f <;> first | decide | simp [Fld.isNode] at hf)
  · intro j hj
    have hflow : cur.flow = ns.flow := kk.1 Fld.flow (by decide)
    exact ⟨by rw [p4 j (by omega), hflow], by rw [p5 j (by omega), hst]⟩
  · intro j hj hne
    apply hchg j
    intro hsame
    rcases hne with hne | hne | hne
    · exact hne (by rw [p1 j (by omega)]; exact hsame.1)
    · exact hne (by rw [p2 j (by omega)]; exact hsame.2.1)
    · exact hne (by rw [p3 j (by omega)]; exact hsame.2.2)

/-- C16 on the solved scenario S1, offered the arc `1->0` of cost 5. -/
theorem C16_updateArcs_frame_S1 :
    solvedS1.Sized 2 3 ∧ solvedS1.updateArcs [⟨1, 0, 5⟩] = some (1, updatedS1) ∧
    (∀ f : Fld, f.isNode = true → updatedS1.arr f = solvedS1.arr f) ∧
    (∀ e : Int, e < (3 : Nat) →
      rd updatedS1.flow e = rd solvedS1.flow e ∧ rd updatedS1.state e = rd solvedS1.state e) ∧
    ∀ e : Int, e < (3 : Nat) →
      (rd updatedS1.source e ≠ rd solvedS1.source e ∨ rd updatedS1.target e ≠ rd solvedS1.target e ∨
        rd updatedS1.cost e ≠ rd solvedS1.cost e) →
      rd solvedS1.state e = some STATE_LOWER ∧ ∃ r, solvedS1.redCost e = some r ∧ r > 0 :=
  have hs : solvedS1.Sized 2 3 := ⟨fun f => by cases f <;> decide, by decide⟩
  have hu : solvedS1.updateArcs [⟨1, 0, 5⟩] = some (1, updatedS1) := by decide
  ⟨hs, hu, C16_updateArcs_frame solvedS1 updatedS1 2 3 [⟨1, 0, 5⟩] 1 hs hu⟩

/-! ## Scenario S4: zero supplies -/

namespace NetSimplex

theorem InitFrame.id (n : Int) (a : NetSimplex) : InitFrame n a a :=
  ⟨fun _ h => h, fun _ _ => rfl, fun _ _ => ⟨rfl, rfl, rfl, rfl, rfl⟩⟩

theorem InitFrame.comp {n : Int} {a b c : NetSimplex} (h1 : InitFrame n a b)
    (h2 : InitFrame n b c) : InitFrame n a c := by
  refine ⟨fun i h => h2.1 i (h1.1 i h), fun j hj => (h2.2.1 j hj).trans (h1.2.1 j hj), ?_⟩
  intro j hj
  obtain ⟨p1, p2, p3, p4, p5⟩ := h1.2.2 j hj
  obtain ⟨q1, q2, q3, q4, q5⟩ := h2.2.2 j hj
  exact ⟨q1.trans p1, q2.trans p2, q3.trans p3, q4.trans p4, q5.trans p5⟩

/-- A step that writes one vector `f` (not the potentials) at one index `e`, which is below
`n` for an arc vector and at least `n` for the supplies. -/
theorem InitFrame.of_write {n e : Int} {f : Fld} {a b : NetSimplex} {gs : List Sc}
    (k : Keeps [f] gs a b) (hst : b.state = a.state) (hpi : f ≠ Fld.pi)
    (hw : ∀ j : Int, j ≠ e → rd (b.arr f) j = rd (a.arr f) j)
    (he : (f.isNode = true ∧ f ≠ Fld.supply) ∨ (f = Fld.supply ∧ n ≤ e) ∨
      (f.isNode = false ∧ e < n)) : InitFrame n a b := by
  have hk : ∀ g : Fld, g ≠ f → b.arr g = a.arr g := fun g hg =>
    k.1 g (fun m => hg (List.mem_singleton.1 m))
  refine ⟨?_, ?_, ?_⟩
  · intro i hi
    have : b.pi = a.pi := hk Fld.pi (Ne.symm hpi)
    rw [this]; exact hi
  · intro j hj
    by_cases hf : f = Fld.supply
    · subst hf
      rcases he with he | he | he
      · exact absurd rfl he.2
      · exact hw j (by omega)
      · exact absurd he.1 (by decide)
    · have : b.supply = a.supply := hk Fld.supply (Ne.symm hf)
      rw [this]
  · intro j hj
    have key : ∀ g : Fld, g.isNode = false → rd (b.arr g) j = rd (a.arr g) j := by
      intro g hg
      by_cases hgf : g = f
      · subst hgf
        rcases he with he | he | he
        · rw [hg] at he; exact absurd he.1 (by decide)
        · rw [he.1] at hg; exact absurd hg (by decide)
        · exact hw j (by omega)
      · rw [hk g hgf]
    exact ⟨key Fld.source rfl, key Fld.target rfl, key Fld.cost rfl, key Fld.flow rfl, by rw [hst]⟩

theorem InitFrame.of_set_state {n e : Int} {v : Bool} {a b : NetSimplex}
    (h : a.set_state e v = some b) (he : e < n) : InitFrame n a b := by
  obtain ⟨w, k⟩ := set_state_spec h
  have hk : ∀ g : Fld, b.arr g = a.arr g := fun g => k.1 g (by simp)
  refine ⟨?_, ?_, ?_⟩
  · intro i hi
    have : b.pi = a.pi := hk Fld.pi
    rw [this]; exact hi
  · intro j _
    have : b.supply = a.supply := hk Fld.supply
    rw [this]
  · intro j hj
    have e1 : b.source = a.source := hk Fld.source
    have e2 : b.target = a.target := hk Fld.target
    have e3 : b.cost = a.cost := hk Fld.cost
    have e4 : b.flow = a.flow := hk Fld.flow
    exact ⟨by rw [e1], by rw [e2], by rw [e3], by rw [e4], rd_wr_ne w (by omega)⟩

theorem InitFrame.of_set_pi {n u : Int} {a b : NetSimplex}
    (h : a.set_pi u 0 = some b) : InitFrame n a b ∧ rd b.pi u = some 0 := by
  obtain ⟨w, k, s⟩ := set_pi_spec h
  have hk : ∀ g : Fld, g ≠ Fld.pi → b.arr g = a.arr g := fun g hg =>
    k.1 g (fun m => hg (List.mem_singleton.1 m))
  refine ⟨⟨?_, ?_, ?_⟩, rd_wr_same w⟩
  · intro i hi
    by_cases hiu : i = u
    · subst hiu; exact rd_wr_same w
    · rw [rd_wr_ne w hiu]; exact hi
  · intro j _
    have : b.supply = a.supply := hk Fld.supply (by decide)
    rw [this]
  · intro j hj
    have e1 : b.source = a.source := hk Fld.source (by decide)
    have e2 : b.target = a.target := hk Fld.target (by decide)
    have e3 : b.cost = a.cost := hk Fld.cost (by decide)
    have e4 : b.flow = a.flow := hk Fld.flow (by decide)
    exact ⟨by rw [e1], by rw [e2], by rw [e3], by rw [e4], by rw [s]⟩

theorem initArcTree_frame {n u e : Int} {a b : NetSimplex} (h : initArcTree u e a = some b)
    (he : e < n) : InitFrame n a b := by
  simp only [initArcTree, Option.bind_eq_bind, Option.bind_eq_some] at h
  obtain ⟨n1, h1, n2, h2, n3, h3, n4, h4, n5, h5, n6, h6, h7⟩ := h
  have f1 : InitFrame n a n1 := (InitFrame.of_write (f := Fld.parent) (set_parent_spec h1).2.1 (set_parent_spec h1).2.2 (by decide)
      (fun j hj => rd_wr_ne (set_parent_spec h1).1 hj) (Or.inl ⟨rfl, by decide⟩))
  have f2 : InitFrame n n1 n2 := (InitFrame.of_write (f := Fld.pred) (set_pred_spec h2).2.1 (set_pred_spec h2).2.2 (by decide)
      (fun j hj => rd_wr_ne (set_pred_spec h2).1 hj) (Or.inl ⟨rfl, by decide⟩))
  have f3 : InitFrame n n2 n3 := (InitFrame.of_write (f := Fld.thread) (set_thread_spec h3).2.1 (set_thread_spec h3).2.2 (by decide)
      (fun j hj => rd_wr_ne (set_thread_spec h3).1 hj) (Or.inl ⟨rfl, by decide⟩))
  have f4 : InitFrame n n3 n4 := (InitFrame.of_write (f := Fld.rev_thread) (set_rev_thread_spec h4).2.1 (set_rev_thread_spec h4).2.2 (by decide)
      (fun j hj => rd_wr_ne (set_rev_thread_spec h4).1 hj) (Or.inl ⟨rfl, by decide⟩))
  have f5 : InitFrame n n4 n5 := (InitFrame.of_write (f := Fld.succ_num) (set_succ_num_spec h5).2.1 (set_succ_num_spec h5).2.2 (by decide)
      (fun j hj => rd_wr_ne (set_succ_num_spec h5).1 hj) (Or.inl ⟨rfl, by decide⟩))
  have f6 : InitFrame n n5 n6 := (InitFrame.of_write (f := Fld.last_succ) (set_last_succ_spec h6).2.1 (set_last_succ_spec h6).2.2 (by decide)
      (fun j hj => rd_wr_ne (set_last_succ_spec h6).1 hj) (Or.inl ⟨rfl, by decide⟩))
  exact (((((f1.comp f2).comp f3).comp f4).comp f5).comp f6).comp (InitFrame.of_set_state h7 he)

theorem initArcUp_frame {n u e v : Int} {a b : NetSimplex} (h : initArcUp u e v a = some b)
    (he : e < n) : InitFrame n a b ∧ rd b.pi u = some 0 := by
  simp only [initArcUp, Option.bind_eq_bind, Option.bind_eq_some] at h
  obtain ⟨n1, h1, n2, h2, n3, h3, n4, h4, n5, h5, h6⟩ := h
  have f1 : InitFrame n a n1 := (InitFrame.of_write (f := Fld.pred_dir) (set_pred_dir_spec h1).2.1 (set_pred_dir_spec h1).2.2 (by decide)
      (fun j hj => rd_wr_ne (set_pred_dir_spec h1).1 hj) (Or.inl ⟨rfl, by decide⟩))
  obtain ⟨f2, z2⟩ := InitFrame.of_set_pi (n := n) h2
  have f3 : InitFrame n n2 n3 := (InitFrame.of_write (f := Fld.source) (set_source_spec h3).2.1 (set_source_spec h3).2.2 (by decide)
      (fun j hj => rd_wr_ne (set_source_spec h3).1 hj) (Or.inr (Or.inr ⟨rfl, he⟩)))
  have f4 : InitFrame n n3 n4 := (InitFrame.of_write (f := Fld.target) (set_target_spec h4).2.1 (set_target_spec h4).2.2 (by decide)
      (fun j hj => rd_wr_ne (set_target_spec h4).1 hj) (Or.inr (Or.inr ⟨rfl, he⟩)))
  have f5 : InitFrame n n4 n5 := (InitFrame.of_write (f := Fld.flow) (set_flow_spec h5).2.1 (set_flow_spec h5).2.2 (by decide)
      (fun j hj => rd_wr_ne (set_flow_spec h5).1 hj) (Or.inr (Or.inr ⟨rfl, he⟩)))
  have f6 : InitFrame n n5 b := (InitFrame.of_write (f := Fld.cost) (set_cost_spec h6).2.1 (set_cost_spec h6).2.2 (by decide)
      (fun j hj => rd_wr_ne (set_cost_spec h6).1 hj) (Or.inr (Or.inr ⟨rfl, he⟩)))
  have f36 := ((f3.comp f4).comp f5).comp f6
  exact ⟨(f1.comp f2).comp f36, f36.1 u z2⟩

theorem initRoot_frame {n : Int} {a b : NetSimplex} (h : initRoot a = some b)
    (hr : n ≤ a.root) :
    InitFrame n a b ∧ rd b.pi a.root = some 0 ∧ b.node_num = a.node_num := by
  simp only [initRoot, Option.bind_eq_bind, Option.bind_eq_some] at h
  obtain ⟨n1, h1, n2, h2, n3, h3, n4, h4, n5, h5, n6, h6, n7, h7, h8⟩ := h
  have r1 : n1.root = a.root := (set_parent_spec h1).2.1.2.2.1 Sc.root (by simp)
  have r2 : n2.root = n1.root := (set_pred_spec h2).2.1.2.2.1 Sc.root (by simp)
  have r3 : n3.root = n2.root := (set_thread_spec h3).2.1.2.2.1 Sc.root (by simp)
  have r4 : n4.root = n3.root := (set_rev_thread_spec h4).2.1.2.2.1 Sc.root (by simp)
  have r5 : n5.root = n4.root := (set_succ_num_spec h5).2.1.2.2.1 Sc.root (by simp)
  have r6 : n6.root = n5.root := (set_last_succ_spec h6).2.1.2.2.1 Sc.root (by simp)
  have r7 : n7.root = n6.root := (set_supply_spec h7).2.1.2.2.1 Sc.root (by simp)
  have f1 : InitFrame n a n1 := (InitFrame.of_write (f := Fld.parent) (set_parent_spec h1).2.1 (set_parent_spec h1).2.2 (by decide)
      (fun j hj => rd_wr_ne (set_parent_spec h1).1 hj) (Or.inl ⟨rfl, by decide⟩))
  have f2 : InitFrame n n1 n2 := (InitFrame.of_write (f := Fld.pred) (set_pred_spec h2).2.1 (set_pred_spec h2).2.2 (by decide)
      (fun j hj => rd_wr_ne (set_pred_spec h2).1 hj) (Or.inl ⟨rfl, by decide⟩))
  have f3 : InitFrame n n2 n3 := (InitFrame.of_write (f := Fld.thread) (set_thread_spec h3).2.1 (set_thread_spec h3).2.2 (by decide)
      (fun j hj => rd_wr_ne (set_thread_spec h3).1 hj) (Or.inl ⟨rfl, by decide⟩))
  have f4 : InitFrame n n3 n4 := (InitFrame.of_write (f := Fld.rev_thread) (set_rev_thread_spec h4).2.1 (set_rev_thread_spec h4).2.2 (by decide)
      (fun j hj => rd_wr_ne (set_rev_thread_spec h4).1 hj) (Or.inl ⟨rfl, by decide⟩))
  have f5 : InitFrame n n4 n5 := (InitFrame.of_write (f := Fld.succ_num) (set_succ_num_spec h5).2.1 (set_succ_num_spec h5).2.2 (by decide)
      (fun j hj => rd_wr_ne (set_succ_num_spec h5).1 hj) (Or.inl ⟨rfl, by decide⟩))
  have f6 : InitFrame n n5 n6 := (InitFrame.of_write (f := Fld.last_succ) (set_last_succ_spec h6).2.1 (set_last_succ_spec h6).2.2 (by decide)
      (fun j hj => rd_wr_ne (set_last_succ_spec h6).1 hj) (Or.inl ⟨rfl, by decide⟩))
  have f7 : InitFrame n n6 n7 := InitFrame.of_write (f := Fld.supply) (set_supply_spec h7).2.1
    (set_supply_spec h7).2.2 (by decide) (fun j hj => rd_wr_ne (set_supply_spec h7).1 hj)
    (Or.inr (Or.inl ⟨rfl, by rw [r6, r5, r4, r3, r2, r1]; exact hr⟩))
  have hroot : n7.root = a.root := by rw [r7, r6, r5, r4, r3, r2, r1]
  rw [hroot] at h8
  obtain ⟨f8, z8⟩ := InitFrame.of_set_pi (n := n) h8
  have c1 : n1.node_num = a.node_num := (set_parent_spec h1).2.1.2.2.1 Sc.node_num (by simp)
  have c2 : n2.node_num = n1.node_num := (set_pred_spec h2).2.1.2.2.1 Sc.node_num (by simp)
  have c3 : n3.node_num = n2.node_num := (set_thread_spec h3).2.1.2.2.1 Sc.node_num (by simp)
  have c4 : n4.node_num = n3.node_num := (set_rev_thread_spec h4).2.1.2.2.1 Sc.node_num (by simp)
  have c5 : n5.node_num = n4.node_num := (set_succ_num_spec h5).2.1.2.2.1 Sc.node_num (by simp)
  have c6 : n6.node_num = n5.node_num := (set_last_succ_spec h6).2.1.2.2.1 Sc.node_num (by simp)
  have c7 : n7.node_num = n6.node_num := (set_supply_spec h7).2.1.2.2.1 Sc.node_num (by simp)
  have c8 : b.node_num = n7.node_num := (set_pi_spec h8).2.1.2.2.1 Sc.node_num (by simp)
  exact ⟨((((((f1.comp f2).comp f3).comp f4).comp f5).comp f6).comp f7).comp f8, z8,
    by rw [c8, c7, c6, c5, c4, c3, c2, c1]⟩

theorem initArcs_frame (A : Int) (n : Int) : ∀ (k : Nat) (u : Int) (a b : NetSimplex),
    initArcs A k u u a = some b → u + k ≤ n →
    (∀ j : Int, u ≤ j → j < u + k → ∃ v, rd a.supply j = some v ∧ 0 ≤ v) →
    InitFrame n a b ∧ ∀ j : Int, u ≤ j → j < u + k → rd b.pi j = some 0 := by
  intro k
  induction k with
  | zero =>
    intro u a b h _ _
    simp only [initArcs, Option.some.injEq] at h
    subst h
    exact ⟨InitFrame.id n a, fun j h1 h2 => by omega⟩
  | succ k ih =>
    intro u a b h hk hsup
    push_cast at hk
    simp only [initArcs, initArc, Option.bind_eq_bind, Option.bind_eq_some] at h
    obtain ⟨a1, ⟨t, ht, v, hv, hbr⟩, hrest⟩ := h
    have ft := initArcTree_frame (n := n) ht (by omega)
    obtain ⟨v0, hv0, hpos⟩ := hsup u (le_refl _) (by push_cast; omega)
    have hvv : v = v0 := by
      rw [ft.2.1 u (by omega), hv0] at hv
      exact (Option.some.inj hv).symm
    rw [if_pos (by rw [hvv]; exact hpos)] at hbr
    obtain ⟨fu, zu⟩ := initArcUp_frame (n := n) hbr (by omega)
    have f1 := ft.comp fu
    obtain ⟨f2, z2⟩ := ih (u + 1) a1 b hrest (by omega) (by
      intro j h1 h2
      rw [f1.2.1 j (by omega)]
      exact hsup j (by omega) (by push_cast; omega))
    refine ⟨f1.comp f2, ?_⟩
    intro j h1 h2
    by_cases hju : j = u
    · subst hju; exact f2.1 j zu
    · exact z2 j (by omega) (by push_cast at h2; omega)

theorem initSum_keeps : ∀ (k : Nat) (i : Int) (a b : NetSimplex), initSum k i a = some b →
    Keeps [] [Sc.sum_supply] a b ∧ b.state = a.state := by
  intro k
  induction k with
  | zero =>
    intro i a b h
    simp only [initSum, Option.some.injEq] at h
    subst h
    exact ⟨Keeps.unchanged _ _ _, rfl⟩
  | succ k ih =>
    intro i a b h
    simp only [initSum, Option.bind_eq_bind, Option.bind_eq_some] at h
    obtain ⟨v, _, h⟩ := h
    obtain ⟨k2, s2⟩ := ih _ _ _ h
    have k1 := keeps_sum_supply a (a.sum_supply + v)
    exact ⟨(k1.seq k2).mono (by simp) (by simp), s2⟩

theorem InitFrame.of_scalars {n : Int} {gs : List Sc} {a b : NetSimplex}
    (k : Keeps [] gs a b) (hst : b.state = a.state) : InitFrame n a b := by
  have hk : ∀ g : Fld, b.arr g = a.arr g := fun g => k.1 g (by simp)
  have e0 : b.pi = a.pi := hk Fld.pi
  have e1 : b.source = a.source := hk Fld.source
  have e2 : b.target = a.target := hk Fld.target
  have e3 : b.cost = a.cost := hk Fld.cost
  have e4 : b.flow = a.flow := hk Fld.flow
  have e5 : b.supply = a.supply := hk Fld.supply
  exact ⟨fun i hi => by rw [e0]; exact hi, fun j _ => by rw [e5],
    fun j _ => ⟨by rw [e1], by rw [e2], by rw [e3], by rw [e4], by rw [hst]⟩⟩

/-- After `init` on a solver with `n` nodes whose supplies are all non-negative, every
potential is 0 and the arcs from `n` on are as before. -/
theorem init_frame (n : Nat) (a b : NetSimplex) (h : init a = some (true, b))
    (hn : a.node_num = n)
    (hsup : ∀ j : Int, 0 ≤ j → j < n → ∃ v, rd a.supply j = some v ∧ 0 ≤ v) :
    InitFrame n a b ∧ ∀ j : Int, 0 ≤ j → j ≤ n → rd b.pi j = some 0 := by
  unfold init at h
  split at h
  · simp at h
  · simp only [Option.bind_eq_bind, Option.bind_eq_some, Option.some.injEq, Prod.mk.injEq,
      true_and] at h
    obtain ⟨s1, h1, s2, h2, s3, h3, rfl⟩ := h
    have k0 := keeps_sum_supply a 0
    obtain ⟨k1, t1⟩ := initSum_keeps _ _ _ _ h1
    have k01 := k0.seq k1
    have hn1 : s1.node_num = n := (show s1.node_num = a.node_num from
      k01.2.2.1 Sc.node_num (by decide)).trans hn
    have g1 : InitFrame n a s1 := InitFrame.of_scalars k01 t1
    have kr := keeps_root s1 s1.node_num
    have gr : InitFrame n s1 { s1 with root := s1.node_num } := InitFrame.of_scalars kr rfl
    obtain ⟨g2, z2, c2⟩ := initRoot_frame (n := n) h2 (by
      show (n : Int) ≤ s1.node_num
      omega)
    have hn2 : s2.node_num = n := c2.trans hn1
    have g12 := (g1.comp gr).comp g2
    have z2n : rd s2.pi n = some 0 := by
      have : rd s2.pi s1.node_num = some 0 := z2
      rw [hn1] at this; exact this
    rw [hn2] at h3
    simp only [Int.toNat_ofNat] at h3
    obtain ⟨g3, z3⟩ := initArcs_frame s2.artCost n n 0 s2 s3 h3 (by omega) (by
      intro j h1 h2
      rw [g12.2.1 j (by omega)]
      exact hsup j h1 (by omega))
    refine ⟨g12.comp g3, ?_⟩
    intro j h1 h2
    by_cases hjn : j = n
    · subst hjn; exact g3.1 _ z2n
    · exact z3 j h1 (by omega)

theorem runReset_frame : ∀ (k : Nat) (e : Int) (a b : NetSimplex), runReset k e a = some b →
    Keeps [Fld.flow] [] a b ∧
    (∀ j : Int, e ≤ j → j < e + k → rd b.flow j = some 0 ∧ rd b.state j = some STATE_LOWER) ∧
    ∀ j : Int, j < e → rd b.flow j = rd a.flow j ∧ rd b.state j = rd a.state j := by
  intro k
  induction k with
  | zero =>
    intro e a b h
    simp only [runReset, Option.some.injEq] at h
    subst h
    exact ⟨Keeps.unchanged _ _ _, fun j h1 h2 => by omega, fun _ _ => ⟨rfl, rfl⟩⟩
  | succ k ih =>
    intro e a b h
    simp only [runReset, Option.bind_eq_bind, Option.bind_eq_some] at h
    obtain ⟨n1, h1, n2, h2, h3⟩ := h
    obtain ⟨w1, k1⟩ := set_state_spec h1
    obtain ⟨w2, k2, s2⟩ := set_flow_spec h2
    obtain ⟨k3, z3, u3⟩ := ih _ _ _ h3
    have hf1 : n1.flow = a.flow := k1.1 Fld.flow (by simp)
    refine ⟨((k1.seq k2).seq k3).mono (by simp) (by simp), ?_, ?_⟩
    · intro j hj1 hj2
      by_cases hje : j = e
      · subst hje
        obtain ⟨q1, q2⟩ := u3 j (by omega)
        exact ⟨by rw [q1]; exact rd_wr_same w2, by rw [q2, s2]; exact rd_wr_same w1⟩
      · exact z3 j (by omega) (by push_cast at hj2; omega)
    · intro j hj
      obtain ⟨q1, q2⟩ := u3 j (by omega)
      exact ⟨by rw [q1, rd_wr_ne w2 (by omega), hf1], by rw [q2, s2]; exact rd_wr_ne w1 (by omega)⟩

theorem addArc_sized {ns : NetSimplex} {n m : Nat} (hs : Sized ns n m) (a b c : Int) :
    Sized (ns.addArc a b c).2 n (m + 1) := by
  obtain ⟨h1, h2⟩ := hs
  refine ⟨fun f => ?_, by simp [addArc, h2]⟩
  have := h1 f
  cases f <;> simp [addArc, arr, Fld.isNode] at this ⊢ <;> omega

/-- The solver after `addArcs`: sizes, the scalars and the arcs stored. -/
theorem addArcs_spec (n : Nat) : ∀ (arcs : List Var) (ns : NetSimplex) (m : Nat), Sized ns n m →
    Sized (addArcs arcs ns) n (m + arcs.length) ∧ Extends ns (addArcs arcs ns) ∧
    (addArcs arcs ns).arc_num = ns.arc_num + arcs.length ∧
    (addArcs arcs ns).node_num = ns.node_num ∧ (addArcs arcs ns).dummy_arc = ns.dummy_arc ∧
    (addArcs arcs ns).next_arc = ns.next_arc ∧
    (addArcs arcs ns).iterations = ns.iterations ∧
    ∀ (k : Nat) (x : Var), arcs[k]? = some x →
      rd (addArcs arcs ns).source (m + k) = some x.a ∧
      rd (addArcs arcs ns).target (m + k) = some x.b ∧
      rd (addArcs arcs ns).cost (m + k) = some x.c := by
  intro arcs
  induction arcs with
  | nil =>
    intro ns m hs
    exact ⟨hs, extends_self ns, by simp [addArcs], rfl, rfl, rfl, rfl, fun k x h => by simp at h⟩
  | cons a rest ih =>
    intro ns m hs
    have hs1 := addArc_sized hs a.a a.b a.c
    obtain ⟨q1, q2, q3, q4, q5, q6, q8, q7⟩ := ih (ns.addArc a.a a.b a.c).2 (m + 1) hs1
    have l1 : ns.source.length = m := hs.len_arc Fld.source rfl
    have l2 : ns.target.length = m := hs.len_arc Fld.target rfl
    have l3 : ns.cost.length = m := hs.len_arc Fld.cost rfl
    refine ⟨?_, extends_seq (addArc_extends ns a.a a.b a.c) q2, ?_, q4, q5, q6, q8, ?_⟩
    · have : m + (a :: rest).length = m + 1 + rest.length := by simp; omega
      rw [this]; exact q1
    · show (addArcs rest (ns.addArc a.a a.b a.c).2).arc_num = _
      rw [q3]; simp [addArc]; omega
    · intro k x hx
      show rd (addArcs rest (ns.addArc a.a a.b a.c).2).source (m + k) = some x.a ∧
        rd (addArcs rest (ns.addArc a.a a.b a.c).2).target (m + k) = some x.b ∧
        rd (addArcs rest (ns.addArc a.a a.b a.c).2).cost (m + k) = some x.c
      cases k with
      | zero =>
        simp only [List.getElem?_cons_zero, Option.some.injEq] at hx
        subst hx
        obtain ⟨_, p1, p2, p3, _⟩ := q2
        simp only [Nat.cast_zero, add_zero]
        rw [p1 m (by simp [addArc, l1]), p2 m (by simp [addArc, l2]), p3 m (by simp [addArc, l3])]
        refine ⟨?_, ?_, ?_⟩
        · rw [← l1]; exact rd_append_length _ _ _
        · rw [← l2]; exact rd_append_length _ _ _
        · rw [← l3]; exact rd_append_length _ _ _
      | succ k =>
        simp only [List.getElem?_cons_succ] at hx
        have := q7 k x hx
        push_cast at this ⊢
        have e : (m : Int) + (k + 1) = m + 1 + k := by omega
        rw [e]; exact this

theorem totalCostLoop_zero (ns : NetSimplex) : ∀ (k : Nat) (e c : Int),
    (∀ j : Int, e ≤ j → j < e + k → (rd ns.source j).isSome ∧ (rd ns.target j).isSome ∧
      rd ns.flow j = some 0 ∧ (rd ns.cost j).isSome) →
    totalCostLoop ns k e c = some c := by
  intro k
  induction k with
  | zero => intro e c _; rfl
  | succ k ih =>
    intro e c h
    obtain ⟨h1, h2, h3, h4⟩ := h e (le_refl _) (by push_cast; omega)
    obtain ⟨s, hs⟩ := Option.isSome_iff_exists.1 h1
    obtain ⟨t, ht⟩ := Option.isSome_iff_exists.1 h2
    obtain ⟨w, hw⟩ := Option.isSome_iff_exists.1 h4
    have hrec := ih (e + 1) c (fun j hj1 hj2 => h j (by omega) (by push_cast; omega))
    simp only [totalCostLoop, Option.bind_eq_bind, hs, ht, h3, hw, Option.some_bind, zero_mul,
      add_zero, hrec, ite_self]

/-- The solver that `ofInstance` builds: its sizes, scalars, supplies and real arcs. -/
theorem ofInstance_ok (supply : List Int) (arcs : List Var) :
    ∃ ns, ofInstance supply arcs = some ns ∧
      Sized ns supply.length (supply.length + arcs.length) ∧ ns.iterations = 0 ∧
      ns.node_num = supply.length ∧ ns.arc_num = (supply.length + arcs.length : Nat) ∧
      ns.dummy_arc = supply.length ∧ ns.next_arc = supply.length ∧
      (∀ (j : Nat) (hj : j < supply.length), rd ns.supply j = some (supply.get ⟨j, hj⟩)) ∧
      ∀ (k : Nat) (x : Var), arcs[k]? = some x →
        rd ns.source (supply.length + k) = some x.a ∧
        rd ns.target (supply.length + k) = some x.b ∧
        rd ns.cost (supply.length + k) = some x.c := by
  have hs0 := create_sized 2147483647 2147483647 supply.length
  obtain ⟨nsA, e1, k1, _, g1, _⟩ := addNodes_ok supply.length supply.length supply 0
    _ hs0 (le_refl _) (by omega)
  obtain ⟨hs1, x1, a1, a2, a3, a4, a5, a6⟩ := addArcs_spec supply.length arcs nsA
    supply.length (k1.sized hs0)
  have hsupA : (addArcs arcs nsA).supply = nsA.supply := x1.1 Fld.supply rfl
  refine ⟨addArcs arcs nsA, ?_, hs1, a5.trans k1.2.2.2.2,
    a2.trans (k1.2.2.1 Sc.node_num (by decide)), ?_,
    a3.trans (k1.2.2.1 Sc.dummy_arc (by decide)), a4.trans (k1.2.2.1 Sc.next_arc (by decide)),
    ?_, a6⟩
  · simp only [ofInstance, e1, Option.map_some']
  · rw [a1]
    have : nsA.arc_num = supply.length := k1.2.2.1 Sc.arc_num (by decide)
    rw [this]; push_cast; rfl
  · intro j hj
    have := g1 j hj
    simp only [zero_add] at this
    rw [hsupA]; exact this

theorem sized_iterations {ns : NetSimplex} {n m : Nat} (hs : Sized ns n m) (v : Nat) :
    Sized { ns with iterations := v } n m :=
  ⟨fun f => by have := hs.1 f; cases f <;> exact this, hs.2⟩

/-- The reset loop of `run` followed by `init`, on a solver with non-negative supplies:
both succeed, all potentials are 0, and the real arcs keep source, target and cost and
have flow 0 and state `STATE_LOWER`. -/
theorem run_init_nonneg (ns : NetSimplex) (n m : Nat) (hs : Sized ns n m)
    (hnn : ns.node_num = n) (han : ns.arc_num = m) (hn1 : 1 ≤ n) (hnm : n ≤ m)
    (hsup : ∀ j : Int, 0 ≤ j → j < n → ∃ v, rd ns.supply j = some v ∧ 0 ≤ v) :
    ∃ n2 n3, runReset ns.arc_num.toNat 0 { ns with iterations := 0 } = some n2 ∧
      init n2 = some (true, n3) ∧ n3.iterations = 0 ∧ n3.arc_num = ns.arc_num ∧
      n3.dummy_arc = ns.dummy_arc ∧ n3.next_arc = ns.next_arc ∧
      (∀ j : Int, 0 ≤ j → j ≤ n → rd n3.pi j = some 0) ∧
      ∀ j : Int, (n : Int) ≤ j → j < m →
        rd n3.source j = rd ns.source j ∧ rd n3.target j = rd ns.target j ∧
        rd n3.cost j = rd ns.cost j ∧ rd n3.flow j = some 0 ∧
        rd n3.state j = some STATE_LOWER := by
  have hs0 := sized_iterations hs 0
  obtain ⟨n2, e2, k2⟩ := runReset_ok n m ns.arc_num.toNat 0 _ hs0 (le_refl _) (by
    rw [han]; simp)
  obtain ⟨_, z2, _⟩ := runReset_frame _ _ _ _ e2
  have hn2 : n2.node_num = n :=
    (show n2.node_num = ns.node_num from k2.2.2.1 Sc.node_num (by decide)).trans hnn
  obtain ⟨n3, e3, k3, _⟩ := init_ok n2 n m (k2.sized hs0) hn2 hn1 hnm
  have hsup2 : n2.supply = ns.supply := k2.1 Fld.supply (by decide)
  obtain ⟨f3, p3⟩ := init_frame n n2 n3 e3 hn2 (by rw [hsup2]; exact hsup)
  have k23 := k2.seq k3
  have hsrc2 : n2.source = ns.source := k2.1 Fld.source (by decide)
  have htgt2 : n2.target = ns.target := k2.1 Fld.target (by decide)
  have hcst2 : n2.cost = ns.cost := k2.1 Fld.cost (by decide)
  refine ⟨n2, n3, e2, e3, k23.2.2.2.2, k23.2.2.1 Sc.arc_num (by decide),
    k23.2.2.1 Sc.dummy_arc (by decide), k23.2.2.1 Sc.next_arc (by decide), p3, ?_⟩
  intro j hj1 hj2
  obtain ⟨r1, r2, r3, r4, r5⟩ := f3.2.2 j hj1
  obtain ⟨z2f, z2s⟩ := z2 j (by omega) (by rw [han]; simp; omega)
  exact ⟨by rw [r1, hsrc2], by rw [r2, htgt2], by rw [r3, hcst2], by rw [r4]; exact z2f,
    by rw [r5]; exact z2s⟩

end NetSimplex

/-- C20 (scenario S4): for supplies that are all 0 and real arcs between the nodes with
non-negative costs, `run` returns `OPTIMAL` after zero pivots, every real arc has flow 0
and `totalCost` is 0. -/
theorem C20_zero_supply (supply : List Int) (arcs : List Var) (fuel : Nat) (h : supply ≠ [])
    (hz : ∀ b ∈ supply, b = 0)
    (hv : ∀ x ∈ arcs, 0 ≤ x.a ∧ x.a < supply.length ∧ 0 ≤ x.b ∧ x.b < supply.length)
    (hc : ∀ x ∈ arcs, 0 ≤ x.c) :
    ∃ ns ns', NetSimplex.ofInstance supply arcs = some ns ∧
      NetSimplex.run (fuel + 1) ns = some (ProblemType.OPTIMAL, ns') ∧
      ns'.iterations = 0 ∧
      (∀ k : Nat, k < arcs.length → ns'.flowOf (supply.length + k) = some 0) ∧
      ns'.totalCost = some 0 := by
  have hlen : 1 ≤ supply.length := by
    cases supply with
    | nil => exact absurd rfl h
    | cons a t => simp
  obtain ⟨ns, e0, hs, _, hnn, han, hdn, hxn, hsup, harcs⟩ := NetSimplex.ofInstance_ok supply arcs
  obtain ⟨n2, n3, e2, e3, hit, h3a, h3d, h3x, p3, q3⟩ := NetSimplex.run_init_nonneg ns
    supply.length (supply.length + arcs.length) hs hnn han hlen (by omega) (by
      intro j hj0 hjn
      have hj : j.toNat < supply.length := by omega
      have := hsup j.toNat hj
      rw [Int.toNat_of_nonneg hj0] at this
      exact ⟨_, this, le_of_eq (hz _ (List.get_mem _ _ _)).symm⟩)
  rw [han] at h3a
  rw [hdn] at h3d
  rw [hxn] at h3x
  have harc : ∀ j : Int, (supply.length : Int) ≤ j → j < (supply.length + arcs.length : Nat) →
      ∃ x ∈ arcs, rd n3.source j = some x.a ∧ rd n3.target j = some x.b ∧
        rd n3.cost j = some x.c ∧ rd n3.flow j = some 0 ∧ rd n3.state j = some STATE_LOWER := by
    intro j hj1 hj2
    have hk : (j - supply.length).toNat < arcs.length := by push_cast at hj2; omega
    obtain ⟨q1, q2, q3'⟩ := harcs (j - supply.length).toNat (arcs.get ⟨_, hk⟩) (by
      simp [List.getElem?_eq_getElem hk])
    have ej : (supply.length : Int) + ((j - supply.length).toNat : Nat) = j := by omega
    rw [ej] at q1 q2 q3'
    obtain ⟨r1, r2, r3, r4, r5⟩ := q3 j hj1 hj2
    exact ⟨_, List.get_mem _ _ _, r1.trans q1, r2.trans q2, r3.trans q3', r4, r5⟩
  have hent : (BlockSearchPivotRule.create n3).findEnteringArc n3 =
      some (false, BlockSearchPivotRule.create n3, n3) := by
    apply BlockSearchPivotRule.findEnteringArc_none
    · show n3.dummy_arc ≤ n3.next_arc
      rw [h3d, h3x]
    · show n3.next_arc ≤ n3.arc_num
      rw [h3x, h3a]; push_cast; omega
    · intro j hj1 hj2
      have hj1' : n3.dummy_arc ≤ j := hj1
      have hj2' : j < n3.arc_num := hj2
      rw [h3d] at hj1'
      rw [h3a] at hj2'
      obtain ⟨x, hx, b1, b2, b3, _, b5⟩ := harc j hj1' hj2'
      obtain ⟨v1, v2, v3, v4⟩ := hv x hx
      have c1 := p3 x.a v1 (by omega)
      have c2 := p3 x.b v3 (by omega)
      refine ⟨x.c, ?_, hc x hx⟩
      simp [NetSimplex.signedRedCost, NetSimplex.redCost, b1, b2, b3, b5, c1, c2, STATE_LOWER]
  have hrun : NetSimplex.run (fuel + 1) ns = some (ProblemType.OPTIMAL, n3) := by
    simp only [NetSimplex.run, Option.bind_eq_bind, e2, Option.some_bind, e3, if_true]
    exact NetSimplex.startLoop_stop hent
  refine ⟨ns, n3, e0, hrun, hit, ?_, ?_⟩
  · intro k hk
    obtain ⟨x, _, _, _, _, b4, _⟩ := harc (supply.length + k) (by omega) (by push_cast; omega)
    exact b4
  · have hcnt : (n3.arc_num - n3.dummy_arc).toNat = arcs.length := by
      rw [h3a, h3d]; push_cast; omega
    unfold NetSimplex.totalCost
    rw [hcnt, h3d]
    refine NetSimplex.totalCostLoop_zero n3 arcs.length supply.length 0 ?_
    intro j hj1 hj2
    obtain ⟨x, _, b1, b2, b3, b4, _⟩ := harc j hj1 (by push_cast; exact hj2)
    exact ⟨by rw [b1]; rfl, by rw [b2]; rfl, b4, by rw [b3]; rfl⟩

/-- C20 on scenario S4 itself: four nodes of supply 0 and the 4-cycle `0->1->2->3->0` of
cost-1 arcs. -/
theorem C20_zero_supply_S4 :
    ([0, 0, 0, 0] : List Int) ≠ [] ∧ (∀ b ∈ ([0, 0, 0, 0] : List Int), b = 0) ∧
    (∀ x ∈ ([⟨0, 1, 1⟩, ⟨1, 2, 1⟩, ⟨2, 3, 1⟩, ⟨3, 0, 1⟩] : List Var),
      0 ≤ x.a ∧ x.a < ([0, 0, 0, 0] : List Int).length ∧
      0 ≤ x.b ∧ x.b < ([0, 0, 0, 0] : List Int).length) ∧
    (∀ x ∈ ([⟨0, 1, 1⟩, ⟨1, 2, 1⟩, ⟨2, 3, 1⟩, ⟨3, 0, 1⟩] : List Var), 0 ≤ x.c) ∧
    ∃ ns ns', NetSimplex.ofInstance [0, 0, 0, 0]
        [⟨0, 1, 1⟩, ⟨1, 2, 1⟩, ⟨2, 3, 1⟩, ⟨3, 0, 1⟩] = some ns ∧
      NetSimplex.run (0 + 1) ns = some (ProblemType.OPTIMAL, ns') ∧
      ns'.iterations = 0 ∧
      (∀ k : Nat, k < ([⟨0, 1, 1⟩, ⟨1, 2, 1⟩, ⟨2, 3, 1⟩, ⟨3, 0, 1⟩] : List Var).length →
        ns'.flowOf (([0, 0, 0, 0] : List Int).length + k) = some 0) ∧
      ns'.totalCost = some 0 :=
  ⟨by decide, by decide, by decide, by decide,
    C20_zero_supply [0, 0, 0, 0] [⟨0, 1, 1⟩, ⟨1, 2, 1⟩, ⟨2, 3, 1⟩, ⟨3, 0, 1⟩] 0 (by decide)
      (by decide) (by decide) (by decide)⟩

/-! ## What a pivot keeps, and reRun after an optimal run -/

namespace NetSimplex

theorem PivotKeeps.of_keeps {fs : List Fld} {gs : List Sc} {a b : NetSimplex}
    (h : Keeps fs gs a b) (hf : ∀ f, f ∈ fs → f ∈ pivotFields)
    (hg : ∀ g, g ∈ gs → g ∈ pivotScalars) : PivotKeeps a b :=
  h.mono hf hg

theorem PivotKeeps.none (a : NetSimplex) : PivotKeeps a a := Keeps.unchanged _ _ a

theorem PivotKeeps.next {a b c : NetSimplex} (h1 : PivotKeeps a b) (h2 : PivotKeeps b c) :
    PivotKeeps a c :=
  (Keeps.seq h1 h2).mono (fun _ h => (List.mem_append.1 h).elim id id)
    (fun _ h => (List.mem_append.1 h).elim id id)

theorem PivotKeeps.scalars {a b : NetSimplex} (h0 : b.node_num = a.node_num)
    (h1 : b.arc_num = a.arc_num) (h2 : b.dummy_arc = a.dummy_arc) (h3 : b.next_arc = a.next_arc)
    (h4 : b.sum_supply = a.sum_supply) (h5 : b.root = a.root) (h6 : b.in_arc = a.in_arc)
    (h7 : b.MAX = a.MAX) (h8 : b.COST_MAX = a.COST_MAX) (hi : b.iterations = a.iterations)
    (hs : b.state = a.state) (hf : ∀ f, b.arr f = a.arr f) : PivotKeeps a b := by
  refine ⟨fun f _ => hf f, fun f => by rw [hf f], ?_, by rw [hs], hi⟩
  intro g hg
  cases g <;> first | assumption | exact absurd (by simp [pivotScalars]) hg

theorem pivotKeeps_join (a : NetSimplex) (j : Int) : PivotKeeps a { a with join := j } :=
  PivotKeeps.scalars rfl rfl rfl rfl rfl rfl rfl rfl rfl rfl rfl (fun f => by cases f <;> rfl)

theorem pivotKeeps_delta (a : NetSimplex) (d : Int) : PivotKeeps a { a with delta := d } :=
  PivotKeeps.scalars rfl rfl rfl rfl rfl rfl rfl rfl rfl rfl rfl (fun f => by cases f <;> rfl)

theorem pivotKeeps_delta_u_out (a : NetSimplex) (d u : Int) :
    PivotKeeps a { a with delta := d, u_out := u } :=
  PivotKeeps.scalars rfl rfl rfl rfl rfl rfl rfl rfl rfl rfl rfl (fun f => by cases f <;> rfl)

theorem pivotKeeps_u_in_v_in (a : NetSimplex) (u v : Int) :
    PivotKeeps a { a with u_in := u, v_in := v } :=
  PivotKeeps.scalars rfl rfl rfl rfl rfl rfl rfl rfl rfl rfl rfl (fun f => by cases f <;> rfl)

theorem pivotKeeps_v_out (a : NetSimplex) (v : Int) : PivotKeeps a { a with v_out := v } :=
  PivotKeeps.scalars rfl rfl rfl rfl rfl rfl rfl rfl rfl rfl rfl (fun f => by cases f <;> rfl)

theorem set_flow_pivot {a b : NetSimplex} {i v : Int} (h : a.set_flow i v = some b) :
    PivotKeeps a b :=
  (set_flow_spec h).2.1.mono (by simp [pivotFields]) (by simp)

theorem set_pi_pivot {a b : NetSimplex} {i v : Int} (h : a.set_pi i v = some b) :
    PivotKeeps a b :=
  (set_pi_spec h).2.1.mono (by simp [pivotFields]) (by simp)

theorem set_parent_pivot {a b : NetSimplex} {i v : Int} (h : a.set_parent i v = some b) :
    PivotKeeps a b :=
  (set_parent_spec h).2.1.mono (by simp [pivotFields]) (by simp)

theorem set_pred_pivot {a b : NetSimplex} {i v : Int} (h : a.set_pred i v = some b) :
    PivotKeeps a b :=
  (set_pred_spec h).2.1.mono (by simp [pivotFields]) (by simp)

theorem set_thread_pivot {a b : NetSimplex} {i v : Int} (h : a.set_thread i v = some b) :
    PivotKeeps a b :=
  (set_thread_spec h).2.1.mono (by simp [pivotFields]) (by simp)

theorem set_rev_thread_pivot {a b : NetSimplex} {i v : Int} (h : a.set_rev_thread i v = some b) :
    PivotKeeps a b :=
  (set_rev_thread_spec h).2.1.mono (by simp [pivotFields]) (by simp)

theorem set_succ_num_pivot {a b : NetSimplex} {i v : Int} (h : a.set_succ_num i v = some b) :
    PivotKeeps a b :=
  (set_succ_num_spec h).2.1.mono (by simp [pivotFields]) (by simp)

theorem set_last_succ_pivot {a b : NetSimplex} {i v : Int} (h : a.set_last_succ i v = some b) :
    PivotKeeps a b :=
  (set_last_succ_spec h).2.1.mono (by simp [pivotFields]) (by simp)

theorem set_pred_dir_pivot {a b : NetSimplex} {i v : Int} (h : a.set_pred_dir i v = some b) :
    PivotKeeps a b :=
  (set_pred_dir_spec h).2.1.mono (by simp [pivotFields]) (by simp)

theorem set_state_pivot {a b : NetSimplex} {i : Int} {v : Bool} (h : a.set_state i v = some b) :
    PivotKeeps a b :=
  (set_state_spec h).2.mono (by simp) (by simp)

theorem findJoinNode_pivot {a b : NetSimplex} (h : findJoinNode a = some b) : PivotKeeps a b := by
  simp only [findJoinNode, Option.bind_eq_bind, Option.bind_eq_some, Option.some.injEq] at h
  obtain ⟨u, _, v, _, j, _, rfl⟩ := h
  exact pivotKeeps_join a j

theorem findLeavingFirst_pivot : ∀ (k : Nat) (u : Int) (a : NetSimplex) (r : Int)
    (b : NetSimplex) (r' : Int), findLeavingFirst k u a r = some (b, r') → PivotKeeps a b := by
  intro k
  induction k with
  | zero => intro u a r b r' h; simp [findLeavingFirst] at h
  | succ k ih =>
    intro u a r b r' h
    unfold findLeavingFirst at h
    split at h
    · simp only [Option.some.injEq, Prod.mk.injEq] at h
      obtain ⟨rfl, _⟩ := h
      exact PivotKeeps.none a
    · simp only [Option.bind_eq_bind, Option.bind_eq_some] at h
      obtain ⟨e, _, f, _, dir, _, p, _, h⟩ := h
      split at h <;> split at h <;>
        first
        | exact ih _ _ _ _ _ h
        | exact (pivotKeeps_delta_u_out a _ _).next (ih _ _ _ _ _ h)

theorem findLeavingSecond_pivot : ∀ (k : Nat) (u : Int) (a : NetSimplex) (r : Int)
    (b : NetSimplex) (r' : Int), findLeavingSecond k u a r = some (b, r') → PivotKeeps a b := by
  intro k
  induction k with
  | zero => intro u a r b r' h; simp [findLeavingSecond] at h
  | succ k ih =>
    intro u a r b r' h
    unfold findLeavingSecond at h
    split at h
    · simp only [Option.some.injEq, Prod.mk.injEq] at h
      obtain ⟨rfl, _⟩ := h
      exact PivotKeeps.none a
    · simp only [Option.bind_eq_bind, Option.bind_eq_some] at h
      obtain ⟨e, _, f, _, dir, _, p, _, h⟩ := h
      split at h <;> split at h <;>
        first
        | exact ih _ _ _ _ _ h
        | exact (pivotKeeps_delta_u_out a _ _).next (ih _ _ _ _ _ h)

theorem findLeavingArc_pivot {a b : NetSimplex} {r : Bool} (h : findLeavingArc a = some (r, b)) :
    PivotKeeps a b := by
  simp only [findLeavingArc, Option.bind_eq_bind, Option.bind_eq_some] at h
  obtain ⟨first, _, second, _, ⟨n1, r1⟩, h1, ⟨n2, r2⟩, h2, h⟩ := h
  have k0 := pivotKeeps_delta a a.MAX
  have k1 := findLeavingFirst_pivot _ _ _ _ _ _ h1
  have k2 := findLeavingSecond_pivot _ _ _ _ _ _ h2
  split at h
  · simp only [Option.some.injEq, Prod.mk.injEq] at h
    obtain ⟨_, rfl⟩ := h
    exact ((k0.next k1).next k2).next (pivotKeeps_u_in_v_in _ _ _)
  · simp only [Option.some.injEq, Prod.mk.injEq] at h
    obtain ⟨_, rfl⟩ := h
    exact ((k0.next k1).next k2).next (pivotKeeps_u_in_v_in _ _ _)

theorem changeFlowFirst_pivot : ∀ (k : Nat) (u : Int) (a b : NetSimplex),
    changeFlowFirst k u a = some b → PivotKeeps a b := by
  intro k
  induction k with
  | zero => intro u a b h; simp [changeFlowFirst] at h
  | succ k ih =>
    intro u a b h
    unfold changeFlowFirst at h
    split at h
    · simp only [Option.some.injEq] at h
      subst h
      exact PivotKeeps.none a
    · simp only [Option.bind_eq_bind, Option.bind_eq_some] at h
      obtain ⟨e, _, f, _, dir, _, n1, h1, p, _, h⟩ := h
      exact (set_flow_pivot h1).next (ih _ _ _ h)

theorem changeFlowSecond_pivot : ∀ (k : Nat) (u : Int) (a b : NetSimplex),
    changeFlowSecond k u a = some b → PivotKeeps a b := by
  intro k
  induction k with
  | zero => intro u a b h; simp [changeFlowSecond] at h
  | succ k ih =>
    intro u a b h
    unfold changeFlowSecond at h
    split at h
    · simp only [Option.some.injEq] at h
      subst h
      exact PivotKeeps.none a
    · simp only [Option.bind_eq_bind, Option.bind_eq_some] at h
      obtain ⟨e, _, f, _, dir, _, n1, h1, p, _, h⟩ := h
      exact (set_flow_pivot h1).next (ih _ _ _ h)

theorem augment_pivot {a b : NetSimplex} (h : augment a = some b) : PivotKeeps a b := by
  simp only [augment, Option.bind_eq_bind, Option.bind_eq_some] at h
  obtain ⟨f, _, n1, h1, s, _, n2, h2, t, _, h3⟩ := h
  exact ((set_flow_pivot h1).next (changeFlowFirst_pivot _ _ _ _ h2)).next
    (changeFlowSecond_pivot _ _ _ _ h3)

theorem changeFlow_pivot {a b : NetSimplex} (h : changeFlow a = some b) : PivotKeeps a b := by
  by_cases hd : a.delta > 0
  · simp only [changeFlow, hd, if_true, Option.bind_eq_bind, Option.bind_eq_some] at h
    obtain ⟨n1, h1, n2, h2, e, _, h3⟩ := h
    exact ((augment_pivot h1).next (set_state_pivot h2)).next (set_state_pivot h3)
  · simp only [changeFlow, hd, if_false, Option.bind_eq_bind, Option.some_bind,
      Option.bind_eq_some] at h
    obtain ⟨n2, h2, e, _, h3⟩ := h
    exact (set_state_pivot h2).next (set_state_pivot h3)

theorem updateTreeSame_pivot {a b : NetSimplex} {x y : Int}
    (h : updateTreeSame a x y = some b) : PivotKeeps a b := by
  simp only [updateTreeSame, Option.bind_eq_bind, Option.bind_eq_some] at h
  obtain ⟨n1, h1, n2, h2, src, _, n3, h3, t, _, h⟩ := h
  have k3 := ((set_parent_pivot h1).next (set_pred_pivot h2)).next (set_pred_dir_pivot h3)
  split at h
  · simp only [Option.bind_eq_some] at h
    obtain ⟨af, _, n4, h4, n5, h5, af2, _, n6, h6, n7, h7, n8, h8, h9⟩ := h
    exact (((((k3.next (set_thread_pivot h4)).next (set_rev_thread_pivot h5)).next
      (set_thread_pivot h6)).next (set_rev_thread_pivot h7)).next (set_thread_pivot h8)).next
      (set_rev_thread_pivot h9)
  · simp only [Option.some.injEq] at h
    subst h
    exact k3

theorem stemLoop_pivot : ∀ (k : Nat) (a : NetSimplex) (st : Stem) (b : NetSimplex) (st' : Stem),
    stemLoop k a st = some (b, st') → PivotKeeps a b := by
  intro k
  induction k with
  | zero => intro a st b st' h; simp [stemLoop] at h
  | succ k ih =>
    intro a st b st' h
    unfold stemLoop at h
    split at h
    · simp only [Option.some.injEq, Prod.mk.injEq] at h
      obtain ⟨rfl, _⟩ := h
      exact PivotKeeps.none a
    · simp only [Option.bind_eq_bind, Option.bind_eq_some] at h
      obtain ⟨nx, _, n1, h1, bf, _, n2, h2, n3, h3, n4, h4, ls, _, lp, _, h⟩ := h
      have k4 := (((set_thread_pivot h1).next (set_thread_pivot h2)).next
        (set_rev_thread_pivot h3)).next (set_parent_pivot h4)
      split at h
      · simp only [Option.bind_eq_some] at h
        obtain ⟨y, _, af, _, h⟩ := h
        exact k4.next (ih _ _ _ _ h)
      · simp only [Option.some_bind, Option.bind_eq_some] at h
        obtain ⟨af, _, h⟩ := h
        exact k4.next (ih _ _ _ _ h)

theorem dirtyLoop_pivot : ∀ (us : List Int) (a b : NetSimplex),
    dirtyLoop us a = some b → PivotKeeps a b := by
  intro us
  induction us with
  | nil =>
    intro a b h
    simp only [dirtyLoop, Option.some.injEq] at h
    subst h
    exact PivotKeeps.none a
  | cons u us ih =>
    intro a b h
    simp only [dirtyLoop, Option.bind_eq_bind, Option.bind_eq_some] at h
    obtain ⟨t, _, n1, h1, h⟩ := h
    exact (set_rev_thread_pivot h1).next (ih _ _ h)

theorem stemUpdate_pivot : ∀ (k : Nat) (a : NetSimplex) (u p c l : Int) (b : NetSimplex),
    stemUpdate k a u p c l = some b → PivotKeeps a b := by
  intro k
  induction k with
  | zero => intro a u p c l b h; simp [stemUpdate] at h
  | succ k ih =>
    intro a u p c l b h
    unfold stemUpdate at h
    split at h
    · simp only [Option.some.injEq] at h
      subst h
      exact PivotKeeps.none a
    · simp only [Option.bind_eq_bind, Option.bind_eq_some] at h
      obtain ⟨pp, _, n1, h1, dp, _, n2, h2, su, _, sp, _, n3, h3, n4, h4, p2, _, h⟩ := h
      exact ((((set_pred_pivot h1).next (set_pred_dir_pivot h2)).next
        (set_succ_num_pivot h3)).next (set_last_succ_pivot h4)).next (ih _ _ _ _ _ _ h)

theorem updateTreeStemThread_pivot {a b : NetSimplex} {x y : Int} {d : List Int}
    (h : updateTreeStemThread a x y = some (b, d)) : PivotKeeps a b := by
  unfold updateTreeStemThread at h
  split at h <;>
  · simp only [Option.bind_eq_bind, Option.bind_eq_some] at h
    obtain ⟨tc, _, last, _, af, _, n1, h1, ⟨r1, r2⟩, hr, n2, h2, n3, h3, n4, h4, n5, h5, h⟩ := h
    have k5 := (((((set_thread_pivot h1).next (stemLoop_pivot _ _ _ _ _ hr)).next
      (set_parent_pivot h2)).next (set_thread_pivot h3)).next (set_rev_thread_pivot h4)).next
      (set_last_succ_pivot h5)
    split at h
    · simp only [Option.bind_eq_some, Option.some.injEq, Prod.mk.injEq] at h
      obtain ⟨n6, h6, n7, h7, rfl, _⟩ := h
      exact (k5.next (set_thread_pivot h6)).next (set_rev_thread_pivot h7)
    · simp only [Option.some.injEq, Prod.mk.injEq] at h
      obtain ⟨rfl, _⟩ := h
      exact k5

theorem updateTreeStemPred_pivot {a b : NetSimplex} {d : List Int} {c : Int}
    (h : updateTreeStemPred a d c = some b) : PivotKeeps a b := by
  simp only [updateTreeStemPred, Option.bind_eq_bind, Option.bind_eq_some] at h
  obtain ⟨n1, h1, ls, _, p, _, n2, h2, n3, h3, src, _, n4, h4, h5⟩ := h
  exact ((((dirtyLoop_pivot _ _ _ h1).next (stemUpdate_pivot _ _ _ _ _ _ _ h2)).next
    (set_pred_pivot h3)).next (set_pred_dir_pivot h4)).next (set_succ_num_pivot h5)

theorem updateTreeStem_pivot {a b : NetSimplex} {x c y : Int}
    (h : updateTreeStem a x c y = some b) : PivotKeeps a b := by
  simp only [updateTreeStem, Option.bind_eq_bind, Option.bind_eq_some] at h
  obtain ⟨⟨r1, r2⟩, h1, h2⟩ := h
  exact (updateTreeStemThread_pivot h1).next (updateTreeStemPred_pivot h2)

theorem lastSuccIn_pivot (l : Int) : ∀ (k : Nat) (a : NetSimplex) (u : Int) (b : NetSimplex),
    lastSuccIn l k a u = some b → PivotKeeps a b := by
  intro k
  induction k with
  | zero => intro a u b h; simp [lastSuccIn] at h
  | succ k ih =>
    intro a u b h
    unfold lastSuccIn at h
    split at h
    · simp only [Option.some.injEq] at h
      subst h
      exact PivotKeeps.none a
    · simp only [Option.bind_eq_bind, Option.bind_eq_some] at h
      obtain ⟨l1, _, h⟩ := h
      split at h
      · simp only [Option.bind_eq_some] at h
        obtain ⟨n1, h1, p, _, h⟩ := h
        exact (set_last_succ_pivot h1).next (ih _ _ _ h)
      · simp only [Option.some.injEq] at h
        subst h
        exact PivotKeeps.none a

theorem lastSuccOut_pivot (x y z : Int) : ∀ (k : Nat) (a : NetSimplex) (u : Int)
    (b : NetSimplex), lastSuccOut x y z k a u = some b → PivotKeeps a b := by
  intro k
  induction k with
  | zero => intro a u b h; simp [lastSuccOut] at h
  | succ k ih =>
    intro a u b h
    unfold lastSuccOut at h
    split at h
    · simp only [Option.some.injEq] at h
      subst h
      exact PivotKeeps.none a
    · simp only [Option.bind_eq_bind, Option.bind_eq_some] at h
      obtain ⟨l1, _, h⟩ := h
      split at h
      · simp only [Option.bind_eq_some] at h
        obtain ⟨n1, h1, p, _, h⟩ := h
        exact (set_last_succ_pivot h1).next (ih _ _ _ h)
      · simp only [Option.some.injEq] at h
        subst h
        exact PivotKeeps.none a

theorem succNumLoop_pivot (d : Int) : ∀ (k : Nat) (a : NetSimplex) (u : Int) (b : NetSimplex),
    succNumLoop d k a u = some b → PivotKeeps a b := by
  intro k
  induction k with
  | zero => intro a u b h; simp [succNumLoop] at h
  | succ k ih =>
    intro a u b h
    unfold succNumLoop at h
    split at h
    · simp only [Option.some.injEq] at h
      subst h
      exact PivotKeeps.none a
    · simp only [Option.bind_eq_bind, Option.bind_eq_some] at h
      obtain ⟨n, _, n1, h1, p, _, h⟩ := h
      exact (set_succ_num_pivot h1).next (ih _ _ _ h)

theorem potentialLoop_pivot (sg stop : Int) : ∀ (k : Nat) (a : NetSimplex) (u : Int)
    (b : NetSimplex), potentialLoop sg stop k a u = some b → PivotKeeps a b := by
  intro k
  induction k with
  | zero => intro a u b h; simp [potentialLoop] at h
  | succ k ih =>
    intro a u b h
    unfold potentialLoop at h
    split at h
    · simp only [Option.some.injEq] at h
      subst h
      exact PivotKeeps.none a
    · simp only [Option.bind_eq_bind, Option.bind_eq_some] at h
      obtain ⟨n, _, n1, h1, p, _, h⟩ := h
      exact (set_pi_pivot h1).next (ih _ _ _ h)

theorem updatePotential_pivot {a b : NetSimplex} (h : updatePotential a = some b) :
    PivotKeeps a b := by
  simp only [updatePotential, Option.bind_eq_bind, Option.bind_eq_some] at h
  obtain ⟨pv, _, pu, _, dir, _, c, _, l, _, stop, _, h⟩ := h
  exact potentialLoop_pivot _ _ _ _ _ _ h

theorem lastSuccTail_pivot {n2 b : NetSimplex} {ort ols lso ulo osn : Int}
    (h : (if n2.join ≠ ort ∧ n2.v_in ≠ ort then
        (lastSuccOut ulo ols ort n2.loopBound n2 n2.v_out).bind fun y =>
          (succNumLoop osn y.loopBound y y.v_in).bind fun ns =>
            succNumLoop (-osn) ns.loopBound ns ns.v_out
      else
        if lso ≠ ols then
          (lastSuccOut ulo ols lso n2.loopBound n2 n2.v_out).bind fun y =>
            (succNumLoop osn y.loopBound y y.v_in).bind fun ns =>
              succNumLoop (-osn) ns.loopBound ns ns.v_out
        else
          (some n2).bind fun y =>
            (succNumLoop osn y.loopBound y y.v_in).bind fun ns =>
              succNumLoop (-osn) ns.loopBound ns ns.v_out) = some b) : PivotKeeps n2 b := by
  split at h
  · simp only [Option.bind_eq_some] at h
    obtain ⟨n3, h3, n4, h4, h5⟩ := h
    exact ((lastSuccOut_pivot _ _ _ _ _ _ _ h3).next (succNumLoop_pivot _ _ _ _ _ h4)).next
      (succNumLoop_pivot _ _ _ _ _ h5)
  · split at h
    · simp only [Option.bind_eq_some] at h
      obtain ⟨n3, h3, n4, h4, h5⟩ := h
      exact ((lastSuccOut_pivot _ _ _ _ _ _ _ h3).next (succNumLoop_pivot _ _ _ _ _ h4)).next
        (succNumLoop_pivot _ _ _ _ _ h5)
    · simp only [Option.some_bind, Option.bind_eq_some] at h
      obtain ⟨n4, h4, h5⟩ := h
      exact (succNumLoop_pivot _ _ _ _ _ h4).next (succNumLoop_pivot _ _ _ _ _ h5)

theorem updateTreeStructure_pivot {a b : NetSimplex} (h : updateTreeStructure a = some b) :
    PivotKeeps a b := by
  unfold updateTreeStructure at h
  simp only [Option.bind_eq_bind, Option.bind_eq_some] at h
  obtain ⟨ort, _, osn, _, ols, _, vo, _, h⟩ := h
  have k0 := pivotKeeps_v_out a vo
  split at h
  · simp only [Option.bind_eq_some] at h
    obtain ⟨n1, h1, lj, _, lso, _, n2, h2, h⟩ := h
    exact ((k0.next (updateTreeSame_pivot h1)).next (lastSuccIn_pivot _ _ _ _ _ h2)).next
      (lastSuccTail_pivot h)
  · simp only [Option.bind_eq_some] at h
    obtain ⟨n1, h1, lj, _, lso, _, n2, h2, h⟩ := h
    exact ((k0.next (updateTreeStem_pivot h1)).next (lastSuccIn_pivot _ _ _ _ _ h2)).next
      (lastSuccTail_pivot h)

/-- A complete pivot keeps everything but the vectors and scalars of the basis, and adds
one to the iteration counter. -/
theorem pivot_pivot {a b : NetSimplex} (h : pivot a = some b) :
    ∃ x, PivotKeeps a x ∧ b = { x with iterations := x.iterations + 1 } := by
  simp only [pivot, Option.bind_eq_bind, Option.bind_eq_some, Option.some.injEq] at h
  obtain ⟨n1, h1, ⟨r, n2⟩, h2, n3, h3, n4, h4, n5, h5, h⟩ := h
  exact ⟨n5, ((((findJoinNode_pivot h1).next (findLeavingArc_pivot h2)).next
    (changeFlow_pivot h3)).next (updateTreeStructure_pivot h4)).next (updatePotential_pivot h5),
    h.symm⟩

theorem PivotKeeps.sameSize {a b : NetSimplex} (h : PivotKeeps a b) : SameSize a b :=
  ⟨h.2.2.1 Sc.node_num (by decide), h.2.2.1 Sc.arc_num (by decide),
    h.2.2.1 Sc.dummy_arc (by decide), h.2.2.1 Sc.next_arc (by decide),
    h.2.2.1 Sc.MAX (by decide), h.2.2.1 Sc.COST_MAX (by decide)⟩

theorem pivot_sameSize {a b : NetSimplex} (h : pivot a = some b) : SameSize a b := by
  obtain ⟨x, k, rfl⟩ := pivot_pivot h
  exact k.sameSize

end NetSimplex

theorem BlockSearchPivotRule.findEnteringArc_sameSize {p p' : BlockSearchPivotRule}
    {a b : NetSimplex} {go : Bool} (h : p.findEnteringArc a = some (go, p', b)) :
    NetSimplex.SameSize a b := by
  simp only [BlockSearchPivotRule.findEnteringArc, Option.bind_eq_bind, Option.bind_eq_some] at h
  obtain ⟨sc1, h1, h⟩ := h
  split at h
  · simp only [Option.some.injEq, Prod.mk.injEq] at h
    obtain ⟨_, _, rfl⟩ := h
    exact ⟨rfl, rfl, rfl, rfl, rfl, rfl⟩
  · simp only [Option.bind_eq_some] at h
    obtain ⟨sc2, h2, h⟩ := h
    split at h
    · simp only [Option.some.injEq, Prod.mk.injEq] at h
      obtain ⟨_, _, rfl⟩ := h
      exact ⟨rfl, rfl, rfl, rfl, rfl, rfl⟩
    · split at h <;>
      · simp only [Option.some.injEq, Prod.mk.injEq] at h
        obtain ⟨_, _, rfl⟩ := h
        exact ⟨rfl, rfl, rfl, rfl, rfl, rfl⟩

namespace NetSimplex

theorem startLoop_sameSize : ∀ (fuel : Nat) (p : BlockSearchPivotRule) (a b : NetSimplex)
    (st : ProblemType), startLoop fuel p a = some (st, b) → SameSize a b := by
  intro fuel
  induction fuel with
  | zero => intro p a b st h; simp [startLoop] at h
  | succ fuel ih =>
    intro p a b st h
    simp only [startLoop, Option.bind_eq_bind, Option.bind_eq_some] at h
    obtain ⟨⟨go, p1, n1⟩, h1, h⟩ := h
    have k1 := BlockSearchPivotRule.findEnteringArc_sameSize h1
    cases go with
    | true =>
      simp only [if_true, Option.bind_eq_some] at h
      obtain ⟨n2, h2, h⟩ := h
      exact k1.chain ((pivot_sameSize h2).chain (ih _ _ _ _ h))
    | false =>
      simp only [Bool.false_eq_true, if_false, Option.some.injEq, Prod.mk.injEq] at h
      obtain ⟨_, rfl⟩ := h
      exact k1

end NetSimplex

/-- C11: when `run` has returned `OPTIMAL` on a solver whose scan cursor lies in the arc
range (`_dummy_arc <= _next_arc <= _arc_num`, as after construction, `addArc` and
`updateArcs`), a `reRun` that follows immediately returns `OPTIMAL` and leaves the solver as
it is: the iteration counter, `totalCost`, every flow and every potential are unchanged. -/
theorem C11_reRun_after_optimal (fuel k : Nat) (ns ns' : NetSimplex)
    (hx : ns.dummy_arc ≤ ns.next_arc ∧ ns.next_arc ≤ ns.arc_num)
    (h : NetSimplex.run fuel ns = some (ProblemType.OPTIMAL, ns')) :
    ∃ ns'', NetSimplex.reRun (k + 1) ns' = some (ProblemType.OPTIMAL, ns'') ∧
      ns''.iterations = ns'.iterations ∧ ns''.totalCost = ns'.totalCost ∧
      ns''.flow = ns'.flow ∧ ns''.pi = ns'.pi := by
  simp only [NetSimplex.run, Option.bind_eq_bind, Option.bind_eq_some] at h
  obtain ⟨n1, h1, ⟨ok, n2⟩, h2, h3⟩ := h
  have s1' := NetSimplex.runReset_sameSize _ _ _ _ h1
  have s1 : NetSimplex.SameSize ns n1 := s1'
  have s2 := NetSimplex.init_sameSize h2
  cases ok with
  | false => simp at h3
  | true =>
    simp only [if_true] at h3
    have s3 := NetSimplex.startLoop_sameSize _ _ _ _ _ h3
    have g := (NetSimplex.startLoop_optimal _ _ _ _ _ h3).2
    have s := (s1.chain s2).chain s3
    have hent : (BlockSearchPivotRule.create ns').findEnteringArc ns' =
        some (false, BlockSearchPivotRule.create ns', ns') := by
      apply BlockSearchPivotRule.findEnteringArc_none
      · show ns'.dummy_arc ≤ ns'.next_arc
        rw [s.2.2.1, s.2.2.2.1]; exact hx.1
      · show ns'.next_arc ≤ ns'.arc_num
        rw [s.2.1, s.2.2.2.1]; exact hx.2
      · intro j hj1 hj2
        have hj1' : ns'.dummy_arc ≤ j := hj1
        have hj2' : j < ns'.arc_num := hj2
        apply g j
        · show n2.dummy_arc ≤ j
          rw [← s3.2.2.1]; exact hj1'
        · show j < n2.arc_num
          rw [← s3.2.1]; exact hj2'
    exact ⟨ns', NetSimplex.startLoop_stop hent, rfl, rfl, rfl, rfl⟩

/-- C11 on scenario S1: `run` returns `OPTIMAL` and leaves `solvedS1`, on which `reRun`
returns `OPTIMAL` again. -/
theorem C11_reRun_after_optimal_S1 :
    (solverS1.dummy_arc ≤ solverS1.next_arc ∧ solverS1.next_arc ≤ solverS1.arc_num) ∧
    NetSimplex.run 5 solverS1 = some (ProblemType.OPTIMAL, solvedS1) ∧
    ∃ ns'', NetSimplex.reRun (0 + 1) solvedS1 = some (ProblemType.OPTIMAL, ns'') ∧
      ns''.iterations = solvedS1.iterations ∧ ns''.totalCost = solvedS1.totalCost ∧
      ns''.flow = solvedS1.flow ∧ ns''.pi = solvedS1.pi :=
  have h : NetSimplex.run 5 solverS1 = some (ProblemType.OPTIMAL, solvedS1) := by decide
  ⟨by decide, h, C11_reRun_after_optimal 5 0 solverS1 solvedS1 (by decide) h⟩

/-! ## The star basis after init -/

namespace NetSimplex

end NetSimplex

namespace NetSimplex

/-- The writes of `initArcTree`, each into the vector as it was before the call. -/
theorem initArcTree_writes {u e : Int} {a b : NetSimplex}
    (h : initArcTree u e a = some b) :
    wr a.parent u a.root = some b.parent ∧
    wr a.pred u e = some b.pred ∧
    wr a.thread u (u + 1) = some b.thread ∧
    wr a.rev_thread (u + 1) u = some b.rev_thread ∧
    wr a.succ_num u 1 = some b.succ_num ∧
    wr a.last_succ u u = some b.last_succ ∧
    wr a.state e STATE_TREE = some b.state ∧
    Keeps [Fld.parent, Fld.pred, Fld.thread, Fld.rev_thread, Fld.succ_num, Fld.last_succ] [] a b := by
  simp only [initArcTree, Option.bind_eq_bind, Option.bind_eq_some] at h
  obtain ⟨n1, h1, n2, h2, n3, h3, n4, h4, n5, h5, n6, h6, h7⟩ := h
  have K0 := Keeps.unchanged [] [] a
  have k1 := (set_parent_spec h1).2.1
  have K1 := K0.seq k1
  have k2 := (set_pred_spec h2).2.1
  have K2 := K1.seq k2
  have k3 := (set_thread_spec h3).2.1
  have K3 := K2.seq k3
  have k4 := (set_rev_thread_spec h4).2.1
  have K4 := K3.seq k4
  have k5 := (set_succ_num_spec h5).2.1
  have K5 := K4.seq k5
  have k6 := (set_last_succ_spec h6).2.1
  have K6 := K5.seq k6
  have k7 := (set_state_spec h7).2
  have K7 := K6.seq k7
  have S7 := Keeps.unchanged [] [] b
  have S6 := k7.seq S7
  have S5 := k6.seq S6
  have S4 := k5.seq S5
  have S3 := k4.seq S4
  have S2 := k3.seq S3
  have S1 := k2.seq S2
  have w1 := (set_parent_spec h1).1
  have q1 : b.parent = n1.parent := S1.1 Fld.parent (by decide)
  rw [← q1] at w1
  have w2 := (set_pred_spec h2).1
  have p2 : n1.pred = a.pred := K1.1 Fld.pred (by decide)
  have q2 : b.pred = n2.pred := S2.1 Fld.pred (by decide)
  rw [p2, ← q2] at w2
  have w3 := (set_thread_spec h3).1
  have p3 : n2.thread = a.thread := K2.1 Fld.thread (by decide)
  have q3 : b.thread = n3.thread := S3.1 Fld.thread (by decide)
  rw [p3, ← q3] at w3
  have w4 := (set_rev_thread_spec h4).1
  have p4 : n3.rev_thread = a.rev_thread := K3.1 Fld.rev_thread (by decide)
  have q4 : b.rev_thread = n4.rev_thread := S4.1 Fld.rev_thread (by decide)
  rw [p4, ← q4] at w4
  have w5 := (set_succ_num_spec h5).1
  have p5 : n4.succ_num = a.succ_num := K4.1 Fld.succ_num (by decide)
  have q5 : b.succ_num = n5.succ_num := S5.1 Fld.succ_num (by decide)
  rw [p5, ← q5] at w5
  have w6 := (set_last_succ_spec h6).1
  have p6 : n5.last_succ = a.last_succ := K5.1 Fld.last_succ (by decide)
  have q6 : b.last_succ = n6.last_succ := S6.1 Fld.last_succ (by decide)
  rw [p6, ← q6] at w6
  have w7 := (set_state_spec h7).1
  have p7 : n6.state = a.state := by rw [(set_last_succ_spec h6).2.2, (set_succ_num_spec h5).2.2, (set_rev_thread_spec h4).2.2, (set_thread_spec h3).2.2, (set_pred_spec h2).2.2, (set_parent_spec h1).2.2]
  rw [p7] at w7
  refine ⟨w1, w2, w3, w4, w5, w6, w7, K7.mono (by simp) (by simp)⟩

/-- The writes of `initArcUp`, each into the vector as it was before the call. -/
theorem initArcUp_writes {u e v : Int} {a b : NetSimplex}
    (h : initArcUp u e v a = some b) :
    wr a.pred_dir u DIR_UP = some b.pred_dir ∧
    wr a.pi u 0 = some b.pi ∧
    wr a.source e u = some b.source ∧
    wr a.target e a.root = some b.target ∧
    wr a.flow e v = some b.flow ∧
    wr a.cost e 0 = some b.cost ∧
    Keeps [Fld.pred_dir, Fld.pi, Fld.source, Fld.target, Fld.flow, Fld.cost] [] a b ∧ b.state = a.state := by
  simp only [initArcUp, Option.bind_eq_bind, Option.bind_eq_some] at h
  obtain ⟨n1, h1, n2, h2, n3, h3, n4, h4, n5, h5, h6⟩ := h
  have K0 := Keeps.unchanged [] [] a
  have k1 := (set_pred_dir_spec h1).2.1
  have K1 := K0.seq k1
  have k2 := (set_pi_spec h2).2.1
  have K2 := K1.seq k2
  have k3 := (set_source_spec h3).2.1
  have K3 := K2.seq k3
  have k4 := (set_target_spec h4).2.1
  have K4 := K3.seq k4
  have k5 := (set_flow_spec h5).2.1
  have K5 := K4.seq k5
  have k6 := (set_cost_spec h6).2.1
  have K6 := K5.seq k6
  have S6 := Keeps.unchanged [] [] b
  have S5 := k6.seq S6
  have S4 := k5.seq S5
  have S3 := k4.seq S4
  have S2 := k3.seq S3
  have S1 := k2.seq S2
  have w1 := (set_pred_dir_spec h1).1
  have q1 : b.pred_dir = n1.pred_dir := S1.1 Fld.pred_dir (by decide)
  rw [← q1] at w1
  have w2 := (set_pi_spec h2).1
  have p2 : n1.pi = a.pi := K1.1 Fld.pi (by decide)
  have q2 : b.pi = n2.pi := S2.1 Fld.pi (by decide)
  rw [p2, ← q2] at w2
  have w3 := (set_source_spec h3).1
  have p3 : n2.source = a.source := K2.1 Fld.source (by decide)
  have q3 : b.source = n3.source := S3.1 Fld.source (by decide)
  rw [p3, ← q3] at w3
  have w4 := (set_target_spec h4).1
  have c4root : n3.root = a.root := K3.2.2.1 Sc.root (by decide)
  have p4 : n3.target = a.target := K3.1 Fld.target (by decide)
  have q4 : b.target = n4.target := S4.1 Fld.target (by decide)
  rw [c4root, p4, ← q4] at w4
  have w5 := (set_flow_spec h5).1
  have p5 : n4.flow = a.flow := K4.1 Fld.flow (by decide)
  have q5 : b.flow = n5.flow := S5.1 Fld.flow (by decide)
  rw [p5, ← q5] at w5
  have w6 := (set_cost_spec h6).1
  have p6 : n5.cost = a.cost := K5.1 Fld.cost (by decide)
  rw [p6] at w6
  refine ⟨w1, w2, w3, w4, w5, w6, K6.mono (by simp) (by simp), by rw [(set_cost_spec h6).2.2, (set_flow_spec h5).2.2, (set_target_spec h4).2.2, (set_source_spec h3).2.2, (set_pi_spec h2).2.2, (set_pred_dir_spec h1).2.2]⟩

/-- The writes of `initArcDown`, each into the vector as it was before the call. -/
theorem initArcDown_writes {A u e v : Int} {a b : NetSimplex}
    (h : initArcDown A u e v a = some b) :
    wr a.pred_dir u DIR_DOWN = some b.pred_dir ∧
    wr a.pi u A = some b.pi ∧
    wr a.source e a.root = some b.source ∧
    wr a.target e u = some b.target ∧
    wr a.flow e (-v) = some b.flow ∧
    wr a.cost e A = some b.cost ∧
    Keeps [Fld.pred_dir, Fld.pi, Fld.source, Fld.target, Fld.flow, Fld.cost] [] a b ∧ b.state = a.state := by
  simp only [initArcDown, Option.bind_eq_bind, Option.bind_eq_some] at h
  obtain ⟨n1, h1, n2, h2, n3, h3, n4, h4, n5, h5, h6⟩ := h
  have K0 := Keeps.unchanged [] [] a
  have k1 := (set_pred_dir_spec h1).2.1
  have K1 := K0.seq k1
  have k2 := (set_pi_spec h2).2.1
  have K2 := K1.seq k2
  have k3 := (set_source_spec h3).2.1
  have K3 := K2.seq k3
  have k4 := (set_target_spec h4).2.1
  have K4 := K3.seq k4
  have k5 := (set_flow_spec h5).2.1
  have K5 := K4.seq k5
  have k6 := (set_cost_spec h6).2.1
  have K6 := K5.seq k6
  have S6 := Keeps.unchanged [] [] b
  have S5 := k6.seq S6
  have S4 := k5.seq S5
  have S3 := k4.seq S4
  have S2 := k3.seq S3
  have S1 := k2.seq S2
  have w1 := (set_pred_dir_spec h1).1
  have q1 : b.pred_dir = n1.pred_dir := S1.1 Fld.pred_dir (by decide)
  rw [← q1] at w1
  have w2 := (set_pi_spec h2).1
  have p2 : n1.pi = a.pi := K1.1 Fld.pi (by decide)
  have q2 : b.pi = n2.pi := S2.1 Fld.pi (by decide)
  rw [p2, ← q2] at w2
  have w3 := (set_source_spec h3).1
  have c3root : n2.root = a.root := K2.2.2.1 Sc.root (by decide)
  have p3 : n2.source = a.source := K2.1 Fld.source (by decide)
  have q3 : b.source = n3.source := S3.1 Fld.source (by decide)
  rw [c3root, p3, ← q3] at w3
  have w4 := (set_target_spec h4).1
  have p4 : n3.target = a.target := K3.1 Fld.target (by decide)
  have q4 : b.target = n4.target := S4.1 Fld.target (by decide)
  rw [p4, ← q4] at w4
  have w5 := (set_flow_spec h5).1
  have p5 : n4.flow = a.flow := K4.1 Fld.flow (by decide)
  have q5 : b.flow = n5.flow := S5.1 Fld.flow (by decide)
  rw [p5, ← q5] at w5
  have w6 := (set_cost_spec h6).1
  have p6 : n5.cost = a.cost := K5.1 Fld.cost (by decide)
  rw [p6] at w6
  refine ⟨w1, w2, w3, w4, w5, w6, K6.mono (by simp) (by simp), by rw [(set_cost_spec h6).2.2, (set_flow_spec h5).2.2, (set_target_spec h4).2.2, (set_source_spec h3).2.2, (set_pi_spec h2).2.2, (set_pred_dir_spec h1).2.2]⟩

/-- The writes of `initRoot`, each into the vector as it was before the call. -/
theorem initRoot_writes  {a b : NetSimplex}
    (h : initRoot a = some b) :
    wr a.parent a.root (-1) = some b.parent ∧
    wr a.pred a.root (-1) = some b.pred ∧
    wr a.thread a.root 0 = some b.thread ∧
    wr a.rev_thread 0 a.root = some b.rev_thread ∧
    wr a.succ_num a.root (a.node_num + 1) = some b.succ_num ∧
    wr a.last_succ a.root (a.root - 1) = some b.last_succ ∧
    wr a.supply a.root (-a.sum_supply) = some b.supply ∧
    wr a.pi a.root 0 = some b.pi ∧
    Keeps [Fld.parent, Fld.pred, Fld.thread, Fld.rev_thread, Fld.succ_num, Fld.last_succ, Fld.supply, Fld.pi] [] a b ∧ b.state = a.state := by
  simp only [initRoot, Option.bind_eq_bind, Option.bind_eq_some] at h
  obtain ⟨n1, h1, n2, h2, n3, h3, n4, h4, n5, h5, n6, h6, n7, h7, h8⟩ := h
  have K0 := Keeps.unchanged [] [] a
  have k1 := (set_parent_spec h1).2.1
  have K1 := K0.seq k1
  have k2 := (set_pred_spec h2).2.1
  have K2 := K1.seq k2
  have k3 := (set_thread_spec h3).2.1
  have K3 := K2.seq k3
  have k4 := (set_rev_thread_spec h4).2.1
  have K4 := K3.seq k4
  have k5 := (set_succ_num_spec h5).2.1
  have K5 := K4.seq k5
  have k6 := (set_last_succ_spec h6).2.1
  have K6 := K5.seq k6
  have k7 := (set_supply_spec h7).2.1
  have K7 := K6.seq k7
  have k8 := (set_pi_spec h8).2.1
  have K8 := K7.seq k8
  have S8 := Keeps.unchanged [] [] b
  have S7 := k8.seq S8
  have S6 := k7.seq S7
  have S5 := k6.seq S6
  have S4 := k5.seq S5
  have S3 := k4.seq S4
  have S2 := k3.seq S3
  have S1 := k2.seq S2
  have w1 := (set_parent_spec h1).1
  have q1 : b.parent = n1.parent := S1.1 Fld.parent (by decide)
  rw [← q1] at w1
  have w2 := (set_pred_spec h2).1
  have c2root : n1.root = a.root := K1.2.2.1 Sc.root (by decide)
  have p2 : n1.pred = a.pred := K1.1 Fld.pred (by decide)
  have q2 : b.pred = n2.pred := S2.1 Fld.pred (by decide)
  rw [c2root, p2, ← q2] at w2
  have w3 := (set_thread_spec h3).1
  have c3root : n2.root = a.root := K2.2.2.1 Sc.root (by decide)
  have p3 : n2.thread = a.thread := K2.1 Fld.thread (by decide)
  have q3 : b.thread = n3.thread := S3.1 Fld.thread (by decide)
  rw [c3root, p3, ← q3] at w3
  have w4 := (set_rev_thread_spec h4).1
  have c4root : n3.root = a.root := K3.2.2.1 Sc.root (by decide)
  have p4 : n3.rev_thread = a.rev_thread := K3.1 Fld.rev_thread (by decide)
  have q4 : b.rev_thread = n4.rev_thread := S4.1 Fld.rev_thread (by decide)
  rw [c4root, p4, ← q4] at w4
  have w5 := (set_succ_num_spec h5).1
  have c5root : n4.root = a.root := K4.2.2.1 Sc.root (by decide)
  have c5node_num : n4.node_num = a.node_num := K4.2.2.1 Sc.node_num (by decide)
  have p5 : n4.succ_num = a.succ_num := K4.1 Fld.succ_num (by decide)
  have q5 : b.succ_num = n5.succ_num := S5.1 Fld.succ_num (by decide)
  rw [c5root, c5node_num, p5, ← q5] at w5
  have w6 := (set_last_succ_spec h6).1
  have c6root : n5.root = a.root := K5.2.2.1 Sc.root (by decide)
  have p6 : n5.last_succ = a.last_succ := K5.1 Fld.last_succ (by decide)
  have q6 : b.last_succ = n6.last_succ := S6.1 Fld.last_succ (by decide)
  rw [c6root, p6, ← q6] at w6
  have w7 := (set_supply_spec h7).1
  have c7root : n6.root = a.root := K6.2.2.1 Sc.root (by decide)
  have c7sum_supply : n6.sum_supply = a.sum_supply := K6.2.2.1 Sc.sum_supply (by decide)
  have p7 : n6.supply = a.supply := K6.1 Fld.supply (by decide)
  have q7 : b.supply = n7.supply := S7.1 Fld.supply (by decide)
  rw [c7root, c7sum_supply, p7, ← q7] at w7
  have w8 := (set_pi_spec h8).1
  have c8root : n7.root = a.root := K7.2.2.1 Sc.root (by decide)
  have p8 : n7.pi = a.pi := K7.1 Fld.pi (by decide)
  rw [c8root, p8] at w8
  refine ⟨w1, w2, w3, w4, w5, w6, w7, w8, K8.mono (by simp) (by simp), by rw [(set_pi_spec h8).2.2, (set_supply_spec h7).2.2, (set_last_succ_spec h6).2.2, (set_succ_num_spec h5).2.2, (set_rev_thread_spec h4).2.2, (set_thread_spec h3).2.2, (set_pred_spec h2).2.2, (set_parent_spec h1).2.2]⟩

end NetSimplex

namespace NetSimplex

theorem initArc_writes {A u : Int} {a b : NetSimplex} (h : initArc A u u a = some b) :
    ∃ bu, rd a.supply u = some bu ∧ ArcWrites A a b u bu ∧ Keeps initFields [] a b := by
  simp only [initArc, Option.bind_eq_bind, Option.bind_eq_some] at h
  obtain ⟨t, ht, bu, hbu, h⟩ := h
  obtain ⟨t1, t2, t3, t4, t5, t6, t7, kt⟩ := initArcTree_writes ht
  have hsup : t.supply = a.supply := kt.1 Fld.supply (by decide)
  have hroot : t.root = a.root := kt.2.2.1 Sc.root (by decide)
  have e1 : t.pred_dir = a.pred_dir := kt.1 Fld.pred_dir (by decide)
  have e2 : t.pi = a.pi := kt.1 Fld.pi (by decide)
  have e3 : t.source = a.source := kt.1 Fld.source (by decide)
  have e4 : t.target = a.target := kt.1 Fld.target (by decide)
  have e5 : t.flow = a.flow := kt.1 Fld.flow (by decide)
  have e6 : t.cost = a.cost := kt.1 Fld.cost (by decide)
  rw [hsup] at hbu
  refine ⟨bu, hbu, ?_⟩
  split at h
  · rename_i hpos
    obtain ⟨u1, u2, u3, u4, u5, u6, ku, su⟩ := initArcUp_writes h
    rw [e1] at u1; rw [e2] at u2; rw [e3] at u3; rw [e4, hroot] at u4; rw [e5] at u5
    rw [e6] at u6
    have f1 : b.parent = t.parent := ku.1 Fld.parent (by decide)
    have f2 : b.pred = t.pred := ku.1 Fld.pred (by decide)
    have f3 : b.thread = t.thread := ku.1 Fld.thread (by decide)
    have f4 : b.rev_thread = t.rev_thread := ku.1 Fld.rev_thread (by decide)
    have f5 : b.succ_num = t.succ_num := ku.1 Fld.succ_num (by decide)
    have f6 : b.last_succ = t.last_succ := ku.1 Fld.last_succ (by decide)
    have hfl : initFlow bu = bu := by simp [initFlow, hpos]
    refine ⟨⟨by rw [f1]; exact t1, by rw [f2]; exact t2, by rw [f3]; exact t3,
      by rw [f4]; exact t4, by rw [f5]; exact t5, by rw [f6]; exact t6, by rw [su]; exact t7,
      by rw [if_pos hpos]; exact u1, by rw [if_pos hpos]; exact u2,
      by rw [if_pos hpos]; exact u3, by rw [if_pos hpos]; exact u4, by rw [hfl]; exact u5,
      by rw [if_pos hpos]; exact u6⟩, (kt.seq ku).mono (by simp [initFields]) (by simp)⟩
  · rename_i hneg
    obtain ⟨u1, u2, u3, u4, u5, u6, ku, su⟩ := initArcDown_writes h
    rw [e1] at u1; rw [e2] at u2; rw [e3, hroot] at u3; rw [e4] at u4; rw [e5] at u5
    rw [e6] at u6
    have f1 : b.parent = t.parent := ku.1 Fld.parent (by decide)
    have f2 : b.pred = t.pred := ku.1 Fld.pred (by decide)
    have f3 : b.thread = t.thread := ku.1 Fld.thread (by decide)
    have f4 : b.rev_thread = t.rev_thread := ku.1 Fld.rev_thread (by decide)
    have f5 : b.succ_num = t.succ_num := ku.1 Fld.succ_num (by decide)
    have f6 : b.last_succ = t.last_succ := ku.1 Fld.last_succ (by decide)
    have hfl : initFlow bu = -bu := by simp [initFlow, hneg]
    refine ⟨⟨by rw [f1]; exact t1, by rw [f2]; exact t2, by rw [f3]; exact t3,
      by rw [f4]; exact t4, by rw [f5]; exact t5, by rw [f6]; exact t6, by rw [su]; exact t7,
      by rw [if_neg hneg]; exact u1, by rw [if_neg hneg]; exact u2,
      by rw [if_neg hneg]; exact u3, by rw [if_neg hneg]; exact u4, by rw [hfl]; exact u5,
      by rw [if_neg hneg]; exact u6⟩, (kt.seq ku).mono (by simp [initFields]) (by simp)⟩

theorem ArcWrites.node {A u bu : Int} {a b : NetSimplex} (h : ArcWrites A a b u bu)
    (hr : b.root = a.root) : StarNode A b u bu := by
  obtain ⟨w1, w2, w3, w4, w5, w6, w7, w8, w9, w10, w11, w12, w13⟩ := h
  rw [← hr] at w1 w10 w11
  exact ⟨rd_wr_same w1, rd_wr_same w2, rd_wr_same w3, rd_wr_same w4, rd_wr_same w5, rd_wr_same w6, rd_wr_same w7, rd_wr_same w8, rd_wr_same w9, rd_wr_same w10, rd_wr_same w11, rd_wr_same w12, rd_wr_same w13⟩

theorem ArcWrites.other {A u bu v c : Int} {a b : NetSimplex} (h : ArcWrites A a b u bu)
    (hr : b.root = a.root) (hv : v ≠ u) (hs : StarNode A a v c) : StarNode A b v c := by
  obtain ⟨w1, w2, w3, w4, w5, w6, w7, w8, w9, w10, w11, w12, w13⟩ := h
  obtain ⟨s1, s2, s3, s4, s5, s6, s7, s8, s9, s10, s11, s12, s13⟩ := hs
  rw [← hr] at s1 s10 s11
  refine ⟨?_, ?_, ?_, ?_, ?_, ?_, ?_, ?_, ?_, ?_, ?_, ?_, ?_⟩
  · rw [rd_wr_ne w1 (by omega)]; exact s1
  · rw [rd_wr_ne w2 (by omega)]; exact s2
  · rw [rd_wr_ne w3 (by omega)]; exact s3
  · rw [rd_wr_ne w4 (by omega)]; exact s4
  · rw [rd_wr_ne w5 (by omega)]; exact s5
  · rw [rd_wr_ne w6 (by omega)]; exact s6
  · rw [rd_wr_ne w7 (by omega)]; exact s7
  · rw [rd_wr_ne w8 (by omega)]; exact s8
  · rw [rd_wr_ne w9 (by omega)]; exact s9
  · rw [rd_wr_ne w10 (by omega)]; exact s10
  · rw [rd_wr_ne w11 (by omega)]; exact s11
  · rw [rd_wr_ne w12 (by omega)]; exact s12
  · rw [rd_wr_ne w13 (by omega)]; exact s13

theorem ArcWrites.root {A u bu : Int} {a b : NetSimplex} (h : ArcWrites A a b u bu)
    (k : Keeps initFields [] a b) (hu0 : 0 ≤ u) (hu : u < a.root) (hs : StarRoot a) :
    StarRoot b := by
  obtain ⟨w1, w2, w3, w4, w5, w6, w7, w8, w9, w10, w11, w12, w13⟩ := h
  obtain ⟨s1, s2, s3, s4, s5, s6, s7, s8⟩ := hs
  have hr : b.root = a.root := k.2.2.1 Sc.root (by decide)
  have hn : b.node_num = a.node_num := k.2.2.1 Sc.node_num (by decide)
  have hss : b.sum_supply = a.sum_supply := k.2.2.1 Sc.sum_supply (by decide)
  have hsup : b.supply = a.supply := k.1 Fld.supply (by decide)
  rw [StarRoot, hr, hn, hss, hsup]
  exact ⟨by rw [rd_wr_ne w1 (by omega)]; exact s1, by rw [rd_wr_ne w2 (by omega)]; exact s2,
    by rw [rd_wr_ne w3 (by omega)]; exact s3, by rw [rd_wr_ne w4 (by omega)]; exact s4,
    by rw [rd_wr_ne w5 (by omega)]; exact s5, by rw [rd_wr_ne w6 (by omega)]; exact s6, s7,
    by rw [rd_wr_ne w9 (by omega)]; exact s8⟩

end NetSimplex

namespace NetSimplex

theorem initArcs_star (A : Int) : ∀ (k : Nat) (u : Int) (a b : NetSimplex),
    initArcs A k u u a = some b → 0 ≤ u → u + k ≤ a.root →
    Keeps initFields [] a b ∧ (StarRoot a → StarRoot b) ∧
    (∀ v c : Int, v < u → StarNode A a v c → StarNode A b v c) ∧
    (∀ v : Int, u ≤ v → v < u + k → ∃ c, rd a.supply v = some c ∧ StarNode A b v c) ∧
    ∀ j : Int, j < u ∨ u + k ≤ j → rd b.pred_dir j = rd a.pred_dir j := by
  intro k
  induction k with
  | zero =>
    intro u a b h _ _
    simp only [initArcs, Option.some.injEq] at h
    subst h
    exact ⟨Keeps.unchanged _ _ _, fun h => h, fun _ _ _ h => h, fun v h1 h2 => by omega,
      fun _ _ => rfl⟩
  | succ k ih =>
    intro u a b h hu0 huk
    push_cast at huk
    simp only [initArcs, Option.bind_eq_bind, Option.bind_eq_some] at h
    obtain ⟨a1, h1, h2⟩ := h
    obtain ⟨bu, hbu, hw, k1⟩ := initArc_writes h1
    have hr1 : a1.root = a.root := k1.2.2.1 Sc.root (by decide)
    have hsup1 : a1.supply = a.supply := k1.1 Fld.supply (by decide)
    obtain ⟨k2, r2, o2, n2, p2⟩ := ih (u + 1) a1 b h2 (by omega) (by rw [hr1]; omega)
    refine ⟨(k1.seq k2).mono (by simp) (by simp),
      fun hs => r2 (hw.root k1 hu0 (by omega) hs), ?_, ?_, ?_⟩
    · intro v c hv hs
      exact o2 v c (by omega) (hw.other hr1 (by omega) hs)
    · intro v hv1 hv2
      by_cases hvu : v = u
      · subst hvu
        exact ⟨bu, hbu, o2 v bu (by omega) (hw.node hr1)⟩
      · obtain ⟨c, hc, hs⟩ := n2 v (by omega) (by push_cast at hv2; omega)
        rw [hsup1] at hc
        exact ⟨c, hc, hs⟩
    · intro j hj
      rw [p2 j (by push_cast at hj; omega)]
      exact rd_wr_ne hw.2.2.2.2.2.2.2.1 (by push_cast at hj; omega)

theorem initRoot_star {a b : NetSimplex} (h : initRoot a = some b) :
    StarRoot b ∧ Keeps rootFields [] a b ∧ b.state = a.state := by
  obtain ⟨w1, w2, w3, w4, w5, w6, w7, w8, k, hs⟩ := initRoot_writes h
  have hr : b.root = a.root := k.2.2.1 Sc.root (by decide)
  have hn : b.node_num = a.node_num := k.2.2.1 Sc.node_num (by decide)
  have hss : b.sum_supply = a.sum_supply := k.2.2.1 Sc.sum_supply (by decide)
  refine ⟨?_, k.mono (by simp [rootFields]) (by simp), hs⟩
  rw [StarRoot, hr, hn, hss]
  exact ⟨rd_wr_same w1, rd_wr_same w2, rd_wr_same w3, rd_wr_same w4, rd_wr_same w5,
    rd_wr_same w6, rd_wr_same w7, rd_wr_same w8⟩

/-- The state after `init` on a solver with `n` nodes: the star basis, with the root `n`. -/
theorem init_star (n : Nat) (a b : NetSimplex) (h : init a = some (true, b))
    (hn : a.node_num = n) :
    b.root = n ∧ StarRoot b ∧
    (∀ v : Int, 0 ≤ v → v < n → ∃ c, rd a.supply v = some c ∧ StarNode a.artCost b v c) ∧
    rd b.pred_dir n = rd a.pred_dir n := by
  unfold init at h
  split at h
  · simp at h
  · simp only [Option.bind_eq_bind, Option.bind_eq_some, Option.some.injEq, Prod.mk.injEq,
      true_and] at h
    obtain ⟨s1, h1, s2, h2, s3, h3, rfl⟩ := h
    have k0 := keeps_sum_supply a 0
    obtain ⟨k1, _⟩ := initSum_keeps _ _ _ _ h1
    have k01 := k0.seq k1
    have hn1 : s1.node_num = n := (show s1.node_num = a.node_num from
      k01.2.2.1 Sc.node_num (by decide)).trans hn
    have hsup1 : s1.supply = a.supply := k01.1 Fld.supply (by simp)
    have hpd1 : s1.pred_dir = a.pred_dir := k01.1 Fld.pred_dir (by simp)
    have hc1 : s1.COST_MAX = a.COST_MAX := k01.2.2.1 Sc.COST_MAX (by decide)
    obtain ⟨r2, k2, _⟩ := initRoot_star h2
    have hr2 : s2.root = n := (show s2.root = s1.node_num from
      k2.2.2.1 Sc.root (by decide)).trans hn1
    have hn2 : s2.node_num = n := (show s2.node_num = s1.node_num from
      k2.2.2.1 Sc.node_num (by decide)).trans hn1
    have hc2 : s2.COST_MAX = s1.COST_MAX := k2.2.2.1 Sc.COST_MAX (by decide)
    have hpd2 : s2.pred_dir = s1.pred_dir := k2.1 Fld.pred_dir (by decide)
    have hart : s2.artCost = a.artCost := by unfold artCost; rw [hc2, hc1]
    rw [hn2, hart] at h3
    simp only [Int.toNat_ofNat] at h3
    obtain ⟨k3, r3, _, n3, p3⟩ := initArcs_star a.artCost n 0 s2 s3 h3 (le_refl _) (by
      rw [hr2]; omega)
    have hr3 : s3.root = s2.root := k3.2.2.1 Sc.root (by decide)
    refine ⟨hr3.trans hr2, r3 r2, ?_, ?_⟩
    · intro v hv0 hvn
      obtain ⟨c, hc, hs⟩ := n3 v hv0 (by omega)
      have hsup2 : ∀ j : Int, j ≠ n → rd s2.supply j = rd s1.supply j := by
        obtain ⟨_, _, _, _, _, _, w7, _⟩ := initRoot_writes h2
        intro j hj
        exact rd_wr_ne w7 (by
          show j ≠ s1.node_num
          rw [hn1]; exact hj)
      rw [hsup2 v (by omega), hsup1] at hc
      exact ⟨c, hc, hs⟩
    · rw [p3 n (Or.inr (by omega)), hpd2, hpd1]

end NetSimplex

/-! ## The root entries through a pivot -/

namespace NetSimplex

theorem RootKeeps.stay (n : Int) (a : NetSimplex) : RootKeeps n a a :=
  ⟨Keeps.unchanged _ _ a, rfl, rfl, rfl⟩

theorem RootKeeps.step {n : Int} {a b c : NetSimplex} (h1 : RootKeeps n a b)
    (h2 : RootKeeps n b c) : RootKeeps n a c :=
  ⟨(Keeps.seq h1.1 h2.1).mono (fun _ h => (List.mem_append.1 h).elim id id)
    (fun _ h => (List.mem_append.1 h).elim id id), h2.2.1.trans h1.2.1,
    h2.2.2.1.trans h1.2.2.1, h2.2.2.2.trans h1.2.2.2⟩

/-- A write into a vector of the pivot other than `pred`, `parent` and `pred_dir`. -/
theorem RootKeeps.of_vector {n : Int} {f : Fld} {a b : NetSimplex} (k : Keeps [f] [] a b)
    (hf : f ∈ pivotFields) (h1 : f ≠ Fld.pred) (h2 : f ≠ Fld.parent) (h3 : f ≠ Fld.pred_dir) :
    RootKeeps n a b := by
  have e1 : b.pred = a.pred := k.1 Fld.pred (fun m => h1 (List.mem_singleton.1 m).symm)
  have e2 : b.parent = a.parent := k.1 Fld.parent (fun m => h2 (List.mem_singleton.1 m).symm)
  have e3 : b.pred_dir = a.pred_dir :=
    k.1 Fld.pred_dir (fun m => h3 (List.mem_singleton.1 m).symm)
  exact ⟨k.mono (fun g hg => by rw [List.mem_singleton.1 hg]; exact hf) (by simp),
    by rw [e1], by rw [e2], by rw [e3]⟩

theorem RootKeeps.of_state {n i : Int} {v : Bool} {a b : NetSimplex}
    (h : a.set_state i v = some b) : RootKeeps n a b := by
  have k := (set_state_spec h).2
  have e1 : b.pred = a.pred := k.1 Fld.pred (by simp)
  have e2 : b.parent = a.parent := k.1 Fld.parent (by simp)
  have e3 : b.pred_dir = a.pred_dir := k.1 Fld.pred_dir (by simp)
  exact ⟨k.mono (by simp) (by simp), by rw [e1], by rw [e2], by rw [e3]⟩

theorem RootKeeps.of_pred {n i v : Int} {a b : NetSimplex} (h : a.set_pred i v = some b)
    (hi : i ≠ n) : RootKeeps n a b := by
  obtain ⟨w, k, _⟩ := set_pred_spec h
  have e2 : b.parent = a.parent := k.1 Fld.parent (by decide)
  have e3 : b.pred_dir = a.pred_dir := k.1 Fld.pred_dir (by decide)
  exact ⟨k.mono (by simp [pivotFields]) (by simp), rd_wr_ne w (Ne.symm hi), by rw [e2],
    by rw [e3]⟩

theorem RootKeeps.of_parent {n i v : Int} {a b : NetSimplex} (h : a.set_parent i v = some b)
    (hi : i ≠ n) : RootKeeps n a b := by
  obtain ⟨w, k, _⟩ := set_parent_spec h
  have e1 : b.pred = a.pred := k.1 Fld.pred (by decide)
  have e3 : b.pred_dir = a.pred_dir := k.1 Fld.pred_dir (by decide)
  exact ⟨k.mono (by simp [pivotFields]) (by simp), by rw [e1], rd_wr_ne w (Ne.symm hi),
    by rw [e3]⟩

theorem RootKeeps.of_pred_dir {n i v : Int} {a b : NetSimplex}
    (h : a.set_pred_dir i v = some b) (hi : i ≠ n) : RootKeeps n a b := by
  obtain ⟨w, k, _⟩ := set_pred_dir_spec h
  have e1 : b.pred = a.pred := k.1 Fld.pred (by decide)
  have e2 : b.parent = a.parent := k.1 Fld.parent (by decide)
  exact ⟨k.mono (by simp [pivotFields]) (by simp), by rw [e1], by rw [e2],
    rd_wr_ne w (Ne.symm hi)⟩

theorem set_flow_root {n : Int} {a b : NetSimplex} {i v : Int}
    (h : a.set_flow i v = some b) : RootKeeps n a b :=
  RootKeeps.of_vector (set_flow_spec h).2.1 (by simp [pivotFields]) (by decide) (by decide)
    (by decide)

theorem set_pi_root {n : Int} {a b : NetSimplex} {i v : Int}
    (h : a.set_pi i v = some b) : RootKeeps n a b :=
  RootKeeps.of_vector (set_pi_spec h).2.1 (by simp [pivotFields]) (by decide) (by decide)
    (by decide)

theorem set_thread_root {n : Int} {a b : NetSimplex} {i v : Int}
    (h : a.set_thread i v = some b) : RootKeeps n a b :=
  RootKeeps.of_vector (set_thread_spec h).2.1 (by simp [pivotFields]) (by decide) (by decide)
    (by decide)

theorem set_rev_thread_root {n : Int} {a b : NetSimplex} {i v : Int}
    (h : a.set_rev_thread i v = some b) : RootKeeps n a b :=
  RootKeeps.of_vector (set_rev_thread_spec h).2.1 (by simp [pivotFields]) (by decide) (by decide)
    (by decide)

theorem set_succ_num_root {n : Int} {a b : NetSimplex} {i v : Int}
    (h : a.set_succ_num i v = some b) : RootKeeps n a b :=
  RootKeeps.of_vector (set_succ_num_spec h).2.1 (by simp [pivotFields]) (by decide) (by decide)
    (by decide)

theorem set_last_succ_root {n : Int} {a b : NetSimplex} {i v : Int}
    (h : a.set_last_succ i v = some b) : RootKeeps n a b :=
  RootKeeps.of_vector (set_last_succ_spec h).2.1 (by simp [pivotFields]) (by decide) (by decide)
    (by decide)

theorem RootKeeps.u_in {n : Int} {a b : NetSimplex} (h : RootKeeps n a b) :
    b.u_in = a.u_in := h.1.2.2.1 Sc.u_in (by decide)

theorem RootKeeps.u_out {n : Int} {a b : NetSimplex} (h : RootKeeps n a b) :
    b.u_out = a.u_out := h.1.2.2.1 Sc.u_out (by decide)

theorem rootKeeps_v_out (n : Int) (a : NetSimplex) (v : Int) :
    RootKeeps n a { a with v_out := v } := by
  refine ⟨⟨fun f _ => by cases f <;> rfl, fun f => by cases f <;> rfl, ?_, rfl, rfl⟩,
    rfl, rfl, rfl⟩
  intro g hg
  cases g <;> first | rfl | exact absurd (List.mem_singleton.2 rfl) hg

theorem changeFlowFirst_root {n : Int} : ∀ (k : Nat) (u : Int) (a b : NetSimplex),
    changeFlowFirst k u a = some b → RootKeeps n a b := by
  intro k
  induction k with
  | zero => intro u a b h; simp [changeFlowFirst] at h
  | succ k ih =>
    intro u a b h
    unfold changeFlowFirst at h
    split at h
    · simp only [Option.some.injEq] at h
      subst h
      exact RootKeeps.stay n a
    · simp only [Option.bind_eq_bind, Option.bind_eq_some] at h
      obtain ⟨e, _, f, _, dir, _, n1, h1, p, _, h⟩ := h
      exact (set_flow_root h1).step (ih _ _ _ h)

theorem changeFlowSecond_root {n : Int} : ∀ (k : Nat) (u : Int) (a b : NetSimplex),
    changeFlowSecond k u a = some b → RootKeeps n a b := by
  intro k
  induction k with
  | zero => intro u a b h; simp [changeFlowSecond] at h
  | succ k ih =>
    intro u a b h
    unfold changeFlowSecond at h
    split at h
    · simp only [Option.some.injEq] at h
      subst h
      exact RootKeeps.stay n a
    · simp only [Option.bind_eq_bind, Option.bind_eq_some] at h
      obtain ⟨e, _, f, _, dir, _, n1, h1, p, _, h⟩ := h
      exact (set_flow_root h1).step (ih _ _ _ h)

theorem augment_root {n : Int} {a b : NetSimplex} (h : augment a = some b) :
    RootKeeps n a b := by
  simp only [augment, Option.bind_eq_bind, Option.bind_eq_some] at h
  obtain ⟨f, _, n1, h1, s, _, n2, h2, t, _, h3⟩ := h
  exact ((set_flow_root h1).step (changeFlowFirst_root _ _ _ _ h2)).step
    (changeFlowSecond_root _ _ _ _ h3)

theorem changeFlow_root {n : Int} {a b : NetSimplex} (h : changeFlow a = some b) :
    RootKeeps n a b := by
  by_cases hd : a.delta > 0
  · simp only [changeFlow, hd, if_true, Option.bind_eq_bind, Option.bind_eq_some] at h
    obtain ⟨n1, h1, n2, h2, e, _, h3⟩ := h
    exact ((augment_root h1).step (RootKeeps.of_state h2)).step (RootKeeps.of_state h3)
  · simp only [changeFlow, hd, if_false, Option.bind_eq_bind, Option.some_bind,
      Option.bind_eq_some] at h
    obtain ⟨n2, h2, e, _, h3⟩ := h
    exact (RootKeeps.of_state h2).step (RootKeeps.of_state h3)

theorem updateTreeSame_root {n : Int} {a b : NetSimplex} {x y : Int}
    (h : updateTreeSame a x y = some b) (hu : a.u_in ≠ n) : RootKeeps n a b := by
  simp only [updateTreeSame, Option.bind_eq_bind, Option.bind_eq_some] at h
  obtain ⟨n1, h1, n2, h2, src, _, n3, h3, t, _, h⟩ := h
  have k1 : RootKeeps n a n1 := RootKeeps.of_parent h1 hu
  have k2 : RootKeeps n a n2 := k1.step (RootKeeps.of_pred h2 (by rw [k1.u_in]; exact hu))
  have k3 : RootKeeps n a n3 :=
    k2.step (RootKeeps.of_pred_dir h3 (by rw [k2.u_in]; exact hu))
  split at h
  · simp only [Option.bind_eq_some] at h
    obtain ⟨af, _, n4, h4, n5, h5, af2, _, n6, h6, n7, h7, n8, h8, h9⟩ := h
    exact (((((k3.step (set_thread_root h4)).step (set_rev_thread_root h5)).step
      (set_thread_root h6)).step (set_rev_thread_root h7)).step (set_thread_root h8)).step
      (set_rev_thread_root h9)
  · simp only [Option.some.injEq] at h
    subst h
    exact k3

theorem rd_neg_one {α : Type} (xs : List α) (v : α) : rd xs (-1) ≠ some v := by
  intro h
  have := (rd_eq_some.1 h).1
  omega

theorem stemLoop_root {n : Int} : ∀ (k : Nat) (a : NetSimplex) (st : Stem) (b : NetSimplex)
    (st' : Stem), stemLoop k a st = some (b, st') → rd a.parent n = some (-1) →
    RootKeeps n a b := by
  intro k
  induction k with
  | zero => intro a st b st' h; simp [stemLoop] at h
  | succ k ih =>
    intro a st b st' h hp
    unfold stemLoop at h
    split at h
    · simp only [Option.some.injEq, Prod.mk.injEq] at h
      obtain ⟨rfl, _⟩ := h
      exact RootKeeps.stay n a
    · simp only [Option.bind_eq_bind, Option.bind_eq_some] at h
      obtain ⟨nx, hnx, n1, h1, bf, _, n2, h2, n3, h3, n4, h4, ls, hls, lp, _, h⟩ := h
      have hstem : st.stem ≠ n := by
        intro hs
        rw [hs, hp] at hnx
        have : nx = -1 := (Option.some.inj hnx).symm
        rw [this] at hls
        exact rd_neg_one _ _ hls
      have k4 : RootKeeps n a n4 := (((set_thread_root h1).step (set_thread_root h2)).step
        (set_rev_thread_root h3)).step (RootKeeps.of_parent h4 hstem)
      have hp4 : rd n4.parent n = some (-1) := by rw [k4.2.2.1]; exact hp
      split at h
      · simp only [Option.bind_eq_some] at h
        obtain ⟨y, _, af, _, h⟩ := h
        exact k4.step (ih _ _ _ _ h hp4)
      · simp only [Option.some_bind, Option.bind_eq_some] at h
        obtain ⟨af, _, h⟩ := h
        exact k4.step (ih _ _ _ _ h hp4)

theorem dirtyLoop_root {n : Int} : ∀ (us : List Int) (a b : NetSimplex),
    dirtyLoop us a = some b → RootKeeps n a b := by
  intro us
  induction us with
  | nil =>
    intro a b h
    simp only [dirtyLoop, Option.some.injEq] at h
    subst h
    exact RootKeeps.stay n a
  | cons u us ih =>
    intro a b h
    simp only [dirtyLoop, Option.bind_eq_bind, Option.bind_eq_some] at h
    obtain ⟨t, _, n1, h1, h⟩ := h
    exact (set_rev_thread_root h1).step (ih _ _ h)

theorem stemUpdate_root {n : Int} : ∀ (k : Nat) (a : NetSimplex) (u p c l : Int)
    (b : NetSimplex), stemUpdate k a u p c l = some b → rd a.parent n = some (-1) →
    (u = n → p = -1) → RootKeeps n a b := by
  intro k
  induction k with
  | zero => intro a u p c l b h; simp [stemUpdate] at h
  | succ k ih =>
    intro a u p c l b h hp hup
    unfold stemUpdate at h
    split at h
    · simp only [Option.some.injEq] at h
      subst h
      exact RootKeeps.stay n a
    · simp only [Option.bind_eq_bind, Option.bind_eq_some] at h
      obtain ⟨pp, hpp, n1, h1, dp, _, n2, h2, su, _, sp, _, n3, h3, n4, h4, p2, hp2, h⟩ := h
      have hu : u ≠ n := by
        intro hs
        rw [hup hs] at hpp
        exact rd_neg_one _ _ hpp
      have k4 : RootKeeps n a n4 := (((RootKeeps.of_pred h1 hu).step
        (RootKeeps.of_pred_dir h2 hu)).step (set_succ_num_root h3)).step
        (set_last_succ_root h4)
      have hp4 : rd n4.parent n = some (-1) := by rw [k4.2.2.1]; exact hp
      refine k4.step (ih _ _ _ _ _ _ h hp4 ?_)
      intro hpn
      rw [hpn, hp4] at hp2
      exact (Option.some.inj hp2).symm

theorem updateTreeStemThread_root {n : Int} {a b : NetSimplex} {x y : Int} {d : List Int}
    (h : updateTreeStemThread a x y = some (b, d)) (hp : rd a.parent n = some (-1))
    (ho : a.u_out ≠ n) : RootKeeps n a b := by
  unfold updateTreeStemThread at h
  split at h <;>
  · simp only [Option.bind_eq_bind, Option.bind_eq_some] at h
    obtain ⟨tc, _, last, _, af, _, n1, h1, ⟨r1, r2⟩, hr, n2, h2, n3, h3, n4, h4, n5, h5, h⟩ := h
    have k1 : RootKeeps n a n1 := set_thread_root h1
    have kr : RootKeeps n a r1 :=
      k1.step (stemLoop_root _ _ _ _ _ hr (by rw [k1.2.2.1]; exact hp))
    have k5 : RootKeeps n a n5 := (((kr.step (RootKeeps.of_parent h2 (by
      show r1.u_out ≠ n
      rw [kr.u_out]; exact ho))).step (set_thread_root h3)).step
      (set_rev_thread_root h4)).step (set_last_succ_root h5)
    split at h
    · simp only [Option.bind_eq_some, Option.some.injEq, Prod.mk.injEq] at h
      obtain ⟨n6, h6, n7, h7, rfl, _⟩ := h
      exact (k5.step (set_thread_root h6)).step (set_rev_thread_root h7)
    · simp only [Option.some.injEq, Prod.mk.injEq] at h
      obtain ⟨rfl, _⟩ := h
      exact k5

theorem updateTreeStemPred_root {n : Int} {a b : NetSimplex} {d : List Int} {c : Int}
    (h : updateTreeStemPred a d c = some b) (hp : rd a.parent n = some (-1))
    (ho : a.u_out ≠ n) (hi : a.u_in ≠ n) : RootKeeps n a b := by
  simp only [updateTreeStemPred, Option.bind_eq_bind, Option.bind_eq_some] at h
  obtain ⟨n1, h1, ls, _, p, _, n2, h2, n3, h3, src, _, n4, h4, h5⟩ := h
  have k1 : RootKeeps n a n1 := dirtyLoop_root _ _ _ h1
  have k2 : RootKeeps n a n2 := k1.step (stemUpdate_root _ _ _ _ _ _ _ h2
    (by rw [k1.2.2.1]; exact hp) (fun hu => absurd (hu.symm.trans k1.u_out).symm ho))
  have k3 : RootKeeps n a n3 := k2.step (RootKeeps.of_pred h3 (by rw [k2.u_in]; exact hi))
  have k4 : RootKeeps n a n4 :=
    k3.step (RootKeeps.of_pred_dir h4 (by rw [k3.u_in]; exact hi))
  exact k4.step (set_succ_num_root h5)

theorem updateTreeStem_root {n : Int} {a b : NetSimplex} {x c y : Int}
    (h : updateTreeStem a x c y = some b) (hp : rd a.parent n = some (-1))
    (ho : a.u_out ≠ n) (hi : a.u_in ≠ n) : RootKeeps n a b := by
  simp only [updateTreeStem, Option.bind_eq_bind, Option.bind_eq_some] at h
  obtain ⟨⟨r1, r2⟩, h1, h2⟩ := h
  have k1 : RootKeeps n a r1 := updateTreeStemThread_root h1 hp ho
  exact k1.step (updateTreeStemPred_root h2 (by rw [k1.2.2.1]; exact hp)
    (by show r1.u_out ≠ n; rw [k1.u_out]; exact ho)
    (by show r1.u_in ≠ n; rw [k1.u_in]; exact hi))

theorem lastSuccIn_root {n : Int} (l : Int) : ∀ (k : Nat) (a : NetSimplex) (u : Int)
    (b : NetSimplex), lastSuccIn l k a u = some b → RootKeeps n a b := by
  intro k
  induction k with
  | zero => intro a u b h; simp [lastSuccIn] at h
  | succ k ih =>
    intro a u b h
    unfold lastSuccIn at h
    split at h
    · simp only [Option.some.injEq] at h
      subst h
      exact RootKeeps.stay n a
    · simp only [Option.bind_eq_bind, Option.bind_eq_some] at h
      obtain ⟨l1, _, h⟩ := h
      split at h
      · simp only [Option.bind_eq_some] at h
        obtain ⟨n1, h1, p, _, h⟩ := h
        exact (set_last_succ_root h1).step (ih _ _ _ h)
      · simp only [Option.some.injEq] at h
        subst h
        exact RootKeeps.stay n a

theorem lastSuccOut_root {n : Int} (x y z : Int) : ∀ (k : Nat) (a : NetSimplex) (u : Int)
    (b : NetSimplex), lastSuccOut x y z k a u = some b → RootKeeps n a b := by
  intro k
  induction k with
  | zero => intro a u b h; simp [lastSuccOut] at h
  | succ k ih =>
    intro a u b h
    unfold lastSuccOut at h
    split at h
    · simp only [Option.some.injEq] at h
      subst h
      exact RootKeeps.stay n a
    · simp only [Option.bind_eq_bind, Option.bind_eq_some] at h
      obtain ⟨l1, _, h⟩ := h
      split at h
      · simp only [Option.bind_eq_some] at h
        obtain ⟨n1, h1, p, _, h⟩ := h
        exact (set_last_succ_root h1).step (ih _ _ _ h)
      · simp only [Option.some.injEq] at h
        subst h
        exact RootKeeps.stay n a

theorem succNumLoop_root {n : Int} (d : Int) : ∀ (k : Nat) (a : NetSimplex) (u : Int)
    (b : NetSimplex), succNumLoop d k a u = some b → RootKeeps n a b := by
  intro k
  induction k with
  | zero => intro a u b h; simp [succNumLoop] at h
  | succ k ih =>
    intro a u b h
    unfold succNumLoop at h
    split at h
    · simp only [Option.some.injEq] at h
      subst h
      exact RootKeeps.stay n a
    · simp only [Option.bind_eq_bind, Option.bind_eq_some] at h
      obtain ⟨x, _, n1, h1, p, _, h⟩ := h
      exact (set_succ_num_root h1).step (ih _ _ _ h)

theorem potentialLoop_root {n : Int} (sg stop : Int) : ∀ (k : Nat) (a : NetSimplex) (u : Int)
    (b : NetSimplex), potentialLoop sg stop k a u = some b → RootKeeps n a b := by
  intro k
  induction k with
  | zero => intro a u b h; simp [potentialLoop] at h
  | succ k ih =>
    intro a u b h
    unfold potentialLoop at h
    split at h
    · simp only [Option.some.injEq] at h
      subst h
      exact RootKeeps.stay n a
    · simp only [Option.bind_eq_bind, Option.bind_eq_some] at h
      obtain ⟨x, _, n1, h1, p, _, h⟩ := h
      exact (set_pi_root h1).step (ih _ _ _ h)

theorem lastSuccTail_root {n : Int} {n2 b : NetSimplex} {ort ols lso ulo osn : Int}
    (h : (if n2.join ≠ ort ∧ n2.v_in ≠ ort then
        (lastSuccOut ulo ols ort n2.loopBound n2 n2.v_out).bind fun y =>
          (succNumLoop osn y.loopBound y y.v_in).bind fun ns =>
            succNumLoop (-osn) ns.loopBound ns ns.v_out
      else
        if lso ≠ ols then
          (lastSuccOut ulo ols lso n2.loopBound n2 n2.v_out).bind fun y =>
            (succNumLoop osn y.loopBound y y.v_in).bind fun ns =>
              succNumLoop (-osn) ns.loopBound ns ns.v_out
        else
          (some n2).bind fun y =>
            (succNumLoop osn y.loopBound y y.v_in).bind fun ns =>
              succNumLoop (-osn) ns.loopBound ns ns.v_out) = some b) : RootKeeps n n2 b := by
  split at h
  · simp only [Option.bind_eq_some] at h
    obtain ⟨n3, h3, n4, h4, h5⟩ := h
    exact ((lastSuccOut_root _ _ _ _ _ _ _ h3).step (succNumLoop_root _ _ _ _ _ h4)).step
      (succNumLoop_root _ _ _ _ _ h5)
  · split at h
    · simp only [Option.bind_eq_some] at h
      obtain ⟨n3, h3, n4, h4, h5⟩ := h
      exact ((lastSuccOut_root _ _ _ _ _ _ _ h3).step (succNumLoop_root _ _ _ _ _ h4)).step
        (succNumLoop_root _ _ _ _ _ h5)
    · simp only [Option.some_bind, Option.bind_eq_some] at h
      obtain ⟨n4, h4, h5⟩ := h
      exact (succNumLoop_root _ _ _ _ _ h4).step (succNumLoop_root _ _ _ _ _ h5)

set_option maxHeartbeats 1000000 in

theorem updateTreeStructure_root {n : Int} {a b : NetSimplex}
    (h : updateTreeStructure a = some b) (hp : rd a.parent n = some (-1))
    (ho : a.u_out ≠ n) (hi : a.u_in ≠ n) : RootKeeps n a b := by
  unfold updateTreeStructure at h
  simp only [Option.bind_eq_bind, Option.bind_eq_some] at h
  obtain ⟨ort, _, osn, _, ols, _, vo, _, h⟩ := h
  have k0 := rootKeeps_v_out n a vo
  split at h
  · simp only [Option.bind_eq_some] at h
    obtain ⟨n1, h1, lj, _, lso, _, n2, h2, h⟩ := h
    exact ((k0.step (updateTreeSame_root h1 hi)).step (lastSuccIn_root _ _ _ _ _ h2)).step
      (lastSuccTail_root h)
  · simp only [Option.bind_eq_some] at h
    obtain ⟨n1, h1, lj, _, lso, _, n2, h2, h⟩ := h
    exact ((k0.step (updateTreeStem_root h1 hp ho hi)).step
      (lastSuccIn_root _ _ _ _ _ h2)).step (lastSuccTail_root h)

theorem updatePotential_root {n : Int} {a b : NetSimplex} (h : updatePotential a = some b) :
    RootKeeps n a b := by
  simp only [updatePotential, Option.bind_eq_bind, Option.bind_eq_some] at h
  obtain ⟨pv, _, pu, _, dir, _, c, _, l, _, stop, _, h⟩ := h
  exact potentialLoop_root _ _ _ _ _ _ h

/-- The loops of `findLeavingArc` change only `delta` and `u_out`; a node they store in
`u_out` has a predecessor arc, so it is not the root `n` (whose `pred` is -1). -/
theorem findLeavingFirst_root {n : Int} : ∀ (k : Nat) (u : Int) (a : NetSimplex) (r : Int)
    (b : NetSimplex) (r' : Int), findLeavingFirst k u a r = some (b, r') →
    rd a.pred n = some (-1) →
    Keeps [] [Sc.delta, Sc.u_out] a b ∧
    ((r' = r ∧ b.u_out = a.u_out ∧ b.delta = a.delta) ∨ (r' = 1 ∧ b.u_out ≠ n)) := by
  intro k
  induction k with
  | zero => intro u a r b r' h; simp [findLeavingFirst] at h
  | succ k ih =>
    intro u a r b r' h hp
    unfold findLeavingFirst at h
    split at h
    · simp only [Option.some.injEq, Prod.mk.injEq] at h
      obtain ⟨rfl, rfl⟩ := h
      exact ⟨Keeps.unchanged _ _ _, Or.inl ⟨rfl, rfl, rfl⟩⟩
    · simp only [Option.bind_eq_bind, Option.bind_eq_some] at h
      obtain ⟨e, he, f, hf, dir, _, p, _, h⟩ := h
      have hu : u ≠ n := by
        intro hs
        rw [hs, hp] at he
        rw [← Option.some.inj he] at hf
        exact rd_neg_one _ _ hf
      have key : ∀ d : Int, findLeavingFirst k p { a with delta := d, u_out := u } 1 =
          some (b, r') →
          Keeps [] [Sc.delta, Sc.u_out] a b ∧
          ((r' = r ∧ b.u_out = a.u_out ∧ b.delta = a.delta) ∨ (r' = 1 ∧ b.u_out ≠ n)) := by
        intro d h
        obtain ⟨k1, c1⟩ := ih _ _ _ _ _ h hp
        have k0 : Keeps [] [Sc.delta, Sc.u_out] a { a with delta := d, u_out := u } := by
          refine ⟨fun f _ => by cases f <;> rfl, fun f => by cases f <;> rfl, ?_, rfl, rfl⟩
          intro g hg
          cases g <;> first | rfl | exact absurd (by simp) hg
        refine ⟨(k0.seq k1).mono (by simp) (by simp), Or.inr ?_⟩
        rcases c1 with ⟨q1, q2, _⟩ | ⟨q1, q2⟩
        · exact ⟨q1, by rw [q2]; exact hu⟩
        · exact ⟨q1, q2⟩
      split at h <;> split at h <;>
        first
        | exact ih _ _ _ _ _ h hp
        | exact key _ h

theorem findLeavingSecond_root {n : Int} : ∀ (k : Nat) (u : Int) (a : NetSimplex) (r : Int)
    (b : NetSimplex) (r' : Int), findLeavingSecond k u a r = some (b, r') →
    rd a.pred n = some (-1) →
    Keeps [] [Sc.delta, Sc.u_out] a b ∧
    ((r' = r ∧ b.u_out = a.u_out ∧ b.delta = a.delta) ∨ (r' = 2 ∧ b.u_out ≠ n)) := by
  intro k
  induction k with
  | zero => intro u a r b r' h; simp [findLeavingSecond] at h
  | succ k ih =>
    intro u a r b r' h hp
    unfold findLeavingSecond at h
    split at h
    · simp only [Option.some.injEq, Prod.mk.injEq] at h
      obtain ⟨rfl, rfl⟩ := h
      exact ⟨Keeps.unchanged _ _ _, Or.inl ⟨rfl, rfl, rfl⟩⟩
    · simp only [Option.bind_eq_bind, Option.bind_eq_some] at h
      obtain ⟨e, he, f, hf, dir, _, p, _, h⟩ := h
      have hu : u ≠ n := by
        intro hs
        rw [hs, hp] at he
        rw [← Option.some.inj he] at hf
        exact rd_neg_one _ _ hf
      have key : ∀ d : Int, findLeavingSecond k p { a with delta := d, u_out := u } 2 =
          some (b, r') →
          Keeps [] [Sc.delta, Sc.u_out] a b ∧
          ((r' = r ∧ b.u_out = a.u_out ∧ b.delta = a.delta) ∨ (r' = 2 ∧ b.u_out ≠ n)) := by
        intro d h
        obtain ⟨k1, c1⟩ := ih _ _ _ _ _ h hp
        have k0 : Keeps [] [Sc.delta, Sc.u_out] a { a with delta := d, u_out := u } := by
          refine ⟨fun f _ => by cases f <;> rfl, fun f => by cases f <;> rfl, ?_, rfl, rfl⟩
          intro g hg
          cases g <;> first | rfl | exact absurd (by simp) hg
        refine ⟨(k0.seq k1).mono (by simp) (by simp), Or.inr ?_⟩
        rcases c1 with ⟨q1, q2, _⟩ | ⟨q1, q2⟩
        · exact ⟨q1, by rw [q2]; exact hu⟩
        · exact ⟨q1, q2⟩
      split at h <;> split at h <;>
        first
        | exact ih _ _ _ _ _ h hp
        | exact key _ h

/-- What `findLeavingArc` leaves: the vectors are untouched, `u_in` and `v_in` are the end
nodes of the entering arc, and `u_out` is not the root `n` when it was not before or when a
leaving arc was found. -/
theorem findLeavingArc_root {n : Int} {a b : NetSimplex} {r : Bool}
    (h : findLeavingArc a = some (r, b)) (hp : rd a.pred n = some (-1)) :
    Keeps [] [Sc.delta, Sc.u_out, Sc.u_in, Sc.v_in] a b ∧
    (∃ s t, rd a.source a.in_arc = some s ∧ rd a.target a.in_arc = some t ∧
      ((b.u_in = s ∧ b.v_in = t) ∨ (b.u_in = t ∧ b.v_in = s))) ∧
    (a.u_out ≠ n → b.u_out ≠ n) ∧ (r = true → b.u_out ≠ n) := by
  simp only [findLeavingArc, Option.bind_eq_bind, Option.bind_eq_some] at h
  obtain ⟨first, hfi, second, hse, ⟨n1, r1⟩, h1, ⟨n2, r2⟩, h2, h⟩ := h
  have k0 : Keeps [] [Sc.delta] a { a with delta := a.MAX } := by
    refine ⟨fun f _ => by cases f <;> rfl, fun f => by cases f <;> rfl, ?_, rfl, rfl⟩
    intro g hg
    cases g <;> first | rfl | exact absurd (by simp) hg
  obtain ⟨k1, c1'⟩ := findLeavingFirst_root (n := n) _ _ _ _ _ _ h1 hp
  have c1 : (r1 = 0 ∧ n1.u_out = a.u_out ∧ n1.delta = a.MAX) ∨ (r1 = 1 ∧ n1.u_out ≠ n) := c1'
  have h2' : findLeavingSecond n1.loopBound second n1 r1 = some (n2, r2) := h2
  have hp1 : rd n1.pred n = some (-1) := by
    have : n1.pred = a.pred := (k0.seq k1).1 Fld.pred (by simp)
    rw [this]; exact hp
  obtain ⟨k2, c2⟩ := findLeavingSecond_root (n := n) _ _ _ _ _ _ h2' hp1
  have k012 := (k0.seq k1).seq k2
  have hout : (a.u_out ≠ n → n2.u_out ≠ n) ∧ (r2 ≠ 0 → n2.u_out ≠ n) := by
    rcases c2 with ⟨q1, q2, _⟩ | ⟨q1, q2⟩
    · rcases c1 with ⟨p1, p2, _⟩ | ⟨p1, p2⟩
      · refine ⟨fun ho => by rw [q2, p2]; exact ho, fun hr => ?_⟩
        rw [q1, p1] at hr
        exact absurd rfl hr
      · exact ⟨fun _ => by rw [q2]; exact p2, fun _ => by rw [q2]; exact p2⟩
    · exact ⟨fun _ => q2, fun _ => q2⟩
  have kio : ∀ x y : Int, Keeps [] [Sc.u_in, Sc.v_in] n2 { n2 with u_in := x, v_in := y } := by
    intro x y
    refine ⟨fun f _ => by cases f <;> rfl, fun f => by cases f <;> rfl, ?_, rfl, rfl⟩
    intro g hg
    cases g <;> first | rfl | exact absurd (by simp) hg
  split at h
  · rename_i hr1
    simp only [Option.some.injEq, Prod.mk.injEq] at h
    obtain ⟨_, rfl⟩ := h
    exact ⟨(k012.seq (kio _ _)).mono (by simp) (by simp),
      ⟨first, second, hfi, hse, Or.inl ⟨rfl, rfl⟩⟩, hout.1,
      fun _ => hout.2 (by
        have : r2 = 1 := hr1
        rw [this]; decide)⟩
  · simp only [Option.some.injEq, Prod.mk.injEq] at h
    obtain ⟨hr, rfl⟩ := h
    refine ⟨(k012.seq (kio _ _)).mono (by simp) (by simp),
      ⟨first, second, hfi, hse, Or.inr ⟨rfl, rfl⟩⟩, hout.1, fun hrt => hout.2 ?_⟩
    rw [← hr] at hrt
    simpa using hrt

theorem findJoinNode_keeps {a b : NetSimplex} (h : findJoinNode a = some b) :
    Keeps [] [Sc.join] a b := by
  simp only [findJoinNode, Option.bind_eq_bind, Option.bind_eq_some, Option.some.injEq] at h
  obtain ⟨u, _, v, _, j, _, rfl⟩ := h
  refine ⟨fun f _ => by cases f <;> rfl, fun f => by cases f <;> rfl, ?_, rfl, rfl⟩
  intro g hg
  cases g <;> first | rfl | exact absurd (by simp) hg

/-- A complete pivot keeps the entries of `pred`, `parent` and `pred_dir` at the root `n`,
when the entering arc does not touch the root and `u_out` is not the root once the leaving
arc has been searched. -/
theorem pivot_root {n : Int} {x y : NetSimplex} (h : pivot x = some y)
    (hpred : rd x.pred n = some (-1)) (hpar : rd x.parent n = some (-1))
    (hs : ∃ s t, rd x.source x.in_arc = some s ∧ rd x.target x.in_arc = some t ∧
      s ≠ n ∧ t ≠ n)
    (hfresh : x.u_out ≠ n ∨ ∀ n1 r z, findJoinNode x = some n1 →
      findLeavingArc n1 = some (r, z) → r = true) :
    rd y.pred n = some (-1) ∧ rd y.parent n = some (-1) ∧
    rd y.pred_dir n = rd x.pred_dir n ∧ y.u_out ≠ n := by
  simp only [pivot, Option.bind_eq_bind, Option.bind_eq_some, Option.some.injEq] at h
  obtain ⟨n1, h1, ⟨r, n2⟩, h2, n3, h3, n4, h4, n5, h5, rfl⟩ := h
  have k1 := findJoinNode_keeps h1
  have e1p : n1.pred = x.pred := k1.1 Fld.pred (by simp)
  have e1s : n1.source = x.source := k1.1 Fld.source (by simp)
  have e1t : n1.target = x.target := k1.1 Fld.target (by simp)
  have e1i : n1.in_arc = x.in_arc := k1.2.2.1 Sc.in_arc (by decide)
  have e1o : n1.u_out = x.u_out := k1.2.2.1 Sc.u_out (by decide)
  obtain ⟨k2, ⟨s, t, hs1, ht1, hio⟩, o1, o2⟩ := findLeavingArc_root (n := n) h2 (by
    rw [e1p]; exact hpred)
  have k12 := k1.seq k2
  have hout2 : n2.u_out ≠ n := by
    rcases hfresh with hf | hf
    · exact o1 (by rw [e1o]; exact hf)
    · exact o2 (hf n1 r n2 h1 h2)
  have hin2 : n2.u_in ≠ n := by
    obtain ⟨s', t', hs', ht', hsn, htn⟩ := hs
    rw [e1s, e1i, hs'] at hs1
    rw [e1t, e1i, ht'] at ht1
    have es : s = s' := (Option.some.inj hs1).symm
    have et : t = t' := (Option.some.inj ht1).symm
    rcases hio with ⟨q, _⟩ | ⟨q, _⟩
    · rw [q, es]; exact hsn
    · rw [q, et]; exact htn
  have e2p : n2.pred = x.pred := k12.1 Fld.pred (by simp)
  have e2a : n2.parent = x.parent := k12.1 Fld.parent (by simp)
  have e2d : n2.pred_dir = x.pred_dir := k12.1 Fld.pred_dir (by simp)
  have k3 : RootKeeps n n2 n3 := changeFlow_root h3
  have k4 : RootKeeps n n2 n4 := k3.step (updateTreeStructure_root h4
    (by rw [k3.2.2.1, e2a]; exact hpar) (by rw [k3.u_out]; exact hout2)
    (by rw [k3.u_in]; exact hin2))
  have k5 : RootKeeps n n2 n5 := k4.step (updatePotential_root h5)
  refine ⟨?_, ?_, ?_, ?_⟩
  · show rd n5.pred n = some (-1)
    rw [k5.2.1, e2p]; exact hpred
  · show rd n5.parent n = some (-1)
    rw [k5.2.2.1, e2a]; exact hpar
  · show rd n5.pred_dir n = rd x.pred_dir n
    rw [k5.2.2.2, e2d]
  · show n5.u_out ≠ n
    rw [k5.u_out]; exact hout2

end NetSimplex

/-! ## The entering arc lies in the range of the rule -/

/-- Where a scan leaves `in_arc`: the minimum does not grow; when it has dropped, `in_arc`
is one of the arcs scanned, otherwise it is as before; and a scan commits only below 0. -/
theorem BlockSearchPivotRule.scanArcs_in_arc (ns : NetSimplex) (bs : Int) :
    ∀ (k : Nat) (e : Int) (sc sc' : Scan),
      BlockSearchPivotRule.scanArcs ns bs k e sc = some sc' →
      sc'.min ≤ sc.min ∧ (sc'.min < sc.min → e ≤ sc'.in_arc ∧ sc'.in_arc < e + k) ∧
      (sc'.min = sc.min → sc'.in_arc = sc.in_arc) ∧
      (sc'.committed = true → sc.committed = true ∨ sc'.min < 0) := by
  intro k
  induction k with
  | zero =>
    intro e sc sc' h
    simp only [BlockSearchPivotRule.scanArcs, Option.some.injEq] at h
    subst h
    exact ⟨le_refl _, fun h => absurd h (lt_irrefl _), fun _ => rfl, fun h => Or.inl h⟩
  | succ k ih =>
    intro e sc sc' h
    rw [BlockSearchPivotRule.scanArcs_succ] at h
    simp only [Option.bind_eq_some] at h
    obtain ⟨c, _, h⟩ := h
    have hstep : (sc.step e c).min ≤ sc.min ∧
        ((sc.step e c).min < sc.min → (sc.step e c).in_arc = e) ∧
        ((sc.step e c).min = sc.min → (sc.step e c).in_arc = sc.in_arc) ∧
        (sc.step e c).committed = sc.committed := by
      unfold Scan.step
      split
      · exact ⟨by simp; omega, fun _ => rfl, fun h => by simp at h; omega, rfl⟩
      · exact ⟨le_refl _, fun h => absurd h (lt_irrefl _), fun _ => rfl, rfl⟩
    obtain ⟨s1, s2, s3, s4⟩ := hstep
    have fin : ∀ sc1 : Scan, sc1.min = (sc.step e c).min → sc1.in_arc = (sc.step e c).in_arc →
        sc1.committed = (sc.step e c).committed →
        BlockSearchPivotRule.scanArcs ns bs k (e + 1) sc1 = some sc' →
        sc'.min ≤ sc.min ∧ (sc'.min < sc.min → e ≤ sc'.in_arc ∧ sc'.in_arc < e + (k + 1 : Nat)) ∧
        (sc'.min = sc.min → sc'.in_arc = sc.in_arc) ∧
        (sc'.committed = true → sc.committed = true ∨ sc'.min < 0) := by
      intro sc1 g1 g2 g3 h
      obtain ⟨t1, t2, t3, t4⟩ := ih _ _ _ h
      rw [g1] at t1 t2 t3
      rw [g2] at t3
      rw [g3, s4] at t4
      refine ⟨le_trans t1 s1, ?_, ?_, t4⟩
      · intro hlt
        push_cast
        by_cases hq : sc'.min < (sc.step e c).min
        · obtain ⟨q1, q2⟩ := t2 hq
          exact ⟨by omega, by omega⟩
        · have heq : sc'.min = (sc.step e c).min := by omega
          rw [t3 heq, s2 (by omega)]
          exact ⟨le_refl _, by omega⟩
      · intro heq
        have h1 : sc'.min = (sc.step e c).min := by omega
        rw [t3 h1]
        exact s3 (by omega)
    split at h
    · split at h
      · rename_i hneg
        simp only [Option.some.injEq] at h
        subst h
        refine ⟨s1, fun hlt => ?_, fun heq => s3 heq, fun _ => Or.inr hneg⟩
        have hi : (sc.step e c).in_arc = e := s2 hlt
        show e ≤ (sc.step e c).in_arc ∧ (sc.step e c).in_arc < e + ((k + 1 : Nat) : Int)
        rw [hi]
        exact ⟨le_refl _, by push_cast; omega⟩
      · exact fin _ (by rfl) (by rfl) (by rfl) h
    · exact fin _ (by rfl) (by rfl) (by rfl) h

/-- An entering arc that `findEnteringArc` reports lies in the range of the rule, and
nothing but `in_arc` of the solver and `next_arc` of the rule has changed. -/
theorem BlockSearchPivotRule.findEnteringArc_true {p p' : BlockSearchPivotRule}
    {x y : NetSimplex} (h : p.findEnteringArc x = some (true, p', y))
    (h1 : p.dummy_arc ≤ p.next_arc) (h2 : p.next_arc ≤ p.arc_num) :
    ∃ e, p.dummy_arc ≤ e ∧ e < p.arc_num ∧ p' = { p with next_arc := e } ∧
      y = { x with in_arc := e } := by
  simp only [BlockSearchPivotRule.findEnteringArc, Option.bind_eq_bind, Option.bind_eq_some] at h
  obtain ⟨sc1, hs1, h⟩ := h
  obtain ⟨a1, a2, a3, a4⟩ := BlockSearchPivotRule.scanArcs_in_arc _ _ _ _ _ _ hs1
  simp only [] at a1 a2 a3 a4
  have r1 : sc1.min < 0 → p.dummy_arc ≤ sc1.in_arc ∧ sc1.in_arc < p.arc_num := by
    intro hlt
    obtain ⟨q1, q2⟩ := a2 hlt
    exact ⟨by omega, by omega⟩
  split at h
  · rename_i hc
    simp only [Option.some.injEq, Prod.mk.injEq, true_and] at h
    obtain ⟨rfl, rfl⟩ := h
    have hneg : sc1.min < 0 := by
      rcases a4 hc with q | q
      · simp at q
      · exact q
    exact ⟨sc1.in_arc, (r1 hneg).1, (r1 hneg).2, rfl, rfl⟩
  · simp only [Option.bind_eq_some] at h
    obtain ⟨sc2, hs2, h⟩ := h
    obtain ⟨b1, b2, b3, b4⟩ := BlockSearchPivotRule.scanArcs_in_arc _ _ _ _ _ _ hs2
    have r2 : sc2.min < 0 → p.dummy_arc ≤ sc2.in_arc ∧ sc2.in_arc < p.arc_num := by
      intro hlt
      by_cases hq : sc2.min < sc1.min
      · obtain ⟨q1, q2⟩ := b2 hq
        exact ⟨q1, by omega⟩
      · have heq : sc2.min = sc1.min := by omega
        rw [b3 heq]
        exact r1 (by omega)
    split at h
    · rename_i hc2 hc
      simp only [Option.some.injEq, Prod.mk.injEq, true_and] at h
      obtain ⟨rfl, rfl⟩ := h
      have hneg : sc2.min < 0 := by
        rcases b4 hc with q | q
        · exact absurd q hc2
        · exact q
      exact ⟨sc2.in_arc, (r2 hneg).1, (r2 hneg).2, rfl, rfl⟩
    · split at h
      · simp at h
      · rename_i hmin
        simp only [Option.some.injEq, Prod.mk.injEq, true_and] at h
        obtain ⟨rfl, rfl⟩ := h
        have hneg : sc2.min < 0 := by omega
        exact ⟨sc2.in_arc, (r2 hneg).1, (r2 hneg).2, rfl, rfl⟩

/-! ## The pivot loop and the root -/

namespace NetSimplex

theorem pivot_arcs {x y : NetSimplex} (h : pivot x = some y) :
    y.source = x.source ∧ y.target = x.target ∧ y.cost = x.cost ∧ y.supply = x.supply := by
  obtain ⟨z, k, rfl⟩ := pivot_pivot h
  exact ⟨k.1 Fld.source (by decide), k.1 Fld.target (by decide), k.1 Fld.cost (by decide),
    k.1 Fld.supply (by decide)⟩

/-- The pivot loop never writes `pred_dir` at the root `n`, when the root has no
predecessor arc and no parent, no arc in the range of the rule touches the root, and
`u_out` is not the root (or the first pivot finds a leaving arc). -/
theorem startLoop_root {n : Int} : ∀ (fuel : Nat) (p : BlockSearchPivotRule)
    (x y : NetSimplex) (st : ProblemType), startLoop fuel p x = some (st, y) →
    rd x.pred n = some (-1) → rd x.parent n = some (-1) →
    (x.u_out ≠ n ∨ ∀ e : Int, p.dummy_arc ≤ e → e < p.arc_num →
      ∀ n1 r z, findJoinNode { x with in_arc := e } = some n1 →
        findLeavingArc n1 = some (r, z) → r = true) →
    p.dummy_arc ≤ p.next_arc → p.next_arc ≤ p.arc_num →
    (∀ e : Int, p.dummy_arc ≤ e → e < p.arc_num →
      ∃ s t, rd x.source e = some s ∧ rd x.target e = some t ∧ s ≠ n ∧ t ≠ n) →
    rd y.pred_dir n = rd x.pred_dir n := by
  intro fuel
  induction fuel with
  | zero => intro p x y st h; simp [startLoop] at h
  | succ fuel ih =>
    intro p x y st h hpred hpar hfresh hb1 hb2 hv
    simp only [startLoop, Option.bind_eq_bind, Option.bind_eq_some] at h
    obtain ⟨⟨go, p1, x1⟩, h1, h⟩ := h
    cases go with
    | false =>
      simp only [Bool.false_eq_true, if_false, Option.some.injEq, Prod.mk.injEq] at h
      obtain ⟨_, rfl⟩ := h
      obtain ⟨_, ⟨a, rfl⟩, _⟩ := BlockSearchPivotRule.findEnteringArc_false h1
      rfl
    | true =>
      simp only [if_true, Option.bind_eq_some] at h
      obtain ⟨x2, h2, h⟩ := h
      obtain ⟨e, he1, he2, rfl, rfl⟩ := BlockSearchPivotRule.findEnteringArc_true h1 hb1 hb2
      obtain ⟨s, t, hs, ht, hsn, htn⟩ := hv e he1 he2
      obtain ⟨q1, q2, q3, q4⟩ := pivot_root (n := n) h2 hpred hpar ⟨s, t, hs, ht, hsn, htn⟩ (by
        rcases hfresh with hf | hf
        · exact Or.inl hf
        · exact Or.inr (hf e he1 he2))
      obtain ⟨a1, a2, _, _⟩ := pivot_arcs h2
      have hrec := ih _ _ _ _ h q1 q2 (Or.inl q4) he1 (le_of_lt he2) (by
        intro e' h1' h2'
        rw [a1, a2]
        exact hv e' h1' h2')
      exact hrec.trans q3

end NetSimplex

/-! ## Solvers that differ in stale scalars -/

namespace NetSimplex

theorem Agree.arr {gs : List Sc} {a b : NetSimplex} (h : Agree gs a b) (f : Fld) :
    b.arr f = a.arr f := h.1.1 f (by simp)

theorem Agree.weaken {gs gs' : List Sc} {a b : NetSimplex} (h : Agree gs a b)
    (hg : ∀ g, g ∈ gs → g ∈ gs') : Agree gs' a b :=
  ⟨h.1.mono (by simp) hg, h.2⟩

theorem Agree.eq {a b : NetSimplex} (h : Agree [] a b) : b = a := by
  obtain ⟨⟨hf, _, hg, _, hi⟩, hs⟩ := h
  have f1 := hf Fld.source (by simp)
  have f2 := hf Fld.target (by simp)
  have f3 := hf Fld.supply (by simp)
  have f4 := hf Fld.flow (by simp)
  have f5 := hf Fld.cost (by simp)
  have f6 := hf Fld.pi (by simp)
  have f7 := hf Fld.parent (by simp)
  have f8 := hf Fld.pred (by simp)
  have f9 := hf Fld.thread (by simp)
  have f10 := hf Fld.rev_thread (by simp)
  have f11 := hf Fld.succ_num (by simp)
  have f12 := hf Fld.last_succ (by simp)
  have f13 := hf Fld.pred_dir (by simp)
  have g1 := hg Sc.node_num (by simp)
  have g2 := hg Sc.arc_num (by simp)
  have g3 := hg Sc.dummy_arc (by simp)
  have g4 := hg Sc.next_arc (by simp)
  have g5 := hg Sc.sum_supply (by simp)
  have g6 := hg Sc.root (by simp)
  have g7 := hg Sc.in_arc (by simp)
  have g8 := hg Sc.join (by simp)
  have g9 := hg Sc.u_in (by simp)
  have g10 := hg Sc.v_in (by simp)
  have g11 := hg Sc.u_out (by simp)
  have g12 := hg Sc.v_out (by simp)
  have g13 := hg Sc.delta (by simp)
  have g14 := hg Sc.MAX (by simp)
  have g15 := hg Sc.COST_MAX (by simp)
  cases a
  cases b
  simp only [NetSimplex.arr] at f1 f2 f3 f4 f5 f6 f7
  simp only [NetSimplex.arr] at f8 f9 f10 f11 f12 f13
  simp only [NetSimplex.sc] at g1 g2 g3 g4 g5 g6 g7 g8
  simp only [NetSimplex.sc] at g9 g10 g11 g12 g13 g14 g15
  simp only [] at hs hi
  subst f1 f2 f3 f4 f5 f6 f7 f8 f9 f10 f11 f12 f13
  subst g1 g2 g3 g4 g5 g6 g7 g8 g9 g10 g11 g12 g13 g14 g15
  subst hs hi
  rfl

theorem Agree.set_in_arc {a b : NetSimplex} (h : Agree [Sc.in_arc, Sc.join, Sc.u_in, Sc.v_in, Sc.u_out, Sc.v_out, Sc.delta] a b) (e : Int) :
    Agree [Sc.join, Sc.u_in, Sc.v_in, Sc.u_out, Sc.v_out, Sc.delta]
      { a with in_arc := e }
      { b with in_arc := e } := by
  refine ⟨⟨fun f _ => ?_, fun f => ?_, fun g hg => ?_, ?_, h.1.2.2.2.2⟩, h.2⟩
  · have := h.arr f
    cases f <;> exact this
  · have := h.1.2.1 f
    cases f <;> exact this
  · have key := h.1.2.2.1 g
    cases g <;> first | rfl | exact key (by decide) | exact absurd (by decide) hg
  · exact h.1.2.2.2.1

theorem Agree.keep_in_arc {a b : NetSimplex} (h : Agree [Sc.in_arc, Sc.join, Sc.u_in, Sc.v_in, Sc.u_out, Sc.v_out, Sc.delta] a b) (e : Int) :
    Agree [Sc.in_arc, Sc.join, Sc.u_in, Sc.v_in, Sc.u_out, Sc.v_out, Sc.delta]
      { a with in_arc := e }
      { b with in_arc := e } := by
  refine ⟨⟨fun f _ => ?_, fun f => ?_, fun g hg => ?_, ?_, h.1.2.2.2.2⟩, h.2⟩
  · have := h.arr f
    cases f <;> exact this
  · have := h.1.2.1 f
    cases f <;> exact this
  · have key := h.1.2.2.1 g
    cases g <;> first | rfl | exact key (by decide) | exact absurd (by decide) hg
  · exact h.1.2.2.2.1

theorem Agree.set_join {a b : NetSimplex} (h : Agree [Sc.join, Sc.u_in, Sc.v_in, Sc.u_out, Sc.v_out, Sc.delta] a b) (j : Int) :
    Agree [Sc.u_in, Sc.v_in, Sc.u_out, Sc.v_out, Sc.delta]
      { a with join := j }
      { b with join := j } := by
  refine ⟨⟨fun f _ => ?_, fun f => ?_, fun g hg => ?_, ?_, h.1.2.2.2.2⟩, h.2⟩
  · have := h.arr f
    cases f <;> exact this
  · have := h.1.2.1 f
    cases f <;> exact this
  · have key := h.1.2.2.1 g
    cases g <;> first | rfl | exact key (by decide) | exact absurd (by decide) hg
  · exact h.1.2.2.2.1

theorem Agree.set_delta {a b : NetSimplex} (h : Agree [Sc.u_in, Sc.v_in, Sc.u_out, Sc.v_out, Sc.delta] a b) (d : Int) :
    Agree [Sc.u_in, Sc.v_in, Sc.u_out, Sc.v_out]
      { a with delta := d }
      { b with delta := d } := by
  refine ⟨⟨fun f _ => ?_, fun f => ?_, fun g hg => ?_, ?_, h.1.2.2.2.2⟩, h.2⟩
  · have := h.arr f
    cases f <;> exact this
  · have := h.1.2.1 f
    cases f <;> exact this
  · have key := h.1.2.2.1 g
    cases g <;> first | rfl | exact key (by decide) | exact absurd (by decide) hg
  · exact h.1.2.2.2.1

theorem Agree.set_delta_u_out {a b : NetSimplex} (h : Agree [Sc.u_in, Sc.v_in, Sc.u_out, Sc.v_out] a b) (d u : Int) :
    Agree [Sc.u_in, Sc.v_in, Sc.v_out]
      { a with delta := d, u_out := u }
      { b with delta := d, u_out := u } := by
  refine ⟨⟨fun f _ => ?_, fun f => ?_, fun g hg => ?_, ?_, h.1.2.2.2.2⟩, h.2⟩
  · have := h.arr f
    cases f <;> exact this
  · have := h.1.2.1 f
    cases f <;> exact this
  · have key := h.1.2.2.1 g
    cases g <;> first | rfl | exact key (by decide) | exact absurd (by decide) hg
  · exact h.1.2.2.2.1

theorem Agree.keep_delta_u_out {a b : NetSimplex} (h : Agree [Sc.u_in, Sc.v_in, Sc.v_out] a b) (d u : Int) :
    Agree [Sc.u_in, Sc.v_in, Sc.v_out]
      { a with delta := d, u_out := u }
      { b with delta := d, u_out := u } := by
  refine ⟨⟨fun f _ => ?_, fun f => ?_, fun g hg => ?_, ?_, h.1.2.2.2.2⟩, h.2⟩
  · have := h.arr f
    cases f <;> exact this
  · have := h.1.2.1 f
    cases f <;> exact this
  · have key := h.1.2.2.1 g
    cases g <;> first | rfl | exact key (by decide) | exact absurd (by decide) hg
  · exact h.1.2.2.2.1

theorem Agree.set_u_in_v_in {a b : NetSimplex} (h : Agree [Sc.u_in, Sc.v_in, Sc.u_out, Sc.v_out] a b) (x y : Int) :
    Agree [Sc.u_out, Sc.v_out]
      { a with u_in := x, v_in := y }
      { b with u_in := x, v_in := y } := by
  refine ⟨⟨fun f _ => ?_, fun f => ?_, fun g hg => ?_, ?_, h.1.2.2.2.2⟩, h.2⟩
  · have := h.arr f
    cases f <;> exact this
  · have := h.1.2.1 f
    cases f <;> exact this
  · have key := h.1.2.2.1 g
    cases g <;> first | rfl | exact key (by decide) | exact absurd (by decide) hg
  · exact h.1.2.2.2.1

theorem Agree.set_u_in_v_in_fresh {a b : NetSimplex} (h : Agree [Sc.u_in, Sc.v_in, Sc.v_out] a b) (x y : Int) :
    Agree [Sc.v_out]
      { a with u_in := x, v_in := y }
      { b with u_in := x, v_in := y } := by
  refine ⟨⟨fun f _ => ?_, fun f => ?_, fun g hg => ?_, ?_, h.1.2.2.2.2⟩, h.2⟩
  · have := h.arr f
    cases f <;> exact this
  · have := h.1.2.1 f
    cases f <;> exact this
  · have key := h.1.2.2.1 g
    cases g <;> first | rfl | exact key (by decide) | exact absurd (by decide) hg
  · exact h.1.2.2.2.1

theorem Agree.set_v_out {a b : NetSimplex} (h : Agree [Sc.v_out] a b) (v : Int) :
    Agree []
      { a with v_out := v }
      { b with v_out := v } := by
  refine ⟨⟨fun f _ => ?_, fun f => ?_, fun g hg => ?_, ?_, h.1.2.2.2.2⟩, h.2⟩
  · have := h.arr f
    cases f <;> exact this
  · have := h.1.2.1 f
    cases f <;> exact this
  · have key := h.1.2.2.1 g
    cases g <;> first | rfl | exact key (by decide)
  · exact h.1.2.2.2.1

theorem Agree.set_flow {gs : List Sc} {a b a' : NetSimplex} {i v : Int} (h : Agree gs a b)
    (ha : a.set_flow i v = some a') : ∃ b', b.set_flow i v = some b' ∧ Agree gs a' b' := by
  obtain ⟨xs, hx, rfl⟩ := set_flow_eq_some.1 ha
  have hf : b.flow = a.flow := h.arr Fld.flow
  refine ⟨{ b with flow := xs }, set_flow_eq_some.2 ⟨xs, by rw [hf]; exact hx, rfl⟩, ?_⟩
  refine ⟨⟨fun f _ => ?_, fun f => ?_, fun g hg => ?_, h.1.2.2.2.1, h.1.2.2.2.2⟩, h.2⟩
  · have := h.arr f
    cases f <;> first | rfl | exact this
  · have := h.arr f
    cases f <;> first | rfl | exact congrArg List.length this
  · have := h.1.2.2.1 g hg
    cases g <;> exact this

theorem Agree.set_state {gs : List Sc} {a b a' : NetSimplex} {i : Int} {v : Bool}
    (h : Agree gs a b) (ha : a.set_state i v = some a') :
    ∃ b', b.set_state i v = some b' ∧ Agree gs a' b' := by
  obtain ⟨xs, hx, rfl⟩ := set_state_eq_some.1 ha
  refine ⟨{ b with state := xs }, set_state_eq_some.2 ⟨xs, by rw [h.2]; exact hx, rfl⟩, ?_⟩
  refine ⟨⟨fun f _ => ?_, fun f => ?_, fun g hg => ?_, rfl, h.1.2.2.2.2⟩, rfl⟩
  · have := h.arr f
    cases f <;> exact this
  · have := h.1.2.1 f
    cases f <;> exact this
  · have := h.1.2.2.1 g hg
    cases g <;> exact this

theorem findJoinLoop_congr {a b : NetSimplex} (h1 : b.succ_num = a.succ_num)
    (h2 : b.parent = a.parent) : ∀ (k : Nat) (u v : Int),
    findJoinLoop b k u v = findJoinLoop a k u v := by
  intro k
  induction k with
  | zero => intro u v; rfl
  | succ k ih =>
    intro u v
    simp only [findJoinLoop, h1, h2, ih]

theorem findJoinNode_agree {a b a' : NetSimplex}
    (h : Agree [Sc.join, Sc.u_in, Sc.v_in, Sc.u_out, Sc.v_out, Sc.delta] a b)
    (ha : findJoinNode a = some a') :
    ∃ b', findJoinNode b = some b' ∧
      Agree [Sc.u_in, Sc.v_in, Sc.u_out, Sc.v_out, Sc.delta] a' b' := by
  simp only [findJoinNode, Option.bind_eq_bind, Option.bind_eq_some, Option.some.injEq] at ha
  obtain ⟨u, hu, v, hv, j, hj, rfl⟩ := ha
  have e1 : b.source = a.source := h.arr Fld.source
  have e2 : b.target = a.target := h.arr Fld.target
  have e3 : b.in_arc = a.in_arc := h.1.2.2.1 Sc.in_arc (by decide)
  have e4 : b.node_num = a.node_num := h.1.2.2.1 Sc.node_num (by decide)
  have e5 : b.loopBound = a.loopBound := by unfold loopBound; rw [e4]
  refine ⟨{ b with join := j }, ?_, h.set_join j⟩
  simp only [findJoinNode, Option.bind_eq_bind, e1, e2, e3, hu, hv, Option.some_bind, e5,
    findJoinLoop_congr (h.arr Fld.succ_num) (h.arr Fld.parent), hj]

theorem findLeavingFirst_agree3 : ∀ (k : Nat) (u : Int) (a b : NetSimplex) (r : Int)
    (a' : NetSimplex) (r' : Int), Agree [Sc.u_in, Sc.v_in, Sc.v_out] a b →
    findLeavingFirst k u a r = some (a', r') →
    ∃ b', findLeavingFirst k u b r = some (b', r') ∧ Agree [Sc.u_in, Sc.v_in, Sc.v_out] a' b' := by
  intro k
  induction k with
  | zero => intro u a b r a' r' _ h; simp [findLeavingFirst] at h
  | succ k ih =>
    intro u a b r a' r' hab h
    have ej : b.join = a.join := hab.1.2.2.1 Sc.join (by decide)
    have ed : b.delta = a.delta := hab.1.2.2.1 Sc.delta (by decide)
    have em : b.MAX = a.MAX := hab.1.2.2.1 Sc.MAX (by decide)
    have ei : b.INF = a.INF := em
    by_cases hu : u = a.join
    · subst hu
      rw [findLeavingFirst_stop] at h
      simp only [Option.some.injEq, Prod.mk.injEq] at h
      obtain ⟨rfl, rfl⟩ := h
      refine ⟨b, ?_, hab⟩
      rw [← ej]
      exact findLeavingFirst_stop k b r
    · have h0 := h
      unfold findLeavingFirst at h0
      rw [if_neg hu] at h0
      simp only [Option.bind_eq_bind, Option.bind_eq_some] at h0
      obtain ⟨e, he, f, hf, dir, hd, p, hp, _⟩ := h0
      rw [findLeavingFirst_step r hu he hf hd hp] at h
      have q1 : b.pred = a.pred := hab.arr Fld.pred
      have q2 : b.flow = a.flow := hab.arr Fld.flow
      have q3 : b.pred_dir = a.pred_dir := hab.arr Fld.pred_dir
      have q4 : b.parent = a.parent := hab.arr Fld.parent
      have he' : rd b.pred u = some e := by rw [q1]; exact he
      have hf' : rd b.flow e = some f := by rw [q2]; exact hf
      have hd' : rd b.pred_dir u = some dir := by rw [q3]; exact hd
      have hp' : rd b.parent u = some p := by rw [q4]; exact hp
      rw [findLeavingFirst_step r (by rw [ej]; exact hu) he' hf' hd' hp', ei, ed]
      by_cases hlt : (if dir = DIR_DOWN then a.INF - f else f) < a.delta
      · rw [if_pos hlt] at h ⊢
        exact ih _ _ _ _ _ _ (hab.keep_delta_u_out _ _) h
      · rw [if_neg hlt] at h ⊢
        exact ih _ _ _ _ _ _ hab h

theorem findLeavingFirst_agree4 : ∀ (k : Nat) (u : Int) (a b : NetSimplex) (r : Int)
    (a' : NetSimplex) (r' : Int), Agree [Sc.u_in, Sc.v_in, Sc.u_out, Sc.v_out] a b →
    findLeavingFirst k u a r = some (a', r') →
    ∃ b', findLeavingFirst k u b r = some (b', r') ∧
      ((r' = r ∧ Agree [Sc.u_in, Sc.v_in, Sc.u_out, Sc.v_out] a' b') ∨
        Agree [Sc.u_in, Sc.v_in, Sc.v_out] a' b') := by
  intro k
  induction k with
  | zero => intro u a b r a' r' _ h; simp [findLeavingFirst] at h
  | succ k ih =>
    intro u a b r a' r' hab h
    have ej : b.join = a.join := hab.1.2.2.1 Sc.join (by decide)
    have ed : b.delta = a.delta := hab.1.2.2.1 Sc.delta (by decide)
    have em : b.MAX = a.MAX := hab.1.2.2.1 Sc.MAX (by decide)
    have ei : b.INF = a.INF := em
    by_cases hu : u = a.join
    · subst hu
      rw [findLeavingFirst_stop] at h
      simp only [Option.some.injEq, Prod.mk.injEq] at h
      obtain ⟨rfl, rfl⟩ := h
      refine ⟨b, ?_, Or.inl ⟨rfl, hab⟩⟩
      rw [← ej]
      exact findLeavingFirst_stop k b r
    · have h0 := h
      unfold findLeavingFirst at h0
      rw [if_neg hu] at h0
      simp only [Option.bind_eq_bind, Option.bind_eq_some] at h0
      obtain ⟨e, he, f, hf, dir, hd, p, hp, _⟩ := h0
      rw [findLeavingFirst_step r hu he hf hd hp] at h
      have q1 : b.pred = a.pred := hab.arr Fld.pred
      have q2 : b.flow = a.flow := hab.arr Fld.flow
      have q3 : b.pred_dir = a.pred_dir := hab.arr Fld.pred_dir
      have q4 : b.parent = a.parent := hab.arr Fld.parent
      have he' : rd b.pred u = some e := by rw [q1]; exact he
      have hf' : rd b.flow e = some f := by rw [q2]; exact hf
      have hd' : rd b.pred_dir u = some dir := by rw [q3]; exact hd
      have hp' : rd b.parent u = some p := by rw [q4]; exact hp
      rw [findLeavingFirst_step r (by rw [ej]; exact hu) he' hf' hd' hp', ei, ed]
      by_cases hlt : (if dir = DIR_DOWN then a.INF - f else f) < a.delta
      · rw [if_pos hlt] at h ⊢
        obtain ⟨b', hb, hag⟩ := findLeavingFirst_agree3 _ _ _ _ _ _ _
          (hab.set_delta_u_out _ _) h
        exact ⟨b', hb, Or.inr hag⟩
      · rw [if_neg hlt] at h ⊢
        exact ih _ _ _ _ _ _ hab h

theorem findLeavingSecond_agree3 : ∀ (k : Nat) (u : Int) (a b : NetSimplex) (r : Int)
    (a' : NetSimplex) (r' : Int), Agree [Sc.u_in, Sc.v_in, Sc.v_out] a b →
    findLeavingSecond k u a r = some (a', r') →
    ∃ b', findLeavingSecond k u b r = some (b', r') ∧ Agree [Sc.u_in, Sc.v_in, Sc.v_out] a' b' := by
  intro k
  induction k with
  | zero => intro u a b r a' r' _ h; simp [findLeavingSecond] at h
  | succ k ih =>
    intro u a b r a' r' hab h
    have ej : b.join = a.join := hab.1.2.2.1 Sc.join (by decide)
    have ed : b.delta = a.delta := hab.1.2.2.1 Sc.delta (by decide)
    have em : b.MAX = a.MAX := hab.1.2.2.1 Sc.MAX (by decide)
    have ei : b.INF = a.INF := em
    by_cases hu : u = a.join
    · subst hu
      rw [findLeavingSecond_stop] at h
      simp only [Option.some.injEq, Prod.mk.injEq] at h
      obtain ⟨rfl, rfl⟩ := h
      refine ⟨b, ?_, hab⟩
      rw [← ej]
      exact findLeavingSecond_stop k b r
    · have h0 := h
      unfold findLeavingSecond at h0
      rw [if_neg hu] at h0
      simp only [Option.bind_eq_bind, Option.bind_eq_some] at h0
      obtain ⟨e, he, f, hf, dir, hd, p, hp, _⟩ := h0
      rw [findLeavingSecond_step r hu he hf hd hp] at h
      have q1 : b.pred = a.pred := hab.arr Fld.pred
      have q2 : b.flow = a.flow := hab.arr Fld.flow
      have q3 : b.pred_dir = a.pred_dir := hab.arr Fld.pred_dir
      have q4 : b.parent = a.parent := hab.arr Fld.parent
      have he' : rd b.pred u = some e := by rw [q1]; exact he
      have hf' : rd b.flow e = some f := by rw [q2]; exact hf
      have hd' : rd b.pred_dir u = some dir := by rw [q3]; exact hd
      have hp' : rd b.parent u = some p := by rw [q4]; exact hp
      rw [findLeavingSecond_step r (by rw [ej]; exact hu) he' hf' hd' hp', ei, ed]
      by_cases hlt : (if dir = DIR_UP then a.INF - f else f) ≤ a.delta
      · rw [if_pos hlt] at h ⊢
        exact ih _ _ _ _ _ _ (hab.keep_delta_u_out _ _) h
      · rw [if_neg hlt] at h ⊢
        exact ih _ _ _ _ _ _ hab h

theorem findLeavingSecond_agree4 : ∀ (k : Nat) (u : Int) (a b : NetSimplex) (r : Int)
    (a' : NetSimplex) (r' : Int), Agree [Sc.u_in, Sc.v_in, Sc.u_out, Sc.v_out] a b →
    findLeavingSecond k u a r = some (a', r') →
    ∃ b', findLeavingSecond k u b r = some (b', r') ∧
      ((r' = r ∧ Agree [Sc.u_in, Sc.v_in, Sc.u_out, Sc.v_out] a' b') ∨
        Agree [Sc.u_in, Sc.v_in, Sc.v_out] a' b') := by
  intro k
  induction k with
  | zero => intro u a b r a' r' _ h; simp [findLeavingSecond] at h
  | succ k ih =>
    intro u a b r a' r' hab h
    have ej : b.join = a.join := hab.1.2.2.1 Sc.join (by decide)
    have ed : b.delta = a.delta := hab.1.2.2.1 Sc.delta (by decide)
    have em : b.MAX = a.MAX := hab.1.2.2.1 Sc.MAX (by decide)
    have ei : b.INF = a.INF := em
    by_cases hu : u = a.join
    · subst hu
      rw [findLeavingSecond_stop] at h
      simp only [Option.some.injEq, Prod.mk.injEq] at h
      obtain ⟨rfl, rfl⟩ := h
      refine ⟨b, ?_, Or.inl ⟨rfl, hab⟩⟩
      rw [← ej]
      exact findLeavingSecond_stop k b r
    · have h0 := h
      unfold findLeavingSecond at h0
      rw [if_neg hu] at h0
      simp only [Option.bind_eq_bind, Option.bind_eq_some] at h0
      obtain ⟨e, he, f, hf, dir, hd, p, hp, _⟩ := h0
      rw [findLeavingSecond_step r hu he hf hd hp] at h
      have q1 : b.pred = a.pred := hab.arr Fld.pred
      have q2 : b.flow = a.flow := hab.arr Fld.flow
      have q3 : b.pred_dir = a.pred_dir := hab.arr Fld.pred_dir
      have q4 : b.parent = a.parent := hab.arr Fld.parent
      have he' : rd b.pred u = some e := by rw [q1]; exact he
      have hf' : rd b.flow e = some f := by rw [q2]; exact hf
      have hd' : rd b.pred_dir u = some dir := by rw [q3]; exact hd
      have hp' : rd b.parent u = some p := by rw [q4]; exact hp
      rw [findLeavingSecond_step r (by rw [ej]; exact hu) he' hf' hd' hp', ei, ed]
      by_cases hlt : (if dir = DIR_UP then a.INF - f else f) ≤ a.delta
      · rw [if_pos hlt] at h ⊢
        obtain ⟨b', hb, hag⟩ := findLeavingSecond_agree3 _ _ _ _ _ _ _
          (hab.set_delta_u_out _ _) h
        exact ⟨b', hb, Or.inr hag⟩
      · rw [if_neg hlt] at h ⊢
        exact ih _ _ _ _ _ _ hab h

theorem changeFlowFirst_agree : ∀ (k : Nat) (u : Int) (a b a' : NetSimplex),
    Agree [Sc.v_out] a b → changeFlowFirst k u a = some a' →
    ∃ b', changeFlowFirst k u b = some b' ∧ Agree [Sc.v_out] a' b' := by
  intro k
  induction k with
  | zero => intro u a b a' _ h; simp [changeFlowFirst] at h
  | succ k ih =>
    intro u a b a' hab h
    have ej : b.join = a.join := hab.1.2.2.1 Sc.join (by decide)
    have ed : b.delta = a.delta := hab.1.2.2.1 Sc.delta (by decide)
    have q1 : b.pred = a.pred := hab.arr Fld.pred
    have q2 : b.flow = a.flow := hab.arr Fld.flow
    have q3 : b.pred_dir = a.pred_dir := hab.arr Fld.pred_dir
    unfold changeFlowFirst at h ⊢
    rw [ej]
    split at h
    · rename_i hu
      simp only [Option.some.injEq] at h
      subst h
      rw [if_pos hu]
      exact ⟨b, rfl, hab⟩
    · rename_i hu
      rw [if_neg hu]
      simp only [Option.bind_eq_bind, Option.bind_eq_some] at h
      obtain ⟨e, he, f, hf, dir, hd, n1, h1, p, hp, h⟩ := h
      obtain ⟨m1, hm1, hag1⟩ := hab.set_flow h1
      have q4 : m1.parent = n1.parent := hag1.arr Fld.parent
      obtain ⟨b', hb', hag'⟩ := ih _ _ _ _ hag1 h
      refine ⟨b', ?_, hag'⟩
      simp only [Option.bind_eq_bind, q1, q2, q3, he, hf, hd, Option.some_bind, ed, hm1, q4, hp,
        hb']

theorem changeFlowSecond_agree : ∀ (k : Nat) (u : Int) (a b a' : NetSimplex),
    Agree [Sc.v_out] a b → changeFlowSecond k u a = some a' →
    ∃ b', changeFlowSecond k u b = some b' ∧ Agree [Sc.v_out] a' b' := by
  intro k
  induction k with
  | zero => intro u a b a' _ h; simp [changeFlowSecond] at h
  | succ k ih =>
    intro u a b a' hab h
    have ej : b.join = a.join := hab.1.2.2.1 Sc.join (by decide)
    have ed : b.delta = a.delta := hab.1.2.2.1 Sc.delta (by decide)
    have q1 : b.pred = a.pred := hab.arr Fld.pred
    have q2 : b.flow = a.flow := hab.arr Fld.flow
    have q3 : b.pred_dir = a.pred_dir := hab.arr Fld.pred_dir
    unfold changeFlowSecond at h ⊢
    rw [ej]
    split at h
    · rename_i hu
      simp only [Option.some.injEq] at h
      subst h
      rw [if_pos hu]
      exact ⟨b, rfl, hab⟩
    · rename_i hu
      rw [if_neg hu]
      simp only [Option.bind_eq_bind, Option.bind_eq_some] at h
      obtain ⟨e, he, f, hf, dir, hd, n1, h1, p, hp, h⟩ := h
      obtain ⟨m1, hm1, hag1⟩ := hab.set_flow h1
      have q4 : m1.parent = n1.parent := hag1.arr Fld.parent
      obtain ⟨b', hb', hag'⟩ := ih _ _ _ _ hag1 h
      refine ⟨b', ?_, hag'⟩
      simp only [Option.bind_eq_bind, q1, q2, q3, he, hf, hd, Option.some_bind, ed, hm1, q4, hp,
        hb']

theorem augment_agree {a b a' : NetSimplex} (hab : Agree [Sc.v_out] a b)
    (h : augment a = some a') : ∃ b', augment b = some b' ∧ Agree [Sc.v_out] a' b' := by
  simp only [augment, Option.bind_eq_bind, Option.bind_eq_some] at h
  obtain ⟨f, hf, n1, h1, s, hs, n2, h2, t, ht, h3⟩ := h
  have q2 : b.flow = a.flow := hab.arr Fld.flow
  have ei : b.in_arc = a.in_arc := hab.1.2.2.1 Sc.in_arc (by decide)
  have ed : b.delta = a.delta := hab.1.2.2.1 Sc.delta (by decide)
  rw [← ei, ← ed] at h1
  obtain ⟨m1, hm1, g1⟩ := hab.set_flow h1
  have e1 : m1.source = n1.source := g1.arr Fld.source
  have e1i : m1.in_arc = n1.in_arc := g1.1.2.2.1 Sc.in_arc (by decide)
  have e1n : m1.node_num = n1.node_num := g1.1.2.2.1 Sc.node_num (by decide)
  have e1l : m1.loopBound = n1.loopBound := by unfold loopBound; rw [e1n]
  obtain ⟨m2, hm2, g2⟩ := changeFlowFirst_agree _ _ _ _ _ g1 h2
  have e2 : m2.target = n2.target := g2.arr Fld.target
  have e2i : m2.in_arc = n2.in_arc := g2.1.2.2.1 Sc.in_arc (by decide)
  have e2n : m2.node_num = n2.node_num := g2.1.2.2.1 Sc.node_num (by decide)
  have e2l : m2.loopBound = n2.loopBound := by unfold loopBound; rw [e2n]
  obtain ⟨m3, hm3, g3⟩ := changeFlowSecond_agree _ _ _ _ _ g2 h3
  refine ⟨m3, ?_, g3⟩
  simp only [augment, Option.bind_eq_bind, q2, ei, hf, Option.some_bind]
  rw [← ei, hm1]
  simp only [Option.some_bind, e1, e1i, hs, e1l, hm2, e2, e2i, ht, e2l, hm3]

theorem changeFlow_agree {a b a' : NetSimplex} (hab : Agree [Sc.v_out] a b)
    (h : changeFlow a = some a') : ∃ b', changeFlow b = some b' ∧ Agree [Sc.v_out] a' b' := by
  have ed : b.delta = a.delta := hab.1.2.2.1 Sc.delta (by decide)
  have tail : ∀ x y : NetSimplex, Agree [Sc.v_out] x y →
      ((x.set_state x.in_arc STATE_TREE).bind fun z =>
        (rd z.pred z.u_out).bind fun e => z.set_state e STATE_LOWER) = some a' →
      ∃ b', ((y.set_state y.in_arc STATE_TREE).bind fun z =>
        (rd z.pred z.u_out).bind fun e => z.set_state e STATE_LOWER) = some b' ∧
        Agree [Sc.v_out] a' b' := by
    intro x y hxy h
    simp only [Option.bind_eq_some] at h
    obtain ⟨n2, h2, e, he, h3⟩ := h
    have ei : y.in_arc = x.in_arc := hxy.1.2.2.1 Sc.in_arc (by decide)
    rw [← ei] at h2
    obtain ⟨m2, hm2, g2⟩ := hxy.set_state h2
    have q1 : m2.pred = n2.pred := g2.arr Fld.pred
    have eo : m2.u_out = n2.u_out := g2.1.2.2.1 Sc.u_out (by decide)
    obtain ⟨m3, hm3, g3⟩ := g2.set_state h3
    exact ⟨m3, by simp only [hm2, Option.some_bind, q1, eo, he, hm3], g3⟩
  by_cases hd : a.delta > 0
  · obtain ⟨n1, h1⟩ : ∃ n1, augment a = some n1 := by
      simp only [changeFlow, hd, if_true, Option.bind_eq_bind, Option.bind_eq_some] at h
      obtain ⟨n1, h1, _⟩ := h
      exact ⟨n1, h1⟩
    rw [changeFlow_pos hd h1] at h
    obtain ⟨m1, hm1, g1⟩ := augment_agree hab h1
    rw [changeFlow_pos (by rw [ed]; exact hd) hm1]
    exact tail _ _ g1 h
  · rw [changeFlow_zero hd] at h
    rw [changeFlow_zero (by rw [ed]; exact hd)]
    exact tail _ _ hab h

theorem updateTreeStructure_v_out (a : NetSimplex) (w : Int) :
    updateTreeStructure { a with v_out := w } = updateTreeStructure a := rfl

theorem updateTreeStructure_agree {a b : NetSimplex} (hab : Agree [Sc.v_out] a b) :
    updateTreeStructure b = updateTreeStructure a := by
  have e : ({ b with v_out := b.v_out } : NetSimplex) = { a with v_out := b.v_out } :=
    (hab.set_v_out b.v_out).eq
  have e' : b = { a with v_out := b.v_out } := e
  rw [e']
  exact updateTreeStructure_v_out a _

theorem findLeavingArc_agree {a b a' : NetSimplex} {r : Bool}
    (hab : Agree [Sc.u_in, Sc.v_in, Sc.u_out, Sc.v_out, Sc.delta] a b)
    (h : findLeavingArc a = some (r, a')) :
    ∃ b', findLeavingArc b = some (r, b') ∧
      (Agree [Sc.v_out] a' b' ∨ (r = false ∧ Agree [Sc.u_out, Sc.v_out] a' b')) := by
  simp only [findLeavingArc, Option.bind_eq_bind, Option.bind_eq_some] at h
  obtain ⟨first, hfi, second, hse, ⟨n1, r1⟩, h1, ⟨n2, r2⟩, h2, h⟩ := h
  have h1' : findLeavingFirst a.loopBound first { a with delta := a.MAX } 0 = some (n1, r1) := h1
  have h2' : findLeavingSecond n1.loopBound second n1 r1 = some (n2, r2) := h2
  have e1 : b.source = a.source := hab.arr Fld.source
  have e2 : b.target = a.target := hab.arr Fld.target
  have ei : b.in_arc = a.in_arc := hab.1.2.2.1 Sc.in_arc (by decide)
  have em : b.MAX = a.MAX := hab.1.2.2.1 Sc.MAX (by decide)
  have en : b.node_num = a.node_num := hab.1.2.2.1 Sc.node_num (by decide)
  have el : b.loopBound = a.loopBound := by unfold loopBound; rw [en]
  have hrec : ({ a with delta := a.MAX } : NetSimplex) = { a with delta := b.MAX } := by
    rw [em]
  rw [hrec] at h1'
  have g0 := hab.set_delta b.MAX
  obtain ⟨m1, hm1, c1⟩ := findLeavingFirst_agree4 _ _ _ _ _ _ _ g0 h1'
  rw [← el] at hm1
  have hfi' : rd b.source b.in_arc = some first := by rw [e1, ei]; exact hfi
  have hse' : rd b.target b.in_arc = some second := by rw [e2, ei]; exact hse
  have fin : ∀ m2 : NetSimplex, findLeavingSecond m1.loopBound second m1 r1 = some (m2, r2) →
      findLeavingArc b = (if r2 = 1 then some (true, { m2 with u_in := first, v_in := second })
        else some (decide (r2 ≠ 0), { m2 with u_in := second, v_in := first })) := by
    intro m2 hm2
    have hm1'' : findLeavingFirst
        ({ b with delta := b.MAX } : NetSimplex).loopBound first { b with delta := b.MAX } 0 =
        some (m1, r1) := hm1
    simp only [findLeavingArc, Option.bind_eq_bind, hfi', hse', Option.some_bind, hm1'', hm2]
  have l1 : ∀ x : NetSimplex, x.node_num = n1.node_num → x.loopBound = n1.loopBound := by
    intro x hx
    unfold loopBound; rw [hx]
  rcases c1 with ⟨hr1, g1⟩ | g1
  · have en1 : m1.node_num = n1.node_num := g1.1.2.2.1 Sc.node_num (by decide)
    obtain ⟨m2, hm2, c2⟩ := findLeavingSecond_agree4 _ _ _ _ _ _ _ g1 h2'
    rw [← l1 m1 en1] at hm2
    rw [fin m2 hm2]
    rcases c2 with ⟨hr2, g2⟩ | g2
    · have hr0 : r2 = 0 := hr2.trans hr1
      have hne : ¬ r2 = 1 := by rw [hr0]; decide
      have h' : (if r2 = 1 then some (true, ({ n2 with u_in := first, v_in := second } : NetSimplex))
          else some (decide (r2 ≠ 0), { n2 with u_in := second, v_in := first })) =
          some (r, a') := h
      rw [if_neg hne] at h' ⊢
      simp only [Option.some.injEq, Prod.mk.injEq] at h'
      obtain ⟨hr, rfl⟩ := h'
      refine ⟨_, by rw [← hr], Or.inr ⟨?_, g2.set_u_in_v_in _ _⟩⟩
      rw [← hr]
      simp [hr0]
    · split at h
      · rename_i hq
        have hq' : r2 = 1 := hq
        rw [if_pos hq']
        simp only [Option.some.injEq, Prod.mk.injEq] at h
        obtain ⟨hr, rfl⟩ := h
        exact ⟨_, by rw [← hr], Or.inl (g2.set_u_in_v_in_fresh _ _)⟩
      · rename_i hq
        have hq' : ¬ r2 = 1 := hq
        rw [if_neg hq']
        simp only [Option.some.injEq, Prod.mk.injEq] at h
        obtain ⟨hr, rfl⟩ := h
        exact ⟨_, by rw [← hr], Or.inl (g2.set_u_in_v_in_fresh _ _)⟩
  · have en1 : m1.node_num = n1.node_num := g1.1.2.2.1 Sc.node_num (by decide)
    obtain ⟨m2, hm2, g2⟩ := findLeavingSecond_agree3 _ _ _ _ _ _ _ g1 h2'
    rw [← l1 m1 en1] at hm2
    rw [fin m2 hm2]
    split at h
    · rename_i hq
      have hq' : r2 = 1 := hq
      rw [if_pos hq']
      simp only [Option.some.injEq, Prod.mk.injEq] at h
      obtain ⟨hr, rfl⟩ := h
      exact ⟨_, by rw [← hr], Or.inl (g2.set_u_in_v_in_fresh _ _)⟩
    · rename_i hq
      have hq' : ¬ r2 = 1 := hq
      rw [if_neg hq']
      simp only [Option.some.injEq, Prod.mk.injEq] at h
      obtain ⟨hr, rfl⟩ := h
      exact ⟨_, by rw [← hr], Or.inl (g2.set_u_in_v_in_fresh _ _)⟩

/-- A pivot does not depend on the scalars `join`, `u_in`, `v_in`, `u_out`, `v_out` and
`delta` it starts with, provided its search finds a leaving arc. -/
theorem pivot_agree {a b y : NetSimplex}
    (hab : Agree [Sc.join, Sc.u_in, Sc.v_in, Sc.u_out, Sc.v_out, Sc.delta] a b)
    (h : pivot a = some y)
    (hr : ∀ n1 r z, findJoinNode a = some n1 → findLeavingArc n1 = some (r, z) → r = true) :
    pivot b = some y := by
  simp only [pivot, Option.bind_eq_bind, Option.bind_eq_some, Option.some.injEq] at h
  obtain ⟨n1, h1, ⟨r, n2⟩, h2, n3, h3, n4, h4, n5, h5, rfl⟩ := h
  obtain ⟨m1, hm1, g1⟩ := findJoinNode_agree hab h1
  obtain ⟨m2, hm2, c2⟩ := findLeavingArc_agree g1 h2
  have hrt : r = true := hr n1 r n2 h1 h2
  have g2 : Agree [Sc.v_out] n2 m2 := by
    rcases c2 with g | ⟨hf, _⟩
    · exact g
    · rw [hrt] at hf
      exact absurd hf (by decide)
  obtain ⟨m3, hm3, g3⟩ := changeFlow_agree g2 h3
  have hm4 : updateTreeStructure m3 = some n4 := by
    rw [updateTreeStructure_agree g3]; exact h4
  simp only [pivot, Option.bind_eq_bind, hm1, Option.some_bind, hm2, hm3, hm4, h5]

end NetSimplex

/-! ## The entering arc and the stale scalars -/

theorem NetSimplex.signedRedCost_agree {gs : List Sc} {a b : NetSimplex}
    (h : NetSimplex.Agree gs a b) (e : Int) : b.signedRedCost e = a.signedRedCost e := by
  have e1 : b.cost = a.cost := h.arr Fld.cost
  have e2 : b.source = a.source := h.arr Fld.source
  have e3 : b.target = a.target := h.arr Fld.target
  have e4 : b.pi = a.pi := h.arr Fld.pi
  unfold NetSimplex.signedRedCost NetSimplex.redCost
  rw [e1, e2, e3, e4, h.2]

theorem BlockSearchPivotRule.scanArcs_congr {a b : NetSimplex} (bs : Int)
    (h : ∀ e, b.signedRedCost e = a.signedRedCost e) : ∀ (k : Nat) (e : Int) (sc : Scan),
    BlockSearchPivotRule.scanArcs b bs k e sc = BlockSearchPivotRule.scanArcs a bs k e sc := by
  intro k
  induction k with
  | zero => intro e sc; rfl
  | succ k ih =>
    intro e sc
    rw [BlockSearchPivotRule.scanArcs_succ, BlockSearchPivotRule.scanArcs_succ, h e]
    simp only [ih]

/-- A scan started with another `in_arc` gives the same record, except that `in_arc` is the
other one when no arc has lowered the minimum. -/
theorem BlockSearchPivotRule.scanArcs_stale (ns : NetSimplex) (bs : Int) :
    ∀ (k : Nat) (e : Int) (sc sc' : Scan),
      BlockSearchPivotRule.scanArcs ns bs k e sc = some sc' → ∀ j : Int,
      BlockSearchPivotRule.scanArcs ns bs k e { sc with in_arc := j } =
        some (if sc'.min < sc.min then sc' else { sc' with in_arc := j }) := by
  intro k
  induction k with
  | zero =>
    intro e sc sc' h j
    simp only [BlockSearchPivotRule.scanArcs, Option.some.injEq] at h
    subst h
    simp [BlockSearchPivotRule.scanArcs]
  | succ k ih =>
    intro e sc sc' h j
    have hmin := (BlockSearchPivotRule.scanArcs_in_arc ns bs _ _ _ _ h).1
    rw [BlockSearchPivotRule.scanArcs_succ] at h ⊢
    simp only [Option.bind_eq_some] at h
    obtain ⟨c, hc, h⟩ := h
    rw [hc, Option.some_bind]
    by_cases hlt : c < sc.min
    · have hs : sc.step e c = { sc with min := c, in_arc := e } := Scan.step_lt hlt
      have hsj : ({ sc with in_arc := j } : Scan).step e c = { sc with min := c, in_arc := e } :=
        Scan.step_lt hlt
      rw [hs] at h
      rw [hsj, h]
      have hle : sc'.min ≤ c := by
        split at h
        · split at h
          · simp only [Option.some.injEq] at h
            subst h
            exact le_refl _
          · exact (BlockSearchPivotRule.scanArcs_in_arc ns bs _ _ _ _ h).1
        · exact (BlockSearchPivotRule.scanArcs_in_arc ns bs _ _ _ _ h).1
      rw [if_pos (by omega)]
    · have hs : sc.step e c = sc := Scan.step_ge hlt
      have hsj : ({ sc with in_arc := j } : Scan).step e c = { sc with in_arc := j } :=
        Scan.step_ge hlt
      rw [hs] at h
      rw [hsj]
      by_cases hcnt : sc.cnt - 1 = 0
      · rw [if_pos hcnt] at h
        rw [if_pos hcnt]
        by_cases hneg : sc.min < 0
        · rw [if_pos hneg] at h
          rw [if_pos hneg]
          simp only [Option.some.injEq] at h
          subst h
          simp
        · rw [if_neg hneg] at h
          rw [if_neg hneg]
          exact ih _ _ _ h j
      · rw [if_neg hcnt] at h
        rw [if_neg hcnt]
        exact ih _ _ _ h j

theorem NetSimplex.Agree.in_arcs {a b : NetSimplex}
    (h : NetSimplex.Agree [Sc.in_arc, Sc.join, Sc.u_in, Sc.v_in, Sc.u_out, Sc.v_out, Sc.delta]
      a b) (x y : Int) :
    NetSimplex.Agree [Sc.in_arc, Sc.join, Sc.u_in, Sc.v_in, Sc.u_out, Sc.v_out, Sc.delta]
      { a with in_arc := x } { b with in_arc := y } := by
  refine ⟨⟨fun f _ => ?_, fun f => ?_, fun g hg => ?_, ?_, h.1.2.2.2.2⟩, h.2⟩
  · have := h.arr f
    cases f <;> exact this
  · have := h.1.2.1 f
    cases f <;> exact this
  · have key := h.1.2.2.1 g
    cases g <;> first | exact key (by decide) | exact absurd (by decide) hg
  · exact h.1.2.2.2.1

/-- The search for an entering arc does not depend on the stale scalars: on two solvers
that differ in them only it gives the same answer and the same rule, and the same entering
arc when there is one. -/
theorem BlockSearchPivotRule.findEnteringArc_agree {p p' : BlockSearchPivotRule}
    {a b a' : NetSimplex} {go : Bool}
    (hab : NetSimplex.Agree
      [Sc.in_arc, Sc.join, Sc.u_in, Sc.v_in, Sc.u_out, Sc.v_out, Sc.delta] a b)
    (h : p.findEnteringArc a = some (go, p', a')) :
    ∃ b', p.findEnteringArc b = some (go, p', b') ∧
      (go = true → NetSimplex.Agree
        [Sc.join, Sc.u_in, Sc.v_in, Sc.u_out, Sc.v_out, Sc.delta] a' b') ∧
      (go = false → NetSimplex.Agree
        [Sc.in_arc, Sc.join, Sc.u_in, Sc.v_in, Sc.u_out, Sc.v_out, Sc.delta] a' b') := by
  have hc := BlockSearchPivotRule.scanArcs_congr p.block_size
    (fun e => NetSimplex.signedRedCost_agree hab e)
  -- the same in_arc on both sides
  have same : ∀ x : Int, a' = { a with in_arc := x } →
      p.findEnteringArc b = some (go, p', { b with in_arc := x }) →
      ∃ b', p.findEnteringArc b = some (go, p', b') ∧
      (go = true → NetSimplex.Agree
        [Sc.join, Sc.u_in, Sc.v_in, Sc.u_out, Sc.v_out, Sc.delta] a' b') ∧
      (go = false → NetSimplex.Agree
        [Sc.in_arc, Sc.join, Sc.u_in, Sc.v_in, Sc.u_out, Sc.v_out, Sc.delta] a' b') := by
    intro x hx hb
    subst hx
    exact ⟨_, hb, fun _ => hab.set_in_arc x, fun _ => hab.keep_in_arc x⟩
  simp only [BlockSearchPivotRule.findEnteringArc, Option.bind_eq_bind, Option.bind_eq_some] at h
  obtain ⟨sc1, hs1, h⟩ := h
  obtain ⟨a1, _, _, a4⟩ := BlockSearchPivotRule.scanArcs_in_arc _ _ _ _ _ _ hs1
  have hb1 := BlockSearchPivotRule.scanArcs_stale _ _ _ _ _ _ hs1 b.in_arc
  rw [← hc] at hb1
  have a1' : sc1.min ≤ 0 := a1
  by_cases hneg1 : sc1.min < 0
  · have hb1' : BlockSearchPivotRule.scanArcs b p.block_size (p.arc_num - p.next_arc).toNat
        p.next_arc { min := 0, cnt := p.block_size, in_arc := b.in_arc, committed := false } =
        some sc1 := by
      rw [hb1]
      exact congrArg some (if_pos hneg1)
    split at h
    · rename_i hcm
      simp only [Option.some.injEq, Prod.mk.injEq] at h
      obtain ⟨rfl, rfl, rfl⟩ := h
      apply same sc1.in_arc rfl
      simp only [BlockSearchPivotRule.findEnteringArc, Option.bind_eq_bind, hb1',
        Option.some_bind, hcm, if_true]
    · rename_i hcm
      simp only [Option.bind_eq_some] at h
      obtain ⟨sc2, hs2, h⟩ := h
      have hb2 := hs2
      rw [← hc] at hb2
      split at h
      · rename_i hcm2
        simp only [Option.some.injEq, Prod.mk.injEq] at h
        obtain ⟨rfl, rfl, rfl⟩ := h
        apply same sc2.in_arc rfl
        simp only [BlockSearchPivotRule.findEnteringArc, Option.bind_eq_bind, hb1',
          Option.some_bind, hcm, Bool.false_eq_true, if_false, hb2, hcm2, if_true]
      · rename_i hcm2
        split at h
        · rename_i hge
          simp only [Option.some.injEq, Prod.mk.injEq] at h
          obtain ⟨rfl, rfl, rfl⟩ := h
          apply same sc2.in_arc rfl
          simp only [BlockSearchPivotRule.findEnteringArc, Option.bind_eq_bind, hb1',
            Option.some_bind, hcm, Bool.false_eq_true, if_false, hb2, hcm2, hge, if_true]
        · rename_i hge
          simp only [Option.some.injEq, Prod.mk.injEq] at h
          obtain ⟨rfl, rfl, rfl⟩ := h
          apply same sc2.in_arc rfl
          simp only [BlockSearchPivotRule.findEnteringArc, Option.bind_eq_bind, hb1',
            Option.some_bind, hcm, Bool.false_eq_true, if_false, hb2, hcm2, hge]
  · have hz1 : sc1.min = 0 := by omega
    have hcm : sc1.committed = false := by
      cases hq : sc1.committed with
      | false => rfl
      | true =>
        rcases a4 hq with q | q
        · simp at q
        · exact absurd q hneg1
    have hb1' : BlockSearchPivotRule.scanArcs b p.block_size (p.arc_num - p.next_arc).toNat
        p.next_arc { min := 0, cnt := p.block_size, in_arc := b.in_arc, committed := false } =
        some { sc1 with in_arc := b.in_arc } := by
      rw [hb1]
      exact congrArg some (if_neg hneg1)
    rw [hcm] at h
    simp only [Bool.false_eq_true, if_false, Option.bind_eq_some] at h
    obtain ⟨sc2, hs2, h⟩ := h
    obtain ⟨b1, _, _, b4⟩ := BlockSearchPivotRule.scanArcs_in_arc _ _ _ _ _ _ hs2
    have hb2 := BlockSearchPivotRule.scanArcs_stale _ _ _ _ _ _ hs2 b.in_arc
    rw [← hc] at hb2
    simp only [hcm] at hb2
    by_cases hneg2 : sc2.min < sc1.min
    · rw [if_pos hneg2] at hb2
      have hlt0 : sc2.min < 0 := by omega
      split at h
      · rename_i hcm2
        simp only [Option.some.injEq, Prod.mk.injEq] at h
        obtain ⟨rfl, rfl, rfl⟩ := h
        apply same sc2.in_arc rfl
        simp only [BlockSearchPivotRule.findEnteringArc, Option.bind_eq_bind, hb1',
          Option.some_bind, hcm, Bool.false_eq_true, if_false, hb2, hcm2, if_true]
      · rename_i hcm2
        rw [if_neg (by omega)] at h
        simp only [Option.some.injEq, Prod.mk.injEq] at h
        obtain ⟨rfl, rfl, rfl⟩ := h
        apply same sc2.in_arc rfl
        have hge : ¬ sc2.min ≥ 0 := by omega
        simp only [BlockSearchPivotRule.findEnteringArc, Option.bind_eq_bind, hb1',
          Option.some_bind, hcm, Bool.false_eq_true, if_false, hb2, hcm2, hge]
    · rw [if_neg hneg2] at hb2
      have hz2 : sc2.min = 0 := by omega
      have hcm2 : sc2.committed = false := by
        cases hq : sc2.committed with
        | false => rfl
        | true =>
          rcases b4 hq with q | q
          · rw [hcm] at q; simp at q
          · omega
      rw [hcm2] at h
      have hge : sc2.min ≥ 0 := by omega
      simp only [Bool.false_eq_true, if_false, hge, if_true, Option.some.injEq,
        Prod.mk.injEq] at h
      obtain ⟨rfl, rfl, rfl⟩ := h
      refine ⟨{ b with in_arc := b.in_arc }, ?_, fun hf => absurd hf (by decide),
        fun _ => hab.in_arcs _ _⟩
      simp only [BlockSearchPivotRule.findEnteringArc, Option.bind_eq_bind, hb1',
        Option.some_bind, hcm, Bool.false_eq_true, if_false, hb2, hcm2, hge, if_true]

/-! ## The first pivot on the star basis -/

namespace NetSimplex

theorem loopBound_ge (ns : NetSimplex) : ∃ k, ns.loopBound = k + 3 := by
  have h : 2 * 2 ≤ (ns.node_num.toNat + 2) * (ns.node_num.toNat + 2) :=
    Nat.mul_le_mul (by omega) (by omega)
  refine ⟨ns.loopBound - 3, ?_⟩
  unfold loopBound
  omega

/-- On the star basis the join of two different real nodes is the root. -/
theorem findJoinLoop_star {x : NetSimplex} {s t n : Int} (k : Nat) (hst : s ≠ t) (hsn : s ≠ n)
    (h1 : rd x.succ_num s = some 1) (h2 : rd x.succ_num t = some 1)
    (h3 : rd x.succ_num n = some (n + 1)) (hn : 1 ≤ n)
    (h4 : rd x.parent s = some n) (h5 : rd x.parent t = some n) :
    findJoinLoop x (k + 3) s t = some n := by
  have a1 : ¬ (1 : Int) < 1 := by omega
  have a2 : (1 : Int) < n + 1 := by omega
  simp only [findJoinLoop, hst, if_false, Option.bind_eq_bind, h1, h2, Option.some_bind, a1, h5,
    hsn, h3, a2, if_true, h4]

/-- On the star basis the search for a leaving arc finds one, whatever `u_out` was before:
the walk from the target of the entering arc sets it when the walk from the source has not. -/
theorem star_fresh (n : Nat) (x : NetSimplex) (art : Int) (hroot : x.root = n) (hn : 1 ≤ n)
    (hR : StarRoot x) (hnn : x.node_num = n)
    (hN : ∀ v : Int, 0 ≤ v → v < n → ∃ c, StarNode art x v c ∧ -x.MAX ≤ c ∧ c ≤ x.MAX)
    (s t : Int) (hs : rd x.source x.in_arc = some s) (ht : rd x.target x.in_arc = some t)
    (hs0 : 0 ≤ s) (hsn : s < n) (ht0 : 0 ≤ t) (htn : t < n) (hst : s ≠ t) :
    ∀ n1 r z, findJoinNode x = some n1 → findLeavingArc n1 = some (r, z) → r = true := by
  intro n1 r z hj hl
  obtain ⟨cs, ⟨sp, _, _, _, ss, _⟩, _⟩ := hN s hs0 hsn
  obtain ⟨ct, ⟨tp, tpr, _, _, ts, _, _, tpd, _, _, _, tf, _⟩, tb1, tb2⟩ := hN t ht0 htn
  obtain ⟨_, rp, _, _, rs, _⟩ := hR
  rw [hroot] at sp tp rp rs
  rw [hnn] at rs
  have kj := findJoinNode_keeps hj
  simp only [findJoinNode, Option.bind_eq_bind, Option.bind_eq_some, Option.some.injEq] at hj
  obtain ⟨u, hu, v, hv, j, hjl, hn1⟩ := hj
  rw [hs] at hu
  rw [ht] at hv
  have eu : u = s := (Option.some.inj hu).symm
  have ev : v = t := (Option.some.inj hv).symm
  subst eu ev
  obtain ⟨k, hk⟩ := loopBound_ge x
  rw [hk, findJoinLoop_star (n := n) k hst (by omega) ss ts rs (by omega) sp tp] at hjl
  have ej : j = n := (Option.some.inj hjl).symm
  have hjoin : n1.join = n := by rw [← hn1, ← ej]
  have q1 : n1.pred = x.pred := kj.1 Fld.pred (by simp)
  have q2 : n1.flow = x.flow := kj.1 Fld.flow (by simp)
  have q3 : n1.pred_dir = x.pred_dir := kj.1 Fld.pred_dir (by simp)
  have q4 : n1.parent = x.parent := kj.1 Fld.parent (by simp)
  have q5 : n1.target = x.target := kj.1 Fld.target (by simp)
  have q6 : n1.in_arc = x.in_arc := kj.2.2.1 Sc.in_arc (by decide)
  have q7 : n1.MAX = x.MAX := kj.2.2.1 Sc.MAX (by decide)
  have q8 : n1.node_num = x.node_num := kj.2.2.1 Sc.node_num (by decide)
  clear hn1 hjl
  simp only [findLeavingArc, Option.bind_eq_bind, Option.bind_eq_some] at hl
  obtain ⟨first, hfi, second, hse, ⟨m1, r1⟩, h1, ⟨m2, r2⟩, h2, hl⟩ := hl
  rw [q5, q6, ht] at hse
  have e2 : second = v := (Option.some.inj hse).symm
  subst e2
  have h1' : findLeavingFirst n1.loopBound first { n1 with delta := n1.MAX } 0 =
      some (m1, r1) := h1
  have h2' : findLeavingSecond m1.loopBound second m1 r1 = some (m2, r2) := h2
  have hl' : (if r2 = 1 then some (true, ({ m2 with u_in := first, v_in := second } : NetSimplex))
      else some (decide (r2 ≠ 0), { m2 with u_in := second, v_in := first })) = some (r, z) := hl
  obtain ⟨k1, c1'⟩ := findLeavingFirst_root (n := n) _ _ _ _ _ _ h1' (by
    show rd n1.pred n = some (-1)
    rw [q1]; exact rp)
  have c1 : (r1 = 0 ∧ m1.u_out = n1.u_out ∧ m1.delta = n1.MAX) ∨ (r1 = 1 ∧ m1.u_out ≠ n) := c1'
  have p1 : m1.pred = n1.pred := k1.1 Fld.pred (by simp)
  have p2 : m1.flow = n1.flow := k1.1 Fld.flow (by simp)
  have p3 : m1.pred_dir = n1.pred_dir := k1.1 Fld.pred_dir (by simp)
  have p4 : m1.parent = n1.parent := k1.1 Fld.parent (by simp)
  have p5 : m1.join = n1.join := k1.2.2.1 Sc.join (by decide)
  have p6 : m1.MAX = n1.MAX := k1.2.2.1 Sc.MAX (by decide)
  obtain ⟨_, c2⟩ := findLeavingSecond_root (n := n) _ _ _ _ _ _ h2' (by rw [p1, q1]; exact rp)
  have hr2 : r2 ≠ 0 := by
    rcases c1 with ⟨hr1, _, hd1⟩ | ⟨hr1, _⟩
    · obtain ⟨k2, hk2⟩ := loopBound_ge m1
      have hk2' : m1.loopBound = k2 + 1 + 1 + 1 := hk2
      rw [hk2'] at h2'
      have hne : second ≠ m1.join := by rw [p5, hjoin]; omega
      rw [findLeavingSecond_step r1 hne (by rw [p1, q1]; exact tpr)
        (by rw [p2, q2]; exact tf) (by rw [p3, q3]; exact tpd)
        (by rw [p4, q4]; exact tp)] at h2'
      have hfl : 0 ≤ initFlow ct ∧ initFlow ct ≤ x.MAX := by
        unfold initFlow
        split <;> constructor <;> omega
      have hle : (if (if ct ≥ 0 then DIR_UP else DIR_DOWN) = DIR_UP then m1.INF - initFlow ct
          else initFlow ct) ≤ m1.delta := by
        have hi : m1.INF = x.MAX := p6.trans q7
        rw [hd1, q7, hi]
        split <;> omega
      rw [if_pos hle] at h2'
      obtain ⟨_, c3⟩ := findLeavingSecond_root (n := n) _ _ _ _ _ _ h2' (by
        show rd m1.pred n = some (-1)
        rw [p1, q1]; exact rp)
      rcases c3 with ⟨q, _⟩ | ⟨q, _⟩ <;>
      · rw [q]; decide
    · rcases c2 with ⟨q, _⟩ | ⟨q, _⟩
      · rw [q, hr1]; decide
      · rw [q]; decide
  split at hl'
  · simp only [Option.some.injEq, Prod.mk.injEq] at hl'
    exact hl'.1.symm
  · simp only [Option.some.injEq, Prod.mk.injEq] at hl'
    rw [← hl'.1]
    simpa using hr2

end NetSimplex

/-! ## What init leaves alone -/

theorem list_ext_rd {α : Type} {xs ys : List α} (hl : ys.length = xs.length)
    (h : ∀ j : Int, 0 ≤ j → j < xs.length → rd ys j = rd xs j) : ys = xs := by
  apply List.ext_getElem? 
  intro i
  by_cases hi : i < xs.length
  · have := h i (by omega) (by exact_mod_cast hi)
    simpa [rd] using this
  · rw [List.getElem?_eq_none (by omega), List.getElem?_eq_none (by omega)]

namespace NetSimplex

/-- The loop of `init` writes the arc vectors at the arcs `u, ..., u + k - 1` only. -/
theorem initArcs_above (A : Int) : ∀ (k : Nat) (u : Int) (a b : NetSimplex),
    initArcs A k u u a = some b → ∀ j : Int, j < u ∨ u + k ≤ j →
    rd b.source j = rd a.source j ∧ rd b.target j = rd a.target j ∧
    rd b.cost j = rd a.cost j ∧ rd b.flow j = rd a.flow j ∧ rd b.state j = rd a.state j := by
  intro k
  induction k with
  | zero =>
    intro u a b h j _
    simp only [initArcs, Option.some.injEq] at h
    subst h
    exact ⟨rfl, rfl, rfl, rfl, rfl⟩
  | succ k ih =>
    intro u a b h j hj
    push_cast at hj
    simp only [initArcs, Option.bind_eq_bind, Option.bind_eq_some] at h
    obtain ⟨a1, h1, h2⟩ := h
    obtain ⟨bu, _, hw, _⟩ := initArc_writes h1
    obtain ⟨_, _, _, _, _, _, w7, _, _, w10, w11, w12, w13⟩ := hw
    obtain ⟨q1, q2, q3, q4, q5⟩ := ih (u + 1) a1 b h2 j (by omega)
    have hne : j ≠ u := by omega
    exact ⟨by rw [q1]; exact rd_wr_ne w10 hne, by rw [q2]; exact rd_wr_ne w11 hne,
      by rw [q3]; exact rd_wr_ne w13 hne, by rw [q4]; exact rd_wr_ne w12 hne,
      by rw [q5]; exact rd_wr_ne w7 hne⟩

/-- `init` leaves the real arcs (from `n` on) and the supplies of the real nodes alone. -/
theorem init_above (n : Nat) (a b : NetSimplex) (h : init a = some (true, b))
    (hn : a.node_num = n) :
    (∀ j : Int, (n : Int) ≤ j →
      rd b.source j = rd a.source j ∧ rd b.target j = rd a.target j ∧
      rd b.cost j = rd a.cost j ∧ rd b.flow j = rd a.flow j ∧ rd b.state j = rd a.state j) ∧
    ∀ v : Int, v ≠ n → rd b.supply v = rd a.supply v := by
  unfold init at h
  split at h
  · simp at h
  · simp only [Option.bind_eq_bind, Option.bind_eq_some, Option.some.injEq, Prod.mk.injEq,
      true_and] at h
    obtain ⟨s1, h1, s2, h2, s3, h3, rfl⟩ := h
    have k0 := keeps_sum_supply a 0
    obtain ⟨k1, t1⟩ := initSum_keeps _ _ _ _ h1
    have k01 := k0.seq k1
    have hn1 : s1.node_num = n := (show s1.node_num = a.node_num from
      k01.2.2.1 Sc.node_num (by decide)).trans hn
    obtain ⟨_, _, _, _, _, _, w7, _, k2, t2⟩ := initRoot_writes h2
    have hn2 : s2.node_num = n := (show s2.node_num = s1.node_num from
      k2.2.2.1 Sc.node_num (by decide)).trans hn1
    rw [hn2] at h3
    simp only [Int.toNat_ofNat] at h3
    have k3 := (initArcs_star _ _ _ _ _ h3 (le_refl _) (by
      have : s2.root = n := (show s2.root = s1.node_num from
        k2.2.2.1 Sc.root (by decide)).trans hn1
      rw [this]; omega)).1
    constructor
    · intro j hj
      obtain ⟨q1, q2, q3, q4, q5⟩ := initArcs_above _ _ _ _ _ h3 j (Or.inr (by omega))
      have e1 : s2.source = a.source :=
        (show s2.source = s1.source from k2.1 Fld.source (by decide)).trans
          (k01.1 Fld.source (by simp))
      have e2 : s2.target = a.target :=
        (show s2.target = s1.target from k2.1 Fld.target (by decide)).trans
          (k01.1 Fld.target (by simp))
      have e3 : s2.cost = a.cost :=
        (show s2.cost = s1.cost from k2.1 Fld.cost (by decide)).trans (k01.1 Fld.cost (by simp))
      have e4 : s2.flow = a.flow :=
        (show s2.flow = s1.flow from k2.1 Fld.flow (by decide)).trans (k01.1 Fld.flow (by simp))
      have e5 : s2.state = a.state := (show s2.state = s1.state from t2).trans t1
      exact ⟨by rw [q1, e1], by rw [q2, e2], by rw [q3, e3], by rw [q4, e4], by rw [q5, e5]⟩
    · intro v hv
      have e3 : s3.supply = s2.supply := k3.1 Fld.supply (by decide)
      have e1 : s1.supply = a.supply := k01.1 Fld.supply (by simp)
      rw [e3, rd_wr_ne w7 (by
        show v ≠ s1.node_num
        rw [hn1]; exact hv), ← e1]

/-- The sum of the supplies that `initSum` adds depends on the supplies read only. -/
theorem initSum_congr : ∀ (k : Nat) (i : Int) (a b a' : NetSimplex), initSum k i a = some a' →
    (∀ j : Int, i ≤ j → j < i + k → rd b.supply j = rd a.supply j) →
    ∃ b', initSum k i b = some b' ∧ b'.sum_supply - b.sum_supply = a'.sum_supply - a.sum_supply
    := by
  intro k
  induction k with
  | zero =>
    intro i a b a' h _
    simp only [initSum, Option.some.injEq] at h
    subst h
    exact ⟨b, rfl, by omega⟩
  | succ k ih =>
    intro i a b a' h hs
    simp only [initSum, Option.bind_eq_bind, Option.bind_eq_some] at h
    obtain ⟨v, hv, h⟩ := h
    have hv' : rd b.supply i = some v := by rw [hs i (le_refl _) (by push_cast; omega)]; exact hv
    obtain ⟨b', hb', he⟩ := ih (i + 1) _ { b with sum_supply := b.sum_supply + v } _ h
      (fun j h1 h2 => hs j (by omega) (by push_cast; omega))
    refine ⟨b', ?_, ?_⟩
    · simp only [initSum, Option.bind_eq_bind, hv', Option.some_bind, hb']
    · have e1 : b'.sum_supply - (b.sum_supply + v) = a'.sum_supply - (a.sum_supply + v) := he
      omega

/-- The value `init` leaves in `_sum_supply` depends on the supplies of the real nodes only. -/
theorem init_sum_supply (n : Nat) (a b a' b' : NetSimplex) (ha : init a = some (true, a'))
    (hb : init b = some (true, b')) (hna : a.node_num = n) (hnb : b.node_num = n)
    (hs : ∀ j : Int, 0 ≤ j → j < n → rd b.supply j = rd a.supply j) :
    b'.sum_supply = a'.sum_supply := by
  have key : ∀ x x' : NetSimplex, init x = some (true, x') → x.node_num = n →
      ∃ s1, initSum n 0 { x with sum_supply := 0 } = some s1 ∧ x'.sum_supply = s1.sum_supply := by
    intro x x' hx hnx
    unfold init at hx
    split at hx
    · simp at hx
    · simp only [Option.bind_eq_bind, Option.bind_eq_some, Option.some.injEq, Prod.mk.injEq,
        true_and] at hx
      obtain ⟨s1, h1, s2, h2, s3, h3, rfl⟩ := hx
      have hnat : x.node_num.toNat = n := by rw [hnx]; simp
      rw [hnat] at h1
      have k0 := keeps_sum_supply x 0
      obtain ⟨k1, _⟩ := initSum_keeps _ _ _ _ h1
      have k01 := k0.seq k1
      have hn1 : s1.node_num = n := (show s1.node_num = x.node_num from
        k01.2.2.1 Sc.node_num (by decide)).trans hnx
      obtain ⟨_, _, _, _, _, _, _, _, k2, _⟩ := initRoot_writes h2
      have hn2 : s2.node_num = n := (show s2.node_num = s1.node_num from
        k2.2.2.1 Sc.node_num (by decide)).trans hn1
      have hr2 : s2.root = n := (show s2.root = s1.node_num from
        k2.2.2.1 Sc.root (by decide)).trans hn1
      rw [hn2] at h3
      simp only [Int.toNat_ofNat] at h3
      have k3 := (initArcs_star _ _ _ _ _ h3 (le_refl _) (by rw [hr2]; omega)).1
      refine ⟨s1, h1, ?_⟩
      have e2 : s2.sum_supply = s1.sum_supply := k2.2.2.1 Sc.sum_supply (by decide)
      have e3 : s3.sum_supply = s2.sum_supply := k3.2.2.1 Sc.sum_supply (by decide)
      rw [e3, e2]
  obtain ⟨s1, h1, e1⟩ := key a a' ha hna
  obtain ⟨t1, g1, e2⟩ := key b b' hb hnb
  obtain ⟨t1', g1', he⟩ := initSum_congr n 0 { a with sum_supply := 0 }
    { b with sum_supply := 0 } s1 h1 (fun j h1 h2 => hs j h1 (by omega))
  rw [g1] at g1'
  have : t1 = t1' := Option.some.inj g1'
  subst this
  rw [e1, e2]
  have he' : t1.sum_supply - 0 = s1.sum_supply - 0 := he
  omega

end NetSimplex

/-! ## Two runs in succession -/

namespace NetSimplex

theorem artCost_sameSize {a b : NetSimplex} (h : SameSize a b) : b.artCost = a.artCost := by
  unfold artCost
  rw [h.2.2.2.2.2]

/-- The state `run` hands to `start`: the star basis of the instance, with the real arcs at
their lower bound with flow zero; `pred_dir` at the root is what it was. -/
theorem run_prepared (n m : Nat) (ns x1 A : NetSimplex) (hs : Sized ns n m)
    (hnn : ns.node_num = n) (han : ns.arc_num = m) (hn1 : 1 ≤ n) (hnm : n ≤ m)
    (hr : runReset ns.arc_num.toNat 0 { ns with iterations := 0 } = some x1)
    (hi : init x1 = some (true, A)) :
    Sized A n m ∧ SameSize ns A ∧ A.root = n ∧ A.iterations = 0 ∧ StarRoot A ∧
    (∀ v : Int, 0 ≤ v → v < n →
      ∃ c, rd ns.supply v = some c ∧ rd A.supply v = some c ∧ StarNode ns.artCost A v c) ∧
    (∀ e : Int, (n : Int) ≤ e → e < m →
      rd A.source e = rd ns.source e ∧ rd A.target e = rd ns.target e ∧
      rd A.cost e = rd ns.cost e ∧ rd A.flow e = some 0 ∧ rd A.state e = some STATE_LOWER) ∧
    rd A.pred_dir n = rd ns.pred_dir n ∧
    (∀ g, g ∈ [Sc.in_arc, Sc.join, Sc.u_in, Sc.v_in, Sc.u_out, Sc.v_out, Sc.delta] →
      A.sc g = ns.sc g) := by
  have hs0 : Sized { ns with iterations := 0 } n m := hs
  obtain ⟨k1, f1, _⟩ := runReset_frame _ _ _ _ hr
  have ss1 : SameSize ns x1 := runReset_sameSize _ _ { ns with iterations := 0 } x1 hr
  have hs1 : Sized x1 n m := k1.sized hs0
  have hn1' : x1.node_num = n := ss1.1.trans hnn
  obtain ⟨A', hA', k2, _⟩ := init_ok x1 n m hs1 hn1' hn1 hnm
  rw [hi] at hA'
  have hAA : A = A' := (Prod.mk.inj (Option.some.inj hA')).2
  subst hAA
  have ss2 : SameSize x1 A := init_sameSize hi
  obtain ⟨r1, r2, r3, r4⟩ := init_star n x1 A hi hn1'
  obtain ⟨u1, u2⟩ := init_above n x1 A hi hn1'
  have esup : x1.supply = ns.supply := k1.1 Fld.supply (by decide)
  have esrc : x1.source = ns.source := k1.1 Fld.source (by decide)
  have etgt : x1.target = ns.target := k1.1 Fld.target (by decide)
  have ecst : x1.cost = ns.cost := k1.1 Fld.cost (by decide)
  have epd : x1.pred_dir = ns.pred_dir := k1.1 Fld.pred_dir (by decide)
  have eart : x1.artCost = ns.artCost := artCost_sameSize ss1
  have hm : ns.arc_num.toNat = m := by rw [han]; simp
  refine ⟨k2.sized hs1, ⟨ss2.1.trans ss1.1, ss2.2.1.trans ss1.2.1, ss2.2.2.1.trans ss1.2.2.1,
    ss2.2.2.2.1.trans ss1.2.2.2.1, ss2.2.2.2.2.1.trans ss1.2.2.2.2.1,
    ss2.2.2.2.2.2.trans ss1.2.2.2.2.2⟩, r1, ?_, r2, ?_, ?_, ?_, ?_⟩
  · have : A.iterations = x1.iterations := k2.2.2.2.2
    rw [this]
    exact (k1.2.2.2.2 : x1.iterations = 0)
  · intro v h0 hv
    obtain ⟨c, hc, hst⟩ := r3 v h0 hv
    rw [esup] at hc
    rw [eart] at hst
    refine ⟨c, hc, ?_, hst⟩
    rw [u2 v (by omega), esup]
    exact hc
  · intro e he1 he2
    obtain ⟨q1, q2, q3, q4, q5⟩ := u1 e he1
    obtain ⟨g1, g2⟩ := f1 e (by omega) (by rw [hm]; omega)
    exact ⟨by rw [q1, esrc], by rw [q2, etgt], by rw [q3, ecst], by rw [q4]; exact g1,
      by rw [q5]; exact g2⟩
  · rw [r4, epd]
  · intro g hg
    have e1 : A.sc g = x1.sc g := k2.2.2.1 g (by
      intro hc
      simp only [List.mem_cons, List.mem_singleton, List.not_mem_nil, or_false] at hg hc
      rcases hg with rfl | rfl | rfl | rfl | rfl | rfl | rfl <;> simp at hc)
    have e2 : x1.sc g = ns.sc g := k1.2.2.1 g (by simp)
    rw [e1, e2]

end NetSimplex

theorem node_ext {α : Type} {xs ys : List α} (n : Nat) (hx : xs.length = n + 1)
    (hy : ys.length = n + 1) (h1 : ∀ v : Int, 0 ≤ v → v < n → rd ys v = rd xs v)
    (h2 : rd ys (n : Int) = rd xs (n : Int)) : ys = xs := by
  apply list_ext_rd (hy.trans hx.symm)
  intro j h0 hj
  rw [hx] at hj
  push_cast at hj
  by_cases hjn : j < n
  · exact h1 j h0 hjn
  · have : j = n := by omega
    rw [this]
    exact h2

theorem arc_ext {α : Type} {xs ys : List α} (n m : Nat) (hx : xs.length = m)
    (hy : ys.length = m) (h1 : ∀ v : Int, 0 ≤ v → v < n → rd ys v = rd xs v)
    (h2 : ∀ e : Int, (n : Int) ≤ e → e < m → rd ys e = rd xs e) : ys = xs := by
  apply list_ext_rd (hy.trans hx.symm)
  intro j h0 hj
  rw [hx] at hj
  by_cases hjn : j < n
  · exact h1 j h0 hjn
  · exact h2 j (by omega) hj

namespace NetSimplex

/-- Two star bases of the same instance differ in the scalars of the last pivot only. -/
theorem star_agree (n m : Nat) (art : Int) (A B : NetSimplex)
    (hsA : Sized A n m) (hsB : Sized B n m) (hss : SameSize A B) (hnn : A.node_num = n)
    (hrA : A.root = n) (hrB : B.root = n) (hiA : A.iterations = 0) (hiB : B.iterations = 0)
    (hRA : StarRoot A) (hRB : StarRoot B) (hsum : B.sum_supply = A.sum_supply)
    (hN : ∀ v : Int, 0 ≤ v → v < n → ∃ c, rd A.supply v = some c ∧ rd B.supply v = some c ∧
      StarNode art A v c ∧ StarNode art B v c)
    (hE : ∀ e : Int, (n : Int) ≤ e → e < m →
      rd B.source e = rd A.source e ∧ rd B.target e = rd A.target e ∧
      rd B.cost e = rd A.cost e ∧ rd B.flow e = rd A.flow e ∧ rd B.state e = rd A.state e)
    (hpd : rd B.pred_dir n = rd A.pred_dir n) :
    Agree [Sc.in_arc, Sc.join, Sc.u_in, Sc.v_in, Sc.u_out, Sc.v_out, Sc.delta] A B := by
  have hnB : B.node_num = n := hss.1.trans hnn
  have hP : ∀ v : Int, 0 ≤ v → v < n →
      rd B.parent v = rd A.parent v ∧ rd B.pred v = rd A.pred v ∧
      rd B.thread v = rd A.thread v ∧ rd B.rev_thread (v + 1) = rd A.rev_thread (v + 1) ∧
      rd B.succ_num v = rd A.succ_num v ∧ rd B.last_succ v = rd A.last_succ v ∧
      rd B.state v = rd A.state v ∧ rd B.pred_dir v = rd A.pred_dir v ∧
      rd B.pi v = rd A.pi v ∧ rd B.source v = rd A.source v ∧ rd B.target v = rd A.target v ∧
      rd B.flow v = rd A.flow v ∧ rd B.cost v = rd A.cost v ∧ rd B.supply v = rd A.supply v := by
    intro v h0 hv
    obtain ⟨c, sA, sB, SA, SB⟩ := hN v h0 hv
    unfold StarNode at SA SB
    rw [hrA] at SA
    rw [hrB] at SB
    obtain ⟨a1, a2, a3, a4, a5, a6, a7, a8, a9, a10, a11, a12, a13⟩ := SA
    obtain ⟨b1, b2, b3, b4, b5, b6, b7, b8, b9, b10, b11, b12, b13⟩ := SB
    exact ⟨b1.trans a1.symm, b2.trans a2.symm, b3.trans a3.symm, b4.trans a4.symm,
      b5.trans a5.symm, b6.trans a6.symm, b7.trans a7.symm, b8.trans a8.symm, b9.trans a9.symm,
      b10.trans a10.symm, b11.trans a11.symm, b12.trans a12.symm, b13.trans a13.symm,
      sB.trans sA.symm⟩
  have RA := hRA
  have RB := hRB
  unfold StarRoot at RA RB
  rw [hrA, hnn] at RA
  rw [hrB, hnB, hsum] at RB
  obtain ⟨a1, a2, a3, a4, a5, a6, a7, a8⟩ := RA
  obtain ⟨b1, b2, b3, b4, b5, b6, b7, b8⟩ := RB
  have lA : ∀ f : Fld, f.isNode = true → (A.arr f).length = n + 1 := by
    intro f hf
    rw [hsA.1 f, if_pos hf]
  have lB : ∀ f : Fld, f.isNode = true → (B.arr f).length = n + 1 := by
    intro f hf
    rw [hsB.1 f, if_pos hf]
  have mA : ∀ f : Fld, f.isNode = false → (A.arr f).length = m := by
    intro f hf
    rw [hsA.1 f, hf]
    rfl
  have mB : ∀ f : Fld, f.isNode = false → (B.arr f).length = m := by
    intro f hf
    rw [hsB.1 f, hf]
    rfl
  have e_parent : B.parent = A.parent :=
    node_ext n (lA Fld.parent rfl) (lB Fld.parent rfl) (fun v h0 hv => (hP v h0 hv).1)
      (b1.trans a1.symm)
  have e_pred : B.pred = A.pred :=
    node_ext n (lA Fld.pred rfl) (lB Fld.pred rfl) (fun v h0 hv => (hP v h0 hv).2.1)
      (b2.trans a2.symm)
  have e_thread : B.thread = A.thread :=
    node_ext n (lA Fld.thread rfl) (lB Fld.thread rfl) (fun v h0 hv => (hP v h0 hv).2.2.1)
      (b3.trans a3.symm)
  have e_rev : B.rev_thread = A.rev_thread := by
    apply list_ext_rd ((lB Fld.rev_thread rfl).trans (lA Fld.rev_thread rfl).symm)
    intro j h0 hj
    rw [lA Fld.rev_thread rfl] at hj
    push_cast at hj
    show rd B.rev_thread j = rd A.rev_thread j
    by_cases hj0 : j = 0
    · rw [hj0]
      exact b4.trans a4.symm
    · have := (hP (j - 1) (by omega) (by omega)).2.2.2.1
      rw [sub_add_cancel] at this
      exact this
  have e_succ : B.succ_num = A.succ_num :=
    node_ext n (lA Fld.succ_num rfl) (lB Fld.succ_num rfl)
      (fun v h0 hv => (hP v h0 hv).2.2.2.2.1) (b5.trans a5.symm)
  have e_last : B.last_succ = A.last_succ :=
    node_ext n (lA Fld.last_succ rfl) (lB Fld.last_succ rfl)
      (fun v h0 hv => (hP v h0 hv).2.2.2.2.2.1) (b6.trans a6.symm)
  have e_state : B.state = A.state :=
    arc_ext n m hsA.2 hsB.2 (fun v h0 hv => (hP v h0 hv).2.2.2.2.2.2.1)
      (fun e h1 h2 => (hE e h1 h2).2.2.2.2)
  have e_pd : B.pred_dir = A.pred_dir :=
    node_ext n (lA Fld.pred_dir rfl) (lB Fld.pred_dir rfl)
      (fun v h0 hv => (hP v h0 hv).2.2.2.2.2.2.2.1) hpd
  have e_pi : B.pi = A.pi :=
    node_ext n (lA Fld.pi rfl) (lB Fld.pi rfl)
      (fun v h0 hv => (hP v h0 hv).2.2.2.2.2.2.2.2.1) (b8.trans a8.symm)
  have e_source : B.source = A.source :=
    arc_ext n m (mA Fld.source rfl) (mB Fld.source rfl)
      (fun v h0 hv => (hP v h0 hv).2.2.2.2.2.2.2.2.2.1) (fun e h1 h2 => (hE e h1 h2).1)
  have e_target : B.target = A.target :=
    arc_ext n m (mA Fld.target rfl) (mB Fld.target rfl)
      (fun v h0 hv => (hP v h0 hv).2.2.2.2.2.2.2.2.2.2.1) (fun e h1 h2 => (hE e h1 h2).2.1)
  have e_flow : B.flow = A.flow :=
    arc_ext n m (mA Fld.flow rfl) (mB Fld.flow rfl)
      (fun v h0 hv => (hP v h0 hv).2.2.2.2.2.2.2.2.2.2.2.1)
      (fun e h1 h2 => (hE e h1 h2).2.2.2.1)
  have e_cost : B.cost = A.cost :=
    arc_ext n m (mA Fld.cost rfl) (mB Fld.cost rfl)
      (fun v h0 hv => (hP v h0 hv).2.2.2.2.2.2.2.2.2.2.2.2.1)
      (fun e h1 h2 => (hE e h1 h2).2.2.1)
  have e_supply : B.supply = A.supply :=
    node_ext n (lA Fld.supply rfl) (lB Fld.supply rfl)
      (fun v h0 hv => (hP v h0 hv).2.2.2.2.2.2.2.2.2.2.2.2.2) (b7.trans a7.symm)
  refine ⟨⟨?_, ?_, ?_, ?_, ?_⟩, e_state⟩
  · intro f _
    cases f
    exacts [e_source, e_target, e_supply, e_flow, e_cost, e_pi, e_parent, e_pred, e_thread,
      e_rev, e_succ, e_last, e_pd]
  · intro f
    rw [hsB.1 f, hsA.1 f]
  · intro g hg
    cases g <;> first
      | exact absurd (by decide) hg
      | exact hss.1
      | exact hss.2.1
      | exact hss.2.2.1
      | exact hss.2.2.2.1
      | exact hsum
      | exact hrB.trans hrA.symm
      | exact hss.2.2.2.2.1
      | exact hss.2.2.2.2.2
  · rw [hsB.2, hsA.2]
  · rw [hiB, hiA]

theorem totalCostLoop_congr {a b : NetSimplex} (h1 : b.source = a.source)
    (h2 : b.target = a.target) (h3 : b.flow = a.flow) (h4 : b.cost = a.cost)
    (h5 : b.root = a.root) : ∀ (k : Nat) (e c : Int),
    totalCostLoop b k e c = totalCostLoop a k e c := by
  intro k
  induction k with
  | zero => intro e c; rfl
  | succ k ih =>
    intro e c
    simp only [totalCostLoop, h1, h2, h3, h4, h5, ih]

theorem totalCost_agree {a b : NetSimplex}
    (h : Agree [Sc.in_arc, Sc.join, Sc.u_in, Sc.v_in, Sc.u_out, Sc.v_out, Sc.delta] a b) :
    b.totalCost = a.totalCost := by
  have g1 : b.arc_num = a.arc_num := h.1.2.2.1 Sc.arc_num (by decide)
  have g2 : b.dummy_arc = a.dummy_arc := h.1.2.2.1 Sc.dummy_arc (by decide)
  have g3 : b.root = a.root := h.1.2.2.1 Sc.root (by decide)
  unfold totalCost
  rw [g1, g2]
  exact totalCostLoop_congr (h.arr Fld.source) (h.arr Fld.target) (h.arr Fld.flow)
    (h.arr Fld.cost) g3 _ _ _

theorem create_agree {a b : NetSimplex}
    (h : Agree [Sc.in_arc, Sc.join, Sc.u_in, Sc.v_in, Sc.u_out, Sc.v_out, Sc.delta] a b) :
    BlockSearchPivotRule.create b = BlockSearchPivotRule.create a := by
  have g1 : b.arc_num = a.arc_num := h.1.2.2.1 Sc.arc_num (by decide)
  have g2 : b.dummy_arc = a.dummy_arc := h.1.2.2.1 Sc.dummy_arc (by decide)
  have g3 : b.next_arc = a.next_arc := h.1.2.2.1 Sc.next_arc (by decide)
  unfold BlockSearchPivotRule.create
  rw [g1, g2, g3]

end NetSimplex

theorem BlockSearchPivotRule.findEnteringArc_shape {p p' : BlockSearchPivotRule}
    {a b : NetSimplex} {go : Bool} (h : p.findEnteringArc a = some (go, p', b)) :
    ∃ e, b = { a with in_arc := e } := by
  simp only [BlockSearchPivotRule.findEnteringArc, Option.bind_eq_bind, Option.bind_eq_some] at h
  obtain ⟨sc1, h1, h⟩ := h
  split at h
  · simp only [Option.some.injEq, Prod.mk.injEq] at h
    obtain ⟨_, _, rfl⟩ := h
    exact ⟨_, rfl⟩
  · simp only [Option.bind_eq_some] at h
    obtain ⟨sc2, h2, h⟩ := h
    split at h
    · simp only [Option.some.injEq, Prod.mk.injEq] at h
      obtain ⟨_, _, rfl⟩ := h
      exact ⟨_, rfl⟩
    · split at h <;>
      · simp only [Option.some.injEq, Prod.mk.injEq] at h
        obtain ⟨_, _, rfl⟩ := h
        exact ⟨_, rfl⟩

namespace NetSimplex

/-- The pivot loop writes the vectors of a pivot only, and keeps every length. -/
theorem startLoop_keeps : ∀ (fuel : Nat) (p : BlockSearchPivotRule) (a b : NetSimplex)
    (st : ProblemType), startLoop fuel p a = some (st, b) →
    (∀ f, f ∉ pivotFields → b.arr f = a.arr f) ∧
    (∀ f, (b.arr f).length = (a.arr f).length) ∧ b.state.length = a.state.length := by
  intro fuel
  induction fuel with
  | zero => intro p a b st h; simp [startLoop] at h
  | succ fuel ih =>
    intro p a b st h
    simp only [startLoop, Option.bind_eq_bind, Option.bind_eq_some] at h
    obtain ⟨⟨go, p1, n1⟩, h1, h⟩ := h
    obtain ⟨e, rfl⟩ := BlockSearchPivotRule.findEnteringArc_shape h1
    cases go with
    | true =>
      simp only [if_true, Option.bind_eq_some] at h
      obtain ⟨n2, h2, h⟩ := h
      obtain ⟨x, kx, rfl⟩ := pivot_pivot h2
      obtain ⟨i1, i2, i3⟩ := ih _ _ _ _ h
      refine ⟨fun f hf => (i1 f hf).trans ?_, fun f => (i2 f).trans ?_, i3.trans ?_⟩
      · have := kx.1 f hf
        cases f <;> exact this
      · have := kx.2.1 f
        cases f <;> exact this
      · exact kx.2.2.2.1
    | false =>
      simp only [Bool.false_eq_true, if_false, Option.some.injEq, Prod.mk.injEq] at h
      obtain ⟨_, rfl⟩ := h
      exact ⟨fun f _ => by cases f <;> rfl, fun f => by cases f <;> rfl, rfl⟩

/-- From two states that differ in the scalars of the last pivot only, where the first
pivot finds its leaving arc on the first path, the pivot loop ends the same way. -/
theorem startLoop_agree : ∀ (fuel : Nat) (p : BlockSearchPivotRule) (a b y : NetSimplex)
    (st : ProblemType),
    Agree [Sc.in_arc, Sc.join, Sc.u_in, Sc.v_in, Sc.u_out, Sc.v_out, Sc.delta] a b →
    startLoop fuel p a = some (st, y) →
    p.dummy_arc ≤ p.next_arc → p.next_arc ≤ p.arc_num →
    (∀ e : Int, p.dummy_arc ≤ e → e < p.arc_num →
      ∀ n1 r z, findJoinNode { a with in_arc := e } = some n1 →
        findLeavingArc n1 = some (r, z) → r = true) →
    ∃ y', startLoop fuel p b = some (st, y') ∧
      Agree [Sc.in_arc, Sc.join, Sc.u_in, Sc.v_in, Sc.u_out, Sc.v_out, Sc.delta] y y' := by
  intro fuel p a b y st hab h hb1 hb2 hf
  cases fuel with
  | zero => simp [startLoop] at h
  | succ fuel =>
    simp only [startLoop, Option.bind_eq_bind, Option.bind_eq_some] at h
    obtain ⟨⟨go, p1, a1⟩, h1, h⟩ := h
    obtain ⟨b1, g1, gt, gf⟩ := BlockSearchPivotRule.findEnteringArc_agree hab h1
    cases go with
    | true =>
      simp only [if_true, Option.bind_eq_some] at h
      obtain ⟨a2, h2, h⟩ := h
      obtain ⟨e, he1, he2, _, rfl⟩ := BlockSearchPivotRule.findEnteringArc_true h1 hb1 hb2
      have h2' := pivot_agree (gt rfl) h2 (hf e he1 he2)
      refine ⟨y, ?_, ⟨Keeps.unchanged _ _ _, rfl⟩⟩
      rw [startLoop_go g1 h2']
      exact h
    | false =>
      simp only [Bool.false_eq_true, if_false, Option.some.injEq, Prod.mk.injEq] at h
      obtain ⟨rfl, rfl⟩ := h
      exact ⟨b1, startLoop_stop g1, gf rfl⟩

/-- The three steps of a `run` on an instance with at least one node. -/
theorem run_split (fuel n m : Nat) (ns ns1 : NetSimplex) (st : ProblemType)
    (hs : Sized ns n m) (hnn : ns.node_num = n) (hn1 : 1 ≤ n) (hnm : n ≤ m)
    (h : run fuel ns = some (st, ns1)) :
    ∃ x1 A, runReset ns.arc_num.toNat 0 { ns with iterations := 0 } = some x1 ∧
      init x1 = some (true, A) ∧ startLoop fuel (BlockSearchPivotRule.create A) A = some (st, ns1)
    := by
  simp only [run, Option.bind_eq_bind, Option.bind_eq_some] at h
  obtain ⟨x1, hr, ⟨ok, A⟩, hi, h⟩ := h
  have hs0 : Sized { ns with iterations := 0 } n m := hs
  obtain ⟨k1, _, _⟩ := runReset_frame _ _ _ _ hr
  have ss1 : SameSize ns x1 := runReset_sameSize _ _ { ns with iterations := 0 } x1 hr
  obtain ⟨A', hA', _, _⟩ := init_ok x1 n m (k1.sized hs0) (ss1.1.trans hnn) hn1 hnm
  cases ok with
  | false =>
    rw [hi] at hA'
    simp at hA'
  | true =>
    simp only [if_true] at h
    exact ⟨x1, A, hr, hi, h⟩

/-- On the star basis the first pivot finds its leaving arc on the first path, whatever real
arc enters. -/
theorem star_first_pivot (n m : Nat) (art : Int) (A : NetSimplex) (hn1 : 1 ≤ n)
    (hnn : A.node_num = n) (hroot : A.root = n) (hR : StarRoot A)
    (hN : ∀ v : Int, 0 ≤ v → v < n → ∃ c, StarNode art A v c ∧ -A.MAX ≤ c ∧ c ≤ A.MAX)
    (hE : ∀ e : Int, (n : Int) ≤ e → e < m → ∃ s t, rd A.source e = some s ∧
      rd A.target e = some t ∧ 0 ≤ s ∧ s < n ∧ 0 ≤ t ∧ t < n ∧ s ≠ t) :
    ∀ e : Int, (n : Int) ≤ e → e < m →
      ∀ n1 r z, findJoinNode { A with in_arc := e } = some n1 →
        findLeavingArc n1 = some (r, z) → r = true := by
  intro e he1 he2
  obtain ⟨s, t, q1, q2, q3, q4, q5, q6, q7⟩ := hE e he1 he2
  exact star_fresh n { A with in_arc := e } art hroot hn1 hR hnn hN s t q1 q2 q3 q4 q5 q6 q7

end NetSimplex

/-- C12: on an instance with at least one node whose real arcs join two distinct real nodes
and whose supplies lie within the bounds of the value type, and with the scan cursor in the
arc range, a second `run` right after a first one returns the same status, and it ends with
the flows, the potentials, the total cost and the iteration count the first `run` ended
with. -/
theorem C12_run_twice (fuel n m : Nat) (ns ns1 : NetSimplex) (st : ProblemType)
    (hs : ns.Sized n m) (hnn : ns.node_num = n) (han : ns.arc_num = m)
    (hdn : ns.dummy_arc = n) (hx : (n : Int) ≤ ns.next_arc ∧ ns.next_arc ≤ m) (hn1 : 1 ≤ n)
    (harcs : ∀ e : Int, (n : Int) ≤ e → e < m → ∃ s t, rd ns.source e = some s ∧
      rd ns.target e = some t ∧ 0 ≤ s ∧ s < n ∧ 0 ≤ t ∧ t < n ∧ s ≠ t)
    (hsup : ∀ v : Int, 0 ≤ v → v < n → ∃ c, rd ns.supply v = some c ∧ -ns.MAX ≤ c ∧ c ≤ ns.MAX)
    (h : NetSimplex.run fuel ns = some (st, ns1)) :
    ∃ ns2, NetSimplex.run fuel ns1 = some (st, ns2) ∧ ns2.flow = ns1.flow ∧ ns2.pi = ns1.pi ∧
      ns2.totalCost = ns1.totalCost ∧ ns2.iterations = ns1.iterations := by
  have hnm : n ≤ m := by omega
  obtain ⟨x1, A, hr, hi, hl⟩ := NetSimplex.run_split fuel n m ns ns1 st hs hnn hn1 hnm h
  obtain ⟨sA, ssA, rA, iA, RA, NA, EA, pdA, _⟩ :=
    NetSimplex.run_prepared n m ns x1 A hs hnn han hn1 hnm hr hi
  have hnnA : A.node_num = n := ssA.1.trans hnn
  have hanA : A.arc_num = m := ssA.2.1.trans han
  have hdnA : A.dummy_arc = n := ssA.2.2.1.trans hdn
  have hxA : A.next_arc = ns.next_arc := ssA.2.2.2.1
  have hMA : A.MAX = ns.MAX := ssA.2.2.2.2.1
  -- the first pivot of the first run
  have hfresh := NetSimplex.star_first_pivot n m ns.artCost A hn1 hnnA rA RA
    (fun v h0 hv => by
      obtain ⟨c, c1, _, c3⟩ := NA v h0 hv
      obtain ⟨c', d1, d2, d3⟩ := hsup v h0 hv
      rw [c1] at d1
      have : c = c' := Option.some.inj d1
      subst this
      rw [hMA]
      exact ⟨c, c3, d2, d3⟩)
    (fun e he1 he2 => by
      obtain ⟨s, t, q1, q2, q⟩ := harcs e he1 he2
      obtain ⟨e1, e2, _⟩ := EA e he1 he2
      exact ⟨s, t, e1.trans q1, e2.trans q2, q⟩)
  have pb1 : (BlockSearchPivotRule.create A).dummy_arc ≤ (BlockSearchPivotRule.create A).next_arc
      := by
    show A.dummy_arc ≤ A.next_arc
    rw [hdnA, hxA]
    exact hx.1
  have pb2 : (BlockSearchPivotRule.create A).next_arc ≤ (BlockSearchPivotRule.create A).arc_num
      := by
    show A.next_arc ≤ A.arc_num
    rw [hanA, hxA]
    exact hx.2
  have hfresh' : ∀ e : Int, (BlockSearchPivotRule.create A).dummy_arc ≤ e →
      e < (BlockSearchPivotRule.create A).arc_num →
      ∀ n1 r z, NetSimplex.findJoinNode { A with in_arc := e } = some n1 →
        NetSimplex.findLeavingArc n1 = some (r, z) → r = true := by
    intro e he1 he2
    have g1 : A.dummy_arc ≤ e := he1
    have g2 : e < A.arc_num := he2
    rw [hdnA] at g1
    rw [hanA] at g2
    exact hfresh e g1 g2
  -- what the first run leaves
  obtain ⟨kk1, kk2, kk3⟩ := NetSimplex.startLoop_keeps _ _ _ _ _ hl
  have ss1 : NetSimplex.SameSize A ns1 := NetSimplex.startLoop_sameSize _ _ _ _ _ hl
  have s1 : ns1.Sized n m := ⟨fun f => (kk2 f).trans (sA.1 f), kk3.trans sA.2⟩
  have e1sup : ns1.supply = A.supply := kk1 Fld.supply (by decide)
  have e1src : ns1.source = A.source := kk1 Fld.source (by decide)
  have e1tgt : ns1.target = A.target := kk1 Fld.target (by decide)
  have e1cst : ns1.cost = A.cost := kk1 Fld.cost (by decide)
  have RA' := RA
  unfold NetSimplex.StarRoot at RA'
  rw [rA] at RA'
  have e1pd : rd ns1.pred_dir n = rd A.pred_dir n :=
    NetSimplex.startLoop_root fuel _ A ns1 st hl RA'.2.1 RA'.1 (Or.inr hfresh') pb1 pb2
      (fun e he1 he2 => by
        have g1 : A.dummy_arc ≤ e := he1
        have g2 : e < A.arc_num := he2
        rw [hdnA] at g1
        rw [hanA] at g2
        obtain ⟨s, t, q1, q2, _, q4, _, q6, _⟩ := harcs e g1 g2
        obtain ⟨e1, e2, _⟩ := EA e g1 g2
        exact ⟨s, t, e1.trans q1, e2.trans q2, by omega, by omega⟩)
  have hnn1 : ns1.node_num = n := ss1.1.trans hnnA
  have han1 : ns1.arc_num = m := ss1.2.1.trans hanA
  -- the second run
  have s10 : NetSimplex.Sized { ns1 with iterations := 0 } n m := s1
  obtain ⟨y1, hr2, ky⟩ := NetSimplex.runReset_ok n m m 0 { ns1 with iterations := 0 } s10
    (le_refl _) (by omega)
  have hm1 : ns1.arc_num.toNat = m := by rw [han1]; simp
  have hr2' : NetSimplex.runReset ns1.arc_num.toNat 0 { ns1 with iterations := 0 } = some y1 := by
    rw [hm1]
    exact hr2
  have ssy : NetSimplex.SameSize ns1 y1 :=
    NetSimplex.runReset_sameSize _ _ { ns1 with iterations := 0 } y1 hr2
  obtain ⟨B, hi2, _, _⟩ := NetSimplex.init_ok y1 n m (ky.sized s10) (ssy.1.trans hnn1) hn1 hnm
  obtain ⟨sB, ssB, rB, iB, RB, NB, EB, pdB, _⟩ :=
    NetSimplex.run_prepared n m ns1 y1 B s1 hnn1 han1 hn1 hnm hr2' hi2
  have eart : ns1.artCost = ns.artCost :=
    (NetSimplex.artCost_sameSize ss1).trans (NetSimplex.artCost_sameSize ssA)
  obtain ⟨kx, _, _⟩ := NetSimplex.runReset_frame _ _ _ _ hr
  have exsup : x1.supply = ns.supply := kx.1 Fld.supply (by decide)
  have eysup : y1.supply = ns1.supply := ky.1 Fld.supply (by decide)
  have ssx : NetSimplex.SameSize ns x1 :=
    NetSimplex.runReset_sameSize _ _ { ns with iterations := 0 } x1 hr
  have hsum : B.sum_supply = A.sum_supply :=
    NetSimplex.init_sum_supply n x1 y1 A B hi hi2 (ssx.1.trans hnn) (ssy.1.trans hnn1)
      (fun j h0 hj => by
        obtain ⟨c, c1, c2, _⟩ := NA j h0 hj
        rw [eysup, e1sup, c2, exsup, c1])
  have hab := NetSimplex.star_agree n m ns.artCost A B sA sB
    ⟨ssB.1.trans ss1.1, ssB.2.1.trans ss1.2.1, ssB.2.2.1.trans ss1.2.2.1,
      ssB.2.2.2.1.trans ss1.2.2.2.1, ssB.2.2.2.2.1.trans ss1.2.2.2.2.1,
      ssB.2.2.2.2.2.trans ss1.2.2.2.2.2⟩ hnnA rA rB iA iB RA RB hsum
    (fun v h0 hv => by
      obtain ⟨c, c1, c2, c3⟩ := NA v h0 hv
      obtain ⟨c', d1, d2, d3⟩ := NB v h0 hv
      rw [e1sup, c2] at d1
      have : c = c' := Option.some.inj d1
      subst this
      rw [eart] at d3
      exact ⟨c, c2, d2, c3, d3⟩)
    (fun e he1 he2 => by
      obtain ⟨a1, a2, a3, a4, a5⟩ := EA e he1 he2
      obtain ⟨b1, b2, b3, b4, b5⟩ := EB e he1 he2
      exact ⟨by rw [b1, e1src], by rw [b2, e1tgt], by rw [b3, e1cst], b4.trans a4.symm,
        b5.trans a5.symm⟩)
    (pdB.trans e1pd)
  obtain ⟨y, hy, hag⟩ := NetSimplex.startLoop_agree fuel _ A B ns1 st hab hl pb1 pb2 hfresh'
  refine ⟨y, ?_, hag.arr Fld.flow, hag.arr Fld.pi, NetSimplex.totalCost_agree hag,
    hag.1.2.2.2.2⟩
  rw [← NetSimplex.create_agree hab] at hy
  simp only [NetSimplex.run, Option.bind_eq_bind, hr2', Option.some_bind, hi2, if_true,
    NetSimplex.start]
  exact hy

/-- C12 on scenario S1: the first `run` returns `OPTIMAL` and leaves `solvedS1`; a second
`run` on `solvedS1` returns `OPTIMAL` with the same flows, potentials, total cost and
iteration count. -/
theorem C12_run_twice_S1 :
    NetSimplex.run 5 solverS1 = some (ProblemType.OPTIMAL, solvedS1) ∧
    ∃ ns2, NetSimplex.run 5 solvedS1 = some (ProblemType.OPTIMAL, ns2) ∧
      ns2.flow = solvedS1.flow ∧ ns2.pi = solvedS1.pi ∧
      ns2.totalCost = solvedS1.totalCost ∧ ns2.iterations = solvedS1.iterations :=
  have hs : solverS1.Sized 2 3 := ⟨fun f => by cases f <;> decide, by decide⟩
  have h : NetSimplex.run 5 solverS1 = some (ProblemType.OPTIMAL, solvedS1) := by decide
  ⟨h, C12_run_twice 5 2 3 solverS1 solvedS1 ProblemType.OPTIMAL hs (by decide) (by decide)
    (by decide) (by decide) (by decide)
    (fun e h1 h2 => by
      have : e = 2 := by omega
      subst this
      exact ⟨0, 1, by decide, by decide, by decide, by decide, by decide, by decide,
        by decide⟩)
    (fun v h1 h2 => by
      have : v = 0 ∨ v = 1 := by omega
      rcases this with rfl | rfl
      · exact ⟨1, by decide, by decide, by decide⟩
      · exact ⟨-1, by decide, by decide, by decide⟩)
    h⟩

/-! ## The star basis of init -/

namespace NetSimplex

/-- The loop `_sum_supply += _supply[i]` adds the sum of the supplies it reads. -/
theorem initSum_value : ∀ (k : Nat) (i : Nat) (a b : NetSimplex), initSum k i a = some b →
    b.sum_supply = a.sum_supply + ((a.supply.drop i).take k).sum := by
  intro k
  induction k with
  | zero =>
    intro i a b h
    simp only [initSum, Option.some.injEq] at h
    subst h
    simp
  | succ k ih =>
    intro i a b h
    simp only [initSum, Option.bind_eq_bind, Option.bind_eq_some] at h
    obtain ⟨v, hv, h⟩ := h
    have hi := ih (i + 1) _ b (by exact_mod_cast h)
    have hv' : a.supply[i]? = some v := by simpa [rd] using hv
    have hlt : i < a.supply.length := by
      by_contra hc
      rw [List.getElem?_eq_none (by omega)] at hv'
      exact absurd hv' (by simp)
    have hd : a.supply.drop i = v :: a.supply.drop (i + 1) := by
      rw [List.drop_eq_getElem_cons hlt]
      congr 1
      rw [List.getElem?_eq_getElem hlt] at hv'
      exact Option.some.inj hv'
    rw [hi, hd, List.take_succ_cons, List.sum_cons]
    show a.sum_supply + v + ((a.supply.drop (i + 1)).take k).sum = _
    omega

/-- The value `init` leaves in `_sum_supply` is the sum of the supplies of the real nodes. -/
theorem init_sum_value (n : Nat) (a b : NetSimplex) (h : init a = some (true, b))
    (hn : a.node_num = n) : b.sum_supply = (a.supply.take n).sum := by
  unfold init at h
  split at h
  · simp at h
  · simp only [Option.bind_eq_bind, Option.bind_eq_some, Option.some.injEq, Prod.mk.injEq,
      true_and] at h
    obtain ⟨s1, h1, s2, h2, s3, h3, rfl⟩ := h
    have hnat : a.node_num.toNat = n := by rw [hn]; simp
    rw [hnat] at h1
    have v1 := initSum_value n 0 _ s1 (by exact_mod_cast h1)
    have k0 := keeps_sum_supply a 0
    obtain ⟨k1, _⟩ := initSum_keeps _ _ _ _ h1
    have k01 := k0.seq k1
    have hn1 : s1.node_num = n := (show s1.node_num = a.node_num from
      k01.2.2.1 Sc.node_num (by decide)).trans hn
    obtain ⟨_, _, _, _, _, _, _, _, k2, _⟩ := initRoot_writes h2
    have hn2 : s2.node_num = n := (show s2.node_num = s1.node_num from
      k2.2.2.1 Sc.node_num (by decide)).trans hn1
    have hr2 : s2.root = n := (show s2.root = s1.node_num from
      k2.2.2.1 Sc.root (by decide)).trans hn1
    rw [hn2] at h3
    simp only [Int.toNat_ofNat] at h3
    have k3 := (initArcs_star _ _ _ _ _ h3 (le_refl _) (by rw [hr2]; omega)).1
    have e2 : s2.sum_supply = s1.sum_supply := k2.2.2.1 Sc.sum_supply (by decide)
    have e3 : s3.sum_supply = s2.sum_supply := k3.2.2.1 Sc.sum_supply (by decide)
    rw [e3, e2, v1]
    simp

end NetSimplex

/-- C21: on a solver with `N >= 1` nodes whose vectors have their sizes, `init` returns `true`
and leaves the star basis: the root is node `N` with `parent = -1`, `pred = -1`,
`thread[root] = 0`, `rev_thread[0] = root`, `succ_num[root] = N + 1`, `last_succ[root] = N - 1`,
`supply[root]` minus the sum of the supplies of the real nodes and `pi[root] = 0`; every real
node `u` keeps its supply `b`, has `parent[u] = root`, `pred[u] = u`, `thread[u] = u + 1`,
`rev_thread[u + 1] = u`, `succ_num[u] = 1`, `last_succ[u] = u` and its dummy arc `u` in state
`TREE`; for `b >= 0` the arc is `u -> root` with flow `b`, cost `0`, `pi[u] = 0` and `pred_dir`
`UP`, otherwise it is `root -> u` with flow `-b`, cost `ART_COST`, `pi[u] = ART_COST` and
`pred_dir` `DOWN`. -/
theorem C21_init_star (ns : NetSimplex) (n m : Nat) (hs : ns.Sized n m)
    (hN : ns.node_num = n) (hn1 : 1 ≤ n) (hnm : n ≤ m) :
    ∃ ns', ns.init = some (true, ns') ∧ ns'.root = n ∧
      rd ns'.parent n = some (-1) ∧ rd ns'.pred n = some (-1) ∧ rd ns'.thread n = some 0 ∧
      rd ns'.rev_thread 0 = some (n : Int) ∧ rd ns'.succ_num n = some ((n : Int) + 1) ∧
      rd ns'.last_succ n = some ((n : Int) - 1) ∧
      rd ns'.supply n = some (-(ns.supply.take n).sum) ∧ rd ns'.pi n = some 0 ∧
      ∀ u : Int, 0 ≤ u → u < n → ∃ b, rd ns.supply u = some b ∧ rd ns'.supply u = some b ∧
        rd ns'.parent u = some (n : Int) ∧ rd ns'.pred u = some u ∧
        rd ns'.thread u = some (u + 1) ∧ rd ns'.rev_thread (u + 1) = some u ∧
        rd ns'.succ_num u = some 1 ∧ rd ns'.last_succ u = some u ∧
        rd ns'.state u = some STATE_TREE ∧
        (0 ≤ b → rd ns'.source u = some u ∧ rd ns'.target u = some (n : Int) ∧
          rd ns'.flow u = some b ∧ rd ns'.cost u = some 0 ∧ rd ns'.pi u = some 0 ∧
          rd ns'.pred_dir u = some DIR_UP) ∧
        (b < 0 → rd ns'.source u = some (n : Int) ∧ rd ns'.target u = some u ∧
          rd ns'.flow u = some (-b) ∧ rd ns'.cost u = some ns.artCost ∧
          rd ns'.pi u = some ns.artCost ∧ rd ns'.pred_dir u = some DIR_DOWN) := by
  obtain ⟨ns', hi, _, _⟩ := NetSimplex.init_ok ns n m hs hN hn1 hnm
  obtain ⟨r1, r2, r3, _⟩ := NetSimplex.init_star n ns ns' hi hN
  obtain ⟨_, u2⟩ := NetSimplex.init_above n ns ns' hi hN
  have hsum := NetSimplex.init_sum_value n ns ns' hi hN
  have hnn : ns'.node_num = n := (NetSimplex.init_sameSize hi).1.trans hN
  unfold NetSimplex.StarRoot at r2
  rw [r1, hnn, hsum] at r2
  obtain ⟨a1, a2, a3, a4, a5, a6, a7, a8⟩ := r2
  refine ⟨ns', hi, r1, a1, a2, a3, a4, a5, a6, a7, a8, ?_⟩
  intro u h0 hu
  obtain ⟨b, hb, hst⟩ := r3 u h0 hu
  unfold NetSimplex.StarNode at hst
  rw [r1] at hst
  obtain ⟨b1, b2, b3, b4, b5, b6, b7, b8, b9, b10, b11, b12, b13⟩ := hst
  refine ⟨b, hb, ?_, b1, b2, b3, b4, b5, b6, b7, ?_, ?_⟩
  · rw [u2 u (by omega)]
    exact hb
  · intro hb0
    have hge : b ≥ 0 := hb0
    rw [if_pos hge] at b8 b9 b10 b11 b13
    have hf : NetSimplex.initFlow b = b := by unfold NetSimplex.initFlow; rw [if_pos hge]
    rw [hf] at b12
    exact ⟨b10, b11, b12, b13, b9, b8⟩
  · intro hb0
    have hge : ¬ b ≥ 0 := by omega
    rw [if_neg hge] at b8 b9 b10 b11 b13
    have hf : NetSimplex.initFlow b = -b := by unfold NetSimplex.initFlow; rw [if_neg hge]
    rw [hf] at b12
    exact ⟨b10, b11, b12, b13, b9, b8⟩

/-- C21 on scenario S1 (supplies `+1, -1`): `init` returns `true`, node 0 gets the arc
`0 -> root` with flow 1 and node 1 the arc `root -> 1` with flow 1 and cost `ART_COST`. -/
theorem C21_init_star_S1 :
    solverS1.Sized 2 3 ∧
    ∃ ns', solverS1.init = some (true, ns') ∧ ns'.root = (2 : Nat) ∧
      rd ns'.supply (2 : Nat) = some (-(solverS1.supply.take 2).sum) ∧
      rd ns'.flow 0 = some 1 ∧ rd ns'.target 0 = some ((2 : Nat) : Int) ∧
      rd ns'.flow 1 = some 1 ∧ rd ns'.cost 1 = some solverS1.artCost := by
  have hs : solverS1.Sized 2 3 := ⟨fun f => by cases f <;> decide, by decide⟩
  refine ⟨hs, ?_⟩
  obtain ⟨ns', h1, h2, _, _, _, _, _, _, h9, _, hu⟩ :=
    C21_init_star solverS1 2 3 hs (by decide) (by decide) (by decide)
  obtain ⟨b0, x0, _, _, _, _, _, _, _, _, p0, _⟩ := hu 0 (by decide) (by decide)
  obtain ⟨b1, x1, _, _, _, _, _, _, _, _, _, q1⟩ := hu 1 (by decide) (by decide)
  have e0 : b0 = 1 := by
    have : rd solverS1.supply 0 = some 1 := by decide
    rw [x0] at this
    exact Option.some.inj this
  have e1 : b1 = -1 := by
    have : rd solverS1.supply 1 = some (-1) := by decide
    rw [x1] at this
    exact Option.some.inj this
  subst e0
  subst e1
  obtain ⟨_, t0, f0, _⟩ := p0 (by decide)
  obtain ⟨_, _, f1, c1, _⟩ := q1 (by decide)
  exact ⟨ns', h1, h2, h9, f0, t0, f1, c1⟩

/-! ## The artificial cost -/

namespace NetSimplex

end NetSimplex

namespace NetSimplex

theorem artCostLoop_spec (ns : NetSimplex) : ∀ (k i : Nat) (a : Int),
    i + k ≤ ns.cost.length →
    ∃ r, artCostLoop ns k i a = some r ∧ a ≤ r ∧
      (∀ c ∈ (ns.cost.drop i).take k, c ≤ r) ∧ (r = a ∨ r ∈ (ns.cost.drop i).take k) := by
  intro k
  induction k with
  | zero =>
    intro i a _
    exact ⟨a, rfl, le_refl _, by simp, Or.inl rfl⟩
  | succ k ih =>
    intro i a hik
    have hlt : i < ns.cost.length := by omega
    have hrd : rd ns.cost (i : Int) = some ns.cost[i] := by
      simp [rd, List.getElem?_eq_getElem hlt]
    have hd : ns.cost.drop i = ns.cost[i] :: ns.cost.drop (i + 1) :=
      List.drop_eq_getElem_cons hlt
    obtain ⟨r, hr, h1, h2, h3⟩ := ih (i + 1) (if ns.cost[i] > a then ns.cost[i] else a)
      (by omega)
    refine ⟨r, ?_, ?_, ?_, ?_⟩
    · simp only [artCostLoop, Option.bind_eq_bind, hrd, Option.some_bind]
      exact_mod_cast hr
    · split at h1 <;> omega
    · intro c hc
      rw [hd, List.take_succ_cons, List.mem_cons] at hc
      rcases hc with rfl | hc
      · split at h1 <;> omega
      · exact h2 c hc
    · rw [hd, List.take_succ_cons]
      rcases h3 with h3 | h3
      · split at h3
        · exact Or.inr (by rw [h3]; exact List.mem_cons_self _ _)
        · exact Or.inl h3
      · exact Or.inr (List.mem_cons_of_mem _ h3)

end NetSimplex

/-- C22, the floating branch as the claim words it fails: with the single real arc of cost
`-3` the loop of `init` keeps its start value 0 and `ART_COST` is `(0 + 1) * 2 = 2`, while
`(1 + max_real_arc_cost) * N` is `(1 - 3) * 2 = -4`. -/
theorem C22_negative_costs :
    solverNegArc.initArtCost false = some 2 ∧ solverNegArc.artCostSpecFloat = some (-4) := by
  decide

/-- C22 (amended): for an exact cost type `init` takes `ART_COST = TYPE_MAX / 2 + 1`, the
value the integer solver passes to its loop; for an inexact cost type it takes
`ART_COST = (1 + M) * N`, where `M` is the largest of 0 and the costs of the real arcs
`N .. _arc_num - 1`: `M` is at least 0 and at least every real cost, and it is 0 or one of
the real costs. -/
theorem C22_art_cost (ns : NetSimplex) (n m : Nat) (hs : ns.Sized n m)
    (hd : ns.dummy_arc = n) (ha : ns.arc_num = m) (hnm : n ≤ m) :
    ns.initArtCost true = some (ns.COST_MAX / 2 + 1) ∧
    ns.initArtCost true = some ns.artCost ∧
    ∃ M, ns.initArtCost false = some ((1 + M) * ns.node_num) ∧ 0 ≤ M ∧
      (∀ c ∈ ns.realCosts, c ≤ M) ∧ (M = 0 ∨ M ∈ ns.realCosts) := by
  refine ⟨rfl, rfl, ?_⟩
  have hl : ns.cost.length = m := by
    have := hs.1 Fld.cost
    simpa [NetSimplex.arr, Fld.isNode] using this
  have hk : (ns.arc_num - ns.dummy_arc).toNat = m - n := by
    rw [ha, hd]
    omega
  obtain ⟨r, hr, h1, h2, h3⟩ := NetSimplex.artCostLoop_spec ns (m - n) n 0 (by omega)
  have hrc : ns.realCosts = (ns.cost.drop n).take (m - n) := by
    unfold NetSimplex.realCosts
    rw [hk, hd]
    rfl
  rw [hrc]
  refine ⟨r, ?_, h1, h2, h3⟩
  unfold NetSimplex.initArtCost
  rw [hk, hd, hr]
  simp only [Bool.false_eq_true, if_false, Option.bind_eq_bind, Option.some_bind]
  rw [add_comm]

/-- C22 on scenario S1: the exact branch gives `2^30`, the inexact branch `(1 + 7) * 2`. -/
theorem C22_art_cost_S1 :
    solverS1.Sized 2 3 ∧ solverS1.initArtCost true = some 1073741824 ∧
    solverS1.initArtCost false = some 16 := by
  have hs : solverS1.Sized 2 3 := ⟨fun f => by cases f <;> decide, by decide⟩
  have h := C22_art_cost solverS1 2 3 hs (by decide) (by decide) (by decide)
  exact ⟨hs, h.1.trans (by decide), by decide⟩

/-! ## Verbosity and the time limit -/

namespace Settings

end Settings

namespace NetSimplex

end NetSimplex

namespace NetSimplex

theorem rounds_succ {k : Nat} {p p' : BlockSearchPivotRule} {x x' y : NetSimplex}
    (h1 : p.findEnteringArc x = some (true, p', x')) (h2 : pivot x' = some y) :
    rounds (k + 1) p x = rounds k p' y := by
  simp only [rounds, Option.bind_eq_bind, h1, Option.some_bind, if_true, h2]

theorem rounds_one {p p' : BlockSearchPivotRule} {x y : NetSimplex}
    (h : rounds 1 p x = some (p', y)) :
    ∃ x', p.findEnteringArc x = some (true, p', x') ∧ pivot x' = some y := by
  simp only [rounds, Option.bind_eq_bind, Option.bind_eq_some] at h
  obtain ⟨⟨go, p1, x1⟩, h1, h⟩ := h
  cases go with
  | true =>
    simp only [if_true, Option.bind_eq_some, Option.some.injEq, Prod.mk.injEq] at h
    obtain ⟨y1, h2, rfl, rfl⟩ := h
    exact ⟨x1, h1, h2⟩
  | false => simp at h

/-- One round of the timed loop on which the test does not fire. -/
theorem startLoopTimed_step (cfg : Settings) (elapsed : Nat → Int) (fuel : Nat)
    {p p' : BlockSearchPivotRule} {x y : NetSimplex} (h : rounds 1 p x = some (p', y))
    (hc : cfg.timedOut y.iterations (elapsed y.iterations) = false) :
    startLoopTimed cfg elapsed (fuel + 1) p x = startLoopTimed cfg elapsed fuel p' y := by
  obtain ⟨x', h1, h2⟩ := rounds_one h
  simp only [startLoopTimed, Option.bind_eq_bind, h1, Option.some_bind, if_true, h2, hc,
    Bool.false_eq_true, if_false]

/-- One round of the timed loop on which the test fires. -/
theorem startLoopTimed_fire (cfg : Settings) (elapsed : Nat → Int) (fuel : Nat)
    {p p' : BlockSearchPivotRule} {x y : NetSimplex} (h : rounds 1 p x = some (p', y))
    (hc : cfg.timedOut y.iterations (elapsed y.iterations) = true) :
    startLoopTimed cfg elapsed (fuel + 1) p x = some (ProblemType.TIMELIMIT, y) := by
  obtain ⟨x', h1, h2⟩ := rounds_one h
  simp only [startLoopTimed, Option.bind_eq_bind, h1, Option.some_bind, if_true, h2, hc]

/-- The timed loop is the loop of `start` as long as the test cannot fire. -/
theorem startLoopTimed_eq (cfg : Settings) (elapsed : Nat → Int)
    (hc : ∀ i, cfg.timedOut i (elapsed i) = false) :
    ∀ (fuel : Nat) (p : BlockSearchPivotRule) (ns : NetSimplex),
      startLoopTimed cfg elapsed fuel p ns = startLoop fuel p ns := by
  intro fuel
  induction fuel with
  | zero => intro p ns; rfl
  | succ fuel ih =>
    intro p ns
    simp only [startLoopTimed, startLoop, hc, Bool.false_eq_true, if_false, ih]

theorem runTimed_eq (cfg : Settings) (elapsed : Nat → Int)
    (hc : ∀ i, cfg.timedOut i (elapsed i) = false) (fuel : Nat) (ns : NetSimplex) :
    runTimed cfg elapsed fuel ns = run fuel ns := by
  simp only [runTimed, run, startTimed, start, startLoopTimed_eq cfg elapsed hc]

end NetSimplex

theorem Settings.setVerbosity_timelimit (s : Settings) (v : Verbosity) :
    (s.setVerbosity v).timelimit = s.timelimit := by
  cases v <;> rfl

theorem Settings.timedOut_silent (s : Settings) (i : Nat) (tot : Int) :
    (s.setVerbosity Verbosity.SILENT).timedOut i tot = false := by
  simp [Settings.timedOut, Settings.setVerbosity]

theorem Settings.timedOut_le (s : Settings) (i : Nat) (tot : Int) (h : tot ≤ s.timelimit) :
    s.timedOut i tot = false := by
  simp only [Settings.timedOut, decide_eq_false_iff_not]
  intro hc
  omega

namespace NetSimplex

theorem negCycle_odd (i : Nat) :
    rounds 1 (negCycleRule 2) (negCycleOdd i) = some (negCycleRule 3, negCycleEven (i + 1)) :=
  rfl

theorem negCycle_even (i : Nat) :
    rounds 1 (negCycleRule 3) (negCycleEven i) = some (negCycleRule 2, negCycleOdd (i + 1)) :=
  rfl

/-- The loop of `start` never ends on the negative cycle scenario. -/
theorem negCycle_loops : ∀ (fuel i : Nat),
    startLoop fuel (negCycleRule 2) (negCycleOdd i) = none ∧
    startLoop fuel (negCycleRule 3) (negCycleEven i) = none := by
  intro fuel
  induction fuel with
  | zero => intro i; exact ⟨rfl, rfl⟩
  | succ fuel ih =>
    intro i
    obtain ⟨x1, a1, a2⟩ := rounds_one (negCycle_odd i)
    obtain ⟨x2, b1, b2⟩ := rounds_one (negCycle_even i)
    exact ⟨by rw [startLoop_go a1 a2]; exact (ih (i + 1)).2,
      by rw [startLoop_go b1 b2]; exact (ih (i + 1)).1⟩

/-- With verbosity `DEBUG`, time limit 0 and a clock that shows 1, the loop started after an
odd number `i` of pivots returns `TIMELIMIT` at iteration 100000. -/
theorem negCycle_debug : ∀ (j i : Nat), i + 2 * j = 99999 →
    startLoopTimed (zeroLimit Verbosity.DEBUG) (fun _ => 1) (2 * j + 1) (negCycleRule 2)
      (negCycleOdd i) = some (ProblemType.TIMELIMIT, negCycleEven 100000) := by
  intro j
  induction j with
  | zero =>
    intro i hi
    have : i = 99999 := by omega
    subst this
    exact startLoopTimed_fire _ _ _ (negCycle_odd 99999) (by decide)
  | succ j ih =>
    intro i hi
    have e : 2 * (j + 1) + 1 = (2 * j + 1 + 1) + 1 := by ring
    rw [e, startLoopTimed_step _ _ _ (negCycle_odd i) (by
        show (zeroLimit Verbosity.DEBUG).timedOut (i + 1) 1 = false
        simp only [Settings.timedOut, decide_eq_false_iff_not]
        intro hc
        have h2 : ((i + 1 : Nat) : Int) % 100000 = 0 := hc.2.1
        omega),
      startLoopTimed_step _ _ _ (negCycle_even (i + 1)) (by
        show (zeroLimit Verbosity.DEBUG).timedOut (i + 1 + 1) 1 = false
        simp only [Settings.timedOut, decide_eq_false_iff_not]
        intro hc
        have h2 : ((i + 1 + 1 : Nat) : Int) % 100000 = 0 := hc.2.1
        omega)]
    exact ih (i + 1 + 1) (by omega)

end NetSimplex

namespace NetSimplex

theorem pivot_iterations {x y : NetSimplex} (h : pivot x = some y) :
    y.iterations = x.iterations + 1 := by
  obtain ⟨z, k, rfl⟩ := pivot_pivot h
  show z.iterations + 1 = x.iterations + 1
  rw [show z.iterations = x.iterations from k.2.2.2.2]

theorem rounds_succ_inv {k : Nat} {p p' : BlockSearchPivotRule} {x y : NetSimplex}
    (h : rounds (k + 1) p x = some (p', y)) :
    ∃ p1 y1, rounds 1 p x = some (p1, y1) ∧ rounds k p1 y1 = some (p', y) ∧
      y1.iterations = x.iterations + 1 := by
  simp only [rounds, Option.bind_eq_bind, Option.bind_eq_some] at h
  obtain ⟨⟨go, p1, x1⟩, h1, h⟩ := h
  cases go with
  | true =>
    simp only [if_true, Option.bind_eq_some] at h
    obtain ⟨y1, h2, h3⟩ := h
    obtain ⟨e, rfl⟩ := BlockSearchPivotRule.findEnteringArc_shape h1
    refine ⟨p1, y1, ?_, h3, @pivot_iterations { x with in_arc := e } y1 h2⟩
    simp only [rounds, Option.bind_eq_bind, h1, Option.some_bind, if_true, h2]
  | false => simp at h

/-- The first `k` rounds of the timed loop, when the test fires on none of them. -/
theorem startLoopTimed_rounds (cfg : Settings) (elapsed : Nat → Int) (f : Nat) :
    ∀ (k : Nat) (p p' : BlockSearchPivotRule) (x y : NetSimplex),
      rounds k p x = some (p', y) →
      (∀ i, x.iterations < i → i ≤ x.iterations + k → cfg.timedOut i (elapsed i) = false) →
      startLoopTimed cfg elapsed (k + f) p x = startLoopTimed cfg elapsed f p' y := by
  intro k
  induction k with
  | zero =>
    intro p p' x y h _
    simp only [rounds, Option.some.injEq, Prod.mk.injEq] at h
    obtain ⟨rfl, rfl⟩ := h
    rw [Nat.zero_add]
  | succ k ih =>
    intro p p' x y h hc
    obtain ⟨p1, y1, h1, h2, hi⟩ := rounds_succ_inv h
    have e : k + 1 + f = (k + f) + 1 := by omega
    rw [e, startLoopTimed_step cfg elapsed (k + f) h1 (by
      rw [hi]
      exact hc _ (by omega) (by omega))]
    exact ih p1 p' y1 y h2 (fun i a b => hc i (by omega) (by omega))

/-- The first `k` rounds of the loop of `start`. -/
theorem startLoop_rounds (f : Nat) :
    ∀ (k : Nat) (p p' : BlockSearchPivotRule) (x y : NetSimplex),
      rounds k p x = some (p', y) → startLoop (k + f) p x = startLoop f p' y := by
  intro k
  induction k with
  | zero =>
    intro p p' x y h
    simp only [rounds, Option.some.injEq, Prod.mk.injEq] at h
    obtain ⟨rfl, rfl⟩ := h
    rw [Nat.zero_add]
  | succ k ih =>
    intro p p' x y h
    obtain ⟨p1, y1, h1, h2, _⟩ := rounds_succ_inv h
    obtain ⟨x', a1, a2⟩ := rounds_one h1
    have e : k + 1 + f = (k + f) + 1 := by omega
    rw [e, startLoop_go a1 a2]
    exact ih p1 p' y1 y h2

/-- The loop of `start` runs out of fuel when more rounds find an entering arc than it has
fuel. -/
theorem startLoop_short :
    ∀ (k : Nat) (p p' : BlockSearchPivotRule) (x y : NetSimplex),
      rounds k p x = some (p', y) → ∀ f, f ≤ k → startLoop f p x = none := by
  intro k
  induction k with
  | zero =>
    intro p p' x y _ f hf
    have : f = 0 := by omega
    subst this
    rfl
  | succ k ih =>
    intro p p' x y h f hf
    cases f with
    | zero => rfl
    | succ f =>
      obtain ⟨p1, y1, h1, h2, _⟩ := rounds_succ_inv h
      obtain ⟨x', a1, a2⟩ := rounds_one h1
      rw [startLoop_go a1 a2]
      exact ih p1 p' y1 y h2 f (by omega)

theorem runTimed_of {cfg : Settings} {elapsed : Nat → Int} {fuel : Nat} {ns x1 x0 : NetSimplex}
    (h1 : runReset ns.arc_num.toNat 0 { ns with iterations := 0 } = some x1)
    (h2 : init x1 = some (true, x0)) :
    runTimed cfg elapsed fuel ns =
      startLoopTimed cfg elapsed fuel (BlockSearchPivotRule.create x0) x0 := by
  simp only [runTimed, Option.bind_eq_bind, h1, Option.some_bind, h2, if_true, startTimed]

/-- The negative cycle scenario reaches its cycle of two states after three pivots. -/
theorem negCycle_prefix :
    ∃ x1 x0, runReset solverNegCycle.arc_num.toNat 0 { solverNegCycle with iterations := 0 } =
        some x1 ∧ init x1 = some (true, x0) ∧ x0.iterations = 0 ∧
      rounds 3 (BlockSearchPivotRule.create x0) x0 = some (negCycleRule 2, negCycleOdd 3) :=
  ⟨(runReset solverNegCycle.arc_num.toNat 0 { solverNegCycle with iterations := 0 }).getD
      solverNegCycle,
    ((init ((runReset solverNegCycle.arc_num.toNat 0
      { solverNegCycle with iterations := 0 }).getD solverNegCycle)).getD
        (false, solverNegCycle)).2,
    by decide, by decide, by decide, by decide⟩

end NetSimplex

/-- C23 fails for a time limit that is exceeded: on the negative cycle scenario (two nodes
with supply 0, the arcs `0 -> 1` and `1 -> 0` of cost `-1`), with time limit 0 and a clock that
always shows 1, `run` with verbosity `DEBUG` returns `TIMELIMIT` at iteration 100000, while
with verbosity `SILENT` the time limit is never tested and `run` never returns. -/
theorem C23_debug_times_out :
    NetSimplex.runTimed (zeroLimit Verbosity.DEBUG) (fun _ => 1) 100000 solverNegCycle =
      some (ProblemType.TIMELIMIT, negCycleEven 100000) ∧
    ∀ fuel, NetSimplex.runTimed (zeroLimit Verbosity.SILENT) (fun _ => 1) fuel solverNegCycle =
      none := by
  obtain ⟨x1, x0, h1, h2, h3, h4⟩ := NetSimplex.negCycle_prefix
  constructor
  · rw [NetSimplex.runTimed_of h1 h2]
    have e : (100000 : Nat) = 3 + (2 * 49998 + 1) := by decide
    rw [e, NetSimplex.startLoopTimed_rounds _ _ _ 3 _ _ _ _ h4 (by
      intro i a b
      rw [h3] at a b
      simp only [Settings.timedOut, decide_eq_false_iff_not]
      intro hc
      have h2 : (i : Int) % 100000 = 0 := hc.2.1
      omega)]
    exact NetSimplex.negCycle_debug 49998 3 (by decide)
  · intro fuel
    rw [NetSimplex.runTimed_of h1 h2,
      NetSimplex.startLoopTimed_eq (zeroLimit Verbosity.SILENT) _
        (fun i => Settings.timedOut_silent _ i _)]
    by_cases hf : fuel ≤ 3
    · exact NetSimplex.startLoop_short 3 _ _ _ _ h4 fuel hf
    · obtain ⟨f, rfl⟩ : ∃ f, fuel = 3 + f := ⟨fuel - 3, by omega⟩
      rw [NetSimplex.startLoop_rounds f 3 _ _ _ _ h4]
      exact (NetSimplex.negCycle_loops f 3).1

/-- C23 (amended): verbosity sets the period `N_IT_LOG` of the time limit test of `start`
(100000 for `DEBUG`, 10000000 for `INFO`, never for `SILENT`) and nothing else that `run`
reads.  When the clock never shows more than the time limit, `run` gives the same status
and leaves the same solver whichever verbosity was set; with verbosity `SILENT` it is the
`run` without a time limit, whatever the clock shows. -/
theorem C23_verbosity (cfg : Settings) (v v' : Verbosity) (elapsed : Nat → Int) (fuel : Nat)
    (ns : NetSimplex) :
    ((∀ i, elapsed i ≤ cfg.timelimit) →
      NetSimplex.runTimed (cfg.setVerbosity v) elapsed fuel ns =
        NetSimplex.runTimed (cfg.setVerbosity v') elapsed fuel ns) ∧
    NetSimplex.runTimed (cfg.setVerbosity Verbosity.SILENT) elapsed fuel ns =
      NetSimplex.run fuel ns := by
  constructor
  · intro h
    have key : ∀ w : Verbosity,
        NetSimplex.runTimed (cfg.setVerbosity w) elapsed fuel ns = NetSimplex.run fuel ns :=
      fun w => NetSimplex.runTimed_eq _ _ (fun i => Settings.timedOut_le _ _ _ (by
        rw [Settings.setVerbosity_timelimit]
        exact h i)) fuel ns
    rw [key v, key v']
  · exact NetSimplex.runTimed_eq _ _ (fun i => Settings.timedOut_silent _ i _) fuel ns

/-- C23 on scenario S1 with time limit 5 and a clock that shows 3: `DEBUG` and `SILENT` give
the same result, the result of `run`. -/
theorem C23_verbosity_S1 :
    (∀ i : Nat, (fun _ => (3 : Int)) i ≤ ((Settings.create 0).setTimelimit 5).timelimit) ∧
    NetSimplex.runTimed (((Settings.create 0).setTimelimit 5).setVerbosity Verbosity.DEBUG)
      (fun _ => 3) 5 solverS1 =
    NetSimplex.runTimed (((Settings.create 0).setTimelimit 5).setVerbosity Verbosity.SILENT)
      (fun _ => 3) 5 solverS1 :=
  have h : ∀ i : Nat, (fun _ => (3 : Int)) i ≤ ((Settings.create 0).setTimelimit 5).timelimit :=
    fun _ => by
      show (3 : Int) ≤ 5
      decide
  ⟨h, (C23_verbosity ((Settings.create 0).setTimelimit 5) Verbosity.DEBUG Verbosity.SILENT
    (fun _ => 3) 5 solverS1).1 h⟩

/-! ## The leaving arc -/

namespace NetSimplex

end NetSimplex

namespace NetSimplex

theorem par_eq {ns : NetSimplex} {u p : Int} (h : rd ns.parent u = some p) : ns.par u = p := by
  simp [par, h]

theorem predOf_eq {ns : NetSimplex} {u p : Int} (h : rd ns.pred u = some p) :
    ns.predOf u = p := by
  simp [predOf, h]

theorem dirOf_eq {ns : NetSimplex} {u p : Int} (h : rd ns.pred_dir u = some p) :
    ns.dirOf u = p := by
  simp [dirOf, h]

theorem flowAt_eq {ns : NetSimplex} {u p : Int} (h : rd ns.flow u = some p) :
    ns.flowAt u = p := by
  simp [flowAt, h]

theorem Walk.congr {a b : NetSimplex} (hp : b.parent = a.parent) (j : Int) :
    ∀ (l : List Int) (u : Int), Walk a j u l → Walk b j u l := by
  intro l
  induction l with
  | nil => intro u h; exact h
  | cons x l ih =>
    intro u h
    obtain ⟨h1, h2, h3⟩ := h
    refine ⟨h1, h2, ?_⟩
    have : b.par u = a.par u := by unfold par; rw [hp]
    rw [this]
    exact ih _ h3

theorem walkResidual_congr {a b : NetSimplex} (h1 : b.pred = a.pred) (h2 : b.pred_dir = a.pred_dir)
    (h3 : b.flow = a.flow) (h4 : b.MAX = a.MAX) (first : Bool) (u : Int) :
    b.walkResidual first u = a.walkResidual first u := by
  unfold walkResidual dirOf flowAt predOf INF
  rw [h1, h2, h3, h4]

/-- The first loop of `findLeavingArc`: it walks from `u` up to the join, lowers `delta` to
the least value `d` below its start value and sets `u_out` to the first node with that
value. -/
theorem findLeavingFirst_walk : ∀ (k : Nat) (u : Int) (a : NetSimplex) (r0 : Int)
    (b : NetSimplex) (r : Int), findLeavingFirst k u a r0 = some (b, r) →
    b = { a with delta := b.delta, u_out := b.u_out } ∧
    ∃ l, Walk a a.join u l ∧ (∀ x ∈ l, a.predOf x ≠ -1) ∧
      (∀ x ∈ l, b.delta ≤ a.walkResidual true x) ∧
      ((b.delta = a.delta ∧ b.u_out = a.u_out ∧ r = r0 ∧
          ∀ x ∈ l, a.delta ≤ a.walkResidual true x) ∨
        (r = 1 ∧ b.delta < a.delta ∧ ∃ pre post, l = pre ++ b.u_out :: post ∧
          a.walkResidual true b.u_out = b.delta ∧
          ∀ x ∈ pre, b.delta < a.walkResidual true x)) := by
  intro k
  induction k with
  | zero => intro u a r0 b r h; simp [findLeavingFirst] at h
  | succ k ih =>
    intro u a r0 b r h
    unfold findLeavingFirst at h
    split at h
    · rename_i hu
      simp only [Option.some.injEq, Prod.mk.injEq] at h
      obtain ⟨rfl, rfl⟩ := h
      exact ⟨rfl, [], hu, by simp, by simp, Or.inl ⟨rfl, rfl, rfl, by simp⟩⟩
    · rename_i hu
      simp only [Option.bind_eq_bind, Option.bind_eq_some] at h
      obtain ⟨e, he, f, hf, dir, hd, p, hp, h⟩ := h
      have hpe : a.predOf u ≠ -1 := by
        rw [predOf_eq he]
        intro hc
        rw [hc] at hf
        simp [rd] at hf
      have hres : a.walkResidual true u = if dir = DIR_DOWN then a.INF - f else f := by
        unfold walkResidual
        rw [dirOf_eq hd, predOf_eq he, flowAt_eq hf]
        rfl
      rw [← hres] at h
      rw [← par_eq hp] at h
      by_cases hlt : a.walkResidual true u < a.delta
      · rw [if_pos hlt] at h
        obtain ⟨hfr, l, w, hne, hall, hc⟩ := ih _ _ _ _ _ h
        have w' : Walk a a.join (a.par u) l :=
          @Walk.congr { a with delta := a.walkResidual true u, u_out := u } a rfl a.join l _ w
        refine ⟨hfr, u :: l, ⟨rfl, hu, w'⟩, ?_, ?_, Or.inr ?_⟩
        · intro x hx
          rcases List.mem_cons.1 hx with rfl | hx
          · exact hpe
          · exact hne x hx
        · intro x hx
          rcases List.mem_cons.1 hx with rfl | hx
          · rcases hc with ⟨c1, _⟩ | ⟨_, c2, _⟩
            · exact le_of_eq c1
            · exact le_of_lt c2
          · exact hall x hx
        · rcases hc with ⟨c1, c2, c3, c4⟩ | ⟨c1, c2, pre, post, c3, c4, c5⟩
          · refine ⟨c3, ?_, [], l, ?_, ?_, by simp⟩
            · rw [c1]; exact hlt
            · rw [c2]; rfl
            · rw [c2]; exact c1.symm
          · refine ⟨c1, lt_trans c2 hlt, u :: pre, post, by rw [c3]; rfl, c4, ?_⟩
            intro x hx
            rcases List.mem_cons.1 hx with rfl | hx
            · exact c2
            · exact c5 x hx
      · rw [if_neg hlt] at h
        obtain ⟨hfr, l, w, hne, hall, hc⟩ := ih _ _ _ _ _ h
        refine ⟨hfr, u :: l, ⟨rfl, hu, w⟩, ?_, ?_, ?_⟩
        · intro x hx
          rcases List.mem_cons.1 hx with rfl | hx
          · exact hpe
          · exact hne x hx
        · intro x hx
          rcases List.mem_cons.1 hx with rfl | hx
          · rcases hc with ⟨c1, _⟩ | ⟨_, c2, _⟩
            · rw [c1]; omega
            · omega
          · exact hall x hx
        · rcases hc with ⟨c1, c2, c3, c4⟩ | ⟨c1, c2, pre, post, c3, c4, c5⟩
          · refine Or.inl ⟨c1, c2, c3, ?_⟩
            intro x hx
            rcases List.mem_cons.1 hx with rfl | hx
            · omega
            · exact c4 x hx
          · refine Or.inr ⟨c1, c2, u :: pre, post, by rw [c3]; rfl, c4, ?_⟩
            intro x hx
            rcases List.mem_cons.1 hx with rfl | hx
            · omega
            · exact c5 x hx

/-- The second loop of `findLeavingArc`: it walks from `u` up to the join, lowers `delta` to
the least value `d` not above its start value and sets `u_out` to the last node with that
value. -/
theorem findLeavingSecond_walk : ∀ (k : Nat) (u : Int) (a : NetSimplex) (r0 : Int)
    (b : NetSimplex) (r : Int), findLeavingSecond k u a r0 = some (b, r) →
    b = { a with delta := b.delta, u_out := b.u_out } ∧
    ∃ l, Walk a a.join u l ∧ (∀ x ∈ l, a.predOf x ≠ -1) ∧
      (∀ x ∈ l, b.delta ≤ a.walkResidual false x) ∧
      ((b.delta = a.delta ∧ b.u_out = a.u_out ∧ r = r0 ∧
          ∀ x ∈ l, a.delta < a.walkResidual false x) ∨
        (r = 2 ∧ b.delta ≤ a.delta ∧ ∃ pre post, l = pre ++ b.u_out :: post ∧
          a.walkResidual false b.u_out = b.delta ∧
          ∀ x ∈ post, b.delta < a.walkResidual false x)) := by
  intro k
  induction k with
  | zero => intro u a r0 b r h; simp [findLeavingSecond] at h
  | succ k ih =>
    intro u a r0 b r h
    unfold findLeavingSecond at h
    split at h
    · rename_i hu
      simp only [Option.some.injEq, Prod.mk.injEq] at h
      obtain ⟨rfl, rfl⟩ := h
      exact ⟨rfl, [], hu, by simp, by simp, Or.inl ⟨rfl, rfl, rfl, by simp⟩⟩
    · rename_i hu
      simp only [Option.bind_eq_bind, Option.bind_eq_some] at h
      obtain ⟨e, he, f, hf, dir, hd, p, hp, h⟩ := h
      have hpe : a.predOf u ≠ -1 := by
        rw [predOf_eq he]
        intro hc
        rw [hc] at hf
        simp [rd] at hf
      have hres : a.walkResidual false u = if dir = DIR_UP then a.INF - f else f := by
        unfold walkResidual
        rw [dirOf_eq hd, predOf_eq he, flowAt_eq hf]
        rfl
      rw [← hres] at h
      rw [← par_eq hp] at h
      by_cases hlt : a.walkResidual false u ≤ a.delta
      · rw [if_pos hlt] at h
        obtain ⟨hfr, l, w, hne, hall, hc⟩ := ih _ _ _ _ _ h
        have w' : Walk a a.join (a.par u) l :=
          @Walk.congr { a with delta := a.walkResidual false u, u_out := u } a rfl a.join l _ w
        refine ⟨hfr, u :: l, ⟨rfl, hu, w'⟩, ?_, ?_, Or.inr ?_⟩
        · intro x hx
          rcases List.mem_cons.1 hx with rfl | hx
          · exact hpe
          · exact hne x hx
        · intro x hx
          rcases List.mem_cons.1 hx with rfl | hx
          · rcases hc with ⟨c1, _⟩ | ⟨_, c2, _⟩
            · exact le_of_eq c1
            · exact c2
          · exact hall x hx
        · rcases hc with ⟨c1, c2, c3, c4⟩ | ⟨c1, c2, pre, post, c3, c4, c5⟩
          · refine ⟨c3, ?_, [], l, ?_, ?_, ?_⟩
            · rw [c1]; exact hlt
            · rw [c2]; rfl
            · rw [c2]; exact c1.symm
            · intro x hx
              rw [c1]
              exact c4 x hx
          · exact ⟨c1, le_trans c2 hlt, u :: pre, post, by rw [c3]; rfl, c4, c5⟩
      · rw [if_neg hlt] at h
        obtain ⟨hfr, l, w, hne, hall, hc⟩ := ih _ _ _ _ _ h
        refine ⟨hfr, u :: l, ⟨rfl, hu, w⟩, ?_, ?_, ?_⟩
        · intro x hx
          rcases List.mem_cons.1 hx with rfl | hx
          · exact hpe
          · exact hne x hx
        · intro x hx
          rcases List.mem_cons.1 hx with rfl | hx
          · rcases hc with ⟨c1, _⟩ | ⟨_, c2, _⟩
            · rw [c1]; omega
            · omega
          · exact hall x hx
        · rcases hc with ⟨c1, c2, c3, c4⟩ | ⟨c1, c2, pre, post, c3, c4, c5⟩
          · refine Or.inl ⟨c1, c2, c3, ?_⟩
            intro x hx
            rcases List.mem_cons.1 hx with rfl | hx
            · omega
            · exact c4 x hx
          · exact Or.inr ⟨c1, c2, u :: pre, post, by rw [c3]; rfl, c4, c5⟩

theorem residual_code_spec {ns : NetSimplex} {u : Int} (first : Bool)
    (h : ns.dirOf u = DIR_UP ∨ ns.dirOf u = DIR_DOWN) :
    ns.walkResidual first u = ns.residualSpec first u := by
  unfold walkResidual residualSpec
  cases first <;> rcases h with h | h <;> rw [h] <;> simp [DIR_UP, DIR_DOWN]

end NetSimplex

/-- C29: when `findLeavingArc` returns, on a state where every node with a predecessor arc
has `pred_dir` `UP` or `DOWN`: with the walks `w1` from `source(in_arc)` and `w2` from
`target(in_arc)` up to the join and the residuals of the specification, `delta` is the
minimum of `MAX` and the residuals of both walks; when `delta < MAX` a leaving arc is
reported, `u_out` is the last node of `w2` whose residual is `delta` if there is one, with
`(u_in, v_in) = (target, source)`, and otherwise the first node of `w1` whose residual is
`delta`, with `(u_in, v_in) = (source, target)`. -/
theorem C29_findLeavingArc (ns ns' : NetSimplex) (r : Bool)
    (hdir : ∀ u, ns.dirOf u = DIR_UP ∨ ns.dirOf u = DIR_DOWN ∨ ns.predOf u = -1)
    (h : ns.findLeavingArc = some (r, ns')) :
    ∃ first second w1 w2, rd ns.source ns.in_arc = some first ∧
      rd ns.target ns.in_arc = some second ∧
      ns.Walk ns.join first w1 ∧ ns.Walk ns.join second w2 ∧
      ns'.delta ≤ ns.MAX ∧ (∀ u ∈ w1, ns'.delta ≤ ns.residualSpec true u) ∧
      (∀ u ∈ w2, ns'.delta ≤ ns.residualSpec false u) ∧
      (ns'.delta = ns.MAX ∨ (∃ u ∈ w1, ns.residualSpec true u = ns'.delta) ∨
        ∃ u ∈ w2, ns.residualSpec false u = ns'.delta) ∧
      (ns'.delta < ns.MAX → r = true ∧
        ((∃ u ∈ w2, ns.residualSpec false u = ns'.delta) →
          ∃ pre post, w2 = pre ++ ns'.u_out :: post ∧
            ns.residualSpec false ns'.u_out = ns'.delta ∧
            (∀ u ∈ post, ns.residualSpec false u ≠ ns'.delta) ∧
            ns'.u_in = second ∧ ns'.v_in = first) ∧
        ((∀ u ∈ w2, ns.residualSpec false u ≠ ns'.delta) →
          ∃ pre post, w1 = pre ++ ns'.u_out :: post ∧
            ns.residualSpec true ns'.u_out = ns'.delta ∧
            (∀ u ∈ pre, ns.residualSpec true u ≠ ns'.delta) ∧
            ns'.u_in = first ∧ ns'.v_in = second)) := by
  simp only [NetSimplex.findLeavingArc, Option.bind_eq_bind, Option.bind_eq_some] at h
  obtain ⟨first, hfi, second, hse, ⟨n1, r1⟩, h1, ⟨n2, r2⟩, h2, h⟩ := h
  obtain ⟨f1, l1, w1, p1', a1', c1'⟩ := NetSimplex.findLeavingFirst_walk _ _ _ _ _ _ h1
  have p1 : ∀ x ∈ l1, ns.predOf x ≠ -1 := p1'
  have a1 : ∀ x ∈ l1, n1.delta ≤ ns.walkResidual true x := a1'
  have c1 : (n1.delta = ns.MAX ∧ n1.u_out = ns.u_out ∧ r1 = 0 ∧
        ∀ x ∈ l1, ns.MAX ≤ ns.walkResidual true x) ∨
      (r1 = 1 ∧ n1.delta < ns.MAX ∧ ∃ pre post, l1 = pre ++ n1.u_out :: post ∧
        ns.walkResidual true n1.u_out = n1.delta ∧
        ∀ x ∈ pre, n1.delta < ns.walkResidual true x) := c1'
  have h2' : NetSimplex.findLeavingSecond n1.loopBound second n1 r1 = some (n2, r2) := h2
  obtain ⟨f2, l2, w2, p2, a2, c2⟩ := NetSimplex.findLeavingSecond_walk _ _ _ _ _ _ h2'
  -- the first loop starts from the solver with `delta = MAX`
  have e1p : n1.parent = ns.parent := by rw [f1]
  have e1j : n1.join = ns.join := by rw [f1]
  have w1' : ns.Walk ns.join first l1 :=
    @NetSimplex.Walk.congr { ns with delta := ns.MAX } ns rfl ns.join l1 _ w1
  have w2' : ns.Walk ns.join second l2 := by
    have := @NetSimplex.Walk.congr n1 ns e1p.symm n1.join l2 _ w2
    rw [e1j] at this
    exact this
  have r2e : ∀ x, n1.walkResidual false x = ns.walkResidual false x := fun x =>
    NetSimplex.walkResidual_congr (by rw [f1]) (by rw [f1]) (by rw [f1]) (by rw [f1]) false x
  have p2e : ∀ x, n1.predOf x = ns.predOf x := by
    intro x
    unfold NetSimplex.predOf
    rw [show n1.pred = ns.pred from by rw [f1]]
  have s1 : ∀ x ∈ l1, ns.walkResidual true x = ns.residualSpec true x := by
    intro x hx
    apply NetSimplex.residual_code_spec
    rcases hdir x with g | g | g
    · exact Or.inl g
    · exact Or.inr g
    · exact absurd g (p1 x hx)
  have s2 : ∀ x ∈ l2, ns.walkResidual false x = ns.residualSpec false x := by
    intro x hx
    apply NetSimplex.residual_code_spec
    rcases hdir x with g | g | g
    · exact Or.inl g
    · exact Or.inr g
    · exact absurd g (by rw [← p2e]; exact p2 x hx)
  -- the values of the two loops in terms of the start state
  have b1 : ∀ x ∈ l1, n1.delta ≤ ns.residualSpec true x := fun x hx => by
    rw [← s1 x hx]; exact a1 x hx
  have b2 : ∀ x ∈ l2, n2.delta ≤ ns.residualSpec false x := fun x hx => by
    rw [← s2 x hx, ← r2e]; exact a2 x hx
  have d21 : n2.delta ≤ n1.delta := by
    rcases c2 with ⟨c, _⟩ | ⟨_, c, _⟩
    · exact le_of_eq c
    · exact c
  have d1M : n1.delta ≤ ns.MAX := by
    rcases c1 with ⟨c, _⟩ | ⟨_, c, _⟩
    · exact le_of_eq c
    · exact le_of_lt c
  have hfin : ns'.delta = n2.delta ∧ ns'.u_out = n2.u_out ∧
      (r2 = 1 → r = true ∧ ns'.u_in = first ∧ ns'.v_in = second) ∧
      (r2 = 2 → r = true ∧ ns'.u_in = second ∧ ns'.v_in = first) := by
    split at h
    · rename_i hr
      simp only [Option.some.injEq, Prod.mk.injEq] at h
      obtain ⟨rfl, rfl⟩ := h
      exact ⟨rfl, rfl, fun _ => ⟨rfl, rfl, rfl⟩, fun h2 => by
        have : r2 = 1 := hr
        omega⟩
    · rename_i hr
      simp only [Option.some.injEq, Prod.mk.injEq] at h
      obtain ⟨rfl, rfl⟩ := h
      exact ⟨rfl, rfl, fun h1 => absurd h1 hr, fun h2 => ⟨by
        have : r2 = 2 := h2
        simp [this], rfl, rfl⟩⟩
  obtain ⟨hd, hu, hr1, hr2⟩ := hfin
  rw [hd, hu]
  refine ⟨first, second, l1, l2, hfi, hse, w1', w2', le_trans d21 d1M,
    fun x hx => le_trans d21 (b1 x hx), b2, ?_, ?_⟩
  · rcases c2 with ⟨c, _⟩ | ⟨_, _, pre, post, c3, c4, _⟩
    · rcases c1 with ⟨c', _⟩ | ⟨_, _, pre, post, c3, c4, _⟩
      · exact Or.inl (c.trans c')
      · refine Or.inr (Or.inl ⟨n1.u_out, by rw [c3]; simp, ?_⟩)
        rw [← s1 _ (by rw [c3]; simp), c4, c]
    · refine Or.inr (Or.inr ⟨n2.u_out, by rw [c3]; simp, ?_⟩)
      rw [← s2 _ (by rw [c3]; simp), ← r2e, c4]
  · intro hlt
    rcases c2 with ⟨c, cu, cr, call⟩ | ⟨cr, _, pre, post, c3, c4, c5⟩
    · -- the second loop changed nothing: the first loop found the node
      rcases c1 with ⟨c', _⟩ | ⟨cr1, _, pre, post, c3, c4, c5⟩
      · rw [c, c'] at hlt
        exact absurd hlt (lt_irrefl _)
      · have hr : r2 = 1 := cr.trans cr1
        obtain ⟨g1, g2, g3⟩ := hr1 hr
        refine ⟨g1, ?_, ?_⟩
        · rintro ⟨x, hx, hxe⟩
          have := call x hx
          rw [r2e, s2 x hx, hxe, c] at this
          exact absurd this (lt_irrefl _)
        · intro _
          refine ⟨pre, post, by rw [cu]; exact c3, ?_, ?_, g2, g3⟩
          · rw [cu, ← s1 _ (by rw [c3]; simp), c4, c]
          · intro x hx
            have := c5 x hx
            rw [s1 x (by rw [c3]; simp [hx]), ← c] at this
            exact ne_of_gt this
    · obtain ⟨g1, g2, g3⟩ := hr2 cr
      refine ⟨g1, ?_, ?_⟩
      · intro _
        refine ⟨pre, post, c3, ?_, ?_, g2, g3⟩
        · rw [← s2 _ (by rw [c3]; simp), ← r2e, c4]
        · intro x hx
          have := c5 x hx
          rw [r2e, s2 x (by rw [c3]; simp [hx])] at this
          exact ne_of_gt this
      · intro hno
        exfalso
        apply hno n2.u_out (by rw [c3]; simp)
        rw [← s2 _ (by rw [c3]; simp), ← r2e, c4]

/-- C29 on scenario S2 at its first pivot: the state has its directions, `findLeavingArc`
returns, and `delta` is at most `MAX` and at most every residual of the two walks. -/
theorem C29_findLeavingArc_S2 :
    (∀ u, joinedS2.dirOf u = DIR_UP ∨ joinedS2.dirOf u = DIR_DOWN ∨ joinedS2.predOf u = -1) ∧
    joinedS2.findLeavingArc = some (leavingS2.1, leavingS2.2) ∧
    ∃ first second w1 w2, rd joinedS2.source joinedS2.in_arc = some first ∧
      rd joinedS2.target joinedS2.in_arc = some second ∧
      joinedS2.Walk joinedS2.join first w1 ∧ joinedS2.Walk joinedS2.join second w2 ∧
      leavingS2.2.delta ≤ joinedS2.MAX ∧
      (∀ u ∈ w1, leavingS2.2.delta ≤ joinedS2.residualSpec true u) ∧
      (∀ u ∈ w2, leavingS2.2.delta ≤ joinedS2.residualSpec false u) := by
  have hdir : ∀ u, joinedS2.dirOf u = DIR_UP ∨ joinedS2.dirOf u = DIR_DOWN ∨
      joinedS2.predOf u = -1 := by
    intro u
    by_cases hu : 0 ≤ u ∧ u < 4
    · obtain ⟨h0, h4⟩ := hu
      interval_cases u <;> decide
    · right
      right
      have hl : joinedS2.pred = [0, 1, 2, 3, -1] := by decide
      unfold NetSimplex.predOf rd
      rw [hl]
      split
      · rename_i h0
        have h4 : 4 ≤ u := by omega
        obtain ⟨k, rfl⟩ : ∃ k : Nat, u = (k : Int) := ⟨u.toNat, by omega⟩
        have hk : 4 ≤ k := by omega
        obtain ⟨j, rfl⟩ : ∃ j, k = 4 + j := ⟨k - 4, by omega⟩
        cases j with
        | zero => rfl
        | succ j =>
          have : ((4 + (j + 1) : Nat) : Int).toNat = j + 5 := by omega
          rw [this]
          rfl
      · rfl
  have h : joinedS2.findLeavingArc = some (leavingS2.1, leavingS2.2) := by decide
  obtain ⟨first, second, w1, w2, a1, a2, a3, a4, a5, a6, a7, _⟩ :=
    C29_findLeavingArc joinedS2 leavingS2.2 leavingS2.1 hdir h
  exact ⟨hdir, h, first, second, w1, w2, a1, a2, a3, a4, a5, a6, a7⟩

/-! ## Trees and walks -/

namespace NetSimplex

end NetSimplex

namespace NetSimplex

theorem rd_none_of_neg {α : Type} (xs : List α) {i : Int} (h : i < 0) : rd xs i = none := by
  unfold rd
  rw [if_neg (by omega)]

theorem par_neg (ns : NetSimplex) {u : Int} (h : u < 0) : ns.par u = -1 := by
  unfold par
  rw [rd_none_of_neg _ h]
  rfl

theorem par_iter_neg (ns : NetSimplex) : ∀ (k : Nat), (ns.par)^[k] (-1) = -1 := by
  intro k
  induction k with
  | zero => rfl
  | succ k ih =>
    rw [Function.iterate_succ_apply, par_neg ns (by decide)]
    exact ih

theorem TreeBasis.par_root {ns : NetSimplex} {n m : Nat} (h : TreeBasis ns n m) :
    ns.par n = -1 := par_eq h.parent_root

theorem TreeBasis.par_iter_root {ns : NetSimplex} {n m : Nat} (h : TreeBasis ns n m) (k : Nat) :
    (ns.par)^[k + 1] (n : Int) = -1 := by
  rw [Function.iterate_succ_apply, h.par_root]
  exact par_iter_neg ns k

/-- A parent chain that stays among the nodes climbs in `_succ_num`. -/
theorem TreeBasis.succ_anc {ns : NetSimplex} {n m : Nat} (h : TreeBasis ns n m) :
    ∀ (k : Nat) (a : Int), 0 ≤ a → a < n → 0 ≤ (ns.par)^[k + 1] a →
      ns.succOf a < ns.succOf ((ns.par)^[k + 1] a) := by
  intro k
  induction k with
  | zero =>
    intro a h0 hn _
    exact h.succ_lt a h0 hn
  | succ k ih =>
    intro a h0 hn hx
    rw [Function.iterate_succ_apply] at hx ⊢
    obtain ⟨p0, pn⟩ := h.parent_range a h0 hn
    by_cases hp : ns.par a < n
    · exact lt_trans (h.succ_lt a h0 hn) (ih _ p0 hp hx)
    · have : ns.par a = n := by omega
      rw [this, h.par_iter_root k] at hx
      omega

/-- No real node is its own proper ancestor. -/
theorem TreeBasis.acyclic {ns : NetSimplex} {n m : Nat} (h : TreeBasis ns n m) (k : Nat)
    (a : Int) (h0 : 0 ≤ a) (hn : a < n) : (ns.par)^[k + 1] a ≠ a := by
  intro hc
  have := h.succ_anc k a h0 hn (by rw [hc]; exact h0)
  rw [hc] at this
  exact lt_irrefl _ this

theorem Walk.iter {ns : NetSimplex} {j : Int} : ∀ (l : List Int) (u : Int),
    Walk ns j u l → (ns.par)^[l.length] u = j ∧
      ∀ x ∈ l, ∃ i, i < l.length ∧ (ns.par)^[i] u = x := by
  intro l
  induction l with
  | nil =>
    intro u h
    exact ⟨h, by simp⟩
  | cons y l ih =>
    intro u h
    obtain ⟨h1, _, h3⟩ := h
    obtain ⟨i1, i2⟩ := ih _ h3
    refine ⟨by rw [List.length_cons, Function.iterate_succ_apply]; exact i1, ?_⟩
    intro x hx
    rcases List.mem_cons.1 hx with rfl | hx
    · exact ⟨0, by simp, h1.symm⟩
    · obtain ⟨i, hi, he⟩ := i2 x hx
      exact ⟨i + 1, by simp [hi], by rw [Function.iterate_succ_apply]; exact he⟩

theorem Walk.unique {ns : NetSimplex} {j : Int} : ∀ (l l' : List Int) (u : Int),
    Walk ns j u l → Walk ns j u l' → l = l' := by
  intro l
  induction l with
  | nil =>
    intro l' u h h'
    cases l' with
    | nil => rfl
    | cons y l' => exact absurd h h'.2.1
  | cons x l ih =>
    intro l' u h h'
    cases l' with
    | nil => exact absurd h' h.2.1
    | cons y l' =>
      obtain ⟨a1, _, a3⟩ := h
      obtain ⟨b1, _, b3⟩ := h'
      rw [a1, b1, ih l' _ a3 b3]

theorem Walk.head_ne {ns : NetSimplex} {j u : Int} {l : List Int} (h : Walk ns j u l) :
    ∀ x ∈ l, x ≠ j := by
  induction l generalizing u with
  | nil => simp
  | cons y l ih =>
    obtain ⟨h1, h2, h3⟩ := h
    intro x hx
    rcases List.mem_cons.1 hx with rfl | hx
    · rw [h1]; exact h2
    · exact ih h3 x hx

theorem Walk.mem_iter {ns : NetSimplex} {j : Int} : ∀ (l : List Int) (u : Int),
    Walk ns j u l → ∀ t, t < l.length → (ns.par)^[t] u ∈ l := by
  intro l
  induction l with
  | nil => intro u _ t ht; simp at ht
  | cons y l ih =>
    intro u h t ht
    obtain ⟨h1, _, h3⟩ := h
    cases t with
    | zero => rw [h1]; simp
    | succ t =>
      rw [Function.iterate_succ_apply]
      exact List.mem_cons_of_mem _ (ih _ h3 t (by simpa using ht))

/-- A walk up to the join visits no node twice. -/
theorem Walk.nodup {ns : NetSimplex} {j : Int} : ∀ (l : List Int) (u : Int),
    Walk ns j u l → l.Nodup := by
  intro l
  induction l with
  | nil => intro u _; exact List.nodup_nil
  | cons y l ih =>
    intro u h
    have hall := Walk.head_ne h
    have hmem := Walk.mem_iter _ _ h
    have hlen := (Walk.iter _ _ h).1
    obtain ⟨h1, h2, h3⟩ := h
    refine List.nodup_cons.2 ⟨?_, ih _ h3⟩
    intro hy
    obtain ⟨i, hi, he⟩ := (Walk.iter _ _ h3).2 y hy
    rw [← Function.iterate_succ_apply, h1] at he
    have hper : Function.IsPeriodicPt ns.par (i + 1) u := he
    have hmod := hper.iterate_mod_apply (y :: l).length
    rw [hlen] at hmod
    have hlt : (y :: l).length % (i + 1) < (y :: l).length := by
      have h5 : (y :: l).length % (i + 1) < i + 1 := Nat.mod_lt _ (Nat.succ_pos i)
      have h6 : (y :: l).length = l.length + 1 := List.length_cons _ _
      clear hper hmod he
      omega
    have := hmem _ hlt
    rw [hmod] at this
    exact hall j this rfl

theorem Walk.append {ns : NetSimplex} {j : Int} : ∀ (pre : List Int) (x : Int)
    (post : List Int) (u : Int), Walk ns j u (pre ++ x :: post) →
    Walk ns x u pre ∧ Walk ns j x (x :: post) := by
  intro pre
  induction pre with
  | nil =>
    intro x post u h
    have hx : x = u := h.1
    subst hx
    exact ⟨rfl, h⟩
  | cons y pre ih =>
    intro x post u h
    have hnd := Walk.nodup _ _ h
    obtain ⟨h1, h2, h3⟩ := h
    obtain ⟨i1, i2⟩ := ih x post _ h3
    refine ⟨⟨h1, ?_, i1⟩, i2⟩
    intro hc
    rw [List.cons_append, List.nodup_cons] at hnd
    apply hnd.1
    rw [h1, hc]
    simp

theorem succOf_eq {ns : NetSimplex} {u p : Int} (h : rd ns.succ_num u = some p) :
    ns.succOf u = p := by
  simp [succOf, h]

/-- A node below another node has the smaller `_succ_num`. -/
theorem TreeBasis.succ_below {ns : NetSimplex} {n m : Nat} (h : TreeBasis ns n m) {a x : Int}
    (h0 : 0 ≤ a) (hn : a ≤ n) (hx : 0 ≤ x) (i : Nat) (hi : (ns.par)^[i] a = x) (hne : a ≠ x) :
    ns.succOf a < ns.succOf x := by
  cases i with
  | zero => exact absurd hi hne
  | succ t =>
    by_cases ha : a < n
    · have := h.succ_anc t a h0 ha (by rw [hi]; exact hx)
      rw [hi] at this
      exact this
    · have : a = n := by omega
      rw [this, h.par_iter_root t] at hi
      omega

theorem TreeBasis.succ_root {ns : NetSimplex} {n m : Nat} (h : TreeBasis ns n m) {a : Int}
    (h0 : 0 ≤ a) (hn : a < n) : ns.succOf a < ns.succOf n := by
  obtain ⟨k, hk⟩ := h.reach a h0 hn
  exact h.succ_below h0 (le_of_lt hn) (by omega) k hk (by omega)

/-- The loop of `findJoinNode` on a tree: the join is reached from both nodes by walks
that share no node. -/
theorem findJoinLoop_walks {ns : NetSimplex} {n m : Nat} (h : TreeBasis ns n m) :
    ∀ (k : Nat) (u v j : Int), findJoinLoop ns k u v = some j →
      0 ≤ u → u ≤ n → 0 ≤ v → v ≤ n →
      ∃ l1 l2, Walk ns j u l1 ∧ Walk ns j v l2 ∧ (∀ x ∈ l1, x ∉ l2) ∧
        (∀ x ∈ l1, 0 ≤ x ∧ x < n) ∧ (∀ x ∈ l2, 0 ≤ x ∧ x < n) ∧ 0 ≤ j ∧ j ≤ n := by
  intro k
  induction k with
  | zero => intro u v j hj; simp [findJoinLoop] at hj
  | succ k ih =>
    intro u v j hj u0 un v0 vn
    unfold findJoinLoop at hj
    split at hj
    · rename_i huv
      simp only [Option.some.injEq] at hj
      subst hj
      exact ⟨[], [], rfl, huv.symm, by simp, by simp, by simp, u0, un⟩
    · rename_i huv
      simp only [Option.bind_eq_bind, Option.bind_eq_some] at hj
      obtain ⟨su, hsu, sv, hsv, hj⟩ := hj
      have esu := succOf_eq hsu
      have esv := succOf_eq hsv
      split at hj
      · rename_i hlt
        simp only [Option.bind_eq_some] at hj
        obtain ⟨p, hp, hj⟩ := hj
        have ep := par_eq hp
        have hun : u < n := by
          by_contra hc
          have hu : u = n := by omega
          have hv : v < n := by
            rcases lt_or_eq_of_le vn with g | g
            · exact g
            · exact absurd (hu.trans g.symm) huv
          have := h.succ_root v0 hv
          rw [← hu, esu, esv] at this
          omega
        obtain ⟨p0, pn⟩ := h.parent_range u u0 hun
        rw [ep] at p0 pn
        obtain ⟨l1, l2, w1, w2, hd, r1, r2, j0, jn⟩ := ih p v j hj p0 pn v0 vn
        have key : ∀ i, (ns.par)^[i] v ≠ u := by
          intro i hi
          have := h.succ_below v0 vn u0 i hi (fun g => huv g.symm)
          rw [esu, esv] at this
          omega
        refine ⟨u :: l1, l2, ⟨rfl, ?_, by rw [ep]; exact w1⟩, w2, ?_, ?_, r2, j0, jn⟩
        · intro hc
          exact key _ ((Walk.iter _ _ w2).1.trans hc.symm)
        · intro x hx
          rcases List.mem_cons.1 hx with rfl | hx
          · intro hm
            obtain ⟨i, _, hi⟩ := (Walk.iter _ _ w2).2 _ hm
            exact key i hi
          · exact hd x hx
        · intro x hx
          rcases List.mem_cons.1 hx with rfl | hx
          · exact ⟨u0, hun⟩
          · exact r1 x hx
      · rename_i hlt
        simp only [Option.bind_eq_some] at hj
        obtain ⟨p, hp, hj⟩ := hj
        have ep := par_eq hp
        have hvn : v < n := by
          by_contra hc
          have hv : v = n := by omega
          have hu : u < n := by
            rcases lt_or_eq_of_le un with g | g
            · exact g
            · exact absurd (g.trans hv.symm) huv
          have := h.succ_root u0 hu
          rw [← hv, esu, esv] at this
          omega
        obtain ⟨p0, pn⟩ := h.parent_range v v0 hvn
        rw [ep] at p0 pn
        obtain ⟨l1, l2, w1, w2, hd, r1, r2, j0, jn⟩ := ih u p j hj u0 un p0 pn
        have key : ∀ i, (ns.par)^[i] u ≠ v := by
          intro i hi
          have := h.succ_below u0 un v0 i hi huv
          rw [esu, esv] at this
          omega
        refine ⟨l1, v :: l2, w1, ⟨rfl, ?_, by rw [ep]; exact w2⟩, ?_, r1, ?_, j0, jn⟩
        · intro hc
          exact key _ ((Walk.iter _ _ w1).1.trans hc.symm)
        · intro x hx hm
          rcases List.mem_cons.1 hm with rfl | hm
          · obtain ⟨i, _, hi⟩ := (Walk.iter _ _ w1).2 _ hx
            exact key i hi
          · exact hd x hx hm
        · intro x hx
          rcases List.mem_cons.1 hx with rfl | hx
          · exact ⟨v0, hvn⟩
          · exact r2 x hx

end NetSimplex

/-! ## The cycle of a pivot -/

namespace NetSimplex

end NetSimplex

namespace NetSimplex

theorem dirSum_nil (ns : NetSimplex) (e : Int) : ns.dirSum [] e = 0 := rfl

theorem dirSum_cons (ns : NetSimplex) (x : Int) (l : List Int) (e : Int) :
    ns.dirSum (x :: l) e = (if ns.predOf x = e then ns.dirOf x else 0) + ns.dirSum l e := by
  unfold dirSum
  by_cases h : ns.predOf x = e
  · simp [List.filter_cons, h]
  · simp [List.filter_cons, h]

theorem dirSum_congr {a b : NetSimplex} (h1 : b.pred = a.pred) (h2 : b.pred_dir = a.pred_dir)
    (l : List Int) (e : Int) : b.dirSum l e = a.dirSum l e := by
  unfold dirSum predOf dirOf
  rw [h1, h2]

theorem flowAt_set {a b : NetSimplex} {e0 v : Int} (h : a.set_flow e0 v = some b) (e : Int) :
    b.flowAt e = if e = e0 then v else a.flowAt e := by
  obtain ⟨hw, _, _⟩ := set_flow_spec h
  unfold flowAt
  by_cases he : e = e0
  · rw [if_pos he, he, rd_wr_same hw]
    rfl
  · rw [if_neg he, rd_wr_ne hw he]

/-- The first loop of `changeFlow`: along the walk from `u` to the join the flow of every
predecessor arc goes down by `_pred_dir * delta`. -/
theorem changeFlowFirst_walk : ∀ (k : Nat) (u : Int) (a b : NetSimplex),
    changeFlowFirst k u a = some b →
    b = { a with flow := b.flow } ∧ b.flow.length = a.flow.length ∧
    ∃ l, Walk a a.join u l ∧ ∀ e, b.flowAt e = a.flowAt e - a.delta * a.dirSum l e := by
  intro k
  induction k with
  | zero => intro u a b h; simp [changeFlowFirst] at h
  | succ k ih =>
    intro u a b h
    unfold changeFlowFirst at h
    split at h
    · rename_i hu
      simp only [Option.some.injEq] at h
      subst h
      exact ⟨rfl, rfl, [], hu, fun e => by rw [dirSum_nil]; ring⟩
    · rename_i hu
      simp only [Option.bind_eq_bind, Option.bind_eq_some] at h
      obtain ⟨e0, he, f, hf, dir, hd, a1, h1, p, hp, h⟩ := h
      obtain ⟨xs, hx, rfl⟩ := set_flow_eq_some.1 h1
      obtain ⟨hb, hl, l, w, hfl⟩ := ih _ _ _ h
      have hp' : rd a.parent u = some p := hp
      have w' : Walk a a.join p l :=
        @Walk.congr { a with flow := xs } a rfl a.join l _ w
      refine ⟨hb, hl.trans (wr_length hx), u :: l, ⟨rfl, hu, by rw [par_eq hp']; exact w'⟩, ?_⟩
      intro e
      rw [hfl e, flowAt_set h1 e, dirSum_cons, predOf_eq he, dirOf_eq hd]
      have hds : NetSimplex.dirSum { a with flow := xs } l e = a.dirSum l e :=
        dirSum_congr rfl rfl l e
      rw [hds]
      show _ - a.delta * _ = _
      by_cases hee : e = e0
      · rw [if_pos hee, if_pos hee.symm, hee, flowAt_eq hf]
        ring
      · rw [if_neg hee, if_neg (fun g => hee g.symm)]
        ring

/-- The second loop of `changeFlow`: along the walk from `u` to the join the flow of every
predecessor arc goes up by `_pred_dir * delta`. -/
theorem changeFlowSecond_walk : ∀ (k : Nat) (u : Int) (a b : NetSimplex),
    changeFlowSecond k u a = some b →
    b = { a with flow := b.flow } ∧ b.flow.length = a.flow.length ∧
    ∃ l, Walk a a.join u l ∧ ∀ e, b.flowAt e = a.flowAt e + a.delta * a.dirSum l e := by
  intro k
  induction k with
  | zero => intro u a b h; simp [changeFlowSecond] at h
  | succ k ih =>
    intro u a b h
    unfold changeFlowSecond at h
    split at h
    · rename_i hu
      simp only [Option.some.injEq] at h
      subst h
      exact ⟨rfl, rfl, [], hu, fun e => by rw [dirSum_nil]; ring⟩
    · rename_i hu
      simp only [Option.bind_eq_bind, Option.bind_eq_some] at h
      obtain ⟨e0, he, f, hf, dir, hd, a1, h1, p, hp, h⟩ := h
      obtain ⟨xs, hx, rfl⟩ := set_flow_eq_some.1 h1
      obtain ⟨hb, hl, l, w, hfl⟩ := ih _ _ _ h
      have hp' : rd a.parent u = some p := hp
      have w' : Walk a a.join p l :=
        @Walk.congr { a with flow := xs } a rfl a.join l _ w
      refine ⟨hb, hl.trans (wr_length hx), u :: l, ⟨rfl, hu, by rw [par_eq hp']; exact w'⟩, ?_⟩
      intro e
      rw [hfl e, flowAt_set h1 e, dirSum_cons, predOf_eq he, dirOf_eq hd]
      have hds : NetSimplex.dirSum { a with flow := xs } l e = a.dirSum l e :=
        dirSum_congr rfl rfl l e
      rw [hds]
      show _ + a.delta * _ = _
      by_cases hee : e = e0
      · rw [if_pos hee, if_pos hee.symm, hee, flowAt_eq hf]
        ring
      · rw [if_neg hee, if_neg (fun g => hee g.symm)]
        ring

/-- The augmentation of `changeFlow` in one formula: the entering arc gains `delta`, the
predecessor arcs of the first walk lose `_pred_dir * delta` and those of the second walk gain
`_pred_dir * delta`. -/
theorem augment_walk {a b : NetSimplex} (h : augment a = some b) :
    b = { a with flow := b.flow } ∧ b.flow.length = a.flow.length ∧
    ∃ l1 l2, Walk a a.join (a.srcOf a.in_arc) l1 ∧ Walk a a.join (a.tgtOf a.in_arc) l2 ∧
      ∀ e, b.flowAt e = a.flowAt e + (if e = a.in_arc then a.delta else 0)
        - a.delta * a.dirSum l1 e + a.delta * a.dirSum l2 e := by
  simp only [augment, Option.bind_eq_bind, Option.bind_eq_some] at h
  obtain ⟨f, hf, a1, h1, s, hs, a2, h2, t, ht, h3⟩ := h
  obtain ⟨xs, hx, rfl⟩ := set_flow_eq_some.1 h1
  obtain ⟨hb2, hl2, l1, w1, f2⟩ := changeFlowFirst_walk _ _ _ _ h2
  obtain ⟨hb3, hl3, l2, w2, f3⟩ := changeFlowSecond_walk _ _ _ _ h3
  have e2p : a2.parent = a.parent := by rw [hb2]
  have e2j : a2.join = a.join := by rw [hb2]
  have e2d : a2.delta = a.delta := by rw [hb2]
  have e2pr : a2.pred = a.pred := by rw [hb2]
  have e2pd : a2.pred_dir = a.pred_dir := by rw [hb2]
  have hs' : rd a.source a.in_arc = some s := hs
  have ht' : rd a.target a.in_arc = some t := by
    have : rd a2.target a2.in_arc = some t := ht
    rw [hb2] at this
    exact this
  have es : a.srcOf a.in_arc = s := by simp [srcOf, hs']
  have et : a.tgtOf a.in_arc = t := by simp [tgtOf, ht']
  refine ⟨?_, ?_, l1, l2, ?_, ?_, ?_⟩
  · rw [hb3, hb2]
  · rw [hl3, hl2]
    exact wr_length hx
  · rw [es]
    exact @Walk.congr { a with flow := xs } a rfl a.join l1 _ w1
  · rw [et]
    have := @Walk.congr a2 a e2p.symm a2.join l2 _ w2
    rw [e2j] at this
    exact this
  · intro e
    rw [f3 e, f2 e, flowAt_set h1 e, e2d, dirSum_congr e2pr e2pd]
    have hds : NetSimplex.dirSum { a with flow := xs } l1 e = a.dirSum l1 e :=
      dirSum_congr rfl rfl l1 e
    rw [hds]
    show _ - a.delta * _ + _ = _
    by_cases hee : e = a.in_arc
    · rw [if_pos hee, if_pos hee, hee, flowAt_eq hf]
    · rw [if_neg hee, if_neg hee]
      ring

theorem srcOf_eq {ns : NetSimplex} {u p : Int} (h : rd ns.source u = some p) :
    ns.srcOf u = p := by
  simp [srcOf, h]

theorem tgtOf_eq {ns : NetSimplex} {u p : Int} (h : rd ns.target u = some p) :
    ns.tgtOf u = p := by
  simp [tgtOf, h]

/-- What `findLeavingArc` leaves, in terms of the two walks: the solver changes in `delta`,
`u_out`, `u_in` and `v_in` only; `delta` is below every value of the walks; when
`delta < MAX` the leaving node is on the walk that starts at `u_in` and has the value
`delta`. -/
theorem findLeavingArc_walks {a b : NetSimplex} {r : Bool} (h : findLeavingArc a = some (r, b)) :
    b = { a with delta := b.delta, u_out := b.u_out, u_in := b.u_in, v_in := b.v_in } ∧
    ∃ w1 w2, Walk a a.join (a.srcOf a.in_arc) w1 ∧ Walk a a.join (a.tgtOf a.in_arc) w2 ∧
      (∀ x ∈ w1, a.predOf x ≠ -1) ∧ (∀ x ∈ w2, a.predOf x ≠ -1) ∧
      b.delta ≤ a.MAX ∧
      (∀ x ∈ w1, b.delta ≤ a.walkResidual true x) ∧
      (∀ x ∈ w2, b.delta ≤ a.walkResidual false x) ∧
      (b.delta < a.MAX → r = true ∧
        ((b.u_in = a.srcOf a.in_arc ∧ b.v_in = a.tgtOf a.in_arc ∧ b.u_out ∈ w1 ∧
            a.walkResidual true b.u_out = b.delta) ∨
          (b.u_in = a.tgtOf a.in_arc ∧ b.v_in = a.srcOf a.in_arc ∧ b.u_out ∈ w2 ∧
            a.walkResidual false b.u_out = b.delta))) := by
  simp only [findLeavingArc, Option.bind_eq_bind, Option.bind_eq_some] at h
  obtain ⟨first, hfi, second, hse, ⟨n1, r1⟩, h1, ⟨n2, r2⟩, h2, h⟩ := h
  obtain ⟨f1, l1, w1, p1', a1', c1'⟩ := findLeavingFirst_walk _ _ _ _ _ _ h1
  have p1 : ∀ x ∈ l1, a.predOf x ≠ -1 := p1'
  have a1 : ∀ x ∈ l1, n1.delta ≤ a.walkResidual true x := a1'
  have c1 : (n1.delta = a.MAX ∧ n1.u_out = a.u_out ∧ r1 = 0 ∧
        ∀ x ∈ l1, a.MAX ≤ a.walkResidual true x) ∨
      (r1 = 1 ∧ n1.delta < a.MAX ∧ ∃ pre post, l1 = pre ++ n1.u_out :: post ∧
        a.walkResidual true n1.u_out = n1.delta ∧
        ∀ x ∈ pre, n1.delta < a.walkResidual true x) := c1'
  have h2' : findLeavingSecond n1.loopBound second n1 r1 = some (n2, r2) := h2
  obtain ⟨f2, l2, w2, p2, a2, c2⟩ := findLeavingSecond_walk _ _ _ _ _ _ h2'
  have e1p : n1.parent = a.parent := by rw [f1]
  have e1j : n1.join = a.join := by rw [f1]
  have w1' : a.Walk a.join first l1 :=
    @Walk.congr { a with delta := a.MAX } a rfl a.join l1 _ w1
  have w2' : a.Walk a.join second l2 := by
    have := @Walk.congr n1 a e1p.symm n1.join l2 _ w2
    rw [e1j] at this
    exact this
  have r2e : ∀ x, n1.walkResidual false x = a.walkResidual false x := fun x =>
    walkResidual_congr (by rw [f1]) (by rw [f1]) (by rw [f1]) (by rw [f1]) false x
  have p2e : ∀ x, n1.predOf x = a.predOf x := by
    intro x
    unfold predOf
    rw [show n1.pred = a.pred from by rw [f1]]
  have d21 : n2.delta ≤ n1.delta := by
    rcases c2 with ⟨c, _⟩ | ⟨_, c, _⟩
    · exact le_of_eq c
    · exact c
  have d1M : n1.delta ≤ a.MAX := by
    rcases c1 with ⟨c, _⟩ | ⟨_, c, _⟩
    · exact le_of_eq c
    · exact le_of_lt c
  have hfin : b = { n2 with u_in := b.u_in, v_in := b.v_in } ∧
      (r2 = 1 → r = true ∧ b.u_in = first ∧ b.v_in = second) ∧
      (r2 = 2 → r = true ∧ b.u_in = second ∧ b.v_in = first) := by
    split at h
    · rename_i hr
      simp only [Option.some.injEq, Prod.mk.injEq] at h
      obtain ⟨rfl, rfl⟩ := h
      exact ⟨rfl, fun _ => ⟨rfl, rfl, rfl⟩, fun h2 => by
        have : r2 = 1 := hr
        omega⟩
    · rename_i hr
      simp only [Option.some.injEq, Prod.mk.injEq] at h
      obtain ⟨rfl, rfl⟩ := h
      exact ⟨rfl, fun h1 => absurd h1 hr, fun h2 => ⟨by
        have : r2 = 2 := h2
        simp [this], rfl, rfl⟩⟩
  obtain ⟨hb, hr1, hr2⟩ := hfin
  have hd : b.delta = n2.delta := by rw [hb]
  have hu : b.u_out = n2.u_out := by rw [hb]
  rw [srcOf_eq hfi, tgtOf_eq hse, hd, hu]
  refine ⟨?_, l1, l2, w1', w2', p1, fun x hx => by rw [← p2e]; exact p2 x hx,
    le_trans d21 d1M, fun x hx => le_trans d21 (a1 x hx),
    fun x hx => by rw [← r2e]; exact a2 x hx, ?_⟩
  · rw [hb, f2, f1]
  · intro hlt
    rcases c2 with ⟨c, cu, cr, _⟩ | ⟨cr, _, pre, post, c3, c4, _⟩
    · rcases c1 with ⟨c', _⟩ | ⟨cr1, _, pre, post, c3, c4, _⟩
      · rw [c, c'] at hlt
        exact absurd hlt (lt_irrefl _)
      · obtain ⟨g1, g2, g3⟩ := hr1 (cr.trans cr1)
        refine ⟨g1, Or.inl ⟨g2, g3, ?_, ?_⟩⟩
        · rw [cu, c3]; simp
        · rw [cu, c4, c]
    · obtain ⟨g1, g2, g3⟩ := hr2 cr
      refine ⟨g1, Or.inr ⟨g2, g3, ?_, ?_⟩⟩
      · rw [c3]; simp
      · rw [← r2e, c4]

theorem findJoinNode_spec {a b : NetSimplex} (h : findJoinNode a = some b) :
    b = { a with join := b.join } ∧
    findJoinLoop a a.loopBound (a.srcOf a.in_arc) (a.tgtOf a.in_arc) = some b.join ∧
    (∃ s, rd a.source a.in_arc = some s) ∧ ∃ t, rd a.target a.in_arc = some t := by
  simp only [findJoinNode, Option.bind_eq_bind, Option.bind_eq_some, Option.some.injEq] at h
  obtain ⟨u, hu, v, hv, j, hj, rfl⟩ := h
  rw [srcOf_eq hu, tgtOf_eq hv]
  exact ⟨rfl, hj, ⟨u, hu⟩, ⟨v, hv⟩⟩

/-- The predecessor arcs of two real nodes of a tree differ. -/
theorem TreeBasis.pred_inj {ns : NetSimplex} {n m : Nat} (h : TreeBasis ns n m) {u w : Int}
    (u0 : 0 ≤ u) (un : u < n) (w0 : 0 ≤ w) (wn : w < n) (he : ns.predOf u = ns.predOf w) :
    u = w := by
  rcases h.pred_arc u u0 un with ⟨_, a2, a3⟩ | ⟨_, a2, a3⟩ <;>
    rcases h.pred_arc w w0 wn with ⟨_, b2, b3⟩ | ⟨_, b2, b3⟩
  · rw [he] at a2; exact a2.symm.trans b2
  · rw [he] at a2 a3
    exfalso
    apply h.acyclic 1 u u0 un
    show ns.par (ns.par u) = u
    rw [← a3, b3, ← b2, a2]
  · rw [he] at a2 a3
    exfalso
    apply h.acyclic 1 u u0 un
    show ns.par (ns.par u) = u
    rw [← a2, b2, ← b3, a3]
  · rw [he] at a3; exact a3.symm.trans b3

theorem dirSum_none (ns : NetSimplex) (l : List Int) (e : Int)
    (h : ∀ y ∈ l, ns.predOf y ≠ e) : ns.dirSum l e = 0 := by
  induction l with
  | nil => rfl
  | cons y l ih =>
    rw [dirSum_cons, if_neg (h y (by simp)), ih (fun z hz => h z (by simp [hz]))]
    rfl

theorem dirSum_single (ns : NetSimplex) (l : List Int) (x : Int) (hx : x ∈ l) (hnd : l.Nodup)
    (h : ∀ y ∈ l, ns.predOf y = ns.predOf x → y = x) :
    ns.dirSum l (ns.predOf x) = ns.dirOf x := by
  induction l with
  | nil => simp at hx
  | cons y l ih =>
    rw [dirSum_cons]
    rw [List.nodup_cons] at hnd
    rcases List.mem_cons.1 hx with rfl | hx'
    · rw [if_pos rfl, dirSum_none ns l _ (fun z hz hc => by
        have := h z (by simp [hz]) hc
        rw [this] at hz
        exact hnd.1 hz)]
      ring
    · have hyx : y ≠ x := fun g => hnd.1 (by rw [g]; exact hx')
      rw [if_neg (fun hc => hyx (h y (by simp) hc)),
        ih hx' hnd.2 (fun z hz => h z (by simp [hz]))]
      ring

end NetSimplex

/-! ## The flow of the leaving arc -/

namespace NetSimplex

/-- The cycle of a pivot on a tree: after `findJoinNode` and `findLeavingArc` the solver has
changed in `join`, `delta`, `u_out`, `u_in` and `v_in` only; the walks from the two ends of
the entering arc up to the join share no node and stay among the real nodes; when
`delta < MAX` the leaving node is on the walk of `u_in` and has the value `delta`. -/
theorem pivot_cycle {x x1 x2 : NetSimplex} {n m : Nat} {r : Bool} (hb : TreeBasis x n m)
    (h1 : findJoinNode x = some x1) (h2 : findLeavingArc x1 = some (r, x2))
    (hs : 0 ≤ x.srcOf x.in_arc ∧ x.srcOf x.in_arc ≤ n)
    (ht : 0 ≤ x.tgtOf x.in_arc ∧ x.tgtOf x.in_arc ≤ n) :
    x2 = { x with join := x2.join, delta := x2.delta, u_out := x2.u_out, u_in := x2.u_in,
                  v_in := x2.v_in } ∧
    ∃ l1 l2, Walk x x2.join (x.srcOf x.in_arc) l1 ∧ Walk x x2.join (x.tgtOf x.in_arc) l2 ∧
      (∀ y ∈ l1, y ∉ l2) ∧ (∀ y ∈ l1, 0 ≤ y ∧ y < n) ∧ (∀ y ∈ l2, 0 ≤ y ∧ y < n) ∧
      0 ≤ x2.join ∧ x2.join ≤ n ∧ x2.delta ≤ x.MAX ∧
      (∀ y ∈ l1, x2.delta ≤ x.walkResidual true y) ∧
      (∀ y ∈ l2, x2.delta ≤ x.walkResidual false y) ∧
      (x2.delta < x.MAX → r = true ∧
        ((x2.u_in = x.srcOf x.in_arc ∧ x2.v_in = x.tgtOf x.in_arc ∧ x2.u_out ∈ l1 ∧
            x.walkResidual true x2.u_out = x2.delta) ∨
          (x2.u_in = x.tgtOf x.in_arc ∧ x2.v_in = x.srcOf x.in_arc ∧ x2.u_out ∈ l2 ∧
            x.walkResidual false x2.u_out = x2.delta))) := by
  obtain ⟨e1, hj, _, _⟩ := findJoinNode_spec h1
  obtain ⟨e2, w1, w2, g1, g2, _, _, g5, g6, g7, g8⟩ := findLeavingArc_walks h2
  obtain ⟨l1, l2, v1, v2, hd, r1, r2, j0, jn⟩ :=
    findJoinLoop_walks hb _ _ _ _ hj hs.1 hs.2 ht.1 ht.2
  have ep : x1.parent = x.parent := by rw [e1]
  have ej : x2.join = x1.join := by rw [e2]
  have es : x1.srcOf x1.in_arc = x.srcOf x.in_arc := by
    unfold srcOf; rw [e1]
  have et : x1.tgtOf x1.in_arc = x.tgtOf x.in_arc := by
    unfold tgtOf; rw [e1]
  have eM : x1.MAX = x.MAX := by rw [e1]
  have er : ∀ f y, x1.walkResidual f y = x.walkResidual f y := fun f y =>
    walkResidual_congr (by rw [e1]) (by rw [e1]) (by rw [e1]) (by rw [e1]) f y
  rw [es] at g1 g8
  rw [et] at g2 g8
  rw [eM] at g5 g8
  have g1' : Walk x x1.join (x.srcOf x.in_arc) w1 := Walk.congr ep.symm _ _ _ g1
  have g2' : Walk x x1.join (x.tgtOf x.in_arc) w2 := Walk.congr ep.symm _ _ _ g2
  have q1 : w1 = l1 := Walk.unique _ _ _ g1' v1
  have q2 : w2 = l2 := Walk.unique _ _ _ g2' v2
  subst q1
  subst q2
  rw [ej]
  refine ⟨?_, w1, w2, v1, v2, hd, r1, r2, j0, jn, g5, fun y hy => by rw [← er]; exact g6 y hy,
    fun y hy => by rw [← er]; exact g7 y hy, ?_⟩
  · rw [e2, e1]
  · intro hlt
    obtain ⟨c1, c2⟩ := g8 hlt
    refine ⟨c1, ?_⟩
    rcases c2 with ⟨a1, a2, a3, a4⟩ | ⟨a1, a2, a3, a4⟩
    · exact Or.inl ⟨a1, a2, a3, by rw [← er]; exact a4⟩
    · exact Or.inr ⟨a1, a2, a3, by rw [← er]; exact a4⟩

/-- What `changeFlow` does to the flows and the states. -/
theorem changeFlow_spec {a b : NetSimplex} (h : changeFlow a = some b) :
    b = { a with flow := b.flow, state := b.state } ∧
    b.flow.length = a.flow.length ∧ b.state.length = a.state.length ∧
    (0 ≤ a.in_arc ∧ a.in_arc < a.state.length) ∧
    (0 ≤ a.predOf a.u_out ∧ a.predOf a.u_out < a.state.length) ∧
    (∀ e, b.stateAt e = if e = a.predOf a.u_out then STATE_LOWER
      else if e = a.in_arc then STATE_TREE else a.stateAt e) ∧
    (¬ a.delta > 0 → b.flow = a.flow) ∧
    (a.delta > 0 → ∃ l1 l2, Walk a a.join (a.srcOf a.in_arc) l1 ∧
      Walk a a.join (a.tgtOf a.in_arc) l2 ∧
      ∀ e, b.flowAt e = a.flowAt e + (if e = a.in_arc then a.delta else 0)
        - a.delta * a.dirSum l1 e + a.delta * a.dirSum l2 e) := by
  have key : ∀ c : NetSimplex, c = { a with flow := c.flow } →
      ((c.set_state c.in_arc STATE_TREE).bind fun x =>
        (rd x.pred x.u_out).bind fun e => x.set_state e STATE_LOWER) = some b →
      b = { a with flow := c.flow, state := b.state } ∧ b.state.length = a.state.length ∧
      (0 ≤ a.in_arc ∧ a.in_arc < a.state.length) ∧
      (0 ≤ a.predOf a.u_out ∧ a.predOf a.u_out < a.state.length) ∧
      (∀ e, b.stateAt e = if e = a.predOf a.u_out then STATE_LOWER
        else if e = a.in_arc then STATE_TREE else a.stateAt e) := by
    intro c hc hh
    simp only [Option.bind_eq_some] at hh
    obtain ⟨c1, s1, e, he, s2⟩ := hh
    obtain ⟨xs, hx, rfl⟩ := set_state_eq_some.1 s1
    obtain ⟨ys, hy, rfl⟩ := set_state_eq_some.1 s2
    have he' : rd c.pred c.u_out = some e := he
    have hx' : wr a.state a.in_arc STATE_TREE = some xs := by
      have : wr c.state c.in_arc STATE_TREE = some xs := hx
      rw [hc] at this
      exact this
    have he2 : a.predOf a.u_out = e := by
      rw [hc] at he'
      exact predOf_eq he'
    have hy' : wr xs e STATE_LOWER = some ys := hy
    obtain ⟨rx, _⟩ := wr_eq_some.1 hx'
    obtain ⟨ry, _⟩ := wr_eq_some.1 hy'
    have lx := wr_length hx'
    have ly := wr_length hy'
    refine ⟨?_, ly.trans lx, rx, by rw [he2, ← lx]; exact ry, ?_⟩
    · show _ = { a with flow := c.flow, state := ys }
      rw [hc]
    · intro e'
      show (rd ys e').getD STATE_LOWER = _
      rw [he2]
      by_cases h1 : e' = e
      · rw [if_pos h1, h1, rd_wr_same hy']
        rfl
      · rw [if_neg h1, rd_wr_ne hy' h1]
        by_cases h2 : e' = a.in_arc
        · rw [if_pos h2, h2, rd_wr_same hx']
          rfl
        · rw [if_neg h2, rd_wr_ne hx' h2]
          rfl
  by_cases hd : a.delta > 0
  · have hd' := hd
    unfold changeFlow at h
    rw [if_pos hd] at h
    simp only [Option.bind_eq_bind, Option.bind_eq_some] at h
    obtain ⟨c, hc, hh⟩ := h
    obtain ⟨q1, q2, l1, l2, w1, w2, fl⟩ := augment_walk hc
    obtain ⟨k1, k2, k3, k4, k5⟩ := key c q1 (by
      simp only [Option.bind_eq_some]
      exact hh)
    have ef : b.flow = c.flow := by rw [k1]
    refine ⟨by rw [← ef] at k1; exact k1, by rw [ef]; exact q2, k2, k3, k4, k5,
      fun g => absurd hd' g, fun _ => ⟨l1, l2, w1, w2, ?_⟩⟩
    intro e
    have : b.flowAt e = c.flowAt e := by unfold flowAt; rw [ef]
    rw [this]
    exact fl e
  · rw [changeFlow_zero hd] at h
    obtain ⟨k1, k2, k3, k4, k5⟩ := key a rfl h
    have ef : b.flow = a.flow := by rw [k1]
    exact ⟨by rw [← ef] at k1; exact k1, by rw [ef], k2, k3, k4, k5, fun _ => ef,
      fun g => absurd g hd⟩

/-- The flow of the leaving arc after `changeFlow`, on a basis with flows in `[0, INF]`. -/
theorem leaving_flow {x x1 x2 x3 : NetSimplex} {n m : Nat} {r : Bool} (hb : TreeBasis x n m)
    (hs : 0 ≤ x.srcOf x.in_arc ∧ x.srcOf x.in_arc ≤ n)
    (ht : 0 ≤ x.tgtOf x.in_arc ∧ x.tgtOf x.in_arc ≤ n)
    (hne : ∀ u : Int, 0 ≤ u → u < n → x.predOf u ≠ x.in_arc)
    (hfl : ∀ e, 0 ≤ x.flowAt e ∧ x.flowAt e ≤ x.INF)
    (h1 : findJoinNode x = some x1) (h2 : findLeavingArc x1 = some (r, x2))
    (hd : x2.delta < x.MAX) (h3 : changeFlow x2 = some x3) :
    r = true ∧ (0 ≤ x2.u_out ∧ x2.u_out < n) ∧
    (x.dirOf x2.u_out = (if x2.u_in = x.srcOf x.in_arc then DIR_UP else DIR_DOWN) →
      x3.flowAt (x.predOf x2.u_out) = 0) ∧
    (x.dirOf x2.u_out ≠ (if x2.u_in = x.srcOf x.in_arc then DIR_UP else DIR_DOWN) →
      x3.flowAt (x.predOf x2.u_out) = x.INF) := by
  obtain ⟨e2, l1, l2, w1, w2, hdj, r1, r2, _, _, _, _, _, hcase⟩ := pivot_cycle hb h1 h2 hs ht
  obtain ⟨hr, hc⟩ := hcase hd
  obtain ⟨_, _, _, _, _, _, fz, fp⟩ := changeFlow_spec h3
  have q1 : x2.parent = x.parent := by rw [e2]
  have q2 : x2.pred = x.pred := by rw [e2]
  have q3 : x2.pred_dir = x.pred_dir := by rw [e2]
  have q4 : x2.flow = x.flow := by rw [e2]
  have q5 : x2.in_arc = x.in_arc := by rw [e2]
  have q6 : x2.source = x.source := by rw [e2]
  have q7 : x2.target = x.target := by rw [e2]
  have fa : ∀ e, x2.flowAt e = x.flowAt e := fun e => by unfold flowAt; rw [q4]
  have hne12 : x.srcOf x.in_arc ≠ x.tgtOf x.in_arc ∨ (l1 = [] ∧ l2 = []) := by
    by_cases g : x.srcOf x.in_arc = x.tgtOf x.in_arc
    · right
      rw [← g] at w2
      have := Walk.unique _ _ _ w1 w2
      subst this
      cases l1 with
      | nil => exact ⟨rfl, rfl⟩
      | cons y l => exact absurd (List.mem_cons_self y l) (hdj y (List.mem_cons_self y l))
    · exact Or.inl g
  -- the flow of the leaving arc after the augmentation
  have hflow : x2.delta > 0 → ∀ e, x3.flowAt e = x.flowAt e +
      (if e = x.in_arc then x2.delta else 0) - x2.delta * x.dirSum l1 e +
      x2.delta * x.dirSum l2 e := by
    intro hpos e
    obtain ⟨l1', l2', v1, v2, hf⟩ := fp hpos
    have es : x2.srcOf x2.in_arc = x.srcOf x.in_arc := by unfold srcOf; rw [q5, q6]
    have et : x2.tgtOf x2.in_arc = x.tgtOf x.in_arc := by unfold tgtOf; rw [q5, q7]
    rw [es] at v1
    rw [et] at v2
    have u1 := Walk.unique _ _ _ (Walk.congr q1.symm _ _ _ v1) w1
    have u2 := Walk.unique _ _ _ (Walk.congr q1.symm _ _ _ v2) w2
    rw [hf e, fa e, q5, u1, u2, dirSum_congr q2 q3, dirSum_congr q2 q3]
  have hstay : ¬ x2.delta > 0 → ∀ e, x3.flowAt e = x.flowAt e := by
    intro hz e
    have := fz hz
    unfold flowAt
    rw [this, q4]
  have inj : ∀ l : List Int, (∀ y ∈ l, 0 ≤ y ∧ y < n) → ∀ u : Int, 0 ≤ u → u < n →
      ∀ y ∈ l, x.predOf y = x.predOf u → y = u := fun l hl u u0 un y hy he =>
    hb.pred_inj (hl y hy).1 (hl y hy).2 u0 un he
  rcases hc with ⟨c1, _, c3, c4⟩ | ⟨c1, _, c3, c4⟩
  · -- the leaving node is on the first walk
    obtain ⟨u0, un⟩ := r1 _ c3
    have hdir := hb.pred_arc _ u0 un
    have hs1 : x.dirSum l1 (x.predOf x2.u_out) = x.dirOf x2.u_out :=
      dirSum_single x l1 _ c3 (Walk.nodup _ _ w1) (inj l1 r1 _ u0 un)
    have hs2 : x.dirSum l2 (x.predOf x2.u_out) = 0 :=
      dirSum_none x l2 _ (fun y hy he => hdj _ c3 (by rw [← inj l2 r2 _ u0 un y hy he]; exact hy))
    have hres : x.walkResidual true x2.u_out =
        if x.dirOf x2.u_out = DIR_DOWN then x.INF - x.flowAt (x.predOf x2.u_out)
        else x.flowAt (x.predOf x2.u_out) := rfl
    rw [hres] at c4
    rw [c1, if_pos rfl]
    refine ⟨hr, ⟨u0, un⟩, ?_, ?_⟩
    · intro hup
      rw [hup, if_neg (by decide)] at c4
      by_cases hpos : x2.delta > 0
      · rw [hflow hpos, if_neg (hne _ u0 un), hs1, hs2, hup, c4]
        simp [DIR_UP]
      · rw [hstay hpos]
        have := (hfl (x.predOf x2.u_out)).1
        omega
    · intro hup
      have hdown : x.dirOf x2.u_out = DIR_DOWN := by
        rcases hdir with ⟨g, _⟩ | ⟨g, _⟩
        · exact absurd g hup
        · exact g
      rw [hdown, if_pos rfl] at c4
      by_cases hpos : x2.delta > 0
      · rw [hflow hpos, if_neg (hne _ u0 un), hs1, hs2, hdown, ← c4]
        simp [DIR_DOWN]
      · rw [hstay hpos]
        have := (hfl (x.predOf x2.u_out)).2
        omega
  · -- the leaving node is on the second walk
    obtain ⟨u0, un⟩ := r2 _ c3
    have hdir := hb.pred_arc _ u0 un
    have hs2 : x.dirSum l2 (x.predOf x2.u_out) = x.dirOf x2.u_out :=
      dirSum_single x l2 _ c3 (Walk.nodup _ _ w2) (inj l2 r2 _ u0 un)
    have hs1 : x.dirSum l1 (x.predOf x2.u_out) = 0 :=
      dirSum_none x l1 _ (fun y hy he => hdj y hy (by rw [inj l1 r1 _ u0 un y hy he]; exact c3))
    have hres : x.walkResidual false x2.u_out =
        if x.dirOf x2.u_out = DIR_UP then x.INF - x.flowAt (x.predOf x2.u_out)
        else x.flowAt (x.predOf x2.u_out) := rfl
    rw [hres] at c4
    have hst : x.tgtOf x.in_arc ≠ x.srcOf x.in_arc := by
      rcases hne12 with g | ⟨_, g⟩
      · exact fun h => g h.symm
      · rw [g] at c3
        simp at c3
    rw [c1, if_neg hst]
    refine ⟨hr, ⟨u0, un⟩, ?_, ?_⟩
    · intro hdown
      rw [hdown, if_neg (by decide)] at c4
      by_cases hpos : x2.delta > 0
      · rw [hflow hpos, if_neg (hne _ u0 un), hs1, hs2, hdown, c4]
        simp [DIR_DOWN]
      · rw [hstay hpos]
        have := (hfl (x.predOf x2.u_out)).1
        omega
    · intro hdown
      have hup : x.dirOf x2.u_out = DIR_UP := by
        rcases hdir with ⟨g, _⟩ | ⟨g, _⟩
        · exact g
        · exact absurd g hdown
      rw [hup, if_pos rfl] at c4
      by_cases hpos : x2.delta > 0
      · rw [hflow hpos, if_neg (hne _ u0 un), hs1, hs2, hup, ← c4]
        simp [DIR_UP]
      · rw [hstay hpos]
        have := (hfl (x.predOf x2.u_out)).2
        omega

end NetSimplex

/-- C30 (code defect): in the scenario with supplies `+1, -1` and the arcs `0 -> 1`,
`1 -> 0` of cost `-1`, the second pivot starts with the flows `0, 0, 1, 0`, all non-negative;
`findLeavingArc` reports a leaving arc, arc 2, with `delta = MAX - 1 < MAX`, and after
`changeFlow` that arc has flow `MAX`, not 0, although it is set to `AT_LOWER_BOUND`. The
residual `INF - flow` of an arc whose flow increases is taken with the finite `INF = MAX`,
where `NetSimplexCapacity` takes `INF` itself for a capacity `>= MAX`. -/
theorem C30_forward_arc_leaves :
    (((scenarioSupplyCycle.bind NetSimplex.prepared).bind fun ns =>
      (NetSimplex.rounds 1 (BlockSearchPivotRule.create ns) ns).bind fun r =>
        (r.1.findEnteringArc r.2).bind fun q =>
          (NetSimplex.findJoinNode q.2.2).bind fun x1 =>
            (NetSimplex.findLeavingArc x1).bind fun x2 =>
              (NetSimplex.changeFlow x2.2).map fun x3 =>
                (x1.flow, x2.1, [x2.2.delta, x2.2.MAX, x2.2.predOf x2.2.u_out,
                  x3.flowAt (x2.2.predOf x2.2.u_out)], x3.stateAt (x2.2.predOf x2.2.u_out))) =
      some ([0, 0, 1, 0], true, [2147483646, 2147483647, 2, 2147483647], STATE_LOWER)) := by
  decide

/-- What `changeFlow` leaves on the arc `pred[u_out]`: on a tree basis with flows in
`[0, INF]` and an entering arc that is not a tree arc, whenever `findLeavingArc` ends with
`delta < MAX` it reports a leaving arc, and after `changeFlow` the arc `pred[u_out]` is
`AT_LOWER_BOUND`; its flow is 0 when the augmentation decreases it (`pred_dir[u_out]` is `UP`
for `u_in = source(in_arc)`, `DOWN` for `u_in = target(in_arc)`); when the augmentation
increases it, the flow ends at `INF`: the defect seen on the supply-cycle scenario. -/
theorem changeFlow_leaving_arc (x x1 x2 x3 : NetSimplex) (n m : Nat) (r : Bool)
    (hb : x.TreeBasis n m)
    (hs : 0 ≤ x.srcOf x.in_arc ∧ x.srcOf x.in_arc ≤ n)
    (ht : 0 ≤ x.tgtOf x.in_arc ∧ x.tgtOf x.in_arc ≤ n)
    (hne : ∀ u : Int, 0 ≤ u → u < n → x.predOf u ≠ x.in_arc)
    (hfl : ∀ e, 0 ≤ x.flowAt e ∧ x.flowAt e ≤ x.INF)
    (h1 : x.findJoinNode = some x1) (h2 : x1.findLeavingArc = some (r, x2))
    (hd : x2.delta < x.MAX) (h3 : x2.changeFlow = some x3) :
    r = true ∧ x3.stateAt (x.predOf x2.u_out) = STATE_LOWER ∧
    (x.dirOf x2.u_out = (if x2.u_in = x.srcOf x.in_arc then DIR_UP else DIR_DOWN) →
      x3.flowAt (x.predOf x2.u_out) = 0) ∧
    (x.dirOf x2.u_out ≠ (if x2.u_in = x.srcOf x.in_arc then DIR_UP else DIR_DOWN) →
      x3.flowAt (x.predOf x2.u_out) = x.INF) := by
  obtain ⟨g1, _, g3, g4⟩ := NetSimplex.leaving_flow hb hs ht hne hfl h1 h2 hd h3
  obtain ⟨e2, _⟩ := NetSimplex.pivot_cycle hb h1 h2 hs ht
  obtain ⟨_, _, _, _, _, st, _, _⟩ := NetSimplex.changeFlow_spec h3
  refine ⟨g1, ?_, g3, g4⟩
  have q : x2.predOf x2.u_out = x.predOf x2.u_out := by
    unfold NetSimplex.predOf
    rw [show x2.pred = x.pred from by rw [e2]]
  rw [st, q, if_pos rfl]

/-- Scenario S1 at its first pivot: the leaving arc is the dummy arc of node 1, whose flow
drops to 0. -/
theorem changeFlow_leaving_arc_S1 :
    enteredS1.TreeBasis 2 3 ∧ leavingS1.2.delta < enteredS1.MAX ∧
    changedS1.stateAt (enteredS1.predOf leavingS1.2.u_out) = STATE_LOWER ∧
    changedS1.flowAt (enteredS1.predOf leavingS1.2.u_out) = 0 := by
  have hb : enteredS1.TreeBasis 2 3 :=
    { sized := ⟨fun f => by cases f <;> decide, by decide⟩
      nodes := by decide
      root := by decide
      parent_root := by decide
      pred_root := by decide
      reach := fun u h0 h1 => by
        have h1' : u < 2 := h1
        interval_cases u
        · exact ⟨1, by decide⟩
        · exact ⟨1, by decide⟩
      parent_range := fun u h0 h1 => by
        have h1' : u < 2 := h1
        interval_cases u <;> decide
      pred_range := fun u h0 h1 => by
        have h1' : u < 2 := h1
        interval_cases u <;> decide
      pred_arc := fun u h0 h1 => by
        have h1' : u < 2 := h1
        interval_cases u <;> decide
      succ_lt := fun u h0 h1 => by
        have h1' : u < 2 := h1
        interval_cases u <;> decide }
  have hd : leavingS1.2.delta < enteredS1.MAX := by decide
  have hfl : ∀ e, 0 ≤ enteredS1.flowAt e ∧ enteredS1.flowAt e ≤ enteredS1.INF := by
    intro e
    have hl : enteredS1.flow = [1, 1, 0] := by decide
    have hI : enteredS1.INF = 2147483647 := by decide
    unfold NetSimplex.flowAt rd
    rw [hl, hI]
    split
    · rename_i h0
      obtain ⟨k, rfl⟩ : ∃ k : Nat, e = (k : Int) := ⟨e.toNat, by omega⟩
      rw [Int.toNat_ofNat]
      match k with
      | 0 => decide
      | 1 => decide
      | 2 => decide
      | k + 3 => simp
    · decide
  obtain ⟨_, g2, g3, _⟩ := changeFlow_leaving_arc enteredS1 joinedS1 leavingS1.2 changedS1 2 3
    leavingS1.1 hb (by decide) (by decide)
    (fun u h0 h1 => by
      have h1' : u < 2 := h1
      interval_cases u <;> decide)
    hfl (by decide) (by decide) hd (by decide)
  exact ⟨hb, hd, g2, g3 (by decide)⟩

/-! ## Frames of the tree update -/

namespace NetSimplex

theorem Writes.idle (w : List Fld) (a : NetSimplex) : Writes w a a :=
  ⟨Keeps.unchanged _ _ a, rfl⟩

theorem Writes.wider {w w' : List Fld} {a b : NetSimplex} (h : Writes w a b)
    (hw : ∀ f, f ∈ w → f ∈ w') : Writes w' a b :=
  ⟨h.1.mono hw (fun _ g => g), h.2⟩

theorem Writes.follow {w : List Fld} {a b c : NetSimplex} (h1 : Writes w a b)
    (h2 : Writes w b c) : Writes w a c :=
  ⟨(Keeps.seq h1.1 h2.1).mono (fun _ h => (List.mem_append.1 h).elim id id)
    (fun _ h => (List.mem_append.1 h).elim id id), h2.2.trans h1.2⟩

theorem Writes.vec {w : List Fld} {a b : NetSimplex} (h : Writes w a b) (f : Fld)
    (hf : f ∉ w) : b.arr f = a.arr f := h.1.1 f hf

theorem Writes.sc {w : List Fld} {a b : NetSimplex} (h : Writes w a b) (g : Sc) :
    b.sc g = a.sc g := h.1.2.2.1 g (by simp)

theorem Writes.eq_u_in {w : List Fld} {a b : NetSimplex} (h : Writes w a b) :
    b.u_in = a.u_in := h.sc Sc.u_in

theorem Writes.eq_v_in {w : List Fld} {a b : NetSimplex} (h : Writes w a b) :
    b.v_in = a.v_in := h.sc Sc.v_in

theorem Writes.eq_u_out {w : List Fld} {a b : NetSimplex} (h : Writes w a b) :
    b.u_out = a.u_out := h.sc Sc.u_out

theorem Writes.eq_v_out {w : List Fld} {a b : NetSimplex} (h : Writes w a b) :
    b.v_out = a.v_out := h.sc Sc.v_out

theorem Writes.eq_in_arc {w : List Fld} {a b : NetSimplex} (h : Writes w a b) :
    b.in_arc = a.in_arc := h.sc Sc.in_arc

theorem Writes.eq_join {w : List Fld} {a b : NetSimplex} (h : Writes w a b) :
    b.join = a.join := h.sc Sc.join

theorem Writes.eq_root {w : List Fld} {a b : NetSimplex} (h : Writes w a b) :
    b.root = a.root := h.sc Sc.root

theorem Writes.eq_node_num {w : List Fld} {a b : NetSimplex} (h : Writes w a b) :
    b.node_num = a.node_num := h.sc Sc.node_num

theorem Writes.eq_delta {w : List Fld} {a b : NetSimplex} (h : Writes w a b) :
    b.delta = a.delta := h.sc Sc.delta

theorem Writes.eq_MAX {w : List Fld} {a b : NetSimplex} (h : Writes w a b) :
    b.MAX = a.MAX := h.sc Sc.MAX

theorem Writes.keeps_sized {w : List Fld} {a b : NetSimplex} {n m : Nat} (h : Writes w a b)
    (hs : a.Sized n m) : b.Sized n m :=
  ⟨fun f => by rw [h.1.2.1 f]; exact hs.1 f, by rw [h.2]; exact hs.2⟩

theorem Writes.loopBound {w : List Fld} {a b : NetSimplex} (h : Writes w a b) :
    b.loopBound = a.loopBound := by
  have e : b.node_num = a.node_num := h.sc Sc.node_num
  simp only [NetSimplex.loopBound, e]

theorem set_parent_writes {w : List Fld} {a b : NetSimplex} {i v : Int}
    (h : a.set_parent i v = some b) (hw : Fld.parent ∈ w) : Writes w a b :=
  Writes.wider (set_parent_spec h).2 (fun _ m => by rw [List.mem_singleton.1 m]; exact hw)

theorem set_pred_writes {w : List Fld} {a b : NetSimplex} {i v : Int}
    (h : a.set_pred i v = some b) (hw : Fld.pred ∈ w) : Writes w a b :=
  Writes.wider (set_pred_spec h).2 (fun _ m => by rw [List.mem_singleton.1 m]; exact hw)

theorem set_pred_dir_writes {w : List Fld} {a b : NetSimplex} {i v : Int}
    (h : a.set_pred_dir i v = some b) (hw : Fld.pred_dir ∈ w) : Writes w a b :=
  Writes.wider (set_pred_dir_spec h).2 (fun _ m => by rw [List.mem_singleton.1 m]; exact hw)

theorem set_thread_writes {w : List Fld} {a b : NetSimplex} {i v : Int}
    (h : a.set_thread i v = some b) (hw : Fld.thread ∈ w) : Writes w a b :=
  Writes.wider (set_thread_spec h).2 (fun _ m => by rw [List.mem_singleton.1 m]; exact hw)

theorem set_rev_thread_writes {w : List Fld} {a b : NetSimplex} {i v : Int}
    (h : a.set_rev_thread i v = some b) (hw : Fld.rev_thread ∈ w) : Writes w a b :=
  Writes.wider (set_rev_thread_spec h).2 (fun _ m => by rw [List.mem_singleton.1 m]; exact hw)

theorem set_succ_num_writes {w : List Fld} {a b : NetSimplex} {i v : Int}
    (h : a.set_succ_num i v = some b) (hw : Fld.succ_num ∈ w) : Writes w a b :=
  Writes.wider (set_succ_num_spec h).2 (fun _ m => by rw [List.mem_singleton.1 m]; exact hw)

theorem set_last_succ_writes {w : List Fld} {a b : NetSimplex} {i v : Int}
    (h : a.set_last_succ i v = some b) (hw : Fld.last_succ ∈ w) : Writes w a b :=
  Writes.wider (set_last_succ_spec h).2 (fun _ m => by rw [List.mem_singleton.1 m]; exact hw)

theorem set_pi_writes {w : List Fld} {a b : NetSimplex} {i v : Int}
    (h : a.set_pi i v = some b) (hw : Fld.pi ∈ w) : Writes w a b :=
  Writes.wider (set_pi_spec h).2 (fun _ m => by rw [List.mem_singleton.1 m]; exact hw)

theorem updateTreeSame_writes {a b : NetSimplex} {x y : Int}
    (h : updateTreeSame a x y = some b) :
    Writes [Fld.parent, Fld.pred, Fld.pred_dir, Fld.thread, Fld.rev_thread] a b := by
  simp only [updateTreeSame, Option.bind_eq_bind, Option.bind_eq_some] at h
  obtain ⟨n1, h1, n2, h2, src, _, n3, h3, t, _, h⟩ := h
  have k3 : Writes [Fld.parent, Fld.pred, Fld.pred_dir, Fld.thread, Fld.rev_thread] a n3 :=
    ((set_parent_writes h1 (by decide)).follow
    (set_pred_writes h2 (by decide))).follow (set_pred_dir_writes h3 (by decide))
  split at h
  · simp only [Option.bind_eq_some] at h
    obtain ⟨af, _, n4, h4, n5, h5, af2, _, n6, h6, n7, h7, n8, h8, h9⟩ := h
    exact (((((k3.follow (set_thread_writes h4 (by decide))).follow
      (set_rev_thread_writes h5 (by decide))).follow
      (set_thread_writes h6 (by decide))).follow
      (set_rev_thread_writes h7 (by decide))).follow
      (set_thread_writes h8 (by decide))).follow
      (set_rev_thread_writes h9 (by decide))
  · simp only [Option.some.injEq] at h
    subst h
    exact k3

theorem stemLoop_writes : ∀ (k : Nat) (a : NetSimplex) (st : Stem) (b : NetSimplex)
    (st' : Stem), stemLoop k a st = some (b, st') →
    Writes [Fld.thread, Fld.rev_thread, Fld.parent] a b := by
  intro k
  induction k with
  | zero => intro a st b st' h; simp [stemLoop] at h
  | succ k ih =>
    intro a st b st' h
    unfold stemLoop at h
    split at h
    · simp only [Option.some.injEq, Prod.mk.injEq] at h
      obtain ⟨rfl, _⟩ := h
      exact Writes.idle _ a
    · simp only [Option.bind_eq_bind, Option.bind_eq_some] at h
      obtain ⟨nx, _, n1, h1, bf, _, n2, h2, n3, h3, n4, h4, ls, _, lp, _, h⟩ := h
      have k4 : Writes [Fld.thread, Fld.rev_thread, Fld.parent] a n4 :=
        (((set_thread_writes h1 (by decide)).follow
        (set_thread_writes h2 (by decide))).follow
        (set_rev_thread_writes h3 (by decide))).follow
        (set_parent_writes h4 (by decide))
      split at h
      · simp only [Option.bind_eq_some] at h
        obtain ⟨y, _, af, _, h⟩ := h
        exact k4.follow (ih _ _ _ _ h)
      · simp only [Option.some_bind, Option.bind_eq_some] at h
        obtain ⟨af, _, h⟩ := h
        exact k4.follow (ih _ _ _ _ h)

theorem dirtyLoop_writes : ∀ (us : List Int) (a b : NetSimplex),
    dirtyLoop us a = some b → Writes [Fld.rev_thread] a b := by
  intro us
  induction us with
  | nil =>
    intro a b h
    simp only [dirtyLoop, Option.some.injEq] at h
    subst h
    exact Writes.idle _ a
  | cons u us ih =>
    intro a b h
    simp only [dirtyLoop, Option.bind_eq_bind, Option.bind_eq_some] at h
    obtain ⟨t, _, n1, h1, h⟩ := h
    exact (set_rev_thread_writes h1 (by decide)).follow (ih _ _ h)

theorem stemUpdate_writes : ∀ (k : Nat) (a : NetSimplex) (u p c l : Int) (b : NetSimplex),
    stemUpdate k a u p c l = some b →
    Writes [Fld.pred, Fld.pred_dir, Fld.succ_num, Fld.last_succ] a b := by
  intro k
  induction k with
  | zero => intro a u p c l b h; simp [stemUpdate] at h
  | succ k ih =>
    intro a u p c l b h
    unfold stemUpdate at h
    split at h
    · simp only [Option.some.injEq] at h
      subst h
      exact Writes.idle _ a
    · simp only [Option.bind_eq_bind, Option.bind_eq_some] at h
      obtain ⟨pp, _, n1, h1, dp, _, n2, h2, su, _, sp, _, n3, h3, n4, h4, p2, _, h⟩ := h
      exact ((((set_pred_writes h1 (by decide)).follow
        (set_pred_dir_writes h2 (by decide))).follow
        (set_succ_num_writes h3 (by decide))).follow
        (set_last_succ_writes h4 (by decide))).follow (ih _ _ _ _ _ _ h)

theorem updateTreeStemThread_writes {a b : NetSimplex} {x y : Int} {d : List Int}
    (h : updateTreeStemThread a x y = some (b, d)) : Writes threadFields a b := by
  unfold updateTreeStemThread at h
  split at h <;>
  · simp only [Option.bind_eq_bind, Option.bind_eq_some] at h
    obtain ⟨tc, _, last, _, af, _, n1, h1, ⟨r1, r2⟩, hr, n2, h2, n3, h3, n4, h4, n5, h5, h⟩ := h
    have k5 : Writes threadFields a n5 :=
      (((((set_thread_writes h1 (by decide)).follow
      ((stemLoop_writes _ _ _ _ _ hr).wider (by decide))).follow
      (set_parent_writes h2 (by decide))).follow
      (set_thread_writes h3 (by decide))).follow
      (set_rev_thread_writes h4 (by decide))).follow
      (set_last_succ_writes h5 (by decide))
    split at h
    · simp only [Option.bind_eq_some, Option.some.injEq, Prod.mk.injEq] at h
      obtain ⟨n6, h6, n7, h7, rfl, _⟩ := h
      exact (k5.follow (set_thread_writes h6 (by decide))).follow
        (set_rev_thread_writes h7 (by decide))
    · simp only [Option.some.injEq, Prod.mk.injEq] at h
      obtain ⟨rfl, _⟩ := h
      exact k5

theorem updateTreeStemPred_writes {a b : NetSimplex} {d : List Int} {c : Int}
    (h : updateTreeStemPred a d c = some b) : Writes predFields a b := by
  simp only [updateTreeStemPred, Option.bind_eq_bind, Option.bind_eq_some] at h
  obtain ⟨n1, h1, ls, _, p, _, n2, h2, n3, h3, src, _, n4, h4, h5⟩ := h
  exact (((((dirtyLoop_writes _ _ _ h1).wider (by decide)).follow
    ((stemUpdate_writes _ _ _ _ _ _ _ h2).wider (by decide))).follow
    (set_pred_writes h3 (by decide))).follow
    (set_pred_dir_writes h4 (by decide))).follow
    (set_succ_num_writes h5 (by decide))

theorem lastSuccIn_writes (l : Int) : ∀ (k : Nat) (a : NetSimplex) (u : Int) (b : NetSimplex),
    lastSuccIn l k a u = some b → Writes [Fld.last_succ] a b := by
  intro k
  induction k with
  | zero => intro a u b h; simp [lastSuccIn] at h
  | succ k ih =>
    intro a u b h
    unfold lastSuccIn at h
    split at h
    · simp only [Option.some.injEq] at h
      subst h
      exact Writes.idle _ a
    · simp only [Option.bind_eq_bind, Option.bind_eq_some] at h
      obtain ⟨l1, _, h⟩ := h
      split at h
      · simp only [Option.bind_eq_some] at h
        obtain ⟨n1, h1, p, _, h⟩ := h
        exact (set_last_succ_writes h1 (by decide)).follow (ih _ _ _ h)
      · simp only [Option.some.injEq] at h
        subst h
        exact Writes.idle _ a

theorem lastSuccOut_writes (x y z : Int) : ∀ (k : Nat) (a : NetSimplex) (u : Int)
    (b : NetSimplex), lastSuccOut x y z k a u = some b → Writes [Fld.last_succ] a b := by
  intro k
  induction k with
  | zero => intro a u b h; simp [lastSuccOut] at h
  | succ k ih =>
    intro a u b h
    unfold lastSuccOut at h
    split at h
    · simp only [Option.some.injEq] at h
      subst h
      exact Writes.idle _ a
    · simp only [Option.bind_eq_bind, Option.bind_eq_some] at h
      obtain ⟨l1, _, h⟩ := h
      split at h
      · simp only [Option.bind_eq_some] at h
        obtain ⟨n1, h1, p, _, h⟩ := h
        exact (set_last_succ_writes h1 (by decide)).follow (ih _ _ _ h)
      · simp only [Option.some.injEq] at h
        subst h
        exact Writes.idle _ a

theorem succNumLoop_writes (d : Int) : ∀ (k : Nat) (a : NetSimplex) (u : Int)
    (b : NetSimplex), succNumLoop d k a u = some b → Writes [Fld.succ_num] a b := by
  intro k
  induction k with
  | zero => intro a u b h; simp [succNumLoop] at h
  | succ k ih =>
    intro a u b h
    unfold succNumLoop at h
    split at h
    · simp only [Option.some.injEq] at h
      subst h
      exact Writes.idle _ a
    · simp only [Option.bind_eq_bind, Option.bind_eq_some] at h
      obtain ⟨n, _, n1, h1, p, _, h⟩ := h
      exact (set_succ_num_writes h1 (by decide)).follow (ih _ _ _ h)

theorem potentialLoop_writes (sg stop : Int) : ∀ (k : Nat) (a : NetSimplex) (u : Int)
    (b : NetSimplex), potentialLoop sg stop k a u = some b → Writes [Fld.pi] a b := by
  intro k
  induction k with
  | zero => intro a u b h; simp [potentialLoop] at h
  | succ k ih =>
    intro a u b h
    unfold potentialLoop at h
    split at h
    · simp only [Option.some.injEq] at h
      subst h
      exact Writes.idle _ a
    · simp only [Option.bind_eq_bind, Option.bind_eq_some] at h
      obtain ⟨n, _, n1, h1, p, _, h⟩ := h
      exact (set_pi_writes h1 (by decide)).follow (ih _ _ _ h)

theorem updatePotential_writes {a b : NetSimplex} (h : updatePotential a = some b) :
    Writes [Fld.pi] a b := by
  simp only [updatePotential, Option.bind_eq_bind, Option.bind_eq_some] at h
  obtain ⟨pv, _, pu, _, dir, _, c, _, l, _, stop, _, h⟩ := h
  exact potentialLoop_writes _ _ _ _ _ _ h

theorem lastSuccTail_writes {n2 b : NetSimplex} {ort ols lso ulo osn : Int}
    (h : (if n2.join ≠ ort ∧ n2.v_in ≠ ort then
        (lastSuccOut ulo ols ort n2.loopBound n2 n2.v_out).bind fun y =>
          (succNumLoop osn y.loopBound y y.v_in).bind fun ns =>
            succNumLoop (-osn) ns.loopBound ns ns.v_out
      else
        if lso ≠ ols then
          (lastSuccOut ulo ols lso n2.loopBound n2 n2.v_out).bind fun y =>
            (succNumLoop osn y.loopBound y y.v_in).bind fun ns =>
              succNumLoop (-osn) ns.loopBound ns ns.v_out
        else
          (some n2).bind fun y =>
            (succNumLoop osn y.loopBound y y.v_in).bind fun ns =>
              succNumLoop (-osn) ns.loopBound ns ns.v_out) = some b) :
    Writes [Fld.succ_num, Fld.last_succ] n2 b := by
  split at h
  · simp only [Option.bind_eq_some] at h
    obtain ⟨n3, h3, n4, h4, h5⟩ := h
    exact (((lastSuccOut_writes _ _ _ _ _ _ _ h3).wider (by decide)).follow
      ((succNumLoop_writes _ _ _ _ _ h4).wider (by decide))).follow
      ((succNumLoop_writes _ _ _ _ _ h5).wider (by decide))
  · split at h
    · simp only [Option.bind_eq_some] at h
      obtain ⟨n3, h3, n4, h4, h5⟩ := h
      exact (((lastSuccOut_writes _ _ _ _ _ _ _ h3).wider (by decide)).follow
        ((succNumLoop_writes _ _ _ _ _ h4).wider (by decide))).follow
        ((succNumLoop_writes _ _ _ _ _ h5).wider (by decide))
    · simp only [Option.some_bind, Option.bind_eq_some] at h
      obtain ⟨n4, h4, h5⟩ := h
      exact ((succNumLoop_writes _ _ _ _ _ h4).wider (by decide)).follow
        ((succNumLoop_writes _ _ _ _ _ h5).wider (by decide))

end NetSimplex

/-! ## The tree update on parent, pred and pred_dir -/

namespace NetSimplex

theorem par_set {a b : NetSimplex} {i v : Int} (h : a.set_parent i v = some b) (x : Int) :
    b.par x = if x = i then v else a.par x := by
  obtain ⟨hw, _, _⟩ := set_parent_spec h
  unfold par
  by_cases he : x = i
  · rw [if_pos he, he, rd_wr_same hw]
    rfl
  · rw [if_neg he, rd_wr_ne hw he]

theorem predOf_set {a b : NetSimplex} {i v : Int} (h : a.set_pred i v = some b) (x : Int) :
    b.predOf x = if x = i then v else a.predOf x := by
  obtain ⟨hw, _, _⟩ := set_pred_spec h
  unfold predOf
  by_cases he : x = i
  · rw [if_pos he, he, rd_wr_same hw]
    rfl
  · rw [if_neg he, rd_wr_ne hw he]

theorem dirOf_set {a b : NetSimplex} {i v : Int} (h : a.set_pred_dir i v = some b) (x : Int) :
    b.dirOf x = if x = i then v else a.dirOf x := by
  obtain ⟨hw, _, _⟩ := set_pred_dir_spec h
  unfold dirOf
  by_cases he : x = i
  · rw [if_pos he, he, rd_wr_same hw]
    rfl
  · rw [if_neg he, rd_wr_ne hw he]

theorem par_congr {a b : NetSimplex} (h : b.parent = a.parent) (x : Int) :
    b.par x = a.par x := by
  unfold par
  rw [h]

theorem predOf_congr {a b : NetSimplex} (h : b.pred = a.pred) (x : Int) :
    b.predOf x = a.predOf x := by
  unfold predOf
  rw [h]

theorem dirOf_congr {a b : NetSimplex} (h : b.pred_dir = a.pred_dir) (x : Int) :
    b.dirOf x = a.dirOf x := by
  unfold dirOf
  rw [h]

theorem srcOf_congr {a b : NetSimplex} (h : b.source = a.source) (x : Int) :
    b.srcOf x = a.srcOf x := by
  unfold srcOf
  rw [h]

theorem tgtOf_congr {a b : NetSimplex} (h : b.target = a.target) (x : Int) :
    b.tgtOf x = a.tgtOf x := by
  unfold tgtOf
  rw [h]

theorem stemParent_not_mem : ∀ (l : List Int) (v0 x d : Int), x ∉ l →
    stemParent v0 l x d = d := by
  intro l
  induction l with
  | nil => intro v0 x d _; rfl
  | cons s l ih =>
    intro v0 x d h
    have h1 : x ≠ s := fun e => h (by rw [e]; exact List.mem_cons_self _ _)
    have h2 : x ∉ l := fun e => h (List.mem_cons_of_mem _ e)
    show (if x = s then v0 else stemParent s l x d) = d
    rw [if_neg h1]
    exact ih _ _ _ h2

theorem stemParent_cons (v0 s : Int) (l : List Int) (x d : Int) :
    stemParent v0 (s :: l) x d = if x = s then v0 else stemParent s l x d := rfl

/-- The stem loop turns the parent pointers of the walk from `stem` to `u_out` around. -/
theorem stemLoop_parent (o : NetSimplex) : ∀ (l : List Int) (k : Nat) (a : NetSimplex)
    (st : Stem) (b : NetSimplex) (st' : Stem),
    Walk o a.u_out st.stem l → (∀ x ∈ l, a.par x = o.par x) →
    stemLoop k a st = some (b, st') →
    st'.stem = a.u_out ∧
    (∀ j d, j ∉ l → stemParent st.par_stem (l ++ [j]) j d = st'.par_stem) ∧
    ∀ x, b.par x = stemParent st.par_stem l x (a.par x) := by
  intro l
  induction l with
  | nil =>
    intro k a st b st' hw _ h
    have hu : st.stem = a.u_out := hw
    cases k with
    | zero => simp [stemLoop] at h
    | succ k =>
      unfold stemLoop at h
      rw [if_pos hu] at h
      simp only [Option.some.injEq, Prod.mk.injEq] at h
      obtain ⟨rfl, rfl⟩ := h
      exact ⟨hu, fun j d _ => by simp [stemParent], fun x => rfl⟩
  | cons s l ih =>
    intro k a st b st' hw hag h
    have hnd : (s :: l).Nodup := Walk.nodup _ _ hw
    obtain ⟨hs, hne, hw'⟩ := hw
    cases k with
    | zero => simp [stemLoop] at h
    | succ k =>
      unfold stemLoop at h
      rw [if_neg hne] at h
      simp only [Option.bind_eq_bind, Option.bind_eq_some] at h
      obtain ⟨nx, hnx, n1, h1, bf, _, n2, h2, n3, h3, n4, h4, ls, _, lp, _, h⟩ := h
      have k3 : Writes [Fld.thread, Fld.rev_thread] a n3 :=
        ((set_thread_writes h1 (by decide)).follow (set_thread_writes h2 (by decide))).follow
          (set_rev_thread_writes h3 (by decide))
      have k4 : Writes [Fld.thread, Fld.rev_thread, Fld.parent] a n4 :=
        (k3.wider (by decide)).follow (set_parent_writes h4 (by decide))
      have e3 : n3.parent = a.parent := k3.vec Fld.parent (by decide)
      have eu : n4.u_out = a.u_out := k4.eq_u_out
      have hpar : ∀ x, n4.par x = if x = st.stem then st.par_stem else a.par x := by
        intro x
        rw [par_set h4 x, par_congr e3]
      have hnx' : o.par st.stem = nx := by
        rw [← hag st.stem (by rw [hs]; exact List.mem_cons_self _ _)]
        exact par_eq hnx
      have hsl : s ∉ l := (List.nodup_cons.1 hnd).1
      have hag' : ∀ x ∈ l, n4.par x = o.par x := by
        intro x hx
        rw [hpar x, if_neg (fun e => hsl (by rw [hs, ← e]; exact hx))]
        exact hag x (List.mem_cons_of_mem _ hx)
      have fin : ∀ (s2 : Stem), s2.stem = nx → s2.par_stem = st.stem →
          stemLoop k n4 s2 = some (b, st') →
          st'.stem = a.u_out ∧
          (∀ j d, j ∉ s :: l → stemParent st.par_stem (s :: l ++ [j]) j d = st'.par_stem) ∧
          ∀ x, b.par x = stemParent st.par_stem (s :: l) x (a.par x) := by
        intro s2 e1 e2 hl
        have hw2 : Walk o n4.u_out s2.stem l := by
          rw [eu, e1, ← hnx']
          exact hw'
        obtain ⟨r1, r2, r3⟩ := ih k n4 s2 b st' hw2 hag' hl
        refine ⟨r1.trans eu, ?_, ?_⟩
        · intro j d hj
          have h1 : j ≠ s := fun e => hj (by rw [e]; exact List.mem_cons_self _ _)
          have h2 : j ∉ l := fun e => hj (List.mem_cons_of_mem _ e)
          rw [← r2 j d h2, e2, ← hs]
          show (if j = s then _ else _) = _
          rw [if_neg h1]
          rfl
        · intro x
          rw [r3 x, e2, hpar x, stemParent_cons, ← hs]
          by_cases hx : x = s
          · simp only [if_pos hx]
            rw [hx]
            exact stemParent_not_mem l _ _ _ hsl
          · simp only [if_neg hx]
      split at h
      · simp only [Option.bind_eq_some] at h
        obtain ⟨y, _, af, _, h⟩ := h
        exact fin _ rfl rfl h
      · simp only [Option.some_bind, Option.bind_eq_some] at h
        obtain ⟨af, _, h⟩ := h
        exact fin _ rfl rfl h

theorem stemParent_append (j : Int) : ∀ (l : List Int) (v0 z d : Int), j ∉ l →
    stemParent v0 (l ++ [j]) z d =
      if z = j then stemParent v0 (l ++ [j]) j d else stemParent v0 l z d := by
  intro l
  induction l with
  | nil =>
    intro v0 z d _
    show (if z = j then v0 else d) = if z = j then (if j = j then v0 else d) else d
    rw [if_pos rfl]
  | cons s l ih =>
    intro v0 z d hj
    have h1 : j ≠ s := fun e => hj (by rw [e]; exact List.mem_cons_self _ _)
    have h2 : j ∉ l := fun e => hj (List.mem_cons_of_mem _ e)
    show (if z = s then v0 else stemParent s (l ++ [j]) z d) =
      if z = j then (if j = s then v0 else stemParent s (l ++ [j]) j d)
      else (if z = s then v0 else stemParent s l z d)
    rw [if_neg h1, ih s z d h2]
    by_cases hz : z = s
    · have hzj : z ≠ j := fun e => h1 (e.symm.trans hz)
      rw [if_pos hz, if_neg hzj, if_pos hz]
    · rw [if_neg hz, if_neg hz]

theorem Walk.par_mem {ns : NetSimplex} {j : Int} : ∀ (l : List Int) (u : Int),
    Walk ns j u l → ∀ x ∈ l, ns.par x ∈ l ∨ ns.par x = j := by
  intro l
  induction l with
  | nil => intro u _ x hx; simp at hx
  | cons s l ih =>
    intro u hw x hx
    obtain ⟨hs, _, hw'⟩ := hw
    rcases List.mem_cons.1 hx with e | hx'
    · rw [e, hs]
      cases l with
      | nil => exact Or.inr hw'
      | cons t l2 =>
        obtain ⟨ht, _, _⟩ := hw'
        exact Or.inl (by rw [ht]; simp)
    · rcases ih _ hw' x hx' with g | g
      · exact Or.inl (List.mem_cons_of_mem _ g)
      · exact Or.inr g

/-- The thread part of the tree update turns the parent pointers of the stem around. -/
theorem updateTreeStemThread_parent {a b : NetSimplex} {x y : Int} {d l : List Int}
    (h : updateTreeStemThread a x y = some (b, d)) (hw : Walk a a.u_out a.u_in l) :
    ∀ z, b.par z = stemParent a.v_in (l ++ [a.u_out]) z (a.par z) := by
  have hj : a.u_out ∉ l := fun m => Walk.head_ne hw _ m rfl
  unfold updateTreeStemThread at h
  split at h <;>
  · simp only [Option.bind_eq_bind, Option.bind_eq_some] at h
    obtain ⟨tc, _, last, _, af, _, n1, h1, ⟨r1, r2⟩, hr, n2, h2, n3, h3, n4, h4, n5, h5, h⟩ := h
    have k1 : Writes [Fld.thread] a n1 := set_thread_writes h1 (by decide)
    have e1 : n1.parent = a.parent := k1.vec Fld.parent (by decide)
    have eo : n1.u_out = a.u_out := k1.eq_u_out
    have ei : n1.u_in = a.u_in := k1.eq_u_in
    have ev : n1.v_in = a.v_in := k1.eq_v_in
    have hw1 : Walk a n1.u_out n1.u_in l := by rw [eo, ei]; exact hw
    obtain ⟨q1, q2, q3⟩ := stemLoop_parent a l _ n1 _ r1 r2 hw1
      (fun z _ => par_congr e1 z) hr
    have kr : Writes [Fld.thread, Fld.rev_thread, Fld.parent] n1 r1 :=
      stemLoop_writes _ _ _ _ _ hr
    have ero : r1.u_out = a.u_out := (kr.sc Sc.u_out).trans eo
    have k5 : Writes [Fld.thread, Fld.rev_thread, Fld.last_succ] n2 n5 :=
      ((set_thread_writes h3 (by decide)).follow (set_rev_thread_writes h4 (by decide))).follow
        (set_last_succ_writes h5 (by decide))
    have e5 : n5.parent = n2.parent := k5.vec Fld.parent (by decide)
    have fin : b.parent = n5.parent → ∀ z,
        b.par z = stemParent a.v_in (l ++ [a.u_out]) z (a.par z) := by
      intro eb z
      rw [par_congr eb, par_congr e5, par_set h2 z, q3 z, par_congr e1, ero,
        stemParent_append _ l _ z _ hj, ← q2 a.u_out (a.par z) hj, ev]
    split at h
    · simp only [Option.bind_eq_some, Option.some.injEq, Prod.mk.injEq] at h
      obtain ⟨n6, h6, n7, h7, rfl, _⟩ := h
      have k7 : Writes [Fld.thread, Fld.rev_thread] n5 n7 :=
        (set_thread_writes h6 (by decide)).follow (set_rev_thread_writes h7 (by decide))
      exact fin (k7.vec Fld.parent (by decide))
    · simp only [Option.some.injEq, Prod.mk.injEq] at h
      obtain ⟨rfl, _⟩ := h
      exact fin rfl

/-- The loop over the stem gives every node of the walk from `u` to `u_in` the predecessor
arc of its parent, with the opposite direction. -/
theorem stemUpdate_pred : ∀ (R : List Int) (k : Nat) (a : NetSimplex) (u p c l : Int)
    (b : NetSimplex), Walk a a.u_in u R → (u ≠ a.u_in → p = a.par u) →
    stemUpdate k a u p c l = some b →
    (∀ x, b.predOf x = if x ∈ R then a.predOf (a.par x) else a.predOf x) ∧
    (∀ x, b.dirOf x = if x ∈ R then - a.dirOf (a.par x) else a.dirOf x) := by
  intro R
  induction R with
  | nil =>
    intro k a u p c l b hw _ h
    have hu : u = a.u_in := hw
    cases k with
    | zero => simp [stemUpdate] at h
    | succ k =>
      unfold stemUpdate at h
      rw [if_pos hu] at h
      simp only [Option.some.injEq] at h
      subst h
      exact ⟨fun x => by simp, fun x => by simp⟩
  | cons s R ih =>
    intro k a u p c l b hw hp h
    have hnd : (s :: R).Nodup := Walk.nodup _ _ hw
    have hpm := Walk.par_mem _ _ hw
    have hhn := Walk.head_ne hw
    obtain ⟨hs, hne, hw'⟩ := hw
    have hsR : s ∉ R := (List.nodup_cons.1 hnd).1
    cases k with
    | zero => simp [stemUpdate] at h
    | succ k =>
      unfold stemUpdate at h
      rw [if_neg hne] at h
      simp only [Option.bind_eq_bind, Option.bind_eq_some] at h
      obtain ⟨pp, hpp, n1, h1, dp, hdp, n2, h2, su, _, sp, _, n3, h3, n4, h4, p2, hp2, h⟩ := h
      have hpu : p = a.par u := hp hne
      have k1 : Writes [Fld.pred] a n1 := set_pred_writes h1 (by decide)
      have k2 : Writes [Fld.pred_dir] n1 n2 := set_pred_dir_writes h2 (by decide)
      have k4 : Writes [Fld.succ_num, Fld.last_succ] n2 n4 :=
        (set_succ_num_writes h3 (by decide)).follow (set_last_succ_writes h4 (by decide))
      have k14 : Writes [Fld.pred, Fld.pred_dir, Fld.succ_num, Fld.last_succ] a n4 :=
        ((k1.wider (by decide)).follow (k2.wider (by decide))).follow (k4.wider (by decide))
      have epar : n4.parent = a.parent := k14.vec Fld.parent (by decide)
      have eui : n4.u_in = a.u_in := k14.eq_u_in
      have hpred : ∀ x, n4.predOf x = if x = u then pp else a.predOf x := by
        intro x
        rw [predOf_congr (k4.vec Fld.pred (by decide)),
          predOf_congr (k2.vec Fld.pred (by decide)), predOf_set h1 x]
      have hdir : ∀ x, n4.dirOf x = if x = u then -dp else a.dirOf x := by
        intro x
        rw [dirOf_congr (k4.vec Fld.pred_dir (by decide)), dirOf_set h2 x,
          dirOf_congr (k1.vec Fld.pred_dir (by decide))]
      have hdp' : a.dirOf p = dp := by
        rw [← dirOf_congr (k1.vec Fld.pred_dir (by decide))]
        exact dirOf_eq hdp
      have hw4 : Walk n4 n4.u_in p R := by
        rw [eui, hpu]
        exact Walk.congr epar _ _ _ hw'
      have hp4 : p ≠ n4.u_in → p2 = n4.par p := fun _ => (par_eq hp2).symm
      obtain ⟨r1, r2⟩ := ih k n4 p p2 _ l b hw4 hp4 h
      have hparR : ∀ x ∈ R, a.par x ≠ u := by
        intro x hx e
        rcases hpm x (List.mem_cons_of_mem _ hx) with g | g
        · rw [e, ← hs] at g
          rcases List.mem_cons.1 g with g' | g'
          · exact (List.nodup_cons.1 hnd).1 (by
              have := Walk.par_mem _ _ hw' x hx
              rcases this with t | t
              · rw [e, ← hs] at t
                exact t
              · rw [e] at t
                exact absurd t hne)
          · exact hsR g'
        · rw [e] at g
          exact hne g
      constructor
      · intro x
        rw [r1 x, par_congr epar]
        by_cases hx : x = u
        · have hxR : x ∉ R := by rw [hx, ← hs]; exact hsR
          rw [if_neg hxR, hpred x, if_pos hx, if_pos (by rw [hx, ← hs]; simp), hx, ← hpu]
          exact (predOf_eq hpp).symm
        · by_cases hxR : x ∈ R
          · rw [if_pos hxR, if_pos (List.mem_cons_of_mem _ hxR), hpred, if_neg (hparR x hxR)]
          · have : x ∉ s :: R := fun m => by
              rcases List.mem_cons.1 m with e | e
              · exact hx (e.trans hs)
              · exact hxR e
            rw [if_neg hxR, if_neg this, hpred, if_neg hx]
      · intro x
        rw [r2 x, par_congr epar]
        by_cases hx : x = u
        · have hxR : x ∉ R := by rw [hx, ← hs]; exact hsR
          rw [if_neg hxR, hdir x, if_pos hx, if_pos (by rw [hx, ← hs]; simp), hx, ← hpu, hdp']
        · by_cases hxR : x ∈ R
          · rw [if_pos hxR, if_pos (List.mem_cons_of_mem _ hxR), hdir, if_neg (hparR x hxR)]
          · have : x ∉ s :: R := fun m => by
              rcases List.mem_cons.1 m with e | e
              · exact hx (e.trans hs)
              · exact hxR e
            rw [if_neg hxR, if_neg this, hdir, if_neg hx]

theorem Walk.snoc {ns : NetSimplex} {t j : Int} : ∀ (l : List Int) (u : Int),
    Walk ns t u l → t ≠ j → ns.par t = j → (∀ x ∈ l, x ≠ j) → Walk ns j u (l ++ [t]) := by
  intro l
  induction l with
  | nil =>
    intro u hw htj hp _
    have hu : u = t := hw
    exact ⟨hu.symm, by rw [hu]; exact htj, by rw [hu, hp]; rfl⟩
  | cons s l ih =>
    intro u hw htj hp hall
    obtain ⟨hs, _, hw'⟩ := hw
    refine ⟨hs, ?_, ih _ hw' htj hp (fun x hx => hall x (List.mem_cons_of_mem _ hx))⟩
    rw [← hs]
    exact hall s (List.mem_cons_self _ _)

/-- After the stem has been turned around, the parent pointers lead from the old end of
the stem back to its first node. -/
theorem stemParent_down {a c : NetSimplex} {j : Int} : ∀ (l : List Int) (u v0 : Int),
    Walk a j u l → (∀ x ∈ l ++ [j], c.par x = stemParent v0 (l ++ [j]) x (a.par x)) →
    Walk c u j ((l ++ [j]).tail.reverse) := by
  intro l
  induction l with
  | nil =>
    intro u v0 hw _
    have hu : u = j := hw
    exact hu.symm
  | cons s l ih =>
    intro u v0 hw hc
    have hnd : (s :: l).Nodup := Walk.nodup _ _ hw
    have hhn := Walk.head_ne hw
    obtain ⟨hs, hne, hw'⟩ := hw
    have hsl : s ∉ l := (List.nodup_cons.1 hnd).1
    have hsj : s ≠ j := hhn s (List.mem_cons_self _ _)
    have hc' : ∀ x ∈ l ++ [j], c.par x = stemParent s (l ++ [j]) x (a.par x) := by
      intro x hx
      have hxs : x ≠ s := by
        intro e
        rw [e] at hx
        rcases List.mem_append.1 hx with g | g
        · exact hsl g
        · exact hsj (List.mem_singleton.1 g)
      rw [hc x (List.mem_cons_of_mem _ hx)]
      show (if x = s then _ else _) = _
      rw [if_neg hxs]
      rfl
    have w1 := ih (a.par u) s hw' hc'
    have hhead : l ++ [j] = a.par u :: (l ++ [j]).tail := by
      cases l with
      | nil =>
        have : a.par u = j := hw'
        rw [this]
        rfl
      | cons t l2 =>
        obtain ⟨ht, _, _⟩ := hw'
        rw [ht]
        rfl
    have hpm : a.par u ∈ l ++ [j] := by rw [hhead]; exact List.mem_cons_self _ _
    have hpu : a.par u ≠ u := by
      intro e
      rw [e, ← hs] at hpm
      rcases List.mem_append.1 hpm with g | g
      · exact hsl g
      · exact hsj (List.mem_singleton.1 g)
    have hcp : c.par (a.par u) = u := by
      rw [hc' _ hpm, hhead]
      show (if a.par u = a.par u then s else _) = u
      rw [if_pos rfl, hs]
    have hall : ∀ x ∈ (l ++ [j]).tail.reverse, x ≠ u := by
      intro x hx e
      have hx' : x ∈ l ++ [j] := List.mem_of_mem_tail (List.mem_reverse.1 hx)
      rw [e, ← hs] at hx'
      rcases List.mem_append.1 hx' with g | g
      · exact hsl g
      · exact hsj (List.mem_singleton.1 g)
    have w2 := Walk.snoc _ _ w1 hpu hcp hall
    have e : ((s :: l) ++ [j]).tail.reverse = (l ++ [j]).tail.reverse ++ [a.par u] := by
      show (l ++ [j]).reverse = _
      conv => lhs; rw [hhead]
      rw [List.reverse_cons]
    rw [e]
    exact w2

theorem updateTreeSame_spec {a b : NetSimplex} {x y : Int}
    (h : updateTreeSame a x y = some b) :
    (∀ z, b.par z = if z = a.u_in then a.v_in else a.par z) ∧
    (∀ z, b.predOf z = if z = a.u_in then a.in_arc else a.predOf z) ∧
    (∀ z, b.dirOf z = if z = a.u_in then
      (if a.u_in = a.srcOf a.in_arc then DIR_UP else DIR_DOWN) else a.dirOf z) := by
  simp only [updateTreeSame, Option.bind_eq_bind, Option.bind_eq_some] at h
  obtain ⟨n1, h1, n2, h2, src, hsrc, n3, h3, t, _, h⟩ := h
  have k1 : Writes [Fld.parent] a n1 := set_parent_writes h1 (by decide)
  have k2 : Writes [Fld.pred] n1 n2 := set_pred_writes h2 (by decide)
  have k3 : Writes [Fld.pred_dir] n2 n3 := set_pred_dir_writes h3 (by decide)
  have k12 : Writes [Fld.parent, Fld.pred] a n2 := (k1.wider (by decide)).follow (k2.wider (by decide))
  have hsrc' : a.srcOf a.in_arc = src := by
    have e1 : n2.source = a.source := k12.vec Fld.source (by decide)
    have e2 : n2.in_arc = a.in_arc := k12.eq_in_arc
    rw [← e2, ← srcOf_congr e1]
    exact srcOf_eq hsrc
  have fin : b.parent = n3.parent → b.pred = n3.pred → b.pred_dir = n3.pred_dir →
      (∀ z, b.par z = if z = a.u_in then a.v_in else a.par z) ∧
      (∀ z, b.predOf z = if z = a.u_in then a.in_arc else a.predOf z) ∧
      (∀ z, b.dirOf z = if z = a.u_in then
        (if a.u_in = a.srcOf a.in_arc then DIR_UP else DIR_DOWN) else a.dirOf z) := by
    intro g1 g2 g3
    refine ⟨fun z => ?_, fun z => ?_, fun z => ?_⟩
    · rw [par_congr g1, par_congr (k3.vec Fld.parent (by decide)),
        par_congr (k2.vec Fld.parent (by decide)), par_set h1 z]
    · rw [predOf_congr g2, predOf_congr (k3.vec Fld.pred (by decide)), predOf_set h2 z,
        predOf_congr (k1.vec Fld.pred (by decide)), k1.eq_u_in, k1.eq_in_arc]
    · rw [dirOf_congr g3, dirOf_set h3 z, dirOf_congr (k12.vec Fld.pred_dir (by decide)),
        k12.eq_u_in, hsrc']
  split at h
  · simp only [Option.bind_eq_some] at h
    obtain ⟨af, _, n4, h4, n5, h5, af2, _, n6, h6, n7, h7, n8, h8, h9⟩ := h
    have k9 : Writes [Fld.thread, Fld.rev_thread] n3 b :=
      (((((set_thread_writes h4 (by decide)).follow (set_rev_thread_writes h5 (by decide))).follow
        (set_thread_writes h6 (by decide))).follow (set_rev_thread_writes h7 (by decide))).follow
        (set_thread_writes h8 (by decide))).follow (set_rev_thread_writes h9 (by decide))
    exact fin (k9.vec Fld.parent (by decide)) (k9.vec Fld.pred (by decide))
      (k9.vec Fld.pred_dir (by decide))
  · simp only [Option.some.injEq] at h
    subst h
    exact fin rfl rfl rfl

theorem updateTreeStemPred_spec {a b : NetSimplex} {d : List Int} {c : Int} {R : List Int}
    (h : updateTreeStemPred a d c = some b) (hw : Walk a a.u_in a.u_out R) :
    (∀ z, b.predOf z = if z = a.u_in then a.in_arc
      else if z ∈ R then a.predOf (a.par z) else a.predOf z) ∧
    (∀ z, b.dirOf z = if z = a.u_in then
        (if a.u_in = a.srcOf a.in_arc then DIR_UP else DIR_DOWN)
      else if z ∈ R then - a.dirOf (a.par z) else a.dirOf z) := by
  simp only [updateTreeStemPred, Option.bind_eq_bind, Option.bind_eq_some] at h
  obtain ⟨n1, h1, ls, _, p, hp, n2, h2, n3, h3, src, hsrc, n4, h4, h5⟩ := h
  have k1 : Writes [Fld.rev_thread] a n1 := dirtyLoop_writes _ _ _ h1
  have k2 : Writes [Fld.pred, Fld.pred_dir, Fld.succ_num, Fld.last_succ] n1 n2 :=
    stemUpdate_writes _ _ _ _ _ _ _ h2
  have k12 : Writes predFields a n2 := (k1.wider (by decide)).follow (k2.wider (by decide))
  have k3 : Writes [Fld.pred] n2 n3 := set_pred_writes h3 (by decide)
  have k13 : Writes predFields a n3 := k12.follow (k3.wider (by decide))
  have k4 : Writes [Fld.pred_dir] n3 n4 := set_pred_dir_writes h4 (by decide)
  have k5 : Writes [Fld.succ_num] n4 b := set_succ_num_writes h5 (by decide)
  have hw1 : Walk n1 n1.u_in n1.u_out R := by
    rw [k1.eq_u_in, k1.eq_u_out]
    exact Walk.congr (k1.vec Fld.parent (by decide)) _ _ _ hw
  obtain ⟨r1, r2⟩ := stemUpdate_pred R _ n1 _ p 0 ls n2 hw1 (fun _ => (par_eq hp).symm) h2
  have ep : ∀ z, n1.par z = a.par z := par_congr (k1.vec Fld.parent (by decide))
  have epr : ∀ z, n1.predOf z = a.predOf z := predOf_congr (k1.vec Fld.pred (by decide))
  have ed : ∀ z, n1.dirOf z = a.dirOf z := dirOf_congr (k1.vec Fld.pred_dir (by decide))
  have hsrc' : a.srcOf a.in_arc = src := by
    have e1 : n3.source = a.source := k13.vec Fld.source (by decide)
    have e2 : n3.in_arc = a.in_arc := k13.eq_in_arc
    rw [← e2, ← srcOf_congr e1]
    exact srcOf_eq hsrc
  constructor
  · intro z
    rw [predOf_congr (k5.vec Fld.pred (by decide)), predOf_congr (k4.vec Fld.pred (by decide)),
      predOf_set h3 z, k12.eq_u_in, k12.eq_in_arc, r1 z, ep, epr, epr]
  · intro z
    rw [dirOf_congr (k5.vec Fld.pred_dir (by decide)), dirOf_set h4 z, k13.eq_u_in,
      dirOf_congr (k3.vec Fld.pred_dir (by decide)), r2 z, ep, ed, ed, hsrc']

set_option maxHeartbeats 1000000 in

/-- The tree update in one statement: only the vectors of the tree change; the parent
pointers of the stem from `u_in` to `u_out` are turned around and `u_in` hangs below `v_in`;
every stem node but `u_in` takes over the predecessor arc of its new parent with the opposite
direction, and `u_in` gets the entering arc. -/
theorem updateTreeStructure_tree {a b : NetSimplex} {l : List Int}
    (h : updateTreeStructure a = some b) (hw : Walk a a.u_out a.u_in l) :
    Writes treeFields { a with v_out := b.v_out } b ∧
    (∀ z, b.par z = stemParent a.v_in (l ++ [a.u_out]) z (a.par z)) ∧
    (∀ z, b.predOf z = if z = a.u_in then a.in_arc
      else if z ∈ l ++ [a.u_out] then a.predOf (b.par z) else a.predOf z) ∧
    (∀ z, b.dirOf z = if z = a.u_in then
        (if a.u_in = a.srcOf a.in_arc then DIR_UP else DIR_DOWN)
      else if z ∈ l ++ [a.u_out] then - a.dirOf (b.par z) else a.dirOf z) := by
  unfold updateTreeStructure at h
  simp only [Option.bind_eq_bind, Option.bind_eq_some] at h
  obtain ⟨ort, _, osn, _, ols, _, vo, _, h⟩ := h
  have fin : ∀ n1 : NetSimplex, Writes treeFields { a with v_out := vo } n1 →
      Writes [Fld.succ_num, Fld.last_succ] n1 b →
      (∀ z, n1.par z = stemParent a.v_in (l ++ [a.u_out]) z (a.par z)) →
      (∀ z, n1.predOf z = if z = a.u_in then a.in_arc
        else if z ∈ l ++ [a.u_out] then a.predOf (n1.par z) else a.predOf z) →
      (∀ z, n1.dirOf z = if z = a.u_in then
          (if a.u_in = a.srcOf a.in_arc then DIR_UP else DIR_DOWN)
        else if z ∈ l ++ [a.u_out] then - a.dirOf (n1.par z) else a.dirOf z) →
      Writes treeFields { a with v_out := b.v_out } b ∧
      (∀ z, b.par z = stemParent a.v_in (l ++ [a.u_out]) z (a.par z)) ∧
      (∀ z, b.predOf z = if z = a.u_in then a.in_arc
        else if z ∈ l ++ [a.u_out] then a.predOf (b.par z) else a.predOf z) ∧
      (∀ z, b.dirOf z = if z = a.u_in then
          (if a.u_in = a.srcOf a.in_arc then DIR_UP else DIR_DOWN)
        else if z ∈ l ++ [a.u_out] then - a.dirOf (b.par z) else a.dirOf z) := by
    intro n1 k1 k2 q1 q2 q3
    have kb : Writes treeFields { a with v_out := vo } b := k1.follow (k2.wider (by decide))
    have ev : b.v_out = vo := kb.eq_v_out
    have ep : ∀ z, b.par z = n1.par z := par_congr (k2.vec Fld.parent (by decide))
    refine ⟨by rw [ev]; exact kb, fun z => by rw [ep, q1], fun z => ?_, fun z => ?_⟩
    · rw [predOf_congr (k2.vec Fld.pred (by decide)), q2 z, ep]
    · rw [dirOf_congr (k2.vec Fld.pred_dir (by decide)), q3 z, ep]
  have tailW : ∀ n1 n2 : NetSimplex, Writes [Fld.last_succ] n1 n2 →
      Writes [Fld.succ_num, Fld.last_succ] n2 b → Writes [Fld.succ_num, Fld.last_succ] n1 b :=
    fun n1 n2 g1 g2 => (g1.wider (by decide)).follow g2
  split at h
  · rename_i hu
    have hu' : a.u_in = a.u_out := hu
    simp only [Option.bind_eq_some] at h
    obtain ⟨n1, h1, lj, _, lso, _, n2, h2, h⟩ := h
    have hl : l = [] := Walk.unique _ _ _ hw hu'
    obtain ⟨s1, s2, s3⟩ := updateTreeSame_spec h1
    have s1' : ∀ z, n1.par z = if z = a.u_in then a.v_in else a.par z := s1
    have s2' : ∀ z, n1.predOf z = if z = a.u_in then a.in_arc else a.predOf z := s2
    have s3' : ∀ z, n1.dirOf z = if z = a.u_in then
      (if a.u_in = a.srcOf a.in_arc then DIR_UP else DIR_DOWN) else a.dirOf z := s3
    refine fin n1 ((updateTreeSame_writes h1).wider (by decide))
      (tailW _ _ (lastSuccIn_writes _ _ _ _ _ h2) (lastSuccTail_writes h)) ?_ ?_ ?_
    · intro z
      rw [s1' z, hl, ← hu']
      rfl
    · intro z
      rw [s2' z, hl, ← hu']
      by_cases hz : z = a.u_in
      · rw [if_pos hz, if_pos hz]
      · rw [if_neg hz, if_neg hz, if_neg (by simpa using hz)]
    · intro z
      rw [s3' z, hl, ← hu']
      by_cases hz : z = a.u_in
      · rw [if_pos hz, if_pos hz]
      · rw [if_neg hz, if_neg hz, if_neg (by simpa using hz)]
  · rename_i hu
    have hu' : a.u_in ≠ a.u_out := hu
    simp only [Option.bind_eq_some] at h
    obtain ⟨n1, h1, lj, _, lso, _, n2, h2, h⟩ := h
    simp only [updateTreeStem, Option.bind_eq_bind, Option.bind_eq_some] at h1
    obtain ⟨⟨r1, r2⟩, g1, g2⟩ := h1
    have g2' : updateTreeStemPred r1 r2 osn = some n1 := g2
    have kt : Writes threadFields { a with v_out := vo } r1 := updateTreeStemThread_writes g1
    have kp : Writes predFields r1 n1 := updateTreeStemPred_writes g2'
    have hw0 : Walk { a with v_out := vo } a.u_out a.u_in l :=
      @Walk.congr a { a with v_out := vo } rfl a.u_out l _ hw
    have p0 := @updateTreeStemThread_parent { a with v_out := vo } r1 ort ols r2 l g1 hw0
    have p1 : ∀ z, r1.par z = stemParent a.v_in (l ++ [a.u_out]) z (a.par z) := p0
    have wd : Walk r1 a.u_in a.u_out ((l ++ [a.u_out]).tail.reverse) :=
      stemParent_down l a.u_in a.v_in hw (fun z _ => p1 z)
    have eui : r1.u_in = a.u_in := kt.eq_u_in
    have euo : r1.u_out = a.u_out := kt.eq_u_out
    have eia : r1.in_arc = a.in_arc := kt.eq_in_arc
    have wd' : Walk r1 r1.u_in r1.u_out ((l ++ [a.u_out]).tail.reverse) := by
      rw [eui, euo]
      exact wd
    obtain ⟨s2, s3⟩ := updateTreeStemPred_spec g2' wd'
    have epr : ∀ z, r1.predOf z = a.predOf z := predOf_congr (kt.vec Fld.pred (by decide))
    have edr : ∀ z, r1.dirOf z = a.dirOf z := dirOf_congr (kt.vec Fld.pred_dir (by decide))
    have esr : r1.srcOf r1.in_arc = a.srcOf a.in_arc := by
      rw [eia]
      exact srcOf_congr (kt.vec Fld.source (by decide)) _
    have epn : ∀ z, n1.par z = r1.par z := par_congr (kp.vec Fld.parent (by decide))
    have hmem : ∀ z, z ≠ a.u_in →
        (z ∈ (l ++ [a.u_out]).tail.reverse ↔ z ∈ l ++ [a.u_out]) := by
      intro z hz
      rw [List.mem_reverse]
      cases l with
      | nil => exact absurd (show a.u_in = a.u_out from hw) hu'
      | cons s l2 =>
        obtain ⟨hs, _, _⟩ := hw
        show z ∈ l2 ++ [a.u_out] ↔ z ∈ s :: (l2 ++ [a.u_out])
        rw [List.mem_cons, hs]
        exact ⟨fun m => Or.inr m, fun m => m.resolve_left hz⟩
    have kt' : Writes treeFields { a with v_out := vo } r1 := kt.wider (by decide)
    have kp' : Writes treeFields r1 n1 := kp.wider (by decide)
    have kl : Writes [Fld.last_succ] n1 n2 := lastSuccIn_writes _ _ _ _ _ h2
    have ktl : Writes [Fld.succ_num, Fld.last_succ] n2 b := lastSuccTail_writes h
    refine fin n1 (kt'.follow kp') (tailW _ _ kl ktl) ?_ ?_ ?_
    · intro z
      rw [epn, p1]
    · intro z
      rw [s2 z, eui, eia, epn, epr, epr]
      by_cases hz : z = a.u_in
      · rw [if_pos hz, if_pos hz]
      · rw [if_neg hz, if_neg hz]
        by_cases hm : z ∈ l ++ [a.u_out]
        · rw [if_pos hm, if_pos ((hmem z hz).2 hm)]
        · rw [if_neg hm, if_neg (fun m => hm ((hmem z hz).1 m))]
    · intro z
      rw [s3 z, eui, esr, epn, edr, edr]
      by_cases hz : z = a.u_in
      · rw [if_pos hz, if_pos hz]
      · rw [if_neg hz, if_neg hz]
        by_cases hm : z ∈ l ++ [a.u_out]
        · rw [if_pos hm, if_pos ((hmem z hz).2 hm)]
        · rw [if_neg hm, if_neg (fun m => hm ((hmem z hz).1 m))]

end NetSimplex

/-! ## The tree update keeps a spanning tree -/

namespace NetSimplex

theorem TreeBasis.spanning {ns : NetSimplex} {n m : Nat} (h : TreeBasis ns n m) :
    SpanningTree ns n m :=
  ⟨h.sized, h.nodes, h.root, h.parent_root, h.pred_root, h.reach, h.parent_range,
    h.pred_range, h.pred_arc⟩

theorem TreeBasis.transfer {a b : NetSimplex} {n m : Nat} (h : TreeBasis a n m)
    (hs : b.Sized n m) (e1 : b.node_num = a.node_num) (e2 : b.root = a.root)
    (e3 : b.parent = a.parent) (e4 : b.pred = a.pred) (e5 : b.pred_dir = a.pred_dir)
    (e6 : b.source = a.source) (e7 : b.target = a.target) (e8 : b.succ_num = a.succ_num) :
    TreeBasis b n m := by
  have p : b.par = a.par := funext (par_congr e3)
  have q : b.predOf = a.predOf := funext (predOf_congr e4)
  have d : b.dirOf = a.dirOf := funext (dirOf_congr e5)
  have s : b.srcOf = a.srcOf := funext (srcOf_congr e6)
  have t : b.tgtOf = a.tgtOf := funext (tgtOf_congr e7)
  have c : b.succOf = a.succOf := funext fun x => by unfold succOf; rw [e8]
  exact
    { sized := hs
      nodes := e1.trans h.nodes
      root := e2.trans h.root
      parent_root := by rw [e3]; exact h.parent_root
      pred_root := by rw [e4]; exact h.pred_root
      reach := by rw [p]; exact h.reach
      parent_range := by rw [p]; exact h.parent_range
      pred_range := by rw [q]; exact h.pred_range
      pred_arc := by rw [p, q, d, s, t]; exact h.pred_arc
      succ_lt := by rw [p, c]; exact h.succ_lt }

theorem Walk.start_mem {ns : NetSimplex} {j u : Int} {l : List Int} (h : Walk ns j u l) :
    u ∈ l ++ [j] := by
  cases l with
  | nil =>
    have : u = j := h
    simp [this]
  | cons s l =>
    obtain ⟨hs, _, _⟩ := h
    simp [hs]

theorem Walk.stem_nodup {ns : NetSimplex} {j u : Int} {l : List Int} (h : Walk ns j u l) :
    (l ++ [j]).Nodup := by
  refine List.Nodup.append (Walk.nodup _ _ h) (List.nodup_singleton _) ?_
  intro x hx hj
  exact Walk.head_ne h x hx (List.mem_singleton.1 hj)

theorem stemParent_head {ns : NetSimplex} {j u : Int} {l : List Int} (h : Walk ns j u l)
    (v0 d : Int) : stemParent v0 (l ++ [j]) u d = v0 := by
  cases l with
  | nil =>
    have : u = j := h
    show (if u = j then v0 else d) = v0
    rw [if_pos this]
  | cons s l =>
    obtain ⟨hs, _, _⟩ := h
    show (if u = s then v0 else _) = v0
    rw [if_pos hs.symm]

/-- On the stem, the new parent of a node other than the first is the stem node whose old
parent it was. -/
theorem stemParent_child {ns : NetSimplex} {j : Int} : ∀ (l : List Int) (u v0 d : Int),
    Walk ns j u l → ∀ x ∈ l ++ [j], x ≠ u →
    ∃ c ∈ l, stemParent v0 (l ++ [j]) x d = c ∧ ns.par c = x := by
  intro l
  induction l with
  | nil =>
    intro u v0 d hw x hx hxu
    have hu : u = j := hw
    exact absurd ((List.mem_singleton.1 hx).trans hu.symm) hxu
  | cons s l ih =>
    intro u v0 d hw x hx hxu
    obtain ⟨hs, hne, hw'⟩ := hw
    have hxs : x ≠ s := by rw [hs]; exact hxu
    have hx' : x ∈ l ++ [j] := (List.mem_cons.1 hx).resolve_left hxs
    have e : stemParent v0 ((s :: l) ++ [j]) x d = stemParent s (l ++ [j]) x d := by
      show (if x = s then _ else _) = _
      rw [if_neg hxs]
      rfl
    rw [e]
    by_cases hxp : x = ns.par u
    · refine ⟨s, List.mem_cons_self _ _, ?_, by rw [hs, hxp]⟩
      rw [hxp]
      exact stemParent_head hw' s d
    · obtain ⟨c, hc, g1, g2⟩ := ih (ns.par u) s d hw' x hx' hxp
      exact ⟨c, List.mem_cons_of_mem _ hc, g1, g2⟩

/-- On the stem, the old parent of a stem node has that node as its new parent. -/
theorem stemParent_parent {ns : NetSimplex} {j : Int} : ∀ (l : List Int) (u v0 d : Int),
    Walk ns j u l → ∀ c ∈ l, ns.par c ∈ l ++ [j] ∧ ns.par c ≠ u ∧
      stemParent v0 (l ++ [j]) (ns.par c) d = c := by
  intro l
  induction l with
  | nil => intro u v0 d _ c hc; simp at hc
  | cons s l ih =>
    intro u v0 d hw c hc
    have hnd := Walk.stem_nodup hw
    obtain ⟨hs, hne, hw'⟩ := hw
    have hsn : s ∉ l ++ [j] := (List.nodup_cons.1 hnd).1
    have key : ∀ y ∈ l ++ [j], stemParent s (l ++ [j]) y d = c →
        ns.par c = y → ns.par c ∈ (s :: l) ++ [j] ∧ ns.par c ≠ u ∧
        stemParent v0 ((s :: l) ++ [j]) (ns.par c) d = c := by
      intro y hy g1 g2
      have hys : y ≠ s := fun e => hsn (by rw [← e]; exact hy)
      refine ⟨by rw [g2]; exact List.mem_cons_of_mem _ hy, by rw [g2, ← hs]; exact hys, ?_⟩
      rw [g2]
      show (if y = s then _ else _) = _
      rw [if_neg hys]
      exact g1
    rcases List.mem_cons.1 hc with e | hc'
    · have hp : ns.par c = ns.par u := by rw [e, hs]
      exact key (ns.par u) (Walk.start_mem hw')
        (by rw [stemParent_head hw' s d, e]) hp
    · obtain ⟨g1, _, g3⟩ := ih (ns.par u) s d hw' c hc'
      exact key (ns.par c) g1 g3 rfl

theorem par_iter_fixed (ns : NetSimplex) {u : Int} (h : ns.par u = u) :
    ∀ k : Nat, (ns.par)^[k] u = u := by
  intro k
  induction k with
  | zero => rfl
  | succ k ih => rw [Function.iterate_succ_apply, h, ih]

/-- Where a parent chain avoids the stem, it is the same before and after the update. -/
theorem chain_off_stem {a b : NetSimplex} {S : List Int} {v0 : Int}
    (hp : ∀ z, b.par z = stemParent v0 S z (a.par z)) : ∀ (K : Nat) (w : Int),
    (∀ i, (a.par)^[i] w ∉ S) → (b.par)^[K] w = (a.par)^[K] w := by
  intro K
  induction K with
  | zero => intro w _; rfl
  | succ K ih =>
    intro w hw
    have h0 : w ∉ S := hw 0
    have e : b.par w = a.par w := by rw [hp, stemParent_not_mem S _ _ _ h0]
    rw [Function.iterate_succ_apply, Function.iterate_succ_apply, e]
    exact ih _ (fun i => by
      have := hw (i + 1)
      rwa [Function.iterate_succ_apply] at this)

/-- Every node of the stem reaches `v0` along the new parent pointers. -/
theorem stem_reaches {a b : NetSimplex} {j u v0 : Int} {l : List Int} (hw : Walk a j u l)
    (hp : ∀ z, b.par z = stemParent v0 (l ++ [j]) z (a.par z)) :
    ∀ x ∈ l ++ [j], ∃ k : Nat, (b.par)^[k] x = v0 := by
  intro x hx
  have hu : b.par u = v0 := by rw [hp, stemParent_head hw]
  by_cases hxu : x = u
  · exact ⟨1, by rw [hxu]; exact hu⟩
  · have wd := stemParent_down l u v0 hw (fun z _ => hp z)
    have hx' : x ∈ (l ++ [j]).tail.reverse := by
      rw [List.mem_reverse]
      cases l with
      | nil =>
        have : u = j := hw
        exact absurd ((List.mem_singleton.1 hx).trans this.symm) hxu
      | cons s l2 =>
        obtain ⟨hs, _, _⟩ := hw
        exact (List.mem_cons.1 hx).resolve_left (by rw [hs]; exact hxu)
    obtain ⟨h1, h2⟩ := Walk.iter _ _ wd
    obtain ⟨i, hi, hxi⟩ := h2 x hx'
    refine ⟨((l ++ [j]).tail.reverse.length - i) + 1, ?_⟩
    rw [Function.iterate_succ_apply', ← hxi, ← Function.iterate_add_apply,
      Nat.sub_add_cancel (le_of_lt hi), h1]
    exact hu

/-- After the update every node that reached the root still does. -/
theorem reach_after {a b : NetSimplex} {j u v0 : Int} {l : List Int} {r : Int}
    (hw : Walk a j u l) (hp : ∀ z, b.par z = stemParent v0 (l ++ [j]) z (a.par z))
    (hv : ∃ k : Nat, (b.par)^[k] v0 = r) : ∀ (K : Nat) (w : Int),
    (a.par)^[K] w = r → ∃ k : Nat, (b.par)^[k] w = r := by
  intro K
  induction K with
  | zero => intro w h; exact ⟨0, h⟩
  | succ K ih =>
    intro w h
    by_cases hm : w ∈ l ++ [j]
    · obtain ⟨k1, h1⟩ := stem_reaches hw hp w hm
      obtain ⟨k2, h2⟩ := hv
      exact ⟨k2 + k1, by rw [Function.iterate_add_apply, h1, h2]⟩
    · have e : b.par w = a.par w := by rw [hp, stemParent_not_mem _ _ _ _ hm]
      rw [Function.iterate_succ_apply] at h
      obtain ⟨k, hk⟩ := ih _ h
      exact ⟨k + 1, by rw [Function.iterate_succ_apply, e, hk]⟩

/-- The parent chain of the far end of the entering arc never meets the walk of the near
end below the join. -/
theorem chain_avoid {x : NetSimplex} {n m : Nat} (hb : TreeBasis x n m) {j u v : Int}
    {lu lv : List Int} (wu : Walk x j u lu) (wv : Walk x j v lv)
    (hd : ∀ y ∈ lu, y ∉ lv) (hr : ∀ y ∈ lu, 0 ≤ y ∧ y < n) :
    ∀ i, (x.par)^[i] v ∉ lu := by
  intro i hm
  by_cases hi : i < lv.length
  · exact hd _ hm (Walk.mem_iter _ _ wv i hi)
  · obtain ⟨hv1, _⟩ := Walk.iter _ _ wv
    obtain ⟨hu1, hu2⟩ := Walk.iter _ _ wu
    obtain ⟨t, ht, hst⟩ := hu2 _ hm
    have e1 : (x.par)^[i] v = (x.par)^[i - lv.length] j := by
      rw [← hv1, ← Function.iterate_add_apply, Nat.sub_add_cancel (not_lt.1 hi)]
    have e2 : (x.par)^[lu.length - t] ((x.par)^[i] v) = j := by
      rw [← hst, ← Function.iterate_add_apply, Nat.sub_add_cancel (le_of_lt ht), hu1]
    have e3 : (x.par)^[(i - lv.length) + (lu.length - t)] ((x.par)^[i] v) = (x.par)^[i] v := by
      rw [Function.iterate_add_apply, e2, ← e1]
    obtain ⟨r0, r1⟩ := hr _ hm
    have hpos : (i - lv.length) + (lu.length - t) = ((i - lv.length) + (lu.length - t) - 1) + 1 := by
      omega
    rw [hpos] at e3
    exact hb.acyclic _ _ r0 r1 e3

theorem rd_parent_par {ns : NetSimplex} {n m : Nat} (hs : ns.Sized n m) {u : Int}
    (h0 : 0 ≤ u) (hn : u ≤ n) : rd ns.parent u = some (ns.par u) := by
  have hl : (ns.parent.length : Int) = n + 1 := by
    have := hs.1 Fld.parent
    simp only [Fld.isNode, if_true] at this
    have e : ns.parent.length = n + 1 := this
    rw [e]
    simp
  obtain ⟨v, hv⟩ := rd_of_range ns.parent h0 (by omega)
  rw [hv, par_eq hv]

theorem rd_pred_predOf {ns : NetSimplex} {n m : Nat} (hs : ns.Sized n m) {u : Int}
    (h0 : 0 ≤ u) (hn : u ≤ n) : rd ns.pred u = some (ns.predOf u) := by
  have hl : (ns.pred.length : Int) = n + 1 := by
    have := hs.1 Fld.pred
    simp only [Fld.isNode, if_true] at this
    have e : ns.pred.length = n + 1 := this
    rw [e]
    simp
  obtain ⟨v, hv⟩ := rd_of_range ns.pred h0 (by omega)
  rw [hv, predOf_eq hv]

set_option maxHeartbeats 1000000 in

/-- The tree update keeps a spanning tree: on a tree basis whose stem from `u_in` up to
`u_out` lies among the real nodes, with `v_in` outside the subtree of `u_out` and the
entering arc joining `u_in` and `v_in`, the updated vectors describe a spanning tree again
and the predecessor arcs are exchanged. -/
theorem turn_tree {a b : NetSimplex} {n m : Nat} {l : List Int} (hb : TreeBasis a n m)
    (hw : Walk a a.u_out a.u_in l) (hl : ∀ y ∈ l ++ [a.u_out], 0 ≤ y ∧ y < n)
    (hv : 0 ≤ a.v_in ∧ a.v_in ≤ n) (hav : ∀ i, (a.par)^[i] a.v_in ∉ l ++ [a.u_out])
    (he : (a.u_in = a.srcOf a.in_arc ∧ a.v_in = a.tgtOf a.in_arc) ∨
      (a.u_in = a.tgtOf a.in_arc ∧ a.v_in = a.srcOf a.in_arc ∧
        a.srcOf a.in_arc ≠ a.tgtOf a.in_arc))
    (hin : 0 ≤ a.in_arc ∧ a.in_arc < m)
    (h : updateTreeStructure a = some b) : SpanningTree b n m ∧ Exchanged a b n := by
  obtain ⟨W, P, PR, DR⟩ := updateTreeStructure_tree h hw
  have hroot : (n : Int) ∉ l ++ [a.u_out] := fun hm => by
    have := (hl _ hm).2
    omega
  have huin : a.u_in ∈ l ++ [a.u_out] := Walk.start_mem hw
  have huout : a.u_out ∈ l ++ [a.u_out] := by simp
  have hs0 : NetSimplex.Sized { a with v_out := b.v_out } n m :=
    ⟨fun f => by
      have := hb.sized.1 f
      cases f <;> exact this, hb.sized.2⟩
  have hsb : b.Sized n m := W.keeps_sized hs0
  have esrc : ∀ e, b.srcOf e = a.srcOf e := srcOf_congr (W.vec Fld.source (by decide))
  have etgt : ∀ e, b.tgtOf e = a.tgtOf e := tgtOf_congr (W.vec Fld.target (by decide))
  have pOff : ∀ z, z ∉ l ++ [a.u_out] → b.par z = a.par z := fun z hz => by
    rw [P, stemParent_not_mem _ _ _ _ hz]
  have pIn : b.par a.u_in = a.v_in := by rw [P, stemParent_head hw]
  have prOff : ∀ z, z ∉ l ++ [a.u_out] → b.predOf z = a.predOf z := fun z hz => by
    have hz1 : z ≠ a.u_in := fun e => hz (by rw [e]; exact huin)
    rw [PR, if_neg hz1, if_neg hz]
  have drOff : ∀ z, z ∉ l ++ [a.u_out] → b.dirOf z = a.dirOf z := fun z hz => by
    have hz1 : z ≠ a.u_in := fun e => hz (by rw [e]; exact huin)
    rw [DR, if_neg hz1, if_neg hz]
  have onStem : ∀ z ∈ l ++ [a.u_out], z ≠ a.u_in →
      ∃ c ∈ l, b.par z = c ∧ a.par c = z ∧ b.predOf z = a.predOf c ∧
        b.dirOf z = - a.dirOf c := by
    intro z hz hz1
    obtain ⟨c, hc, g1, g2⟩ := stemParent_child l a.u_in a.v_in (a.par z) hw z hz hz1
    have g1' : b.par z = c := by rw [P]; exact g1
    refine ⟨c, hc, g1', g2, ?_, ?_⟩
    · rw [PR, if_neg hz1, if_pos hz, g1']
    · rw [DR, if_neg hz1, if_pos hz, g1']
  have hlr : ∀ c ∈ l, 0 ≤ c ∧ c < n := fun c hc => hl c (List.mem_append_left _ hc)
  have hvr : ∃ k : Nat, (b.par)^[k] a.v_in = n := by
    by_cases hvn : a.v_in = n
    · exact ⟨0, hvn⟩
    · obtain ⟨k, hk⟩ := hb.reach a.v_in hv.1 (lt_of_le_of_ne hv.2 hvn)
      exact ⟨k, by rw [chain_off_stem P k _ hav, hk]⟩
  have tree : SpanningTree b n m :=
    { sized := hsb
      nodes := W.eq_node_num.trans hb.nodes
      root := W.eq_root.trans hb.root
      parent_root := by
        rw [rd_parent_par hsb (by omega) (le_refl _), pOff _ hroot, hb.par_root]
      pred_root := by
        rw [rd_pred_predOf hsb (by omega) (le_refl _), prOff _ hroot]
        exact congrArg some (predOf_eq hb.pred_root)
      reach := fun u h0 h1 => by
        obtain ⟨K, hK⟩ := hb.reach u h0 h1
        exact reach_after hw P hvr K u hK
      parent_range := fun u h0 h1 => by
        by_cases hm : u ∈ l ++ [a.u_out]
        · by_cases hu : u = a.u_in
          · rw [hu, pIn]
            exact hv
          · obtain ⟨c, hc, g1, _⟩ := onStem u hm hu
            rw [g1]
            exact ⟨(hlr c hc).1, le_of_lt (hlr c hc).2⟩
        · rw [pOff u hm]
          exact hb.parent_range u h0 h1
      pred_range := fun u h0 h1 => by
        by_cases hm : u ∈ l ++ [a.u_out]
        · by_cases hu : u = a.u_in
          · rw [PR, if_pos hu]
            exact hin
          · obtain ⟨c, hc, _, _, g3, _⟩ := onStem u hm hu
            rw [g3]
            exact hb.pred_range c (hlr c hc).1 (hlr c hc).2
        · rw [prOff u hm]
          exact hb.pred_range u h0 h1
      pred_arc := fun u h0 h1 => by
        rw [esrc, etgt]
        by_cases hm : u ∈ l ++ [a.u_out]
        · by_cases hu : u = a.u_in
          · rw [hu, pIn, PR, if_pos rfl, DR, if_pos rfl]
            rcases he with ⟨g1, g2⟩ | ⟨g1, g2, g3⟩
            · exact Or.inl ⟨by rw [if_pos g1], g1.symm, g2.symm⟩
            · exact Or.inr ⟨by rw [if_neg (fun e => g3 (e.symm.trans g1))], g2.symm, g1.symm⟩
          · obtain ⟨c, hc, g1, g2, g3, g4⟩ := onStem u hm hu
            rw [g1, g3, g4]
            rcases hb.pred_arc c (hlr c hc).1 (hlr c hc).2 with ⟨d1, d2, d3⟩ | ⟨d1, d2, d3⟩
            · exact Or.inr ⟨by rw [d1]; rfl, d2, by rw [d3, g2]⟩
            · exact Or.inl ⟨by rw [d1]; rfl, by rw [d2, g2], d3⟩
        · rw [pOff u hm, prOff u hm, drOff u hm]
          exact hb.pred_arc u h0 h1 }
  refine ⟨tree, ?_⟩
  intro e
  have hor := hl _ huout
  constructor
  · rintro ⟨u, h0, h1, rfl⟩
    by_cases hm : u ∈ l ++ [a.u_out]
    · by_cases hu : u = a.u_in
      · exact Or.inl (by rw [PR, if_pos hu])
      · obtain ⟨c, hc, _, _, g3, _⟩ := onStem u hm hu
        refine Or.inr ⟨⟨c, (hlr c hc).1, (hlr c hc).2, g3.symm⟩, ?_⟩
        rw [g3]
        intro q
        have := hb.pred_inj (hlr c hc).1 (hlr c hc).2 hor.1 hor.2 q
        exact Walk.head_ne hw c hc this
    · refine Or.inr ⟨⟨u, h0, h1, (prOff u hm).symm⟩, ?_⟩
      rw [prOff u hm]
      intro q
      have := hb.pred_inj h0 h1 hor.1 hor.2 q
      exact hm (by rw [this]; exact huout)
  · rintro (rfl | ⟨⟨w, h0, h1, rfl⟩, hne⟩)
    · exact ⟨a.u_in, (hl _ huin).1, (hl _ huin).2, by rw [PR, if_pos rfl]⟩
    · have hwo : w ≠ a.u_out := fun q => hne (by rw [q])
      by_cases hm : w ∈ l ++ [a.u_out]
      · have hwl : w ∈ l := by
          rcases List.mem_append.1 hm with g | g
          · exact g
          · exact absurd (List.mem_singleton.1 g) hwo
        obtain ⟨g1, g2, g3⟩ := stemParent_parent l a.u_in a.v_in (a.par (a.par w)) hw w hwl
        have g3' : b.par (a.par w) = w := by rw [P]; exact g3
        refine ⟨a.par w, (hl _ g1).1, (hl _ g1).2, ?_⟩
        rw [PR, if_neg g2, if_pos g1, g3']
      · exact ⟨w, h0, h1, prOff w hm⟩

/-- When `findLeavingArc` reports a leaving arc, `u_out` lies on the walk of `u_in` to the
join. -/
theorem findLeavingArc_member {a b : NetSimplex} (h : findLeavingArc a = some (true, b)) :
    ∃ w1 w2, Walk a a.join (a.srcOf a.in_arc) w1 ∧ Walk a a.join (a.tgtOf a.in_arc) w2 ∧
      ((b.u_in = a.srcOf a.in_arc ∧ b.v_in = a.tgtOf a.in_arc ∧ b.u_out ∈ w1) ∨
        (b.u_in = a.tgtOf a.in_arc ∧ b.v_in = a.srcOf a.in_arc ∧ b.u_out ∈ w2)) := by
  simp only [findLeavingArc, Option.bind_eq_bind, Option.bind_eq_some] at h
  obtain ⟨first, hfi, second, hse, ⟨n1, r1⟩, h1, ⟨n2, r2⟩, h2, h⟩ := h
  obtain ⟨f1, l1, w1, _, _, c1'⟩ := findLeavingFirst_walk _ _ _ _ _ _ h1
  have c1 : (r1 = 0) ∨ (r1 = 1 ∧ ∃ pre post, l1 = pre ++ n1.u_out :: post) := by
    rcases c1' with ⟨_, _, c, _⟩ | ⟨c, _, pre, post, c3, _⟩
    · exact Or.inl c
    · exact Or.inr ⟨c, pre, post, c3⟩
  have h2' : findLeavingSecond n1.loopBound second n1 r1 = some (n2, r2) := h2
  obtain ⟨f2, l2, w2, _, _, c2'⟩ := findLeavingSecond_walk _ _ _ _ _ _ h2'
  have c2 : (n2.u_out = n1.u_out ∧ r2 = r1) ∨
      (r2 = 2 ∧ ∃ pre post, l2 = pre ++ n2.u_out :: post) := by
    rcases c2' with ⟨_, cu, c, _⟩ | ⟨c, _, pre, post, c3, _⟩
    · exact Or.inl ⟨cu, c⟩
    · exact Or.inr ⟨c, pre, post, c3⟩
  have e1p : n1.parent = a.parent := by rw [f1]
  have e1j : n1.join = a.join := by rw [f1]
  have w1' : a.Walk a.join first l1 :=
    @Walk.congr { a with delta := a.MAX } a rfl a.join l1 _ w1
  have w2' : a.Walk a.join second l2 := by
    have := @Walk.congr n1 a e1p.symm n1.join l2 _ w2
    rw [e1j] at this
    exact this
  rw [srcOf_eq hfi, tgtOf_eq hse]
  refine ⟨l1, l2, w1', w2', ?_⟩
  split at h
  · rename_i hr
    have hr' : r2 = 1 := hr
    simp only [Option.some.injEq, Prod.mk.injEq] at h
    obtain ⟨_, rfl⟩ := h
    rcases c2 with ⟨cu, cr⟩ | ⟨cr, _⟩
    · rcases c1 with c | ⟨_, pre, post, c3⟩
      · omega
      · refine Or.inl ⟨rfl, rfl, ?_⟩
        show n2.u_out ∈ l1
        rw [cu, c3]
        simp
    · omega
  · rename_i hr
    have hr' : r2 ≠ 1 := hr
    simp only [Option.some.injEq, Prod.mk.injEq] at h
    obtain ⟨hd, rfl⟩ := h
    have hr0 : r2 ≠ 0 := by simpa using hd
    rcases c2 with ⟨cu, cr⟩ | ⟨cr, pre, post, c3⟩
    · rcases c1 with c | ⟨c, _⟩
      · omega
      · omega
    · refine Or.inr ⟨rfl, rfl, ?_⟩
      show n2.u_out ∈ l2
      rw [c3]
      simp

/-- The basis exchange of one pivot, from the state before `findJoinNode` to the state
after `updateTreeStructure`. -/
theorem pivot_tree {x x1 x2 x3 x4 : NetSimplex} {n m : Nat} (hb : TreeBasis x n m)
    (hs : 0 ≤ x.srcOf x.in_arc ∧ x.srcOf x.in_arc ≤ n)
    (ht : 0 ≤ x.tgtOf x.in_arc ∧ x.tgtOf x.in_arc ≤ n)
    (h1 : findJoinNode x = some x1) (h2 : findLeavingArc x1 = some (true, x2))
    (h3 : changeFlow x2 = some x3) (h4 : updateTreeStructure x3 = some x4) :
    SpanningTree x4 n m ∧
    (∀ e : Int, (∃ u : Int, 0 ≤ u ∧ u < n ∧ x4.predOf u = e) ↔
      (e = x.in_arc ∨ ((∃ u : Int, 0 ≤ u ∧ u < n ∧ x.predOf u = e) ∧
        e ≠ x.predOf x2.u_out))) ∧
    (0 ≤ x2.u_out ∧ x2.u_out < n) := by
  obtain ⟨e2, l1, l2, wl1, wl2, hdis, hr1, hr2, hj0, hjn, _⟩ := pivot_cycle hb h1 h2 hs ht
  obtain ⟨e1, _, ⟨s, hsrc⟩, _⟩ := findJoinNode_spec h1
  obtain ⟨w1, w2, ww1, ww2, hmem⟩ := findLeavingArc_member h2
  obtain ⟨e3, hfl, hsl, _⟩ := changeFlow_spec h3
  have ej : x2.join = x1.join := by
    have := (findLeavingArc_walks h2).1
    rw [this]
  have e1p : x1.parent = x.parent := by rw [e1]
  have e1s : x1.source = x.source := by rw [e1]
  have e1t : x1.target = x.target := by rw [e1]
  have e1i : x1.in_arc = x.in_arc := by rw [e1]
  have hsrc1 : x1.srcOf x1.in_arc = x.srcOf x.in_arc := by rw [e1i]; exact srcOf_congr e1s _
  have htgt1 : x1.tgtOf x1.in_arc = x.tgtOf x.in_arc := by rw [e1i]; exact tgtOf_congr e1t _
  rw [hsrc1, htgt1] at hmem
  rw [hsrc1] at ww1
  rw [htgt1] at ww2
  have ww1' : Walk x x2.join (x.srcOf x.in_arc) w1 := by
    rw [ej]
    exact Walk.congr e1p.symm _ _ _ ww1
  have ww2' : Walk x x2.join (x.tgtOf x.in_arc) w2 := by
    rw [ej]
    exact Walk.congr e1p.symm _ _ _ ww2
  have q1 : w1 = l1 := Walk.unique _ _ _ ww1' wl1
  have q2 : w2 = l2 := Walk.unique _ _ _ ww2' wl2
  rw [q1, q2] at hmem
  have e23 : x3 = { x with join := x2.join, delta := x2.delta, u_out := x2.u_out,
                           u_in := x2.u_in, v_in := x2.v_in, flow := x3.flow,
                           state := x3.state } := by
    rw [e3]
    conv => lhs; rw [e2]
  have f_par : x3.parent = x.parent := by rw [e23]
  have f_pred : x3.pred = x.pred := by rw [e23]
  have f_dir : x3.pred_dir = x.pred_dir := by rw [e23]
  have f_src : x3.source = x.source := by rw [e23]
  have f_tgt : x3.target = x.target := by rw [e23]
  have f_succ : x3.succ_num = x.succ_num := by rw [e23]
  have f_in : x3.in_arc = x.in_arc := by rw [e23]
  have f_uo : x3.u_out = x2.u_out := by rw [e23]
  have f_ui : x3.u_in = x2.u_in := by rw [e23]
  have f_vi : x3.v_in = x2.v_in := by rw [e23]
  have hs3 : x3.Sized n m := by
    refine ⟨fun f => ?_, ?_⟩
    · have := hb.sized.1 f
      have hf : (x3.arr f).length = (x.arr f).length := by
        cases f <;> first | (rw [e23]; rfl) | exact hfl.trans (by rw [e2]; rfl)
      rw [hf]
      exact this
    · have : x2.state = x.state := by rw [e2]
      rw [hsl, this]
      exact hb.sized.2
  have hb3 : TreeBasis x3 n m := hb.transfer hs3 (by rw [e23]) (by rw [e23]) f_par f_pred f_dir
    f_src f_tgt f_succ
  have p3 : x3.par = x.par := funext (par_congr f_par)
  have hin : 0 ≤ x.in_arc ∧ x.in_arc < m := by
    obtain ⟨g0, g1⟩ := rd_some_range hsrc
    have := hb.sized.1 Fld.source
    simp only [Fld.isNode] at this
    have e : x.source.length = m := this
    rw [e] at g1
    exact ⟨g0, by exact_mod_cast g1⟩
  have main : ∀ (lu lv : List Int) (u v : Int), Walk x x2.join u lu → Walk x x2.join v lv →
      (∀ y ∈ lu, y ∉ lv) → (∀ y ∈ lu, 0 ≤ y ∧ y < n) → (0 ≤ v ∧ v ≤ n) →
      x2.u_in = u → x2.v_in = v → x2.u_out ∈ lu →
      ((u = x.srcOf x.in_arc ∧ v = x.tgtOf x.in_arc) ∨
        (u = x.tgtOf x.in_arc ∧ v = x.srcOf x.in_arc ∧
          x.srcOf x.in_arc ≠ x.tgtOf x.in_arc)) →
      SpanningTree x4 n m ∧ Exchanged x3 x4 n ∧ (0 ≤ x2.u_out ∧ x2.u_out < n) := by
    intro lu lv u v wu wv hd hr hvr hu hv hm he
    obtain ⟨pre, post, hsplit⟩ := List.append_of_mem hm
    rw [hsplit] at wu
    obtain ⟨wpre, _⟩ := Walk.append pre x2.u_out post u wu
    have hsub : ∀ y ∈ pre ++ [x2.u_out], y ∈ lu := by
      intro y hy
      rw [hsplit]
      rcases List.mem_append.1 hy with g | g
      · exact List.mem_append_left _ g
      · rw [List.mem_singleton.1 g]
        simp
    have wu' : Walk x x2.join u lu := by rw [hsplit]; exact wu
    have hav := chain_avoid hb wu' wv hd hr
    have w3 : Walk x3 x3.u_out x3.u_in pre := by
      rw [f_uo, f_ui, hu]
      exact Walk.congr f_par _ _ _ wpre
    have r := turn_tree hb3 w3
      (by rw [f_uo]; exact fun y hy => hr y (hsub y hy))
      (by rw [f_vi, hv]; exact hvr)
      (by
        rw [f_uo, f_vi, hv, p3]
        exact fun i hi => hav i (hsub _ hi))
      (by
        rw [f_ui, f_vi, hu, hv, f_in, srcOf_congr f_src, tgtOf_congr f_tgt]
        exact he)
      (by rw [f_in]; exact hin) h4
    exact ⟨r.1, r.2, hr _ hm⟩
  have fin : SpanningTree x4 n m ∧ Exchanged x3 x4 n ∧ (0 ≤ x2.u_out ∧ x2.u_out < n) := by
    rcases hmem with ⟨g1, g2, g3⟩ | ⟨g1, g2, g3⟩
    · exact main l1 l2 _ _ wl1 wl2 hdis hr1 ht g1 g2 g3 (Or.inl ⟨rfl, rfl⟩)
    · have hne : x.srcOf x.in_arc ≠ x.tgtOf x.in_arc := by
        intro e
        rw [e] at wl1
        have := Walk.unique _ _ _ wl1 wl2
        rw [← this] at g3
        exact hdis _ g3 (by rw [← this]; exact g3)
      exact main l2 l1 _ _ wl2 wl1 (fun y hy hy1 => hdis y hy1 hy) hr2 hs g1 g2 g3
        (Or.inr ⟨rfl, rfl, hne⟩)
  obtain ⟨t1, t2, t3⟩ := fin
  refine ⟨t1, ?_, t3⟩
  intro e
  have := t2 e
  rw [f_in, f_uo, predOf_congr f_pred] at this
  have q : (∃ u : Int, 0 ≤ u ∧ u < n ∧ x3.predOf u = e) ↔
      (∃ u : Int, 0 ≤ u ∧ u < n ∧ x.predOf u = e) := by
    constructor
    · rintro ⟨u, a1, a2, a3⟩
      exact ⟨u, a1, a2, by rw [← predOf_congr f_pred]; exact a3⟩
    · rintro ⟨u, a1, a2, a3⟩
      exact ⟨u, a1, a2, by rw [predOf_congr f_pred]; exact a3⟩
  rw [q] at this
  exact this

end NetSimplex

/-! ## C24: basis exchange -/

theorem enteredStem_basis : enteredStem.TreeBasis 3 5 :=
  { sized := ⟨fun f => by cases f <;> decide, by decide⟩
    nodes := by decide
    root := by decide
    parent_root := by decide
    pred_root := by decide
    reach := fun u h0 h1 => by
      have h1' : u < 3 := h1
      interval_cases u
      · exact ⟨2, by decide⟩
      · exact ⟨1, by decide⟩
      · exact ⟨1, by decide⟩
    parent_range := fun u h0 h1 => by
      have h1' : u < 3 := h1
      interval_cases u <;> decide
    pred_range := fun u h0 h1 => by
      have h1' : u < 3 := h1
      interval_cases u <;> decide
    pred_arc := fun u h0 h1 => by
      have h1' : u < 3 := h1
      interval_cases u <;> decide
    succ_lt := fun u h0 h1 => by
      have h1' : u < 3 := h1
      interval_cases u <;> decide }

theorem stem_values :
    (enteredStem.parent, enteredStem.pred, enteredStem.pred_dir, enteredStem.in_arc) =
      ([2, 3, 3, -1], [3, 1, 2, -1], [1, 1, -1, 0], 4) ∧
    (leavingStem.1, leavingStem.2.u_in, leavingStem.2.v_in, leavingStem.2.u_out) =
      (true, 0, 1, 2) ∧
    (treeStem.parent, treeStem.pred, treeStem.pred_dir) =
      ([1, 3, 0, -1], [4, 1, 3, -1], [-1, 1, -1, 0]) := by
  decide

theorem NetSimplex.SpanningTree.par_ne {ns : NetSimplex} {n m : Nat}
    (h : ns.SpanningTree n m) {u : Int} (h0 : 0 ≤ u) (hn : u < n) : ns.par u ≠ u := by
  intro e
  obtain ⟨k, hk⟩ := h.reach u h0 hn
  rw [NetSimplex.par_iter_fixed ns e k] at hk
  omega

theorem NetSimplex.SpanningTree.dir_iff {ns : NetSimplex} {n m : Nat}
    (h : ns.SpanningTree n m) {u : Int} (h0 : 0 ≤ u) (hn : u < n) :
    ns.dirOf u = DIR_UP ↔ ns.srcOf (ns.predOf u) = u := by
  have hne := h.par_ne h0 hn
  rcases h.pred_arc u h0 hn with ⟨d1, d2, _⟩ | ⟨d1, d2, _⟩
  · exact ⟨fun _ => d2, fun _ => d1⟩
  · constructor
    · intro g
      rw [d1] at g
      exact absurd g (by decide)
    · intro g
      rw [d2] at g
      exact absurd g hne

/-- C24: basis exchange keeps a spanning tree. From a state with a tree basis (`TreeBasis`)
and an entering arc between nodes of the tree, a pivot whose `findLeavingArc` reports a
leaving arc ends, after `updateTreeStructure`, in a state where `parent` describes a tree
rooted at node `n` that spans all `n + 1` nodes (every parent chain reaches the root), where
for every real node the arc `pred[u]` joins `u` and `parent[u]` with `pred_dir[u] = UP`
exactly when `source(pred[u]) = u`, and where the set of tree arcs is the previous set with
the leaving arc `pred[u_out]` removed and the entering arc added. -/
theorem C24_basis_exchange (x x1 x2 x3 x4 : NetSimplex) (n m : Nat)
    (hb : x.TreeBasis n m)
    (hs : 0 ≤ x.srcOf x.in_arc ∧ x.srcOf x.in_arc ≤ n)
    (ht : 0 ≤ x.tgtOf x.in_arc ∧ x.tgtOf x.in_arc ≤ n)
    (h1 : x.findJoinNode = some x1) (h2 : x1.findLeavingArc = some (true, x2))
    (h3 : x2.changeFlow = some x3) (h4 : x3.updateTreeStructure = some x4) :
    x4.SpanningTree n m ∧
    (∀ e : Int, (∃ u : Int, 0 ≤ u ∧ u < n ∧ x4.predOf u = e) ↔
      (e = x.in_arc ∨ ((∃ u : Int, 0 ≤ u ∧ u < n ∧ x.predOf u = e) ∧
        e ≠ x.predOf x2.u_out))) ∧
    (∀ u : Int, 0 ≤ u → u < n → (x4.dirOf u = DIR_UP ↔ x4.srcOf (x4.predOf u) = u)) := by
  obtain ⟨t1, t2, _⟩ := NetSimplex.pivot_tree hb hs ht h1 h2 h3 h4
  exact ⟨t1, t2, fun u h0 hn => t1.dir_iff h0 hn⟩

/-- C24 on the stem scenario at its second pivot, where the stem `0, 2` is turned around:
node 0 hangs below node 1 by the entering arc 4 and node 2 below node 0 by arc 3. -/
theorem C24_basis_exchange_Stem :
    enteredStem.TreeBasis 3 5 ∧
    treeStem.SpanningTree 3 5 ∧
    (∀ e : Int, (∃ u : Int, 0 ≤ u ∧ u < (3 : Nat) ∧ treeStem.predOf u = e) ↔
      (e = enteredStem.in_arc ∨
        ((∃ u : Int, 0 ≤ u ∧ u < (3 : Nat) ∧ enteredStem.predOf u = e) ∧
          e ≠ enteredStem.predOf leavingStem.2.u_out))) ∧
    (∀ u : Int, 0 ≤ u → u < (3 : Nat) →
      (treeStem.dirOf u = DIR_UP ↔ treeStem.srcOf (treeStem.predOf u) = u)) :=
  ⟨enteredStem_basis,
    C24_basis_exchange enteredStem joinedStem leavingStem.2 changedStem treeStem 3 5
      enteredStem_basis (by decide) (by decide) (by decide) (by decide) (by decide)
      (by decide)⟩

/-! ## Arc states and the basis -/

namespace NetSimplex

theorem stateAt_congr {a b : NetSimplex} (h : b.state = a.state) (e : Int) :
    b.stateAt e = a.stateAt e := by
  unfold stateAt
  rw [h]

theorem flowAt_congr {a b : NetSimplex} (h : b.flow = a.flow) (e : Int) :
    b.flowAt e = a.flowAt e := by
  unfold flowAt
  rw [h]

theorem stateAt_lower {ns : NetSimplex} {e : Int} (h : ns.stateAt e ≠ STATE_TREE) :
    ns.stateAt e = STATE_LOWER := by
  cases hs : ns.stateAt e
  · exact absurd hs h
  · rfl

/-- The tree update writes the vectors of the tree only. -/
theorem updateTreeStructure_writes {a b : NetSimplex} (h : updateTreeStructure a = some b) :
    Writes treeFields { a with v_out := b.v_out } b := by
  unfold updateTreeStructure at h
  simp only [Option.bind_eq_bind, Option.bind_eq_some] at h
  obtain ⟨ort, _, osn, _, ols, _, vo, _, h⟩ := h
  have fin : ∀ n1 n2 : NetSimplex, Writes treeFields { a with v_out := vo } n1 →
      Writes [Fld.last_succ] n1 n2 → Writes [Fld.succ_num, Fld.last_succ] n2 b →
      Writes treeFields { a with v_out := b.v_out } b := by
    intro n1 n2 k1 k2 k3
    have kb : Writes treeFields { a with v_out := vo } b :=
      (k1.follow (k2.wider (by decide))).follow (k3.wider (by decide))
    have ev : b.v_out = vo := kb.eq_v_out
    rw [ev]
    exact kb
  split at h
  · simp only [Option.bind_eq_some] at h
    obtain ⟨n1, h1, lj, _, lso, _, n2, h2, h⟩ := h
    exact fin n1 n2 ((updateTreeSame_writes h1).wider (by decide))
      (lastSuccIn_writes _ _ _ _ _ h2) (lastSuccTail_writes h)
  · simp only [Option.bind_eq_some] at h
    obtain ⟨n1, h1, lj, _, lso, _, n2, h2, h⟩ := h
    simp only [updateTreeStem, Option.bind_eq_bind, Option.bind_eq_some] at h1
    obtain ⟨⟨r1, r2⟩, g1, g2⟩ := h1
    have g2' : updateTreeStemPred r1 r2 osn = some n1 := g2
    have kt : Writes treeFields { a with v_out := vo } r1 :=
      (updateTreeStemThread_writes g1).wider (by decide)
    have kp : Writes treeFields r1 n1 := (updateTreeStemPred_writes g2').wider (by decide)
    exact fin n1 n2 (kt.follow kp) (lastSuccIn_writes _ _ _ _ _ h2) (lastSuccTail_writes h)

theorem SpanningTree.no_two_cycle {ns : NetSimplex} {n m : Nat} (h : SpanningTree ns n m)
    {u : Int} (u0 : 0 ≤ u) (un : u < n) (hw : ns.par u < n)
    (hc : ns.par (ns.par u) = u) : False := by
  have key : ∀ k : Nat, (ns.par)^[k] u = u ∨ (ns.par)^[k] u = ns.par u := by
    intro k
    induction k with
    | zero => exact Or.inl rfl
    | succ k ih =>
      rw [Function.iterate_succ_apply']
      rcases ih with g | g
      · exact Or.inr (by rw [g])
      · exact Or.inl (by rw [g, hc])
  obtain ⟨k, hk⟩ := h.reach u u0 un
  rcases key k with g | g
  · rw [g] at hk; omega
  · rw [g] at hk; omega

theorem SpanningTree.pred_one_one {ns : NetSimplex} {n m : Nat} (h : SpanningTree ns n m)
    {u w : Int} (u0 : 0 ≤ u) (un : u < n) (w0 : 0 ≤ w) (wn : w < n)
    (he : ns.predOf u = ns.predOf w) : u = w := by
  rcases h.pred_arc u u0 un with ⟨_, a2, a3⟩ | ⟨_, a2, a3⟩ <;>
    rcases h.pred_arc w w0 wn with ⟨_, b2, b3⟩ | ⟨_, b2, b3⟩
  · rw [he] at a2; exact a2.symm.trans b2
  · rw [he] at a2 a3
    exfalso
    have e1 : ns.par u = w := by rw [← a3, b3]
    have e2 : ns.par w = u := by rw [← b2, a2]
    exact h.no_two_cycle u0 un (by rw [e1]; exact wn) (by rw [e1, e2])
  · rw [he] at a2 a3
    exfalso
    have e1 : ns.par u = w := by rw [← a2, b2]
    have e2 : ns.par w = u := by rw [← b3, a3]
    exact h.no_two_cycle u0 un (by rw [e1]; exact wn) (by rw [e1, e2])
  · rw [he] at a3; exact a3.symm.trans b3

/-- When the states match an injective predecessor map of the `n` real nodes, exactly `n`
arcs are in state `STATE_TREE`. -/
theorem tree_count {ns : NetSimplex} {n m : Nat} (hst : StatesMatch ns n m)
    (hr : ∀ u : Int, 0 ≤ u → u < n → 0 ≤ ns.predOf u ∧ ns.predOf u < m)
    (hinj : ∀ u w : Int, 0 ≤ u → u < n → 0 ≤ w → w < n → ns.predOf u = ns.predOf w → u = w) :
    (ns.treeArcs m).length = n := by
  have hT : (ns.treeArcs m).Nodup := List.Nodup.filter _ (List.nodup_range m)
  have hP : ((List.range n).map fun u : Nat => (ns.predOf (u : Int)).toNat).Nodup := by
    refine List.Nodup.map_on ?_ (List.nodup_range n)
    intro u hu w hw e
    have hu' : u < n := List.mem_range.1 hu
    have hw' : w < n := List.mem_range.1 hw
    have ru := hr u (by omega) (by exact_mod_cast hu')
    have rw' := hr w (by omega) (by exact_mod_cast hw')
    have e' : ns.predOf (u : Int) = ns.predOf (w : Int) := by omega
    have := hinj u w (by omega) (by exact_mod_cast hu') (by omega) (by exact_mod_cast hw') e'
    exact_mod_cast this
  have hmem : ∀ e : Nat, e ∈ ns.treeArcs m ↔
      e ∈ (List.range n).map fun u : Nat => (ns.predOf (u : Int)).toNat := by
    intro e
    unfold treeArcs
    rw [List.mem_filter, List.mem_range, List.mem_map, beq_iff_eq]
    constructor
    · rintro ⟨hm, hs⟩
      obtain ⟨u, u0, un, hu⟩ := (hst e (by omega) (by exact_mod_cast hm)).1 hs
      refine ⟨u.toNat, List.mem_range.2 (by omega), ?_⟩
      rw [Int.toNat_of_nonneg u0, hu]
      simp
    · rintro ⟨u, hu, rfl⟩
      have hu' : u < n := List.mem_range.1 hu
      have ru := hr u (by omega) (by exact_mod_cast hu')
      have hlt : (ns.predOf (u : Int)).toNat < m := by omega
      refine ⟨hlt, ?_⟩
      have hc : (((ns.predOf (u : Int)).toNat : Nat) : Int) = ns.predOf (u : Int) :=
        Int.toNat_of_nonneg ru.1
      rw [hc]
      exact (hst _ ru.1 ru.2).2 ⟨u, by omega, by exact_mod_cast hu', rfl⟩
  have hp := (List.perm_ext_iff_of_nodup hT hP).2 hmem
  rw [hp.length_eq]
  simp

/-- The augmentation of a pivot leaves the flow of every arc alone that is neither a tree
arc nor the entering arc. -/
theorem pivot_flow_off {x x1 x2 x3 : NetSimplex} {n m : Nat} {r : Bool}
    (hb : TreeBasis x n m)
    (hs : 0 ≤ x.srcOf x.in_arc ∧ x.srcOf x.in_arc ≤ n)
    (ht : 0 ≤ x.tgtOf x.in_arc ∧ x.tgtOf x.in_arc ≤ n)
    (h1 : findJoinNode x = some x1) (h2 : findLeavingArc x1 = some (r, x2))
    (h3 : changeFlow x2 = some x3) {e : Int}
    (he : ∀ u : Int, 0 ≤ u → u < n → x.predOf u ≠ e) (hi : e ≠ x.in_arc) :
    x3.flowAt e = x.flowAt e := by
  obtain ⟨e2, l1, l2, w1, w2, _, r1, r2, _⟩ := pivot_cycle hb h1 h2 hs ht
  obtain ⟨_, _, _, _, _, _, fz, fp⟩ := changeFlow_spec h3
  have q1 : x2.parent = x.parent := by rw [e2]
  have q2 : x2.pred = x.pred := by rw [e2]
  have q3 : x2.pred_dir = x.pred_dir := by rw [e2]
  have q4 : x2.flow = x.flow := by rw [e2]
  have q5 : x2.in_arc = x.in_arc := by rw [e2]
  have q6 : x2.source = x.source := by rw [e2]
  have q7 : x2.target = x.target := by rw [e2]
  by_cases hpos : x2.delta > 0
  · obtain ⟨l1', l2', v1, v2, hf⟩ := fp hpos
    have es : x2.srcOf x2.in_arc = x.srcOf x.in_arc := by unfold srcOf; rw [q5, q6]
    have et : x2.tgtOf x2.in_arc = x.tgtOf x.in_arc := by unfold tgtOf; rw [q5, q7]
    rw [es] at v1
    rw [et] at v2
    have u1 := Walk.unique _ _ _ (Walk.congr q1.symm _ _ _ v1) w1
    have u2 := Walk.unique _ _ _ (Walk.congr q1.symm _ _ _ v2) w2
    rw [hf e, flowAt_congr q4, q5, if_neg hi, u1, u2, dirSum_congr q2 q3, dirSum_congr q2 q3,
      dirSum_none x l1 e (fun y hy => he y (r1 y hy).1 (r1 y hy).2),
      dirSum_none x l2 e (fun y hy => he y (r2 y hy).1 (r2 y hy).2)]
    ring
  · rw [flowAt_congr (fz hpos), flowAt_congr q4]

/-- The arc states after a pivot: they match the new basis, and the arcs that are not tree
arcs and have not just left keep their flow. -/
theorem pivot_states {x x1 x2 x3 x4 : NetSimplex} {n m : Nat} (hb : TreeBasis x n m)
    (hst : StatesMatch x n m) (hin : x.stateAt x.in_arc = STATE_LOWER)
    (hs : 0 ≤ x.srcOf x.in_arc ∧ x.srcOf x.in_arc ≤ n)
    (ht : 0 ≤ x.tgtOf x.in_arc ∧ x.tgtOf x.in_arc ≤ n)
    (h1 : findJoinNode x = some x1) (h2 : findLeavingArc x1 = some (true, x2))
    (h3 : changeFlow x2 = some x3) (h4 : updateTreeStructure x3 = some x4) :
    SpanningTree x4 n m ∧ StatesMatch x4 n m ∧ (x4.treeArcs m).length = n ∧
    (∀ e : Int, x4.flowAt e = x3.flowAt e) ∧
    (∀ e : Int, 0 ≤ e → e < m → x4.stateAt e ≠ STATE_TREE → e ≠ x.predOf x2.u_out →
      x4.flowAt e = x.flowAt e ∧ x.stateAt e = STATE_LOWER) := by
  obtain ⟨t1, t2, t3⟩ := pivot_tree hb hs ht h1 h2 h3 h4
  have W := updateTreeStructure_writes h4
  have e2 := (pivot_cycle hb h1 h2 hs ht).1
  obtain ⟨_, _, _, _, _, st, _, _⟩ := changeFlow_spec h3
  have q2 : x2.pred = x.pred := by rw [e2]
  have q5 : x2.in_arc = x.in_arc := by rw [e2]
  have q8 : x2.state = x.state := by rw [e2]
  have s4 : ∀ e, x4.stateAt e = if e = x.predOf x2.u_out then STATE_LOWER
      else if e = x.in_arc then STATE_TREE else x.stateAt e := by
    intro e
    have ws : x4.state = x3.state := W.2
    rw [stateAt_congr ws, st e, predOf_congr q2, q5, stateAt_congr q8]
  have f4 : ∀ e, x4.flowAt e = x3.flowAt e := fun e =>
    flowAt_congr (W.vec Fld.flow (by decide)) e
  have hne : ∀ u : Int, 0 ≤ u → u < n → x.predOf u ≠ x.in_arc := by
    intro u u0 un g
    have r := hb.pred_range u u0 un
    rw [g] at r
    have := (hst _ r.1 r.2).2 ⟨u, u0, un, g⟩
    rw [hin] at this
    exact absurd this (by decide)
  have hpo : x.predOf x2.u_out ≠ x.in_arc := hne _ t3.1 t3.2
  have m4 : StatesMatch x4 n m := by
    intro e e0 em
    rw [t2 e, s4 e]
    by_cases g1 : e = x.predOf x2.u_out
    · rw [if_pos g1]
      constructor
      · intro c
        exact absurd c (by decide)
      · rintro (c | ⟨_, c⟩)
        · exact absurd (g1.symm.trans c) hpo
        · exact absurd g1 c
    · rw [if_neg g1]
      by_cases g2 : e = x.in_arc
      · rw [if_pos g2]
        exact ⟨fun _ => Or.inl g2, fun _ => rfl⟩
      · rw [if_neg g2, hst e e0 em]
        exact ⟨fun c => Or.inr ⟨c, g1⟩, fun c => (c.resolve_left g2).1⟩
  refine ⟨t1, m4, tree_count m4 t1.pred_range
    (fun u w u0 un w0 wn => t1.pred_one_one u0 un w0 wn), f4, ?_⟩
  intro e e0 em hs4 g1
  rw [s4 e, if_neg g1] at hs4
  have g2 : e ≠ x.in_arc := by
    intro c
    rw [if_pos c] at hs4
    exact hs4 rfl
  rw [if_neg g2] at hs4
  have hoff : ∀ u : Int, 0 ≤ u → u < n → x.predOf u ≠ e := by
    intro u u0 un c
    exact hs4 ((hst e e0 em).2 ⟨u, u0, un, c⟩)
  rw [f4 e, pivot_flow_off hb hs ht h1 h2 h3 hoff g2]
  exact ⟨rfl, stateAt_lower hs4⟩

/-- After the reset loop of `run` and `init` the arc states match the star basis: the
`n` artificial arcs are the tree arcs and every other arc is at its lower bound with flow
0. -/
theorem prepared_states (ns : NetSimplex) (n m : Nat) (hs : Sized ns n m)
    (hnn : ns.node_num = n) (han : ns.arc_num = m) (hn1 : 1 ≤ n) (hnm : n ≤ m) :
    ∃ A, ns.prepared = some A ∧ StatesMatch A n m ∧ (A.treeArcs m).length = n ∧
      ∀ e : Int, 0 ≤ e → e < m → A.stateAt e ≠ STATE_TREE →
        A.stateAt e = STATE_LOWER ∧ A.flowAt e = 0 := by
  have hm : ns.arc_num.toNat = m := by rw [han]; simp
  obtain ⟨x1, hr, k1⟩ := runReset_ok n m ns.arc_num.toNat 0 { ns with iterations := 0 }
    (sized_iterations hs 0) (le_refl _) (by rw [hm]; simp)
  have hs1 : Sized x1 n m := k1.sized (sized_iterations hs 0)
  have hn1' : x1.node_num = n := (k1.2.2.1 Sc.node_num (by simp)).trans hnn
  obtain ⟨A, hi, _⟩ := init_ok x1 n m hs1 hn1' hn1 hnm
  obtain ⟨_, _, _, _, _, hnode, harc, _⟩ := run_prepared n m ns x1 A hs hnn han hn1 hnm hr hi
  have hp : ns.prepared = some A := by
    simp only [prepared, Option.bind_eq_bind, Option.bind_eq_some]
    exact ⟨x1, hr, (true, A), hi, rfl⟩
  have hpred : ∀ u : Int, 0 ≤ u → u < n → A.predOf u = u := fun u u0 un => by
    obtain ⟨c, _, _, sn⟩ := hnode u u0 un
    exact predOf_eq sn.2.1
  have hstate : ∀ e : Int, 0 ≤ e → e < m → (A.stateAt e = STATE_TREE ↔ e < n) := by
    intro e e0 em
    by_cases g : e < n
    · obtain ⟨c, _, _, sn⟩ := hnode e e0 g
      have : rd A.state e = some STATE_TREE := sn.2.2.2.2.2.2.1
      have h' : A.stateAt e = STATE_TREE := by unfold stateAt; rw [this]; rfl
      exact ⟨fun _ => g, fun _ => h'⟩
    · have := (harc e (not_lt.1 g) em).2.2.2.2
      have h' : A.stateAt e = STATE_LOWER := by unfold stateAt; rw [this]; rfl
      rw [h']
      exact ⟨fun c => absurd c (by decide), fun c => absurd c g⟩
  have m0 : StatesMatch A n m := by
    intro e e0 em
    rw [hstate e e0 em]
    constructor
    · intro g
      exact ⟨e, e0, g, hpred e e0 g⟩
    · rintro ⟨u, u0, un, g⟩
      rw [hpred u u0 un] at g
      rw [← g]
      exact un
  refine ⟨A, hp, m0, tree_count m0 ?_ ?_, ?_⟩
  · intro u u0 un
    rw [hpred u u0 un]
    exact ⟨u0, by omega⟩
  · intro u w u0 un w0 wn g
    rw [hpred u u0 un, hpred w w0 wn] at g
    exact g
  · intro e e0 em g
    have gn : ¬ e < n := fun c => g ((hstate e e0 em).2 c)
    have := harc e (not_lt.1 gn) em
    refine ⟨stateAt_lower g, ?_⟩
    exact flowAt_eq this.2.2.2.1

end NetSimplex

/-! ## C28: arc states -/

theorem NetSimplex.StatesMatch.of_lists {ns : NetSimplex} {n m : Nat}
    (h : ∀ e ∈ List.range m, (ns.stateAt (e : Int) = STATE_TREE ↔
      ∃ u ∈ List.range n, ns.predOf (u : Int) = (e : Int))) : ns.StatesMatch n m := by
  intro e e0 em
  obtain ⟨k, rfl⟩ : ∃ k : Nat, e = (k : Int) := ⟨e.toNat, by omega⟩
  rw [h k (List.mem_range.2 (by exact_mod_cast em))]
  constructor
  · rintro ⟨u, hu, g⟩
    exact ⟨u, by omega, by exact_mod_cast List.mem_range.1 hu, g⟩
  · rintro ⟨u, u0, un, g⟩
    refine ⟨u.toNat, List.mem_range.2 (by omega), ?_⟩
    rw [Int.toNat_of_nonneg u0]
    exact g

theorem NetSimplex.flow_bounds {ns : NetSimplex} (h : ∀ v ∈ ns.flow, 0 ≤ v ∧ v ≤ ns.INF)
    (hI : 0 ≤ ns.INF) : ∀ e, 0 ≤ ns.flowAt e ∧ ns.flowAt e ≤ ns.INF := by
  intro e
  unfold NetSimplex.flowAt
  cases hr : rd ns.flow e with
  | none => exact ⟨le_refl _, hI⟩
  | some v =>
    obtain ⟨_, hv⟩ := rd_eq_some.1 hr
    exact h v (List.getElem?_mem hv)

/-- C28 (code defect): in the scenario with supplies `+1, -1` and the arcs `0 -> 1`,
`1 -> 0` of cost `-1`, two complete pivots after `init` (the second one with
`delta = MAX - 1 < MAX`) end in a state where arc 2 is not a tree arc (`pred` is
`0, 3, -1`), is `AT_LOWER_BOUND`, and carries the flow `MAX` instead of 0. -/
theorem C28_lower_bound_with_flow :
    ((scenarioSupplyCycle.bind NetSimplex.prepared).bind fun ns =>
      (NetSimplex.rounds 2 (BlockSearchPivotRule.create ns) ns).map fun r =>
        (r.2.iterations, r.2.delta, r.2.pred, r.2.stateAt 2, r.2.flowAt 2)) =
      some (2, 2147483646, [0, 3, -1], STATE_LOWER, 2147483647) := by
  decide

/-- The arc states and the basis. After the reset loop of `run` and `init`, exactly `n` arcs
are in state `TREE`, they are the arcs `pred[u]` of the real nodes, and every other arc is
`AT_LOWER_BOUND` with flow 0. A complete pivot with `delta < MAX` from a tree basis with
matching states, flows in `[0, INF]`, flow 0 off the tree and an entering arc at its lower
bound keeps all of this for every arc but the one that has just left: that arc is
`AT_LOWER_BOUND`, with flow 0 when the augmentation decreases its flow; when the augmentation
increases it, the flow ends at `INF`: the defect seen on the supply-cycle scenario. -/
theorem pivot_arc_states :
    (∀ (ns : NetSimplex) (n m : Nat), ns.Sized n m → ns.node_num = n → ns.arc_num = m →
      1 ≤ n → n ≤ m →
      ∃ A, ns.prepared = some A ∧ A.StatesMatch n m ∧ (A.treeArcs m).length = n ∧
        ∀ e : Int, 0 ≤ e → e < m → A.stateAt e ≠ STATE_TREE →
          A.stateAt e = STATE_LOWER ∧ A.flowAt e = 0) ∧
    (∀ (x x1 x2 x3 x4 : NetSimplex) (n m : Nat), x.TreeBasis n m → x.StatesMatch n m →
      (∀ e : Int, 0 ≤ e → e < m → x.stateAt e ≠ STATE_TREE → x.flowAt e = 0) →
      (∀ e : Int, 0 ≤ x.flowAt e ∧ x.flowAt e ≤ x.INF) →
      x.stateAt x.in_arc = STATE_LOWER →
      (0 ≤ x.srcOf x.in_arc ∧ x.srcOf x.in_arc ≤ n) →
      (0 ≤ x.tgtOf x.in_arc ∧ x.tgtOf x.in_arc ≤ n) →
      x.findJoinNode = some x1 → x1.findLeavingArc = some (true, x2) → x2.delta < x.MAX →
      x2.changeFlow = some x3 → x3.updateTreeStructure = some x4 →
      x4.StatesMatch n m ∧ (x4.treeArcs m).length = n ∧
      (∀ e : Int, 0 ≤ e → e < m → x4.stateAt e ≠ STATE_TREE →
        x4.stateAt e = STATE_LOWER ∧ (e ≠ x.predOf x2.u_out → x4.flowAt e = 0)) ∧
      x4.stateAt (x.predOf x2.u_out) = STATE_LOWER ∧
      (x.dirOf x2.u_out = (if x2.u_in = x.srcOf x.in_arc then DIR_UP else DIR_DOWN) →
        x4.flowAt (x.predOf x2.u_out) = 0) ∧
      (x.dirOf x2.u_out ≠ (if x2.u_in = x.srcOf x.in_arc then DIR_UP else DIR_DOWN) →
        x4.flowAt (x.predOf x2.u_out) = x.INF)) := by
  refine ⟨NetSimplex.prepared_states, ?_⟩
  intro x x1 x2 x3 x4 n m hb hst hz hfl hin hs ht h1 h2 hd h3 h4
  obtain ⟨t1, m4, c4, f4, o4⟩ := NetSimplex.pivot_states hb hst hin hs ht h1 h2 h3 h4
  obtain ⟨_, t2, t3⟩ := NetSimplex.pivot_tree hb hs ht h1 h2 h3 h4
  have hne : ∀ u : Int, 0 ≤ u → u < n → x.predOf u ≠ x.in_arc := by
    intro u u0 un g
    have r := hb.pred_range u u0 un
    rw [g] at r
    have := (hst _ r.1 r.2).2 ⟨u, u0, un, g⟩
    rw [hin] at this
    exact absurd this (by decide)
  obtain ⟨_, _, l0, lI⟩ := NetSimplex.leaving_flow hb hs ht hne hfl h1 h2 hd h3
  have rp := hb.pred_range _ t3.1 t3.2
  have hout : x4.stateAt (x.predOf x2.u_out) ≠ STATE_TREE := by
    intro c
    have := (t2 _).1 ((m4 _ rp.1 rp.2).1 c)
    rcases this with g | ⟨_, g⟩
    · exact hne _ t3.1 t3.2 g
    · exact g rfl
  refine ⟨m4, c4, ?_, NetSimplex.stateAt_lower hout, ?_, ?_⟩
  · intro e e0 em g
    refine ⟨NetSimplex.stateAt_lower g, fun g1 => ?_⟩
    obtain ⟨q1, q2⟩ := o4 e e0 em g g1
    rw [q1]
    exact hz e e0 em (by rw [q2]; decide)
  · intro c
    rw [f4]
    exact l0 c
  · intro c
    rw [f4]
    exact lI c

/-- Scenario S1 for `init` and the stem scenario for its second pivot, where the leaving
arc 2 drops to flow 0. -/
theorem pivot_arc_states_Stem :
    (∃ A, solverS1.prepared = some A ∧ A.StatesMatch 2 3 ∧ (A.treeArcs 3).length = 2 ∧
      ∀ e : Int, 0 ≤ e → e < (3 : Nat) → A.stateAt e ≠ STATE_TREE →
        A.stateAt e = STATE_LOWER ∧ A.flowAt e = 0) ∧
    (treeStem.StatesMatch 3 5 ∧ (treeStem.treeArcs 5).length = 3 ∧
      (∀ e : Int, 0 ≤ e → e < (5 : Nat) → treeStem.stateAt e ≠ STATE_TREE →
        treeStem.stateAt e = STATE_LOWER ∧
          (e ≠ enteredStem.predOf leavingStem.2.u_out → treeStem.flowAt e = 0)) ∧
      treeStem.stateAt (enteredStem.predOf leavingStem.2.u_out) = STATE_LOWER ∧
      treeStem.flowAt (enteredStem.predOf leavingStem.2.u_out) = 0) := by
  have h1 := pivot_arc_states.1 solverS1 2 3 ⟨fun f => by cases f <;> decide, by decide⟩
    (by decide) (by decide) (by decide) (by decide)
  obtain ⟨g1, g2, g3, g4, g5, _⟩ := pivot_arc_states.2 enteredStem joinedStem leavingStem.2
    changedStem treeStem 3 5 enteredStem_basis (NetSimplex.StatesMatch.of_lists (by decide))
    (fun e e0 em => by
      have em' : e < 5 := em
      interval_cases e <;> decide)
    (NetSimplex.flow_bounds (by decide) (by decide)) (by decide) (by decide) (by decide)
    (by decide) (by decide) (by decide) (by decide) (by decide)
  exact ⟨h1, g1, g2, g3, g4, g5 (by decide)⟩

/-! ## The scan of the block search -/

namespace BlockSearchPivotRule

end BlockSearchPivotRule

namespace NetSimplex

end NetSimplex

namespace BlockSearchPivotRule

end BlockSearchPivotRule

theorem arcsFrom_length : ∀ (k : Nat) (e : Int), (arcsFrom e k).length = k := by
  intro k
  induction k with
  | zero => intro e; rfl
  | succ k ih => intro e; simp [arcsFrom, ih]

theorem mem_arcsFrom : ∀ (k : Nat) (e x : Int), x ∈ arcsFrom e k ↔ e ≤ x ∧ x < e + k := by
  intro k
  induction k with
  | zero => intro e x; simp only [arcsFrom, List.not_mem_nil, false_iff]; push_cast; omega
  | succ k ih =>
    intro e x
    simp only [arcsFrom, List.mem_cons, ih]
    push_cast
    omega

theorem arcsFrom_snoc : ∀ (k : Nat) (e : Int),
    arcsFrom e (k + 1) = arcsFrom e k ++ [e + k] := by
  intro k
  induction k with
  | zero => intro e; simp [arcsFrom]
  | succ k ih =>
    intro e
    show e :: arcsFrom (e + 1) (k + 1) = (e :: arcsFrom (e + 1) k) ++ [e + ((k + 1 : Nat) : Int)]
    rw [ih (e + 1)]
    simp only [List.cons_append, List.cons.injEq, true_and, List.append_cancel_left_eq,
      and_true]
    push_cast
    omega

theorem arcsFrom_take : ∀ (k t : Nat) (e : Int), t ≤ k →
    (arcsFrom e k).take t = arcsFrom e t := by
  intro k
  induction k with
  | zero => intro t e h; have : t = 0 := by omega
            subst this; rfl
  | succ k ih =>
    intro t e h
    cases t with
    | zero => rfl
    | succ t =>
      show e :: (arcsFrom (e + 1) k).take t = e :: arcsFrom (e + 1) t
      rw [ih t (e + 1) (by omega)]

theorem NetSimplex.signedOf_eq {ns : NetSimplex} {e c : Int} (h : ns.signedRedCost e = some c) :
    ns.signedOf e = c := by
  unfold NetSimplex.signedOf
  rw [h]
  rfl

theorem FirstMin.at_start (ns : NetSimplex) (a0 : Int) : FirstMin ns a0 [] 0 a0 :=
  ⟨le_refl _, by simp, fun _ => rfl, fun h => absurd h (lt_irrefl _)⟩

theorem FirstMin.next_arc_met {ns : NetSimplex} {a0 : Int} {H : List Int} {sc : Scan} {e c : Int}
    (h : FirstMin ns a0 H sc.min sc.in_arc) (hc : ns.signedRedCost e = some c) :
    FirstMin ns a0 (H ++ [e]) (sc.step e c).min (sc.step e c).in_arc := by
  obtain ⟨h1, h2, h3, h4⟩ := h
  have ec := NetSimplex.signedOf_eq hc
  unfold Scan.step
  split
  · rename_i hlt
    refine ⟨by simp only []; omega, ?_, ?_, ?_⟩
    · intro x hx
      simp only []
      rcases List.mem_append.1 hx with g | g
      · have := h2 x g
        omega
      · rw [List.mem_singleton.1 g, ec]
    · intro g
      simp only [] at g
      omega
    · intro _
      refine ⟨H, [], rfl, ec, ?_⟩
      intro x hx
      have := h2 x hx
      simp only []
      omega
  · rename_i hge
    refine ⟨h1, ?_, h3, ?_⟩
    · intro x hx
      rcases List.mem_append.1 hx with g | g
      · exact h2 x g
      · rw [List.mem_singleton.1 g, ec]
        omega
    · intro g
      obtain ⟨H1, H2, q1, q2, q3⟩ := h4 g
      exact ⟨H1, H2 ++ [e], by rw [q1]; simp, q2, q3⟩

theorem ScanInv.at_call (ns : NetSimplex) {bs : Int} (hbs : 1 ≤ bs) (a0 : Int) :
    ScanInv ns bs a0 [] 0 { min := 0, cnt := bs, in_arc := a0, committed := false } :=
  ⟨rfl, hbs, le_refl _, by simp, ⟨0, by simp⟩, by simp, FirstMin.at_start ns a0⟩

/-- One loop of `findEnteringArc` from a state that has not committed: it returns; either it
has met all its arcs without committing, or it has committed at the end of a block. -/
theorem BlockSearchPivotRule.scanArcs_run (ns : NetSimplex) (bs : Int) (a0 : Int) :
    ∀ (k : Nat) (e : Int) (sc : Scan) (H : List Int) (B : Nat), ScanInv ns bs a0 H B sc →
      (∀ j : Int, e ≤ j → j < e + k → ∃ c, ns.signedRedCost j = some c) →
      ∃ sc', BlockSearchPivotRule.scanArcs ns bs k e sc = some sc' ∧
        ((sc'.committed = false ∧ ∃ B', ScanInv ns bs a0 (H ++ arcsFrom e k) B' sc') ∨
         (sc'.committed = true ∧ ∃ t, t ≤ k ∧ ScanDone ns bs a0 (H ++ arcsFrom e t) sc')) := by
  intro k
  induction k with
  | zero =>
    intro e sc H B hi _
    exact ⟨sc, rfl, Or.inl ⟨hi.uncommitted, B, by simpa [arcsFrom] using hi⟩⟩
  | succ k ih =>
    intro e sc H B hi hr
    obtain ⟨c, hc⟩ := hr e (le_refl _) (by push_cast; omega)
    have hb := hi.best.next_arc_met hc
    have hlen : ((H ++ [e]).length : Int) = H.length + 1 := by simp
    have hBle : B ≤ H.length := by
      have := hi.len
      have := hi.cnt_le
      omega
    have htake : (H ++ [e]).take B = H.take B := by
      rw [List.take_append_of_le_length hBle]
    have hcm : (sc.step e c).committed = false := by
      rw [(sc.step_facts e c).1]
      exact hi.uncommitted
    have hcnt : (sc.step e c).cnt = sc.cnt := by
      unfold Scan.step
      split <;> rfl
    have hrest : ∀ j : Int, e + 1 ≤ j → j < e + 1 + k → ∃ c, ns.signedRedCost j = some c :=
      fun j h1 h2 => hr j (by omega) (by push_cast; omega)
    have happ : ∀ t : Nat, H ++ arcsFrom e (t + 1) = (H ++ [e]) ++ arcsFrom (e + 1) t := by
      intro t
      simp [arcsFrom]
    have fin : ∀ (sc1 : Scan) (B1 : Nat), ScanInv ns bs a0 (H ++ [e]) B1 sc1 →
        ∃ sc', BlockSearchPivotRule.scanArcs ns bs k (e + 1) sc1 = some sc' ∧
        ((sc'.committed = false ∧ ∃ B', ScanInv ns bs a0 (H ++ arcsFrom e (k + 1)) B' sc') ∨
         (sc'.committed = true ∧
          ∃ t, t ≤ k + 1 ∧ ScanDone ns bs a0 (H ++ arcsFrom e t) sc')) := by
      intro sc1 B1 h1
      obtain ⟨sc', q1, q2⟩ := ih (e + 1) sc1 (H ++ [e]) B1 h1 hrest
      refine ⟨sc', q1, ?_⟩
      rcases q2 with ⟨g1, B', g2⟩ | ⟨g1, t, g2, g3⟩
      · exact Or.inl ⟨g1, B', by rw [happ]; exact g2⟩
      · exact Or.inr ⟨g1, t + 1, by omega, by rw [happ]; exact g3⟩
    rw [BlockSearchPivotRule.scanArcs_succ, hc, Option.some_bind]
    by_cases h0 : (sc.step e c).cnt - 1 = 0
    · rw [if_pos h0]
      have hc1 : sc.cnt = 1 := by rw [hcnt] at h0; omega
      by_cases hneg : (sc.step e c).min < 0
      · rw [if_pos hneg]
        refine ⟨_, rfl, Or.inr ⟨rfl, 1, by omega, ?_⟩⟩
        obtain ⟨q, hq⟩ := hi.blocks
        refine ⟨B, q, hq, ?_, ?_, hb, hneg⟩
        · show ((H ++ arcsFrom e 1).length : Int) = B + bs
          have := hi.len
          simp only [arcsFrom, List.length_append, List.length_cons, List.length_nil]
          push_cast
          omega
        · show ∀ x ∈ (H ++ arcsFrom e 1).take B, 0 ≤ ns.signedOf x
          have : H ++ arcsFrom e 1 = H ++ [e] := rfl
          rw [this, htake]
          exact hi.clean
      · rw [if_neg hneg]
        have hbsn : 0 ≤ bs := by have := hi.cnt_pos; have := hi.cnt_le; omega
        refine fin _ (B + bs.toNat) ⟨hcm, ?_, le_refl _, ?_, ?_, ?_, hb⟩
        · show 1 ≤ bs
          have := hi.cnt_pos
          have := hi.cnt_le
          omega
        · show ((H ++ [e]).length : Int) = ((B + bs.toNat : Nat) : Int) + (bs - bs)
          have := hi.len
          push_cast
          rw [hlen, Int.toNat_of_nonneg hbsn]
          omega
        · obtain ⟨q, hq⟩ := hi.blocks
          refine ⟨q + 1, ?_⟩
          push_cast
          rw [Int.toNat_of_nonneg hbsn, hq]
          ring
        · intro x hx
          have hx' := List.mem_of_mem_take hx
          have := hb.2.1 x hx'
          omega
    · rw [if_neg h0]
      refine fin _ B ⟨hcm, ?_, ?_, ?_, hi.blocks, ?_, hb⟩
      · show 1 ≤ (sc.step e c).cnt - 1
        have := hi.cnt_pos
        rw [hcnt] at h0 ⊢
        omega
      · show (sc.step e c).cnt - 1 ≤ bs
        have := hi.cnt_le
        rw [hcnt]
        omega
      · show ((H ++ [e]).length : Int) = B + (bs - ((sc.step e c).cnt - 1))
        have := hi.len
        rw [hlen, hcnt]
        omega
      · rw [htake]
        exact hi.clean

theorem FirstMin.split {ns : NetSimplex} {a0 : Int} {H : List Int} {m a : Int}
    (h : FirstMin ns a0 H m a) (hm : m < 0) :
    ∃ H1 H2, H = H1 ++ a :: H2 ∧ ns.signedOf a < 0 ∧ (∀ x ∈ H1, ns.signedOf a < ns.signedOf x) ∧
      (∀ x ∈ H2, ns.signedOf a ≤ ns.signedOf x) := by
  obtain ⟨_, h2, _, h4⟩ := h
  obtain ⟨H1, H2, q1, q2, q3⟩ := h4 hm
  refine ⟨H1, H2, q1, by omega, fun x hx => by rw [q2]; exact q3 x hx, fun x hx => ?_⟩
  rw [q2]
  exact h2 x (by rw [q1]; simp [hx])

theorem blocks_nat {bs : Int} (hbs : 1 ≤ bs) {B q : Nat} (h : (B : Int) = q * bs) :
    B = q * bs.toNat := by
  have : ((q * bs.toNat : Nat) : Int) = (B : Int) := by
    push_cast
    rw [Int.toNat_of_nonneg (by omega), h]
  exact_mod_cast this.symm

/-- A scan that has committed after a prefix of the scan order has made the choice of the
specification. -/
theorem ScanDone.chosen_block {p : BlockSearchPivotRule} {ns : NetSimplex} {a0 : Int} {L : Nat}
    {sc : Scan} (hbs : 1 ≤ p.block_size) (hL : L ≤ p.scanOrder.length)
    (h : ScanDone ns p.block_size a0 (p.scanOrder.take L) sc) : p.Chosen ns sc.in_arc := by
  obtain ⟨B, q, hq, hl, hcl, hb, hm⟩ := h
  have eB := blocks_nat hbs hq
  have eL : L = (q + 1) * p.block_size.toNat := by
    have e1 : (p.scanOrder.take L).length = L := by
      rw [List.length_take]
      omega
    rw [e1] at hl
    have : (L : Int) = (((q + 1) * p.block_size.toNat : Nat) : Int) := by
      push_cast
      rw [Int.toNat_of_nonneg (by omega), hl, hq]
      ring
    exact_mod_cast this
  obtain ⟨H1, H2, g1, g2, g3, g4⟩ := hb.split hm
  refine ⟨q, H1, H2, by rw [← eL]; exact g1, ?_, g2, g3, g4⟩
  intro x hx
  apply hcl x
  have hBL : B ≤ L := by
    rw [eL, eB]
    apply Nat.mul_le_mul_right
    omega
  rw [List.take_take, Nat.min_eq_left hBL, eB]
  exact hx

/-- A scan that has met the whole scan order without committing, with a negative minimum, has
made the choice of the specification. -/
theorem ScanInv.chosen_pass {p : BlockSearchPivotRule} {ns : NetSimplex} {a0 : Int} {B : Nat}
    {sc : Scan} (hbs : 1 ≤ p.block_size)
    (h : ScanInv ns p.block_size a0 p.scanOrder B sc) (hm : sc.min < 0) :
    p.Chosen ns sc.in_arc := by
  obtain ⟨q, hq⟩ := h.blocks
  have eB := blocks_nat hbs hq
  obtain ⟨H1, H2, g1, g2, g3, g4⟩ := h.best.split hm
  have hlen : p.scanOrder.length ≤ (q + 1) * p.block_size.toNat := by
    have h1 := h.len
    have h2 := h.cnt_pos
    have : ((p.scanOrder.length : Nat) : Int) ≤ (((q + 1) * p.block_size.toNat : Nat) : Int) := by
      push_cast
      rw [Int.toNat_of_nonneg (by omega), h1, hq]
      have : ((q : Int) + 1) * p.block_size = q * p.block_size + p.block_size := by ring
      omega
    exact_mod_cast this
  refine ⟨q, H1, H2, by rw [List.take_of_length_le hlen]; exact g1, ?_, g2, g3, g4⟩
  rw [← eB]
  exact h.clean

/-- The call `findEnteringArc()` with the cursor in the range of the rule: it returns; when it
reports no arc, no arc of the scan order is eligible and nothing has changed; when it reports
an arc, the arc is the choice of the specification, and it is written to `in_arc` and to the
cursor. -/
theorem BlockSearchPivotRule.findEnteringArc_scan (p : BlockSearchPivotRule) (ns : NetSimplex)
    (h1 : p.dummy_arc ≤ p.next_arc) (h2 : p.next_arc ≤ p.arc_num) (hbs : 1 ≤ p.block_size)
    (hr : ∀ j : Int, p.dummy_arc ≤ j → j < p.arc_num → ∃ c, ns.signedRedCost j = some c) :
    (p.findEnteringArc ns = some (false, p, ns) ∧ ∀ x ∈ p.scanOrder, 0 ≤ ns.signedOf x) ∨
    (∃ a, p.findEnteringArc ns =
        some (true, { p with next_arc := a }, { ns with in_arc := a }) ∧ p.Chosen ns a) := by
  obtain ⟨sc1, e1, r1⟩ := BlockSearchPivotRule.scanArcs_run ns p.block_size ns.in_arc
    (p.arc_num - p.next_arc).toNat p.next_arc _ [] 0 (ScanInv.at_call ns hbs ns.in_arc)
    (fun j g1 g2 => hr j (by omega) (by omega))
  have hlen : p.scanOrder.length =
      (p.arc_num - p.next_arc).toNat + (p.next_arc - p.dummy_arc).toNat := by
    simp [BlockSearchPivotRule.scanOrder, arcsFrom_length]
  rcases r1 with ⟨c1, B1, i1⟩ | ⟨c1, t, ht, d1⟩
  · obtain ⟨sc2, e2, r2⟩ := BlockSearchPivotRule.scanArcs_run ns p.block_size ns.in_arc
      (p.next_arc - p.dummy_arc).toNat p.dummy_arc sc1 _ B1 i1
      (fun j g1 g2 => hr j (by omega) (by omega))
    rcases r2 with ⟨c2, B2, i2⟩ | ⟨c2, t, ht, d2⟩
    · have i2' : ScanInv ns p.block_size ns.in_arc p.scanOrder B2 sc2 := by
        simpa [BlockSearchPivotRule.scanOrder] using i2
      by_cases hm : sc2.min ≥ 0
      · left
        have hm0 : sc2.min = 0 := by
          have := i2'.best.1
          omega
        have ha : sc2.in_arc = ns.in_arc := i2'.best.2.2.1 hm0
        refine ⟨?_, fun x hx => ?_⟩
        · simp only [BlockSearchPivotRule.findEnteringArc, Option.bind_eq_bind, e1,
            Option.some_bind, c1, Bool.false_eq_true, if_false, e2, c2, hm, if_true, ha]
        · have := i2'.best.2.1 x hx
          omega
      · right
        refine ⟨sc2.in_arc, ?_, i2'.chosen_pass hbs (by omega)⟩
        simp only [BlockSearchPivotRule.findEnteringArc, Option.bind_eq_bind, e1,
          Option.some_bind, c1, Bool.false_eq_true, if_false, e2, c2, hm]
    · right
      have et : p.scanOrder.take ((p.arc_num - p.next_arc).toNat + t) =
          [] ++ arcsFrom p.next_arc (p.arc_num - p.next_arc).toNat ++ arcsFrom p.dummy_arc t := by
        unfold BlockSearchPivotRule.scanOrder
        have := @List.take_append Int (arcsFrom p.next_arc (p.arc_num - p.next_arc).toNat)
          (arcsFrom p.dummy_arc (p.next_arc - p.dummy_arc).toNat) t
        rw [arcsFrom_length] at this
        rw [this, arcsFrom_take _ _ _ ht]
        rfl
      rw [← et] at d2
      refine ⟨sc2.in_arc, ?_, d2.chosen_block hbs (by omega)⟩
      simp only [BlockSearchPivotRule.findEnteringArc, Option.bind_eq_bind, e1,
        Option.some_bind, c1, Bool.false_eq_true, if_false, e2, c2, if_true]
  · right
    have et : p.scanOrder.take t = [] ++ arcsFrom p.next_arc t := by
      unfold BlockSearchPivotRule.scanOrder
      rw [List.take_append_of_le_length (by rw [arcsFrom_length]; exact ht),
        arcsFrom_take _ _ _ ht]
      rfl
    rw [← et] at d1
    refine ⟨sc1.in_arc, ?_, d1.chosen_block hbs (by omega)⟩
    simp only [BlockSearchPivotRule.findEnteringArc, Option.bind_eq_bind, e1,
      Option.some_bind, c1, if_true]

theorem BlockSearchPivotRule.mem_scanOrder {p : BlockSearchPivotRule}
    (h1 : p.dummy_arc ≤ p.next_arc) (h2 : p.next_arc ≤ p.arc_num) (x : Int) :
    x ∈ p.scanOrder ↔ p.dummy_arc ≤ x ∧ x < p.arc_num := by
  unfold BlockSearchPivotRule.scanOrder
  rw [List.mem_append, mem_arcsFrom, mem_arcsFrom]
  omega

theorem BlockSearchPivotRule.Chosen.mem {p : BlockSearchPivotRule} {ns : NetSimplex} {a : Int}
    (h : p.Chosen ns a) : a ∈ p.scanOrder ∧ ns.signedOf a < 0 := by
  obtain ⟨q, H1, H2, g1, _, g2, _⟩ := h
  refine ⟨List.mem_of_mem_take (n := (q + 1) * p.block_size.toNat) ?_, g2⟩
  rw [g1]
  simp

/-! ## C33, C34, C35: the entering arc -/

theorem NetSimplex.signedRedCost_neg {ns : NetSimplex} {e c : Int}
    (h : ns.signedRedCost e = some c) (hc : c < 0) :
    rd ns.state e = some STATE_LOWER ∧ ns.redCost e = some c := by
  simp only [NetSimplex.signedRedCost, Option.bind_eq_bind, Option.bind_eq_some,
    Option.some.injEq] at h
  obtain ⟨st, h1, r, h2, h3⟩ := h
  cases st with
  | false =>
    simp at h3
    omega
  | true =>
    simp only [if_true, one_mul] at h3
    subst h3
    exact ⟨h1, h2⟩

/-- C33: with the cursor in the range of the rule and all arcs of the range readable,
`findEnteringArc` returns; it returns false exactly when no arc from `_dummy_arc` to
`_arc_num - 1` has a signed reduced cost below the threshold (0 for integer costs); when it
returns true, the arc written to `in_arc` lies in that range, is in state `STATE_LOWER`,
and its reduced cost is below the threshold. -/
theorem C33_entering_arc_iff (p : BlockSearchPivotRule) (ns : NetSimplex)
    (h1 : p.dummy_arc ≤ p.next_arc) (h2 : p.next_arc ≤ p.arc_num) (hbs : 1 ≤ p.block_size)
    (hr : ∀ j : Int, p.dummy_arc ≤ j → j < p.arc_num → ∃ c, ns.signedRedCost j = some c) :
    ∃ b p' ns', p.findEnteringArc ns = some (b, p', ns') ∧
      (b = false ↔ ¬ ∃ e c, p.dummy_arc ≤ e ∧ e < p.arc_num ∧
        ns.signedRedCost e = some c ∧ c < 0) ∧
      (b = true → p.dummy_arc ≤ ns'.in_arc ∧ ns'.in_arc < p.arc_num ∧
        rd ns.state ns'.in_arc = some STATE_LOWER ∧
        ∃ r, ns.redCost ns'.in_arc = some r ∧ r < 0) := by
  rcases BlockSearchPivotRule.findEnteringArc_scan p ns h1 h2 hbs hr with ⟨e1, g⟩ | ⟨a, e1, g⟩
  · refine ⟨false, p, ns, e1, ?_, fun h => absurd h (by decide)⟩
    refine ⟨fun _ => ?_, fun _ => rfl⟩
    rintro ⟨e, c, q1, q2, q3, q4⟩
    have := g e ((BlockSearchPivotRule.mem_scanOrder h1 h2 e).2 ⟨q1, q2⟩)
    rw [NetSimplex.signedOf_eq q3] at this
    omega
  · obtain ⟨m1, m2⟩ := g.mem
    obtain ⟨r1, r2⟩ := (BlockSearchPivotRule.mem_scanOrder h1 h2 a).1 m1
    obtain ⟨c, hc⟩ := hr a r1 r2
    rw [NetSimplex.signedOf_eq hc] at m2
    obtain ⟨s1, s2⟩ := NetSimplex.signedRedCost_neg hc m2
    refine ⟨true, _, _, e1, ?_, fun _ => ⟨r1, r2, s1, c, s2, m2⟩⟩
    refine ⟨fun h => absurd h (by decide), fun h => ?_⟩
    exact absurd ⟨a, c, r1, r2, hc, m2⟩ h

/-- C33 on scenario S2 after `init`, with the cursor at arc 6: the call returns true. -/
theorem C33_entering_arc_iff_S2 :
    ∃ b p' ns', ruleS2.findEnteringArc preparedS2 = some (b, p', ns') ∧
      (b = false ↔ ¬ ∃ e c, ruleS2.dummy_arc ≤ e ∧ e < ruleS2.arc_num ∧
        preparedS2.signedRedCost e = some c ∧ c < 0) ∧
      (b = true → ruleS2.dummy_arc ≤ ns'.in_arc ∧ ns'.in_arc < ruleS2.arc_num ∧
        rd preparedS2.state ns'.in_arc = some STATE_LOWER ∧
        ∃ r, preparedS2.redCost ns'.in_arc = some r ∧ r < 0) :=
  C33_entering_arc_iff ruleS2 preparedS2 (by decide) (by decide) (by decide)
    (fun j j0 j1 => by
      have j0' : 4 ≤ j := j0
      have j1' : j < 8 := j1
      interval_cases j <;> exact Option.isSome_iff_exists.1 (by decide))

/-- C34: when `findEnteringArc` returns true (cursor in the range of the rule, all arcs of the
range readable), there is a number `q` of blocks without an eligible arc such that the arcs
examined are the first `q + 1` blocks of the circular scan order (the whole pass where that is
shorter), and the entering arc has a negative signed reduced cost that is strictly below that
of every arc examined before it and not above that of any arc examined after it. -/
theorem C34_block_choice (p p' : BlockSearchPivotRule) (ns ns' : NetSimplex)
    (h1 : p.dummy_arc ≤ p.next_arc) (h2 : p.next_arc ≤ p.arc_num) (hbs : 1 ≤ p.block_size)
    (hr : ∀ j : Int, p.dummy_arc ≤ j → j < p.arc_num → ∃ c, ns.signedRedCost j = some c)
    (h : p.findEnteringArc ns = some (true, p', ns')) :
    ∃ (q : Nat) (H1 H2 : List Int),
      p.scanOrder.take ((q + 1) * p.block_size.toNat) = H1 ++ ns'.in_arc :: H2 ∧
      (∀ x ∈ p.scanOrder.take (q * p.block_size.toNat), 0 ≤ ns.signedOf x) ∧
      ns.signedOf ns'.in_arc < 0 ∧ (∀ x ∈ H1, ns.signedOf ns'.in_arc < ns.signedOf x) ∧
      (∀ x ∈ H2, ns.signedOf ns'.in_arc ≤ ns.signedOf x) := by
  rcases BlockSearchPivotRule.findEnteringArc_scan p ns h1 h2 hbs hr with ⟨e1, _⟩ | ⟨a, e1, g⟩
  · rw [e1] at h
    simp at h
  · rw [e1] at h
    simp only [Option.some.injEq, Prod.mk.injEq, true_and] at h
    obtain ⟨_, rfl⟩ := h
    exact g

/-- C34 on scenario S2 after `init`, with blocks of two arcs and the cursor at arc 6: the
call examines the arcs 6 and 7 only. -/
theorem C34_block_choice_S2 :
    ruleS2.findEnteringArc preparedS2 =
      some (true, { ruleS2 with next_arc := 6 }, { preparedS2 with in_arc := 6 }) ∧
    ∃ (q : Nat) (H1 H2 : List Int),
      ruleS2.scanOrder.take ((q + 1) * ruleS2.block_size.toNat) = H1 ++ 6 :: H2 ∧
      (∀ x ∈ ruleS2.scanOrder.take (q * ruleS2.block_size.toNat), 0 ≤ preparedS2.signedOf x) ∧
      preparedS2.signedOf 6 < 0 ∧ (∀ x ∈ H1, preparedS2.signedOf 6 < preparedS2.signedOf x) ∧
      (∀ x ∈ H2, preparedS2.signedOf 6 ≤ preparedS2.signedOf x) :=
  ⟨by decide, C34_block_choice ruleS2 { ruleS2 with next_arc := 6 } preparedS2
    { preparedS2 with in_arc := 6 }
    (by decide) (by decide) (by decide)
    (fun j j0 j1 => by
      have j0' : 4 ≤ j := j0
      have j1' : j < 8 := j1
      interval_cases j <;> exact Option.isSome_iff_exists.1 (by decide))
    (by decide)⟩

/-- C35 as stated fails: in scenario S2 after `init`, the first call of `findEnteringArc`
commits arc 4 and leaves the cursor `_next_arc` at 4, not at 5. -/
theorem C35_cursor_not_advanced :
    ((BlockSearchPivotRule.create preparedS2).findEnteringArc preparedS2).map
      (fun r => (r.1, r.2.2.in_arc, r.2.1.next_arc)) = some (true, 4, 4) := by
  decide

/-- C35 (amended): when `findEnteringArc` returns true, the cursor `_next_arc` of the rule is
the entering arc itself (the statement `_next_arc = _in_arc`), so that the next call starts
its scan at the arc just chosen; the other members of the rule are unchanged. -/
theorem C35_cursor_is_entering_arc (p p' : BlockSearchPivotRule) (ns ns' : NetSimplex)
    (h : p.findEnteringArc ns = some (true, p', ns')) :
    p'.next_arc = ns'.in_arc ∧ p' = { p with next_arc := ns'.in_arc } := by
  simp only [BlockSearchPivotRule.findEnteringArc, Option.bind_eq_bind, Option.bind_eq_some] at h
  obtain ⟨sc1, _, h⟩ := h
  split at h
  · simp only [Option.some.injEq, Prod.mk.injEq, true_and] at h
    obtain ⟨rfl, rfl⟩ := h
    exact ⟨rfl, rfl⟩
  · simp only [Option.bind_eq_some] at h
    obtain ⟨sc2, _, h⟩ := h
    split at h
    · simp only [Option.some.injEq, Prod.mk.injEq, true_and] at h
      obtain ⟨rfl, rfl⟩ := h
      exact ⟨rfl, rfl⟩
    · split at h
      · simp at h
      · simp only [Option.some.injEq, Prod.mk.injEq, true_and] at h
        obtain ⟨rfl, rfl⟩ := h
        exact ⟨rfl, rfl⟩

/-- C35 (amended) on scenario S2 after `init`, with blocks of two arcs and the cursor at arc
6: the call commits arc 6 and the cursor stays at 6. -/
theorem C35_cursor_is_entering_arc_S2 :
    ruleS2.findEnteringArc preparedS2 =
      some (true, { ruleS2 with next_arc := 6 }, { preparedS2 with in_arc := 6 }) ∧
    ({ ruleS2 with next_arc := 6 } : BlockSearchPivotRule).next_arc =
      ({ preparedS2 with in_arc := 6 } : NetSimplex).in_arc ∧
    ({ ruleS2 with next_arc := 6 } : BlockSearchPivotRule) =
      { ruleS2 with next_arc := ({ preparedS2 with in_arc := 6 } : NetSimplex).in_arc } :=
  ⟨by decide, C35_cursor_is_entering_arc ruleS2 { ruleS2 with next_arc := 6 } preparedS2
    { preparedS2 with in_arc := 6 } (by decide)⟩

/-! ## C37: the arc counter and the stored arcs -/

namespace NetSimplex

theorem ArcLen.kept {fs : List Fld} {gs : List Sc} {a b : NetSimplex} {L : Nat}
    (h : Keeps fs gs a b) (hl : a.ArcLen L) : b.ArcLen L := by
  obtain ⟨l1, l2, l3, l4, l5⟩ := hl
  exact ⟨(h.2.1 Fld.source).trans l1, (h.2.1 Fld.target).trans l2, (h.2.1 Fld.cost).trans l3,
    (h.2.1 Fld.flow).trans l4, h.2.2.2.1.trans l5⟩

theorem addArc_arcLen {ns : NetSimplex} {L : Nat} (hl : ns.ArcLen L) (a b c : Int) :
    (ns.addArc a b c).2.ArcLen (L + 1) ∧ (ns.addArc a b c).2.arc_num = ns.arc_num + 1 := by
  obtain ⟨l1, l2, l3, l4, l5⟩ := hl
  refine ⟨⟨?_, ?_, ?_, ?_, ?_⟩, rfl⟩ <;> simp [addArc, l1, l2, l3, l4, l5]

theorem setArc_arcLen {ns ns' : NetSimplex} {L : Nat} (hl : ns.ArcLen L) {idx a b c : Int}
    (h : ns.setArc idx a b c = some ns') : ns'.ArcLen L ∧ ns'.arc_num = ns.arc_num + 1 := by
  obtain ⟨l1, l2, l3, l4, l5⟩ := hl
  simp only [setArc, Option.bind_eq_bind, Option.bind_eq_some, Option.some.injEq] at h
  obtain ⟨s, h1, t, h2, co, h3, f, h4, st, h5, rfl⟩ := h
  exact ⟨⟨(wr_length h1).trans l1, (wr_length h2).trans l2, (wr_length h3).trans l3,
    (wr_length h4).trans l4, (wr_length h5).trans l5⟩, rfl⟩

theorem resizeArcMemory_arcLen {ns : NetSimplex} {L : Nat} (hl : ns.ArcLen L) (s : Nat) :
    (ns.resizeArcMemory s).ArcLen (L + s) ∧ (ns.resizeArcMemory s).arc_num = ns.arc_num := by
  obtain ⟨l1, l2, l3, l4, l5⟩ := hl
  refine ⟨⟨?_, ?_, ?_, ?_, ?_⟩, rfl⟩ <;> simp [resizeArcMemory, l1, l2, l3, l4, l5]

theorem updateArcsAppend_arcLen (e : Int) : ∀ (rest : List Var) (cur : NetSimplex) (k : Int)
    (L : Nat), cur.ArcLen L →
    (updateArcsAppend e rest cur k).1.ArcLen (L + rest.length) ∧
    (updateArcsAppend e rest cur k).1.arc_num = cur.arc_num + rest.length := by
  intro rest
  induction rest with
  | nil => intro cur k L hl; exact ⟨hl, by simp [updateArcsAppend]⟩
  | cons a rest ih =>
    intro cur k L hl
    obtain ⟨g1, g2⟩ := addArc_arcLen hl a.a a.b a.c
    have el : L + (a :: rest).length = L + 1 + rest.length := by
      rw [List.length_cons]
      omega
    simp only [updateArcsAppend]
    by_cases hk : k = 0
    · simp only [hk, if_true]
      obtain ⟨q1, q2⟩ := ih { (cur.addArc a.a a.b a.c).2 with next_arc := e } (0 + 1) (L + 1) g1
      refine ⟨by rw [el]; exact q1, ?_⟩
      rw [q2]
      show (cur.addArc a.a a.b a.c).2.arc_num + _ = _
      rw [g2, List.length_cons]
      push_cast
      omega
    · simp only [hk, if_false]
      obtain ⟨q1, q2⟩ := ih (cur.addArc a.a a.b a.c).2 (k + 1) (L + 1) g1
      refine ⟨by rw [el]; exact q1, ?_⟩
      rw [q2, g2, List.length_cons]
      push_cast
      omega

theorem updateArcs_arcLen {ns ns' : NetSimplex} {L : Nat} (hl : ns.ArcLen L) {as : List Var}
    {k : Int} (h : ns.updateArcs as = some (k, ns')) :
    ∃ L', ns'.ArcLen L' ∧ (L' : Int) - ns'.arc_num = L - ns.arc_num := by
  simp only [updateArcs, Option.bind_eq_bind, Option.bind_eq_some, Option.some.injEq,
    Prod.mk.injEq] at h
  obtain ⟨⟨rest, cur, e, k1⟩, h1, _, h3⟩ := h
  have hinv0 : ReplaceInv ns ns ns.dummy_arc :=
    ⟨(Keeps.unchanged _ _ _), rfl, fun _ _ => ⟨rfl, rfl, rfl⟩,
      fun j hj => absurd ⟨rfl, rfl, rfl⟩ hj⟩
  obtain ⟨kk, _, _, _⟩ := updateArcsReplace_inv ns _ _ _ _ _ _ _ _ _ hinv0 h1
  have hc := ArcLen.kept kk hl
  have ha : cur.arc_num = ns.arc_num := kk.2.2.1 Sc.arc_num (by decide)
  obtain ⟨q1, q2⟩ := updateArcsAppend_arcLen e rest cur k1 L hc
  rw [h3] at q1 q2
  refine ⟨_, q1, ?_⟩
  rw [q2, ha]
  push_cast
  omega

/-- What a sequence of calls that store arcs does to the sizes: the five arc vectors keep one
common length, and the length grows by the slack of the calls more than the arc counter. -/
theorem applyOps_arcLen : ∀ (ops : List ArcOp) (ns ns' : NetSimplex) (L : Nat), ns.ArcLen L →
    applyOps ops ns = some ns' →
    ∃ L', ns'.ArcLen L' ∧ (L' : Int) - ns'.arc_num = L - ns.arc_num + slackOf ops := by
  intro ops
  induction ops with
  | nil =>
    intro ns ns' L hl h
    simp only [applyOps, Option.some.injEq] at h
    subst h
    exact ⟨L, hl, by simp [slackOf]⟩
  | cons op ops ih =>
    intro ns ns' L hl h
    simp only [applyOps, Option.bind_eq_some] at h
    obtain ⟨mid, h1, h2⟩ := h
    have key : ∃ L1, mid.ArcLen L1 ∧ (L1 : Int) - mid.arc_num = L - ns.arc_num + op.slack := by
      cases op with
      | addArc a b c =>
        simp only [applyOp, Option.some.injEq] at h1
        subst h1
        obtain ⟨g1, g2⟩ := addArc_arcLen hl a b c
        exact ⟨_, g1, by rw [g2]; simp [ArcOp.slack]⟩
      | setArc idx a b c =>
        obtain ⟨g1, g2⟩ := setArc_arcLen hl h1
        exact ⟨_, g1, by rw [g2]; simp only [ArcOp.slack]; omega⟩
      | resizeArcMemory s =>
        simp only [applyOp, Option.some.injEq] at h1
        subst h1
        obtain ⟨g1, g2⟩ := resizeArcMemory_arcLen hl s
        exact ⟨_, g1, by rw [g2]; simp only [ArcOp.slack]; push_cast; omega⟩
      | updateArcs as =>
        simp only [applyOp, Option.map_eq_some'] at h1
        obtain ⟨⟨k, x⟩, h1, rfl⟩ := h1
        obtain ⟨L1, g1, g2⟩ := updateArcs_arcLen hl h1
        exact ⟨L1, g1, by rw [g2]; simp [ArcOp.slack]⟩
    obtain ⟨L1, g1, g2⟩ := key
    obtain ⟨L', q1, q2⟩ := ih mid ns' L1 g1 h2
    refine ⟨L', q1, ?_⟩
    rw [q2, g2]
    simp only [slackOf]
    omega

end NetSimplex

/-- C37 as stated fails: on a fresh solver with two nodes, `resizeArcMemory(1)` followed by
two calls `setArc(0, 0, 1, 5)` leaves `_arc_num = 4` with arc vectors of length 3. -/
theorem C37_counter_exceeds :
    ((NetSimplex.create 2147483647 2147483647 2).applyOps
      [ArcOp.resizeArcMemory 1, ArcOp.setArc 0 0 1 5, ArcOp.setArc 0 0 1 5]).map
      (fun ns => (ns.arc_num, ns.source.length, ns.target.length, ns.cost.length,
        ns.flow.length, ns.state.length)) = some (4, 3, 3, 3, 3, 3) := by
  decide

/-- C37 (amended): after every sequence of `addArc`, `setArc`, `resizeArcMemory` and
`updateArcs` calls on a freshly constructed solver, the five arc vectors have one common
length, and this length exceeds `_arc_num` by the number of slots added by
`resizeArcMemory` minus the number of `setArc` calls; so `_arc_num` stays within the stored
arcs exactly when `setArc` was not called more often than `resizeArcMemory` added slots. -/
theorem C37_arc_counter (maxV maxC : Int) (n : Nat) (ops : List ArcOp) (ns' : NetSimplex)
    (h : (NetSimplex.create maxV maxC n).applyOps ops = some ns') :
    ns'.target.length = ns'.source.length ∧ ns'.cost.length = ns'.source.length ∧
    ns'.flow.length = ns'.source.length ∧ ns'.state.length = ns'.source.length ∧
    (ns'.source.length : Int) = ns'.arc_num + slackOf ops ∧
    (ns'.arc_num ≤ ns'.source.length ↔ 0 ≤ slackOf ops) := by
  have h0 : (NetSimplex.create maxV maxC n).ArcLen n := by
    refine ⟨?_, ?_, ?_, ?_, ?_⟩ <;> simp [NetSimplex.create]
  obtain ⟨L', ⟨l1, l2, l3, l4, l5⟩, g⟩ := NetSimplex.applyOps_arcLen ops _ ns' n h0 h
  have ha : (NetSimplex.create maxV maxC n).arc_num = n := rfl
  rw [ha] at g
  refine ⟨l2.trans l1.symm, l3.trans l1.symm, l4.trans l1.symm, l5.trans l1.symm, ?_, ?_⟩
  · rw [l1]; omega
  · rw [l1]; omega

/-- C37 (amended) on a fresh solver with two nodes: one slot is added and filled with
`setArc`, one arc is appended with `addArc`, and `updateArcs` overwrites a stored arc. -/
theorem C37_arc_counter_two_nodes :
    ∃ ns', (NetSimplex.create 2147483647 2147483647 2).applyOps
        [ArcOp.resizeArcMemory 1, ArcOp.setArc 0 0 1 5, ArcOp.addArc 1 0 3,
          ArcOp.updateArcs [⟨0, 1, 2⟩]] = some ns' ∧
      (ns'.arc_num, ns'.source.length) = (4, 4) ∧
      ns'.target.length = ns'.source.length ∧ ns'.cost.length = ns'.source.length ∧
      ns'.flow.length = ns'.source.length ∧ ns'.state.length = ns'.source.length ∧
      (ns'.source.length : Int) = ns'.arc_num + slackOf
        [ArcOp.resizeArcMemory 1, ArcOp.setArc 0 0 1 5, ArcOp.addArc 1 0 3,
          ArcOp.updateArcs [⟨0, 1, 2⟩]] ∧
      (ns'.arc_num ≤ ns'.source.length ↔ 0 ≤ slackOf
        [ArcOp.resizeArcMemory 1, ArcOp.setArc 0 0 1 5, ArcOp.addArc 1 0 3,
          ArcOp.updateArcs [⟨0, 1, 2⟩]]) :=
  ⟨((NetSimplex.create 2147483647 2147483647 2).applyOps
      [ArcOp.resizeArcMemory 1, ArcOp.setArc 0 0 1 5, ArcOp.addArc 1 0 3,
        ArcOp.updateArcs [⟨0, 1, 2⟩]]).getD (NetSimplex.create 0 0 0),
    by decide, by decide,
    C37_arc_counter 2147483647 2147483647 2 _ _ (by decide)⟩

/-! ## C31: flows stay non-negative -/

namespace NetSimplex

theorem flowAt_nonneg_iff (ns : NetSimplex) :
    (∀ e : Int, 0 ≤ ns.flowAt e) ↔ ∀ v ∈ ns.flow, 0 ≤ v := by
  constructor
  · intro h v hv
    obtain ⟨i, hi, rfl⟩ := List.mem_iff_getElem.1 hv
    have hr : rd ns.flow (i : Int) = some ns.flow[i] :=
      rd_eq_some.2 ⟨by omega, by simp [hi]⟩
    have := h (i : Int)
    unfold flowAt at this
    rw [hr] at this
    exact this
  · intro h e
    unfold flowAt
    cases hr : rd ns.flow e with
    | none => exact le_refl _
    | some v =>
      obtain ⟨_, hv⟩ := rd_eq_some.1 hr
      exact h v (List.getElem?_mem hv)

/-- The augmentation of a pivot on a tree basis keeps the flows non-negative. -/
theorem changeFlow_nonneg {x x1 x2 x3 : NetSimplex} {n m : Nat} {r : Bool}
    (hb : TreeBasis x n m)
    (hs : 0 ≤ x.srcOf x.in_arc ∧ x.srcOf x.in_arc ≤ n)
    (ht : 0 ≤ x.tgtOf x.in_arc ∧ x.tgtOf x.in_arc ≤ n)
    (hfl : ∀ e, 0 ≤ x.flowAt e)
    (h1 : findJoinNode x = some x1) (h2 : findLeavingArc x1 = some (r, x2))
    (h3 : changeFlow x2 = some x3) : ∀ e, 0 ≤ x3.flowAt e := by
  obtain ⟨e2, l1, l2, w1, w2, hdj, r1, r2, _, _, _, d1, d2, _⟩ := pivot_cycle hb h1 h2 hs ht
  obtain ⟨_, _, _, _, _, _, fz, fp⟩ := changeFlow_spec h3
  have q1 : x2.parent = x.parent := by rw [e2]
  have q2 : x2.pred = x.pred := by rw [e2]
  have q3 : x2.pred_dir = x.pred_dir := by rw [e2]
  have q4 : x2.flow = x.flow := by rw [e2]
  have q5 : x2.in_arc = x.in_arc := by rw [e2]
  have q6 : x2.source = x.source := by rw [e2]
  have q7 : x2.target = x.target := by rw [e2]
  have fa : ∀ e, x2.flowAt e = x.flowAt e := fun e => by unfold flowAt; rw [q4]
  intro e
  by_cases hpos : x2.delta > 0
  · obtain ⟨l1', l2', v1, v2, hf⟩ := fp hpos
    have es : x2.srcOf x2.in_arc = x.srcOf x.in_arc := by unfold srcOf; rw [q5, q6]
    have et : x2.tgtOf x2.in_arc = x.tgtOf x.in_arc := by unfold tgtOf; rw [q5, q7]
    rw [es] at v1
    rw [et] at v2
    have u1 := Walk.unique _ _ _ (Walk.congr q1.symm _ _ _ v1) w1
    have u2 := Walk.unique _ _ _ (Walk.congr q1.symm _ _ _ v2) w2
    rw [hf e, fa e, q5, u1, u2, dirSum_congr q2 q3, dirSum_congr q2 q3]
    have hin : 0 ≤ (if e = x.in_arc then x2.delta else 0) := by
      split
      · omega
      · exact le_refl _
    have inj : ∀ l : List Int, (∀ y ∈ l, 0 ≤ y ∧ y < n) → ∀ u : Int, 0 ≤ u → u < n →
        ∀ y ∈ l, x.predOf y = x.predOf u → y = u := fun l hl u u0 un y hy he =>
      hb.pred_inj (hl y hy).1 (hl y hy).2 u0 un he
    have hfe := hfl e
    by_cases c1 : ∃ y ∈ l1, x.predOf y = e
    · obtain ⟨y, hy, rfl⟩ := c1
      obtain ⟨y0, yn⟩ := r1 y hy
      have hs1 : x.dirSum l1 (x.predOf y) = x.dirOf y :=
        dirSum_single x l1 _ hy (Walk.nodup _ _ w1) (inj l1 r1 _ y0 yn)
      have hs2 : x.dirSum l2 (x.predOf y) = 0 :=
        dirSum_none x l2 _ (fun z hz he => hdj _ hy (by rw [← inj l2 r2 _ y0 yn z hz he]; exact hz))
      rw [hs1, hs2]
      have hres := d1 y hy
      unfold walkResidual at hres
      rcases hb.pred_arc y y0 yn with ⟨g, _⟩ | ⟨g, _⟩
      · rw [g] at hres ⊢
        simp only [if_true, DIR_UP, DIR_DOWN] at hres ⊢
        norm_num at hres
        omega
      · rw [g]
        simp only [DIR_DOWN]
        nlinarith
    · by_cases c2 : ∃ y ∈ l2, x.predOf y = e
      · obtain ⟨y, hy, rfl⟩ := c2
        obtain ⟨y0, yn⟩ := r2 y hy
        have hs2 : x.dirSum l2 (x.predOf y) = x.dirOf y :=
          dirSum_single x l2 _ hy (Walk.nodup _ _ w2) (inj l2 r2 _ y0 yn)
        have hs1 : x.dirSum l1 (x.predOf y) = 0 :=
          dirSum_none x l1 _ (fun z hz he => c1 ⟨z, hz, he⟩)
        rw [hs1, hs2]
        have hres := d2 y hy
        unfold walkResidual at hres
        rcases hb.pred_arc y y0 yn with ⟨g, _⟩ | ⟨g, _⟩
        · rw [g]
          simp only [DIR_UP]
          nlinarith
        · rw [g] at hres ⊢
          simp only [if_false, DIR_UP, DIR_DOWN] at hres ⊢
          norm_num at hres
          omega
      · have hs1 : x.dirSum l1 e = 0 := dirSum_none x l1 _ (fun z hz he => c1 ⟨z, hz, he⟩)
        have hs2 : x.dirSum l2 e = 0 := dirSum_none x l2 _ (fun z hz he => c2 ⟨z, hz, he⟩)
        rw [hs1, hs2]
        omega
  · have := fz hpos
    unfold flowAt
    rw [this, q4]
    exact hfl e

/-- A complete pivot on a tree basis keeps the flows non-negative. -/
theorem pivot_flow_nonneg {x y : NetSimplex} {n m : Nat} (hb : TreeBasis x n m)
    (hs : 0 ≤ x.srcOf x.in_arc ∧ x.srcOf x.in_arc ≤ n)
    (ht : 0 ≤ x.tgtOf x.in_arc ∧ x.tgtOf x.in_arc ≤ n)
    (hfl : ∀ v ∈ x.flow, 0 ≤ v) (h : pivot x = some y) : ∀ v ∈ y.flow, 0 ≤ v := by
  simp only [pivot, Option.bind_eq_bind, Option.bind_eq_some, Option.some.injEq] at h
  obtain ⟨x1, h1, ⟨r, x2⟩, h2, x3, h3, x4, h4, x5, h5, rfl⟩ := h
  have g3 := changeFlow_nonneg hb hs ht ((flowAt_nonneg_iff x).2 hfl) h1 h2 h3
  have e4 : x4.flow = x3.flow := (updateTreeStructure_writes h4).vec Fld.flow (by decide)
  have e5 : x5.flow = x4.flow := (updatePotential_writes h5).vec Fld.flow (by decide)
  show ∀ v ∈ x5.flow, 0 ≤ v
  rw [e5, e4]
  exact (flowAt_nonneg_iff x3).1 g3

/-- The flows after the reset loop of `run` and `init` are non-negative. -/
theorem prepared_flow_nonneg (ns : NetSimplex) (n m : Nat) (hs : Sized ns n m)
    (hnn : ns.node_num = n) (han : ns.arc_num = m) (hn1 : 1 ≤ n) (hnm : n ≤ m) :
    ∃ A, ns.prepared = some A ∧ ∀ v ∈ A.flow, 0 ≤ v := by
  have hm : ns.arc_num.toNat = m := by rw [han]; simp
  obtain ⟨x1, hr, k1⟩ := runReset_ok n m ns.arc_num.toNat 0 { ns with iterations := 0 }
    (sized_iterations hs 0) (le_refl _) (by rw [hm]; simp)
  have hs1 : Sized x1 n m := k1.sized (sized_iterations hs 0)
  have hn1' : x1.node_num = n := (k1.2.2.1 Sc.node_num (by simp)).trans hnn
  obtain ⟨A, hi, _⟩ := init_ok x1 n m hs1 hn1' hn1 hnm
  obtain ⟨sA, _, _, _, _, hnode, harc, _⟩ := run_prepared n m ns x1 A hs hnn han hn1 hnm hr hi
  have hp : ns.prepared = some A := by
    simp only [prepared, Option.bind_eq_bind, hr, Option.some_bind, hi]
  refine ⟨A, hp, (flowAt_nonneg_iff A).1 fun e => ?_⟩
  unfold flowAt
  by_cases e0 : 0 ≤ e
  · by_cases en : e < n
    · obtain ⟨c, _, _, st⟩ := hnode e e0 en
      have hf : rd A.flow e = some (initFlow c) := st.2.2.2.2.2.2.2.2.2.2.2.1
      rw [hf]
      show 0 ≤ initFlow c
      rw [initFlow_eq_abs]
      exact abs_nonneg c
    · by_cases em : e < m
      · obtain ⟨_, _, _, hf, _⟩ := harc e (by omega) em
        rw [hf]
        exact le_refl _
      · have : rd A.flow e = none := by
          cases hr' : rd A.flow e with
          | none => rfl
          | some v =>
            have := (rd_some_range hr').2
            have hl : A.flow.length = m := sA.1 Fld.flow
            omega
        rw [this]
        exact le_refl _
  · rw [rd_none_of_neg _ (by omega)]
    exact le_refl _

end NetSimplex

/-- C31: flows stay non-negative. After the reset loop of `run` and `init`, every arc (dummy
or real) has a flow `>= 0`; and a complete pivot from a tree basis whose flows are all `>= 0`
ends with all flows `>= 0` (exact integer arithmetic; the bound `delta < MAX` is not
needed). -/
theorem C31_flows_nonneg :
    (∀ (ns : NetSimplex) (n m : Nat), ns.Sized n m → ns.node_num = n → ns.arc_num = m →
      1 ≤ n → n ≤ m → ∃ A, ns.prepared = some A ∧ ∀ v ∈ A.flow, 0 ≤ v) ∧
    (∀ (x y : NetSimplex) (n m : Nat), x.TreeBasis n m →
      (0 ≤ x.srcOf x.in_arc ∧ x.srcOf x.in_arc ≤ n) →
      (0 ≤ x.tgtOf x.in_arc ∧ x.tgtOf x.in_arc ≤ n) →
      (∀ v ∈ x.flow, 0 ≤ v) → x.pivot = some y → ∀ v ∈ y.flow, 0 ≤ v) :=
  ⟨NetSimplex.prepared_flow_nonneg,
    fun _ _ _ _ hb hs ht hfl h => NetSimplex.pivot_flow_nonneg hb hs ht hfl h⟩

/-- C31 on scenario S1 for `init` and on the stem scenario for its second pivot. -/
theorem C31_flows_nonneg_Stem :
    (∃ A, solverS1.prepared = some A ∧ ∀ v ∈ A.flow, 0 ≤ v) ∧
    (enteredStem.pivot = some pivotedStem ∧ enteredStem.flow = [0, 1, 1, 0, 0] ∧
      pivotedStem.flow = [0, 0, 0, 1, 1] ∧ ∀ v ∈ pivotedStem.flow, 0 ≤ v) :=
  ⟨C31_flows_nonneg.1 solverS1 2 3 ⟨fun f => by cases f <;> decide, by decide⟩
      (by decide) (by decide) (by decide) (by decide),
    by decide, by decide, by decide,
    C31_flows_nonneg.2 enteredStem pivotedStem 3 5 enteredStem_basis (by decide) (by decide)
      (by decide) (by decide)⟩

/-! ## C32: the join node is the lowest common ancestor -/

namespace NetSimplex

theorem rd_none_of_ge {α : Type} (xs : List α) {i : Int} (h : (xs.length : Int) ≤ i) :
    rd xs i = none := by
  unfold rd
  split
  · apply List.getElem?_eq_none
    omega
  · rfl

theorem par_ge (ns : NetSimplex) {u : Int} (h : (ns.parent.length : Int) ≤ u) :
    ns.par u = -1 := by
  unfold par
  rw [rd_none_of_ge _ h]
  rfl

theorem Anc.self (ns : NetSimplex) (u : Int) : ns.Anc u u := ⟨0, rfl⟩

theorem Anc.up {ns : NetSimplex} {u v w : Int} (h1 : ns.Anc u v) (h2 : ns.Anc v w) :
    ns.Anc u w := by
  obtain ⟨k1, e1⟩ := h1
  obtain ⟨k2, e2⟩ := h2
  exact ⟨k1 + k2, by rw [Function.iterate_add_apply, e2, e1]⟩

theorem Anc.of_par (ns : NetSimplex) (w : Int) : ns.Anc (ns.par w) w := ⟨1, rfl⟩

theorem Anc.parent {ns : NetSimplex} {u w : Int} (h : ns.Anc u w) (hne : w ≠ u) :
    ns.Anc u (ns.par w) := by
  obtain ⟨k, e⟩ := h
  cases k with
  | zero => exact absurd e hne
  | succ k => exact ⟨k, by rw [← Function.iterate_succ_apply]; exact e⟩

theorem Anc.neg {ns : NetSimplex} {u w : Int} (h : ns.Anc u w) (hw : w < 0) (hu : 0 ≤ u) :
    False := by
  obtain ⟨k, e⟩ := h
  have : ∀ k : Nat, (ns.par)^[k] w < 0 := by
    intro k
    induction k with
    | zero => exact hw
    | succ k ih =>
      rw [Function.iterate_succ_apply']
      rw [par_neg ns ih]
      decide
  have := this k
  omega

theorem SpanningTree.par_at_root {ns : NetSimplex} {n m : Nat} (h : SpanningTree ns n m) :
    ns.par n = -1 := par_eq h.parent_root

theorem SpanningTree.anc_root {ns : NetSimplex} {n m : Nat} (h : SpanningTree ns n m)
    {u : Int} (hu : 0 ≤ u) (ha : ns.Anc u n) : u = n := by
  obtain ⟨k, e⟩ := ha
  cases k with
  | zero => exact e.symm
  | succ k =>
    rw [Function.iterate_succ_apply, h.par_at_root] at e
    exact absurd (Anc.neg ⟨k, e⟩ (by decide) hu) id

theorem SpanningTree.root_anc {ns : NetSimplex} {n m : Nat} (h : SpanningTree ns n m)
    {w : Int} (h0 : 0 ≤ w) (hn : w ≤ n) : ns.Anc n w := by
  by_cases e : w = n
  · rw [e]; exact Anc.self _ _
  · exact h.reach w h0 (lt_of_le_of_ne hn e)

/-- The nodes of a subtree are nodes of the tree. -/
theorem SpanningTree.anc_range {ns : NetSimplex} {n m : Nat} (h : SpanningTree ns n m)
    {u w : Int} (h0 : 0 ≤ u) (hn : u ≤ n) (ha : ns.Anc u w) : 0 ≤ w ∧ w ≤ n := by
  by_cases hw0 : 0 ≤ w
  · refine ⟨hw0, ?_⟩
    by_contra hc
    obtain ⟨k, e⟩ := ha
    cases k with
    | zero =>
      have : w = u := e
      omega
    | succ k =>
      have hl : ns.parent.length = n + 1 := by
        have := h.sized.1 Fld.parent
        simpa [Fld.isNode] using this
      rw [Function.iterate_succ_apply, par_ge ns (by rw [hl]; push_cast; omega),
        par_iter_neg] at e
      omega
  · exact absurd (Anc.neg ha (by omega) h0) id

/-- A spanning tree has no cycle of parent links. -/
theorem SpanningTree.no_cycle {ns : NetSimplex} {n m : Nat} (h : SpanningTree ns n m)
    {u : Int} (h0 : 0 ≤ u) (hn : u < n) (k : Nat) : (ns.par)^[k + 1] u ≠ u := by
  intro hc
  obtain ⟨r, hr⟩ := h.reach u h0 hn
  have hfix : (ns.par)^[(k + 1) * (r + 1)] u = u := by
    rw [Function.iterate_mul]
    exact Function.iterate_fixed hc _
  have hsplit : (k + 1) * (r + 1) = (k * (r + 1) + 1) + r := by ring
  rw [hsplit, Function.iterate_add_apply, hr, Function.iterate_succ_apply, h.par_at_root,
    par_iter_neg] at hfix
  omega

/-- Subtree sizes grow strictly from a node to its parent. -/
theorem SubtreeSizes.succ_lt {ns : NetSimplex} {n m : Nat} (h : SpanningTree ns n m)
    (hz : ns.SubtreeSizes n) {u : Int} (h0 : 0 ≤ u) (hn : u < n) :
    ns.succOf u < ns.succOf (ns.par u) := by
  obtain ⟨p0, pn⟩ := h.parent_range u h0 hn
  obtain ⟨bu, du, mu, lu⟩ := hz u h0 (le_of_lt hn)
  obtain ⟨bp, dp, mp, lp⟩ := hz (ns.par u) p0 pn
  have hnot : ns.par u ∉ bu := by
    intro hc
    obtain ⟨k, e⟩ := (mu _).1 hc
    exact h.no_cycle h0 hn k (by rw [Function.iterate_succ_apply]; exact e)
  have hnd : (ns.par u :: bu).Nodup := List.nodup_cons.2 ⟨hnot, du⟩
  have hsub : (ns.par u :: bu) ⊆ bp := by
    intro w hw
    rcases List.mem_cons.1 hw with e | hw'
    · rw [e]; exact (mp _).2 (Anc.self _ _)
    · exact (mp _).2 (Anc.up (Anc.of_par ns u) ((mu _).1 hw'))
  have := (List.subperm_of_subset hnd hsub).length_le
  rw [List.length_cons] at this
  omega

/-- A tree with subtree sizes in `_succ_num` is a tree basis. -/
theorem SubtreeSizes.basis {ns : NetSimplex} {n m : Nat} (h : SpanningTree ns n m)
    (hz : ns.SubtreeSizes n) : TreeBasis ns n m :=
  ⟨h.sized, h.nodes, h.root, h.parent_root, h.pred_root, h.reach, h.parent_range,
    h.pred_range, h.pred_arc, fun _ h0 hn => hz.succ_lt h h0 hn⟩

theorem SubtreeSizes.pos {ns : NetSimplex} {n : Nat} (hz : ns.SubtreeSizes n) {u : Int}
    (h0 : 0 ≤ u) (hn : u ≤ n) : 1 ≤ ns.succOf u := by
  obtain ⟨bu, _, mu, lu⟩ := hz u h0 hn
  have : u ∈ bu := (mu u).2 (Anc.self _ _)
  have := List.length_pos_of_mem this
  omega

theorem SubtreeSizes.root_le {ns : NetSimplex} {n m : Nat} (h : SpanningTree ns n m)
    (hz : ns.SubtreeSizes n) : ns.succOf n ≤ n + 1 := by
  obtain ⟨b, d, mb, lb⟩ := hz n (by omega) (le_refl _)
  have hnd : (b.map Int.toNat).Nodup := by
    apply List.Nodup.map_on _ d
    intro x hx y hy e
    have rx := h.anc_range (by omega) (le_refl _) ((mb x).1 hx)
    have ry := h.anc_range (by omega) (le_refl _) ((mb y).1 hy)
    omega
  have hsub : b.map Int.toNat ⊆ List.range (n + 1) := by
    intro k hk
    obtain ⟨x, hx, rfl⟩ := List.mem_map.1 hk
    have rx := h.anc_range (by omega) (le_refl _) ((mb x).1 hx)
    exact List.mem_range.2 (by omega)
  have := (List.subperm_of_subset hnd hsub).length_le
  rw [List.length_map, List.length_range] at this
  omega

/-- The loop of `findJoinNode` returns on a tree basis when the fuel exceeds the sum of the
distances of the two `_succ_num` entries from the entry of the root. -/
theorem findJoinLoop_total {ns : NetSimplex} {n m : Nat} (h : TreeBasis ns n m) :
    ∀ (k : Nat) (u v : Int), 0 ≤ u → u ≤ n → 0 ≤ v → v ≤ n →
      (ns.succOf n - ns.succOf u) + (ns.succOf n - ns.succOf v) < k →
      ∃ j, findJoinLoop ns k u v = some j := by
  have hl : (ns.succ_num.length : Int) = n + 1 := by
    have := h.sized.1 Fld.succ_num
    simp only [Fld.isNode, if_true] at this
    have e : ns.succ_num.length = n + 1 := this
    rw [e]
    simp
  have hrd : ∀ u : Int, 0 ≤ u → u ≤ n → rd ns.succ_num u = some (ns.succOf u) := by
    intro u u0 un
    obtain ⟨v, hv⟩ := rd_of_range ns.succ_num u0 (by omega)
    rw [hv, succOf_eq hv]
  have hle : ∀ u : Int, 0 ≤ u → u ≤ n → ns.succOf u ≤ ns.succOf n := by
    intro u u0 un
    rcases lt_or_eq_of_le un with g | g
    · exact le_of_lt (h.succ_root u0 g)
    · rw [g]
  intro k
  induction k with
  | zero =>
    intro u v u0 un v0 vn hk
    have := hle u u0 un
    have := hle v v0 vn
    omega
  | succ k ih =>
    intro u v u0 un v0 vn hk
    unfold findJoinLoop
    by_cases huv : u = v
    · exact ⟨u, by rw [if_pos huv]⟩
    · rw [if_neg huv]
      simp only [Option.bind_eq_bind, hrd u u0 un, hrd v v0 vn, Option.some_bind]
      by_cases hlt : ns.succOf u < ns.succOf v
      · rw [if_pos hlt]
        have hun : u < n := by
          by_contra hc
          have hu : u = n := by omega
          have := hle v v0 vn
          rw [hu] at hlt
          omega
        obtain ⟨p0, pn⟩ := h.parent_range u u0 hun
        have := h.succ_lt u u0 hun
        rw [rd_parent_par h.sized u0 un, Option.some_bind]
        exact ih _ _ p0 pn v0 vn (by omega)
      · rw [if_neg hlt]
        have hvn : v < n := by
          by_contra hc
          have hv : v = n := by omega
          have hu : u < n := by
            rcases lt_or_eq_of_le un with g | g
            · exact g
            · exact absurd (g.trans hv.symm) huv
          have := h.succ_root u0 hu
          rw [hv] at hlt
          omega
        obtain ⟨p0, pn⟩ := h.parent_range v v0 hvn
        have := h.succ_lt v v0 hvn
        rw [rd_parent_par h.sized v0 vn, Option.some_bind]
        exact ih _ _ u0 un p0 pn (by omega)

theorem Walk.anc {ns : NetSimplex} {j : Int} : ∀ (l : List Int) (u : Int),
    Walk ns j u l → ns.Anc j u := by
  intro l u h
  exact ⟨l.length, (Walk.iter l u h).1⟩

/-- An ancestor of the start of a walk is on the walk or is an ancestor of its end. -/
theorem Walk.anc_split {ns : NetSimplex} {j c : Int} : ∀ (l : List Int) (u : Int),
    Walk ns j u l → ns.Anc c u → ns.Anc c j ∨ c ∈ l := by
  intro l
  induction l with
  | nil =>
    intro u h ha
    have : u = j := h
    rw [this] at ha
    exact Or.inl ha
  | cons x l ih =>
    intro u h ha
    obtain ⟨h1, _, h3⟩ := h
    by_cases e : u = c
    · right
      rw [h1, e]
      exact List.mem_cons_self _ _
    · rcases ih _ h3 (ha.parent e) with g | g
      · exact Or.inl g
      · exact Or.inr (List.mem_cons_of_mem _ g)

/-- Method `findJoinNode()` on a tree whose `_succ_num` holds the subtree sizes: it returns,
changes `join` only, and `join` is the lowest common ancestor of the ends of the entering
arc. -/
theorem findJoinNode_lca {x : NetSimplex} {n m : Nat} (ht : SpanningTree x n m)
    (hz : x.SubtreeSizes n) (hin : 0 ≤ x.in_arc ∧ x.in_arc < m)
    (hs : 0 ≤ x.srcOf x.in_arc ∧ x.srcOf x.in_arc ≤ n)
    (hg : 0 ≤ x.tgtOf x.in_arc ∧ x.tgtOf x.in_arc ≤ n) :
    ∃ y, findJoinNode x = some y ∧ y = { x with join := y.join } ∧
      x.Anc y.join (x.srcOf x.in_arc) ∧ x.Anc y.join (x.tgtOf x.in_arc) ∧
      ∀ c : Int, x.Anc c (x.srcOf x.in_arc) → x.Anc c (x.tgtOf x.in_arc) → x.Anc c y.join := by
  have hb := hz.basis ht
  have hfuel : (x.succOf n - x.succOf (x.srcOf x.in_arc)) +
      (x.succOf n - x.succOf (x.tgtOf x.in_arc)) < (x.loopBound : Int) := by
    have a1 := hz.pos hs.1 hs.2
    have a2 := hz.pos hg.1 hg.2
    have a3 := hz.root_le ht
    have e : x.loopBound = (n + 2) * (n + 2) := by
      unfold loopBound
      rw [ht.nodes]
      simp
    rw [e]
    push_cast
    nlinarith
  obtain ⟨j, hj⟩ := findJoinLoop_total hb x.loopBound _ _ hs.1 hs.2 hg.1 hg.2
    (by exact_mod_cast hfuel)
  have ls : (x.source.length : Int) = m := by
    have := ht.sized.1 Fld.source
    simp only [Fld.isNode] at this
    have e : x.source.length = m := this
    rw [e]
  have lt : (x.target.length : Int) = m := by
    have := ht.sized.1 Fld.target
    simp only [Fld.isNode] at this
    have e : x.target.length = m := this
    rw [e]
  obtain ⟨s, es⟩ := rd_of_range x.source hin.1 (by omega)
  obtain ⟨t, et⟩ := rd_of_range x.target hin.1 (by omega)
  have hs' := srcOf_eq es
  have ht' := tgtOf_eq et
  have hfj : findJoinNode x = some { x with join := j } := by
    simp only [findJoinNode, Option.bind_eq_bind, es, et, Option.some_bind, ← hs', ← ht', hj]
  obtain ⟨l1, l2, w1, w2, hd, _, _, _, _⟩ :=
    findJoinLoop_walks hb _ _ _ _ hj hs.1 hs.2 hg.1 hg.2
  refine ⟨_, hfj, rfl, Walk.anc _ _ w1, Walk.anc _ _ w2, ?_⟩
  intro c c1 c2
  rcases Walk.anc_split _ _ w1 c1 with g | g
  · exact g
  · rcases Walk.anc_split _ _ w2 c2 with g2 | g2
    · exact g2
    · exact absurd g2 (hd c g)

/-- A list that holds `u` and with the parent of a node also the node holds the subtree of
`u`. -/
theorem Anc.mem_of_closed {ns : NetSimplex} {u : Int} {blk : List Int} (hu : u ∈ blk)
    (hc : ∀ w : Int, ns.par w ∈ blk → w ∈ blk) {w : Int} (h : ns.Anc u w) : w ∈ blk := by
  obtain ⟨k, e⟩ := h
  induction k generalizing w with
  | zero =>
    have : w = u := e
    rw [this]
    exact hu
  | succ k ih =>
    rw [Function.iterate_succ_apply] at e
    exact hc w (ih e)

end NetSimplex

/-- C32: on a spanning tree of the nodes `0..n` in which `_succ_num[u]` is the size of the
subtree of `u`, for every entering arc whose ends are nodes, `findJoinNode` terminates,
changes nothing but `join`, and sets `join` to the lowest common ancestor of
`source(in_arc)` and `target(in_arc)`: it is an ancestor of both, and every common ancestor
of both is an ancestor of it. -/
theorem C32_findJoinNode_lca (x : NetSimplex) (n m : Nat) (ht : x.SpanningTree n m)
    (hz : x.SubtreeSizes n) (hin : 0 ≤ x.in_arc ∧ x.in_arc < m)
    (hs : 0 ≤ x.srcOf x.in_arc ∧ x.srcOf x.in_arc ≤ n)
    (hg : 0 ≤ x.tgtOf x.in_arc ∧ x.tgtOf x.in_arc ≤ n) :
    ∃ y, x.findJoinNode = some y ∧ y = { x with join := y.join } ∧
      x.Anc y.join (x.srcOf x.in_arc) ∧ x.Anc y.join (x.tgtOf x.in_arc) ∧
      ∀ c : Int, x.Anc c (x.srcOf x.in_arc) → x.Anc c (x.tgtOf x.in_arc) → x.Anc c y.join :=
  NetSimplex.findJoinNode_lca ht hz hin hs hg

theorem enteredStem_sizes : enteredStem.SubtreeSizes 3 := by
  have hout : ∀ w : Int, ¬ (0 ≤ w ∧ w < 4) → enteredStem.par w = -1 := by
    intro w hw
    by_cases w0 : w < 0
    · exact NetSimplex.par_neg _ w0
    · exact NetSimplex.par_ge _ (by
        have : enteredStem.parent.length = 4 := by decide
        rw [this]
        push_cast
        omega)
  have closed : ∀ blk : List Int, (-1 : Int) ∉ blk →
      (∀ w ∈ [(0 : Int), 1, 2, 3], enteredStem.par w ∈ blk → w ∈ blk) →
      ∀ w : Int, enteredStem.par w ∈ blk → w ∈ blk := by
    intro blk h1 h2 w hw
    by_cases hr : 0 ≤ w ∧ w < 4
    · obtain ⟨r0, r4⟩ := hr
      apply h2 w _ hw
      interval_cases w <;> decide
    · rw [hout w hr] at hw
      exact absurd hw h1
  intro u u0 u3
  have u3' : u ≤ 3 := u3
  interval_cases u
  · refine ⟨[0], by decide, fun w => ⟨fun hw => ?_, fun hw => ?_⟩, by decide⟩
    · rw [List.mem_singleton.1 hw]; exact NetSimplex.Anc.self _ _
    · exact NetSimplex.Anc.mem_of_closed (by decide) (closed _ (by decide) (by decide)) hw
  · refine ⟨[1], by decide, fun w => ⟨fun hw => ?_, fun hw => ?_⟩, by decide⟩
    · rw [List.mem_singleton.1 hw]; exact NetSimplex.Anc.self _ _
    · exact NetSimplex.Anc.mem_of_closed (by decide) (closed _ (by decide) (by decide)) hw
  · refine ⟨[2, 0], by decide, fun w => ⟨fun hw => ?_, fun hw => ?_⟩, by decide⟩
    · simp only [List.mem_cons, List.mem_singleton, List.not_mem_nil, or_false] at hw
      rcases hw with rfl | rfl
      · exact ⟨0, by decide⟩
      · exact ⟨1, by decide⟩
    · exact NetSimplex.Anc.mem_of_closed (by decide) (closed _ (by decide) (by decide)) hw
  · refine ⟨[3, 0, 1, 2], by decide, fun w => ⟨fun hw => ?_, fun hw => ?_⟩, by decide⟩
    · simp only [List.mem_cons, List.mem_singleton, List.not_mem_nil, or_false] at hw
      rcases hw with rfl | rfl | rfl | rfl
      · exact ⟨0, by decide⟩
      · exact ⟨2, by decide⟩
      · exact ⟨1, by decide⟩
      · exact ⟨1, by decide⟩
    · exact NetSimplex.Anc.mem_of_closed (by decide) (closed _ (by decide) (by decide)) hw

/-- C32 on the stem scenario: the entering arc 4 joins the nodes 1 and 0, whose lowest common
ancestor is the root 3. -/
theorem C32_findJoinNode_lca_Stem :
    (enteredStem.srcOf enteredStem.in_arc, enteredStem.tgtOf enteredStem.in_arc,
      joinedStem.join) = (1, 0, 3) ∧
    ∃ y, enteredStem.findJoinNode = some y ∧ y = { enteredStem with join := y.join } ∧
      enteredStem.Anc y.join (enteredStem.srcOf enteredStem.in_arc) ∧
      enteredStem.Anc y.join (enteredStem.tgtOf enteredStem.in_arc) ∧
      ∀ c : Int, enteredStem.Anc c (enteredStem.srcOf enteredStem.in_arc) →
        enteredStem.Anc c (enteredStem.tgtOf enteredStem.in_arc) → enteredStem.Anc c y.join :=
  ⟨by decide, C32_findJoinNode_lca enteredStem 3 5 enteredStem_basis.spanning
    enteredStem_sizes (by decide) (by decide) (by decide)⟩

/-! ## C36: the root entries of succ_num and last_succ -/

namespace NetSimplex

theorem Writes.eq_parent {w : List Fld} {a b : NetSimplex} (h : Writes w a b)
    (hf : Fld.parent ∉ w) : b.parent = a.parent := h.vec Fld.parent hf

theorem Writes.eq_succ_num {w : List Fld} {a b : NetSimplex} (h : Writes w a b)
    (hf : Fld.succ_num ∉ w) : b.succ_num = a.succ_num := h.vec Fld.succ_num hf

theorem set_succ_num_other {a b : NetSimplex} {i v n : Int} (h : a.set_succ_num i v = some b)
    (hi : i ≠ n) : rd b.succ_num n = rd a.succ_num n :=
  rd_wr_ne (set_succ_num_spec h).1 (Ne.symm hi)

/-- The stem loop over `_pred`, `_pred_dir`, `_succ_num` and `_last_succ` never writes
`_succ_num` at the root. -/
theorem stemUpdate_succ_root {n : Int} : ∀ (k : Nat) (a : NetSimplex) (u p c l : Int)
    (b : NetSimplex), stemUpdate k a u p c l = some b → rd a.parent n = some (-1) →
    (u = n → p = -1) → rd b.succ_num n = rd a.succ_num n := by
  intro k
  induction k with
  | zero => intro a u p c l b h; simp [stemUpdate] at h
  | succ k ih =>
    intro a u p c l b h hp hup
    unfold stemUpdate at h
    split at h
    · simp only [Option.some.injEq] at h
      subst h
      rfl
    · simp only [Option.bind_eq_bind, Option.bind_eq_some] at h
      obtain ⟨pp, hpp, n1, h1, dp, _, n2, h2, su, _, sp, _, n3, h3, n4, h4, p2, hp2, h⟩ := h
      have hu : u ≠ n := by
        intro hs
        rw [hup hs] at hpp
        exact rd_neg_one _ _ hpp
      have k2 : Writes [Fld.pred, Fld.pred_dir] a n2 :=
        (set_pred_writes h1 (by decide)).follow (set_pred_dir_writes h2 (by decide))
      have k4 : Writes [Fld.last_succ] n3 n4 := set_last_succ_writes h4 (by decide)
      have e2 : n2.succ_num = a.succ_num := k2.eq_succ_num (by decide)
      have e4 : n4.succ_num = n3.succ_num := k4.eq_succ_num (by decide)
      have p2' : n2.parent = a.parent := k2.eq_parent (by decide)
      have p3 : n3.parent = n2.parent :=
        (set_succ_num_writes h3 (by decide) : Writes [Fld.succ_num] n2 n3).eq_parent (by decide)
      have p4 : n4.parent = n3.parent := k4.eq_parent (by decide)
      have hp4 : rd n4.parent n = some (-1) := by rw [p4, p3, p2']; exact hp
      have := ih _ _ _ _ _ _ h hp4 (by
        intro hpn
        rw [hpn, hp4] at hp2
        exact (Option.some.inj hp2).symm)
      rw [this, e4, set_succ_num_other h3 hu, e2]

/-- A loop `_succ_num[u] += d` up to a join that is a node never writes at the root. -/
theorem succNumLoop_succ_root {n : Int} (d : Int) : ∀ (k : Nat) (a : NetSimplex) (u : Int)
    (b : NetSimplex), succNumLoop d k a u = some b → rd a.parent n = some (-1) →
    a.join ≠ -1 → rd b.succ_num n = rd a.succ_num n := by
  intro k
  induction k with
  | zero => intro a u b h; simp [succNumLoop] at h
  | succ k ih =>
    intro a u b h hp hj
    unfold succNumLoop at h
    split at h
    · simp only [Option.some.injEq] at h
      subst h
      rfl
    · simp only [Option.bind_eq_bind, Option.bind_eq_some] at h
      obtain ⟨x, _, n1, h1, p, hpar, h⟩ := h
      have k1 : Writes [Fld.succ_num] a n1 := set_succ_num_writes h1 (by decide)
      have e1 : n1.parent = a.parent := k1.eq_parent (by decide)
      have hp1 : rd n1.parent n = some (-1) := by rw [e1]; exact hp
      have hj1 : n1.join ≠ -1 := by rw [k1.eq_join]; exact hj
      have hun : u ≠ n := by
        intro e
        rw [e, hp1] at hpar
        have hp' : p = -1 := (Option.some.inj hpar).symm
        rw [hp'] at h
        cases k with
        | zero => simp [succNumLoop] at h
        | succ k =>
          unfold succNumLoop at h
          rw [if_neg (fun g => hj1 g.symm)] at h
          have hn : rd n1.succ_num (-1) = none := rd_none_of_neg _ (by decide)
          simp [hn] at h
      rw [ih _ _ _ h hp1 hj1, set_succ_num_other h1 hun]

theorem updateTreeStemPred_succ_root {n : Int} {a b : NetSimplex} {d : List Int} {c : Int}
    (h : updateTreeStemPred a d c = some b) (hp : rd a.parent n = some (-1))
    (ho : a.u_out ≠ n) (hi : a.u_in ≠ n) : rd b.succ_num n = rd a.succ_num n := by
  simp only [updateTreeStemPred, Option.bind_eq_bind, Option.bind_eq_some] at h
  obtain ⟨n1, h1, ls, _, p, _, n2, h2, n3, h3, src, _, n4, h4, h5⟩ := h
  have k1 : Writes [Fld.rev_thread] a n1 := dirtyLoop_writes _ _ _ h1
  have k2 : Writes [Fld.pred, Fld.pred_dir, Fld.succ_num, Fld.last_succ] n1 n2 :=
    stemUpdate_writes _ _ _ _ _ _ _ h2
  have k4 : Writes [Fld.pred, Fld.pred_dir] n2 n4 :=
    (set_pred_writes h3 (by decide)).follow (set_pred_dir_writes h4 (by decide))
  have s1 : n1.succ_num = a.succ_num := k1.eq_succ_num (by decide)
  have s2 : rd n2.succ_num n = rd n1.succ_num n :=
    stemUpdate_succ_root _ _ _ _ _ _ _ h2
      (by rw [k1.eq_parent (by decide)]; exact hp)
      (fun hu => absurd (hu.symm.trans k1.eq_u_out).symm ho)
  have s4 : n4.succ_num = n2.succ_num := k4.eq_succ_num (by decide)
  have ui : n4.u_in = a.u_in := by rw [k4.eq_u_in, k2.eq_u_in, k1.eq_u_in]
  rw [set_succ_num_other h5 (by rw [ui]; exact hi), s4, s2, s1]

theorem lastSuccTail_succ_root {n : Int} {n2 b : NetSimplex} {ort ols lso ulo osn : Int}
    (h : (if n2.join ≠ ort ∧ n2.v_in ≠ ort then
        (lastSuccOut ulo ols ort n2.loopBound n2 n2.v_out).bind fun y =>
          (succNumLoop osn y.loopBound y y.v_in).bind fun ns =>
            succNumLoop (-osn) ns.loopBound ns ns.v_out
      else
        if lso ≠ ols then
          (lastSuccOut ulo ols lso n2.loopBound n2 n2.v_out).bind fun y =>
            (succNumLoop osn y.loopBound y y.v_in).bind fun ns =>
              succNumLoop (-osn) ns.loopBound ns ns.v_out
        else
          (some n2).bind fun y =>
            (succNumLoop osn y.loopBound y y.v_in).bind fun ns =>
              succNumLoop (-osn) ns.loopBound ns ns.v_out) = some b)
    (hp : rd n2.parent n = some (-1)) (hj : n2.join ≠ -1) :
    rd b.succ_num n = rd n2.succ_num n := by
  have two : ∀ y n4 : NetSimplex, Writes [Fld.last_succ] n2 y →
      succNumLoop osn y.loopBound y y.v_in = some n4 →
      succNumLoop (-osn) n4.loopBound n4 n4.v_out = some b →
      rd b.succ_num n = rd n2.succ_num n := by
    intro y n4 ky h4 h5
    have py : rd y.parent n = some (-1) := by rw [ky.eq_parent (by decide)]; exact hp
    have jy : y.join ≠ -1 := by rw [ky.eq_join]; exact hj
    have k4 : Writes [Fld.succ_num] y n4 := succNumLoop_writes _ _ _ _ _ h4
    have p4 : rd n4.parent n = some (-1) := by rw [k4.eq_parent (by decide)]; exact py
    have j4 : n4.join ≠ -1 := by rw [k4.eq_join]; exact jy
    rw [succNumLoop_succ_root _ _ _ _ _ h5 p4 j4, succNumLoop_succ_root _ _ _ _ _ h4 py jy,
      ky.eq_succ_num (by decide)]
  split at h
  · simp only [Option.bind_eq_some] at h
    obtain ⟨n3, h3, n4, h4, h5⟩ := h
    exact two n3 n4 (lastSuccOut_writes _ _ _ _ _ _ _ h3) h4 h5
  · split at h
    · simp only [Option.bind_eq_some] at h
      obtain ⟨n3, h3, n4, h4, h5⟩ := h
      exact two n3 n4 (lastSuccOut_writes _ _ _ _ _ _ _ h3) h4 h5
    · simp only [Option.some_bind, Option.bind_eq_some] at h
      obtain ⟨n4, h4, h5⟩ := h
      exact two n2 n4 (Writes.idle _ _) h4 h5

set_option maxHeartbeats 1000000 in
/-- The tree update leaves `_succ_num` at the root alone. -/
theorem updateTreeStructure_succ_root {n : Int} {a b : NetSimplex}
    (h : updateTreeStructure a = some b) (hp : rd a.parent n = some (-1))
    (ho : a.u_out ≠ n) (hi : a.u_in ≠ n) (hj : a.join ≠ -1) :
    rd b.succ_num n = rd a.succ_num n := by
  unfold updateTreeStructure at h
  simp only [Option.bind_eq_bind, Option.bind_eq_some] at h
  obtain ⟨ort, _, osn, _, ols, _, vo, _, h⟩ := h
  split at h
  · simp only [Option.bind_eq_some] at h
    obtain ⟨n1, h1, lj, _, lso, _, n2, h2, h⟩ := h
    have k1 := updateTreeSame_writes h1
    have k2 : Writes [Fld.last_succ] n1 n2 := lastSuccIn_writes _ _ _ _ _ h2
    have p1 : rd n1.parent n = some (-1) := by
      have := (updateTreeSame_root (n := n) h1 hi).2.2.1
      rw [this]; exact hp
    have p2 : rd n2.parent n = some (-1) := by rw [k2.eq_parent (by decide)]; exact p1
    have j2 : n2.join ≠ -1 := by rw [k2.eq_join, k1.eq_join]; exact hj
    rw [lastSuccTail_succ_root h p2 j2, k2.eq_succ_num (by decide),
      k1.eq_succ_num (by decide)]
  · simp only [Option.bind_eq_some] at h
    obtain ⟨n1, h1, lj, _, lso, _, n2, h2, h⟩ := h
    simp only [updateTreeStem, Option.bind_eq_bind, Option.bind_eq_some] at h1
    obtain ⟨⟨r1, r2⟩, g1, g2⟩ := h1
    have k1 := updateTreeStemThread_writes g1
    have kr : RootKeeps n { a with v_out := vo } r1 := updateTreeStemThread_root g1 hp ho
    have pr : rd r1.parent n = some (-1) := by rw [kr.2.2.1]; exact hp
    have s2 := updateTreeStemPred_succ_root (n := n) g2 pr
      (by show r1.u_out ≠ n; rw [kr.u_out]; exact ho)
      (by show r1.u_in ≠ n; rw [kr.u_in]; exact hi)
    have kp : RootKeeps n r1 n1 := updateTreeStemPred_root g2 pr
      (by show r1.u_out ≠ n; rw [kr.u_out]; exact ho)
      (by show r1.u_in ≠ n; rw [kr.u_in]; exact hi)
    have k2 : Writes [Fld.last_succ] n1 n2 := lastSuccIn_writes _ _ _ _ _ h2
    have p1 : rd n1.parent n = some (-1) := by rw [kp.2.2.1]; exact pr
    have p2 : rd n2.parent n = some (-1) := by rw [k2.eq_parent (by decide)]; exact p1
    have e1 : n1.join = r1.join := kp.1.2.2.1 Sc.join (by decide)
    have j2 : n2.join ≠ -1 := by rw [k2.eq_join, e1, k1.eq_join]; exact hj
    rw [lastSuccTail_succ_root h p2 j2, k2.eq_succ_num (by decide), s2,
      k1.eq_succ_num (by decide)]

/-- The nodes a pivot with a leaving arc works on: after `changeFlow` the solver differs from
the one before the pivot in `join`, `delta`, `u_out`, `u_in`, `v_in`, the flows and the
states only; `u_in` and `u_out` are real nodes and `join` is a node. -/
theorem pivot_ends {x x1 x2 x3 : NetSimplex} {n m : Nat} (hb : TreeBasis x n m)
    (hs : 0 ≤ x.srcOf x.in_arc ∧ x.srcOf x.in_arc ≤ n)
    (ht : 0 ≤ x.tgtOf x.in_arc ∧ x.tgtOf x.in_arc ≤ n)
    (h1 : findJoinNode x = some x1) (h2 : findLeavingArc x1 = some (true, x2))
    (h3 : changeFlow x2 = some x3) :
    x3 = { x with join := x2.join, delta := x2.delta, u_out := x2.u_out, u_in := x2.u_in,
                  v_in := x2.v_in, flow := x3.flow, state := x3.state } ∧
    (0 ≤ x2.u_in ∧ x2.u_in < n) ∧ (0 ≤ x2.u_out ∧ x2.u_out < n) ∧
    (0 ≤ x2.join ∧ x2.join ≤ n) := by
  obtain ⟨e2, l1, l2, wl1, wl2, hdis, hr1, hr2, hj0, hjn, _⟩ := pivot_cycle hb h1 h2 hs ht
  obtain ⟨e1, _, _, _⟩ := findJoinNode_spec h1
  obtain ⟨w1, w2, ww1, ww2, hmem⟩ := findLeavingArc_member h2
  obtain ⟨e3, _⟩ := changeFlow_spec h3
  have ej : x2.join = x1.join := by
    have := (findLeavingArc_walks h2).1
    rw [this]
  have e1p : x1.parent = x.parent := by rw [e1]
  have e1s : x1.source = x.source := by rw [e1]
  have e1t : x1.target = x.target := by rw [e1]
  have e1i : x1.in_arc = x.in_arc := by rw [e1]
  have hsrc1 : x1.srcOf x1.in_arc = x.srcOf x.in_arc := by rw [e1i]; exact srcOf_congr e1s _
  have htgt1 : x1.tgtOf x1.in_arc = x.tgtOf x.in_arc := by rw [e1i]; exact tgtOf_congr e1t _
  rw [hsrc1, htgt1] at hmem
  rw [hsrc1] at ww1
  rw [htgt1] at ww2
  have ww1' : Walk x x2.join (x.srcOf x.in_arc) w1 := by
    rw [ej]
    exact Walk.congr e1p.symm _ _ _ ww1
  have ww2' : Walk x x2.join (x.tgtOf x.in_arc) w2 := by
    rw [ej]
    exact Walk.congr e1p.symm _ _ _ ww2
  have q1 : w1 = l1 := Walk.unique _ _ _ ww1' wl1
  have q2 : w2 = l2 := Walk.unique _ _ _ ww2' wl2
  rw [q1, q2] at hmem
  have e23 : x3 = { x with join := x2.join, delta := x2.delta, u_out := x2.u_out,
                           u_in := x2.u_in, v_in := x2.v_in, flow := x3.flow,
                           state := x3.state } := by
    rw [e3]
    conv => lhs; rw [e2]
  have first : ∀ (l : List Int) (u : Int), Walk x x2.join u l → x2.u_out ∈ l → u ∈ l := by
    intro l u hw hm
    cases l with
    | nil => simp at hm
    | cons s l =>
      obtain ⟨hs', _, _⟩ := hw
      rw [hs']
      exact List.mem_cons_self _ _
  refine ⟨e23, ?_, ?_, hj0, hjn⟩
  · rcases hmem with ⟨g1, _, g3⟩ | ⟨g1, _, g3⟩
    · rw [g1]; exact hr1 _ (first _ _ wl1 g3)
    · rw [g1]; exact hr2 _ (first _ _ wl2 g3)
  · rcases hmem with ⟨_, _, g3⟩ | ⟨_, _, g3⟩
    · exact hr1 _ g3
    · exact hr2 _ g3

/-- A complete pivot with a leaving arc on a tree basis leaves `_succ_num` at the root
alone. -/
theorem pivot_succ_root {x x1 x2 x3 x4 x5 : NetSimplex} {n m : Nat} (hb : TreeBasis x n m)
    (hs : 0 ≤ x.srcOf x.in_arc ∧ x.srcOf x.in_arc ≤ n)
    (ht : 0 ≤ x.tgtOf x.in_arc ∧ x.tgtOf x.in_arc ≤ n)
    (h1 : findJoinNode x = some x1) (h2 : findLeavingArc x1 = some (true, x2))
    (h3 : changeFlow x2 = some x3) (h4 : updateTreeStructure x3 = some x4)
    (h5 : updatePotential x4 = some x5) : rd x5.succ_num n = rd x.succ_num n := by
  obtain ⟨e23, ui, uo, jn⟩ := pivot_ends hb hs ht h1 h2 h3
  have f_par : x3.parent = x.parent := by rw [e23]
  have f_succ : x3.succ_num = x.succ_num := by rw [e23]
  have f_uo : x3.u_out = x2.u_out := by rw [e23]
  have f_ui : x3.u_in = x2.u_in := by rw [e23]
  have f_j : x3.join = x2.join := by rw [e23]
  have e5 : x5.succ_num = x4.succ_num := (updatePotential_writes h5).eq_succ_num (by decide)
  rw [e5, updateTreeStructure_succ_root h4 (by rw [f_par]; exact hb.parent_root)
    (by rw [f_uo]; omega) (by rw [f_ui]; omega) (by rw [f_j]; omega), f_succ]

end NetSimplex

/-- C36 as stated fails for `last_succ`: in the stem scenario (three nodes), after `init`
and the first complete pivot, `succ_num[root] = 4 = N + 1`, but `last_succ[root] = 0`, not
`N - 1 = 2`: the thread runs `3, 1, 2, 0`. -/
theorem C36_last_succ_root_moves :
    ((scenarioStem.bind NetSimplex.prepared).bind fun ns =>
      (NetSimplex.rounds 1 (BlockSearchPivotRule.create ns) ns).map fun r =>
        (r.2.iterations, rd r.2.succ_num 3, rd r.2.last_succ 3, r.2.thread)) =
      some (1, some 4, some 0, [3, 2, 0, 1]) := by
  decide

/-- C36 (amended): root bookkeeping. After the reset loop of `run` and `init`,
`succ_num[root] = N + 1` and `last_succ[root] = N - 1`. A complete pivot with a leaving arc
from a tree basis leaves `succ_num[root]` as it was, so it stays `N + 1`. (For
`last_succ[root]` nothing of the kind holds.) -/
theorem C36_root_succ_num :
    (∀ (ns : NetSimplex) (n m : Nat), ns.Sized n m → ns.node_num = n → ns.arc_num = m →
      1 ≤ n → n ≤ m → ∃ A, ns.prepared = some A ∧ rd A.succ_num n = some ((n : Int) + 1) ∧
        rd A.last_succ n = some ((n : Int) - 1)) ∧
    (∀ (x x1 x2 x3 x4 x5 : NetSimplex) (n m : Nat), x.TreeBasis n m →
      rd x.succ_num n = some ((n : Int) + 1) →
      (0 ≤ x.srcOf x.in_arc ∧ x.srcOf x.in_arc ≤ n) →
      (0 ≤ x.tgtOf x.in_arc ∧ x.tgtOf x.in_arc ≤ n) →
      x.findJoinNode = some x1 → x1.findLeavingArc = some (true, x2) →
      x2.changeFlow = some x3 → x3.updateTreeStructure = some x4 →
      x4.updatePotential = some x5 → rd x5.succ_num n = some ((n : Int) + 1)) := by
  constructor
  · intro ns n m hs hnn han hn1 hnm
    have hm : ns.arc_num.toNat = m := by rw [han]; simp
    obtain ⟨x1, hr, k1⟩ := NetSimplex.runReset_ok n m ns.arc_num.toNat 0
      { ns with iterations := 0 } (NetSimplex.sized_iterations hs 0) (le_refl _)
      (by rw [hm]; simp)
    have hs1 : x1.Sized n m := k1.sized (NetSimplex.sized_iterations hs 0)
    have hn1' : x1.node_num = n := (k1.2.2.1 Sc.node_num (by simp)).trans hnn
    obtain ⟨A, hi, _⟩ := NetSimplex.init_ok x1 n m hs1 hn1' hn1 hnm
    obtain ⟨_, ss, hroot, _, hstar, _⟩ :=
      NetSimplex.run_prepared n m ns x1 A hs hnn han hn1 hnm hr hi
    have hp : ns.prepared = some A := by
      simp only [NetSimplex.prepared, Option.bind_eq_bind, hr, Option.some_bind, hi]
    obtain ⟨_, _, _, _, a5, a6, _⟩ := hstar
    have hAn : A.node_num = n := ss.1.trans hnn
    rw [hroot, hAn] at a5
    rw [hroot] at a6
    exact ⟨A, hp, a5, a6⟩
  · intro x x1 x2 x3 x4 x5 n m hb hroot hs ht h1 h2 h3 h4 h5
    rw [NetSimplex.pivot_succ_root hb hs ht h1 h2 h3 h4 h5]
    exact hroot

/-- C36 (amended) on scenario S1 for `init` and on the stem scenario for its second
pivot. -/
theorem C36_root_succ_num_Stem :
    (∃ A, solverS1.prepared = some A ∧ rd A.succ_num (2 : Nat) = some (((2 : Nat) : Int) + 1) ∧
      rd A.last_succ (2 : Nat) = some (((2 : Nat) : Int) - 1)) ∧
    rd potentialStem.succ_num (3 : Nat) = some (((3 : Nat) : Int) + 1) :=
  ⟨C36_root_succ_num.1 solverS1 2 3 ⟨fun f => by cases f <;> decide, by decide⟩
      (by decide) (by decide) (by decide) (by decide),
    C36_root_succ_num.2 enteredStem joinedStem leavingStem.2 changedStem treeStem
      potentialStem 3 5 enteredStem_basis (by decide) (by decide) (by decide) (by decide)
      (by decide) (by decide) (by decide) (by decide)⟩

/-! ## C38: the capacitated leaving-arc search -/

theorem InfiniteCaps.rd_cap {a : LeavingSearch} (h : InfiniteCaps a) {e f : Int}
    (hf : rd a.flow e = some f) : rd a.cap e = some Val.inf := by
  obtain ⟨e0, e1⟩ := rd_some_range hf
  unfold InfiniteCaps at h
  rw [h]
  apply rd_eq_some.2
  refine ⟨e0, ?_⟩
  rw [List.getElem?_replicate]
  simp
  omega

theorem Val.lt_of_lt_of_le {d m c : Val} (h1 : d.lt m = true) (h2 : m.le c = true) :
    d.lt c = true := by
  cases d <;> cases m <;> cases c <;> simp [Val.lt, Val.le] at h1 h2 ⊢
  omega

theorem Val.le_of_le_of_le {d m c : Val} (h1 : d.le m = true) (h2 : m.le c = true) :
    d.le c = true := by
  cases d <;> cases m <;> cases c <;> simp [Val.lt, Val.le] at h1 h2 ⊢
  omega

theorem Val.le_of_not_lt {d m : Val} (h : ¬ d.lt m = true) : m.le d = true := by
  cases d <;> cases m <;> simp [Val.lt, Val.le] at h ⊢
  exact h

theorem Val.le_fin_inf (m : Int) : (Val.fin m).le Val.inf = true := rfl

/-- The value `d` of a node in `NetSimplexCapacity` with infinite capacities is the one of
`NetSimplex`. -/
theorem capacity_residual {a : LeavingSearch} (h : InfiniteCaps a) {e f : Int}
    (hf : rd a.flow e = some f) (b : Prop) [Decidable b] :
    (if b then (rd a.cap e).bind fun c =>
        some (if (Val.fin a.MAX).le c then Val.inf else c.subFin f)
      else some (Val.fin f)) = some (if b then Val.inf.subFin f else Val.fin f) := by
  split
  · rw [h.rd_cap hf]
    rfl
  · rfl

theorem Val.le_refl_fin (m : Int) : (Val.fin m).le (Val.fin m) = true := by
  simp [Val.le]

/-- One step of the first loop of `NetSimplexCapacity` with infinite capacities. -/
theorem NetSimplexCapacity.findLeavingFirst_next {ns : LeavingSearch} (hcap : InfiniteCaps ns)
    {k : Nat} {u e f dir p : Int} (r : Int) (hu : ¬ u = ns.join) (he : rd ns.pred u = some e)
    (hf : rd ns.flow e = some f) (hdir : rd ns.pred_dir u = some dir)
    (hp : rd ns.parent u = some p) :
    NetSimplexCapacity.findLeavingFirst (k + 1) u ns r =
      if (if dir = DIR_DOWN then Val.inf.subFin f else Val.fin f).lt ns.delta then
        NetSimplexCapacity.findLeavingFirst k p
          { ns with delta := if dir = DIR_DOWN then Val.inf.subFin f else Val.fin f,
                    u_out := u } 1
      else NetSimplexCapacity.findLeavingFirst k p ns r := by
  conv => lhs; unfold NetSimplexCapacity.findLeavingFirst
  rw [if_neg hu]
  simp only [Option.bind_eq_bind, he, Option.some_bind, hf, hdir, hcap.rd_cap hf, hp,
    Val.le_fin_inf, if_true]
  by_cases hd : dir = DIR_DOWN
  · simp only [hd, if_true]
    rfl
  · simp only [hd, if_false]

/-- The first loops of the two searches, step by step. -/
theorem findLeavingFirst_rel : ∀ (k : Nat) (u : Int) (sN : LeavingSearch) (rN : Int)
    (sC : LeavingSearch) (rC : Int) (sN' : LeavingSearch) (rN' : Int),
    SearchRel sN rN sC rC → InfiniteCaps sN →
    NetSimplexInfinity.findLeavingFirst k u sN rN = some (sN', rN') →
    ∃ sC' rC', NetSimplexCapacity.findLeavingFirst k u sC rC = some (sC', rC') ∧
      SearchRel sN' rN' sC' rC' ∧ InfiniteCaps sN' ∧ sN'.MAX = sN.MAX := by
  intro k
  induction k with
  | zero => intro u sN rN sC rC sN' rN' _ _ h; simp [NetSimplexInfinity.findLeavingFirst] at h
  | succ k ih =>
    intro u sN rN sC rC sN' rN' hrel hcap h
    unfold NetSimplexInfinity.findLeavingFirst at h
    split at h
    · rename_i hu
      simp only [Option.some.injEq, Prod.mk.injEq] at h
      obtain ⟨rfl, rfl⟩ := h
      refine ⟨sC, rC, ?_, hrel, hcap, rfl⟩
      have hj : sC.join = sN.join := by
        rcases hrel with ⟨e, _⟩ | ⟨dc, uo, e, _⟩
        · rw [e]
        · rw [e]
      unfold NetSimplexCapacity.findLeavingFirst
      rw [if_pos (hu.trans hj.symm)]
    · rename_i hu
      simp only [Option.bind_eq_bind, Option.bind_eq_some] at h
      obtain ⟨e, he, f, hf, dir, hdir, p, hp, h⟩ := h
      rcases hrel with ⟨rfl, rfl⟩ | ⟨dc, uo, rfl, hd, rfl, hle⟩
      · -- the two searches are in the same state
        rw [NetSimplexCapacity.findLeavingFirst_next hcap rC hu he hf hdir hp]
        generalize (if dir = DIR_DOWN then Val.inf.subFin f else Val.fin f) = d at h ⊢
        split at h
        · rename_i hlt
          rw [if_pos hlt]
          have q := ih p _ _ ({ sC with delta := d, u_out := u }) 1 _ _ (Or.inl ⟨rfl, rfl⟩)
            hcap h
          exact q
        · rename_i hlt
          rw [if_neg hlt]
          have q := ih p _ _ sC rC _ _ (Or.inl ⟨rfl, rfl⟩) hcap h
          exact q
      · -- `NetSimplex` has no candidate yet
        have hcap' : InfiniteCaps ({ sN with delta := dc, u_out := uo } : LeavingSearch) :=
          hcap
        rw [@NetSimplexCapacity.findLeavingFirst_next { sN with delta := dc, u_out := uo }
          hcap' k u e f dir p rC hu he hf hdir hp]
        generalize (if dir = DIR_DOWN then Val.inf.subFin f else Val.fin f) = d at h ⊢
        split at h
        · rename_i hlt
          rw [hd] at hlt
          rw [if_pos (Val.lt_of_lt_of_le hlt hle)]
          have q := ih p _ _ ({ sN with delta := d, u_out := u }) 1 _ _ (Or.inl ⟨rfl, rfl⟩)
            hcap h
          exact q
        · rename_i hlt
          rw [hd] at hlt
          by_cases hc : d.lt dc = true
          · rw [if_pos hc]
            have q := ih p sN 0 ({ sN with delta := d, u_out := u }) 1 _ _
              (Or.inr ⟨d, u, rfl, hd, rfl, Val.le_of_not_lt hlt⟩) hcap h
            exact q
          · rw [if_neg hc]
            have q := ih p sN 0 ({ sN with delta := dc, u_out := uo }) rC _ _
              (Or.inr ⟨dc, uo, rfl, hd, rfl, hle⟩) hcap h
            exact q

theorem Val.le_of_not_le {d m : Val} (h : ¬ d.le m = true) : m.le d = true := by
  cases d <;> cases m <;> simp [Val.le] at h ⊢
  omega

/-- One step of the second loop of `NetSimplexCapacity` with infinite capacities. -/
theorem NetSimplexCapacity.findLeavingSecond_next {ns : LeavingSearch} (hcap : InfiniteCaps ns)
    {k : Nat} {u e f dir p : Int} (r : Int) (hu : ¬ u = ns.join) (he : rd ns.pred u = some e)
    (hf : rd ns.flow e = some f) (hdir : rd ns.pred_dir u = some dir)
    (hp : rd ns.parent u = some p) :
    NetSimplexCapacity.findLeavingSecond (k + 1) u ns r =
      if (if dir = DIR_UP then Val.inf.subFin f else Val.fin f).le ns.delta then
        NetSimplexCapacity.findLeavingSecond k p
          { ns with delta := if dir = DIR_UP then Val.inf.subFin f else Val.fin f,
                    u_out := u } 2
      else NetSimplexCapacity.findLeavingSecond k p ns r := by
  conv => lhs; unfold NetSimplexCapacity.findLeavingSecond
  rw [if_neg hu]
  simp only [Option.bind_eq_bind, he, Option.some_bind, hf, hdir, hcap.rd_cap hf, hp,
    Val.le_fin_inf, if_true]
  by_cases hd : dir = DIR_UP
  · simp only [hd, if_true]
    rfl
  · simp only [hd, if_false]

/-- The second loops of the two searches, step by step. -/
theorem findLeavingSecond_rel : ∀ (k : Nat) (u : Int) (sN : LeavingSearch) (rN : Int)
    (sC : LeavingSearch) (rC : Int) (sN' : LeavingSearch) (rN' : Int),
    SearchRel sN rN sC rC → InfiniteCaps sN →
    NetSimplexInfinity.findLeavingSecond k u sN rN = some (sN', rN') →
    ∃ sC' rC', NetSimplexCapacity.findLeavingSecond k u sC rC = some (sC', rC') ∧
      SearchRel sN' rN' sC' rC' ∧ InfiniteCaps sN' ∧ sN'.MAX = sN.MAX := by
  intro k
  induction k with
  | zero => intro u sN rN sC rC sN' rN' _ _ h; simp [NetSimplexInfinity.findLeavingSecond] at h
  | succ k ih =>
    intro u sN rN sC rC sN' rN' hrel hcap h
    unfold NetSimplexInfinity.findLeavingSecond at h
    split at h
    · rename_i hu
      simp only [Option.some.injEq, Prod.mk.injEq] at h
      obtain ⟨rfl, rfl⟩ := h
      refine ⟨sC, rC, ?_, hrel, hcap, rfl⟩
      have hj : sC.join = sN.join := by
        rcases hrel with ⟨e, _⟩ | ⟨dc, uo, e, _⟩
        · rw [e]
        · rw [e]
      unfold NetSimplexCapacity.findLeavingSecond
      rw [if_pos (hu.trans hj.symm)]
    · rename_i hu
      simp only [Option.bind_eq_bind, Option.bind_eq_some] at h
      obtain ⟨e, he, f, hf, dir, hdir, p, hp, h⟩ := h
      rcases hrel with ⟨rfl, rfl⟩ | ⟨dc, uo, rfl, hd, rfl, hle⟩
      · -- the two searches are in the same state
        rw [NetSimplexCapacity.findLeavingSecond_next hcap rC hu he hf hdir hp]
        generalize (if dir = DIR_UP then Val.inf.subFin f else Val.fin f) = d at h ⊢
        split at h
        · rename_i hlt
          rw [if_pos hlt]
          have q := ih p _ _ ({ sC with delta := d, u_out := u }) 2 _ _ (Or.inl ⟨rfl, rfl⟩)
            hcap h
          exact q
        · rename_i hlt
          rw [if_neg hlt]
          have q := ih p _ _ sC rC _ _ (Or.inl ⟨rfl, rfl⟩) hcap h
          exact q
      · -- `NetSimplex` has no candidate yet
        have hcap' : InfiniteCaps ({ sN with delta := dc, u_out := uo } : LeavingSearch) :=
          hcap
        rw [@NetSimplexCapacity.findLeavingSecond_next { sN with delta := dc, u_out := uo }
          hcap' k u e f dir p rC hu he hf hdir hp]
        generalize (if dir = DIR_UP then Val.inf.subFin f else Val.fin f) = d at h ⊢
        split at h
        · rename_i hlt
          rw [hd] at hlt
          rw [if_pos (Val.le_of_le_of_le hlt hle)]
          have q := ih p _ _ ({ sN with delta := d, u_out := u }) 2 _ _ (Or.inl ⟨rfl, rfl⟩)
            hcap h
          exact q
        · rename_i hlt
          rw [hd] at hlt
          by_cases hc : d.le dc = true
          · rw [if_pos hc]
            have q := ih p sN 0 ({ sN with delta := d, u_out := u }) 2 _ _
              (Or.inr ⟨d, u, rfl, hd, rfl, Val.le_of_not_le hlt⟩) hcap h
            exact q
          · rw [if_neg hc]
            have q := ih p sN 0 ({ sN with delta := dc, u_out := uo }) rC _ _
              (Or.inr ⟨dc, uo, rfl, hd, rfl, hle⟩) hcap h
            exact q

/-- While `NetSimplex` has no candidate its result stays 0. -/
theorem SearchRel.same_of_found {sN sC : LeavingSearch} {rN rC : Int}
    (h : SearchRel sN rN sC rC) (hr : rN ≠ 0) : sC = sN ∧ rC = rN := by
  rcases h with h | ⟨_, _, _, _, h0, _⟩
  · exact h
  · exact absurd h0 hr

/-- A search of `NetSimplex` that finds a leaving arc is repeated by `NetSimplexCapacity` with
infinite capacities. -/
theorem findLeavingArc_rel {k : Nat} {a b : LeavingSearch} (hcap : InfiniteCaps a)
    (hin : ∃ f, rd a.flow a.in_arc = some f)
    (hst : rd a.state a.in_arc = some NetSimplexCapacity.STATE_LOWER)
    (h : NetSimplexInfinity.findLeavingArc k a = some (true, b)) :
    NetSimplexCapacity.findLeavingArc k a = some (true, b) := by
  obtain ⟨f, hf⟩ := hin
  simp only [NetSimplexInfinity.findLeavingArc, Option.bind_eq_bind, Option.bind_eq_some] at h
  obtain ⟨s, hs, t, ht, ⟨s1, r1⟩, h1, ⟨s2, r2⟩, h2, h⟩ := h
  have hcap0 : InfiniteCaps ({ a with delta := Val.fin a.MAX } : LeavingSearch) := hcap
  obtain ⟨c1, q1, e1, rel1, cap1, m1⟩ := findLeavingFirst_rel k s
    { a with delta := Val.fin a.MAX } 0 { a with delta := Val.inf } 0 s1 r1
    (Or.inr ⟨Val.inf, a.u_out, rfl, rfl, rfl, rfl⟩) hcap0 h1
  obtain ⟨c2, q2, e2, rel2, cap2, m2⟩ := findLeavingSecond_rel k t s1 r1 c1 q1 s2 r2 rel1 cap1 h2
  have hr2 : r2 ≠ 0 := by
    intro h0
    subst h0
    simp at h
  obtain ⟨rfl, rfl⟩ := rel2.same_of_found hr2
  simp only [NetSimplexCapacity.findLeavingArc, Option.bind_eq_bind, hst, Option.some_bind, hs,
    ht, hcap.rd_cap hf, if_true, e1, e2]
  exact h

/-- The first loop of `NetSimplex` returns on a path to the join node; it either records a
candidate or leaves everything as it was, and then no arc of the path with direction `DIR_UP`
has a flow below `delta`. -/
theorem NetSimplexInfinity.findLeavingFirst_total : ∀ (l : List Int) (k : Nat) (u : Int)
    (s : LeavingSearch) (r : Int), TreePath s.parent s.join u l → s.Readable l → l.length < k →
    ∃ s' r', NetSimplexInfinity.findLeavingFirst k u s r = some (s', r') ∧
      s' = { s with delta := s'.delta, u_out := s'.u_out } ∧
      (r' = 1 ∨ (s' = s ∧ r' = r ∧
        ∀ x ∈ l, ∀ f, s.ArcAt x DIR_UP f → ¬ (Val.fin f).lt s.delta = true)) := by
  intro l
  induction l with
  | nil =>
    intro k u s r hp _ hk
    obtain ⟨k, rfl⟩ : ∃ k0, k = k0 + 1 := ⟨k - 1, by simp at hk; omega⟩
    have hu : u = s.join := hp
    refine ⟨s, r, ?_, rfl, Or.inr ⟨rfl, rfl, ?_⟩⟩
    · unfold NetSimplexInfinity.findLeavingFirst
      rw [if_pos hu]
    · intro x hx
      simp at hx
  | cons y l ih =>
    intro k u s r hp hread hk
    obtain ⟨k, rfl⟩ : ∃ k0, k = k0 + 1 := ⟨k - 1, by simp at hk; omega⟩
    obtain ⟨rfl, hu, p, hpar, hp⟩ := hp
    obtain ⟨e, f, dir, he, hf, hdir⟩ := hread y (List.mem_cons_self _ _)
    have hread' : s.Readable l := fun x hx => hread x (List.mem_cons_of_mem _ hx)
    have hk' : l.length < k := by simp at hk; omega
    have step : NetSimplexInfinity.findLeavingFirst (k + 1) y s r =
        if (if dir = DIR_DOWN then Val.inf.subFin f else Val.fin f).lt s.delta then
          NetSimplexInfinity.findLeavingFirst k p
            { s with delta := if dir = DIR_DOWN then Val.inf.subFin f else Val.fin f,
                     u_out := y } 1
        else NetSimplexInfinity.findLeavingFirst k p s r := by
      conv => lhs; unfold NetSimplexInfinity.findLeavingFirst
      rw [if_neg hu]
      simp only [Option.bind_eq_bind, he, Option.some_bind, hf, hdir, hp, hpar]
    rw [step]
    by_cases hlt : (if dir = DIR_DOWN then Val.inf.subFin f else Val.fin f).lt s.delta = true
    · rw [if_pos hlt]
      obtain ⟨s', r', q, e1, q2⟩ := ih k p
        { s with delta := if dir = DIR_DOWN then Val.inf.subFin f else Val.fin f, u_out := y }
        1 hp hread' hk'
      refine ⟨s', r', q, ?_, Or.inl ?_⟩
      · rw [e1]
      · rcases q2 with q2 | ⟨_, q2, _⟩
        · exact q2
        · exact q2
    · rw [if_neg hlt]
      obtain ⟨s', r', q, e1, q2⟩ := ih k p s r hp hread' hk'
      refine ⟨s', r', q, e1, ?_⟩
      rcases q2 with q2 | ⟨q2, q3, q4⟩
      · exact Or.inl q2
      · refine Or.inr ⟨q2, q3, ?_⟩
        intro x hx g hg
        rcases List.mem_cons.1 hx with rfl | hx
        · obtain ⟨e', he', hf', hdir'⟩ := hg
          rw [he] at he'
          cases he'
          rw [hf] at hf'
          cases hf'
          rw [hdir] at hdir'
          cases hdir'
          exact hlt
        · exact q4 x hx g hg

/-- The second loop of `NetSimplex` returns on a path to the join node; it either records a
candidate or leaves everything as it was, and then no arc of the path with direction
`DIR_DOWN` has a flow of at most `delta`. -/
theorem NetSimplexInfinity.findLeavingSecond_total : ∀ (l : List Int) (k : Nat) (u : Int)
    (s : LeavingSearch) (r : Int), TreePath s.parent s.join u l → s.Readable l → l.length < k →
    ∃ s' r', NetSimplexInfinity.findLeavingSecond k u s r = some (s', r') ∧
      s' = { s with delta := s'.delta, u_out := s'.u_out } ∧
      (r' = 2 ∨ (s' = s ∧ r' = r ∧
        ∀ x ∈ l, ∀ f, s.ArcAt x DIR_DOWN f → ¬ (Val.fin f).le s.delta = true)) := by
  intro l
  induction l with
  | nil =>
    intro k u s r hp _ hk
    obtain ⟨k, rfl⟩ : ∃ k0, k = k0 + 1 := ⟨k - 1, by simp at hk; omega⟩
    have hu : u = s.join := hp
    refine ⟨s, r, ?_, rfl, Or.inr ⟨rfl, rfl, ?_⟩⟩
    · unfold NetSimplexInfinity.findLeavingSecond
      rw [if_pos hu]
    · intro x hx
      simp at hx
  | cons y l ih =>
    intro k u s r hp hread hk
    obtain ⟨k, rfl⟩ : ∃ k0, k = k0 + 1 := ⟨k - 1, by simp at hk; omega⟩
    obtain ⟨rfl, hu, p, hpar, hp⟩ := hp
    obtain ⟨e, f, dir, he, hf, hdir⟩ := hread y (List.mem_cons_self _ _)
    have hread' : s.Readable l := fun x hx => hread x (List.mem_cons_of_mem _ hx)
    have hk' : l.length < k := by simp at hk; omega
    have step : NetSimplexInfinity.findLeavingSecond (k + 1) y s r =
        if (if dir = DIR_UP then Val.inf.subFin f else Val.fin f).le s.delta then
          NetSimplexInfinity.findLeavingSecond k p
            { s with delta := if dir = DIR_UP then Val.inf.subFin f else Val.fin f,
                     u_out := y } 2
        else NetSimplexInfinity.findLeavingSecond k p s r := by
      conv => lhs; unfold NetSimplexInfinity.findLeavingSecond
      rw [if_neg hu]
      simp only [Option.bind_eq_bind, he, Option.some_bind, hf, hdir, hp, hpar]
    rw [step]
    by_cases hlt : (if dir = DIR_UP then Val.inf.subFin f else Val.fin f).le s.delta = true
    · rw [if_pos hlt]
      obtain ⟨s', r', q, e1, q2⟩ := ih k p
        { s with delta := if dir = DIR_UP then Val.inf.subFin f else Val.fin f, u_out := y }
        2 hp hread' hk'
      refine ⟨s', r', q, ?_, Or.inl ?_⟩
      · rw [e1]
      · rcases q2 with q2 | ⟨_, q2, _⟩
        · exact q2
        · exact q2
    · rw [if_neg hlt]
      obtain ⟨s', r', q, e1, q2⟩ := ih k p s r hp hread' hk'
      refine ⟨s', r', q, e1, ?_⟩
      rcases q2 with q2 | ⟨q2, q3, q4⟩
      · exact Or.inl q2
      · refine Or.inr ⟨q2, q3, ?_⟩
        intro x hx g hg
        rcases List.mem_cons.1 hx with rfl | hx
        · obtain ⟨e', he', hf', hdir'⟩ := hg
          rw [he] at he'
          cases he'
          rw [hf] at hf'
          cases hf'
          rw [hdir] at hdir'
          cases hdir'
          exact hlt
        · exact q4 x hx g hg

/-- On a cycle with a decreasing arc whose flow is below `MAX` on the first path, or with any
decreasing arc of flow at most `MAX` on the second path, `NetSimplex` finds a leaving arc. -/
theorem NetSimplexInfinity.findLeavingArc_found {k : Nat} {a : LeavingSearch}
    {s t : Int} {l1 l2 : List Int} (hs : rd a.source a.in_arc = some s)
    (ht : rd a.target a.in_arc = some t) (hp1 : TreePath a.parent a.join s l1) (hp2 : TreePath a.parent a.join t l2)
    (hr1 : a.Readable l1) (hr2 : a.Readable l2) (hk1 : l1.length < k) (hk2 : l2.length < k)
    (hdec : (∃ x ∈ l1, ∃ f, a.ArcAt x DIR_UP f ∧ f < a.MAX) ∨
      (∃ x ∈ l2, ∃ f, a.ArcAt x DIR_DOWN f ∧ f ≤ a.MAX)) :
    ∃ b, NetSimplexInfinity.findLeavingArc k a = some (true, b) := by
  obtain ⟨s1, r1, q1, e1, c1⟩ := NetSimplexInfinity.findLeavingFirst_total l1 k s
    { a with delta := Val.fin a.MAX } 0 hp1 hr1 hk1
  have hp2' : TreePath s1.parent s1.join t l2 := by
    rw [e1]
    exact hp2
  have hr2' : s1.Readable l2 := by
    rw [e1]
    exact hr2
  obtain ⟨s2, r2, q2, e2, c2⟩ := NetSimplexInfinity.findLeavingSecond_total l2 k t s1 r1
    hp2' hr2' hk2
  have hr : r2 ≠ 0 := by
    rcases c2 with c2 | ⟨_, c2, c3⟩
    · rw [c2]
      decide
    · rcases c1 with c1 | ⟨c0, c1, c4⟩
      · rw [c2, c1]
        decide
      · exfalso
        rcases hdec with ⟨x, hx, f, hg, hf⟩ | ⟨x, hx, f, hg, hf⟩
        · apply c4 x hx f hg
          simp [Val.lt, hf]
        · subst c0
          apply c3 x hx f hg
          simp [Val.le, hf]
  simp only [NetSimplexInfinity.findLeavingArc, Option.bind_eq_bind, hs, ht, Option.some_bind,
    q1, q2]
  by_cases h1 : r2 = 1
  · rw [if_pos h1]
    exact ⟨_, rfl⟩
  · rw [if_neg h1]
    refine ⟨{ s2 with u_in := t, v_in := s }, ?_⟩
    simp only [hr, ne_eq, not_false_eq_true, decide_True]

/-- C38 (counterexample): all capacities are infinite, the entering arc is at its lower bound
and the cycle contains a tree arc whose flow decreases (arc 0 on the first path), but that
flow equals `MAX`: `NetSimplex` tests `MAX < MAX`, finds no leaving arc and returns false with
`u_out` untouched, while `NetSimplexCapacity` tests `MAX < INF`, picks `u_out = 0` and returns
true with the other orientation of `u_in` and `v_in`. -/
theorem C38_flow_at_max :
    (NetSimplexInfinity.findLeavingArc 3 (searchStar 100)).map LeavingSearch.outcome =
      some (false, Val.fin 100, -1, 1, 0) ∧
    (NetSimplexCapacity.findLeavingArc 3 (searchStar 100)).map LeavingSearch.outcome =
      some (true, Val.fin 100, 0, 0, 1) := by
  decide

/-- C38 (amended): for a value type with infinity, when every capacity is infinite and the
entering arc is in state `STATE_LOWER`, on every cycle (paths `l1` and `l2` from the two ends
of the entering arc to the join node) that contains a decreasing tree arc with a flow below
`MAX` on the first path, or a decreasing tree arc with a flow of at most `MAX` on the second
path, both `NetSimplex::findLeavingArc` and `NetSimplexCapacity::findLeavingArc` return true
and end in the same state, so with the same `delta`, `u_out`, `u_in` and `v_in`. -/
theorem C38_capacity_reduces (k : Nat) (a : LeavingSearch) (s t : Int) (l1 l2 : List Int)
    (hcap : InfiniteCaps a) (hin : ∃ f, rd a.flow a.in_arc = some f)
    (hst : rd a.state a.in_arc = some NetSimplexCapacity.STATE_LOWER)
    (hs : rd a.source a.in_arc = some s) (ht : rd a.target a.in_arc = some t)
    (hp1 : TreePath a.parent a.join s l1) (hp2 : TreePath a.parent a.join t l2)
    (hr1 : a.Readable l1) (hr2 : a.Readable l2) (hk1 : l1.length < k) (hk2 : l2.length < k)
    (hdec : (∃ x ∈ l1, ∃ f, a.ArcAt x DIR_UP f ∧ f < a.MAX) ∨
      (∃ x ∈ l2, ∃ f, a.ArcAt x DIR_DOWN f ∧ f ≤ a.MAX)) :
    ∃ b, NetSimplexInfinity.findLeavingArc k a = some (true, b) ∧
      NetSimplexCapacity.findLeavingArc k a = some (true, b) := by
  obtain ⟨b, hb⟩ := NetSimplexInfinity.findLeavingArc_found hs ht hp1 hp2 hr1 hr2 hk1 hk2 hdec
  exact ⟨b, hb, findLeavingArc_rel hcap hin hst hb⟩

/-- The amended C38 on the star with flow 5 on the decreasing arc: both searches return true
with the same state. -/
theorem C38_capacity_reduces_star :
    ∃ b, NetSimplexInfinity.findLeavingArc 3 (searchStar 5) = some (true, b) ∧
      NetSimplexCapacity.findLeavingArc 3 (searchStar 5) = some (true, b) :=
  C38_capacity_reduces 3 (searchStar 5) 0 1 [0] [1] rfl ⟨0, by decide⟩ (by decide)
    (by decide) (by decide) ⟨rfl, by decide, 2, by decide, rfl⟩
    ⟨rfl, by decide, 2, by decide, rfl⟩
    (fun x hx => by
      rw [List.mem_singleton] at hx
      subst hx
      exact ⟨0, 5, 1, by decide, by decide, by decide⟩)
    (fun x hx => by
      rw [List.mem_singleton] at hx
      subst hx
      exact ⟨1, 0, 1, by decide, by decide, by decide⟩)
    (by decide) (by decide)
    (Or.inl ⟨0, List.mem_singleton.2 rfl, 5, ⟨0, by decide, by decide, by decide⟩, by decide⟩)

/-! ## The thread order: accessors and lists -/

/-- In a list without repetitions the place of an element is unique. -/
theorem split_unique {a : Int} : ∀ (l1 l2 r1 r2 : List Int), (l1 ++ a :: r1).Nodup →
    l1 ++ a :: r1 = l2 ++ a :: r2 → l1 = l2 ∧ r1 = r2 := by
  intro l1
  induction l1 with
  | nil =>
    intro l2 r1 r2 nd h
    cases l2 with
    | nil => exact ⟨rfl, by simpa using h⟩
    | cons b l2 =>
      exfalso
      simp only [List.nil_append, List.cons_append, List.cons.injEq] at h
      obtain ⟨rfl, h⟩ := h
      have : a ∈ r1 := by rw [h]; simp
      exact (List.nodup_cons.1 nd).1 this
  | cons b l1 ih =>
    intro l2 r1 r2 nd h
    cases l2 with
    | nil =>
      exfalso
      simp only [List.nil_append, List.cons_append, List.cons.injEq] at h
      obtain ⟨rfl, _⟩ := h
      have nd' : (b :: (l1 ++ b :: r1)).Nodup := nd
      exact (List.nodup_cons.1 nd').1 (by simp)
    | cons c l2 =>
      simp only [List.cons_append, List.cons.injEq] at h
      obtain ⟨rfl, h⟩ := h
      have nd' : (b :: (l1 ++ a :: r1)).Nodup := nd
      obtain ⟨e1, e2⟩ := ih l2 r1 r2 (List.nodup_cons.1 nd').2 h
      exact ⟨by rw [e1], e2⟩

/-- Of two blocks of a list without repetitions, the one whose nodes all lie in the other
is a block of the other. -/
theorem block_nested {T p1 X q1 p2 W q2 : List Int} {s : Int} (nd : T.Nodup)
    (h1 : T = p1 ++ X ++ q1) (h2 : T = p2 ++ (s :: W) ++ q2) (hs : ∀ w ∈ s :: W, w ∈ X) :
    ∃ A Y, X = A ++ (s :: W) ++ Y ∧ p2 = p1 ++ A ∧ q2 = Y ++ q1 := by
  obtain ⟨A, W', eX⟩ := List.append_of_mem (hs s (List.mem_cons_self _ _))
  have e1 : T = (p1 ++ A) ++ s :: (W' ++ q1) := by rw [h1, eX]; simp
  have e2 : T = p2 ++ s :: (W ++ q2) := by rw [h2]; simp
  have nd1 : ((p1 ++ A) ++ s :: (W' ++ q1)).Nodup := by rw [← e1]; exact nd
  obtain ⟨ep, er⟩ := split_unique _ _ _ _ nd1 (e1.symm.trans e2)
  rcases List.append_eq_append_iff.1 er with ⟨c, e3, e4⟩ | ⟨c, e3, e4⟩
  · -- W = W' ++ c and q1 = c ++ q2
    cases c with
    | nil =>
      refine ⟨A, [], ?_, ep.symm, ?_⟩
      · rw [eX, e3]; simp
      · rw [e4]; rfl
    | cons x c =>
      exfalso
      have hxW : x ∈ s :: W := by rw [e3]; simp
      have hxX : x ∈ X := hs x hxW
      have hxq : x ∈ q1 := by rw [e4]; simp
      rw [h1] at nd
      have := (List.nodup_append.1 nd).2.2
      exact this (List.mem_append_right _ hxX) hxq
  · refine ⟨A, c, ?_, ep.symm, e4⟩
    rw [eX, e3]; simp

/-- A chain carries over to another relation that holds wherever the first does along the
list. -/
theorem chain_imp_mem {R S : Int → Int → Prop} : ∀ (L : List Int), List.Chain' R L →
    (∀ a b, a ∈ L.dropLast → b ∈ L.tail → R a b → S a b) → List.Chain' S L := by
  intro L
  induction L with
  | nil => intro _ _; exact List.chain'_nil
  | cons a L ih =>
    intro hc hg
    cases L with
    | nil => exact List.chain'_singleton _
    | cons c L2 =>
      obtain ⟨h1, h2⟩ := List.chain'_cons.1 hc
      have hd : (a :: c :: L2).dropLast = a :: (c :: L2).dropLast := rfl
      refine List.chain'_cons.2 ⟨hg a c (by rw [hd]; exact List.mem_cons_self _ _)
        (List.mem_cons_self _ _) h1, ?_⟩
      refine ih h2 ?_
      intro x y hx hy hr
      refine hg x y ?_ ?_ hr
      · rw [hd]; exact List.mem_cons_of_mem _ hx
      · exact List.mem_cons_of_mem _ hy

/-- Two chains are joined when the last node of the first is related to the first node of
the second. -/
theorem chain_glue {R : Int → Int → Prop} (l : List Int) (a z : Int) (r : List Int)
    (h1 : List.Chain' R (l ++ [a])) (h2 : R a z) (h3 : List.Chain' R (z :: r)) :
    List.Chain' R (l ++ a :: z :: r) := by
  have h4 : List.Chain' R ([a] ++ z :: r) := List.chain'_cons.2 ⟨h2, h3⟩
  have h5 := @List.Chain'.append_overlap Int _ l [a] (z :: r) h1 h4 (by simp)
  have e : l ++ [a] ++ z :: r = l ++ a :: z :: r := by simp
  rw [e] at h5
  exact h5

/-- The relation of a chain between the last node of a front part and the node after it. -/
theorem chain_at {R : Int → Int → Prop} {M : List Int} {l h : Int} {tl : List Int}
    (hc : List.Chain' R (M ++ h :: tl)) (hl : M.getLast? = some l) : R l h := by
  obtain ⟨M0, rfl⟩ := List.getLast?_eq_some_iff.1 hl
  have : List.Chain' R (M0 ++ ([l] ++ h :: tl)) := by
    rw [← List.append_assoc]
    exact hc
  have h2 : List.Chain' R (l :: h :: tl) := this.right_of_append
  exact (List.chain'_cons.1 h2).1

namespace NetSimplex

theorem thr_eq {ns : NetSimplex} {u p : Int} (h : rd ns.thread u = some p) :
    ns.thr u = p := by
  unfold thr
  rw [h]
  rfl

theorem revOf_eq {ns : NetSimplex} {u p : Int} (h : rd ns.rev_thread u = some p) :
    ns.revOf u = p := by
  unfold revOf
  rw [h]
  rfl

theorem lastOf_eq {ns : NetSimplex} {u p : Int} (h : rd ns.last_succ u = some p) :
    ns.lastOf u = p := by
  unfold lastOf
  rw [h]
  rfl

theorem thr_congr {a b : NetSimplex} (h : b.thread = a.thread) (x : Int) :
    b.thr x = a.thr x := by
  unfold thr
  rw [h]

theorem revOf_congr {a b : NetSimplex} (h : b.rev_thread = a.rev_thread) (x : Int) :
    b.revOf x = a.revOf x := by
  unfold revOf
  rw [h]

theorem lastOf_congr {a b : NetSimplex} (h : b.last_succ = a.last_succ) (x : Int) :
    b.lastOf x = a.lastOf x := by
  unfold lastOf
  rw [h]

theorem thr_set {a b : NetSimplex} {i v : Int} (h : a.set_thread i v = some b) (x : Int) :
    b.thr x = if x = i then v else a.thr x := by
  obtain ⟨hw, _, _⟩ := set_thread_spec h
  unfold thr
  by_cases he : x = i
  · rw [if_pos he, he, rd_wr_same hw]
    rfl
  · rw [if_neg he, rd_wr_ne hw he]

theorem revOf_set {a b : NetSimplex} {i v : Int} (h : a.set_rev_thread i v = some b)
    (x : Int) : b.revOf x = if x = i then v else a.revOf x := by
  obtain ⟨hw, _, _⟩ := set_rev_thread_spec h
  unfold revOf
  by_cases he : x = i
  · rw [if_pos he, he, rd_wr_same hw]
    rfl
  · rw [if_neg he, rd_wr_ne hw he]

theorem lastOf_set {a b : NetSimplex} {i v : Int} (h : a.set_last_succ i v = some b)
    (x : Int) : b.lastOf x = if x = i then v else a.lastOf x := by
  obtain ⟨hw, _, _⟩ := set_last_succ_spec h
  unfold lastOf
  by_cases he : x = i
  · rw [if_pos he, he, rd_wr_same hw]
    rfl
  · rw [if_neg he, rd_wr_ne hw he]

end NetSimplex

/-! ## The stem in the thread order -/

namespace NetSimplex

theorem head_append_one (l : List Int) (a : Int) :
    ∃ h, (l ++ [a]).head? = some h ∧ (l = [] → h = a) ∧ (l ≠ [] → l.head? = some h) := by
  cases l with
  | nil => exact ⟨a, rfl, fun _ => rfl, fun h => absurd rfl h⟩
  | cons b l => exact ⟨b, rfl, fun h => by simp at h, fun _ => rfl⟩

/-- The stem of a pivot in the old thread order: the block of `u_out` is built from the block
of `s` by wrapping it into the segments `(P, Y)` of the stem nodes above `s`. -/
theorem Threaded.stem_facts {o : NetSimplex} {n m : Nat} {T : List Int} (ht : Threaded o n m T)
    {vin uo : Int} : ∀ (l : List Int) (s : Int) (pre blk post : List Int),
    Walk o uo s l → (∀ y ∈ l ++ [uo], 0 ≤ y ∧ y < n ∧ ¬ o.Anc y vin) →
    T = pre ++ (s :: blk) ++ post → (∀ w, w ∈ s :: blk ↔ o.Anc s w) →
    (s :: blk).getLast? = some (o.lastOf s) →
    ∃ (segs : List (List Int × List Int)) (Z pre' post' : List Int),
      T = pre' ++ stemOld (s :: blk) segs ++ post' ∧
      (∀ w, w ∈ stemOld (s :: blk) segs ↔ o.Anc uo w) ∧
      (stemOld (s :: blk) segs).head? = some uo ∧
      (stemOld (s :: blk) segs).getLast? = some (o.lastOf uo) ∧
      Z = (post' ++ [(n : Int)]).head?.toList ∧
      (tailOf Z segs).head? = (post ++ [(n : Int)]).head? ∧
      (s :: blk ++ tailOf Z segs).Nodup ∧
      StemShape o uo s (s :: blk) segs ∧
      StemFacts o vin uo Z s (s :: blk) segs := by
  intro l
  induction l with
  | nil =>
    intro s pre blk post hw hl hT hm hlast
    have hs : s = uo := hw
    obtain ⟨h, e1, e2, e3⟩ := head_append_one post (n : Int)
    refine ⟨[], [h], pre, post, hT, ?_, ?_, ?_, ?_, ?_, ?_, hs, hs⟩
    · intro w; rw [← hs]; exact hm w
    · rw [← hs]; rfl
    · rw [← hs]; exact hlast
    · rw [e1]; rfl
    · rw [e1]; rfl
    · show (s :: blk ++ [h]).Nodup
      have nd := ht.nodup
      rw [hT] at nd
      have nd1 : ((pre ++ (s :: blk)) ++ post).Nodup := nd
      have nd2 := List.nodup_append.1 nd1
      have nd3 := (List.nodup_append.1 nd2.1).2.1
      rw [List.nodup_append]
      refine ⟨nd3, List.nodup_singleton _, ?_⟩
      intro x hx hx'
      have ex : x = h := by simpa using hx'
      rw [ex] at hx
      by_cases hp : post = []
      · have hn : h = n := e2 hp
        rw [hn] at hx
        have ha := (hm _).1 hx
        have h1 := hl uo (by simp)
        have := ht.tree.anc_root (by rw [hs]; exact h1.1) ha
        rw [hs] at this
        omega
      · have : h ∈ post := by
          have := e3 hp
          obtain ⟨ys, e⟩ := List.head?_eq_some_iff.1 this
          rw [e]; exact List.mem_cons_self _ _
        exact nd2.2.2 (List.mem_append_right _ hx) this
  | cons y l ih =>
    intro s pre blk post hw hl hT hm hlast
    obtain ⟨rfl, hne, hw'⟩ := hw
    have hy := hl y (by simp)
    have hp0 : 0 ≤ o.par y ∧ o.par y ≤ n := ht.tree.parent_range y hy.1 hy.2.1
    obtain ⟨pre_p, blk_p, post_p, hTp, hmp, _, hlastp⟩ := ht.blocks (o.par y) hp0.1 hp0.2
    have hsub : ∀ w ∈ y :: blk, w ∈ o.par y :: blk_p := fun w hw =>
      (hmp w).2 ((Anc.of_par o y).up ((hm w).1 hw))
    have hT1 : T = pre_p ++ (o.par y :: blk_p) ++ post_p := hTp
    obtain ⟨A, Y, eX, ep, eq⟩ := block_nested ht.nodup hT1 hT hsub
    have hA : A.head? = some (o.par y) := by
      cases A with
      | nil =>
        exfalso
        simp only [List.nil_append, List.cons_append, List.cons.injEq] at eX
        exact ht.tree.par_ne hy.1 hy.2.1 eX.1
      | cons a A' =>
        simp only [List.cons_append, List.cons.injEq] at eX
        rw [eX.1]; rfl
    have hl' : ∀ z ∈ l ++ [uo], 0 ≤ z ∧ z < n ∧ ¬ o.Anc z vin := fun z hz =>
      hl z (List.mem_cons_of_mem _ hz)
    have hpl : o.par y ∈ l ++ [uo] := by
      cases l with
      | nil =>
        have : o.par y = uo := hw'
        simp [this]
      | cons z l2 =>
        obtain ⟨e, _⟩ := hw'
        rw [e]; simp
    have eblk : A ++ (y :: blk) ++ Y = o.par y :: blk_p := eX.symm
    obtain ⟨blk2, eb2⟩ : ∃ blk2, A ++ (y :: blk) ++ Y = o.par y :: blk2 := ⟨blk_p, eblk⟩
    have hT2 : T = pre_p ++ (o.par y :: blk2) ++ post_p := by rw [← eb2, eblk]; exact hTp
    have hm2 : ∀ w, w ∈ o.par y :: blk2 ↔ o.Anc (o.par y) w := by
      intro w; rw [← eb2, eblk]; exact hmp w
    have hlast2 : (o.par y :: blk2).getLast? = some (o.lastOf (o.par y)) := by
      rw [← eb2, eblk]; exact hlastp
    obtain ⟨segs, Z, pre', post', q1, q2, q3, q4, q5, q6, q7, q9, q8⟩ :=
      ih (o.par y) pre_p blk2 post_p hw' hl' hT2 hm2 hlast2
    rw [← eb2] at q1 q2 q3 q4 q7 q8 q9
    have nd := ht.nodup
    have ndp : (A ++ (y :: blk) ++ Y).Nodup := by
      rw [hT1, ← eblk] at nd
      exact (List.nodup_append.1 (List.nodup_append.1 nd).1).2.1
    have lk := ht.link
    refine ⟨(A, Y) :: segs, Z, pre', post', q1, q2, q3, q4, q5, ?_, ?_,
      ⟨hne, hA, fun w => by rw [eblk]; exact hmp w, q9⟩, hne, List.mem_cons_self _ _,
      hA, ?_, ?_, ?_, ?_, ?_, ?_, ?_, q8⟩
    · -- the node after the block of `y`
      show (Y ++ tailOf Z segs).head? = (post ++ [(n : Int)]).head?
      rw [eq]
      cases Y with
      | nil => simpa using q6
      | cons c Y' => rfl
    · show (y :: blk ++ (Y ++ tailOf Z segs)).Nodup
      have : (A ++ ((y :: blk) ++ (Y ++ tailOf Z segs))).Nodup := by
        simpa [List.append_assoc] using q7
      exact (List.nodup_append.1 this).2.1
    · -- the last node of `A` is threaded before `y`
      obtain ⟨la, A0, eA⟩ : ∃ la A0, A = A0 ++ [la] := by
        cases hA' : A.getLast? with
        | none =>
          rw [List.getLast?_eq_none_iff] at hA'
          rw [hA'] at hA
          simp at hA
        | some la =>
          obtain ⟨A0, e⟩ := List.getLast?_eq_some_iff.1 hA'
          exact ⟨la, A0, e⟩
      have eT : T ++ [(n : Int)] = (pre_p ++ A) ++ y :: (blk ++ post ++ [(n : Int)]) := by
        rw [hT, ep]; simp
      rw [eT] at lk
      have hlA : (pre_p ++ A).getLast? = some la := by rw [eA]; simp
      have := chain_at lk hlA
      have hlA2 : A.getLast? = some la := by rw [eA]; simp
      show A.getLast? = some (o.revOf y)
      rw [hlA2, this.2]
    · intro hY0
      have hY : Y = [] := hY0
      rw [hY, List.append_nil] at eblk
      rw [← eblk, List.getLast?_append, hlast] at hlastp
      simpa using hlastp.symm
    · intro hY0
      have hY : Y ≠ [] := hY0
      have hlY : Y.getLast? = some (o.lastOf (o.par y)) := by
        rw [← eblk, List.getLast?_append] at hlastp
        cases e : Y.getLast? with
        | none => exact absurd (List.getLast?_eq_none_iff.1 e) hY
        | some z =>
          rw [e] at hlastp
          simpa using hlastp
      refine ⟨?_, hlY⟩
      intro e
      obtain ⟨Y0, eY⟩ := List.getLast?_eq_some_iff.1 hlY
      have m1 : o.lastOf (o.par y) ∈ Y := by rw [eY]; simp
      have m2 : o.lastOf y ∈ y :: blk := by
        obtain ⟨b0, eb⟩ := List.getLast?_eq_some_iff.1 hlast
        rw [eb]; simp
      rw [← e] at m2
      exact (List.nodup_append.1 ndp).2.2 (List.mem_append_right _ m2) m1
    · -- `A` is threaded as listed
      have eT : T ++ [(n : Int)] = pre_p ++ (A ++ ((y :: blk) ++ Y ++ post_p ++ [(n : Int)])) := by
        rw [hT1, ← eblk]; simp
      rw [eT] at lk
      exact lk.right_of_append.left_of_append
    · -- `Y` is threaded as listed, and leads on
      have eT : T ++ [(n : Int)] = (pre_p ++ A ++ (y :: blk)) ++ (Y ++ (post_p ++ [(n : Int)])) := by
        rw [hT1, ← eblk]; simp
      rw [eT] at lk
      have c1 := lk.right_of_append
      rw [q6]
      obtain ⟨h, e1, _, _⟩ := head_append_one post_p (n : Int)
      rw [e1]
      obtain ⟨tl, etl⟩ := List.head?_eq_some_iff.1 e1
      rw [etl] at c1
      have : List.Chain' (fun x y => o.thr x = y ∧ o.revOf y = x) ((Y ++ [h]) ++ tl) := by
        simpa using c1
      exact this.left_of_append
    · show (A ++ (y :: blk) ++ Y ++ tailOf Z segs).Nodup
      exact q7
    · intro hv
      have := (hmp vin).1 (by rw [← eblk]; exact hv)
      exact (hl' _ hpl).2.2 this

end NetSimplex

/-! ## The stem loop on the thread -/

namespace NetSimplex

theorem mem_of_head {l : List Int} {a : Int} (h : l.head? = some a) : a ∈ l := by
  obtain ⟨ys, rfl⟩ := List.head?_eq_some_iff.1 h
  exact List.mem_cons_self _ _

theorem mem_of_getLast {l : List Int} {a : Int} (h : l.getLast? = some a) : a ∈ l := by
  obtain ⟨ys, rfl⟩ := List.getLast?_eq_some_iff.1 h
  simp

theorem tailOf_ne_nil {Z : List Int} (hZ : Z ≠ []) :
    ∀ segs : List (List Int × List Int), tailOf Z segs ≠ [] := by
  intro segs
  induction segs with
  | nil => exact hZ
  | cons sg rest ih =>
    show sg.2 ++ tailOf Z rest ≠ []
    intro h
    exact ih (List.append_eq_nil.1 h).2

theorem stemHeads_off {o : NetSimplex} {vin uo : Int} {Z : List Int} :
    ∀ (segs : List (List Int × List Int)) (s : Int) (Bs : List Int),
    StemFacts o vin uo Z s Bs segs →
    ∀ x ∈ stemHeads segs, x ∉ Bs ∧ x ∉ tailOf Z segs := by
  intro segs
  induction segs with
  | nil => intro s Bs _ x hx; simp [stemHeads] at hx
  | cons sg rest ih =>
    intro s Bs hf x hx
    obtain ⟨_, _, hPh, _, _, _, _, _, nd, _, hrec⟩ := hf
    have nd' : (sg.1 ++ (Bs ++ (sg.2 ++ tailOf Z rest))).Nodup := by
      simpa [List.append_assoc] using nd
    have d1 := List.nodup_append.1 nd'
    have d2 := List.nodup_append.1 d1.2.1
    show x ∉ Bs ∧ x ∉ sg.2 ++ tailOf Z rest
    have hx' : x ∈ sg.1.head?.toList ++ stemHeads rest := hx
    rcases List.mem_append.1 hx' with g | g
    · have hxP : x ∈ sg.1 := by
        rw [hPh] at g
        have : x = o.par s := by simpa using g
        rw [this]
        exact mem_of_head hPh
      exact ⟨fun m => d1.2.2 hxP (List.mem_append_left _ m),
        fun m => d1.2.2 hxP (List.mem_append_right _ m)⟩
    · obtain ⟨g1, g2⟩ := ih _ _ hrec x g
      refine ⟨fun m => g1 (by simp [m]), fun m => ?_⟩
      rcases List.mem_append.1 m with m1 | m1
      · exact g1 (by simp [m1])
      · exact g2 m1

set_option maxHeartbeats 1000000 in
/-- One round of the stem loop on the thread pointers: the new block `N` is followed by
the segment `P`, whose last node now leads to `after`, and by `Y`; the reverse pointers are
right except after the nodes noted in the dirty list. -/
theorem thread_step {f g r r' : Int → Int} {D : List Int} {vin last nx bf after h : Int}
    {N0 P0 P1 Y : List Int} (hP : P0 ++ [bf] = nx :: P1)
    (nd : ((N0 ++ [last]) ++ ((P0 ++ [bf]) ++ Y)).Nodup)
    (hv : vin ∉ (N0 ++ [last]) ++ ((P0 ++ [bf]) ++ Y))
    (hh : h ∉ (N0 ++ [last]) ++ ((P0 ++ [bf]) ++ Y))
    (c0 : List.Chain' (fun x y => f x = y ∧ (r y = x ∨ x ∈ D)) (vin :: (N0 ++ [last])))
    (cP : List.Chain' (fun x y => f x = y ∧ r y = x) (P0 ++ [bf]))
    (cY : List.Chain' (fun x y => f x = y ∧ r y = x) (Y ++ [h]))
    (hY : (Y = [] ∧ h = after) ∨ ∃ Y1, Y = after :: Y1)
    (hg : ∀ x, g x = if x = bf then after else if x = last then nx else f x)
    (hr : ∀ y, r' y = if y = after then bf else r y) :
    List.Chain' (fun x y => g x = y ∧ (r' y = x ∨ x ∈ D ++ [last]))
      (vin :: ((N0 ++ [last]) ++ ((P0 ++ [bf]) ++ (Y ++ [h])))) := by
  have nd2 := List.nodup_append.1 nd
  have nd3 := List.nodup_append.1 nd2.2.1
  have nd4 := List.nodup_append.1 nd2.1
  have nd5 := List.nodup_append.1 nd3.1
  have djN : ∀ x, x ∈ N0 ++ [last] → x ∈ (P0 ++ [bf]) ++ Y → False := fun x h1 h2 =>
    nd2.2.2 h1 h2
  have djP : ∀ x, x ∈ P0 ++ [bf] → x ∈ Y → False := fun x h1 h2 => nd3.2.2 h1 h2
  have djN0 : ∀ x, x ∈ N0 → x ∈ [last] → False := fun x h1 h2 => nd4.2.2 h1 h2
  have djP0 : ∀ x, x ∈ P0 → x ∈ [bf] → False := fun x h1 h2 => nd5.2.2 h1 h2
  have hbf_last : bf ≠ last := fun e => djN last (by simp) (by simp [e])
  have hbf_vin : bf ≠ vin := fun e => hv (by rw [← e]; simp)
  have hlast_vin : last ≠ vin := fun e => hv (by rw [← e]; simp)
  have hN0 : ∀ x ∈ N0, x ≠ last ∧ x ≠ bf := fun x hx =>
    ⟨fun e => djN0 x hx (by simp [e]), fun e => djN x (by simp [hx]) (by simp [e])⟩
  have hP0 : ∀ x ∈ P0, x ≠ last ∧ x ≠ bf := fun x hx =>
    ⟨fun e => djN x (by simp [e]) (by simp [hx]), fun e => djP0 x hx (by simp [e])⟩
  have hYn : ∀ x ∈ Y, x ≠ last ∧ x ≠ bf := fun x hx =>
    ⟨fun e => djN x (by simp [e]) (by simp [hx]), fun e => djP x (by simp [e]) hx⟩
  have gf : ∀ x, x ≠ last → x ≠ bf → g x = f x := by
    intro x h1 h2
    rw [hg x, if_neg h2, if_neg h1]
  -- `after` is in `Y` or is `h`
  have haft : ∀ y ∈ (N0 ++ [last]) ++ (P0 ++ [bf]), y ≠ after := by
    intro y hy e
    rw [e] at hy
    rcases hY with ⟨_, e2⟩ | ⟨Y1, e2⟩
    · rw [← e2] at hy
      exact hh (by
        rcases List.mem_append.1 hy with g1 | g1
        · exact List.mem_append_left _ g1
        · exact List.mem_append_right _ (List.mem_append_left _ g1))
    · have m : after ∈ Y := by rw [e2]; simp
      rcases List.mem_append.1 hy with g1 | g1
      · exact djN _ g1 (List.mem_append_right _ m)
      · exact djP _ g1 m
  have rr : ∀ y, y ≠ after → r' y = r y := by
    intro y hy
    rw [hr y, if_neg hy]
  have c1 : List.Chain' (fun x y => g x = y ∧ (r' y = x ∨ x ∈ D ++ [last]))
      ((vin :: N0) ++ [last]) := by
    refine chain_imp_mem _ c0 ?_
    intro a b ha hb hab
    have ha' : a ∈ vin :: N0 := by
      rw [List.dropLast_concat] at ha
      exact ha
    have hb' : b ∈ N0 ++ [last] := hb
    have hga : g a = f a := by
      rcases List.mem_cons.1 ha' with e | m
      · rw [e]; exact gf vin (fun e' => hlast_vin e'.symm) (fun e' => hbf_vin e'.symm)
      · exact gf a (hN0 a m).1 (hN0 a m).2
    refine ⟨by rw [hga]; exact hab.1, ?_⟩
    rw [rr b (haft b (List.mem_append_left _ hb'))]
    rcases hab.2 with q | q
    · exact Or.inl q
    · exact Or.inr (List.mem_append_left _ q)
  have c2 : g last = nx ∧ (r' nx = last ∨ last ∈ D ++ [last]) :=
    ⟨by rw [hg, if_neg (fun e => hbf_last e.symm), if_pos rfl], Or.inr (by simp)⟩
  have c3 : List.Chain' (fun x y => g x = y ∧ (r' y = x ∨ x ∈ D ++ [last])) (P0 ++ [bf]) := by
    refine chain_imp_mem _ cP ?_
    intro a b ha hb hab
    rw [List.dropLast_concat] at ha
    have hb' : b ∈ P0 ++ [bf] := List.mem_of_mem_tail hb
    refine ⟨by rw [gf a (hP0 a ha).1 (hP0 a ha).2]; exact hab.1, Or.inl ?_⟩
    rw [rr b (haft b (List.mem_append_right _ hb'))]
    exact hab.2
  have c3' : List.Chain' (fun x y => g x = y ∧ (r' y = x ∨ x ∈ D ++ [last]))
      (nx :: (P1 ++ [after])) := by
    have := chain_glue P0 bf after [] c3
      ⟨by rw [hg, if_pos rfl], Or.inl (by rw [hr, if_pos rfl])⟩ (List.chain'_singleton _)
    have e : P0 ++ [bf, after] = nx :: (P1 ++ [after]) := by
      have : P0 ++ [bf, after] = (P0 ++ [bf]) ++ [after] := by simp
      rw [this, hP]
      rfl
    rw [e] at this
    exact this
  have c4 := chain_glue (vin :: N0) last nx (P1 ++ [after]) c1 c2 c3'
  have e4 : (vin :: N0) ++ last :: nx :: (P1 ++ [after]) =
      (vin :: ((N0 ++ [last]) ++ (P0 ++ [bf]))) ++ [after] := by
    rw [hP]
    simp
  rw [e4] at c4
  rcases hY with ⟨y0, hh'⟩ | ⟨Y1, y1⟩
  · rw [y0, hh']
    simpa using c4
  · have c5 : List.Chain' (fun x y => g x = y ∧ (r' y = x ∨ x ∈ D ++ [last]))
        ([after] ++ (Y1 ++ [h])) := by
      have : List.Chain' (fun x y => g x = y ∧ (r' y = x ∨ x ∈ D ++ [last])) (Y ++ [h]) := by
        refine chain_imp_mem _ cY ?_
        intro a b ha hb hab
        rw [List.dropLast_concat] at ha
        have hb' : b ∈ Y1 ++ [h] := by
          rw [y1] at hb
          exact hb
        have hba : b ≠ after := by
          intro e
          rw [e] at hb'
          rcases List.mem_append.1 hb' with g1 | g1
          · have ndY : (after :: Y1).Nodup := by rw [← y1]; exact nd3.2.1
            exact (List.nodup_cons.1 ndY).1 g1
          · have : after = h := by simpa using g1
            exact hh (by
              rw [← this, y1]
              simp)
        refine ⟨by rw [gf a (hYn a ha).1 (hYn a ha).2]; exact hab.1, Or.inl ?_⟩
        rw [rr b hba]
        exact hab.2
      rw [y1] at this
      exact this
    have c6 := @List.Chain'.append_overlap Int _ _ [after] (Y1 ++ [h]) c4 c5 (by simp)
    rw [y1]
    simpa using c6

theorem stemNew_mem_left : ∀ (segs : List (List Int × List Int)) (N : List Int) (x : Int),
    x ∈ N → x ∈ stemNew N segs := by
  intro segs
  induction segs with
  | nil => intro N x hx; exact hx
  | cons sg rest ih =>
    intro N x hx
    exact ih _ x (by simp [hx])

set_option maxHeartbeats 2000000 in
/-- The stem loop on the thread pointers: when it ends, `_thread` leads from `v_in` through
the new block, which lists the nodes of the old block of `u_out`, on to the node that
followed that block, and is unchanged elsewhere; `_rev_thread` is right along the new block
except after the nodes of the dirty list, and is unchanged outside the new block but for the
node after it. -/
theorem stemLoop_thread (o : NetSimplex) (vin uo : Int) (Z : List Int) (hZ : Z ≠ []) :
    ∀ (segs : List (List Int × List Int)) (k : Nat) (a : NetSimplex) (st : Stem)
      (b : NetSimplex) (st' : Stem) (Bs N : List Int),
    StemFacts o vin uo Z st.stem Bs segs → a.u_out = uo → N.Perm Bs →
    N.getLast? = some st.last → (tailOf Z segs).head? = some st.after →
    List.Chain' (fun x y => a.thr x = y ∧ (a.revOf y = x ∨ x ∈ st.dirty_revs)) (vin :: N) →
    a.thr st.last = st.after →
    (∀ x, x ≠ vin → x ∉ N → a.thr x = o.thr x) →
    (∀ y, y ∉ N → y ≠ st.after → a.revOf y = o.revOf y) →
    (∀ x, x = st.stem ∨ x ∈ stemHeads segs → a.par x = o.par x ∧ a.revOf x = o.revOf x) →
    a.last_succ = o.last_succ →
    stemLoop k a st = some (b, st') →
    st'.stem = uo ∧ (stemNew N segs).getLast? = some st'.last ∧ Z.head? = some st'.after ∧
    List.Chain' (fun x y => b.thr x = y ∧ (b.revOf y = x ∨ x ∈ st'.dirty_revs))
      (vin :: stemNew N segs) ∧
    b.thr st'.last = st'.after ∧
    (∀ x, x ≠ vin → x ∉ stemNew N segs → b.thr x = o.thr x) ∧
    (∀ y, y ∉ stemNew N segs → y ≠ st'.after → b.revOf y = o.revOf y) ∧
    (stemNew N segs).Perm (stemOld Bs segs) ∧
    (∀ x ∈ st'.dirty_revs, x ∈ st.dirty_revs ∨ x ∈ stemNew N segs) := by
  intro segs
  induction segs with
  | nil =>
    intro k a st b st' Bs N hf hu hperm hl ha hc hla hoff hroff _ _ h
    have hs : st.stem = uo := hf
    cases k with
    | zero => simp [stemLoop] at h
    | succ k =>
      unfold stemLoop at h
      rw [if_pos (hs.trans hu.symm)] at h
      simp only [Option.some.injEq, Prod.mk.injEq] at h
      obtain ⟨rfl, rfl⟩ := h
      exact ⟨hs, hl, ha, hc, hla, hoff, hroff, hperm, fun x hx => Or.inl hx⟩
  | cons sg rest ih =>
    intro k a st b st' Bs N hf hu hperm hl ha hc hla hoff hroff hpr hls h
    obtain ⟨hne, hsB, hPh, hPl, hY0, hY1, cP, cY, nd, hvin0, hrec⟩ := hf
    cases k with
    | zero => simp [stemLoop] at h
    | succ k =>
      unfold stemLoop at h
      rw [if_neg (fun e => hne (e.trans hu))] at h
      simp only [Option.bind_eq_bind, Option.bind_eq_some] at h
      obtain ⟨nx, hnx, n1, h1, bf, hbf, n2, h2, n3, h3, n4, h4, ls, hls1, lp, hlp, h⟩ := h
      -- frames
      have k1 : Writes [Fld.thread] a n1 := set_thread_writes h1 (by decide)
      have k2 : Writes [Fld.thread] n1 n2 := set_thread_writes h2 (by decide)
      have k3 : Writes [Fld.rev_thread] n2 n3 := set_rev_thread_writes h3 (by decide)
      have k4 : Writes [Fld.parent] n3 n4 := set_parent_writes h4 (by decide)
      have k12 : Writes [Fld.thread] a n2 := k1.follow k2
      have k14 : Writes [Fld.thread, Fld.rev_thread, Fld.parent] a n4 :=
        ((k12.wider (by decide)).follow (k3.wider (by decide))).follow (k4.wider (by decide))
      have k34 : Writes [Fld.rev_thread, Fld.parent] n2 n4 :=
        (k3.wider (by decide)).follow (k4.wider (by decide))
      -- the values that are read
      have enx : o.par st.stem = nx := by
        rw [← (hpr st.stem (Or.inl rfl)).1]
        exact par_eq hnx
      have ebf : o.revOf st.stem = bf := by
        rw [← (hpr st.stem (Or.inl rfl)).2, ← revOf_congr (k1.vec Fld.rev_thread (by decide))]
        exact revOf_eq hbf
      rw [enx] at hPh hY0 hY1 hrec
      rw [ebf] at hPl
      have els : o.lastOf nx = ls := by
        rw [← lastOf_congr hls, ← lastOf_congr (k14.vec Fld.last_succ (by decide))]
        exact lastOf_eq hls1
      have elp : o.lastOf st.stem = lp := by
        rw [← lastOf_congr hls, ← lastOf_congr (k14.vec Fld.last_succ (by decide))]
        exact lastOf_eq hlp
      rw [els, elp] at hY0 hY1
      -- the lists
      obtain ⟨N0, eN⟩ := List.getLast?_eq_some_iff.1 hl
      obtain ⟨P1, eP1⟩ := List.head?_eq_some_iff.1 hPh
      obtain ⟨P0, eP0⟩ := List.getLast?_eq_some_iff.1 hPl
      have hP : P0 ++ [bf] = nx :: P1 := by rw [← eP0, eP1]
      obtain ⟨hh, ehh⟩ : ∃ hh, (tailOf Z rest).head? = some hh := by
        cases e : tailOf Z rest with
        | nil => exact absurd e (tailOf_ne_nil hZ rest)
        | cons y l => exact ⟨y, rfl⟩
      rw [ehh] at cY
      have cY2 : List.Chain' (fun x y => o.thr x = y ∧ o.revOf y = x) (sg.2 ++ [hh]) := cY
      have ha' : (sg.2 ++ tailOf Z rest).head? = some st.after := ha
      have hY : (sg.2 = [] ∧ hh = st.after) ∨ ∃ Y1, sg.2 = st.after :: Y1 := by
        cases e : sg.2 with
        | nil =>
          rw [e] at ha'
          left
          have : (tailOf Z rest).head? = some st.after := by simpa using ha'
          rw [ehh] at this
          exact ⟨rfl, by simpa using this⟩
        | cons y Y1 =>
          rw [e] at ha'
          right
          have : y = st.after := by simpa using ha'
          exact ⟨Y1, by rw [this]⟩
      have ndA : (sg.1 ++ (Bs ++ (sg.2 ++ tailOf Z rest))).Nodup := by
        simpa [List.append_assoc] using nd
      have ndA1 := List.nodup_append.1 ndA
      have ndA2 := List.nodup_append.1 ndA1.2.1
      have ndA3 := List.nodup_append.1 ndA2.2.1
      have mhh : hh ∈ tailOf Z rest := mem_of_head ehh
      have maft : st.after ∈ sg.2 ++ tailOf Z rest := mem_of_head ha'
      have pm : (N ++ (sg.1 ++ sg.2)).Perm (sg.1 ++ (Bs ++ sg.2)) := by
        have p1 : (N ++ (sg.1 ++ sg.2)).Perm (sg.1 ++ (N ++ sg.2)) := by
          rw [← List.append_assoc, ← List.append_assoc]
          exact List.Perm.append_right _ List.perm_append_comm
        exact p1.trans (List.Perm.append_left _ (List.Perm.append_right _ hperm))
      have nd3 : (sg.1 ++ (Bs ++ sg.2)).Nodup := by
        have : (sg.1 ++ (Bs ++ sg.2) ++ tailOf Z rest).Nodup := by
          simpa [List.append_assoc] using ndA
        exact (List.nodup_append.1 this).1
      have hvin : ∀ x, x ∈ sg.1 ++ (Bs ++ sg.2) → x ≠ vin := by
        intro x hx e
        rw [e] at hx
        exact hvin0 (by simpa [List.append_assoc] using hx)
      have ndN : (N ++ (sg.1 ++ sg.2)).Nodup := pm.nodup_iff.2 nd3
      have hNB : ∀ x, x ∈ N ↔ x ∈ Bs := fun x => hperm.mem_iff
      have hvN : vin ∉ N ++ (sg.1 ++ sg.2) := fun m => hvin vin (pm.mem_iff.1 m) rfl
      have hhN : hh ∉ N ++ (sg.1 ++ sg.2) := by
        intro m
        have m' := pm.mem_iff.1 m
        rcases List.mem_append.1 m' with g | g
        · exact ndA1.2.2 g (List.mem_append_right _ (List.mem_append_right _ mhh))
        · rcases List.mem_append.1 g with g' | g'
          · exact ndA2.2.2 g' (List.mem_append_right _ mhh)
          · exact ndA3.2.2 g' mhh
      have offP : ∀ x ∈ sg.1, a.thr x = o.thr x := by
        intro x hx
        refine hoff x (hvin x (List.mem_append_left _ hx)) ?_
        intro m
        exact ndA1.2.2 hx (List.mem_append_left _ ((hNB x).1 m))
      have offY : ∀ x ∈ sg.2, a.thr x = o.thr x := by
        intro x hx
        refine hoff x (hvin x (List.mem_append_right _ (List.mem_append_right _ hx))) ?_
        intro m
        exact ndA2.2.2 ((hNB x).1 m) (List.mem_append_left _ hx)
      have roffP : ∀ y ∈ sg.1, a.revOf y = o.revOf y := by
        intro y hy
        refine hroff y (fun m => ndA1.2.2 hy (List.mem_append_left _ ((hNB y).1 m))) ?_
        intro e
        rw [e] at hy
        exact ndA1.2.2 hy (List.mem_append_right _ maft)
      have cP' : List.Chain' (fun x y => a.thr x = y ∧ a.revOf y = x) (P0 ++ [bf]) := by
        rw [← eP0]
        refine chain_imp_mem _ cP ?_
        intro x y hx hy hxy
        rw [offP x (List.mem_of_mem_dropLast hx), roffP y (List.mem_of_mem_tail hy)]
        exact hxy
      have cY' : List.Chain' (fun x y => a.thr x = y ∧ a.revOf y = x) (sg.2 ++ [hh]) := by
        refine chain_imp_mem _ cY2 ?_
        intro x y hx hy hxy
        rw [List.dropLast_concat] at hx
        rw [offY x hx]
        have hyr : a.revOf y = o.revOf y := by
          rcases hY with ⟨y0, _⟩ | ⟨Y1, y1⟩
          · rw [y0] at hy
            simp at hy
          · rw [y1] at hy
            have hy' : y ∈ Y1 ++ [hh] := hy
            have ndY : (st.after :: (Y1 ++ tailOf Z rest)).Nodup := by
              have := ndA2.2.1
              rw [y1] at this
              exact this
            have hyT : y ∈ Y1 ++ tailOf Z rest := by
              rcases List.mem_append.1 hy' with g | g
              · exact List.mem_append_left _ g
              · have : y = hh := by simpa using g
                rw [this]
                exact List.mem_append_right _ mhh
            refine hroff y ?_ ?_
            · intro m
              refine ndA2.2.2 ((hNB y).1 m) ?_
              rw [y1]
              exact List.mem_cons_of_mem _ hyT
            · intro e
              rw [e] at hyT
              exact (List.nodup_cons.1 ndY).1 hyT
        rw [hyr]
        exact hxy
      have c0 : List.Chain' (fun x y => a.thr x = y ∧ (a.revOf y = x ∨ x ∈ st.dirty_revs))
          (vin :: (N0 ++ [st.last])) := by
        rw [← eN]
        exact hc
      have hg : ∀ x, n4.thr x = if x = bf then st.after
          else if x = st.last then nx else a.thr x := by
        intro x
        rw [thr_congr (k34.vec Fld.thread (by decide)), thr_set h2 x, thr_set h1 x]
      have hr : ∀ y, n4.revOf y = if y = st.after then bf else a.revOf y := by
        intro y
        rw [revOf_congr (k4.vec Fld.rev_thread (by decide)), revOf_set h3 y,
          revOf_congr (k12.vec Fld.rev_thread (by decide))]
      have ndT : ((N0 ++ [st.last]) ++ ((P0 ++ [bf]) ++ sg.2)).Nodup := by
        rw [← eN, ← eP0]
        exact ndN
      have hvT : vin ∉ (N0 ++ [st.last]) ++ ((P0 ++ [bf]) ++ sg.2) := by
        rw [← eN, ← eP0]
        exact hvN
      have hhT : hh ∉ (N0 ++ [st.last]) ++ ((P0 ++ [bf]) ++ sg.2) := by
        rw [← eN, ← eP0]
        exact hhN
      have cN := thread_step hP ndT hvT hhT c0 cP' cY' hY hg hr
      rw [← eN, ← eP0] at cN
      have cN' : List.Chain' (fun x y => n4.thr x = y ∧
          (n4.revOf y = x ∨ x ∈ st.dirty_revs ++ [st.last]))
          ((vin :: (N ++ sg.1 ++ sg.2)) ++ [hh]) := by
        simpa [List.append_assoc] using cN
      -- the new last node
      have hstem_after : st.stem ≠ st.after := by
        intro e
        exact ndA2.2.2 hsB (by rw [e]; exact maft)
      have erev : n4.revOf st.stem = bf := by
        rw [hr, if_neg hstem_after]
        exact revOf_eq (by
          have : a.rev_thread = n1.rev_thread := (k1.vec Fld.rev_thread (by decide)).symm
          rw [this]
          exact hbf)
      have fin : ∀ (lst aft : Int), (N ++ sg.1 ++ sg.2).getLast? = some lst →
          rd n4.thread lst = some aft →
          stemLoop k n4 ⟨nx, st.stem, lst, aft, st.dirty_revs ++ [st.last]⟩ = some (b, st') →
          st'.stem = uo ∧ (stemNew N (sg :: rest)).getLast? = some st'.last ∧
          Z.head? = some st'.after ∧
          List.Chain' (fun x y => b.thr x = y ∧ (b.revOf y = x ∨ x ∈ st'.dirty_revs))
            (vin :: stemNew N (sg :: rest)) ∧
          b.thr st'.last = st'.after ∧
          (∀ x, x ≠ vin → x ∉ stemNew N (sg :: rest) → b.thr x = o.thr x) ∧
          (∀ y, y ∉ stemNew N (sg :: rest) → y ≠ st'.after → b.revOf y = o.revOf y) ∧
          (stemNew N (sg :: rest)).Perm (stemOld Bs (sg :: rest)) ∧
          (∀ x ∈ st'.dirty_revs, x ∈ st.dirty_revs ∨ x ∈ stemNew N (sg :: rest)) := by
        intro lst aft hlst haft hloop
        have hlv : (vin :: (N ++ sg.1 ++ sg.2)).getLast? = some lst := by
          cases e : N ++ sg.1 ++ sg.2 with
          | nil => rw [e] at hlst; simp at hlst
          | cons y l =>
            rw [e] at hlst
            rw [List.getLast?_cons_cons]
            exact hlst
        have e2 : n4.thr lst = hh := (chain_at cN' hlv).1
        have haft' : aft = hh := by
          have e1 : n4.thr lst = aft := thr_eq haft
          rw [← e1, e2]
        have q := ih k n4 ⟨nx, st.stem, lst, aft, st.dirty_revs ++ [st.last]⟩ b st'
          (sg.1 ++ Bs ++ sg.2) (N ++ sg.1 ++ sg.2) hrec
          (k14.eq_u_out.trans hu) (by simpa [List.append_assoc] using pm) hlst
          (by rw [haft']; exact ehh) cN'.left_of_append (by rw [haft']; exact e2) ?_ ?_ ?_ ?_
          hloop
        · obtain ⟨q1, q2, q3, q4, q5, q6, q7, q8, q9⟩ := q
          refine ⟨q1, q2, q3, q4, q5, q6, q7, q8, ?_⟩
          intro x hx
          rcases q9 x hx with g | g
          · rcases List.mem_append.1 g with g' | g'
            · exact Or.inl g'
            · right
              have : x = st.last := by simpa using g'
              rw [this]
              exact stemNew_mem_left _ _ _ (by
                have : st.last ∈ N := mem_of_getLast hl
                simp [this])
          · exact Or.inr g
        · intro x hxv hxN
          have hx1 : x ∉ N := fun m => hxN (by simp [m])
          have hx2 : x ∉ sg.1 := fun m => hxN (by simp [m])
          rw [hg x, if_neg (fun e => hx2 (by rw [e, eP0]; simp)),
            if_neg (fun e => hx1 (by rw [e, eN]; simp))]
          exact hoff x hxv hx1
        · intro y hyN hya
          have hy1 : y ∉ N := fun m => hyN (by simp [m])
          have hy2 : y ∉ sg.2 := fun m => hyN (by simp [m])
          have hya' : y ≠ hh := by rw [← haft']; exact hya
          have hne2 : y ≠ st.after := by
            intro e
            rcases hY with ⟨_, y0⟩ | ⟨Y1, y1⟩
            · exact hya' (e.trans y0.symm)
            · exact hy2 (by rw [e, y1]; simp)
          rw [hr y, if_neg hne2]
          exact hroff y hy1 hne2
        · intro x hx
          have hx' : x ∈ stemHeads (sg :: rest) := by
            show x ∈ sg.1.head?.toList ++ stemHeads rest
            rcases hx with e | m
            · have e' : x = nx := e
              rw [hPh, e']
              simp
            · exact List.mem_append_right _ m
          obtain ⟨q1, q2⟩ := stemHeads_off (sg :: rest) st.stem Bs
            ⟨hne, hsB, by rw [enx]; exact hPh, by rw [ebf]; exact hPl,
              by rw [enx, els, elp]; exact hY0, by rw [enx, els, elp]; exact hY1, cP,
              by rw [ehh]; exact cY, nd, hvin0, by rw [enx]; exact hrec⟩ x hx'
          have hxs : x ≠ st.stem := fun e => q1 (by rw [e]; exact hsB)
          have hxa : x ≠ st.after := fun e => q2 (by rw [e]; exact mem_of_head ha)
          obtain ⟨g1, g2⟩ := hpr x (Or.inr hx')
          constructor
          · rw [par_set h4 x, if_neg hxs, par_congr (k3.vec Fld.parent (by decide)),
              par_congr (k12.vec Fld.parent (by decide))]
            exact g1
          · rw [hr x, if_neg hxa]
            exact g2
        · have e : n4.last_succ = a.last_succ := k14.vec Fld.last_succ (by decide)
          rw [e]
          exact hls
      split at h
      · rename_i hcmp
        simp only [Option.bind_eq_some] at h
        obtain ⟨y, hy, af, haf, h⟩ := h
        have ey : y = bf := by rw [← erev]; exact (revOf_eq hy).symm
        have hYe : sg.2 = [] := by
          by_contra hne2
          exact (hY1 hne2).1 hcmp
        refine fin y af ?_ haf h
        rw [hYe, ey, List.append_nil, List.getLast?_append, hPl]
        rfl
      · rename_i hcmp
        simp only [Option.some_bind, Option.bind_eq_some] at h
        obtain ⟨af, haf, h⟩ := h
        have hYe : sg.2 ≠ [] := fun e => hcmp (hY0 e)
        refine fin ls af ?_ haf h
        rw [List.getLast?_append, (hY1 hYe).2]
        rfl

end NetSimplex

/-! ## Chains and insertion -/

/-- Along a chain of pointers on a list without repetitions the pointer is one-to-one and
leads into the tail. -/
theorem chain_inj {f : Int → Int} : ∀ (M : List Int), List.Chain' (fun x y => f x = y) M →
    M.tail.Nodup → (∀ x ∈ M.dropLast, f x ∈ M.tail) ∧
    (∀ x1 ∈ M.dropLast, ∀ x2 ∈ M.dropLast, f x1 = f x2 → x1 = x2) := by
  intro M
  induction M with
  | nil => intro _ _; exact ⟨fun x hx => by simp at hx, fun x hx => by simp at hx⟩
  | cons a L ih =>
    intro hc nd
    cases L with
    | nil => exact ⟨fun x hx => by simp at hx, fun x hx => by simp at hx⟩
    | cons b L2 =>
      obtain ⟨h1, h2⟩ := List.chain'_cons.1 hc
      have nd' : (b :: L2).Nodup := nd
      obtain ⟨i1, i2⟩ := ih h2 (List.nodup_cons.1 nd').2
      have hd : (a :: b :: L2).dropLast = a :: (b :: L2).dropLast := rfl
      have ht : (b :: L2).tail = L2 := rfl
      constructor
      · intro x hx
        rw [hd] at hx
        rcases List.mem_cons.1 hx with e | m
        · rw [e, h1]; exact List.mem_cons_self _ _
        · exact List.mem_cons_of_mem _ (i1 x m)
      · intro x1 hx1 x2 hx2 e
        rw [hd] at hx1 hx2
        rcases List.mem_cons.1 hx1 with e1 | m1 <;> rcases List.mem_cons.1 hx2 with e2 | m2
        · rw [e1, e2]
        · exfalso
          have := i1 x2 m2
          rw [← e, e1, h1] at this
          exact (List.nodup_cons.1 nd').1 this
        · exfalso
          have := i1 x1 m1
          rw [e, e2, h1] at this
          exact (List.nodup_cons.1 nd').1 this
        · exact i2 x1 m1 x2 m2 e

namespace NetSimplex

theorem insAfter_head (v : Int) (X : List Int) (L : List Int) :
    (insAfter v X L).head? = L.head? := by
  cases L with
  | nil => rfl
  | cons a L =>
    unfold insAfter
    split <;> rfl

theorem mem_insAfter {v : Int} {X : List Int} : ∀ (L : List Int), v ∈ L →
    ∀ x, x ∈ insAfter v X L ↔ x ∈ L ∨ x ∈ X := by
  intro L
  induction L with
  | nil => intro h; simp at h
  | cons a L ih =>
    intro hv x
    unfold insAfter
    split
    · simp only [List.mem_cons, List.mem_append]
      tauto
    · rename_i hne
      have hv' : v ∈ L := by
        rcases List.mem_cons.1 hv with e | m
        · exact absurd e.symm hne
        · exact m
      simp only [List.mem_cons, ih hv' x]
      tauto

theorem insAfter_perm {v : Int} {X : List Int} : ∀ (L : List Int), v ∈ L →
    (insAfter v X L).Perm (X ++ L) := by
  intro L
  induction L with
  | nil => intro h; simp at h
  | cons a L ih =>
    intro hv
    unfold insAfter
    split
    · exact (@List.perm_middle Int a X L).symm
    · rename_i hne
      have hv' : v ∈ L := by
        rcases List.mem_cons.1 hv with e | m
        · exact absurd e.symm hne
        · exact m
      exact ((ih hv').cons a).trans (@List.perm_middle Int a X L).symm

/-- A chain on `L ++ [e]` becomes a chain on the list with `X` inserted after `v` when the
new relation holds through `v` and `X` up to the old successor of `v`, and holds wherever
the old one does away from `v`. -/
theorem ins_chain {S0 S : Int → Int → Prop} {v e : Int} {X : List Int} :
    ∀ (L : List Int), List.Chain' S0 (L ++ [e]) → v ∈ L → L.Nodup →
    (∀ t, S0 v t → List.Chain' S (v :: X ++ [t])) →
    (∀ x y, S0 x y → x ≠ v → S x y) →
    List.Chain' S (insAfter v X L ++ [e]) := by
  intro L
  induction L with
  | nil => intro _ h; simp at h
  | cons a L ih =>
    intro hc hv nd hX hk
    obtain ⟨h, tl, eh⟩ : ∃ h tl, L ++ [e] = h :: tl := by
      cases L with
      | nil => exact ⟨e, [], rfl⟩
      | cons b L2 => exact ⟨b, L2 ++ [e], rfl⟩
    have hc' : List.Chain' S0 (a :: (L ++ [e])) := hc
    rw [eh] at hc'
    obtain ⟨h1, h2⟩ := List.chain'_cons.1 hc'
    unfold insAfter
    split
    · rename_i hav
      rw [hav] at h1
      have c1 := hX h h1
      have c2 : List.Chain' S (h :: tl) := by
        refine chain_imp_mem _ h2 ?_
        intro x y hx _ hxy
        refine hk x y hxy ?_
        intro ex
        have hxL : x ∈ L := by
          have : x ∈ (L ++ [e]).dropLast := by rw [eh]; exact hx
          rw [List.dropLast_concat] at this
          exact this
        rw [ex, ← hav] at hxL
        exact (List.nodup_cons.1 nd).1 hxL
      have c3 : List.Chain' S ((v :: X) ++ [h]) := c1
      have c4 := @List.Chain'.append_overlap Int _ (v :: X) [h] tl c3 c2 (by simp)
      rw [hav]
      have e5 : v :: (X ++ L) ++ [e] = (v :: X) ++ [h] ++ tl := by
        have : v :: (X ++ L) ++ [e] = (v :: X) ++ (L ++ [e]) := by simp
        rw [this, eh]
        simp
      rw [e5]
      exact c4
    · rename_i hav
      have hv' : v ∈ L := by
        rcases List.mem_cons.1 hv with e' | m
        · exact absurd e'.symm hav
        · exact m
      have c := ih (by rw [eh]; exact h2) hv' (List.nodup_cons.1 nd).2 hX hk
      have hh : (insAfter v X L ++ [e]).head? = some h := by
        have e1 : (insAfter v X L ++ [e]).head? = (L ++ [e]).head? := by
          cases L with
          | nil => simp at hv'
          | cons b L2 =>
            have := insAfter_head v X (b :: L2)
            cases e2 : insAfter v X (b :: L2) with
            | nil => rw [e2] at this; simp at this
            | cons c0 l0 =>
              rw [e2] at this
              simpa using this
        rw [e1, eh]
        rfl
      obtain ⟨tl2, e2⟩ := List.head?_eq_some_iff.1 hh
      show List.Chain' S (a :: (insAfter v X L ++ [e]))
      rw [e2] at c ⊢
      exact List.chain'_cons.2 ⟨hk a h h1 (fun e' => hav e'), c⟩

/-- The loop over `_dirty_revs` sets the reverse pointers after the nodes of the list and no
others, provided `_thread` is one-to-one on the list. -/
theorem dirtyLoop_rev : ∀ (us : List Int) (a b : NetSimplex), dirtyLoop us a = some b →
    (∀ u1 ∈ us, ∀ u2 ∈ us, a.thr u1 = a.thr u2 → u1 = u2) →
    Writes [Fld.rev_thread] a b ∧ (∀ u ∈ us, b.revOf (a.thr u) = u) ∧
    (∀ y, (∀ u ∈ us, y ≠ a.thr u) → b.revOf y = a.revOf y) := by
  intro us
  induction us with
  | nil =>
    intro a b h _
    simp only [dirtyLoop, Option.some.injEq] at h
    subst h
    exact ⟨Writes.idle _ _, fun u hu => by simp at hu, fun y _ => rfl⟩
  | cons u us ih =>
    intro a b h hinj
    simp only [dirtyLoop, Option.bind_eq_bind, Option.bind_eq_some] at h
    obtain ⟨t, ht, n1, h1, h⟩ := h
    have k1 : Writes [Fld.rev_thread] a n1 := set_rev_thread_writes h1 (by decide)
    have et : ∀ x, n1.thr x = a.thr x := thr_congr (k1.vec Fld.thread (by decide))
    have etu : a.thr u = t := thr_eq ht
    obtain ⟨w, i1, i2⟩ := ih n1 b h (by
      intro u1 h1' u2 h2' e
      rw [et, et] at e
      exact hinj u1 (List.mem_cons_of_mem _ h1') u2 (List.mem_cons_of_mem _ h2') e)
    refine ⟨k1.follow w, ?_, ?_⟩
    · intro x hx
      rcases List.mem_cons.1 hx with e | m
      · by_cases hc : ∃ u' ∈ us, a.thr u' = a.thr x
        · obtain ⟨u', hu', e'⟩ := hc
          have := hinj u' (List.mem_cons_of_mem _ hu') x hx e'
          rw [← this, ← et u']
          exact i1 u' hu'
        · rw [i2 (a.thr x) (fun u' hu' e' => hc ⟨u', hu', by rw [← et u']; exact e'.symm⟩),
            revOf_set h1, e, etu, if_pos rfl]
      · rw [← et x]
        exact i1 x m
    · intro y hy
      rw [i2 y (fun u' hu' => by rw [et]; exact hy u' (List.mem_cons_of_mem _ hu')),
        revOf_set h1, if_neg (by rw [← etu]; exact hy u (List.mem_cons_self _ _))]

/-- Once `_thread` is a chain on a list without repetitions, reverse pointers that are right
except after the nodes of `D` are right everywhere after the loop over `D`. -/
theorem chain_fix {f r r' : Int → Int} {D M : List Int}
    (hc : List.Chain' (fun x y => f x = y ∧ (r y = x ∨ x ∈ D)) M) (nd : M.tail.Nodup)
    (hD : ∀ u ∈ D, u ∈ M.dropLast) (h1 : ∀ u ∈ D, r' (f u) = u)
    (h2 : ∀ y, (∀ u ∈ D, y ≠ f u) → r' y = r y) :
    List.Chain' (fun x y => f x = y ∧ r' y = x) M := by
  have hc0 : List.Chain' (fun x y => f x = y) M := hc.imp (fun _ _ h => h.1)
  obtain ⟨_, inj⟩ := chain_inj M hc0 nd
  refine chain_imp_mem _ hc ?_
  intro x y hx _ hxy
  refine ⟨hxy.1, ?_⟩
  by_cases hxD : x ∈ D
  · rw [← hxy.1]
    exact h1 x hxD
  · rcases hxy.2 with q | q
    · rw [h2 y ?_]
      · exact q
      · intro u hu e
        rw [← hxy.1] at e
        exact hxD (by rw [inj x hx u (hD u hu) e]; exact hu)
    · exact absurd q hxD

theorem chain_next {R : Int → Int → Prop} : ∀ (L : List Int) (e : Int),
    List.Chain' R (L ++ [e]) → ∀ x ∈ L, ∃ y, R x y := by
  intro L
  induction L with
  | nil => intro e _ x hx; simp at hx
  | cons a L ih =>
    intro e hc x hx
    obtain ⟨h, tl, eh⟩ : ∃ h tl, L ++ [e] = h :: tl := by
      cases L with
      | nil => exact ⟨e, [], rfl⟩
      | cons b L2 => exact ⟨b, L2 ++ [e], rfl⟩
    have hc' : List.Chain' R (a :: (L ++ [e])) := hc
    rcases List.mem_cons.1 hx with e1 | m
    · rw [eh] at hc'
      rw [e1]
      exact ⟨h, (List.chain'_cons.1 hc').1⟩
    · exact ih e hc'.tail x m

theorem chain_prev {R : Int → Int → Prop} : ∀ (L : List Int) (a : Int),
    List.Chain' R (a :: L) → ∀ y ∈ L, ∃ x ∈ a :: L, R x y := by
  intro L
  induction L with
  | nil => intro a _ y hy; simp at hy
  | cons b L ih =>
    intro a hc y hy
    obtain ⟨h1, h2⟩ := List.chain'_cons.1 hc
    rcases List.mem_cons.1 hy with e1 | m
    · rw [e1]
      exact ⟨a, List.mem_cons_self _ _, h1⟩
    · obtain ⟨x, hx, hr⟩ := ih b h2 y m
      exact ⟨x, List.mem_cons_of_mem _ hx, hr⟩

theorem dropLast_ne_last {l : List Int} {x z : Int} (nd : l.Nodup) (hz : l.getLast? = some z)
    (hx : x ∈ l.dropLast) : x ≠ z := by
  obtain ⟨l0, rfl⟩ := List.getLast?_eq_some_iff.1 hz
  rw [List.dropLast_concat] at hx
  intro e
  rw [e] at hx
  exact (List.nodup_append.1 nd).2.2 hx (by simp)

end NetSimplex

/-! ## Splicing the new block into the order -/

namespace NetSimplex

set_option maxHeartbeats 2000000 in
/-- The new thread order as a chain: the old order is `pre ++ (uo :: blk) ++ post`, closed by
`e`; the block `uo :: blk` is taken out and the re-ordered block `B'` is put in after `vin`.
The new pointers `g`, `s` are those after the stem loop, `g1`, `s1`, with the last node of
`B'` leading to `tc` and the node before the old block leading to the node after it. -/
theorem splice_chain {f r g1 s1 g s : Int → Int} {pre blk post B' D : List Int}
    {uo vin ort ols Lk ak tc e : Int}
    (nd : (pre ++ (uo :: blk) ++ post).Nodup)
    (hc : List.Chain' (fun x y => f x = y ∧ r y = x) ((pre ++ (uo :: blk) ++ post) ++ [e]))
    (hort : pre.getLast? = some ort) (hols : (uo :: blk).getLast? = some ols)
    (he : e ∉ uo :: blk) (hv : vin ∈ pre ++ post)
    (hperm : B'.Perm (uo :: blk)) (hLk : B'.getLast? = some Lk)
    (hak : (post ++ [e]).head? = some ak)
    (htc : tc = if ort = vin then f ols else f vin)
    (hL1 : List.Chain' (fun x y => g1 x = y ∧ (s1 y = x ∨ x ∈ D)) (vin :: B'))
    (hL3 : ∀ x, x ≠ vin → x ∉ B' → g1 x = f x)
    (hL4 : ∀ y, y ∉ B' → y ≠ ak → s1 y = r y)
    (hg : ∀ x, g x = if ort ≠ vin ∧ x = ort then ak else if x = Lk then tc else g1 x)
    (hs : ∀ y, s y = if ort ≠ vin ∧ y = ak then ort else if y = tc then Lk else s1 y) :
    List.Chain' (fun x y => g x = y ∧ (s y = x ∨ x ∈ D))
      (insAfter vin B' (pre ++ post) ++ [e]) := by
  have nd1 := List.nodup_append.1 nd
  have nd2 := List.nodup_append.1 nd1.1
  have djpB : ∀ x, x ∈ pre → x ∈ uo :: blk → False := fun x h1 h2 => nd2.2.2 h1 h2
  have djBp : ∀ x, x ∈ uo :: blk → x ∈ post → False := fun x h1 h2 =>
    nd1.2.2 (List.mem_append_right _ h1) h2
  have djpp : ∀ x, x ∈ pre → x ∈ post → False := fun x h1 h2 =>
    nd1.2.2 (List.mem_append_left _ h1) h2
  have hB : ∀ x, x ∈ B' ↔ x ∈ uo :: blk := fun x => hperm.mem_iff
  have vinB : vin ∉ uo :: blk := by
    intro m
    rcases List.mem_append.1 hv with g1 | g1
    · exact djpB _ g1 m
    · exact djBp _ m g1
  obtain ⟨tl, etl⟩ := List.head?_eq_some_iff.1 hak
  have hc1 : List.Chain' (fun x y => f x = y ∧ r y = x)
      (pre ++ ((uo :: blk) ++ (post ++ [e]))) := by
    simpa [List.append_assoc] using hc
  have cpre := hc1.left_of_append
  have cB := hc1.right_of_append.left_of_append
  have cpost := hc1.right_of_append.right_of_append
  have pair_ols : f ols = ak ∧ r ak = ols := by
    have hc2 : List.Chain' (fun x y => f x = y ∧ r y = x)
        ((pre ++ (uo :: blk)) ++ ak :: tl) := by
      rw [← etl]
      simpa [List.append_assoc] using hc
    exact chain_at hc2 (by rw [List.getLast?_append, hols]; rfl)
  have pair_ort : f ort = uo ∧ r uo = ort := by
    have hc2 : List.Chain' (fun x y => f x = y ∧ r y = x)
        (pre ++ uo :: (blk ++ (post ++ [e]))) := by
      simpa [List.append_assoc] using hc
    exact chain_at hc2 hort
  have ortpre : ort ∈ pre := mem_of_getLast hort
  have olsB : ols ∈ uo :: blk := mem_of_getLast hols
  have LkB : Lk ∈ uo :: blk := (hB Lk).1 (mem_of_getLast hLk)
  have akB : ak ∉ uo :: blk := by
    intro m
    have : ak ∈ post ++ [e] := mem_of_head hak
    rcases List.mem_append.1 this with g1 | g1
    · exact djBp _ m g1
    · have : ak = e := by simpa using g1
      rw [this] at m
      exact he m
  have allnext : ∀ x ∈ pre ++ (uo :: blk) ++ post, r (f x) = x := by
    intro x hx
    obtain ⟨y, h1, h2⟩ := chain_next _ e hc x hx
    rw [h1, h2]
  have prevB : ∀ y ∈ blk, r y ∈ uo :: blk := by
    intro y hy
    obtain ⟨x, hx, _, h2⟩ := chain_prev blk uo cB y hy
    rw [h2]
    exact hx
  have vinT : vin ∈ pre ++ (uo :: blk) ++ post := by
    rcases List.mem_append.1 hv with g1 | g1
    · exact List.mem_append_left _ (List.mem_append_left _ g1)
    · exact List.mem_append_right _ g1
  have tcB : tc ∉ uo :: blk := by
    intro m
    by_cases hov : ort = vin
    · rw [htc, if_pos hov, pair_ols.1] at m
      exact akB m
    · rw [htc, if_neg hov] at m
      have hr : r (f vin) = vin := allnext vin vinT
      rcases List.mem_cons.1 m with e1 | m1
      · rw [e1, pair_ort.2] at hr
        exact hov hr
      · have := prevB _ m1
        rw [hr] at this
        exact vinB this
  have tcak : ort ≠ vin → tc ≠ ak := by
    intro hov e1
    rw [htc, if_neg hov] at e1
    have hr : r (f vin) = vin := allnext vin vinT
    rw [e1, pair_ols.2] at hr
    rw [← hr] at vinB
    exact vinB olsB
  have ortB : ort ∉ uo :: blk := fun m => djpB _ ortpre m
  -- the chain through `vin` and the new block
  have ndB' : (vin :: B').Nodup := by
    refine List.nodup_cons.2 ⟨fun m => vinB ((hB vin).1 m), ?_⟩
    exact hperm.nodup_iff.2 nd2.2.1
  have hLv : (vin :: B').getLast? = some Lk := by
    cases e1 : B' with
    | nil => rw [e1] at hLk; simp at hLk
    | cons y l =>
      rw [e1] at hLk
      rw [List.getLast?_cons_cons]
      exact hLk
  have F1 : List.Chain' (fun x y => g x = y ∧ (s y = x ∨ x ∈ D)) ((vin :: B') ++ [tc]) := by
    refine List.chain'_append.2 ⟨?_, List.chain'_singleton _, ?_⟩
    · refine chain_imp_mem _ hL1 ?_
      intro x y hx hy hxy
      have hy' : y ∈ B' := hy
      have hxl : x ≠ Lk := dropLast_ne_last ndB' hLv hx
      have hxo : ¬ (ort ≠ vin ∧ x = ort) := by
        rintro ⟨h1, h2⟩
        have hx' : x ∈ vin :: B' := List.mem_of_mem_dropLast hx
        rcases List.mem_cons.1 hx' with e1 | m1
        · exact h1 (h2.symm.trans e1)
        · rw [h2] at m1
          exact ortB ((hB _).1 m1)
      have hya : ¬ (ort ≠ vin ∧ y = ak) := by
        rintro ⟨_, h2⟩
        rw [h2] at hy'
        exact akB ((hB _).1 hy')
      have hyt : y ≠ tc := by
        intro h2
        rw [h2] at hy'
        exact tcB ((hB _).1 hy')
      rw [hg x, if_neg hxo, if_neg hxl, hs y, if_neg hya, if_neg hyt]
      exact hxy
    · intro x hx y hy
      have ex : x = Lk := by
        rw [hLv] at hx
        exact (Option.mem_some_iff.1 hx).symm
      have ey : y = tc := by simpa using hy.symm
      rw [ex, ey]
      have hxo : ¬ (ort ≠ vin ∧ Lk = ort) := by
        rintro ⟨_, h2⟩
        rw [h2] at LkB
        exact ortB LkB
      have hya : ¬ (ort ≠ vin ∧ tc = ak) := fun ⟨h1, h2⟩ => tcak h1 h2
      refine ⟨by rw [hg, if_neg hxo, if_pos rfl], Or.inl ?_⟩
      rw [hs, if_neg hya, if_pos rfl]
  -- the chain on the rest of the old order
  have keep : ∀ x y, f x = y → r y = x → x ∈ pre ++ post → x ≠ ort → y ∉ uo :: blk →
      (x = vin → y = tc) ∧ (x ≠ vin → g x = y ∧ (s y = x ∨ x ∈ D)) := by
    intro x y hxy hyx hx hxo hyB
    have hxB : x ∉ uo :: blk := by
      intro m
      rcases List.mem_append.1 hx with g1 | g1
      · exact djpB _ g1 m
      · exact djBp _ m g1
    constructor
    · intro e1
      have : ort ≠ vin := fun e2 => hxo (e1.trans e2.symm)
      rw [htc, if_neg this, ← e1, hxy]
    · intro hxv
      have hya : y ≠ ak := by
        intro e1
        rw [e1, pair_ols.2] at hyx
        rw [← hyx] at hxB
        exact hxB olsB
      have hyt : y ≠ tc := by
        intro e1
        by_cases hov : ort = vin
        · rw [htc, if_pos hov, pair_ols.1] at e1
          exact hya e1
        · have hr : r (f vin) = vin := allnext vin vinT
          rw [htc, if_neg hov] at e1
          rw [e1, hr] at hyx
          exact hxv hyx.symm
      have hxl : x ≠ Lk := fun e1 => hxB (by rw [e1]; exact LkB)
      refine ⟨?_, Or.inl ?_⟩
      · rw [hg, if_neg (fun h => hxo h.2), if_neg hxl,
          hL3 x hxv (fun m => hxB ((hB _).1 m)), hxy]
      · rw [hs, if_neg (fun h => hya h.2), if_neg hyt,
          hL4 y (fun m => hyB ((hB _).1 m)) hya, hyx]
  have S0 : List.Chain' (fun x y => (x = vin → y = tc) ∧
      (x ≠ vin → g x = y ∧ (s y = x ∨ x ∈ D))) ((pre ++ post) ++ [e]) := by
    rw [List.append_assoc]
    refine List.chain'_append.2 ⟨?_, ?_, ?_⟩
    · refine chain_imp_mem _ cpre ?_
      intro x y hx hy hxy
      have hy' : y ∈ pre := List.mem_of_mem_tail hy
      exact keep x y hxy.1 hxy.2 (List.mem_append_left _ (List.mem_of_mem_dropLast hx))
        (dropLast_ne_last nd2.1 hort hx) (fun m => djpB _ hy' m)
    · refine chain_imp_mem _ cpost ?_
      intro x y hx hy hxy
      rw [List.dropLast_concat] at hx
      have hy' : y ∈ post ++ [e] := List.mem_of_mem_tail hy
      refine keep x y hxy.1 hxy.2 (List.mem_append_right _ hx)
        (fun e1 => djpp x (by rw [e1]; exact ortpre) hx) ?_
      intro m
      rcases List.mem_append.1 hy' with g1 | g1
      · exact djBp _ m g1
      · have : y = e := by simpa using g1
        rw [this] at m
        exact he m
    · intro x hx y hy
      have ex : x = ort := by
        rw [hort] at hx
        exact (Option.mem_some_iff.1 hx).symm
      have ey : y = ak := by
        rw [hak] at hy
        exact (Option.mem_some_iff.1 hy).symm
      rw [ex, ey]
      constructor
      · intro e1
        rw [htc, if_pos e1, pair_ols.1]
      · intro hov
        refine ⟨by rw [hg, if_pos ⟨hov, rfl⟩], Or.inl ?_⟩
        rw [hs, if_pos ⟨hov, rfl⟩]
  have ndL : (pre ++ post).Nodup := by
    rw [List.nodup_append]
    exact ⟨nd2.1, nd1.2.1, fun x h1 h2 => djpp x h1 h2⟩
  refine ins_chain (pre ++ post) S0 hv ndL ?_ ?_
  · intro t ht
    rw [ht.1 rfl]
    exact F1
  · intro x y hxy hxv
    exact hxy.2 hxv

end NetSimplex

/-! ## The thread after the stem loop -/

namespace NetSimplex

theorem stemNew_head : ∀ (segs : List (List Int × List Int)) (N : List Int) (a : Int),
    N.head? = some a → (stemNew N segs).head? = some a := by
  intro segs
  induction segs with
  | nil => intro N a h; exact h
  | cons sg rest ih =>
    intro N a h
    refine ih _ a ?_
    obtain ⟨tl, e⟩ := List.head?_eq_some_iff.1 h
    rw [e]
    rfl

theorem Threaded.root_off {o : NetSimplex} {n m : Nat} {T : List Int} (ht : Threaded o n m T)
    {u : Int} (h0 : 0 ≤ u) (hn : u < n) : ¬ o.Anc u n := fun h => by
  have := ht.tree.anc_root h0 h
  omega

set_option maxHeartbeats 4000000 in
/-- The thread part of the tree update for a stem of more than one node: the old block of
`u_out` is taken out of the thread order and the re-ordered block, which starts with `u_in`,
is put in after `v_in`; `_thread` follows the new order and `_rev_thread` leads back except
after the nodes of the dirty list. -/
theorem updateTreeStemThread_chain {o b : NetSimplex} {n m : Nat} {T l : List Int}
    {ort ols : Int} {d : List Int} (ht : Threaded o n m T) (hw : Walk o o.u_out o.u_in l)
    (hl : ∀ y ∈ l ++ [o.u_out], 0 ≤ y ∧ y < n ∧ ¬ o.Anc y o.v_in)
    (hv : 0 ≤ o.v_in ∧ o.v_in ≤ n)
    (hort : ort = o.revOf o.u_out) (hols : ols = o.lastOf o.u_out)
    (h : updateTreeStemThread o ort ols = some (b, d)) :
    ∃ pre blk post B', T = pre ++ (o.u_out :: blk) ++ post ∧
      (∀ w, w ∈ o.u_out :: blk ↔ o.Anc o.u_out w) ∧
      B'.Perm (o.u_out :: blk) ∧ B'.head? = some o.u_in ∧
      B'.getLast? = some (b.lastOf o.u_out) ∧
      List.Chain' (fun x y => b.thr x = y ∧ (b.revOf y = x ∨ x ∈ d))
        (insAfter o.v_in B' (pre ++ post) ++ [(n : Int)]) ∧
      (∀ u ∈ d, u = o.v_in ∨ u ∈ B') ∧
      Writes [Fld.thread, Fld.rev_thread, Fld.parent, Fld.last_succ] o b ∧
      (∀ x, x ≠ o.u_out → b.lastOf x = o.lastOf x) ∧ Reordered o blk B' := by
  have huin := hl o.u_in (Walk.start_mem hw)
  have huo := hl o.u_out (by simp)
  obtain ⟨pre0, blk0, post0, hT0, hm0, _, hlast0⟩ := ht.blocks o.u_in huin.1 (le_of_lt huin.2.1)
  obtain ⟨segs, Z, pre', post', q1, q2, q3, q4, q5, q6, q7, q9, q8⟩ :=
    ht.stem_facts l o.u_in pre0 blk0 post0 hw hl hT0 hm0 hlast0
  obtain ⟨blk, eB⟩ := List.head?_eq_some_iff.1 q3
  rw [eB] at q1 q2 q4
  have hlk := ht.link
  obtain ⟨hk, ehk, _, _⟩ := head_append_one post' (n : Int)
  have eZ : Z = [hk] := by rw [q5, ehk]; rfl
  have hZ : Z ≠ [] := by rw [eZ]; simp
  have vinB0 : o.v_in ∉ o.u_in :: blk0 := fun m => huin.2.2 ((hm0 _).1 m)
  have vinB : o.v_in ∉ o.u_out :: blk := fun m => huo.2.2 ((q2 _).1 m)
  unfold updateTreeStemThread at h
  split at h
  all_goals
    rename_i hov
    simp only [Option.bind_eq_bind, Option.bind_eq_some] at h
    obtain ⟨tc, htc, last, hlast, af, haf, n1, h1, ⟨r1, r2⟩, hr, n2, h2, n3, h3, n4, h4, n5, h5,
      h⟩ := h
    have etc : tc = if ort = o.v_in then o.thr ols else o.thr o.v_in := by
      first
        | rw [if_pos hov]; exact (thr_eq htc).symm
        | rw [if_neg hov]; exact (thr_eq htc).symm
    have k1 : Writes [Fld.thread] o n1 := set_thread_writes h1 (by decide)
    have elast : o.lastOf o.u_in = last := lastOf_eq hlast
    have eaf : o.thr last = af := thr_eq haf
    rw [elast] at hlast0
    have lastB0 : last ∈ o.u_in :: blk0 := mem_of_getLast hlast0
    have hlv : last ≠ o.v_in := fun e => vinB0 (by rw [← e]; exact lastB0)
    -- the chain of the old order at the block of `u_in`
    have hlk0 : List.Chain' (fun a b => o.thr a = b ∧ o.revOf b = a)
        (pre0 ++ ((o.u_in :: blk0) ++ (post0 ++ [(n : Int)]))) := by
      rw [hT0] at hlk
      simpa [List.append_assoc] using hlk
    obtain ⟨h0, eh0, _, _⟩ := head_append_one post0 (n : Int)
    obtain ⟨tl0, etl0⟩ := List.head?_eq_some_iff.1 eh0
    have eaf0 : h0 = af := by
      have c := hlk0.right_of_append
      rw [etl0] at c
      have := (chain_at c hlast0).1
      rw [← this, eaf]
    have n1thr : ∀ x, n1.thr x = if x = o.v_in then o.u_in else o.thr x := thr_set h1
    have hst := stemLoop_thread o o.v_in o.u_out Z hZ segs _ n1
      ⟨n1.u_in, n1.v_in, last, af, [n1.v_in]⟩ r1 r2 (o.u_in :: blk0) (o.u_in :: blk0)
      (by rw [k1.eq_u_in]; exact q8) k1.eq_u_out (List.Perm.refl _) hlast0
      (by rw [q6, eh0, eaf0])
      (by
        refine List.chain'_cons.2 ⟨⟨by rw [n1thr, if_pos rfl], Or.inr (by rw [k1.eq_v_in]; simp)⟩, ?_⟩
        refine chain_imp_mem _ hlk0.right_of_append.left_of_append ?_
        intro x y hx _ hxy
        have hxv : x ≠ o.v_in := fun e =>
          vinB0 (by rw [← e]; exact List.mem_of_mem_dropLast hx)
        refine ⟨by rw [n1thr, if_neg hxv]; exact hxy.1, Or.inl ?_⟩
        rw [revOf_congr (k1.vec Fld.rev_thread (by decide))]
        exact hxy.2)
      (by rw [n1thr, if_neg hlv]; exact eaf)
      (fun x hxv _ => by rw [n1thr, if_neg hxv])
      (fun y _ _ => revOf_congr (k1.vec Fld.rev_thread (by decide)) y)
      (fun x _ => ⟨par_congr (k1.vec Fld.parent (by decide)) x,
        revOf_congr (k1.vec Fld.rev_thread (by decide)) x⟩)
      (k1.vec Fld.last_succ (by decide))
      (by
        have := hr
        rw [k1.loopBound] at this
        exact this)
    obtain ⟨s1, s2, s3, s4, s5, s6, s7, s8, s9⟩ := hst
    rw [eB] at s8
    have kr : Writes [Fld.thread, Fld.rev_thread, Fld.parent] n1 r1 :=
      stemLoop_writes _ _ _ _ _ hr
    have k2 : Writes [Fld.parent] r1 n2 := set_parent_writes h2 (by decide)
    have k3 : Writes [Fld.thread] n2 n3 := set_thread_writes h3 (by decide)
    have k4 : Writes [Fld.rev_thread] n3 n4 := set_rev_thread_writes h4 (by decide)
    have k5 : Writes [Fld.last_succ] n4 n5 := set_last_succ_writes h5 (by decide)
    have k05 : Writes [Fld.thread, Fld.rev_thread, Fld.parent, Fld.last_succ] o n5 :=
      (((((k1.wider (by decide)).follow (kr.wider (by decide))).follow
        (k2.wider (by decide))).follow (k3.wider (by decide))).follow
        (k4.wider (by decide))).follow (k5.wider (by decide))
    have k15 : Writes [Fld.thread, Fld.rev_thread, Fld.parent] o n4 :=
      ((((k1.wider (by decide)).follow kr).follow
        (k2.wider (by decide))).follow (k3.wider (by decide))).follow
        (k4.wider (by decide))
    have n5thr : ∀ x, n5.thr x = if x = r2.last then tc else r1.thr x := by
      intro x
      rw [thr_congr (k5.vec Fld.thread (by decide)), thr_congr (k4.vec Fld.thread (by decide)),
        thr_set h3, thr_congr (k2.vec Fld.thread (by decide))]
    have n5rev : ∀ y, n5.revOf y = if y = tc then r2.last else r1.revOf y := by
      intro y
      rw [revOf_congr (k5.vec Fld.rev_thread (by decide)), revOf_set h4,
        revOf_congr (k3.vec Fld.rev_thread (by decide)),
        revOf_congr (k2.vec Fld.rev_thread (by decide))]
    have n5last : ∀ x, n5.lastOf x = if x = o.u_out then r2.last else o.lastOf x := by
      intro x
      rw [lastOf_set h5, k15.eq_u_out, lastOf_congr (k15.vec Fld.last_succ (by decide))]
    -- the old order around the block of `u_out`
    have hpre : ∃ la, pre'.getLast? = some la := by
      cases e : pre'.getLast? with
      | some la => exact ⟨la, rfl⟩
      | none =>
        exfalso
        rw [List.getLast?_eq_none_iff] at e
        have hh := ht.head
        rw [q1, e] at hh
        have : o.u_out = n := by simpa using hh
        have := huo.2.1
        omega
    obtain ⟨la, hla⟩ := hpre
    have hlk1 : List.Chain' (fun a b => o.thr a = b ∧ o.revOf b = a)
        (pre' ++ o.u_out :: (blk ++ (post' ++ [(n : Int)]))) := by
      rw [q1] at hlk
      simpa [List.append_assoc] using hlk
    have eort : la = ort := by rw [hort, (chain_at hlk1 hla).2]
    rw [eort] at hla
    have hak : (post' ++ [(n : Int)]).head? = some r2.after := by
      rw [ehk]
      rw [eZ] at s3
      simpa using s3
    have fin : ∀ c : NetSimplex,
        (∀ x, c.thr x = if ort ≠ o.v_in ∧ x = ort then r2.after
          else if x = r2.last then tc else r1.thr x) →
        (∀ y, c.revOf y = if ort ≠ o.v_in ∧ y = r2.after then ort
          else if y = tc then r2.last else r1.revOf y) →
        Writes [Fld.thread, Fld.rev_thread, Fld.parent, Fld.last_succ] o c →
        c.last_succ = n5.last_succ →
        ∃ pre blk post B', T = pre ++ (o.u_out :: blk) ++ post ∧
          (∀ w, w ∈ o.u_out :: blk ↔ o.Anc o.u_out w) ∧
          B'.Perm (o.u_out :: blk) ∧ B'.head? = some o.u_in ∧
          B'.getLast? = some (c.lastOf o.u_out) ∧
          List.Chain' (fun x y => c.thr x = y ∧ (c.revOf y = x ∨ x ∈ r2.dirty_revs))
            (insAfter o.v_in B' (pre ++ post) ++ [(n : Int)]) ∧
          (∀ u ∈ r2.dirty_revs, u = o.v_in ∨ u ∈ B') ∧
          Writes [Fld.thread, Fld.rev_thread, Fld.parent, Fld.last_succ] o c ∧
          (∀ x, x ≠ o.u_out → c.lastOf x = o.lastOf x) ∧ Reordered o blk B' := by
      intro c hg hs kc ecl
      refine ⟨pre', blk, post', stemNew (o.u_in :: blk0) segs, q1, q2, s8,
        stemNew_head _ _ _ rfl, ?_, ?_, ?_, kc, ?_,
        ⟨o.u_in :: blk0, segs, rfl, eB.symm, rfl, hm0, q9⟩⟩
      · rw [lastOf_congr ecl, n5last, if_pos rfl]
        exact s2
      · have ndT := ht.nodup
        rw [q1] at ndT
        rw [q1] at hlk
        refine splice_chain ndT hlk hla (by rw [hols]; exact q4)
          (fun m => ht.root_off huo.1 huo.2.1 ((q2 _).1 m)) ?_ s8 s2 hak etc s4 s6 s7 hg hs
        have hvT : o.v_in ∈ T := (ht.mem _).2 hv
        rw [q1] at hvT
        rcases List.mem_append.1 hvT with g1 | g1
        · rcases List.mem_append.1 g1 with g2 | g2
          · exact List.mem_append_left _ g2
          · exact absurd g2 vinB
        · exact List.mem_append_right _ g1
      · intro u hu
        rcases s9 u hu with g | g
        · left
          have : u = n1.v_in := by simpa using g
          rw [this, k1.eq_v_in]
        · exact Or.inr g
      · intro x hx
        rw [lastOf_congr ecl, n5last, if_neg hx]
    split at h
    · rename_i hov2
      simp only [Option.bind_eq_some, Option.some.injEq, Prod.mk.injEq] at h
      obtain ⟨n6, h6, n7, h7, rfl, rfl⟩ := h
      have k6 : Writes [Fld.thread] n5 n6 := set_thread_writes h6 (by decide)
      have k7 : Writes [Fld.rev_thread] n6 n7 := set_rev_thread_writes h7 (by decide)
      have hov3 : ort ≠ o.v_in := by
        rw [k05.eq_v_in] at hov2
        exact hov2
      refine fin n7 ?_ ?_
        ((k05.follow (k6.wider (by decide))).follow (k7.wider (by decide)))
        (((k7.vec Fld.last_succ (by decide)).trans (k6.vec Fld.last_succ (by decide))))
      · intro x
        rw [thr_congr (k7.vec Fld.thread (by decide)), thr_set h6, n5thr]
        by_cases hx : x = ort
        · rw [if_pos hx, if_pos ⟨hov3, hx⟩]
        · have hx2 : ¬ (ort ≠ o.v_in ∧ x = ort) := fun hh => hx hh.2
          rw [if_neg hx, if_neg hx2]
      · intro y
        rw [revOf_set h7, revOf_congr (k6.vec Fld.rev_thread (by decide)), n5rev]
        by_cases hy : y = r2.after
        · rw [if_pos hy, if_pos ⟨hov3, hy⟩]
        · have hy2 : ¬ (ort ≠ o.v_in ∧ y = r2.after) := fun hh => hy hh.2
          rw [if_neg hy, if_neg hy2]
    · rename_i hov2
      simp only [Option.some.injEq, Prod.mk.injEq] at h
      obtain ⟨rfl, rfl⟩ := h
      have hov3 : ort = o.v_in := by
        rw [k05.eq_v_in] at hov2
        exact not_not.1 hov2
      refine fin n5 ?_ ?_ k05 rfl
      · intro x
        have hx2 : ¬ (ort ≠ o.v_in ∧ x = ort) := fun hh => hh.1 hov3
        rw [n5thr, if_neg hx2]
      · intro y
        have hy2 : ¬ (ort ≠ o.v_in ∧ y = r2.after) := fun hh => hh.1 hov3
        rw [n5rev, if_neg hy2]

end NetSimplex

/-! ## The links of the new order -/

namespace NetSimplex

/-- The new thread order lists the same nodes once, root first. -/
theorem newOrder_props {T pre blk post B' : List Int} {uo vin : Int} {n : Nat}
    (hT : T = pre ++ (uo :: blk) ++ post) (nd : T.Nodup) (hh : T.head? = some (n : Int))
    (hn : (n : Int) ∉ uo :: blk) (hv : vin ∈ pre ++ post) (hperm : B'.Perm (uo :: blk)) :
    (insAfter vin B' (pre ++ post)).Nodup ∧
    (∀ x, x ∈ insAfter vin B' (pre ++ post) ↔ x ∈ T) ∧
    (insAfter vin B' (pre ++ post)).head? = some (n : Int) := by
  have hp := @insAfter_perm vin B' (pre ++ post) hv
  have hp2 : (B' ++ (pre ++ post)).Perm T := by
    rw [hT]
    have : ((uo :: blk) ++ (pre ++ post)).Perm (pre ++ (uo :: blk) ++ post) := by
      rw [← List.append_assoc]
      exact List.Perm.append_right _ List.perm_append_comm
    exact (List.Perm.append_right _ hperm).trans this
  refine ⟨(hp.trans hp2).nodup_iff.2 nd, fun x => (hp.trans hp2).mem_iff, ?_⟩
  rw [insAfter_head]
  rw [hT] at hh
  cases pre with
  | nil =>
    exfalso
    have : uo = n := by simpa using hh
    exact hn (by rw [← this]; exact List.mem_cons_self _ _)
  | cons a pre2 =>
    have : a = n := by simpa using hh
    rw [this]
    rfl

/-- Where the old thread order leads around the block of `u_out`: the node after the block
and the node after `v_in` are outside the block and, unless `v_in` is threaded just before
the block, differ. -/
theorem splice_facts {f r : Int → Int} {pre blk post : List Int} {uo vin ort ols ak e : Int}
    (nd : (pre ++ (uo :: blk) ++ post).Nodup)
    (hc : List.Chain' (fun x y => f x = y ∧ r y = x) ((pre ++ (uo :: blk) ++ post) ++ [e]))
    (hort : pre.getLast? = some ort) (hols : (uo :: blk).getLast? = some ols)
    (he : e ∉ uo :: blk) (hv : vin ∈ pre ++ post)
    (hak : (post ++ [e]).head? = some ak) :
    f ols = ak ∧ r ak = ols ∧ f ort = uo ∧ r uo = ort ∧ ak ∉ uo :: blk ∧ r (f vin) = vin ∧
    (ort ≠ vin → f vin ∉ uo :: blk ∧ f vin ≠ ak) ∧ vin ∉ uo :: blk ∧ ort ∉ uo :: blk ∧
    (ort = vin ↔ f vin = uo) := by
  have nd1 := List.nodup_append.1 nd
  have nd2 := List.nodup_append.1 nd1.1
  have djpB : ∀ x, x ∈ pre → x ∈ uo :: blk → False := fun x h1 h2 => nd2.2.2 h1 h2
  have djBp : ∀ x, x ∈ uo :: blk → x ∈ post → False := fun x h1 h2 =>
    nd1.2.2 (List.mem_append_right _ h1) h2
  have vinB : vin ∉ uo :: blk := by
    intro m
    rcases List.mem_append.1 hv with g1 | g1
    · exact djpB _ g1 m
    · exact djBp _ m g1
  obtain ⟨tl, etl⟩ := List.head?_eq_some_iff.1 hak
  have hc1 : List.Chain' (fun x y => f x = y ∧ r y = x)
      (pre ++ ((uo :: blk) ++ (post ++ [e]))) := by
    simpa [List.append_assoc] using hc
  have cB := hc1.right_of_append.left_of_append
  have pair_ols : f ols = ak ∧ r ak = ols := by
    have hc2 : List.Chain' (fun x y => f x = y ∧ r y = x)
        ((pre ++ (uo :: blk)) ++ ak :: tl) := by
      rw [← etl]
      simpa [List.append_assoc] using hc
    exact chain_at hc2 (by rw [List.getLast?_append, hols]; rfl)
  have pair_ort : f ort = uo ∧ r uo = ort := by
    have hc2 : List.Chain' (fun x y => f x = y ∧ r y = x)
        (pre ++ uo :: (blk ++ (post ++ [e]))) := by
      simpa [List.append_assoc] using hc
    exact chain_at hc2 hort
  have ortpre : ort ∈ pre := mem_of_getLast hort
  have olsB : ols ∈ uo :: blk := mem_of_getLast hols
  have akB : ak ∉ uo :: blk := by
    intro m
    have : ak ∈ post ++ [e] := mem_of_head hak
    rcases List.mem_append.1 this with g1 | g1
    · exact djBp _ m g1
    · have : ak = e := by simpa using g1
      rw [this] at m
      exact he m
  have vinT : vin ∈ pre ++ (uo :: blk) ++ post := by
    rcases List.mem_append.1 hv with g1 | g1
    · exact List.mem_append_left _ (List.mem_append_left _ g1)
    · exact List.mem_append_right _ g1
  have hr : r (f vin) = vin := by
    obtain ⟨y, h1, h2⟩ := chain_next _ e hc vin vinT
    rw [h1, h2]
  have prevB : ∀ y ∈ blk, r y ∈ uo :: blk := by
    intro y hy
    obtain ⟨x, hx, _, h2⟩ := chain_prev blk uo cB y hy
    rw [h2]
    exact hx
  refine ⟨pair_ols.1, pair_ols.2, pair_ort.1, pair_ort.2, akB, hr, ?_, vinB,
    fun m => djpB _ ortpre m, ?_⟩
  · intro hov
    constructor
    · intro m
      rcases List.mem_cons.1 m with e1 | m1
      · rw [e1, pair_ort.2] at hr
        exact hov hr
      · have := prevB _ m1
        rw [hr] at this
        exact vinB this
    · intro e1
      rw [e1, pair_ols.2] at hr
      rw [← hr] at vinB
      exact vinB olsB
  · constructor
    · intro e1
      rw [← e1]
      exact pair_ort.1
    · intro e1
      rw [e1, pair_ort.2] at hr
      exact hr

/-- A chain of pointers with reverse pointers that are right except after the nodes of the
dirty list becomes a chain in both directions by the loop over the dirty list. -/
theorem dirtyLoop_link {b n1 : NetSimplex} {d T' : List Int} {n : Nat}
    (hc : List.Chain' (fun x y => b.thr x = y ∧ (b.revOf y = x ∨ x ∈ d)) (T' ++ [(n : Int)]))
    (nd : T'.Nodup) (hh : T'.head? = some (n : Int)) (hD : ∀ u ∈ d, u ∈ T')
    (h : dirtyLoop d b = some n1) :
    List.Chain' (fun x y => n1.thr x = y ∧ n1.revOf y = x) (T' ++ [(n : Int)]) := by
  obtain ⟨T2, eT⟩ := List.head?_eq_some_iff.1 hh
  have ndt : (T' ++ [(n : Int)]).tail.Nodup := by
    rw [eT]
    show (T2 ++ [(n : Int)]).Nodup
    rw [eT] at nd
    have := List.nodup_cons.1 nd
    rw [List.nodup_append]
    refine ⟨this.2, List.nodup_singleton _, ?_⟩
    intro x h1 h2
    have : x = n := by simpa using h2
    rw [this] at h1
    exact (List.nodup_cons.1 nd).1 h1
  have hdl : (T' ++ [(n : Int)]).dropLast = T' := List.dropLast_concat
  have c0 : List.Chain' (fun x y => b.thr x = y) (T' ++ [(n : Int)]) :=
    hc.imp (fun _ _ h => h.1)
  obtain ⟨_, inj⟩ := chain_inj _ c0 ndt
  rw [hdl] at inj
  obtain ⟨w, i1, i2⟩ := dirtyLoop_rev d b n1 h
    (fun u1 h1 u2 h2 e => inj u1 (hD u1 h1) u2 (hD u2 h2) e)
  have c1 := chain_fix hc ndt (by rw [hdl]; exact hD) i1 i2
  have et : n1.thr = b.thr := funext (thr_congr (w.vec Fld.thread (by decide)))
  rw [et]
  exact c1

set_option maxHeartbeats 2000000 in
/-- The tree update for a stem of more than one node leaves thread pointers in both
directions along the new order. -/
theorem updateTreeStem_link {o c : NetSimplex} {n m : Nat} {T l : List Int}
    {ort osn ols : Int} (ht : Threaded o n m T) (hw : Walk o o.u_out o.u_in l)
    (hl : ∀ y ∈ l ++ [o.u_out], 0 ≤ y ∧ y < n ∧ ¬ o.Anc y o.v_in)
    (hv : 0 ≤ o.v_in ∧ o.v_in ≤ n)
    (hort : ort = o.revOf o.u_out) (hols : ols = o.lastOf o.u_out)
    (h : updateTreeStem o ort osn ols = some c) :
    ∃ pre blk post B', T = pre ++ (o.u_out :: blk) ++ post ∧
      (∀ w, w ∈ o.u_out :: blk ↔ o.Anc o.u_out w) ∧
      B'.Perm (o.u_out :: blk) ∧ B'.head? = some o.u_in ∧
      List.Chain' (fun x y => c.thr x = y ∧ c.revOf y = x)
        (insAfter o.v_in B' (pre ++ post) ++ [(n : Int)]) := by
  simp only [updateTreeStem, Option.bind_eq_bind, Option.bind_eq_some] at h
  obtain ⟨⟨b, d⟩, hr, h2⟩ := h
  obtain ⟨pre, blk, post, B', e1, e2, e3, e4, _, e6, e7, _, _⟩ :=
    updateTreeStemThread_chain ht hw hl hv hort hols hr
  refine ⟨pre, blk, post, B', e1, e2, e3, e4, ?_⟩
  have huo := hl o.u_out (by simp)
  have hvp : o.v_in ∈ pre ++ post := by
    have hvT : o.v_in ∈ T := (ht.mem _).2 hv
    rw [e1] at hvT
    rcases List.mem_append.1 hvT with g1 | g1
    · rcases List.mem_append.1 g1 with g2 | g2
      · exact List.mem_append_left _ g2
      · exact absurd ((e2 _).1 g2) huo.2.2
    · exact List.mem_append_right _ g1
  obtain ⟨p1, p2, p3⟩ := newOrder_props e1 ht.nodup ht.head
    (fun m => ht.root_off huo.1 huo.2.1 ((e2 _).1 m)) hvp e3
  simp only [updateTreeStemPred, Option.bind_eq_bind, Option.bind_eq_some] at h2
  obtain ⟨n1, h1, ls, _, p, _, n2, hn2, n3, h3, src, _, n4, h4, h5⟩ := h2
  have kc : Writes [Fld.pred, Fld.pred_dir, Fld.succ_num, Fld.last_succ] n1 c :=
    (((stemUpdate_writes _ _ _ _ _ _ _ hn2).follow
      ((set_pred_writes h3 (by decide)))).follow
      (set_pred_dir_writes h4 (by decide))).follow
      (set_succ_num_writes h5 (by decide))
  have c1 := dirtyLoop_link e6 p1 p3 (by
    intro u hu
    rcases e7 u hu with g | g
    · rw [g]
      exact (mem_insAfter _ hvp _).2 (Or.inl hvp)
    · exact (mem_insAfter _ hvp _).2 (Or.inr g)) h1
  have et : c.thr = n1.thr := funext (thr_congr (kc.vec Fld.thread (by decide)))
  have er : c.revOf = n1.revOf := funext (revOf_congr (kc.vec Fld.rev_thread (by decide)))
  rw [et, er]
  exact c1

/-- The node threaded before a block is the last node of the part of the order before it. -/
theorem Threaded.before_block {o : NetSimplex} {n m : Nat} {T pre blk post : List Int}
    {u : Int} (ht : Threaded o n m T) (hT : T = pre ++ (u :: blk) ++ post) (hu : u ≠ n) :
    pre.getLast? = some (o.revOf u) := by
  have hlk := ht.link
  cases e : pre.getLast? with
  | none =>
    exfalso
    rw [List.getLast?_eq_none_iff] at e
    have hh := ht.head
    rw [hT, e] at hh
    exact hu (by simpa using hh)
  | some la =>
    have hlk1 : List.Chain' (fun a b => o.thr a = b ∧ o.revOf b = a)
        (pre ++ u :: (blk ++ (post ++ [(n : Int)]))) := by
      rw [hT] at hlk
      simpa [List.append_assoc] using hlk
    rw [(chain_at hlk1 e).2]

set_option maxHeartbeats 2000000 in
/-- The tree update when `u_in` and `u_out` coincide leaves thread pointers in both
directions along the new order: the block of `u_out` is moved behind `v_in`. -/
theorem updateTreeSame_link {o c : NetSimplex} {n m : Nat} {T : List Int} {ort ols : Int}
    (ht : Threaded o n m T) (hio : o.u_in = o.u_out)
    (huo : 0 ≤ o.u_out ∧ o.u_out < n ∧ ¬ o.Anc o.u_out o.v_in)
    (hv : 0 ≤ o.v_in ∧ o.v_in ≤ n)
    (hort : ort = o.revOf o.u_out) (hols : ols = o.lastOf o.u_out)
    (h : updateTreeSame o ort ols = some c) :
    ∃ pre blk post B', T = pre ++ (o.u_out :: blk) ++ post ∧
      (∀ w, w ∈ o.u_out :: blk ↔ o.Anc o.u_out w) ∧
      B'.Perm (o.u_out :: blk) ∧ B'.head? = some o.u_in ∧ Reordered o blk B' ∧
      List.Chain' (fun x y => c.thr x = y ∧ c.revOf y = x)
        (insAfter o.v_in B' (pre ++ post) ++ [(n : Int)]) := by
  obtain ⟨pre, blk, post, hT, hm, _, hlast⟩ := ht.blocks o.u_out huo.1 (le_of_lt huo.2.1)
  refine ⟨pre, blk, post, o.u_out :: blk, hT, hm, List.Perm.refl _, by rw [hio]; rfl,
    ⟨o.u_out :: blk, [], rfl, rfl, by rw [hio]; rfl, fun w => by rw [hio]; exact hm w, hio⟩, ?_⟩
  have hun : o.u_out ≠ n := by
    have := huo.2.1
    omega
  have hpl := ht.before_block hT hun
  rw [← hort] at hpl
  rw [← hols] at hlast
  have hvp : o.v_in ∈ pre ++ post := by
    have hvT : o.v_in ∈ T := (ht.mem _).2 hv
    rw [hT] at hvT
    rcases List.mem_append.1 hvT with g1 | g1
    · rcases List.mem_append.1 g1 with g2 | g2
      · exact List.mem_append_left _ g2
      · exact absurd ((hm _).1 g2) huo.2.2
    · exact List.mem_append_right _ g1
  have hnB : (n : Int) ∉ o.u_out :: blk := fun m => ht.root_off huo.1 huo.2.1 ((hm _).1 m)
  obtain ⟨ak, hak, _, _⟩ := head_append_one post (n : Int)
  have ndT := ht.nodup
  have hlk := ht.link
  rw [hT] at ndT hlk
  obtain ⟨f1, f2, f3, f4, f5, f6, f7, f8, f9, f10⟩ :=
    splice_facts ndT hlk hpl hlast hnB hvp hak
  have olsB : ols ∈ o.u_out :: blk := mem_of_getLast hlast
  have hc1 : List.Chain' (fun x y => o.thr x = y ∧ o.revOf y = x)
      (pre ++ ((o.u_out :: blk) ++ (post ++ [(n : Int)]))) := by
    simpa [List.append_assoc] using hlk
  have cB := hc1.right_of_append.left_of_append
  have ndB : (o.u_out :: blk).Nodup := (List.nodup_append.1 (List.nodup_append.1 ndT).1).2.1
  simp only [updateTreeSame, Option.bind_eq_bind, Option.bind_eq_some] at h
  obtain ⟨n1, h1, n2, h2, src, _, n3, h3, t, ht3, h⟩ := h
  have k3 : Writes [Fld.parent, Fld.pred, Fld.pred_dir] o n3 :=
    ((set_parent_writes h1 (by decide)).follow (set_pred_writes h2 (by decide))).follow
      (set_pred_dir_writes h3 (by decide))
  have e3t : ∀ x, n3.thr x = o.thr x := thr_congr (k3.vec Fld.thread (by decide))
  have e3r : ∀ x, n3.revOf x = o.revOf x := revOf_congr (k3.vec Fld.rev_thread (by decide))
  have et : t = o.thr o.v_in := by
    rw [← k3.eq_v_in, ← e3t]
    exact (thr_eq ht3).symm
  split at h
  · rename_i hne
    rw [k3.eq_u_out, et] at hne
    have hov : ort ≠ o.v_in := fun e => hne (f10.1 e)
    obtain ⟨g1, g2⟩ := f7 hov
    simp only [Option.bind_eq_bind, Option.bind_eq_some] at h
    obtain ⟨af, haf, n4, h4, n5, h5, af2, haf2, n6, h6, n7, h7, n8, h8, h9⟩ := h
    have eaf : af = ak := by
      rw [← f1, ← e3t]
      exact (thr_eq haf).symm
    have k4 : Writes [Fld.thread] n3 n4 := set_thread_writes h4 (by decide)
    have k5 : Writes [Fld.rev_thread] n4 n5 := set_rev_thread_writes h5 (by decide)
    have k6 : Writes [Fld.thread] n5 n6 := set_thread_writes h6 (by decide)
    have k7 : Writes [Fld.rev_thread] n6 n7 := set_rev_thread_writes h7 (by decide)
    have k8 : Writes [Fld.thread] n7 n8 := set_thread_writes h8 (by decide)
    have k9 : Writes [Fld.rev_thread] n8 c := set_rev_thread_writes h9 (by decide)
    have k35 : Writes [Fld.thread, Fld.rev_thread] n3 n5 :=
      (k4.wider (by decide)).follow (k5.wider (by decide))
    have k37 : Writes [Fld.thread, Fld.rev_thread] n3 n7 :=
      (k35.follow (k6.wider (by decide))).follow (k7.wider (by decide))
    have ev5 : n5.v_in = o.v_in := k35.eq_v_in.trans k3.eq_v_in
    have eu5 : n5.u_out = o.u_out := k35.eq_u_out.trans k3.eq_u_out
    have ev6 : n6.v_in = o.v_in := k6.eq_v_in.trans ev5
    have eu6 : n6.u_out = o.u_out := k6.eq_u_out.trans eu5
    have eaf2 : af2 = o.thr o.v_in := by
      have : n5.thr o.v_in = af2 := by rw [← ev5]; exact thr_eq haf2
      rw [← this, thr_congr (k5.vec Fld.thread (by decide)), thr_set h4,
        if_neg (fun e => hov e.symm), e3t]
    have hg : ∀ x, c.thr x = if ort ≠ o.v_in ∧ x = ort then ak
        else if x = ols then o.thr o.v_in
        else (if x = o.v_in then o.u_out else o.thr x) := by
      intro x
      rw [thr_congr (k9.vec Fld.thread (by decide)), thr_set h8,
        thr_congr (k7.vec Fld.thread (by decide)), thr_set h6,
        thr_congr (k5.vec Fld.thread (by decide)), thr_set h4, e3t, ev5, eu5, eaf, eaf2]
      by_cases hx : x = ort
      · have hx1 : x ≠ ols := fun e => f9 (by rw [← hx, e]; exact olsB)
        have hx2 : x ≠ o.v_in := fun e => hov (hx.symm.trans e)
        rw [if_neg hx1, if_neg hx2, if_pos hx, if_pos ⟨hov, hx⟩]
      · have hx3 : ¬ (ort ≠ o.v_in ∧ x = ort) := fun hh => hx hh.2
        rw [if_neg hx3, if_neg hx]
    have hs : ∀ y, c.revOf y = if ort ≠ o.v_in ∧ y = ak then ort
        else if y = o.thr o.v_in then ols
        else (if y = o.u_out then o.v_in else o.revOf y) := by
      intro y
      rw [revOf_set h9, revOf_congr (k8.vec Fld.rev_thread (by decide)), revOf_set h7,
        revOf_congr (k6.vec Fld.rev_thread (by decide)), revOf_set h5,
        revOf_congr (k4.vec Fld.rev_thread (by decide)), e3r, eu6, ev6, eaf, eaf2]
      by_cases hy : y = ak
      · have hy1 : y ≠ o.thr o.v_in := fun e => g2 (e.symm.trans hy)
        have hy2 : y ≠ o.u_out := fun e => f5 (by rw [← hy, e]; exact List.mem_cons_self _ _)
        rw [if_neg hy1, if_neg hy2, if_pos hy, if_pos ⟨hov, hy⟩]
      · have hy3 : ¬ (ort ≠ o.v_in ∧ y = ak) := fun hh => hy hh.2
        rw [if_neg hy3, if_neg hy]
    have hL1 : List.Chain' (fun x y => (if x = o.v_in then o.u_out else o.thr x) = y ∧
        ((if y = o.u_out then o.v_in else o.revOf y) = x ∨ x ∈ ([] : List Int)))
        (o.v_in :: (o.u_out :: blk)) := by
      refine List.chain'_cons.2 ⟨⟨by rw [if_pos rfl], Or.inl (by rw [if_pos rfl])⟩, ?_⟩
      refine chain_imp_mem _ cB ?_
      intro x y hx hy hxy
      have hxv : x ≠ o.v_in := fun e => f8 (by rw [← e]; exact List.mem_of_mem_dropLast hx)
      have hyu : y ≠ o.u_out := by
        intro e
        have hy' : y ∈ blk := hy
        rw [e] at hy'
        exact (List.nodup_cons.1 ndB).1 hy'
      rw [if_neg hxv, if_neg hyu]
      exact ⟨hxy.1, Or.inl hxy.2⟩
    have := @splice_chain o.thr o.revOf (fun x => if x = o.v_in then o.u_out else o.thr x)
      (fun y => if y = o.u_out then o.v_in else o.revOf y) c.thr c.revOf pre blk post
      (o.u_out :: blk) [] o.u_out o.v_in ort ols ols ak (o.thr o.v_in) (n : Int)
      ndT hlk hpl hlast hnB hvp (List.Perm.refl _) hlast hak (by rw [if_neg hov]) hL1
      (fun x hxv _ => by simp only [if_neg hxv])
      (fun y hy _ => by
        have : y ≠ o.u_out := fun e => hy (by rw [e]; exact List.mem_cons_self _ _)
        simp only [if_neg this])
      hg hs
    refine this.imp ?_
    intro x y hxy
    rcases hxy.2 with q | q
    · exact ⟨hxy.1, q⟩
    · simp at q
  · rename_i hne
    simp only [Option.some.injEq] at h
    subst h
    rw [k3.eq_u_out, et] at hne
    have hfv : o.thr o.v_in = o.u_out := not_not.1 hne
    have hov : ort = o.v_in := f10.2 hfv
    have hg : ∀ x, n3.thr x = if ort ≠ o.v_in ∧ x = ort then ak
        else if x = ols then o.thr ols else o.thr x := by
      intro x
      have hx3 : ¬ (ort ≠ o.v_in ∧ x = ort) := fun hh => hh.1 hov
      rw [e3t, if_neg hx3]
      by_cases hx : x = ols
      · rw [if_pos hx, hx]
      · rw [if_neg hx]
    have hs : ∀ y, n3.revOf y = if ort ≠ o.v_in ∧ y = ak then ort
        else if y = o.thr ols then ols else o.revOf y := by
      intro y
      have hy3 : ¬ (ort ≠ o.v_in ∧ y = ak) := fun hh => hh.1 hov
      rw [e3r, if_neg hy3]
      by_cases hy : y = o.thr ols
      · rw [if_pos hy, hy, f1, f2]
      · rw [if_neg hy]
    have hL1 : List.Chain' (fun x y => o.thr x = y ∧ (o.revOf y = x ∨ x ∈ ([] : List Int)))
        (o.v_in :: (o.u_out :: blk)) := by
      refine List.chain'_cons.2 ⟨⟨hfv, Or.inl (by rw [f4, hov])⟩, ?_⟩
      exact cB.imp (fun x y hxy => ⟨hxy.1, Or.inl hxy.2⟩)
    have := @splice_chain o.thr o.revOf o.thr o.revOf n3.thr n3.revOf pre blk post
      (o.u_out :: blk) [] o.u_out o.v_in ort ols ols ak (o.thr ols) (n : Int)
      ndT hlk hpl hlast hnB hvp (List.Perm.refl _) hlast hak (by rw [if_pos hov]) hL1
      (fun x _ _ => rfl) (fun y _ _ => rfl) hg hs
    refine this.imp ?_
    intro x y hxy
    rcases hxy.2 with q | q
    · exact ⟨hxy.1, q⟩
    · simp at q

end NetSimplex

/-! ## The thread after updateTreeStructure -/

namespace NetSimplex

/-- The traversal invariants do not depend on the scalar `v_out`. -/
theorem Threaded.with_v_out {a : NetSimplex} {n m : Nat} {T : List Int}
    (ht : Threaded a n m T) (vo : Int) : Threaded { a with v_out := vo } n m T :=
  ⟨⟨ht.tree.sized, ht.tree.nodes, ht.tree.root, ht.tree.parent_root, ht.tree.pred_root,
    ht.tree.reach, ht.tree.parent_range, ht.tree.pred_range, ht.tree.pred_arc⟩,
    ht.head, ht.nodup, ht.mem, ht.link, ht.blocks⟩

set_option maxHeartbeats 2000000 in
/-- The tree update on the thread: the block of `u_out` is taken out of the thread order
and, re-ordered so that it starts with `u_in`, put in after `v_in`; afterwards `_thread` and
`_rev_thread` follow the new order in both directions. -/
theorem updateTreeStructure_link {a b : NetSimplex} {n m : Nat} {T l : List Int}
    (ht : Threaded a n m T) (hw : Walk a a.u_out a.u_in l)
    (hl : ∀ y ∈ l ++ [a.u_out], 0 ≤ y ∧ y < n ∧ ¬ a.Anc y a.v_in)
    (hv : 0 ≤ a.v_in ∧ a.v_in ≤ n) (h : updateTreeStructure a = some b) :
    ∃ pre blk post B', T = pre ++ (a.u_out :: blk) ++ post ∧
      (∀ w, w ∈ a.u_out :: blk ↔ a.Anc a.u_out w) ∧
      B'.Perm (a.u_out :: blk) ∧ B'.head? = some a.u_in ∧
      List.Chain' (fun x y => b.thr x = y ∧ b.revOf y = x)
        (insAfter a.v_in B' (pre ++ post) ++ [(n : Int)]) := by
  unfold updateTreeStructure at h
  simp only [Option.bind_eq_bind, Option.bind_eq_some] at h
  obtain ⟨ort, hort, osn, _, ols, hols, vo, _, h⟩ := h
  have eort : ort = a.revOf a.u_out := (revOf_eq hort).symm
  have eols : ols = a.lastOf a.u_out := (lastOf_eq hols).symm
  have ht' := ht.with_v_out vo
  have fin : ∀ n1 : NetSimplex, Writes [Fld.succ_num, Fld.last_succ] n1 b →
      (∃ pre blk post B', T = pre ++ (a.u_out :: blk) ++ post ∧
        (∀ w, w ∈ a.u_out :: blk ↔ a.Anc a.u_out w) ∧
        B'.Perm (a.u_out :: blk) ∧ B'.head? = some a.u_in ∧
        List.Chain' (fun x y => n1.thr x = y ∧ n1.revOf y = x)
          (insAfter a.v_in B' (pre ++ post) ++ [(n : Int)])) →
      ∃ pre blk post B', T = pre ++ (a.u_out :: blk) ++ post ∧
        (∀ w, w ∈ a.u_out :: blk ↔ a.Anc a.u_out w) ∧
        B'.Perm (a.u_out :: blk) ∧ B'.head? = some a.u_in ∧
        List.Chain' (fun x y => b.thr x = y ∧ b.revOf y = x)
          (insAfter a.v_in B' (pre ++ post) ++ [(n : Int)]) := by
    intro n1 k ⟨pre, blk, post, B', e1, e2, e3, e4, e5⟩
    refine ⟨pre, blk, post, B', e1, e2, e3, e4, ?_⟩
    have et : b.thr = n1.thr := funext (thr_congr (k.vec Fld.thread (by decide)))
    have er : b.revOf = n1.revOf := funext (revOf_congr (k.vec Fld.rev_thread (by decide)))
    rw [et, er]
    exact e5
  have tailW : ∀ n1 n2 : NetSimplex, Writes [Fld.last_succ] n1 n2 →
      Writes [Fld.succ_num, Fld.last_succ] n2 b → Writes [Fld.succ_num, Fld.last_succ] n1 b :=
    fun n1 n2 g1 g2 => (g1.wider (by decide)).follow g2
  split at h
  · rename_i hu
    have hu' : a.u_in = a.u_out := hu
    simp only [Option.bind_eq_some] at h
    obtain ⟨n1, h1, lj, _, lso, _, n2, h2, h⟩ := h
    refine fin n1 (tailW _ _ (lastSuccIn_writes _ _ _ _ _ h2) (lastSuccTail_writes h)) ?_
    obtain ⟨pre, blk, post, B', e1, e2, e3, e4, _, e5⟩ := @updateTreeSame_link
      { a with v_out := vo } n1 n m T ort ols ht' hu' (hl a.u_out (by simp)) hv eort eols h1
    exact ⟨pre, blk, post, B', e1, e2, e3, e4, e5⟩
  · rename_i hu
    simp only [Option.bind_eq_some] at h
    obtain ⟨n1, h1, lj, _, lso, _, n2, h2, h⟩ := h
    refine fin n1 (tailW _ _ (lastSuccIn_writes _ _ _ _ _ h2) (lastSuccTail_writes h)) ?_
    have hw0 : Walk { a with v_out := vo } a.u_out a.u_in l :=
      @Walk.congr a { a with v_out := vo } rfl a.u_out l _ hw
    have q := @updateTreeStem_link { a with v_out := vo } n1 n m T l ort osn ols ht' hw0
      hl hv eort eols h1
    exact q

/-- Along the thread order `_thread` and `_rev_thread` are inverse to each other and stay
among the nodes. -/
theorem link_inverse {f r : Int → Int} {T : List Int} {n : Nat}
    (hc : List.Chain' (fun x y => f x = y ∧ r y = x) (T ++ [(n : Int)]))
    (hh : T.head? = some (n : Int)) (nd : T.Nodup) :
    ∀ u ∈ T, f u ∈ T ∧ r u ∈ T ∧ r (f u) = u ∧ f (r u) = u := by
  obtain ⟨T2, eT⟩ := List.head?_eq_some_iff.1 hh
  intro u hu
  obtain ⟨y, h1, h2⟩ := chain_next T (n : Int) hc u hu
  have hc' : List.Chain' (fun x y => f x = y ∧ r y = x) ((n : Int) :: (T2 ++ [(n : Int)])) := by
    rw [eT] at hc
    exact hc
  have hyT : ∀ y ∈ T2 ++ [(n : Int)], y ∈ T := by
    intro y hy
    rw [eT]
    rcases List.mem_append.1 hy with g | g
    · exact List.mem_cons_of_mem _ g
    · have : y = n := by simpa using g
      rw [this]
      exact List.mem_cons_self _ _
  have huT : u ∈ T2 ++ [(n : Int)] := by
    rw [eT] at hu
    rcases List.mem_cons.1 hu with g | g
    · rw [g]
      simp
    · exact List.mem_append_left _ g
  obtain ⟨x, hx, hfx, hrx⟩ := chain_prev _ _ hc' u huT
  have hxT : x ∈ T := by
    rcases List.mem_cons.1 hx with g | g
    · rw [g, eT]
      exact List.mem_cons_self _ _
    · exact hyT x g
  have ndt : (T ++ [(n : Int)]).tail.Nodup := by
    rw [eT]
    show (T2 ++ [(n : Int)]).Nodup
    rw [eT] at nd
    have := List.nodup_cons.1 nd
    rw [List.nodup_append]
    refine ⟨this.2, List.nodup_singleton _, ?_⟩
    intro z h1 h2
    have : z = n := by simpa using h2
    rw [this] at h1
    exact (List.nodup_cons.1 nd).1 h1
  obtain ⟨i1, _⟩ := chain_inj _ (hc.imp (fun _ _ h => h.1)) ndt
  have hfu : f u ∈ T := by
    have := i1 u (by rw [List.dropLast_concat]; exact hu)
    rw [eT] at this
    exact hyT _ this
  refine ⟨hfu, by rw [hrx]; exact hxT, by rw [h1, h2], by rw [hrx, hfx]⟩

end NetSimplex

/-! ## The stem of a pivot -/

namespace NetSimplex

set_option maxHeartbeats 1000000 in
/-- The stem of a pivot with a leaving arc: after `changeFlow` the tree vectors are those
before the pivot, the walk from `u_in` up to `u_out` lies among the real nodes, and no
ancestor of `v_in` is on it. -/
theorem pivot_stem {x x1 x2 x3 : NetSimplex} {n m : Nat} (hb : TreeBasis x n m)
    (hs : 0 ≤ x.srcOf x.in_arc ∧ x.srcOf x.in_arc ≤ n)
    (ht : 0 ≤ x.tgtOf x.in_arc ∧ x.tgtOf x.in_arc ≤ n)
    (h1 : findJoinNode x = some x1) (h2 : findLeavingArc x1 = some (true, x2))
    (h3 : changeFlow x2 = some x3) :
    x3 = { x with join := x2.join, delta := x2.delta, u_out := x2.u_out, u_in := x2.u_in,
                  v_in := x2.v_in, flow := x3.flow, state := x3.state } ∧
    (0 ≤ x3.v_in ∧ x3.v_in ≤ n) ∧
    ∃ l, Walk x x3.u_out x3.u_in l ∧ (∀ y ∈ l ++ [x3.u_out], 0 ≤ y ∧ y < n) ∧
      (∀ i, (x.par)^[i] x3.v_in ∉ l ++ [x3.u_out]) := by
  obtain ⟨e2, l1, l2, wl1, wl2, hdis, hr1, hr2, hj0, hjn, _⟩ := pivot_cycle hb h1 h2 hs ht
  obtain ⟨e1, _, ⟨s, hsrc⟩, _⟩ := findJoinNode_spec h1
  obtain ⟨w1, w2, ww1, ww2, hmem⟩ := findLeavingArc_member h2
  obtain ⟨e3, hfl, hsl, _⟩ := changeFlow_spec h3
  have ej : x2.join = x1.join := by
    have := (findLeavingArc_walks h2).1
    rw [this]
  have e1p : x1.parent = x.parent := by rw [e1]
  have e1s : x1.source = x.source := by rw [e1]
  have e1t : x1.target = x.target := by rw [e1]
  have e1i : x1.in_arc = x.in_arc := by rw [e1]
  have hsrc1 : x1.srcOf x1.in_arc = x.srcOf x.in_arc := by rw [e1i]; exact srcOf_congr e1s _
  have htgt1 : x1.tgtOf x1.in_arc = x.tgtOf x.in_arc := by rw [e1i]; exact tgtOf_congr e1t _
  rw [hsrc1, htgt1] at hmem
  rw [hsrc1] at ww1
  rw [htgt1] at ww2
  have ww1' : Walk x x2.join (x.srcOf x.in_arc) w1 := by
    rw [ej]
    exact Walk.congr e1p.symm _ _ _ ww1
  have ww2' : Walk x x2.join (x.tgtOf x.in_arc) w2 := by
    rw [ej]
    exact Walk.congr e1p.symm _ _ _ ww2
  have q1 : w1 = l1 := Walk.unique _ _ _ ww1' wl1
  have q2 : w2 = l2 := Walk.unique _ _ _ ww2' wl2
  rw [q1, q2] at hmem
  have e23 : x3 = { x with join := x2.join, delta := x2.delta, u_out := x2.u_out,
                           u_in := x2.u_in, v_in := x2.v_in, flow := x3.flow,
                           state := x3.state } := by
    rw [e3]
    conv => lhs; rw [e2]
  have f_uo : x3.u_out = x2.u_out := by rw [e23]
  have f_ui : x3.u_in = x2.u_in := by rw [e23]
  have f_vi : x3.v_in = x2.v_in := by rw [e23]
  have main : ∀ (lu lv : List Int) (u v : Int), Walk x x2.join u lu → Walk x x2.join v lv →
      (∀ y ∈ lu, y ∉ lv) → (∀ y ∈ lu, 0 ≤ y ∧ y < n) → (0 ≤ v ∧ v ≤ n) →
      x2.u_in = u → x2.v_in = v → x2.u_out ∈ lu →
      (0 ≤ x3.v_in ∧ x3.v_in ≤ n) ∧
      ∃ l, Walk x x3.u_out x3.u_in l ∧ (∀ y ∈ l ++ [x3.u_out], 0 ≤ y ∧ y < n) ∧
        (∀ i, (x.par)^[i] x3.v_in ∉ l ++ [x3.u_out]) := by
    intro lu lv u v wu wv hd hr hvr hu hv hm
    obtain ⟨pre, post, hsplit⟩ := List.append_of_mem hm
    rw [hsplit] at wu
    obtain ⟨wpre, _⟩ := Walk.append pre x2.u_out post u wu
    have hsub : ∀ y ∈ pre ++ [x2.u_out], y ∈ lu := by
      intro y hy
      rw [hsplit]
      rcases List.mem_append.1 hy with g | g
      · exact List.mem_append_left _ g
      · rw [List.mem_singleton.1 g]
        simp
    have wu' : Walk x x2.join u lu := by rw [hsplit]; exact wu
    have hav := chain_avoid hb wu' wv hd hr
    refine ⟨by rw [f_vi, hv]; exact hvr, pre, ?_, ?_, ?_⟩
    · rw [f_uo, f_ui, hu]
      exact wpre
    · rw [f_uo]
      exact fun y hy => hr y (hsub y hy)
    · rw [f_uo, f_vi, hv]
      exact fun i hi => hav i (hsub _ hi)
  refine ⟨e23, ?_⟩
  rcases hmem with ⟨g1, g2, g3⟩ | ⟨g1, g2, g3⟩
  · exact main l1 l2 _ _ wl1 wl2 hdis hr1 ht g1 g2 g3
  · exact main l2 l1 _ _ wl2 wl1 (fun y hy hy1 => hdis y hy1 hy) hr2 hs g1 g2 g3

end NetSimplex

/-! ## The thread after a pivot -/

namespace NetSimplex

/-- The blocks of the thread order give the subtree sizes. -/
theorem Threaded.sizes {ns : NetSimplex} {n m : Nat} {T : List Int} (ht : Threaded ns n m T) :
    ns.SubtreeSizes n := by
  intro u h0 hn
  obtain ⟨pre, blk, post, hT, hm, hlen, _⟩ := ht.blocks u h0 hn
  refine ⟨u :: blk, ?_, hm, hlen⟩
  have nd := ht.nodup
  rw [hT] at nd
  exact (List.nodup_append.1 (List.nodup_append.1 nd).1).2.1

theorem Threaded.tree_basis {ns : NetSimplex} {n m : Nat} {T : List Int} (ht : Threaded ns n m T) :
    TreeBasis ns n m := SubtreeSizes.basis ht.tree ht.sizes

/-- The traversal invariants carry over to a solver with the same tree vectors. -/
theorem Threaded.carry {a b : NetSimplex} {n m : Nat} {T : List Int}
    (ht : Threaded a n m T) (hs : SpanningTree b n m) (e1 : b.parent = a.parent)
    (e2 : b.thread = a.thread) (e3 : b.rev_thread = a.rev_thread)
    (e4 : b.succ_num = a.succ_num) (e5 : b.last_succ = a.last_succ) : Threaded b n m T := by
  have p : b.par = a.par := funext (par_congr e1)
  have q : b.thr = a.thr := funext (thr_congr e2)
  have r : b.revOf = a.revOf := funext (revOf_congr e3)
  have c : b.succOf = a.succOf := funext fun x => by unfold succOf; rw [e4]
  have l : b.lastOf = a.lastOf := funext (lastOf_congr e5)
  have an : b.Anc = a.Anc := by
    funext u w
    unfold Anc
    rw [p]
  exact
    { tree := hs
      head := ht.head
      nodup := ht.nodup
      mem := ht.mem
      link := by rw [q, r]; exact ht.link
      blocks := by rw [an, c, l]; exact ht.blocks }

set_option maxHeartbeats 1000000 in
/-- A pivot with a leaving arc on the thread: the old block of `u_out` is taken out of the
thread order and, re-ordered so that it starts with `u_in`, put in after `v_in`; after the
pivot `_thread` and `_rev_thread` follow the new order in both directions. -/
theorem pivot_link {x x1 x2 x3 x4 x5 : NetSimplex} {n m : Nat} {T : List Int}
    (ht : Threaded x n m T)
    (hs : 0 ≤ x.srcOf x.in_arc ∧ x.srcOf x.in_arc ≤ n)
    (hg : 0 ≤ x.tgtOf x.in_arc ∧ x.tgtOf x.in_arc ≤ n)
    (h1 : findJoinNode x = some x1) (h2 : findLeavingArc x1 = some (true, x2))
    (h3 : changeFlow x2 = some x3) (h4 : updateTreeStructure x3 = some x4)
    (h5 : updatePotential x4 = some x5) :
    ∃ pre blk post B', T = pre ++ (x2.u_out :: blk) ++ post ∧
      (∀ w, w ∈ x2.u_out :: blk ↔ x.Anc x2.u_out w) ∧
      B'.Perm (x2.u_out :: blk) ∧ B'.head? = some x2.u_in ∧
      (insAfter x2.v_in B' (pre ++ post)).Nodup ∧
      (∀ u, u ∈ insAfter x2.v_in B' (pre ++ post) ↔ 0 ≤ u ∧ u ≤ n) ∧
      (insAfter x2.v_in B' (pre ++ post)).head? = some (n : Int) ∧
      List.Chain' (fun a b => x5.thr a = b ∧ x5.revOf b = a)
        (insAfter x2.v_in B' (pre ++ post) ++ [(n : Int)]) := by
  have hb := ht.tree_basis
  obtain ⟨e23, hv, l, hw, hl, hav⟩ := pivot_stem hb hs hg h1 h2 h3
  obtain ⟨_, hin, hout, _⟩ := pivot_ends hb hs hg h1 h2 h3
  have ⟨st4, _, _⟩ := pivot_tree hb hs hg h1 h2 h3 h4
  have f_par : x3.parent = x.parent := by rw [e23]
  have f_uo : x3.u_out = x2.u_out := by rw [e23]
  have f_ui : x3.u_in = x2.u_in := by rw [e23]
  have f_vi : x3.v_in = x2.v_in := by rw [e23]
  obtain ⟨_, hfl, hsl, _⟩ := changeFlow_spec h3
  obtain ⟨e2, _⟩ := pivot_cycle hb h1 h2 hs hg
  have hs3 : x3.Sized n m := by
    refine ⟨fun f => ?_, ?_⟩
    · have := hb.sized.1 f
      have hf : (x3.arr f).length = (x.arr f).length := by
        cases f <;> first | (rw [e23]; rfl) | exact hfl.trans (by rw [e2]; rfl)
      rw [hf]
      exact this
    · have : x2.state = x.state := by rw [e2]
      rw [hsl, this]
      exact hb.sized.2
  have hb3 : TreeBasis x3 n m := hb.transfer hs3 (by rw [e23]) (by rw [e23]) f_par
    (by rw [e23]) (by rw [e23]) (by rw [e23]) (by rw [e23]) (by rw [e23])
  have ht3 : Threaded x3 n m T := ht.carry hb3.spanning f_par (by rw [e23]) (by rw [e23])
    (by rw [e23]) (by rw [e23])
  have p3 : x3.par = x.par := funext (par_congr f_par)
  have hw3 : Walk x3 x3.u_out x3.u_in l := Walk.congr f_par _ _ _ hw
  have hl3 : ∀ y ∈ l ++ [x3.u_out], 0 ≤ y ∧ y < n ∧ ¬ x3.Anc y x3.v_in := by
    intro y hy
    refine ⟨(hl y hy).1, (hl y hy).2, ?_⟩
    rintro ⟨k, hk⟩
    rw [p3] at hk
    exact hav k (by rw [hk]; exact hy)
  obtain ⟨pre, blk, post, B', q1, q2, q3, q4, q5⟩ :=
    updateTreeStructure_link ht3 hw3 hl3 hv h4
  rw [f_uo] at q1 q2 q3
  rw [f_ui] at q4
  rw [f_vi] at q5
  have an : x3.Anc = x.Anc := by
    funext u w
    unfold Anc
    rw [p3]
  rw [an] at q2
  have hvp : x2.v_in ∈ pre ++ post := by
    have hvT : x2.v_in ∈ T := (ht.mem _).2 (by rw [← f_vi]; exact hv)
    rw [q1] at hvT
    have hnb : ¬ x.Anc x2.u_out x2.v_in := by
      have := (hl3 x3.u_out (by simp)).2.2
      rw [an, f_uo, f_vi] at this
      exact this
    rcases List.mem_append.1 hvT with g1 | g1
    · rcases List.mem_append.1 g1 with g2 | g2
      · exact List.mem_append_left _ g2
      · exact absurd ((q2 _).1 g2) hnb
    · exact List.mem_append_right _ g1
  obtain ⟨p1, p2, p3'⟩ := newOrder_props q1 ht.nodup ht.head
    (fun m => ht.root_off hout.1 hout.2 ((q2 _).1 m)) hvp q3
  refine ⟨pre, blk, post, B', q1, q2, q3, q4, p1, fun u => (p2 u).trans (ht.mem u), p3', ?_⟩
  have k5 : Writes [Fld.pi] x4 x5 := updatePotential_writes h5
  have et : x5.thr = x4.thr := funext (thr_congr (k5.vec Fld.thread (by decide)))
  have er : x5.revOf = x4.revOf := funext (revOf_congr (k5.vec Fld.rev_thread (by decide)))
  rw [et, er]
  exact q5

end NetSimplex

/-! ## The thread after init -/

theorem arcsFrom_nodup : ∀ (k : Nat) (e : Int), (arcsFrom e k).Nodup := by
  intro k
  induction k with
  | zero => intro e; exact List.nodup_nil
  | succ k ih =>
    intro e
    show (e :: arcsFrom (e + 1) k).Nodup
    refine List.nodup_cons.2 ⟨?_, ih _⟩
    rw [mem_arcsFrom]
    omega

theorem arcsFrom_split : ∀ (t k : Nat) (e : Int), t ≤ k →
    arcsFrom e k = arcsFrom e t ++ arcsFrom (e + t) (k - t) := by
  intro t
  induction t with
  | zero => intro k e _; simp [arcsFrom]
  | succ t ih =>
    intro k e h
    obtain ⟨k', rfl⟩ : ∃ k', k = k' + 1 := ⟨k - 1, by omega⟩
    show e :: arcsFrom (e + 1) k' = e :: arcsFrom (e + 1) t ++ arcsFrom (e + ((t + 1 : Nat) : Int)) (k' + 1 - (t + 1))
    rw [ih k' (e + 1) (by omega)]
    have e1 : e + 1 + (t : Int) = e + ((t + 1 : Nat) : Int) := by push_cast; omega
    have e2 : k' + 1 - (t + 1) = k' - t := by omega
    rw [e1, e2]
    rfl

theorem arcsFrom_chain {R : Int → Int → Prop} : ∀ (k : Nat) (e : Int),
    (∀ u : Int, e ≤ u → u < e + k → R u (u + 1)) →
    List.Chain' R (arcsFrom e k ++ [e + (k : Int)]) := by
  intro k
  induction k with
  | zero => intro e _; exact List.chain'_singleton _
  | succ k ih =>
    intro e h
    have c := ih (e + 1) (fun u h1 h2 => h u (by omega) (by push_cast; omega))
    have e1 : e + 1 + (k : Int) = e + ((k + 1 : Nat) : Int) := by push_cast; omega
    rw [e1] at c
    show List.Chain' R (e :: (arcsFrom (e + 1) k ++ [e + ((k + 1 : Nat) : Int)]))
    cases k with
    | zero =>
      refine List.chain'_cons.2 ⟨?_, c⟩
      have := h e (le_refl _) (by push_cast; omega)
      simpa using this
    | succ k2 =>
      exact List.chain'_cons.2 ⟨h e (le_refl _) (by push_cast; omega), c⟩

namespace NetSimplex

set_option maxHeartbeats 1000000 in
/-- The star basis that `init` builds satisfies the traversal invariants, with the thread
order `n, 0, 1, ..., n - 1`. -/
theorem star_threaded (n m : Nat) (A : NetSimplex) (art : Int) (hs : Sized A n m)
    (hnn : A.node_num = n) (hroot : A.root = n) (hn1 : 1 ≤ n) (hnm : n ≤ m)
    (hR : StarRoot A) (hN : ∀ v : Int, 0 ≤ v → v < n → ∃ c, StarNode art A v c) :
    Threaded A n m ((n : Int) :: arcsFrom 0 n) := by
  obtain ⟨r1, r2, r3, r4, r5, r6, _, _⟩ := hR
  rw [hroot] at r1 r2 r3 r4 r5 r6
  rw [hnn] at r5
  have hpar : ∀ u : Int, 0 ≤ u → u < n → A.par u = n := by
    intro u u0 un
    obtain ⟨c, sn⟩ := hN u u0 un
    rw [← hroot]
    exact par_eq sn.1
  have tree : SpanningTree A n m := by
    refine ⟨hs, hnn, hroot, r1, r2, fun u u0 un => ⟨1, hpar u u0 un⟩,
      fun u u0 un => by rw [hpar u u0 un]; omega, ?_, ?_⟩
    · intro u u0 un
      obtain ⟨c, sn⟩ := hN u u0 un
      rw [predOf_eq sn.2.1]
      omega
    · intro u u0 un
      obtain ⟨c, s1, s2, _, _, _, _, _, s8, _, s10, s11, _⟩ := hN u u0 un
      rw [predOf_eq s2, dirOf_eq s8, srcOf_eq s10, tgtOf_eq s11, hpar u u0 un, hroot]
      by_cases hc : c ≥ 0
      · left
        simp only [if_pos hc, and_self]
      · right
        simp only [if_neg hc, and_self]
  have leaf : ∀ u : Int, 0 ≤ u → u < n → ∀ w, A.Anc u w ↔ w = u := by
    intro u u0 un w
    constructor
    · intro ha
      by_contra hne
      have hp := ha.parent hne
      obtain ⟨w0, wn⟩ := tree.anc_range u0 (le_of_lt un) ha
      by_cases hw : w < n
      · rw [hpar w w0 hw] at hp
        have := tree.anc_root u0 hp
        omega
      · have ew : w = n := by omega
        rw [ew] at ha
        have := tree.anc_root u0 ha
        omega
    · intro e
      rw [e]
      exact Anc.self _ _
  have thrn : A.thr n = 0 := thr_eq r3
  have revn : A.revOf 0 = n := revOf_eq r4
  refine ⟨tree, rfl, ?_, ?_, ?_, ?_⟩
  · refine List.nodup_cons.2 ⟨?_, arcsFrom_nodup _ _⟩
    rw [mem_arcsFrom]
    omega
  · intro u
    rw [List.mem_cons, mem_arcsFrom]
    omega
  · have c := @arcsFrom_chain (fun a b => A.thr a = b ∧ A.revOf b = a) n 0 (by
      intro u u0 un
      obtain ⟨c, _, _, s3, s4, _⟩ := hN u u0 (by omega)
      exact ⟨thr_eq s3, revOf_eq s4⟩)
    have e0 : (0 : Int) + (n : Int) = n := by omega
    rw [e0] at c
    obtain ⟨k, ek⟩ : ∃ k, n = k + 1 := ⟨n - 1, by omega⟩
    show List.Chain' _ ((n : Int) :: (arcsFrom 0 n ++ [(n : Int)]))
    have hh : arcsFrom 0 n ++ [(n : Int)] = 0 :: (arcsFrom 1 k ++ [(n : Int)]) := by
      rw [ek]
      rfl
    rw [hh] at c ⊢
    exact List.chain'_cons.2 ⟨⟨thrn, revn⟩, c⟩
  · intro u u0 un
    by_cases hu : u = n
    · refine ⟨[], arcsFrom 0 n, [], by rw [hu]; simp, ?_, ?_, ?_⟩
      · intro w
        rw [List.mem_cons, mem_arcsFrom]
        constructor
        · intro hw
          rw [hu]
          exact tree.root_anc (by omega) (by omega)
        · intro hw
          have := tree.anc_range u0 un hw
          omega
      · rw [List.length_cons, arcsFrom_length, hu, succOf_eq r5]
        push_cast
        rfl
      · rw [hu, lastOf_eq r6]
        obtain ⟨k, ek⟩ : ∃ k, n = k + 1 := ⟨n - 1, by omega⟩
        rw [ek, arcsFrom_snoc]
        have : ((k + 1 : Nat) : Int) :: (arcsFrom 0 k ++ [0 + (k : Int)]) =
            (((k + 1 : Nat) : Int) :: arcsFrom 0 k) ++ [0 + (k : Int)] := rfl
        rw [this, List.getLast?_concat]
        congr 1
        push_cast
        omega
    · have un' : u < n := lt_of_le_of_ne un hu
      obtain ⟨c, _, _, _, _, s5, s6, _⟩ := hN u u0 un'
      obtain ⟨t, et⟩ : ∃ t : Nat, u = t := ⟨u.toNat, by omega⟩
      have htn : t < n := by omega
      refine ⟨(n : Int) :: arcsFrom 0 t, [], arcsFrom (u + 1) (n - t - 1), ?_, ?_, ?_, ?_⟩
      · rw [arcsFrom_split t n 0 (le_of_lt htn)]
        obtain ⟨j, ej⟩ : ∃ j, n - t = j + 1 := ⟨n - t - 1, by omega⟩
        have e1 : n - t - 1 = j := by omega
        rw [e1, ej]
        have e2 : (0 : Int) + (t : Int) = u := by omega
        rw [e2]
        show _ = (n : Int) :: arcsFrom 0 t ++ [u] ++ arcsFrom (u + 1) j
        simp [arcsFrom]
      · intro w
        rw [leaf u u0 un' w]
        simp
      · rw [succOf_eq s5]
        rfl
      · rw [lastOf_eq s6]
        rfl

end NetSimplex

/-! ## C25: thread and rev_thread are inverse permutations -/

namespace NetSimplex

/-- In a state with the traversal invariants `_thread` and `_rev_thread` are inverse
permutations of the nodes `0..n`. -/
theorem Threaded.inverse {ns : NetSimplex} {n m : Nat} {T : List Int} (h : Threaded ns n m T)
    (u : Int) (u0 : 0 ≤ u) (un : u ≤ n) :
    (0 ≤ ns.thr u ∧ ns.thr u ≤ n) ∧ (0 ≤ ns.revOf u ∧ ns.revOf u ≤ n) ∧
      ns.revOf (ns.thr u) = u ∧ ns.thr (ns.revOf u) = u := by
  obtain ⟨a, b, c, d⟩ := link_inverse h.link h.head h.nodup u ((h.mem u).2 ⟨u0, un⟩)
  exact ⟨(h.mem _).1 a, (h.mem _).1 b, c, d⟩

end NetSimplex

theorem enteredStem_threaded : enteredStem.Threaded 3 5 [3, 1, 2, 0] := by
  have hout : ∀ w : Int, ¬ (0 ≤ w ∧ w < 4) → enteredStem.par w = -1 := by
    intro w hw
    by_cases w0 : w < 0
    · exact NetSimplex.par_neg _ w0
    · exact NetSimplex.par_ge _ (by
        have : enteredStem.parent.length = 4 := by decide
        rw [this]
        push_cast
        omega)
  have closed : ∀ blk : List Int, (-1 : Int) ∉ blk →
      (∀ w ∈ [(0 : Int), 1, 2, 3], enteredStem.par w ∈ blk → w ∈ blk) →
      ∀ w : Int, enteredStem.par w ∈ blk → w ∈ blk := by
    intro blk h1 h2 w hw
    by_cases hr : 0 ≤ w ∧ w < 4
    · obtain ⟨r0, r4⟩ := hr
      apply h2 w _ hw
      interval_cases w <;> decide
    · rw [hout w hr] at hw
      exact absurd hw h1
  refine ⟨enteredStem_basis.spanning, rfl, by decide, ?_, ?_, ?_⟩
  · intro u
    simp only [List.mem_cons, List.mem_singleton, List.not_mem_nil, or_false]
    push_cast
    omega
  · show List.Chain' _ [(3 : Int), 1, 2, 0, 3]
    simp only [List.chain'_cons, List.chain'_singleton, and_true]
    decide
  · intro u u0 u3
    have u3' : u ≤ 3 := u3
    interval_cases u
    · refine ⟨[3, 1, 2], [], [], rfl, fun w => ⟨fun hw => ?_, fun hw => ?_⟩, by decide,
        by decide⟩
      · rw [List.mem_singleton.1 hw]; exact NetSimplex.Anc.self _ _
      · exact NetSimplex.Anc.mem_of_closed (by decide) (closed _ (by decide) (by decide)) hw
    · refine ⟨[3], [], [2, 0], rfl, fun w => ⟨fun hw => ?_, fun hw => ?_⟩, by decide,
        by decide⟩
      · rw [List.mem_singleton.1 hw]; exact NetSimplex.Anc.self _ _
      · exact NetSimplex.Anc.mem_of_closed (by decide) (closed _ (by decide) (by decide)) hw
    · refine ⟨[3, 1], [0], [], rfl, fun w => ⟨fun hw => ?_, fun hw => ?_⟩, by decide,
        by decide⟩
      · simp only [List.mem_cons, List.mem_singleton, List.not_mem_nil, or_false] at hw
        rcases hw with rfl | rfl
        · exact ⟨0, by decide⟩
        · exact ⟨1, by decide⟩
      · exact NetSimplex.Anc.mem_of_closed (by decide) (closed _ (by decide) (by decide)) hw
    · refine ⟨[], [1, 2, 0], [], rfl, fun w => ⟨fun hw => ?_, fun hw => ?_⟩, by decide,
        by decide⟩
      · simp only [List.mem_cons, List.mem_singleton, List.not_mem_nil, or_false] at hw
        rcases hw with rfl | rfl | rfl | rfl
        · exact ⟨0, by decide⟩
        · exact ⟨1, by decide⟩
        · exact ⟨1, by decide⟩
        · exact ⟨2, by decide⟩
      · exact NetSimplex.Anc.mem_of_closed (by decide) (closed _ (by decide) (by decide)) hw

/-! ## The subtrees after the stem is turned -/

namespace NetSimplex

/-- In a spanning tree, a set that holds `u`, holds every child of its nodes, holds the parent
of each of its nodes but `u`, and holds the root only if `u` is the root, is the subtree of
`u`. -/
theorem SpanningTree.anc_iff {c : NetSimplex} {n m : Nat} (hc : SpanningTree c n m) {u : Int}
    (D : Int → Prop) (hA : D u) (hB : ∀ w, D (c.par w) → D w)
    (hC : ∀ z, D z → z ≠ u → D (c.par z)) (hD : D (n : Int) → u = n)
    (hR : ∀ z, D z → 0 ≤ z ∧ z ≤ n) : ∀ w, c.Anc u w ↔ D w := by
  intro w
  constructor
  · rintro ⟨k, e⟩
    induction k generalizing w with
    | zero =>
      have : w = u := e
      rw [this]; exact hA
    | succ k ih =>
      rw [Function.iterate_succ_apply] at e
      exact hB w (ih _ e)
  · intro hw
    obtain ⟨w0, wn⟩ := hR w hw
    obtain ⟨k, e⟩ := hc.root_anc w0 wn
    induction k generalizing w with
    | zero =>
      have e' : w = n := e
      rw [e'] at hw
      rw [e', hD hw]
      exact Anc.self _ _
    | succ k ih =>
      by_cases hu : w = u
      · rw [hu]; exact Anc.self _ _
      · rw [Function.iterate_succ_apply] at e
        have hp := hC w hw hu
        obtain ⟨p0, pn⟩ := hR _ hp
        exact (ih _ hp p0 pn e).up (Anc.of_par c w)

/-- In a spanning tree two nodes that are ancestors of each other are equal. -/
theorem SpanningTree.anc_antisymm {a : NetSimplex} {n m : Nat} (h : SpanningTree a n m)
    {u v : Int} (u0 : 0 ≤ u) (un : u ≤ n) (h1 : a.Anc u v) (h2 : a.Anc v u) : u = v := by
  obtain ⟨i, e1⟩ := h1
  obtain ⟨j, e2⟩ := h2
  by_cases hu : u = n
  · rw [hu] at e2
    cases j with
    | zero => rw [hu]; exact e2
    | succ j =>
      exfalso
      rw [Function.iterate_succ_apply, h.par_at_root] at e2
      have hv : 0 ≤ v := by
        have := h.anc_range u0 un ⟨i, e1⟩
        exact this.1
      exact Anc.neg ⟨j, e2⟩ (by decide) hv
  · have un' : u < n := lt_of_le_of_ne un hu
    have e3 : (a.par)^[i + j] u = u := by
      rw [Function.iterate_add_apply, e2, e1]
    cases hij : i + j with
    | zero =>
      have : j = 0 := by omega
      rw [this] at e2
      exact e2
    | succ t =>
      rw [hij] at e3
      exact absurd e3 (h.no_cycle u0 un' t)

/-- The nodes of a walk are descendants of its end. -/
theorem Walk.anc_mem {ns : NetSimplex} {j : Int} : ∀ (l : List Int) (u : Int),
    Walk ns j u l → ∀ x ∈ l ++ [j], ns.Anc j x := by
  intro l
  induction l with
  | nil =>
    intro u _ x hx
    have : x = j := by simpa using hx
    rw [this]; exact Anc.self _ _
  | cons y l ih =>
    intro u hw x hx
    obtain ⟨rfl, _, hw'⟩ := hw
    rcases List.mem_cons.1 hx with e | hx'
    · rw [e]
      exact (ih _ hw' _ (Walk.start_mem hw')).up (Anc.of_par ns y)
    · exact ih _ hw' x hx'

/-- The nodes of a walk are ancestors of its start. -/
theorem Walk.mem_anc {ns : NetSimplex} {j : Int} : ∀ (l : List Int) (u : Int),
    Walk ns j u l → ∀ x ∈ l ++ [j], ns.Anc x u := by
  intro l
  induction l with
  | nil =>
    intro u hw x hx
    have : x = j := by simpa using hx
    have hu : u = j := hw
    rw [this, hu]; exact Anc.self _ _
  | cons y l ih =>
    intro u hw x hx
    obtain ⟨rfl, _, hw'⟩ := hw
    rcases List.mem_cons.1 hx with e | hx'
    · rw [e]; exact Anc.self _ _
    · exact (ih _ hw' x hx').up (Anc.of_par ns y)

theorem Turned.par_off {a c : NetSimplex} {n m : Nat} {l : List Int} (h : Turned a c n m l)
    {z : Int} (hz : z ∉ l ++ [a.u_out]) : c.par z = a.par z := by
  rw [h.par z, stemParent_not_mem _ _ _ _ hz]

theorem Turned.par_in {a c : NetSimplex} {n m : Nat} {l : List Int} (h : Turned a c n m l) :
    c.par a.u_in = a.v_in := by
  rw [h.par, stemParent_head h.walk]

theorem Turned.par_stem {a c : NetSimplex} {n m : Nat} {l : List Int} (h : Turned a c n m l)
    {x : Int} (hx : x ∈ l ++ [a.u_out]) (hne : x ≠ a.u_in) :
    ∃ s ∈ l, c.par x = s ∧ a.par s = x := by
  obtain ⟨s, hs, e1, e2⟩ := stemParent_child l a.u_in a.v_in (a.par x) h.walk x hx hne
  exact ⟨s, hs, by rw [h.par, e1], e2⟩

theorem Turned.stem_anc {a c : NetSimplex} {n m : Nat} {l : List Int} (h : Turned a c n m l)
    {x : Int} (hx : x ∈ l ++ [a.u_out]) : a.Anc a.u_out x ∧ a.Anc x a.u_in :=
  ⟨Walk.anc_mem l _ h.walk x hx, Walk.mem_anc l _ h.walk x hx⟩

theorem Turned.out_range {a c : NetSimplex} {n m : Nat} {l : List Int} (h : Turned a c n m l) :
    0 ≤ a.u_out ∧ a.u_out < n ∧ ¬ a.Anc a.u_out a.v_in := h.stem _ (by simp)

/-- The subtree of a node of the block of `u_out` that is not on the stem holds no stem
node. -/
theorem Turned.sub_off {a c : NetSimplex} {n m : Nat} {l : List Int} (h : Turned a c n m l)
    {u w : Int} (hu : u ∉ l ++ [a.u_out]) (hB : a.Anc a.u_out u) (hw : a.Anc u w) :
    w ∉ l ++ [a.u_out] := by
  intro hm
  have h1 : a.Anc u a.u_in := hw.up (h.stem_anc hm).2
  have ho := h.out_range
  have hr := h.old.anc_range ho.1 (le_of_lt ho.2.1) hB
  rcases Walk.anc_split l _ h.walk h1 with g | g
  · have := h.old.anc_antisymm hr.1 hr.2 g hB
    exact hu (by rw [this]; simp)
  · exact hu (List.mem_append_left _ g)

/-- After the turn, the subtree of a node outside the block of `u_out`: its old subtree
without the block, and with the block if the node is an ancestor of `v_in`. -/
theorem Turned.anc_out {a c : NetSimplex} {n m : Nat} {l : List Int} (h : Turned a c n m l)
    {u : Int} (u0 : 0 ≤ u) (un : u ≤ n) (hu : ¬ a.Anc a.u_out u) (w : Int) :
    c.Anc u w ↔ (a.Anc u w ∧ ¬ a.Anc a.u_out w) ∨ (a.Anc a.u_out w ∧ a.Anc u a.v_in) := by
  have ho := h.out_range
  refine h.new.anc_iff
    (fun w => (a.Anc u w ∧ ¬ a.Anc a.u_out w) ∨ (a.Anc a.u_out w ∧ a.Anc u a.v_in))
    (Or.inl ⟨Anc.self _ _, hu⟩) ?_ ?_ ?_ ?_ w
  · intro w hw
    by_cases hs : w ∈ l ++ [a.u_out]
    · have hv : a.Anc u a.v_in := by
        by_cases hi : w = a.u_in
        · rw [hi, h.par_in] at hw
          rcases hw with g | g
          · exact g.1
          · exact g.2
        · obtain ⟨s, sl, e1, _⟩ := h.par_stem hs hi
          rw [e1] at hw
          rcases hw with g | g
          · exact absurd (h.stem_anc (List.mem_append_left _ sl)).1 g.2
          · exact g.2
      exact Or.inr ⟨(h.stem_anc hs).1, hv⟩
    · rw [h.par_off hs] at hw
      have hwo : w ≠ a.u_out := fun e => hs (by rw [e]; simp)
      rcases hw with g | g
      · exact Or.inl ⟨g.1.up (Anc.of_par a w), fun q => g.2 (q.parent hwo)⟩
      · exact Or.inr ⟨g.1.up (Anc.of_par a w), g.2⟩
  · intro z hz hne
    rcases hz with g | g
    · have hs : z ∉ l ++ [a.u_out] := fun q => g.2 (h.stem_anc q).1
      rw [h.par_off hs]
      exact Or.inl ⟨g.1.parent hne, fun q => g.2 (q.up (Anc.of_par a z))⟩
    · by_cases hs : z ∈ l ++ [a.u_out]
      · by_cases hi : z = a.u_in
        · rw [hi, h.par_in]
          exact Or.inl ⟨g.2, ho.2.2⟩
        · obtain ⟨s, sl, e1, _⟩ := h.par_stem hs hi
          rw [e1]
          exact Or.inr ⟨(h.stem_anc (List.mem_append_left _ sl)).1, g.2⟩
      · rw [h.par_off hs]
        have hzo : z ≠ a.u_out := fun e => hs (by rw [e]; simp)
        exact Or.inr ⟨g.1.parent hzo, g.2⟩
  · intro hn
    rcases hn with g | g
    · exact h.old.anc_root u0 g.1
    · have := h.old.anc_root ho.1 g.1
      omega
  · intro z hz
    rcases hz with g | g
    · exact h.old.anc_range u0 un g.1
    · exact h.old.anc_range ho.1 (le_of_lt ho.2.1) g.1

/-- After the turn, the subtree of a node of the block of `u_out` that is not on the stem is
its old subtree. -/
theorem Turned.anc_in {a c : NetSimplex} {n m : Nat} {l : List Int} (h : Turned a c n m l)
    {u : Int} (hu : u ∉ l ++ [a.u_out]) (hB : a.Anc a.u_out u) (w : Int) :
    c.Anc u w ↔ a.Anc u w := by
  have ho := h.out_range
  have hr := h.old.anc_range ho.1 (le_of_lt ho.2.1) hB
  refine h.new.anc_iff (fun w => a.Anc u w) (Anc.self _ _) ?_ ?_ ?_ ?_ w
  · intro w hw
    by_cases hs : w ∈ l ++ [a.u_out]
    · exfalso
      by_cases hi : w = a.u_in
      · rw [hi, h.par_in] at hw
        exact ho.2.2 (hB.up hw)
      · obtain ⟨s, sl, e1, _⟩ := h.par_stem hs hi
        rw [e1] at hw
        exact h.sub_off hu hB hw (List.mem_append_left _ sl)
    · rw [h.par_off hs] at hw
      exact hw.up (Anc.of_par a w)
  · intro z hz hne
    rw [h.par_off (h.sub_off hu hB hz)]
    exact hz.parent hne
  · intro hn
    exact h.old.anc_root hr.1 hn
  · intro z hz
    exact h.old.anc_range hr.1 hr.2 hz

/-- After the turn, the subtree of a stem node: the block of `u_out` without the old subtree
of the stem node before it; for `u_in` the whole block. -/
theorem Turned.anc_stem {a c : NetSimplex} {n m : Nat} {l : List Int} (h : Turned a c n m l)
    {u : Int} (hu : u ∈ l ++ [a.u_out]) (w : Int) :
    c.Anc u w ↔ a.Anc a.u_out w ∧ (u ≠ a.u_in → ¬ a.Anc (c.par u) w) := by
  have ho := h.out_range
  have hur := h.stem u hu
  refine h.new.anc_iff (fun w => a.Anc a.u_out w ∧ (u ≠ a.u_in → ¬ a.Anc (c.par u) w))
    ⟨(h.stem_anc hu).1, ?_⟩ ?_ ?_ ?_ ?_ w
  · intro hi g
    obtain ⟨q, ql, e1, e2⟩ := h.par_stem hu hi
    rw [e1] at g
    have hq := h.stem q (List.mem_append_left _ ql)
    have := h.old.anc_antisymm hq.1 (le_of_lt hq.2.1) g (by rw [← e2]; exact Anc.of_par a q)
    rw [← this] at e2
    exact h.old.par_ne hq.1 hq.2.1 e2
  · intro w hw
    by_cases hs : w ∈ l ++ [a.u_out]
    · refine ⟨(h.stem_anc hs).1, fun hi g => ?_⟩
      by_cases hwi : w = a.u_in
      · rw [hwi, h.par_in] at hw
        exact ho.2.2 hw.1
      · obtain ⟨s, sl, e1, e2⟩ := h.par_stem hs hwi
        rw [e1] at hw
        exact hw.2 hi (g.up (by rw [← e2]; exact Anc.of_par a s))
    · rw [h.par_off hs] at hw
      refine ⟨hw.1.up (Anc.of_par a w), fun hi g => hw.2 hi (g.parent ?_)⟩
      intro e
      obtain ⟨q, ql, e1, _⟩ := h.par_stem hu hi
      rw [e, e1] at hs
      exact hs (List.mem_append_left _ ql)
  · intro z hz hne
    by_cases hs : z ∈ l ++ [a.u_out]
    · by_cases hzi : z = a.u_in
      · exfalso
        have hi : u ≠ a.u_in := fun e => hne (by rw [hzi, e])
        obtain ⟨q, ql, e1, _⟩ := h.par_stem hu hi
        rw [hzi, e1] at hz
        exact hz.2 hi (h.stem_anc (List.mem_append_left _ ql)).2
      · obtain ⟨s, sl, e1, e2⟩ := h.par_stem hs hzi
        rw [e1]
        refine ⟨(h.stem_anc (List.mem_append_left _ sl)).1, fun hi g => ?_⟩
        obtain ⟨q, ql, f1, f2⟩ := h.par_stem hu hi
        rw [f1] at g
        by_cases hsq : s = q
        · rw [hsq, f2] at e2
          exact hne e2.symm
        · have := g.parent hsq
          rw [e2] at this
          have hz2 := hz.2 hi
          rw [f1] at hz2
          exact hz2 this
    · rw [h.par_off hs]
      have hzo : z ≠ a.u_out := fun e => hs (by rw [e]; simp)
      exact ⟨hz.1.parent hzo, fun hi g => hz.2 hi (g.up (Anc.of_par a z))⟩
  · intro hn
    have := h.old.anc_root ho.1 hn.1
    omega
  · intro z hz
    exact h.old.anc_range ho.1 (le_of_lt ho.2.1) hz.1

end NetSimplex

/-! ## Insertion into a list -/

namespace NetSimplex

theorem insAfter_not_mem {v : Int} {X : List Int} : ∀ (L : List Int), v ∉ L →
    insAfter v X L = L := by
  intro L
  induction L with
  | nil => intro _; rfl
  | cons a L ih =>
    intro h
    have h1 : a ≠ v := fun e => h (by rw [e]; exact List.mem_cons_self _ _)
    have h2 : v ∉ L := fun m => h (List.mem_cons_of_mem _ m)
    show (if a = v then a :: (X ++ L) else a :: insAfter v X L) = a :: L
    rw [if_neg h1, ih h2]

theorem insAfter_append_left {v : Int} {X : List Int} : ∀ (p q : List Int), v ∈ p →
    insAfter v X (p ++ q) = insAfter v X p ++ q := by
  intro p
  induction p with
  | nil => intro q h; simp at h
  | cons a p ih =>
    intro q h
    show (if a = v then a :: (X ++ (p ++ q)) else a :: insAfter v X (p ++ q)) =
      (if a = v then a :: (X ++ p) else a :: insAfter v X p) ++ q
    by_cases e : a = v
    · rw [if_pos e, if_pos e]; simp
    · rw [if_neg e, if_neg e]
      have : v ∈ p := by
        rcases List.mem_cons.1 h with g | g
        · exact absurd g.symm e
        · exact g
      rw [ih q this]; rfl

theorem insAfter_append_right {v : Int} {X : List Int} : ∀ (p q : List Int), v ∉ p →
    insAfter v X (p ++ q) = p ++ insAfter v X q := by
  intro p
  induction p with
  | nil => intro q _; rfl
  | cons a p ih =>
    intro q h
    have h1 : a ≠ v := fun e => h (by rw [e]; exact List.mem_cons_self _ _)
    have h2 : v ∉ p := fun m => h (List.mem_cons_of_mem _ m)
    show (if a = v then a :: (X ++ (p ++ q)) else a :: insAfter v X (p ++ q)) = _
    rw [if_neg h1, ih q h2]; rfl

theorem insAfter_length {v : Int} {X : List Int} : ∀ (L : List Int), v ∈ L →
    (insAfter v X L).length = L.length + X.length := by
  intro L h
  rw [(insAfter_perm L h).length_eq, List.length_append]
  omega

/-- The last node after an insertion: the last inserted node if the insertion is at the
end. -/
theorem insAfter_getLast {v : Int} {X : List Int} (hX : X ≠ []) : ∀ (L : List Int), L.Nodup →
    v ∈ L → (L.getLast? = some v → (insAfter v X L).getLast? = X.getLast?) ∧
      (L.getLast? ≠ some v → (insAfter v X L).getLast? = L.getLast?) := by
  intro L
  induction L with
  | nil => intro _ h; simp at h
  | cons a L ih =>
    intro nd h
    obtain ⟨na, ndL⟩ := List.nodup_cons.1 nd
    by_cases e : a = v
    · have e1 : insAfter v X (a :: L) = a :: (X ++ L) := by
        show (if a = v then a :: (X ++ L) else a :: insAfter v X L) = _
        rw [if_pos e]
      rw [e1]
      constructor
      · intro hl
        have hL : L = [] := by
          cases L with
          | nil => rfl
          | cons b L' =>
            exfalso
            have : (b :: L').getLast? = some v := by
              rw [← hl]; simp [List.getLast?_cons_cons]
            have := mem_of_getLast this
            rw [← e] at this
            exact na this
        rw [hL, List.append_nil]
        obtain ⟨x, X', rfl⟩ := List.exists_cons_of_ne_nil hX
        simp [List.getLast?_cons_cons]
      · intro hl
        cases L with
        | nil => exact absurd (by rw [e]; rfl) hl
        | cons b L' =>
          have : a :: (X ++ b :: L') = (a :: X) ++ (b :: L') := rfl
          rw [this, List.getLast?_append]
          obtain ⟨z, hz⟩ : ∃ z, (b :: L').getLast? = some z :=
            ⟨_, List.getLast?_eq_getLast _ (by simp)⟩
          rw [List.getLast?_cons_cons, hz]; rfl
    · have e1 : insAfter v X (a :: L) = a :: insAfter v X L := by
        show (if a = v then a :: (X ++ L) else a :: insAfter v X L) = _
        rw [if_neg e]
      have hvL : v ∈ L := by
        rcases List.mem_cons.1 h with g | g
        · exact absurd g.symm e
        · exact g
      obtain ⟨b, L', eL⟩ := List.exists_cons_of_ne_nil (List.ne_nil_of_mem hvL)
      obtain ⟨i1, i2⟩ := ih ndL hvL
      have hne : insAfter v X L ≠ [] := by
        intro h0
        have : v ∈ insAfter v X L := (@mem_insAfter v X L hvL v).2 (Or.inl hvL)
        rw [h0] at this
        simp at this
      obtain ⟨c, I', eI⟩ := List.exists_cons_of_ne_nil hne
      rw [e1]
      have g1 : (a :: insAfter v X L).getLast? = (insAfter v X L).getLast? := by
        rw [eI]; simp [List.getLast?_cons_cons]
      have g2 : (a :: L).getLast? = L.getLast? := by
        rw [eL]; simp [List.getLast?_cons_cons]
      rw [g1, g2]
      exact ⟨i1, i2⟩

/-- Two ancestors of one node are comparable. -/
theorem Anc.comparable {ns : NetSimplex} {u v w : Int} (h1 : ns.Anc u w) (h2 : ns.Anc v w) :
    ns.Anc u v ∨ ns.Anc v u := by
  obtain ⟨i, e1⟩ := h1
  obtain ⟨j, e2⟩ := h2
  by_cases hij : i ≤ j
  · right
    refine ⟨j - i, ?_⟩
    rw [← e1, ← Function.iterate_add_apply]
    have : j - i + i = j := by omega
    rw [this]; exact e2
  · left
    refine ⟨i - j, ?_⟩
    rw [← e2, ← Function.iterate_add_apply]
    have : i - j + j = i := by omega
    rw [this]; exact e1

end NetSimplex

/-- Two blocks of a list without common nodes lie one after the other. -/
theorem disjoint_split {p X q pre B post : List Int} (hX : X ≠ []) (hB : B ≠ [])
    (hd : ∀ w ∈ X, w ∉ B) (h : p ++ X ++ q = pre ++ B ++ post) :
    (∃ r, pre = p ++ X ++ r ∧ q = r ++ B ++ post) ∨
    (∃ r, post = r ++ X ++ q ∧ p = pre ++ B ++ r) := by
  obtain ⟨x, X', eX⟩ := List.exists_cons_of_ne_nil hX
  obtain ⟨b, B', eB⟩ := List.exists_cons_of_ne_nil hB
  have h1 : (p ++ X) ++ q = pre ++ (B ++ post) := by rw [h]; simp
  rcases List.append_eq_append_iff.1 h1 with ⟨c, e1, e2⟩ | ⟨c, e1, e2⟩
  · -- pre = (p ++ X) ++ c
    left
    exact ⟨c, e1, by rw [e2]; simp⟩
  · -- p ++ X = pre ++ c, B ++ post = c ++ q
    cases c with
    | nil =>
      left
      refine ⟨[], by rw [List.append_nil] at e1 ⊢; exact e1.symm, ?_⟩
      simpa using e2.symm
    | cons c0 c' =>
      rcases List.append_eq_append_iff.1 e1 with ⟨d, f1, f2⟩ | ⟨d, f1, f2⟩
      · -- pre = p ++ d, X = d ++ c0 :: c'
        exfalso
        have hc : c0 = b := by
          rw [eB] at e2
          simp only [List.cons_append, List.cons.injEq] at e2
          exact e2.1.symm
        have : c0 ∈ X := by rw [f2]; simp
        exact hd c0 this (by rw [hc, eB]; exact List.mem_cons_self _ _)
      · -- p = pre ++ d, c0 :: c' = d ++ X
        right
        rw [f2] at e2
        have e3 : B ++ post = d ++ (X ++ q) := by rw [e2]; simp
        rcases List.append_eq_append_iff.1 e3 with ⟨r, g1, g2⟩ | ⟨r, g1, g2⟩
        · -- d = B ++ r, post = r ++ (X ++ q)
          exact ⟨r, by rw [g2]; simp, by rw [f1, g1]; simp⟩
        · -- B = d ++ r, X ++ q = r ++ post
          cases r with
          | nil =>
            refine ⟨[], ?_, ?_⟩
            · simpa using g2.symm
            · rw [f1]
              rw [List.append_nil] at g1
              rw [g1]; simp
          | cons r0 r' =>
            exfalso
            have hr : r0 = x := by
              rw [eX] at g2
              simp only [List.cons_append, List.cons.injEq] at g2
              exact g2.1.symm
            have : r0 ∈ B := by rw [g1]; simp
            exact hd x (by rw [eX]; exact List.mem_cons_self _ _) (by rw [← hr]; exact this)

/-! ## Blocks outside the block of u_out -/

theorem nodup_remove_mid {p B q : List Int} (nd : (p ++ B ++ q).Nodup) : (p ++ q).Nodup := by
  have hs : (p ++ q).Sublist (p ++ B ++ q) := by
    rw [List.append_assoc]
    exact List.Sublist.append (List.Sublist.refl p) (List.sublist_append_right B q)
  exact nd.sublist hs

theorem getLast_append_ne {A Y : List Int} (hY : Y ≠ []) : (A ++ Y).getLast? = Y.getLast? := by
  rw [List.getLast?_append]
  obtain ⟨z, hz⟩ : ∃ z, Y.getLast? = some z := ⟨_, List.getLast?_eq_getLast _ hY⟩
  rw [hz]; rfl

namespace NetSimplex

/-- A block of a list, after an insertion into the list: the block with the insertion if it
holds the node after which the list is inserted, the block itself if not. -/
theorem ins_block {R p X q B' : List Int} {v : Int} (hR : R = p ++ X ++ q) (nd : R.Nodup) :
    ∃ p' q', insAfter v B' R = p' ++ (if v ∈ X then insAfter v B' X else X) ++ q' := by
  rw [hR] at nd ⊢
  have nd1 : (p ++ (X ++ q)).Nodup := by rw [← List.append_assoc]; exact nd
  obtain ⟨_, ndXq, dj1⟩ := List.nodup_append.1 nd1
  obtain ⟨_, _, dj2⟩ := List.nodup_append.1 ndXq
  by_cases hp : v ∈ p
  · have hX : v ∉ X := fun g => dj1 hp (List.mem_append_left _ g)
    rw [if_neg hX]
    refine ⟨insAfter v B' p, q, ?_⟩
    rw [List.append_assoc, insAfter_append_left p (X ++ q) hp, List.append_assoc]
  · by_cases hX : v ∈ X
    · rw [if_pos hX]
      refine ⟨p, q, ?_⟩
      rw [List.append_assoc, insAfter_append_right p (X ++ q) hp,
        insAfter_append_left X q hX, List.append_assoc]
    · rw [if_neg hX]
      refine ⟨p, insAfter v B' q, ?_⟩
      rw [List.append_assoc, insAfter_append_right p (X ++ q) hp,
        insAfter_append_right X q hX, List.append_assoc]

set_option maxHeartbeats 1000000 in
/-- The old block of a node outside the block of `u_out`, once the block of `u_out` has been
taken out of the thread order. -/
theorem Threaded.block_minus {a : NetSimplex} {n m : Nat} {T pre blk post : List Int}
    {uo : Int} (ht : Threaded a n m T) (hT : T = pre ++ (uo :: blk) ++ post)
    (hB : ∀ w, w ∈ uo :: blk ↔ a.Anc uo w) (huo : 0 ≤ uo ∧ uo < n)
    {u : Int} (u0 : 0 ≤ u) (un : u ≤ n) (hu : ¬ a.Anc uo u) :
    ∃ p X q, pre ++ post = p ++ X ++ q ∧ X.head? = some u ∧
      (∀ w, w ∈ X ↔ a.Anc u w ∧ ¬ a.Anc uo w) ∧
      (a.Anc u uo → (X.length : Int) = a.succOf u - (uo :: blk).length) ∧
      (¬ a.Anc u uo → (X.length : Int) = a.succOf u) ∧
      (a.Anc u uo → a.lastOf u = a.lastOf uo → X.getLast? = some (a.revOf uo)) ∧
      (¬ (a.Anc u uo ∧ a.lastOf u = a.lastOf uo) → X.getLast? = some (a.lastOf u)) ∧
      X.Nodup := by
  obtain ⟨p0, x0, q0, hT0, hm0, hlen0, hlast0⟩ := ht.blocks u u0 un
  have nd := ht.nodup
  have huu : u ≠ uo := fun e => hu (by rw [e]; exact Anc.self _ _)
  have hols : (uo :: blk).getLast? = some (a.lastOf uo) := by
    obtain ⟨po, xo, qo, hTo, hmo, _, hlasto⟩ := ht.blocks uo huo.1 (le_of_lt huo.2)
    have nd' : (pre ++ uo :: (blk ++ post)).Nodup := by
      rw [hT] at nd; simpa using nd
    have e1 : pre ++ uo :: (blk ++ post) = po ++ uo :: (xo ++ qo) := by
      have := hT.symm.trans hTo
      simpa using this
    obtain ⟨e2, e3⟩ := split_unique _ _ _ _ nd' e1
    have hlen : blk.length = xo.length := by
      have p1 : (uo :: blk).Perm (uo :: xo) :=
        (List.perm_ext_iff_of_nodup
          (by
            rw [hT] at nd
            exact (List.nodup_append.1 (List.nodup_append.1 nd).1).2.1)
          (by
            rw [hTo] at nd
            exact (List.nodup_append.1 (List.nodup_append.1 nd).1).2.1)).2
          (fun w => (hB w).trans (hmo w).symm)
      have := p1.length_eq
      simpa using this
    have : blk = xo := by
      have := congrArg (List.take blk.length) e3
      rw [List.take_left, hlen, List.take_left] at this
      exact this
    rw [this]; exact hlasto
  by_cases hα : a.Anc u uo
  · have hsub : ∀ w ∈ uo :: blk, w ∈ u :: x0 := fun w hw => (hm0 w).2 (hα.up ((hB w).1 hw))
    obtain ⟨A, Y, eX, ep, eq⟩ := block_nested nd hT0 hT hsub
    have ndX : (A ++ (uo :: blk) ++ Y).Nodup := by
      rw [hT0, eX] at nd
      exact (List.nodup_append.1 (List.nodup_append.1 nd).1).2.1
    have ndX' : (A ++ ((uo :: blk) ++ Y)).Nodup := by rw [← List.append_assoc]; exact ndX
    obtain ⟨_, ndBY, djA⟩ := List.nodup_append.1 ndX'
    obtain ⟨_, _, djB⟩ := List.nodup_append.1 ndBY
    obtain ⟨A', eA⟩ : ∃ A', A = u :: A' := by
      cases A with
      | nil =>
        exfalso
        simp only [List.nil_append, List.cons_append, List.cons.injEq] at eX
        exact huu eX.1
      | cons a0 A' =>
        simp only [List.cons_append, List.cons.injEq] at eX
        exact ⟨A', by rw [eX.1]⟩
    have hAne : A ≠ [] := by rw [eA]; simp
    have ndAY : (A ++ Y).Nodup := by
      have := @nodup_remove_mid A (uo :: blk) Y ndX
      exact this
    refine ⟨p0, A ++ Y, q0, by rw [ep, eq]; simp, by rw [eA]; rfl, ?_, ?_, ?_, ?_, ?_, ndAY⟩
    · intro w
      constructor
      · intro hw
        have hwX : w ∈ u :: x0 := by
          rw [eX]
          rcases List.mem_append.1 hw with g | g
          · exact List.mem_append_left _ (List.mem_append_left _ g)
          · exact List.mem_append_right _ g
        refine ⟨(hm0 w).1 hwX, fun hwB => ?_⟩
        have hwB' := (hB w).2 hwB
        rcases List.mem_append.1 hw with g | g
        · exact djA g (List.mem_append_left _ hwB')
        · exact djB hwB' g
      · rintro ⟨h1, h2⟩
        have hwX := (hm0 w).2 h1
        rw [eX] at hwX
        rcases List.mem_append.1 hwX with g | g
        · rcases List.mem_append.1 g with g' | g'
          · exact List.mem_append_left _ g'
          · exact absurd ((hB w).1 g') h2
        · exact List.mem_append_right _ g
    · intro _
      rw [← hlen0, eX]
      simp only [List.length_append, List.length_cons]
      push_cast
      omega
    · intro h; exact absurd hα h
    · intro _ hl
      have hY : Y = [] := by
        by_contra hY
        have h1 : (u :: x0).getLast? = Y.getLast? := by rw [eX]; exact getLast_append_ne hY
        rw [hlast0, hl] at h1
        have m1 := mem_of_getLast h1.symm
        have m2 := mem_of_getLast hols
        exact djB m2 m1
      rw [hY, List.append_nil]
      have hpre := ht.before_block hT (by omega : uo ≠ n)
      rw [ep, getLast_append_ne hAne] at hpre
      exact hpre
    · intro hneg
      have hl : a.lastOf u ≠ a.lastOf uo := fun e => hneg ⟨hα, e⟩
      have hY : Y ≠ [] := by
        intro hY
        rw [hY, List.append_nil] at eX
        have h1 : (u :: x0).getLast? = (uo :: blk).getLast? := by
          rw [eX]; exact getLast_append_ne (by simp)
        rw [hlast0, hols] at h1
        exact hl (Option.some.inj h1)
      rw [getLast_append_ne hY, ← hlast0, eX, getLast_append_ne hY]
  · have hdis : ∀ w ∈ u :: x0, w ∉ uo :: blk := by
      intro w h1 h2
      rcases ((hm0 w).1 h1).comparable ((hB w).1 h2) with g | g
      · exact hα g
      · exact hu g
    have hTT : p0 ++ (u :: x0) ++ q0 = pre ++ (uo :: blk) ++ post := hT0.symm.trans hT
    have hmem : ∀ w, w ∈ u :: x0 ↔ a.Anc u w ∧ ¬ a.Anc uo w := by
      intro w
      constructor
      · intro hw
        exact ⟨(hm0 w).1 hw, fun g => hdis w hw ((hB w).2 g)⟩
      · rintro ⟨h1, _⟩
        exact (hm0 w).2 h1
    have hlast : ¬ (a.Anc u uo ∧ a.lastOf u = a.lastOf uo) →
        (u :: x0).getLast? = some (a.lastOf u) := fun _ => hlast0
    have ndX0 : (u :: x0).Nodup := by
      rw [hT0] at nd
      exact (List.nodup_append.1 (List.nodup_append.1 nd).1).2.1
    rcases disjoint_split (by simp) (by simp) hdis hTT with ⟨r, e1, e2⟩ | ⟨r, e1, e2⟩
    · exact ⟨p0, u :: x0, r ++ post, by rw [e1]; simp, rfl, hmem, fun h => absurd h hα,
        fun _ => hlen0, fun h => absurd h hα, hlast, ndX0⟩
    · exact ⟨pre ++ r, u :: x0, q0, by rw [e1]; simp, rfl, hmem, fun h => absurd h hα,
        fun _ => hlen0, fun h => absurd h hα, hlast, ndX0⟩

/-- The block of `u_out` ends with `_last_succ[u_out]`. -/
theorem Threaded.block_last {a : NetSimplex} {n m : Nat} {T pre blk post : List Int}
    {u : Int} (ht : Threaded a n m T) (hT : T = pre ++ (u :: blk) ++ post)
    (hB : ∀ w, w ∈ u :: blk ↔ a.Anc u w) (h0 : 0 ≤ u) (hn : u ≤ n) :
    (u :: blk).getLast? = some (a.lastOf u) ∧ ((u :: blk).length : Int) = a.succOf u := by
  have nd := ht.nodup
  obtain ⟨po, xo, qo, hTo, hmo, hlen, hlasto⟩ := ht.blocks u h0 hn
  have nd' : (pre ++ u :: (blk ++ post)).Nodup := by
    rw [hT] at nd; simpa using nd
  have e1 : pre ++ u :: (blk ++ post) = po ++ u :: (xo ++ qo) := by
    have := hT.symm.trans hTo
    simpa using this
  obtain ⟨e2, e3⟩ := split_unique _ _ _ _ nd' e1
  have hl : blk.length = xo.length := by
    have p1 : (u :: blk).Perm (u :: xo) :=
      (List.perm_ext_iff_of_nodup
        (by
          rw [hT] at nd
          exact (List.nodup_append.1 (List.nodup_append.1 nd).1).2.1)
        (by
          rw [hTo] at nd
          exact (List.nodup_append.1 (List.nodup_append.1 nd).1).2.1)).2
        (fun w => (hB w).trans (hmo w).symm)
    have := p1.length_eq
    simpa using this
  have : blk = xo := by
    have := congrArg (List.take blk.length) e3
    rw [List.take_left, hl, List.take_left] at this
    exact this
  rw [this]; exact ⟨hlasto, hlen⟩

/-- The new block of a node outside the block of `u_out`: its old block without the block of
`u_out`, and with the new block `B'` put in after `v_in` if `v_in` is in it. -/
theorem Threaded.block_out {a : NetSimplex} {n m : Nat} {T pre blk post B' : List Int}
    {uo vin lso : Int} (ht : Threaded a n m T) (hT : T = pre ++ (uo :: blk) ++ post)
    (hB : ∀ w, w ∈ uo :: blk ↔ a.Anc uo w) (huo : 0 ≤ uo ∧ uo < n)
    (hv : 0 ≤ vin ∧ vin ≤ n) (hvB : ¬ a.Anc uo vin) (hperm : B'.Perm (uo :: blk))
    (hl : B'.getLast? = some lso) {u : Int} (u0 : 0 ≤ u) (un : u ≤ n) (hu : ¬ a.Anc uo u) :
    ∃ p X q lm, insAfter vin B' (pre ++ post) = p ++ X ++ q ∧ X.head? = some u ∧
      (∀ w, w ∈ X ↔ (a.Anc u w ∧ ¬ a.Anc uo w) ∨ (a.Anc uo w ∧ a.Anc u vin)) ∧
      (a.Anc u uo → a.Anc u vin → (X.length : Int) = a.succOf u) ∧
      (a.Anc u uo → ¬ a.Anc u vin → (X.length : Int) = a.succOf u - a.succOf uo) ∧
      (¬ a.Anc u uo → a.Anc u vin → (X.length : Int) = a.succOf u + a.succOf uo) ∧
      (¬ a.Anc u uo → ¬ a.Anc u vin → (X.length : Int) = a.succOf u) ∧
      (a.Anc u uo → a.lastOf u = a.lastOf uo → lm = a.revOf uo) ∧
      (¬ (a.Anc u uo ∧ a.lastOf u = a.lastOf uo) → lm = a.lastOf u) ∧
      (a.Anc u vin → lm = vin → X.getLast? = some lso) ∧
      (¬ (a.Anc u vin ∧ lm = vin) → X.getLast? = some lm) := by
  obtain ⟨p, X, q, hR, hh, hm, hl1, hl2, hs1, hs2, _⟩ := ht.block_minus hT hB huo u0 un hu
  have ndR : (pre ++ post).Nodup := nodup_remove_mid (by rw [← hT]; exact ht.nodup)
  have hvT : vin ∈ T := (ht.mem vin).2 hv
  have hvR : vin ∈ pre ++ post := by
    rw [hT] at hvT
    rcases List.mem_append.1 hvT with g | g
    · rcases List.mem_append.1 g with g' | g'
      · exact List.mem_append_left _ g'
      · exact absurd ((hB vin).1 g') hvB
    · exact List.mem_append_right _ g
  obtain ⟨p', q', hI⟩ := @ins_block (pre ++ post) p X q B' vin hR ndR
  have hlenB : ((uo :: blk).length : Int) = a.succOf uo :=
    (ht.block_last hT hB huo.1 (le_of_lt huo.2)).2
  have hlenB' : (B'.length : Int) = a.succOf uo := by rw [hperm.length_eq]; exact hlenB
  have hB'ne : B' ≠ [] := by
    intro e
    rw [e] at hl
    simp at hl
  have hXne : X ≠ [] := by
    intro e
    rw [e] at hh
    simp at hh
  obtain ⟨lm, hlm⟩ : ∃ lm, X.getLast? = some lm := ⟨_, List.getLast?_eq_getLast _ hXne⟩
  have hvX : vin ∈ X ↔ a.Anc u vin := by
    rw [hm vin]
    exact ⟨fun g => g.1, fun g => ⟨g, hvB⟩⟩
  have ndX : X.Nodup := by
    rw [hR] at ndR
    exact (List.nodup_append.1 (List.nodup_append.1 ndR).1).2.1
  have e1 : a.Anc u uo → a.lastOf u = a.lastOf uo → lm = a.revOf uo := by
    intro g1 g2
    have := hs1 g1 g2
    rw [hlm] at this
    exact Option.some.inj this
  have e2 : ¬ (a.Anc u uo ∧ a.lastOf u = a.lastOf uo) → lm = a.lastOf u := by
    intro g
    have := hs2 g
    rw [hlm] at this
    exact Option.some.inj this
  by_cases hin : a.Anc u vin
  · have hvX' := hvX.2 hin
    rw [if_pos hvX'] at hI
    obtain ⟨i1, i2⟩ := insAfter_getLast hB'ne X ndX hvX'
    refine ⟨p', insAfter vin B' X, q', lm, hI, by rw [insAfter_head]; exact hh, ?_, ?_, ?_, ?_, ?_,
      e1, e2, ?_, ?_⟩
    · intro w
      rw [mem_insAfter X hvX' w, hm w]
      constructor
      · rintro (g | g)
        · exact Or.inl g
        · exact Or.inr ⟨(hB w).1 (hperm.mem_iff.1 g), hin⟩
      · rintro (g | g)
        · exact Or.inl g
        · exact Or.inr (hperm.mem_iff.2 ((hB w).2 g.1))
    · intro g _
      rw [insAfter_length X hvX']
      push_cast
      rw [hl1 g, hlenB', hlenB]
      omega
    · intro _ g; exact absurd hin g
    · intro g _
      rw [insAfter_length X hvX']
      push_cast
      rw [hl2 g, hlenB']
    · intro _ g; exact absurd hin g
    · intro _ g
      rw [i1 (by rw [hlm, g]), hl]
    · intro g
      have : X.getLast? ≠ some vin := by
        rw [hlm]
        intro e
        exact g ⟨hin, Option.some.inj e⟩
      rw [i2 this, hlm]
  · have hvX' : vin ∉ X := fun g => hin (hvX.1 g)
    rw [if_neg hvX'] at hI
    refine ⟨p', X, q', lm, hI, hh, ?_, ?_, ?_, ?_, ?_, e1, e2, ?_, ?_⟩
    · intro w
      rw [hm w]
      constructor
      · intro g; exact Or.inl g
      · rintro (g | g)
        · exact g
        · exact absurd g.2 hin
    · intro _ g; exact absurd g hin
    · intro g _
      rw [hl1 g, hlenB]
    · intro _ g; exact absurd g hin
    · intro g _
      exact hl2 g
    · intro g; exact absurd g hin
    · intro _; exact hlm

end NetSimplex

/-! ## The loops over succ_num and last_succ -/

namespace NetSimplex

theorem succOf_set {a b : NetSimplex} {i v : Int} (h : a.set_succ_num i v = some b)
    (x : Int) : b.succOf x = if x = i then v else a.succOf x := by
  obtain ⟨hw, _, _⟩ := set_succ_num_spec h
  unfold succOf
  by_cases he : x = i
  · rw [if_pos he, he, rd_wr_same hw]
    rfl
  · rw [if_neg he, rd_wr_ne hw he]

theorem succOf_congr {a b : NetSimplex} (h : b.succ_num = a.succ_num) (x : Int) :
    b.succOf x = a.succOf x := by
  unfold succOf
  rw [h]

/-- No parent chain of a spanning tree returns to its start. -/
theorem SpanningTree.no_loop {ns : NetSimplex} {n m : Nat} (h : SpanningTree ns n m)
    {u : Int} (h0 : 0 ≤ u) (k : Nat) : (ns.par)^[k + 1] u ≠ u := by
  by_cases hn : u < n
  · exact h.no_cycle h0 hn k
  · intro e
    have hp : ns.par u = -1 := by
      by_cases hu : u = n
      · rw [hu]; exact h.par_at_root
      · apply par_ge
        have hl : (ns.parent.length : Int) = n + 1 := by
          have := h.sized.1 Fld.parent
          simp only [Fld.isNode] at this
          have e2 : ns.parent.length = n + 1 := by simpa using this
          rw [e2]; push_cast; rfl
        rw [hl]; omega
    rw [Function.iterate_succ_apply, hp, par_iter_neg] at e
    omega

/-- The loop `for (u = ...; u != join; u = _parent[u]) _succ_num[u] += d` adds `d` on the
walk from its start to `join`. -/
theorem succNumLoop_spec (d : Int) : ∀ (k : Nat) (a : NetSimplex) (u : Int) (b : NetSimplex),
    succNumLoop d k a u = some b →
    ∃ L, Walk a a.join u L ∧
      ∀ x, b.succOf x = if x ∈ L then a.succOf x + d else a.succOf x := by
  intro k
  induction k with
  | zero => intro a u b h; simp [succNumLoop] at h
  | succ k ih =>
    intro a u b h
    unfold succNumLoop at h
    split at h
    · rename_i hu
      simp only [Option.some.injEq] at h
      subst h
      exact ⟨[], hu, fun x => by simp⟩
    · rename_i hu
      simp only [Option.bind_eq_bind, Option.bind_eq_some] at h
      obtain ⟨s0, hs0, n1, h1, p, hp, h⟩ := h
      have k1 : Writes [Fld.succ_num] a n1 := set_succ_num_writes h1 (by decide)
      have epar : n1.parent = a.parent := k1.vec Fld.parent (by decide)
      obtain ⟨L, hw, hv⟩ := ih n1 p b h
      rw [k1.eq_join] at hw
      have hp' : a.par u = p := by
        rw [← par_congr epar]; exact par_eq hp
      have hw0 : Walk a a.join u (u :: L) :=
        ⟨rfl, hu, by rw [hp']; exact Walk.congr (by rw [epar]) _ _ _ hw⟩
      have hnd := Walk.nodup _ _ hw0
      have huL : u ∉ L := (List.nodup_cons.1 hnd).1
      refine ⟨u :: L, hw0, fun x => ?_⟩
      rw [hv x, succOf_set h1 x]
      by_cases hx : x = u
      · rw [hx, if_neg huL, if_pos rfl, if_pos (List.mem_cons_self _ _), succOf_eq hs0]
      · rw [if_neg hx]
        by_cases hxL : x ∈ L
        · rw [if_pos hxL, if_pos (List.mem_cons_of_mem _ hxL)]
        · have : x ∉ u :: L := fun m => by
            rcases List.mem_cons.1 m with e | e
            · exact hx e
            · exact hxL e
          rw [if_neg hxL, if_neg this]

/-- The nodes of a walk and its end are proper ancestors of the node before its start. -/
theorem Walk.above {ns : NetSimplex} {j : Int} {l : List Int} {u p : Int}
    (h : Walk ns j p l) (hp : ns.par u = p) :
    ∀ x ∈ l ++ [j], ∃ i : Nat, (ns.par)^[i + 1] u = x := by
  intro x hx
  obtain ⟨i1, i2⟩ := Walk.iter _ _ h
  rcases List.mem_append.1 hx with g | g
  · obtain ⟨i, _, e⟩ := i2 x g
    exact ⟨i, by rw [Function.iterate_succ_apply, hp]; exact e⟩
  · have : x = j := by simpa using g
    exact ⟨l.length, by rw [Function.iterate_succ_apply, hp, this]; exact i1⟩

/-- The loop updating `_last_succ` from `v_in` towards the root: it writes on a walk whose
nodes all have `_last_succ == v_in`, and stops at `-1` or at a node with another entry. -/
theorem lastSuccIn_spec (v : Int) : ∀ (k : Nat) (a : NetSimplex) (u : Int) (b : NetSimplex),
    lastSuccIn v k a u = some b → (∀ x : Int, 0 ≤ x → ∀ i : Nat, (a.par)^[i + 1] x ≠ x) →
    ∃ L y, Walk a y u L ∧ (∀ x ∈ L, a.lastOf x = a.v_in ∧ 0 ≤ x) ∧
      (y = -1 ∨ (a.lastOf y ≠ a.v_in ∧ 0 ≤ y)) ∧
      ∀ x, b.lastOf x = if x ∈ L then v else a.lastOf x := by
  intro k
  induction k with
  | zero => intro a u b h; simp [lastSuccIn] at h
  | succ k ih =>
    intro a u b h hac
    unfold lastSuccIn at h
    split at h
    · rename_i hu
      simp only [Option.some.injEq] at h
      subst h
      exact ⟨[], u, rfl, by simp, Or.inl hu, fun x => by simp⟩
    · rename_i hu
      simp only [Option.bind_eq_bind, Option.bind_eq_some] at h
      obtain ⟨l0, hl0, h⟩ := h
      have u0 : 0 ≤ u := (rd_some_range hl0).1
      split at h
      · rename_i hl
        simp only [Option.bind_eq_bind, Option.bind_eq_some] at h
        obtain ⟨n1, h1, p, hp, h⟩ := h
        have k1 : Writes [Fld.last_succ] a n1 := set_last_succ_writes h1 (by decide)
        have epar : n1.parent = a.parent := k1.vec Fld.parent (by decide)
        have hac1 : ∀ x : Int, 0 ≤ x → ∀ i : Nat, (n1.par)^[i + 1] x ≠ x := by
          intro x hx i
          have : n1.par = a.par := funext (par_congr epar)
          rw [this]; exact hac x hx i
        obtain ⟨L, y, hw, hL, hy, hv⟩ := ih n1 p b h hac1
        rw [k1.eq_v_in] at hL hy
        have hp' : a.par u = p := by
          rw [← par_congr epar]; exact par_eq hp
        have hwa : Walk a y p L := Walk.congr (by rw [epar]) _ _ _ hw
        have hab := Walk.above hwa hp'
        have hne : ∀ x ∈ L ++ [y], x ≠ u := by
          intro x hx e
          obtain ⟨i, hi⟩ := hab x hx
          rw [e] at hi
          exact hac u u0 i hi
        have huL : u ∉ L := fun m => hne u (List.mem_append_left _ m) rfl
        have huy : u ≠ y := fun e => hne y (by simp) e.symm
        refine ⟨u :: L, y, ⟨rfl, huy, by rw [hp']; exact hwa⟩, ?_, ?_, ?_⟩
        · intro x hx
          rcases List.mem_cons.1 hx with e | e
          · rw [e]
            exact ⟨by rw [lastOf_eq hl0]; exact hl, u0⟩
          · have := hL x e
            rw [lastOf_set h1, if_neg (fun q => huL (by rw [← q]; exact e))] at this
            exact this
        · rcases hy with g | g
          · exact Or.inl g
          · right
            rw [lastOf_set h1, if_neg (fun q => huy q.symm)] at g
            exact g
        · intro x
          rw [hv x, lastOf_set h1 x]
          by_cases hx : x = u
          · rw [hx, if_neg huL, if_pos rfl, if_pos (List.mem_cons_self _ _)]
          · rw [if_neg hx]
            by_cases hxL : x ∈ L
            · rw [if_pos hxL, if_pos (List.mem_cons_of_mem _ hxL)]
            · have : x ∉ u :: L := fun m => by
                rcases List.mem_cons.1 m with e | e
                · exact hx e
                · exact hxL e
              rw [if_neg hxL, if_neg this]
      · rename_i hl
        simp only [Option.some.injEq] at h
        subst h
        refine ⟨[], u, rfl, by simp, Or.inr ⟨?_, u0⟩, fun x => by simp⟩
        rw [lastOf_eq hl0]; exact hl

/-- The loop updating `_last_succ` from `v_out` towards the root: it writes on a walk whose
nodes all have `_last_succ == old_last_succ`, and stops at the limit or at a node with
another entry. -/
theorem lastSuccOut_spec (lim ols v : Int) : ∀ (k : Nat) (a : NetSimplex) (u : Int)
    (b : NetSimplex), lastSuccOut lim ols v k a u = some b →
    (∀ x : Int, 0 ≤ x → ∀ i : Nat, (a.par)^[i + 1] x ≠ x) →
    ∃ L y, Walk a y u L ∧ (∀ x ∈ L, a.lastOf x = ols ∧ 0 ≤ x ∧ x ≠ lim) ∧
      (y = lim ∨ (a.lastOf y ≠ ols ∧ 0 ≤ y)) ∧
      ∀ x, b.lastOf x = if x ∈ L then v else a.lastOf x := by
  intro k
  induction k with
  | zero => intro a u b h; simp [lastSuccOut] at h
  | succ k ih =>
    intro a u b h hac
    unfold lastSuccOut at h
    split at h
    · rename_i hu
      simp only [Option.some.injEq] at h
      subst h
      exact ⟨[], u, rfl, by simp, Or.inl hu, fun x => by simp⟩
    · rename_i hu
      simp only [Option.bind_eq_bind, Option.bind_eq_some] at h
      obtain ⟨l0, hl0, h⟩ := h
      have u0 : 0 ≤ u := (rd_some_range hl0).1
      split at h
      · rename_i hl
        simp only [Option.bind_eq_bind, Option.bind_eq_some] at h
        obtain ⟨n1, h1, p, hp, h⟩ := h
        have k1 : Writes [Fld.last_succ] a n1 := set_last_succ_writes h1 (by decide)
        have epar : n1.parent = a.parent := k1.vec Fld.parent (by decide)
        have hac1 : ∀ x : Int, 0 ≤ x → ∀ i : Nat, (n1.par)^[i + 1] x ≠ x := by
          intro x hx i
          have : n1.par = a.par := funext (par_congr epar)
          rw [this]; exact hac x hx i
        obtain ⟨L, y, hw, hL, hy, hv⟩ := ih n1 p b h hac1
        have hp' : a.par u = p := by
          rw [← par_congr epar]; exact par_eq hp
        have hwa : Walk a y p L := Walk.congr (by rw [epar]) _ _ _ hw
        have hab := Walk.above hwa hp'
        have hne : ∀ x ∈ L ++ [y], x ≠ u := by
          intro x hx e
          obtain ⟨i, hi⟩ := hab x hx
          rw [e] at hi
          exact hac u u0 i hi
        have huL : u ∉ L := fun m => hne u (List.mem_append_left _ m) rfl
        have huy : u ≠ y := fun e => hne y (by simp) e.symm
        refine ⟨u :: L, y, ⟨rfl, huy, by rw [hp']; exact hwa⟩, ?_, ?_, ?_⟩
        · intro x hx
          rcases List.mem_cons.1 hx with e | e
          · rw [e]
            exact ⟨by rw [lastOf_eq hl0]; exact hl, u0, hu⟩
          · have := hL x e
            rw [lastOf_set h1, if_neg (fun q => huL (by rw [← q]; exact e))] at this
            exact this
        · rcases hy with g | g
          · exact Or.inl g
          · right
            rw [lastOf_set h1, if_neg (fun q => huy q.symm)] at g
            exact g
        · intro x
          rw [hv x, lastOf_set h1 x]
          by_cases hx : x = u
          · rw [hx, if_neg huL, if_pos rfl, if_pos (List.mem_cons_self _ _)]
          · rw [if_neg hx]
            by_cases hxL : x ∈ L
            · rw [if_pos hxL, if_pos (List.mem_cons_of_mem _ hxL)]
            · have : x ∉ u :: L := fun m => by
                rcases List.mem_cons.1 m with e | e
                · exact hx e
                · exact hxL e
              rw [if_neg hxL, if_neg this]
      · rename_i hl
        simp only [Option.some.injEq] at h
        subst h
        refine ⟨[], u, rfl, by simp, Or.inr ⟨?_, u0⟩, fun x => by simp⟩
        rw [lastOf_eq hl0]; exact hl

end NetSimplex

/-! ## The sizes along the stem -/

namespace NetSimplex

set_option maxHeartbeats 1000000 in
/-- The loop over the stem gives every node `x` of the walk from `u` to `u_in` the entry
`_succ_num[u] - _succ_num[parent[x]]` (plus the start value of the running sum), and writes
`tmp_ls` to `_last_succ` of the parents of these nodes. -/
theorem stemUpdate_sizes : ∀ (R : List Int) (k : Nat) (a : NetSimplex) (u p c l : Int)
    (b : NetSimplex), Walk a a.u_in u R → (u ≠ a.u_in → p = a.par u) →
    stemUpdate k a u p c l = some b →
    (∀ x, b.succOf x = if x ∈ R then c + a.succOf u - a.succOf (a.par x) else a.succOf x) ∧
    (∀ x, b.lastOf x = if x ∈ R.map a.par then l else a.lastOf x) := by
  intro R
  induction R with
  | nil =>
    intro k a u p c l b hw _ h
    have hu : u = a.u_in := hw
    cases k with
    | zero => simp [stemUpdate] at h
    | succ k =>
      unfold stemUpdate at h
      rw [if_pos hu] at h
      simp only [Option.some.injEq] at h
      subst h
      exact ⟨fun x => by simp, fun x => by simp⟩
  | cons s R ih =>
    intro k a u p c l b hw hp h
    have hnd : (s :: R).Nodup := Walk.nodup _ _ hw
    have hpm := Walk.par_mem _ _ hw
    have hhn := Walk.head_ne hw
    obtain ⟨hs, hne, hw'⟩ := hw
    have hsR : s ∉ R := (List.nodup_cons.1 hnd).1
    cases k with
    | zero => simp [stemUpdate] at h
    | succ k =>
      unfold stemUpdate at h
      rw [if_neg hne] at h
      simp only [Option.bind_eq_bind, Option.bind_eq_some] at h
      obtain ⟨pp, hpp, n1, h1, dp, hdp, n2, h2, su, hsu, sp, hsp, n3, h3, n4, h4, p2, hp2, h⟩ := h
      have hpu : p = a.par u := hp hne
      have k1 : Writes [Fld.pred] a n1 := set_pred_writes h1 (by decide)
      have k2 : Writes [Fld.pred_dir] n1 n2 := set_pred_dir_writes h2 (by decide)
      have k12 : Writes [Fld.pred, Fld.pred_dir] a n2 :=
        (k1.wider (by decide)).follow (k2.wider (by decide))
      have k3 : Writes [Fld.succ_num] n2 n3 := set_succ_num_writes h3 (by decide)
      have k4 : Writes [Fld.last_succ] n3 n4 := set_last_succ_writes h4 (by decide)
      have k14 : Writes [Fld.pred, Fld.pred_dir, Fld.succ_num, Fld.last_succ] a n4 :=
        ((k12.wider (by decide)).follow (k3.wider (by decide))).follow (k4.wider (by decide))
      have epar : n4.parent = a.parent := k14.vec Fld.parent (by decide)
      have eui : n4.u_in = a.u_in := k14.eq_u_in
      have esu : a.succOf u = su := by
        rw [← succOf_congr (k12.vec Fld.succ_num (by decide))]; exact succOf_eq hsu
      have esp : a.succOf p = sp := by
        rw [← succOf_congr (k12.vec Fld.succ_num (by decide))]; exact succOf_eq hsp
      have hsucc : ∀ x, n4.succOf x = if x = u then c + (su - sp) else a.succOf x := by
        intro x
        rw [succOf_congr (k4.vec Fld.succ_num (by decide)), succOf_set h3 x,
          succOf_congr (k12.vec Fld.succ_num (by decide))]
      have hlast : ∀ x, n4.lastOf x = if x = p then l else a.lastOf x := by
        intro x
        rw [lastOf_set h4 x, lastOf_congr (k3.vec Fld.last_succ (by decide)),
          lastOf_congr (k12.vec Fld.last_succ (by decide))]
      have hw4 : Walk n4 n4.u_in p R := by
        rw [eui, hpu]
        exact Walk.congr epar _ _ _ hw'
      have hp4 : p ≠ n4.u_in → p2 = n4.par p := fun _ => (par_eq hp2).symm
      obtain ⟨r1, r2⟩ := ih k n4 p p2 _ l b hw4 hp4 h
      have hparR : ∀ x ∈ R, a.par x ≠ u := by
        intro x hx e
        rcases hpm x (List.mem_cons_of_mem _ hx) with g | g
        · rw [e, ← hs] at g
          rcases List.mem_cons.1 g with g' | g'
          · exact (List.nodup_cons.1 hnd).1 (by
              have := Walk.par_mem _ _ hw' x hx
              rcases this with t | t
              · rw [e, ← hs] at t
                exact t
              · rw [e] at t
                exact absurd t hne)
          · exact hsR g'
        · rw [e] at g
          exact hne g
      have hpne : p ≠ u := by
        intro e
        have hw2 : Walk a a.u_in u R := by
          rw [hpu] at e
          rw [e] at hw'
          exact hw'
        cases R with
        | nil => exact hne hw2
        | cons r R' =>
          obtain ⟨e1, _, _⟩ := hw2
          exact hsR (by rw [hs, e1]; simp)
      have epar' : n4.par = a.par := funext (par_congr epar)
      constructor
      · intro x
        rw [r1 x, epar']
        by_cases hx : x = u
        · have hxR : x ∉ R := by rw [hx, ← hs]; exact hsR
          rw [if_neg hxR, hsucc x, if_pos hx, if_pos (by rw [hx, ← hs]; simp), hx, ← hpu,
            esu, esp]
          ring
        · by_cases hxR : x ∈ R
          · rw [if_pos hxR, if_pos (List.mem_cons_of_mem _ hxR), hsucc p, if_neg hpne,
              hsucc (a.par x), if_neg (hparR x hxR), esu, esp]
            ring
          · have : x ∉ s :: R := fun m => by
              rcases List.mem_cons.1 m with e | e
              · exact hx (e.trans hs)
              · exact hxR e
            rw [if_neg hxR, if_neg this, hsucc, if_neg hx]
      · intro x
        rw [r2 x, epar', hlast x]
        have hmap : x ∈ (s :: R).map a.par ↔ x = p ∨ x ∈ R.map a.par := by
          rw [List.map_cons, List.mem_cons, hs, ← hpu]
        by_cases hxR : x ∈ R.map a.par
        · rw [if_pos hxR, if_pos (hmap.2 (Or.inr hxR))]
        · rw [if_neg hxR]
          by_cases hxp : x = p
          · rw [if_pos hxp, if_pos (hmap.2 (Or.inl hxp))]
          · rw [if_neg hxp, if_neg (fun m => by
              rcases hmap.1 m with e | e
              · exact hxp e
              · exact hxR e)]

end NetSimplex

/-! ## Blocks of the re-ordered block -/

theorem IsBlock.refl (X : List Int) : IsBlock X X := ⟨[], [], by simp⟩

theorem IsBlock.trans {X L M : List Int} (h1 : IsBlock X L) (h2 : IsBlock L M) :
    IsBlock X M := by
  obtain ⟨A, Y, e1⟩ := h1
  obtain ⟨A', Y', e2⟩ := h2
  exact ⟨A' ++ A, Y ++ Y', by rw [e2, e1]; simp⟩

theorem IsBlock.left {X L : List Int} (h : IsBlock X L) (M : List Int) :
    IsBlock X (L ++ M) := h.trans ⟨[], M, by simp⟩

theorem IsBlock.right {X L : List Int} (h : IsBlock X L) (M : List Int) :
    IsBlock X (M ++ L) := h.trans ⟨M, [], by simp⟩

theorem IsBlock.mem_of {X L : List Int} (h : IsBlock X L) {w : Int} (hw : w ∈ X) : w ∈ L := by
  obtain ⟨A, Y, e⟩ := h
  rw [e]
  exact List.mem_append_left _ (List.mem_append_right _ hw)

theorem IsBlock.nodup_of {X L : List Int} (h : IsBlock X L) (nd : L.Nodup) : X.Nodup := by
  obtain ⟨A, Y, e⟩ := h
  rw [e] at nd
  exact (List.nodup_append.1 (List.nodup_append.1 nd).1).2.1

/-- A block of `P ++ M ++ Y` whose nodes all lie in `M` is a block of `M`. -/
theorem IsBlock.mid {X P M Y : List Int} (nd : (P ++ M ++ Y).Nodup) (hX : X ≠ [])
    (h : IsBlock X (P ++ M ++ Y)) (hs : ∀ w ∈ X, w ∈ M) : IsBlock X M := by
  obtain ⟨x, X', rfl⟩ := List.exists_cons_of_ne_nil hX
  obtain ⟨A, C, e⟩ := h
  obtain ⟨A2, Y2, e2, _, _⟩ := @block_nested (P ++ M ++ Y) P M Y A X' C x nd rfl e hs
  exact ⟨A2, Y2, e2⟩

/-- A block of `P ++ M ++ Y` without a node of `M` is a block of `P` or of `Y`. -/
theorem IsBlock.sides {X P M Y : List Int} (hX : X ≠ []) (hM : M ≠ [])
    (h : IsBlock X (P ++ M ++ Y)) (hd : ∀ w ∈ X, w ∉ M) : IsBlock X P ∨ IsBlock X Y := by
  obtain ⟨A, C, e⟩ := h
  rcases disjoint_split hX hM hd e.symm with ⟨r, e1, _⟩ | ⟨r, e1, _⟩
  · exact Or.inl ⟨A, r, e1⟩
  · exact Or.inr ⟨r, C, e1⟩

namespace NetSimplex

theorem stemNew_append : ∀ (segs : List (List Int × List Int)) (N M : List Int),
    stemNew (N ++ M) segs = N ++ stemNew M segs := by
  intro segs
  induction segs with
  | nil => intro N M; rfl
  | cons sg rest ih =>
    intro N M
    show stemNew (N ++ M ++ sg.1 ++ sg.2) rest = N ++ stemNew (M ++ sg.1 ++ sg.2) rest
    rw [← ih]
    simp [List.append_assoc]

theorem stemOld_perm : ∀ (segs : List (List Int × List Int)) (Bs : List Int),
    (stemOld Bs segs).Perm (Bs ++ stemNew [] segs) := by
  intro segs
  induction segs with
  | nil => intro Bs; simp [stemOld, stemNew]
  | cons sg rest ih =>
    intro Bs
    show (stemOld (sg.1 ++ Bs ++ sg.2) rest).Perm (Bs ++ stemNew ([] ++ sg.1 ++ sg.2) rest)
    refine (ih _).trans ?_
    have e : stemNew ([] ++ sg.1 ++ sg.2) rest = (sg.1 ++ sg.2) ++ stemNew [] rest := by
      rw [← stemNew_append]; simp
    rw [e]
    have p1 : (sg.1 ++ Bs ++ sg.2).Perm (Bs ++ (sg.1 ++ sg.2)) :=
      (List.Perm.append_right sg.2 List.perm_append_comm).trans
        (List.Perm.of_eq (List.append_assoc _ _ _))
    have := List.Perm.append_right (stemNew [] rest) p1
    simpa [List.append_assoc] using this

theorem stemOld_block : ∀ (segs : List (List Int × List Int)) (Bs : List Int),
    IsBlock Bs (stemOld Bs segs) := by
  intro segs
  induction segs with
  | nil => intro Bs; exact IsBlock.refl _
  | cons sg rest ih =>
    intro Bs
    exact IsBlock.trans ⟨sg.1, sg.2, rfl⟩ (ih (sg.1 ++ Bs ++ sg.2))

theorem stemNew_block (segs : List (List Int × List Int)) (N : List Int) :
    IsBlock N (stemNew N segs) :=
  ⟨[], stemNew [] segs, by
    have := stemNew_append segs N []
    rw [List.append_nil] at this
    rw [this]; simp⟩

/-- The old block of a node of the block of `u_out` that is not on the stem is a block of
the new order of the block of `u_out`. -/
theorem stem_block_in {o : NetSimplex} {n m : Nat} (ht : SpanningTree o n m) {uo u : Int}
    {X : List Int} (hX : X ≠ []) (hm : ∀ w, w ∈ X ↔ o.Anc u w) (u0 : 0 ≤ u) (un : u ≤ n) :
    ∀ (segs : List (List Int × List Int)) (s : Int) (Bs N : List Int),
    StemShape o uo s Bs segs → (∀ w, w ∈ Bs ↔ o.Anc s w) → Bs ≠ [] →
    (stemOld Bs segs).Nodup → u ≠ s → (∀ x ∈ stemHeads segs, u ≠ x) →
    (IsBlock X Bs → IsBlock X N) → IsBlock X (stemOld Bs segs) →
    IsBlock X (stemNew N segs) := by
  intro segs
  induction segs with
  | nil =>
    intro s Bs N _ _ _ _ _ _ h1 h2
    exact h1 h2
  | cons sg rest ih =>
    intro s Bs N hsh hB hBne nd hus hun h1 h2
    obtain ⟨_, hP, hm2, hsh'⟩ := hsh
    have hps : u ≠ o.par s := by
      apply hun
      show o.par s ∈ sg.1.head?.toList ++ stemHeads rest
      rw [hP]; simp
    have nd2 : (sg.1 ++ Bs ++ sg.2).Nodup := (stemOld_block rest _).nodup_of nd
    refine ih (o.par s) (sg.1 ++ Bs ++ sg.2) (N ++ sg.1 ++ sg.2) hsh' hm2
      (by
        intro e
        have := List.append_eq_nil.1 (List.append_eq_nil.1 e).1
        exact hBne this.2)
      nd hps
      (fun x hx => hun x (by
        show x ∈ sg.1.head?.toList ++ stemHeads rest
        exact List.mem_append_right _ hx))
      ?_ h2
    intro hb
    by_cases hu : o.Anc s u
    · have hs : ∀ w ∈ X, w ∈ Bs := fun w hw => (hB w).2 (hu.up ((hm w).1 hw))
      have := h1 (IsBlock.mid nd2 hX hb hs)
      exact (this.left sg.1).left sg.2
    · have hd : ∀ w ∈ X, w ∉ Bs := by
        intro w hw hwB
        rcases ((hm w).1 hw).comparable ((hB w).1 hwB) with g | g
        · -- `u` is an ancestor of `s`, inside the block of the parent of `s`
          have hux : u ∈ X := (hm u).2 (Anc.self _ _)
          have hup : o.Anc (o.par s) u := (hm2 u).1 (hb.mem_of hux)
          have g2 : o.Anc u (o.par s) := g.parent (fun e => hus e.symm)
          exact hps (ht.anc_antisymm u0 un g2 hup)
        · exact hu g
      rcases IsBlock.sides hX hBne hb hd with g | g
      · exact (g.right N).left sg.2
      · exact g.right (N ++ sg.1)

/-- The new block of a stem node above `u_in`: the end of the new order of the block of
`u_out`, from that stem node on; it holds the nodes of the block of `u_out` that are not in
the old block of the stem node `q` below it. -/
theorem stem_block_stem {o : NetSimplex} {uo : Int} :
    ∀ (segs : List (List Int × List Int)) (s : Int) (Bs N : List Int),
    StemShape o uo s Bs segs → (∀ w, w ∈ Bs ↔ o.Anc s w) → (stemOld Bs segs).Nodup →
    ∀ x ∈ stemHeads segs, ∃ (N' X' : List Int) (q : Int) (Bq : List Int),
      stemNew N segs = N' ++ X' ∧ X'.head? = some x ∧ o.par q = x ∧ o.Anc q s ∧
      (∀ w, w ∈ Bq ↔ o.Anc q w) ∧ Bq.Nodup ∧
      (∀ w, w ∈ X' ↔ w ∈ stemOld Bs segs ∧ ¬ o.Anc q w) ∧
      X'.length + Bq.length = (stemOld Bs segs).length := by
  intro segs
  induction segs with
  | nil => intro s Bs N _ _ _ x hx; simp [stemHeads] at hx
  | cons sg rest ih =>
    intro s Bs N hsh hB nd x hx
    obtain ⟨_, hP, hm2, hsh'⟩ := hsh
    have hx' : x ∈ sg.1.head?.toList ++ stemHeads rest := hx
    have nd' : (stemOld (sg.1 ++ Bs ++ sg.2) rest).Nodup := nd
    rcases List.mem_append.1 hx' with g | g
    · have ex : x = o.par s := by
        rw [hP] at g
        simpa using g
      have perm1 := stemOld_perm rest (sg.1 ++ Bs ++ sg.2)
      have nd1 : ((sg.1 ++ Bs ++ sg.2) ++ stemNew [] rest).Nodup := perm1.nodup_iff.1 nd'
      have e1 : stemNew (sg.1 ++ sg.2) rest = (sg.1 ++ sg.2) ++ stemNew [] rest := by
        have := stemNew_append rest (sg.1 ++ sg.2) []
        rw [List.append_nil] at this
        exact this
      have nd2 : (sg.1 ++ (Bs ++ (sg.2 ++ stemNew [] rest))).Nodup := by
        simpa [List.append_assoc] using nd1
      obtain ⟨_, ndr, dj1⟩ := List.nodup_append.1 nd2
      obtain ⟨ndB, _, dj2⟩ := List.nodup_append.1 ndr
      refine ⟨N, stemNew (sg.1 ++ sg.2) rest, s, Bs, ?_, ?_, ex.symm, Anc.self _ _, hB, ndB,
        ?_, ?_⟩
      · show stemNew (N ++ sg.1 ++ sg.2) rest = _
        rw [List.append_assoc, stemNew_append]
      · apply stemNew_head
        obtain ⟨P', eP⟩ := List.head?_eq_some_iff.1 hP
        rw [eP, ex]; rfl
      · intro w
        show w ∈ stemNew (sg.1 ++ sg.2) rest ↔
          w ∈ stemOld (sg.1 ++ Bs ++ sg.2) rest ∧ ¬ o.Anc s w
        rw [e1, perm1.mem_iff, ← hB w]
        simp only [List.mem_append]
        constructor
        · intro hw
          refine ⟨by tauto, fun hwB => ?_⟩
          rcases hw with (h1 | h1) | h1
          · exact dj1 h1 (List.mem_append_left _ hwB)
          · exact dj2 hwB (List.mem_append_left _ h1)
          · exact dj2 hwB (List.mem_append_right _ h1)
        · rintro ⟨hw, hwB⟩
          tauto
      · show (stemNew (sg.1 ++ sg.2) rest).length + Bs.length =
          (stemOld (sg.1 ++ Bs ++ sg.2) rest).length
        rw [e1, perm1.length_eq]
        simp only [List.length_append]
        omega
    · obtain ⟨N', X', q, Bq, r1, r2, r3, r4, r5, r6, r7, r8⟩ :=
        ih (o.par s) (sg.1 ++ Bs ++ sg.2) (N ++ sg.1 ++ sg.2) hsh' hm2 nd' x g
      exact ⟨N', X', q, Bq, r1, r2, r3, r4.up (Anc.of_par o s), r5, r6, r7, r8⟩

end NetSimplex

/-! ## The last nodes of nested blocks -/

theorem head_last_single {L : List Int} {a : Int} (nd : L.Nodup) (hh : L.head? = some a)
    (hl : L.getLast? = some a) : L = [a] := by
  obtain ⟨tl, e⟩ := List.head?_eq_some_iff.1 hh
  cases tl with
  | nil => exact e
  | cons b tl' =>
    exfalso
    rw [e] at nd hl
    have : (b :: tl').getLast? = some a := by
      rw [← hl, List.getLast?_cons_cons]
    have hm := NetSimplex.mem_of_getLast this
    exact (List.nodup_cons.1 nd).1 hm

namespace NetSimplex

/-- An ancestor of a node of the tree is a node of the tree, if it is not `-1`. -/
theorem SpanningTree.anc_up_range {ns : NetSimplex} {n m : Nat} (h : SpanningTree ns n m)
    {y w : Int} (w0 : 0 ≤ w) (wn : w ≤ n) (ha : ns.Anc y w) (y0 : 0 ≤ y) : y ≤ n := by
  obtain ⟨k, e⟩ := ha
  induction k generalizing w with
  | zero =>
    have : w = y := e
    rw [← this]; exact wn
  | succ k ih =>
    rw [Function.iterate_succ_apply] at e
    by_cases hw : w < n
    · obtain ⟨p0, pn⟩ := h.parent_range w w0 hw
      exact ih p0 pn e
    · have : w = n := by omega
      rw [this, h.par_at_root, par_iter_neg] at e
      omega

theorem Threaded.last_anc {a : NetSimplex} {n m : Nat} {T : List Int} (ht : Threaded a n m T)
    {u : Int} (u0 : 0 ≤ u) (un : u ≤ n) : a.Anc u (a.lastOf u) := by
  obtain ⟨_, x, _, _, hm, _, hl⟩ := ht.blocks u u0 un
  exact (hm _).1 (mem_of_getLast hl)

/-- A node between `u` and `_last_succ[u]` has the same `_last_succ`. -/
theorem Threaded.last_mono {a : NetSimplex} {n m : Nat} {T : List Int} (ht : Threaded a n m T)
    {u w : Int} (u0 : 0 ≤ u) (un : u ≤ n) (w0 : 0 ≤ w) (wn : w ≤ n) (h1 : a.Anc u w)
    (h2 : a.Anc w (a.lastOf u)) : a.lastOf w = a.lastOf u := by
  obtain ⟨pu, xu, qu, hTu, hmu, _, hlu⟩ := ht.blocks u u0 un
  obtain ⟨pw, xw, qw, hTw, hmw, _, hlw⟩ := ht.blocks w w0 wn
  have hsub : ∀ z ∈ w :: xw, z ∈ u :: xu := fun z hz => (hmu z).2 (h1.up ((hmw z).1 hz))
  obtain ⟨A, Y, eX, _, _⟩ := block_nested ht.nodup hTu hTw hsub
  have nd := ht.nodup
  rw [hTu, eX] at nd
  have ndX : (A ++ (w :: xw) ++ Y).Nodup := (List.nodup_append.1 (List.nodup_append.1 nd).1).2.1
  have ndX' : (A ++ ((w :: xw) ++ Y)).Nodup := by rw [← List.append_assoc]; exact ndX
  obtain ⟨_, ndwY, _⟩ := List.nodup_append.1 ndX'
  obtain ⟨_, _, dj⟩ := List.nodup_append.1 ndwY
  have hY : Y = [] := by
    by_contra hY
    have e1 : (u :: xu).getLast? = Y.getLast? := by rw [eX]; exact getLast_append_ne hY
    rw [hlu] at e1
    exact dj ((hmw _).2 h2) (mem_of_getLast e1.symm)
  rw [hY, List.append_nil] at eX
  have e2 : (u :: xu).getLast? = (w :: xw).getLast? := by
    rw [eX]; exact getLast_append_ne (by simp)
  rw [hlu, hlw] at e2
  exact (Option.some.inj e2).symm

/-- A node outside the block of `u_out` whose block ends with the block of `u_out` has the
node threaded before `u_out` in its subtree. -/
theorem Threaded.ends_with {a : NetSimplex} {n m : Nat} {T : List Int} (ht : Threaded a n m T)
    {uo u : Int} (huo : 0 ≤ uo ∧ uo < n) (u0 : 0 ≤ u) (un : u ≤ n) (hu : ¬ a.Anc uo u)
    (h1 : a.Anc u uo) (h2 : a.lastOf u = a.lastOf uo) :
    a.Anc u (a.revOf uo) ∧ ¬ a.Anc uo (a.revOf uo) := by
  obtain ⟨pre, blk, post, hT, hB, _, _⟩ := ht.blocks uo huo.1 (le_of_lt huo.2)
  obtain ⟨p, X, q, _, _, hm, _, _, hs1, _, _⟩ := ht.block_minus hT hB huo u0 un hu
  exact (hm _).1 (mem_of_getLast (hs1 h1 h2))

/-- If the node threaded before `u_out` is an ancestor `j` of `u_out` whose block ends with
the block of `u_out`, the subtree of `j` is `j` and the block of `u_out`. -/
theorem Threaded.first_child {a : NetSimplex} {n m : Nat} {T : List Int} (ht : Threaded a n m T)
    {uo j : Int} (huo : 0 ≤ uo ∧ uo < n) (j0 : 0 ≤ j) (jn : j ≤ n) (hj : ¬ a.Anc uo j)
    (h1 : a.Anc j uo) (h2 : a.lastOf j = a.lastOf uo) (h3 : a.revOf uo = j) :
    ∀ w, a.Anc j w → w = j ∨ a.Anc uo w := by
  obtain ⟨pre, blk, post, hT, hB, _, _⟩ := ht.blocks uo huo.1 (le_of_lt huo.2)
  obtain ⟨p, X, q, _, hh, hm, _, _, hs1, _, nd⟩ := ht.block_minus hT hB huo j0 jn hj
  have hl := hs1 h1 h2
  rw [h3] at hl
  have eX := head_last_single nd hh hl
  intro w hw
  by_cases hwB : a.Anc uo w
  · exact Or.inr hwB
  · left
    have := (hm w).2 ⟨hw, hwB⟩
    rw [eX] at this
    simpa using this

theorem Walk.carry_over {a c : NetSimplex} {j : Int} : ∀ (L : List Int) (u : Int),
    Walk c j u L → (∀ x ∈ L, c.par x = a.par x) → Walk a j u L := by
  intro L
  induction L with
  | nil => intro u h _; exact h
  | cons y L ih =>
    intro u h hp
    obtain ⟨e, hne, hw⟩ := h
    refine ⟨e, hne, ?_⟩
    rw [← hp u (by rw [e]; exact List.mem_cons_self _ _)]
    exact ih _ hw (fun x hx => hp x (List.mem_cons_of_mem _ hx))

/-- A walk of the new tree that starts outside the block of `u_out` is a walk of the old tree
and meets no stem node before its end. -/
theorem Turned.walk_old {a c : NetSimplex} {n m : Nat} {l : List Int} (h : Turned a c n m l)
    {j u : Int} {L : List Int} (hw : Walk c j u L) (hu : ¬ a.Anc a.u_out u) :
    Walk a j u L ∧ ∀ x ∈ L, x ∉ l ++ [a.u_out] := by
  have hoff : ∀ x ∈ L, x ∉ l ++ [a.u_out] := by
    intro x hx hs
    have h1 : c.Anc x u := Walk.mem_anc L u hw x (List.mem_append_left _ hx)
    exact hu ((h.anc_stem hs u).1 h1).1
  exact ⟨Walk.carry_over L u hw (fun x hx => h.par_off (hoff x hx)), hoff⟩

/-- The nodes of the walk from `v` up to `j`: the ancestors of `v` that are not ancestors of
`j`. -/
theorem Walk.mem_iff {a : NetSimplex} {n m : Nat} (ht : SpanningTree a n m) {j v : Int}
    {L : List Int} (hw : Walk a j v L) (j0 : 0 ≤ j) (jn : j ≤ n) (x : Int) :
    x ∈ L ↔ a.Anc x v ∧ ¬ a.Anc x j := by
  constructor
  · intro hx
    refine ⟨Walk.mem_anc L v hw x (List.mem_append_left _ hx), fun g => ?_⟩
    have h1 : a.Anc j x := Walk.anc_mem L v hw x (List.mem_append_left _ hx)
    have := ht.anc_antisymm j0 jn h1 g
    exact Walk.head_ne hw x hx this.symm
  · rintro ⟨h1, h2⟩
    rcases Walk.anc_split L v hw h1 with g | g
    · exact absurd g h2
    · exact g

end NetSimplex

/-! ## The tree update up to the stem loop -/

namespace NetSimplex

set_option maxHeartbeats 2000000 in
/-- The case `u_in == u_out` of the tree update. -/
theorem updateTreeSame_spliced {o c : NetSimplex} {n m : Nat} {T : List Int} {ort ols : Int}
    (ht : Threaded o n m T) (hio : o.u_in = o.u_out)
    (huo : 0 ≤ o.u_out ∧ o.u_out < n ∧ ¬ o.Anc o.u_out o.v_in)
    (hv : 0 ≤ o.v_in ∧ o.v_in ≤ n)
    (hort : ort = o.revOf o.u_out) (hols : ols = o.lastOf o.u_out)
    (h : updateTreeSame o ort ols = some c) :
    ∃ pre blk post B', T = pre ++ (o.u_out :: blk) ++ post ∧
      (∀ w, w ∈ o.u_out :: blk ↔ o.Anc o.u_out w) ∧ Spliced o c n [] pre blk post B' := by
  obtain ⟨pre, blk, post, B', e1, e2, e3, e4, e5, e6⟩ :=
    updateTreeSame_link ht hio huo hv hort hols h
  have kw := updateTreeSame_writes h
  have el : c.lastOf = o.lastOf := funext (lastOf_congr (kw.vec Fld.last_succ (by decide)))
  have es : c.succOf = o.succOf := funext (succOf_congr (kw.vec Fld.succ_num (by decide)))
  have hbl := ht.block_last e1 e2 huo.1 (le_of_lt huo.2.1)
  refine ⟨pre, blk, post, B', e1, e2, e3, e4, e5, e6, ?_, ?_, ?_, ?_, ?_⟩
  · obtain ⟨B0, segs, f1, f2, _, _, f5⟩ := e5
    rw [el]
    cases segs with
    | nil =>
      have : B' = o.u_out :: blk := by rw [f1, f2]; rfl
      rw [this]; exact hbl.1
    | cons sg rest => exact absurd hio f5.1
  · intro x
    rw [el]
    split
    · rename_i hx
      have : x = o.u_out := by simpa using hx
      rw [this]
    · rfl
  · rw [es, hio]
  · intro x hx hne
    have : x = o.u_out := by simpa using hx
    exact absurd (this.trans hio.symm) hne
  · intro x _
    rw [es]

set_option maxHeartbeats 4000000 in
/-- The case `u_in != u_out` of the tree update. -/
theorem updateTreeStem_spliced {o c : NetSimplex} {n m : Nat} {T l : List Int}
    {ort osn ols : Int} (ht : Threaded o n m T) (hw : Walk o o.u_out o.u_in l)
    (hl : ∀ y ∈ l ++ [o.u_out], 0 ≤ y ∧ y < n ∧ ¬ o.Anc y o.v_in)
    (hv : 0 ≤ o.v_in ∧ o.v_in ≤ n)
    (hort : ort = o.revOf o.u_out) (hols : ols = o.lastOf o.u_out)
    (hosn : osn = o.succOf o.u_out)
    (h : updateTreeStem o ort osn ols = some c) :
    ∃ pre blk post B', T = pre ++ (o.u_out :: blk) ++ post ∧
      (∀ w, w ∈ o.u_out :: blk ↔ o.Anc o.u_out w) ∧ Spliced o c n l pre blk post B' := by
  simp only [updateTreeStem, Option.bind_eq_bind, Option.bind_eq_some] at h
  obtain ⟨⟨b, d⟩, hr, h2⟩ := h
  have hparb := updateTreeStemThread_parent hr hw
  obtain ⟨pre, blk, post, B', e1, e2, e3, e4, e5, e6, e7, kb, e9, e10⟩ :=
    updateTreeStemThread_chain ht hw hl hv hort hols hr
  have huo := hl o.u_out (by simp)
  have hvp : o.v_in ∈ pre ++ post := by
    have hvT : o.v_in ∈ T := (ht.mem _).2 hv
    rw [e1] at hvT
    rcases List.mem_append.1 hvT with g1 | g1
    · rcases List.mem_append.1 g1 with g2 | g2
      · exact List.mem_append_left _ g2
      · exact absurd ((e2 _).1 g2) huo.2.2
    · exact List.mem_append_right _ g1
  obtain ⟨p1, p2, p3⟩ := newOrder_props e1 ht.nodup ht.head
    (fun m => ht.root_off huo.1 huo.2.1 ((e2 _).1 m)) hvp e3
  simp only [updateTreeStemPred, Option.bind_eq_bind, Option.bind_eq_some] at h2
  obtain ⟨n1, h1, ls, hls, p, hp, n2, hn2, n3, h3, src, _, n4, h4, h5⟩ := h2
  have k1 : Writes [Fld.rev_thread] b n1 := dirtyLoop_writes _ _ _ h1
  have k2 : Writes [Fld.pred, Fld.pred_dir, Fld.succ_num, Fld.last_succ] n1 n2 :=
    stemUpdate_writes _ _ _ _ _ _ _ hn2
  have k34 : Writes [Fld.pred, Fld.pred_dir] n2 n4 :=
    ((set_pred_writes h3 (by decide))).follow (set_pred_dir_writes h4 (by decide))
  have k5 : Writes [Fld.succ_num] n4 c := set_succ_num_writes h5 (by decide)
  have kc : Writes [Fld.pred, Fld.pred_dir, Fld.succ_num, Fld.last_succ] n1 c :=
    ((k2.follow (k34.wider (by decide)))).follow (k5.wider (by decide))
  have c1 := dirtyLoop_link e6 p1 p3 (by
    intro u hu
    rcases e7 u hu with g | g
    · rw [g]
      exact (mem_insAfter _ hvp _).2 (Or.inl hvp)
    · exact (mem_insAfter _ hvp _).2 (Or.inr g)) h1
  have et : c.thr = n1.thr := funext (thr_congr (kc.vec Fld.thread (by decide)))
  have er : c.revOf = n1.revOf := funext (revOf_congr (kc.vec Fld.rev_thread (by decide)))
  -- the walk down the stem in the new tree
  have eui1 : n1.u_in = o.u_in := k1.eq_u_in.trans kb.eq_u_in
  have euo1 : n1.u_out = o.u_out := k1.eq_u_out.trans kb.eq_u_out
  have epar1 : n1.par = b.par := funext (par_congr (k1.vec Fld.parent (by decide)))
  have hpar1 : ∀ z, n1.par z = stemParent o.v_in (l ++ [o.u_out]) z (o.par z) := by
    intro z; rw [epar1]; exact hparb z
  have hR : Walk n1 n1.u_in n1.u_out ((l ++ [o.u_out]).tail.reverse) := by
    rw [eui1, euo1]
    exact stemParent_down l o.u_in o.v_in hw (fun x _ => hpar1 x)
  have hsz := stemUpdate_sizes _ _ n1 _ p 0 ls n2 hR (fun _ => (par_eq hp).symm) hn2
  obtain ⟨z1, z2⟩ := hsz
  have ndS : (l ++ [o.u_out]).Nodup := Walk.stem_nodup hw
  have hSh : ∃ tl, l ++ [o.u_out] = o.u_in :: tl := by
    cases l with
    | nil =>
      have : o.u_in = o.u_out := hw
      exact ⟨[], by rw [this]; rfl⟩
    | cons y l' =>
      obtain ⟨e, _, _⟩ := hw
      exact ⟨l' ++ [o.u_out], by rw [e]; rfl⟩
  obtain ⟨tl, etl⟩ := hSh
  have hRmem : ∀ x, x ∈ (l ++ [o.u_out]).tail.reverse ↔ x ∈ l ++ [o.u_out] ∧ x ≠ o.u_in := by
    intro x
    rw [List.mem_reverse, etl, List.tail_cons]
    rw [etl] at ndS
    constructor
    · intro hx
      exact ⟨List.mem_cons_of_mem _ hx, fun e => (List.nodup_cons.1 ndS).1 (by rw [← e]; exact hx)⟩
    · rintro ⟨hx, hne⟩
      rcases List.mem_cons.1 hx with g | g
      · exact absurd g hne
      · exact g
  have hMap : ∀ x, x ∈ ((l ++ [o.u_out]).tail.reverse).map n1.par ↔ x ∈ l := by
    intro x
    rw [List.mem_map]
    constructor
    · rintro ⟨y, hy, e⟩
      obtain ⟨hyS, hyne⟩ := (hRmem y).1 hy
      obtain ⟨s, sl, f1, _⟩ := stemParent_child l o.u_in o.v_in (o.par y) hw y hyS hyne
      rw [hpar1 y, f1] at e
      rw [← e]; exact sl
    · intro hx
      obtain ⟨f1, f2, f3⟩ := stemParent_parent l o.u_in o.v_in (o.par (o.par x)) hw x hx
      exact ⟨o.par x, (hRmem _).2 ⟨f1, f2⟩, by rw [hpar1, f3]⟩
  have els : ls = b.lastOf o.u_out := by
    rw [← euo1, ← lastOf_congr (k1.vec Fld.last_succ (by decide))]
    exact (lastOf_eq hls).symm
  have hjl : o.u_out ∉ l := fun m => Walk.head_ne hw _ m rfl
  have clast : ∀ x, c.lastOf x = if x ∈ l then ls else b.lastOf x := by
    intro x
    rw [lastOf_congr (k5.vec Fld.last_succ (by decide)),
      lastOf_congr (k34.vec Fld.last_succ (by decide)), z2 x]
    by_cases hx : x ∈ l
    · rw [if_pos ((hMap x).2 hx), if_pos hx]
    · rw [if_neg (fun g => hx ((hMap x).1 g)), if_neg hx,
        lastOf_congr (k1.vec Fld.last_succ (by decide))]
  have clo : c.lastOf o.u_out = b.lastOf o.u_out := by
    rw [clast, if_neg hjl]
  have esb : ∀ x, n1.succOf x = o.succOf x := by
    intro x
    rw [succOf_congr (k1.vec Fld.succ_num (by decide)),
      succOf_congr (kb.vec Fld.succ_num (by decide))]
  have eui4 : n4.u_in = o.u_in :=
    (k34.eq_u_in.trans k2.eq_u_in).trans eui1
  have csucc : ∀ x, c.succOf x = if x = o.u_in then osn else n2.succOf x := by
    intro x
    rw [succOf_set h5 x, eui4, succOf_congr (k34.vec Fld.succ_num (by decide))]
  have cpar : c.par = n1.par := funext (par_congr (kc.vec Fld.parent (by decide)))
  refine ⟨pre, blk, post, B', e1, e2, e3, e4, e10, by rw [et, er]; exact c1, ?_, ?_, ?_, ?_, ?_⟩
  · rw [clo]; exact e5
  · intro x
    rw [clo, clast]
    by_cases hx : x ∈ l
    · rw [if_pos hx, if_pos (List.mem_append_left _ hx), els]
    · rw [if_neg hx]
      by_cases hxo : x = o.u_out
      · rw [if_pos (by rw [hxo]; simp), hxo]
      · rw [if_neg (fun g => by
          rcases List.mem_append.1 g with g' | g'
          · exact hx g'
          · exact hxo (by simpa using g')), e9 x hxo]
  · rw [csucc, if_pos rfl, hosn]
  · intro x hx hne
    rw [csucc, if_neg hne, z1 x, if_pos ((hRmem x).2 ⟨hx, hne⟩), euo1, esb, esb, cpar]
    ring
  · intro x hx
    have hne : x ≠ o.u_in := fun e => hx (by rw [e, etl]; exact List.mem_cons_self _ _)
    rw [csucc, if_neg hne, z1 x, if_neg (fun g => hx ((hRmem x).1 g).1), esb]

end NetSimplex

/-! ## The walks of the last loops -/

namespace NetSimplex

theorem Pivoted.vin_off {a c : NetSimplex} {n m : Nat} {T l : List Int}
    (P : Pivoted a c n m T l) : ¬ a.Anc a.u_out a.v_in := P.turn.out_range.2.2

theorem Pivoted.anc_join {a c : NetSimplex} {n m : Nat} {T l : List Int}
    (P : Pivoted a c n m T l) {x : Int} (h1 : a.Anc x a.v_in) (h2 : a.Anc x a.u_out) :
    a.Anc x a.join :=
  P.lca x h1 (h2.up (P.turn.stem_anc (by simp)).2)

theorem Pivoted.vout_facts {a c : NetSimplex} {n m : Nat} {T l : List Int}
    (P : Pivoted a c n m T l) :
    (0 ≤ a.v_out ∧ a.v_out ≤ n) ∧ ¬ a.Anc a.u_out a.v_out ∧ a.Anc a.join a.v_out ∧
      a.Anc a.v_out a.u_out := by
  have ho := P.turn.out_range
  have hr := P.thr.tree.parent_range _ ho.1 ho.2.1
  have hup : a.Anc a.v_out a.u_out := by rw [P.vout]; exact Anc.of_par _ _
  have hne : a.join ≠ a.u_out := fun e => ho.2.2 (by rw [← e]; exact P.join_in)
  refine ⟨by rw [P.vout]; exact hr, ?_, ?_, hup⟩
  · intro g
    have := P.thr.tree.anc_antisymm ho.1 (le_of_lt ho.2.1) g hup
    rw [P.vout] at this
    exact P.thr.tree.par_ne ho.1 ho.2.1 this.symm
  · rw [P.vout]
    exact P.join_out.parent (fun e => hne e.symm)

theorem Pivoted.above_out {a c : NetSimplex} {n m : Nat} {T l : List Int}
    (P : Pivoted a c n m T l) {x : Int} (hx : ¬ a.Anc a.u_out x) :
    a.Anc x a.v_out ↔ a.Anc x a.u_out := by
  constructor
  · intro g; exact g.up P.vout_facts.2.2.2
  · intro g
    rw [P.vout]
    exact g.parent (fun e => hx (by rw [← e]; exact Anc.self _ _))

theorem Pivoted.last_out {a c : NetSimplex} {n m : Nat} {T l : List Int}
    (P : Pivoted a c n m T l) :
    a.Anc a.u_out (a.lastOf a.u_out) ∧ a.lastOf a.u_out ≠ a.v_in := by
  have ho := P.turn.out_range
  have h1 := P.thr.last_anc ho.1 (le_of_lt ho.2.1)
  exact ⟨h1, fun e => ho.2.2 (by rw [← e]; exact h1)⟩

set_option maxHeartbeats 1000000 in
/-- The loop from `v_in` towards the root writes `_last_succ` of exactly the ancestors of
`v_in` whose `_last_succ` is `v_in`. -/
theorem Pivoted.lastIn {a c k1 k2 : NetSimplex} {n m : Nat} {T l : List Int}
    (P : Pivoted a c n m T l) {v : Int} {fuel : Nat} (hp : k1.parent = c.parent)
    (hvin : k1.v_in = a.v_in)
    (hval : ∀ x, ¬ a.Anc a.u_out x → k1.lastOf x = a.lastOf x)
    (h : lastSuccIn v fuel k1 k1.v_in = some k2) :
    ∃ L : List Int, (∀ x, k2.lastOf x = if x ∈ L then v else k1.lastOf x) ∧
      ∀ x, x ∈ L ↔ (0 ≤ x ∧ x ≤ n) ∧ a.Anc x a.v_in ∧ a.lastOf x = a.v_in := by
  have epar : k1.par = c.par := funext (par_congr hp)
  have hac : ∀ x : Int, 0 ≤ x → ∀ i : Nat, (k1.par)^[i + 1] x ≠ x := by
    intro x hx i
    rw [epar]
    exact P.turn.new.no_loop hx i
  obtain ⟨L, y, hw, hL, hy, hv⟩ := lastSuccIn_spec v fuel k1 _ k2 h hac
  rw [hvin] at hw hL hy
  have hwc : Walk c y a.v_in L := Walk.congr hp.symm _ _ _ hw
  obtain ⟨hwa, hoff⟩ := P.turn.walk_old hwc P.vin_off
  have hvr := P.turn.vin
  refine ⟨L, hv, fun x => ⟨fun hx => ?_, fun hx => ?_⟩⟩
  · obtain ⟨g1, g2⟩ := hL x hx
    have hanc : a.Anc x a.v_in := Walk.mem_anc L _ hwa x (List.mem_append_left _ hx)
    have hxB : ¬ a.Anc a.u_out x := fun g => P.vin_off (g.up hanc)
    refine ⟨⟨g2, P.thr.tree.anc_up_range hvr.1 hvr.2 hanc g2⟩, hanc, ?_⟩
    rw [← hval x hxB]; exact g1
  · obtain ⟨⟨x0, xn⟩, h1, h2⟩ := hx
    rcases Walk.anc_split L _ hwa h1 with g | g
    · exfalso
      rcases hy with e | ⟨e1, e2⟩
      · rw [e] at g
        exact Anc.neg g (by decide) x0
      · have hyv : a.Anc y a.v_in := Walk.anc L _ hwa
        have hyn : y ≤ n := P.thr.tree.anc_up_range hvr.1 hvr.2 hyv e2
        have hyB : ¬ a.Anc a.u_out y := fun q => P.vin_off (q.up hyv)
        have := P.thr.last_mono x0 xn e2 hyn g (by rw [h2]; exact hyv)
        rw [hval y hyB, this, h2] at e1
        exact e1 rfl
    · exact g

set_option maxHeartbeats 2000000 in
/-- The loop from `v_out` towards the root writes `_last_succ` of exactly the ancestors of
`v_out` whose `_last_succ` is the old `_last_succ[u_out]`. -/
theorem Pivoted.lastOut {a c k1 k2 k3 : NetSimplex} {n m : Nat} {T l L : List Int}
    (P : Pivoted a c n m T l) {v val lim : Int} {fuel : Nat} (hp : k2.parent = c.parent)
    (hvout : k2.v_out = a.v_out)
    (hval : ∀ x, ¬ a.Anc a.u_out x → k1.lastOf x = a.lastOf x)
    (hk2 : ∀ x, k2.lastOf x = if x ∈ L then v else k1.lastOf x)
    (hL : ∀ x, x ∈ L ↔ (0 ≤ x ∧ x ≤ n) ∧ a.Anc x a.v_in ∧ a.lastOf x = a.v_in)
    (hlim : lim = if a.lastOf a.join = a.v_in then a.join else -1)
    (h : lastSuccOut lim (a.lastOf a.u_out) val fuel k2 k2.v_out = some k3) :
    ∃ L2 : List Int, (∀ x, k3.lastOf x = if x ∈ L2 then val else k2.lastOf x) ∧
      ∀ x, x ∈ L2 ↔ (0 ≤ x ∧ x ≤ n) ∧ a.Anc x a.v_out ∧ a.lastOf x = a.lastOf a.u_out := by
  have epar : k2.par = c.par := funext (par_congr hp)
  have hac : ∀ x : Int, 0 ≤ x → ∀ i : Nat, (k2.par)^[i + 1] x ≠ x := by
    intro x hx i
    rw [epar]
    exact P.turn.new.no_loop hx i
  obtain ⟨L2, y, hw, hL2, hy, hv⟩ := lastSuccOut_spec lim _ val fuel k2 _ k3 h hac
  rw [hvout] at hw
  obtain ⟨hvo, hvoB, hjvo, hvouo⟩ := P.vout_facts
  have hwc : Walk c y a.v_out L2 := Walk.congr hp.symm _ _ _ hw
  obtain ⟨hwa, hoff⟩ := P.turn.walk_old hwc hvoB
  obtain ⟨holsB, holsv⟩ := P.last_out
  have hjn := P.join0
  refine ⟨L2, hv, fun x => ⟨fun hx => ?_, fun hx => ?_⟩⟩
  · obtain ⟨g1, g2, g3⟩ := hL2 x hx
    have hanc : a.Anc x a.v_out := Walk.mem_anc L2 _ hwa x (List.mem_append_left _ hx)
    have hxB : ¬ a.Anc a.u_out x := fun g => hvoB (g.up hanc)
    have hxn : x ≤ n := P.thr.tree.anc_up_range hvo.1 hvo.2 hanc g2
    refine ⟨⟨g2, hxn⟩, hanc, ?_⟩
    rw [hk2 x] at g1
    by_cases hxL : x ∈ L
    · exfalso
      obtain ⟨_, q1, q2⟩ := (hL x).1 hxL
      have hxj : a.Anc x a.join := P.anc_join q1 (hanc.up hvouo)
      have hlj : a.lastOf a.join = a.v_in := by
        have := P.thr.last_mono g2 hxn hjn.1 hjn.2 hxj (by rw [q2]; exact P.join_in)
        rw [this, q2]
      rw [if_pos hlj] at hlim
      rcases Walk.anc_split L2 _ hwa hjvo with g | g
      · have hyx : a.Anc y x := Walk.anc_mem L2 _ hwa x (List.mem_append_left _ hx)
        have := P.thr.tree.anc_antisymm hjn.1 hjn.2 (g.up hyx) hxj
        exact g3 (by rw [hlim, this])
      · exact (hL2 _ g).2.2 hlim.symm
    · rw [if_neg hxL, hval x hxB] at g1
      exact g1
  · obtain ⟨⟨x0, xn⟩, h1, h2⟩ := hx
    rcases Walk.anc_split L2 _ hwa h1 with g | g
    · exfalso
      have hxuo : a.Anc x a.u_out := h1.up hvouo
      rcases hy with e | ⟨e1, e2⟩
      · by_cases hlj : a.lastOf a.join = a.v_in
        · rw [if_pos hlj] at hlim
          rw [e, hlim] at g
          have := P.thr.last_mono x0 xn hjn.1 hjn.2 g
            (by rw [h2]; exact P.join_out.up holsB)
          rw [hlj, h2] at this
          exact holsv this.symm
        · rw [if_neg hlj] at hlim
          rw [e, hlim] at g
          exact Anc.neg g (by decide) x0
      · have hyv : a.Anc y a.v_out := Walk.anc L2 _ hwa
        have hyn : y ≤ n := P.thr.tree.anc_up_range hvo.1 hvo.2 hyv e2
        have hyB : ¬ a.Anc a.u_out y := fun q => hvoB (q.up hyv)
        have hm := P.thr.last_mono x0 xn e2 hyn g
          (by rw [h2]; exact (hyv.up hvouo).up holsB)
        rw [h2] at hm
        rw [hk2 y] at e1
        by_cases hyL : y ∈ L
        · obtain ⟨_, _, q2⟩ := (hL y).1 hyL
          rw [hm] at q2
          exact holsv q2
        · rw [if_neg hyL, hval y hyB] at e1
          exact e1 hm
    · exact g

set_option maxHeartbeats 1000000 in
/-- The two loops over `_succ_num`: the nodes from `v_in` up to `join` gain the size of the
block of `u_out`, the nodes from `v_out` up to `join` lose it. -/
theorem Pivoted.succLoops {a c k3 k4 b : NetSimplex} {n m : Nat} {T l : List Int}
    (P : Pivoted a c n m T l) {d : Int} {f1 f2 : Nat} (hp : k3.parent = c.parent)
    (hvin : k3.v_in = a.v_in) (hvout : k3.v_out = a.v_out) (hjoin : k3.join = a.join)
    (h1 : succNumLoop d f1 k3 k3.v_in = some k4)
    (h2 : succNumLoop (-d) f2 k4 k4.v_out = some b) :
    ∃ L3 L4 : List Int, (∀ x, b.succOf x =
        (if x ∈ L4 then (if x ∈ L3 then k3.succOf x + d else k3.succOf x) + -d
          else (if x ∈ L3 then k3.succOf x + d else k3.succOf x))) ∧
      (∀ x, x ∈ L3 ↔ a.Anc x a.v_in ∧ ¬ a.Anc x a.join) ∧
      (∀ x, x ∈ L4 ↔ a.Anc x a.v_out ∧ ¬ a.Anc x a.join) := by
  obtain ⟨L3, w3, v3⟩ := succNumLoop_spec d f1 k3 _ k4 h1
  obtain ⟨L4, w4, v4⟩ := succNumLoop_spec (-d) f2 k4 _ b h2
  have k34 : Writes [Fld.succ_num] k3 k4 := succNumLoop_writes _ _ _ _ _ h1
  have hp4 : k4.parent = c.parent := (k34.vec Fld.parent (by decide)).trans hp
  rw [hvin, hjoin] at w3
  rw [k34.eq_v_out, hvout, k34.eq_join, hjoin] at w4
  obtain ⟨hvo, hvoB, hjvo, hvouo⟩ := P.vout_facts
  have w3a := (P.turn.walk_old (Walk.congr hp.symm _ _ _ w3) P.vin_off).1
  have w4a := (P.turn.walk_old (Walk.congr hp4.symm _ _ _ w4) hvoB).1
  refine ⟨L3, L4, fun x => ?_, Walk.mem_iff P.thr.tree w3a P.join0.1 P.join0.2,
    Walk.mem_iff P.thr.tree w4a P.join0.1 P.join0.2⟩
  rw [v4 x, v3 x]

end NetSimplex

/-! ## The values after the last loops -/

namespace NetSimplex

/-- The three ways through the second `_last_succ` loop of the tree update. -/
theorem lastSuccTail_split {n2 b : NetSimplex} {ort ols lso ulo osn : Int}
    (h : (if n2.join ≠ ort ∧ n2.v_in ≠ ort then
        (lastSuccOut ulo ols ort n2.loopBound n2 n2.v_out).bind fun y =>
          (succNumLoop osn y.loopBound y y.v_in).bind fun ns =>
            succNumLoop (-osn) ns.loopBound ns ns.v_out
      else
        if lso ≠ ols then
          (lastSuccOut ulo ols lso n2.loopBound n2 n2.v_out).bind fun y =>
            (succNumLoop osn y.loopBound y y.v_in).bind fun ns =>
              succNumLoop (-osn) ns.loopBound ns ns.v_out
        else
          (some n2).bind fun y =>
            (succNumLoop osn y.loopBound y y.v_in).bind fun ns =>
              succNumLoop (-osn) ns.loopBound ns ns.v_out) = some b) :
    ∃ n3 n4, (((n2.join ≠ ort ∧ n2.v_in ≠ ort) ∧
          lastSuccOut ulo ols ort n2.loopBound n2 n2.v_out = some n3) ∨
        (¬ (n2.join ≠ ort ∧ n2.v_in ≠ ort) ∧ lso ≠ ols ∧
          lastSuccOut ulo ols lso n2.loopBound n2 n2.v_out = some n3) ∨
        (¬ (n2.join ≠ ort ∧ n2.v_in ≠ ort) ∧ lso = ols ∧ n3 = n2)) ∧
      succNumLoop osn n3.loopBound n3 n3.v_in = some n4 ∧
      succNumLoop (-osn) n4.loopBound n4 n4.v_out = some b := by
  split at h
  · rename_i hc
    simp only [Option.bind_eq_some] at h
    obtain ⟨n3, h3, n4, h4, h5⟩ := h
    exact ⟨n3, n4, Or.inl ⟨hc, h3⟩, h4, h5⟩
  · rename_i hc
    split at h
    · rename_i hc2
      simp only [Option.bind_eq_some] at h
      obtain ⟨n3, h3, n4, h4, h5⟩ := h
      exact ⟨n3, n4, Or.inr (Or.inl ⟨hc, hc2, h3⟩), h4, h5⟩
    · rename_i hc2
      simp only [Option.some_bind, Option.bind_eq_some] at h
      obtain ⟨n4, h4, h5⟩ := h
      exact ⟨n2, n4, Or.inr (Or.inr ⟨hc, not_not.1 hc2, rfl⟩), h4, h5⟩

set_option maxHeartbeats 4000000 in
/-- The entries of `_succ_num` and `_last_succ` after the loops that end the tree update, in
terms of the old tree: inside the block of `u_out` the loops change nothing; outside, a node
gains the size of the block if it is an ancestor of `v_in` and loses it if it is an ancestor
of `u_out`, and its `_last_succ` is that of its old block without the block of `u_out`,
replaced by the last node of the new block if `v_in` was that last node. -/
theorem Pivoted.tail_values {a c n1 n2 b : NetSimplex} {n m : Nat}
    {T l pre blk post B' : List Int} (P : Pivoted a c n m T l)
    (sp : Spliced a n1 n l pre blk post B') {ort ols lso ulo osn : Int}
    (hp : n1.parent = c.parent) (hvin : n1.v_in = a.v_in) (hvout : n1.v_out = a.v_out)
    (hjoin : n1.join = a.join)
    (hort : ort = a.revOf a.u_out) (hols : ols = a.lastOf a.u_out)
    (hosn : osn = a.succOf a.u_out)
    (hulo : ulo = if n1.lastOf a.join = a.v_in then a.join else -1)
    (h2 : lastSuccIn lso n1.loopBound n1 n1.v_in = some n2)
    (h : (if n2.join ≠ ort ∧ n2.v_in ≠ ort then
        (lastSuccOut ulo ols ort n2.loopBound n2 n2.v_out).bind fun y =>
          (succNumLoop osn y.loopBound y y.v_in).bind fun ns =>
            succNumLoop (-osn) ns.loopBound ns ns.v_out
      else
        if lso ≠ ols then
          (lastSuccOut ulo ols lso n2.loopBound n2 n2.v_out).bind fun y =>
            (succNumLoop osn y.loopBound y y.v_in).bind fun ns =>
              succNumLoop (-osn) ns.loopBound ns ns.v_out
        else
          (some n2).bind fun y =>
            (succNumLoop osn y.loopBound y y.v_in).bind fun ns =>
              succNumLoop (-osn) ns.loopBound ns ns.v_out) = some b) :
    Writes [Fld.succ_num, Fld.last_succ] n1 b ∧
    (∀ x, a.Anc a.u_out x → b.succOf x = n1.succOf x ∧ b.lastOf x = n1.lastOf x) ∧
    (∀ x : Int, (0 ≤ x ∧ x ≤ n) → ¬ a.Anc a.u_out x →
      (a.Anc x a.u_out → a.Anc x a.v_in → b.succOf x = a.succOf x) ∧
      (a.Anc x a.u_out → ¬ a.Anc x a.v_in → b.succOf x = a.succOf x - a.succOf a.u_out) ∧
      (¬ a.Anc x a.u_out → a.Anc x a.v_in → b.succOf x = a.succOf x + a.succOf a.u_out) ∧
      (¬ a.Anc x a.u_out → ¬ a.Anc x a.v_in → b.succOf x = a.succOf x)) ∧
    (∀ x : Int, (0 ≤ x ∧ x ≤ n) → ¬ a.Anc a.u_out x → ∀ lm : Int,
      (a.Anc x a.u_out → a.lastOf x = a.lastOf a.u_out → lm = a.revOf a.u_out) →
      (¬ (a.Anc x a.u_out ∧ a.lastOf x = a.lastOf a.u_out) → lm = a.lastOf x) →
      (a.Anc x a.v_in → lm = a.v_in → b.lastOf x = lso) ∧
      (¬ (a.Anc x a.v_in ∧ lm = a.v_in) → b.lastOf x = lm)) := by
  have k12 : Writes [Fld.last_succ] n1 n2 := lastSuccIn_writes _ _ _ _ _ h2
  have kW : Writes [Fld.succ_num, Fld.last_succ] n1 b :=
    (k12.wider (by decide)).follow (lastSuccTail_writes h)
  obtain ⟨hvo, hvoB, hjvo, hvouo⟩ := P.vout_facts
  obtain ⟨holsB, holsv⟩ := P.last_out
  have ho := P.turn.out_range
  have hjn := P.join0
  -- values after phase 1 outside the block
  have offS : ∀ x, ¬ a.Anc a.u_out x → x ∉ l ++ [a.u_out] :=
    fun x hx hm => hx (P.turn.stem_anc hm).1
  have hval1 : ∀ x, ¬ a.Anc a.u_out x → n1.lastOf x = a.lastOf x := by
    intro x hx
    rw [sp.last_stem x, if_neg (offS x hx)]
  have hjB : ¬ a.Anc a.u_out a.join := fun g => P.vin_off (g.up P.join_in)
  rw [hval1 _ hjB] at hulo
  obtain ⟨L, vL, mL⟩ := P.lastIn hp hvin hval1 h2
  obtain ⟨n3, n4, hbr, h4, h5⟩ := lastSuccTail_split h
  have hp2 : n2.parent = c.parent := (k12.vec Fld.parent (by decide)).trans hp
  have hvout2 : n2.v_out = a.v_out := k12.eq_v_out.trans hvout
  have hvin2 : n2.v_in = a.v_in := k12.eq_v_in.trans hvin
  have hjoin2 : n2.join = a.join := k12.eq_join.trans hjoin
  rw [hjoin2, hvin2] at hbr
  -- the state after the second loop on `_last_succ`
  have hn3 : Writes [Fld.last_succ] n2 n3 ∧
      ∀ x : Int, (0 ≤ x ∧ x ≤ n) → ¬ a.Anc a.u_out x →
        ((a.Anc x a.v_out ∧ a.lastOf x = a.lastOf a.u_out) →
          ((a.join ≠ ort ∧ a.v_in ≠ ort) → n3.lastOf x = ort) ∧
          (¬ (a.join ≠ ort ∧ a.v_in ≠ ort) → n3.lastOf x = lso)) ∧
        (¬ (a.Anc x a.v_out ∧ a.lastOf x = a.lastOf a.u_out) →
          n3.lastOf x = n2.lastOf x) := by
    rcases hbr with ⟨hc, h3⟩ | ⟨hc, hc2, h3⟩ | ⟨hc, hc2, e3⟩
    · rw [hols] at h3
      obtain ⟨L2, v2, m2⟩ := P.lastOut hp2 hvout2 hval1 vL mL hulo h3
      refine ⟨lastSuccOut_writes _ _ _ _ _ _ _ h3, fun x hx hxB => ⟨fun hM => ?_, fun hM => ?_⟩⟩
      · have : x ∈ L2 := (m2 x).2 ⟨hx, hM⟩
        exact ⟨fun _ => by rw [v2, if_pos this], fun g => absurd hc g⟩
      · have : x ∉ L2 := fun g => hM ((m2 x).1 g).2
        rw [v2, if_neg this]
    · rw [hols] at h3
      obtain ⟨L2, v2, m2⟩ := P.lastOut hp2 hvout2 hval1 vL mL hulo h3
      refine ⟨lastSuccOut_writes _ _ _ _ _ _ _ h3, fun x hx hxB => ⟨fun hM => ?_, fun hM => ?_⟩⟩
      · have : x ∈ L2 := (m2 x).2 ⟨hx, hM⟩
        exact ⟨fun g => absurd g hc, fun _ => by rw [v2, if_pos this]⟩
      · have : x ∉ L2 := fun g => hM ((m2 x).1 g).2
        rw [v2, if_neg this]
    · rw [e3]
      refine ⟨Writes.idle _ _, fun x hx hxB => ⟨fun hM => ?_, fun _ => rfl⟩⟩
      refine ⟨fun g => absurd g hc, fun _ => ?_⟩
      have hxL : x ∉ L := fun g => holsv (by rw [← hM.2]; exact ((mL x).1 g).2.2)
      rw [vL, if_neg hxL, hval1 x hxB, hM.2, hc2, hols]
  obtain ⟨k23, v3⟩ := hn3
  have k13 : Writes [Fld.last_succ] n1 n3 := k12.follow k23
  have hp3 : n3.parent = c.parent := (k23.vec Fld.parent (by decide)).trans hp2
  obtain ⟨L3, L4, vs, m3, m4⟩ := P.succLoops hp3 (k13.eq_v_in.trans hvin)
    (k13.eq_v_out.trans hvout) (k13.eq_join.trans hjoin) h4 h5
  have k3b : Writes [Fld.succ_num] n3 b :=
    (succNumLoop_writes _ _ _ _ _ h4).follow (succNumLoop_writes _ _ _ _ _ h5)
  have elb : ∀ x, b.lastOf x = n3.lastOf x := lastOf_congr (k3b.vec Fld.last_succ (by decide))
  have es3 : ∀ x, n3.succOf x = n1.succOf x := succOf_congr (k13.vec Fld.succ_num (by decide))
  refine ⟨kW, ?_, ?_, ?_⟩
  · intro x hx
    have hx3 : x ∉ L3 := fun g => P.vin_off (hx.up ((m3 x).1 g).1)
    have hx4 : x ∉ L4 := fun g => hvoB (hx.up ((m4 x).1 g).1)
    have hxL : x ∉ L := fun g => P.vin_off (hx.up ((mL x).1 g).2.1)
    refine ⟨by rw [vs, if_neg hx4, if_neg hx3, es3], ?_⟩
    rw [elb]
    -- the loops on `_last_succ` walk outside the block
    have q2 : n2.lastOf x = n1.lastOf x := by rw [vL, if_neg hxL]
    rcases hbr with ⟨hc, h3⟩ | ⟨hc, hc2, h3⟩ | ⟨hc, hc2, e3⟩
    · rw [hols] at h3
      obtain ⟨L2, v2, m2⟩ := P.lastOut hp2 hvout2 hval1 vL mL hulo h3
      have : x ∉ L2 := fun g => hvoB (hx.up ((m2 x).1 g).2.1)
      rw [v2, if_neg this, q2]
    · rw [hols] at h3
      obtain ⟨L2, v2, m2⟩ := P.lastOut hp2 hvout2 hval1 vL mL hulo h3
      have : x ∉ L2 := fun g => hvoB (hx.up ((m2 x).1 g).2.1)
      rw [v2, if_neg this, q2]
    · rw [e3, q2]
  · intro x hx hxB
    have e1 : n3.succOf x = a.succOf x := by rw [es3, sp.succ_off x (offS x hxB)]
    have hvo' := P.above_out hxB
    refine ⟨fun g1 g2 => ?_, fun g1 g2 => ?_, fun g1 g2 => ?_, fun g1 g2 => ?_⟩
    · have hj := P.anc_join g2 g1
      have hx3 : x ∉ L3 := fun g => ((m3 x).1 g).2 hj
      have hx4 : x ∉ L4 := fun g => ((m4 x).1 g).2 hj
      rw [vs, if_neg hx4, if_neg hx3, e1]
    · have hx3 : x ∉ L3 := fun g => g2 ((m3 x).1 g).1
      have hx4 : x ∈ L4 := (m4 x).2 ⟨hvo'.2 g1, fun g => g2 (g.up P.join_in)⟩
      rw [vs, if_pos hx4, if_neg hx3, e1, hosn]
      ring
    · have hx3 : x ∈ L3 := (m3 x).2 ⟨g2, fun g => g1 (g.up P.join_out)⟩
      have hx4 : x ∉ L4 := fun g => g1 (hvo'.1 ((m4 x).1 g).1)
      rw [vs, if_neg hx4, if_pos hx3, e1, hosn]
    · have hx3 : x ∉ L3 := fun g => g2 ((m3 x).1 g).1
      have hx4 : x ∉ L4 := fun g => g1 (hvo'.1 ((m4 x).1 g).1)
      rw [vs, if_neg hx4, if_neg hx3, e1]
  · intro x hx hxB lm hlm1 hlm2
    obtain ⟨w1, w2⟩ := v3 x hx hxB
    have hvo' := P.above_out hxB
    rw [elb]
    by_cases hM : a.Anc x a.u_out ∧ a.lastOf x = a.lastOf a.u_out
    · have elm : lm = ort := by rw [hort]; exact hlm1 hM.1 hM.2
      obtain ⟨w3, w4⟩ := w1 ⟨hvo'.2 hM.1, hM.2⟩
      obtain ⟨ew1, _⟩ := P.thr.ends_with ⟨ho.1, ho.2.1⟩ hx.1 hx.2 hxB hM.1 hM.2
      rw [← hort] at ew1
      by_cases hc : a.join ≠ ort ∧ a.v_in ≠ ort
      · rw [w3 hc, elm]
        exact ⟨fun _ g => absurd g.symm hc.2, fun _ => rfl⟩
      · rw [w4 hc]
        -- `v_in` is the node threaded before `u_out`
        have hvort : a.v_in = ort := by
          by_contra hne
          have hjo : a.join = ort := by
            by_contra hne2
            exact hc ⟨hne2, hne⟩
          have hxj : a.Anc x a.join := by rw [hjo]; exact ew1
          have hlj : a.lastOf a.join = a.lastOf a.u_out := by
            have := P.thr.last_mono hx.1 hx.2 hjn.1 hjn.2 hxj
              (by rw [hM.2]; exact P.join_out.up holsB)
            rw [this, hM.2]
          have hfc := P.thr.first_child ⟨ho.1, ho.2.1⟩ hjn.1 hjn.2 hjB P.join_out hlj
            (by rw [← hort, hjo])
          rcases hfc _ P.join_in with g | g
          · exact hne (by rw [g, hjo])
          · exact P.vin_off g
        refine ⟨fun _ _ => rfl, fun g => ?_⟩
        exact absurd ⟨by rw [hvort]; exact ew1, by rw [elm, hvort]⟩ g
    · have elm : lm = a.lastOf x := hlm2 hM
      have hM' : ¬ (a.Anc x a.v_out ∧ a.lastOf x = a.lastOf a.u_out) :=
        fun g => hM ⟨hvo'.1 g.1, g.2⟩
      rw [w2 hM', vL, hval1 x hxB, elm]
      constructor
      · intro g1 g2
        rw [if_pos ((mL x).2 ⟨hx, g1, g2⟩)]
      · intro g
        have : x ∉ L := fun q => g ⟨((mL x).1 q).2.1, ((mL x).1 q).2.2⟩
        rw [if_neg this]

end NetSimplex

/-! ## The blocks of the new order -/

namespace NetSimplex

theorem insAfter_block {v : Int} {X R : List Int} (nd : R.Nodup) (hv : v ∈ R) :
    IsBlock X (insAfter v X R) := by
  obtain ⟨p, q, e⟩ := List.append_of_mem hv
  have hp : v ∉ p := by
    rw [e] at nd
    exact fun g => (List.nodup_append.1 nd).2.2 g (List.mem_cons_self _ _)
  refine ⟨p ++ [v], q, ?_⟩
  rw [e, insAfter_append_right p (v :: q) hp]
  show p ++ (if v = v then v :: (X ++ q) else v :: insAfter v X q) = _
  rw [if_pos rfl]
  simp

/-- The first nodes of the segments are the stem nodes above the first one. -/
theorem StemShape.heads {o : NetSimplex} {uo : Int} :
    ∀ (segs : List (List Int × List Int)) (s : Int) (Bs l : List Int),
    StemShape o uo s Bs segs → Walk o uo s l →
    (∀ x ∈ stemHeads segs, x ∈ l ++ [uo]) ∧ (∀ x ∈ l ++ [uo], x = s ∨ x ∈ stemHeads segs) := by
  intro segs
  induction segs with
  | nil =>
    intro s Bs l hsh hw
    have hs : s = uo := hsh
    have hl : l = [] := by
      cases l with
      | nil => rfl
      | cons y l' =>
        obtain ⟨_, hne, _⟩ := hw
        exact absurd hs hne
    rw [hl]
    refine ⟨fun x hx => by simp [stemHeads] at hx, fun x hx => ?_⟩
    have : x = uo := by simpa using hx
    exact Or.inl (this.trans hs.symm)
  | cons sg rest ih =>
    intro s Bs l hsh hw
    obtain ⟨hne, hP, _, hsh'⟩ := hsh
    cases l with
    | nil => exact absurd hw hne
    | cons y l' =>
      obtain ⟨e, _, hw'⟩ := hw
      obtain ⟨i1, i2⟩ := ih (o.par s) _ l' hsh' hw'
      have hhd : ∀ x, x ∈ stemHeads (sg :: rest) ↔ x = o.par s ∨ x ∈ stemHeads rest := by
        intro x
        show x ∈ sg.1.head?.toList ++ stemHeads rest ↔ _
        rw [hP]; simp
      constructor
      · intro x hx
        rcases (hhd x).1 hx with g | g
        · rw [g]
          exact List.mem_cons_of_mem _ (Walk.start_mem hw')
        · exact List.mem_cons_of_mem _ (i1 x g)
      · intro x hx
        rcases List.mem_cons.1 hx with g | g
        · exact Or.inl (g.trans e)
        · right
          rcases i2 x g with q | q
          · exact (hhd x).2 (Or.inl q)
          · exact (hhd x).2 (Or.inr q)

/-- Two ancestors of one node with the same parent are equal. -/
theorem SpanningTree.same_parent {a : NetSimplex} {n m : Nat} (h : SpanningTree a n m)
    {q s z : Int} (q0 : 0 ≤ q) (qn : q < n) (s0 : 0 ≤ s) (sn : s < n) (h1 : a.Anc q z)
    (h2 : a.Anc s z) (hp : a.par q = a.par s) : q = s := by
  by_contra hne
  rcases h1.comparable h2 with g | g
  · -- `q` is an ancestor of `s`
    have g2 : a.Anc q (a.par s) := g.parent (fun e => hne e.symm)
    rw [← hp] at g2
    have := h.anc_antisymm q0 (le_of_lt qn) g2 (Anc.of_par a q)
    exact h.par_ne q0 qn this.symm
  · have g2 : a.Anc s (a.par q) := g.parent hne
    rw [hp] at g2
    have := h.anc_antisymm s0 (le_of_lt sn) g2 (Anc.of_par a s)
    exact h.par_ne s0 sn this.symm

/-- A list without repetitions of the nodes of the subtree of `q` has `_succ_num[q]`
nodes. -/
theorem Threaded.size_of {a : NetSimplex} {n m : Nat} {T : List Int} (ht : Threaded a n m T)
    {q : Int} (q0 : 0 ≤ q) (qn : q ≤ n) {Bq : List Int} (nd : Bq.Nodup)
    (hm : ∀ w, w ∈ Bq ↔ a.Anc q w) : (Bq.length : Int) = a.succOf q := by
  obtain ⟨p, x, r, hT, hmq, hlen, _⟩ := ht.blocks q q0 qn
  have ndx : (q :: x).Nodup := by
    have := ht.nodup
    rw [hT] at this
    exact (List.nodup_append.1 (List.nodup_append.1 this).1).2.1
  have := ((List.perm_ext_iff_of_nodup nd ndx).2 (fun w => (hm w).trans (hmq w).symm)).length_eq
  rw [this]; exact hlen

set_option maxHeartbeats 4000000 in
/-- After the tree update the subtree of every node is a block of the new thread order that
starts with the node, has `_succ_num` nodes and ends with `_last_succ`. -/
theorem Pivoted.new_blocks {a b n1 : NetSimplex} {n m : Nat} {T l pre blk post B' : List Int}
    (P : Pivoted a b n m T l) (sp : Spliced a n1 n l pre blk post B')
    (hT : T = pre ++ (a.u_out :: blk) ++ post)
    (hB : ∀ w, w ∈ a.u_out :: blk ↔ a.Anc a.u_out w) (hpar : n1.par = b.par)
    (hin : ∀ x, a.Anc a.u_out x → b.succOf x = n1.succOf x ∧ b.lastOf x = n1.lastOf x)
    (hs : ∀ x : Int, (0 ≤ x ∧ x ≤ n) → ¬ a.Anc a.u_out x →
      (a.Anc x a.u_out → a.Anc x a.v_in → b.succOf x = a.succOf x) ∧
      (a.Anc x a.u_out → ¬ a.Anc x a.v_in → b.succOf x = a.succOf x - a.succOf a.u_out) ∧
      (¬ a.Anc x a.u_out → a.Anc x a.v_in → b.succOf x = a.succOf x + a.succOf a.u_out) ∧
      (¬ a.Anc x a.u_out → ¬ a.Anc x a.v_in → b.succOf x = a.succOf x))
    (hlst : ∀ x : Int, (0 ≤ x ∧ x ≤ n) → ¬ a.Anc a.u_out x → ∀ lm : Int,
      (a.Anc x a.u_out → a.lastOf x = a.lastOf a.u_out → lm = a.revOf a.u_out) →
      (¬ (a.Anc x a.u_out ∧ a.lastOf x = a.lastOf a.u_out) → lm = a.lastOf x) →
      (a.Anc x a.v_in → lm = a.v_in → b.lastOf x = n1.lastOf a.u_out) ∧
      (¬ (a.Anc x a.v_in ∧ lm = a.v_in) → b.lastOf x = lm)) :
    ∀ u : Int, 0 ≤ u → u ≤ n → ∃ p X q : List Int,
      insAfter a.v_in B' (pre ++ post) = p ++ X ++ q ∧ X.head? = some u ∧
      (∀ w, w ∈ X ↔ b.Anc u w) ∧ (X.length : Int) = b.succOf u ∧
      X.getLast? = some (b.lastOf u) := by
  intro u u0 un
  have ht := P.thr
  have ho := P.turn.out_range
  have huo : 0 ≤ a.u_out ∧ a.u_out < n := ⟨ho.1, ho.2.1⟩
  have ndR : (pre ++ post).Nodup := nodup_remove_mid (by rw [← hT]; exact ht.nodup)
  have hvR : a.v_in ∈ pre ++ post := by
    have hvT : a.v_in ∈ T := (ht.mem _).2 P.turn.vin
    rw [hT] at hvT
    rcases List.mem_append.1 hvT with g | g
    · rcases List.mem_append.1 g with g' | g'
      · exact List.mem_append_left _ g'
      · exact absurd ((hB _).1 g') P.vin_off
    · exact List.mem_append_right _ g
  have hBT : IsBlock B' (insAfter a.v_in B' (pre ++ post)) := insAfter_block ndR hvR
  have ndB : (a.u_out :: blk).Nodup := by
    have := ht.nodup
    rw [hT] at this
    exact (List.nodup_append.1 (List.nodup_append.1 this).1).2.1
  by_cases huB : a.Anc a.u_out u
  · obtain ⟨B0, segs, f1, f2, f3, f4, f5⟩ := sp.shape
    have ndO : (stemOld B0 segs).Nodup := by rw [← f2]; exact ndB
    obtain ⟨hd1, hd2⟩ := StemShape.heads segs a.u_in B0 l f5 P.turn.walk
    have hB0ne : B0 ≠ [] := by
      intro e
      rw [e] at f3
      simp at f3
    obtain ⟨hi1, hi2⟩ := hin u huB
    by_cases huS : u ∈ l ++ [a.u_out]
    · have hls : n1.lastOf u = n1.lastOf a.u_out := by rw [sp.last_stem u, if_pos huS]
      by_cases hui : u = a.u_in
      · -- the block of `u_in` is the whole new block
        obtain ⟨A, Y, e⟩ := hBT
        refine ⟨A, B', Y, e, by rw [hui]; exact sp.head, ?_, ?_, ?_⟩
        · intro w
          rw [P.turn.anc_stem huS w, sp.order.mem_iff, hB w]
          exact ⟨fun g => ⟨g, fun q => absurd hui q⟩, fun g => g.1⟩
        · rw [hi1, hui, sp.succ_in, sp.order.length_eq]
          exact (ht.block_last hT hB huo.1 (le_of_lt huo.2)).2
        · rw [hi2, hls]; exact sp.last_end
      · -- a stem node above `u_in`
        have huh : u ∈ stemHeads segs := by
          rcases hd2 u huS with g | g
          · exact absurd g hui
          · exact g
        obtain ⟨N', X', q, Bq, r1, r2, r3, r4, r5, r6, r7, r8⟩ :=
          stem_block_stem segs a.u_in B0 B0 f5 f4 ndO u huh
        obtain ⟨s', sl', e1, e2⟩ := P.turn.par_stem huS hui
        have hsr := P.turn.stem s' (List.mem_append_left _ sl')
        have hur := P.turn.stem u huS
        have hq0 : 0 ≤ q := by
          by_contra hq
          have := par_neg a (not_le.1 hq)
          rw [r3] at this
          omega
        have hir := P.turn.stem a.u_in (Walk.start_mem P.turn.walk)
        have hqn : q ≤ n := ht.tree.anc_up_range hir.1 (le_of_lt hir.2.1) r4 hq0
        have hqn' : q < n := by
          rcases lt_or_eq_of_le hqn with g | g
          · exact g
          · exfalso
            rw [g, ht.tree.par_at_root] at r3
            omega
        have hqs : q = s' := ht.tree.same_parent hq0 hqn' hsr.1 hsr.2.1 r4
          (P.turn.stem_anc (List.mem_append_left _ sl')).2 (by rw [r3, e2])
        have hbq : b.par u = q := by rw [e1, hqs]
        have hX'ne : X' ≠ [] := by
          intro e
          rw [e] at r2
          simp at r2
        have hXB : IsBlock X' B' := ⟨N', [], by rw [f1, r1]; simp⟩
        obtain ⟨A, Y, e⟩ := hXB.trans hBT
        refine ⟨A, X', Y, e, r2, ?_, ?_, ?_⟩
        · intro w
          rw [P.turn.anc_stem huS w, r7 w, ← f2, hB w, hbq]
          exact ⟨fun g => ⟨g.1, fun _ => g.2⟩, fun g => ⟨g.1, g.2 hui⟩⟩
        · rw [hi1, sp.succ_stem u huS hui, hpar, hbq, ← ht.size_of hq0 hqn r6 r5,
            ← (ht.block_last hT hB huo.1 (le_of_lt huo.2)).2, f2]
          have := r8
          omega
        · rw [hi2, hls, ← sp.last_end, f1, r1, getLast_append_ne hX'ne]
    · -- a node of the block off the stem keeps its block
      obtain ⟨hu0, hun⟩ := ht.tree.anc_range huo.1 (le_of_lt huo.2) huB
      obtain ⟨p0, x0, q0, hT0, hm0, hlen0, hlast0⟩ := ht.blocks u hu0 hun
      have hsub : ∀ w ∈ u :: x0, w ∈ a.u_out :: blk :=
        fun w hw => (hB w).2 (huB.up ((hm0 w).1 hw))
      obtain ⟨A, Y, eX, _, _⟩ := block_nested ht.nodup hT hT0 hsub
      have hXO : IsBlock (u :: x0) (stemOld B0 segs) := by rw [← f2]; exact ⟨A, Y, eX⟩
      have hui : u ≠ a.u_in := fun e => huS (by rw [e]; exact Walk.start_mem P.turn.walk)
      have hXN := stem_block_in ht.tree (by simp) hm0 hu0 hun segs a.u_in B0 B0 f5 f4 hB0ne
        ndO hui (fun x hx e => huS (by rw [e]; exact hd1 x hx)) id hXO
      rw [← f1] at hXN
      obtain ⟨A2, Y2, e⟩ := hXN.trans hBT
      refine ⟨A2, u :: x0, Y2, e, rfl, ?_, ?_, ?_⟩
      · intro w
        rw [P.turn.anc_in huS huB w]
        exact hm0 w
      · rw [hi1, sp.succ_off u huS]; exact hlen0
      · rw [hi2, sp.last_stem u, if_neg huS]; exact hlast0
  · -- a node outside the block of `u_out`
    obtain ⟨p, X, q, lm, e, hh, hm, c1, c2, c3, c4, d1, d2, d3, d4⟩ :=
      ht.block_out hT hB huo P.turn.vin P.vin_off sp.order sp.last_end u0 un huB
    obtain ⟨s1, s2, s3, s4⟩ := hs u ⟨u0, un⟩ huB
    obtain ⟨t1, t2⟩ := hlst u ⟨u0, un⟩ huB lm d1 d2
    refine ⟨p, X, q, e, hh, ?_, ?_, ?_⟩
    · intro w
      rw [P.turn.anc_out u0 un huB w]
      exact hm w
    · by_cases g1 : a.Anc u a.u_out
      · by_cases g2 : a.Anc u a.v_in
        · rw [c1 g1 g2, s1 g1 g2]
        · rw [c2 g1 g2, s2 g1 g2]
      · by_cases g2 : a.Anc u a.v_in
        · rw [c3 g1 g2, s3 g1 g2]
        · rw [c4 g1 g2, s4 g1 g2]
    · by_cases g : a.Anc u a.v_in ∧ lm = a.v_in
      · rw [d3 g.1 g.2, t1 g.1 g.2]
      · rw [d4 g, t2 g]

end NetSimplex

/-! ## The traversal invariants after a pivot -/

namespace NetSimplex

theorem updateTreeStem_writes {a b : NetSimplex} {x c y : Int}
    (h : updateTreeStem a x c y = some b) : Writes treeFields a b := by
  simp only [updateTreeStem, Option.bind_eq_bind, Option.bind_eq_some] at h
  obtain ⟨⟨r1, r2⟩, h1, h2⟩ := h
  exact ((updateTreeStemThread_writes h1).wider (by decide)).follow
    ((updateTreeStemPred_writes h2).wider (by decide))

set_option maxHeartbeats 4000000 in
/-- The tree update keeps the traversal invariants: the block of `u_out` is taken out of the
thread order and, re-ordered so that it starts with `u_in`, put in after `v_in`; the new
order is a depth-first pre-order of the new tree, with `_succ_num` the subtree sizes and
`_last_succ` the last nodes of the subtrees. -/
theorem updateTreeStructure_threaded {a b : NetSimplex} {n m : Nat} {T l : List Int}
    (ht : Threaded a n m T) (hw : Walk a a.u_out a.u_in l)
    (hl : ∀ y ∈ l ++ [a.u_out], 0 ≤ y ∧ y < n ∧ ¬ a.Anc y a.v_in)
    (hv : 0 ≤ a.v_in ∧ a.v_in ≤ n) (hnew : SpanningTree b n m)
    (hj0 : 0 ≤ a.join ∧ a.join ≤ n) (hji : a.Anc a.join a.v_in)
    (hjo : a.Anc a.join a.u_out)
    (hlca : ∀ x, a.Anc x a.v_in → a.Anc x a.u_in → a.Anc x a.join)
    (h : updateTreeStructure a = some b) :
    ∃ pre blk post B', T = pre ++ (a.u_out :: blk) ++ post ∧
      (∀ w, w ∈ a.u_out :: blk ↔ a.Anc a.u_out w) ∧
      B'.Perm (a.u_out :: blk) ∧ B'.head? = some a.u_in ∧
      Threaded b n m (insAfter a.v_in B' (pre ++ post)) := by
  have hpar := (updateTreeStructure_tree h hw).2.1
  unfold updateTreeStructure at h
  simp only [Option.bind_eq_bind, Option.bind_eq_some] at h
  obtain ⟨ort, hort, osn, hosn, ols, hols, vo, hvo, h⟩ := h
  have eort : ort = a.revOf a.u_out := (revOf_eq hort).symm
  have eols : ols = a.lastOf a.u_out := (lastOf_eq hols).symm
  have eosn : osn = a.succOf a.u_out := (succOf_eq hosn).symm
  have evo : vo = a.par a.u_out := (par_eq hvo).symm
  have ht' := ht.with_v_out vo
  have hw0 : Walk { a with v_out := vo } a.u_out a.u_in l :=
    @Walk.congr a { a with v_out := vo } rfl a.u_out l _ hw
  have P : Pivoted { a with v_out := vo } b n m T l :=
    ⟨ht', ⟨ht'.tree, hnew, hw0, hl, hv, hpar⟩, evo, hj0, hji, hjo, hlca⟩
  have fin : ∀ (n1 n2 : NetSimplex) (lj lso : Int) (pre blk post B' : List Int),
      Writes treeFields { a with v_out := vo } n1 →
      rd n1.last_succ n1.join = some lj → rd n1.last_succ n1.u_out = some lso →
      lastSuccIn lso n1.loopBound n1 n1.v_in = some n2 →
      (if n2.join ≠ ort ∧ n2.v_in ≠ ort then
        (lastSuccOut (if lj = n1.v_in then n1.join else -1) ols ort n2.loopBound n2
            n2.v_out).bind fun y =>
          (succNumLoop osn y.loopBound y y.v_in).bind fun ns =>
            succNumLoop (-osn) ns.loopBound ns ns.v_out
      else
        if lso ≠ ols then
          (lastSuccOut (if lj = n1.v_in then n1.join else -1) ols lso n2.loopBound n2
              n2.v_out).bind fun y =>
            (succNumLoop osn y.loopBound y y.v_in).bind fun ns =>
              succNumLoop (-osn) ns.loopBound ns ns.v_out
        else
          (some n2).bind fun y =>
            (succNumLoop osn y.loopBound y y.v_in).bind fun ns =>
              succNumLoop (-osn) ns.loopBound ns ns.v_out) = some b →
      T = pre ++ (a.u_out :: blk) ++ post →
      (∀ w, w ∈ a.u_out :: blk ↔ a.Anc a.u_out w) →
      Spliced { a with v_out := vo } n1 n l pre blk post B' →
      ∃ pre blk post B', T = pre ++ (a.u_out :: blk) ++ post ∧
        (∀ w, w ∈ a.u_out :: blk ↔ a.Anc a.u_out w) ∧
        B'.Perm (a.u_out :: blk) ∧ B'.head? = some a.u_in ∧
        Threaded b n m (insAfter a.v_in B' (pre ++ post)) := by
    intro n1 n2 lj lso pre blk post B' k1 hlj hlso h2 hbr hT hB sp
    have hvin : n1.v_in = a.v_in := k1.eq_v_in
    have hvout : n1.v_out = vo := k1.eq_v_out
    have hjoin : n1.join = a.join := k1.eq_join
    have huout : n1.u_out = a.u_out := k1.eq_u_out
    have elj : lj = n1.lastOf a.join := by rw [← hjoin]; exact (lastOf_eq hlj).symm
    have elso : lso = n1.lastOf a.u_out := by rw [← huout]; exact (lastOf_eq hlso).symm
    have kW : Writes [Fld.succ_num, Fld.last_succ] n1 b :=
      ((lastSuccIn_writes _ _ _ _ _ h2).wider (by decide)).follow (lastSuccTail_writes hbr)
    have hp : n1.parent = b.parent := (kW.vec Fld.parent (by decide)).symm
    have hulo : (if lj = n1.v_in then n1.join else -1) =
        if n1.lastOf a.join = a.v_in then a.join else -1 := by rw [elj, hvin, hjoin]
    obtain ⟨_, v1, v2, v3⟩ := P.tail_values sp hp hvin hvout hjoin eort eols eosn hulo h2 hbr
    rw [elso] at v3
    have hpp : n1.par = b.par := funext (par_congr hp)
    have blocks := P.new_blocks sp hT hB hpp v1 v2 v3
    have ho := hl a.u_out (by simp)
    have hvR : a.v_in ∈ pre ++ post := by
      have hvT : a.v_in ∈ T := (ht.mem _).2 hv
      rw [hT] at hvT
      rcases List.mem_append.1 hvT with g | g
      · rcases List.mem_append.1 g with g' | g'
        · exact List.mem_append_left _ g'
        · exact absurd ((hB _).1 g') ho.2.2
      · exact List.mem_append_right _ g
    obtain ⟨p1, p2, p3⟩ := newOrder_props hT ht.nodup ht.head
      (fun m => ht.root_off ho.1 ho.2.1 ((hB _).1 m)) hvR sp.order
    have et : b.thr = n1.thr := funext (thr_congr (kW.vec Fld.thread (by decide)))
    have er : b.revOf = n1.revOf := funext (revOf_congr (kW.vec Fld.rev_thread (by decide)))
    refine ⟨pre, blk, post, B', hT, hB, sp.order, sp.head, hnew, p3, p1,
      fun u => (p2 u).trans (ht.mem u), ?_, ?_⟩
    · rw [et, er]
      exact sp.link
    · intro u u0 un
      obtain ⟨p, X, q, e1, e2, e3, e4, e5⟩ := blocks u u0 un
      obtain ⟨t, eX⟩ := List.head?_eq_some_iff.1 e2
      rw [eX] at e1 e3 e4 e5
      exact ⟨p, t, q, e1, e3, e4, e5⟩
  split at h
  · rename_i hu
    have hu' : a.u_in = a.u_out := hu
    simp only [Option.bind_eq_some] at h
    obtain ⟨n1, h1, lj, hlj, lso, hlso, n2, h2, h⟩ := h
    have hl0 : l = [] := by
      cases l with
      | nil => rfl
      | cons s l2 =>
        exfalso
        exact hw.2.1 hu'
    obtain ⟨pre, blk, post, B', e1, e2, sp⟩ := @updateTreeSame_spliced { a with v_out := vo }
      n1 n m T ort ols ht' hu' (hl a.u_out (by simp)) hv eort eols h1
    rw [← hl0] at sp
    exact fin n1 n2 lj lso pre blk post B' ((updateTreeSame_writes h1).wider (by decide))
      hlj hlso h2 h e1 e2 sp
  · rename_i hu
    simp only [Option.bind_eq_some] at h
    obtain ⟨n1, h1, lj, hlj, lso, hlso, n2, h2, h⟩ := h
    obtain ⟨pre, blk, post, B', e1, e2, sp⟩ := @updateTreeStem_spliced { a with v_out := vo }
      n1 n m T l ort osn ols ht' hw0 hl hv eort eols eosn h1
    exact fin n1 n2 lj lso pre blk post B' (updateTreeStem_writes h1) hlj hlso h2 h e1 e2 sp

set_option maxHeartbeats 4000000 in
/-- A pivot with a leaving arc keeps the traversal invariants: the old block of `u_out` is
taken out of the thread order and, re-ordered so that it starts with `u_in`, put in after
`v_in`. -/
theorem pivot_threaded {x x1 x2 x3 x4 x5 : NetSimplex} {n m : Nat} {T : List Int}
    (ht : Threaded x n m T)
    (hs : 0 ≤ x.srcOf x.in_arc ∧ x.srcOf x.in_arc ≤ n)
    (hg : 0 ≤ x.tgtOf x.in_arc ∧ x.tgtOf x.in_arc ≤ n)
    (h1 : findJoinNode x = some x1) (h2 : findLeavingArc x1 = some (true, x2))
    (h3 : changeFlow x2 = some x3) (h4 : updateTreeStructure x3 = some x4)
    (h5 : updatePotential x4 = some x5) :
    ∃ pre blk post B', T = pre ++ (x2.u_out :: blk) ++ post ∧
      (∀ w, w ∈ x2.u_out :: blk ↔ x.Anc x2.u_out w) ∧
      B'.Perm (x2.u_out :: blk) ∧ B'.head? = some x2.u_in ∧
      Threaded x5 n m (insAfter x2.v_in B' (pre ++ post)) := by
  have hb := ht.tree_basis
  obtain ⟨e23, hv, l, hw, hl, hav⟩ := pivot_stem hb hs hg h1 h2 h3
  obtain ⟨_, hin, hout, hj0⟩ := pivot_ends hb hs hg h1 h2 h3
  have ⟨st4, _, _⟩ := pivot_tree hb hs hg h1 h2 h3 h4
  have f_par : x3.parent = x.parent := by rw [e23]
  have f_uo : x3.u_out = x2.u_out := by rw [e23]
  have f_ui : x3.u_in = x2.u_in := by rw [e23]
  have f_vi : x3.v_in = x2.v_in := by rw [e23]
  have f_jn : x3.join = x2.join := by rw [e23]
  obtain ⟨_, hfl, hsl, _⟩ := changeFlow_spec h3
  obtain ⟨e2, _⟩ := pivot_cycle hb h1 h2 hs hg
  have hs3 : x3.Sized n m := by
    refine ⟨fun f => ?_, ?_⟩
    · have := hb.sized.1 f
      have hf : (x3.arr f).length = (x.arr f).length := by
        cases f <;> first | (rw [e23]; rfl) | exact hfl.trans (by rw [e2]; rfl)
      rw [hf]
      exact this
    · have : x2.state = x.state := by rw [e2]
      rw [hsl, this]
      exact hb.sized.2
  have hb3 : TreeBasis x3 n m := hb.transfer hs3 (by rw [e23]) (by rw [e23]) f_par
    (by rw [e23]) (by rw [e23]) (by rw [e23]) (by rw [e23]) (by rw [e23])
  have ht3 : Threaded x3 n m T := ht.carry hb3.spanning f_par (by rw [e23]) (by rw [e23])
    (by rw [e23]) (by rw [e23])
  have p3 : x3.par = x.par := funext (par_congr f_par)
  have an : x3.Anc = x.Anc := by
    funext u w
    unfold Anc
    rw [p3]
  have hw3 : Walk x3 x3.u_out x3.u_in l := Walk.congr f_par _ _ _ hw
  have hl3 : ∀ y ∈ l ++ [x3.u_out], 0 ≤ y ∧ y < n ∧ ¬ x3.Anc y x3.v_in := by
    intro y hy
    refine ⟨(hl y hy).1, (hl y hy).2, ?_⟩
    rintro ⟨k, hk⟩
    rw [p3] at hk
    exact hav k (by rw [hk]; exact hy)
  -- the join node is the lowest common ancestor of the ends of the entering arc
  obtain ⟨e1, _, ⟨s, hsrc⟩, _⟩ := findJoinNode_spec h1
  have hia : 0 ≤ x.in_arc ∧ x.in_arc < m := by
    have r := rd_some_range hsrc
    have := hb.sized.1 Fld.source
    have e : (x.source.length : Int) = m := by
      have : x.source.length = m := this
      rw [this]
    rw [e] at r
    exact r
  obtain ⟨y, hy, _, ja, jb, jc⟩ := findJoinNode_lca ht.tree ht.sizes hia hs hg
  have ey : y = x1 := Option.some.inj (hy.symm.trans h1)
  rw [ey] at ja jb jc
  have ej : x2.join = x1.join := by
    have := (findLeavingArc_walks h2).1
    rw [this]
  have e1p : x1.parent = x.parent := by rw [e1]
  have e1s : x1.source = x.source := by rw [e1]
  have e1t : x1.target = x.target := by rw [e1]
  have e1i : x1.in_arc = x.in_arc := by rw [e1]
  have hsrc1 : x1.srcOf x1.in_arc = x.srcOf x.in_arc := by rw [e1i]; exact srcOf_congr e1s _
  have htgt1 : x1.tgtOf x1.in_arc = x.tgtOf x.in_arc := by rw [e1i]; exact tgtOf_congr e1t _
  have an1 : x1.Anc = x.Anc := by
    funext u w
    unfold Anc
    rw [funext (par_congr e1p)]
  obtain ⟨w1, w2, ww1, ww2, hmem⟩ := findLeavingArc_member h2
  rw [hsrc1, htgt1] at hmem
  have J : x.Anc x1.join x2.v_in ∧ x.Anc x1.join x2.u_out ∧
      ∀ c, x.Anc c x2.v_in → x.Anc c x2.u_in → x.Anc c x1.join := by
    rcases hmem with ⟨m1, m2, m3⟩ | ⟨m1, m2, m3⟩
    · refine ⟨by rw [m2]; exact jb, ?_, fun c c1 c2 => jc c (by rw [← m1]; exact c2)
        (by rw [← m2]; exact c1)⟩
      rw [← an1]
      exact Walk.anc_mem w1 _ ww1 _ (List.mem_append_left _ m3)
    · refine ⟨by rw [m2]; exact ja, ?_, fun c c1 c2 => jc c (by rw [← m2]; exact c1)
        (by rw [← m1]; exact c2)⟩
      rw [← an1]
      exact Walk.anc_mem w2 _ ww2 _ (List.mem_append_left _ m3)
  obtain ⟨J1, J2, J3⟩ := J
  obtain ⟨pre, blk, post, B', q1, q2, q3, q4, q5⟩ :=
    updateTreeStructure_threaded ht3 hw3 hl3 hv st4 (by rw [f_jn]; exact hj0)
      (by rw [an, f_jn, f_vi, ej]; exact J1) (by rw [an, f_jn, f_uo, ej]; exact J2)
      (by rw [an, f_jn, f_vi, f_ui, ej]; exact J3) h4
  rw [f_uo] at q1 q2 q3
  rw [f_ui] at q4
  rw [f_vi] at q5
  rw [an] at q2
  refine ⟨pre, blk, post, B', q1, q2, q3, q4, ?_⟩
  have k5 : Writes [Fld.pi] x4 x5 := updatePotential_writes h5
  have hb5 : TreeBasis x5 n m := q5.tree_basis.transfer (k5.keeps_sized st4.sized)
    k5.eq_node_num k5.eq_root (k5.vec Fld.parent (by decide)) (k5.vec Fld.pred (by decide))
    (k5.vec Fld.pred_dir (by decide)) (k5.vec Fld.source (by decide))
    (k5.vec Fld.target (by decide)) (k5.vec Fld.succ_num (by decide))
  exact q5.carry hb5.spanning (k5.vec Fld.parent (by decide)) (k5.vec Fld.thread (by decide))
    (k5.vec Fld.rev_thread (by decide)) (k5.vec Fld.succ_num (by decide))
    (k5.vec Fld.last_succ (by decide))

end NetSimplex

/-! ## C25 and C26: the traversal invariants -/

namespace NetSimplex

/-- With the traversal invariants `_succ_num[root]` is the number of nodes. -/
theorem Threaded.root_size {ns : NetSimplex} {n m : Nat} {T : List Int}
    (ht : Threaded ns n m T) : ns.succOf n = n + 1 := by
  have h1 := ht.size_of (by omega) (le_refl _) ht.nodup (fun w => (ht.mem w).trans
    ⟨fun h => ht.tree.root_anc h.1 h.2, fun h => ht.tree.anc_range (by omega) (le_refl _) h⟩)
  have nd : ((n : Int) :: arcsFrom 0 n).Nodup := by
    refine List.nodup_cons.2 ⟨?_, arcsFrom_nodup _ _⟩
    rw [mem_arcsFrom]
    omega
  have h2 := ((List.perm_ext_iff_of_nodup ht.nodup nd).2 (fun w => by
    rw [ht.mem w, List.mem_cons, mem_arcsFrom]
    omega)).length_eq
  rw [← h1, h2, List.length_cons, arcsFrom_length]
  push_cast
  rfl

end NetSimplex

/-- C26: the traversal arrays describe a depth-first pre-order of the tree given by
`parent`. After the reset loop of `run` and `init` the traversal invariants hold with the
thread order `n, 0, 1, ..., n - 1`: following `_thread` from the root visits the nodes
`0..n` once in this order and returns to the root, the subtree of every node `u` is a block
of the order that starts with `u`, has `_succ_num[u]` nodes and ends with `_last_succ[u]`.
A complete pivot with a leaving arc from a state with the traversal invariants for an order
`T` ends in a state with the traversal invariants for the order got from `T` by taking out
the block of `u_out` and putting it, re-ordered so that it starts with `u_in`, after `v_in`.
In both states `_succ_num[root] = n + 1` and `_succ_num` grows strictly from a real node to
its parent. -/
theorem C26_preorder :
    (∀ (ns : NetSimplex) (n m : Nat), ns.Sized n m → ns.node_num = n → ns.arc_num = m →
      1 ≤ n → n ≤ m → ∃ A, ns.prepared = some A ∧
        A.Threaded n m ((n : Int) :: arcsFrom 0 n) ∧ A.succOf n = n + 1 ∧
        ∀ u : Int, 0 ≤ u → u < n → A.succOf u < A.succOf (A.par u)) ∧
    (∀ (x x1 x2 x3 x4 x5 : NetSimplex) (n m : Nat) (T : List Int), x.Threaded n m T →
      (0 ≤ x.srcOf x.in_arc ∧ x.srcOf x.in_arc ≤ n) →
      (0 ≤ x.tgtOf x.in_arc ∧ x.tgtOf x.in_arc ≤ n) →
      x.findJoinNode = some x1 → x1.findLeavingArc = some (true, x2) →
      x2.changeFlow = some x3 → x3.updateTreeStructure = some x4 →
      x4.updatePotential = some x5 →
      ∃ pre blk post B', T = pre ++ (x2.u_out :: blk) ++ post ∧
        (∀ w, w ∈ x2.u_out :: blk ↔ x.Anc x2.u_out w) ∧
        B'.Perm (x2.u_out :: blk) ∧ B'.head? = some x2.u_in ∧
        x5.Threaded n m (NetSimplex.insAfter x2.v_in B' (pre ++ post)) ∧
        x5.succOf n = n + 1 ∧
        ∀ u : Int, 0 ≤ u → u < n → x5.succOf u < x5.succOf (x5.par u)) := by
  constructor
  · intro ns n m hs hnn han hn1 hnm
    have hm : ns.arc_num.toNat = m := by rw [han]; simp
    obtain ⟨x1, hr, k1⟩ := NetSimplex.runReset_ok n m ns.arc_num.toNat 0
      { ns with iterations := 0 } (NetSimplex.sized_iterations hs 0) (le_refl _)
      (by rw [hm]; simp)
    have hs1 : x1.Sized n m := k1.sized (NetSimplex.sized_iterations hs 0)
    have hn1' : x1.node_num = n := (k1.2.2.1 Sc.node_num (by simp)).trans hnn
    obtain ⟨A, hi, _⟩ := NetSimplex.init_ok x1 n m hs1 hn1' hn1 hnm
    obtain ⟨sA, ss, hroot, _, hstar, hnode, _⟩ :=
      NetSimplex.run_prepared n m ns x1 A hs hnn han hn1 hnm hr hi
    have hp : ns.prepared = some A := by
      simp only [NetSimplex.prepared, Option.bind_eq_bind, hr, Option.some_bind, hi]
    have hAn : A.node_num = n := ss.1.trans hnn
    have ht := NetSimplex.star_threaded n m A ns.artCost sA hAn hroot hn1 hnm hstar
      (fun v v0 vn => by
        obtain ⟨c, _, _, sn⟩ := hnode v v0 vn
        exact ⟨c, sn⟩)
    exact ⟨A, hp, ht, ht.root_size, fun u u0 un => ht.tree_basis.succ_lt u u0 un⟩
  · intro x x1 x2 x3 x4 x5 n m T ht hs hg h1 h2 h3 h4 h5
    obtain ⟨pre, blk, post, B', q1, q2, q3, q4, q5⟩ :=
      NetSimplex.pivot_threaded ht hs hg h1 h2 h3 h4 h5
    exact ⟨pre, blk, post, B', q1, q2, q3, q4, q5, q5.root_size,
      fun u u0 un => q5.tree_basis.succ_lt u u0 un⟩

/-- C26 on scenario S1 for `init` and on the stem scenario for its second pivot. -/
theorem C26_preorder_Stem :
    (∃ A, solverS1.prepared = some A ∧
      A.Threaded 2 3 (((2 : Nat) : Int) :: arcsFrom 0 2) ∧ A.succOf (2 : Nat) = (2 : Nat) + 1 ∧
      ∀ u : Int, 0 ≤ u → u < (2 : Nat) → A.succOf u < A.succOf (A.par u)) ∧
    enteredStem.Threaded 3 5 [3, 1, 2, 0] ∧
    (∃ pre blk post B', [3, 1, 2, 0] = pre ++ (leavingStem.2.u_out :: blk) ++ post ∧
      (∀ w, w ∈ leavingStem.2.u_out :: blk ↔ enteredStem.Anc leavingStem.2.u_out w) ∧
      B'.Perm (leavingStem.2.u_out :: blk) ∧ B'.head? = some leavingStem.2.u_in ∧
      potentialStem.Threaded 3 5 (NetSimplex.insAfter leavingStem.2.v_in B' (pre ++ post)) ∧
      potentialStem.succOf (3 : Nat) = (3 : Nat) + 1 ∧
      ∀ u : Int, 0 ≤ u → u < (3 : Nat) →
        potentialStem.succOf u < potentialStem.succOf (potentialStem.par u)) :=
  ⟨C26_preorder.1 solverS1 2 3 ⟨fun f => by cases f <;> decide, by decide⟩
      (by decide) (by decide) (by decide) (by decide),
    enteredStem_threaded,
    C26_preorder.2 enteredStem joinedStem leavingStem.2 changedStem treeStem
      potentialStem 3 5 [3, 1, 2, 0] enteredStem_threaded (by decide) (by decide) (by decide)
      (by decide) (by decide) (by decide) (by decide)⟩

/-- C25: `_thread` and `_rev_thread` are inverse permutations. After the reset loop of `run`
and `init` the traversal invariants hold with the thread order `n, 0, 1, ..., n - 1`, and for
every node `u` of `0..n` the entries `thread[u]` and `rev_thread[u]` are nodes of `0..n` with
`rev_thread[thread[u]] = u` and `thread[rev_thread[u]] = u`. A complete pivot with a leaving
arc from a state with the traversal invariants ends in a state with the traversal invariants
for some thread order, where the same holds of every node. -/
theorem C25_thread_inverse :
    (∀ (ns : NetSimplex) (n m : Nat), ns.Sized n m → ns.node_num = n → ns.arc_num = m →
      1 ≤ n → n ≤ m → ∃ A, ns.prepared = some A ∧
        A.Threaded n m ((n : Int) :: arcsFrom 0 n) ∧
        ∀ u : Int, 0 ≤ u → u ≤ n →
          (0 ≤ A.thr u ∧ A.thr u ≤ n) ∧ (0 ≤ A.revOf u ∧ A.revOf u ≤ n) ∧
            A.revOf (A.thr u) = u ∧ A.thr (A.revOf u) = u) ∧
    (∀ (x x1 x2 x3 x4 x5 : NetSimplex) (n m : Nat) (T : List Int), x.Threaded n m T →
      (0 ≤ x.srcOf x.in_arc ∧ x.srcOf x.in_arc ≤ n) →
      (0 ≤ x.tgtOf x.in_arc ∧ x.tgtOf x.in_arc ≤ n) →
      x.findJoinNode = some x1 → x1.findLeavingArc = some (true, x2) →
      x2.changeFlow = some x3 → x3.updateTreeStructure = some x4 →
      x4.updatePotential = some x5 →
      (∃ T', x5.Threaded n m T') ∧
      ∀ u : Int, 0 ≤ u → u ≤ n →
        (0 ≤ x5.thr u ∧ x5.thr u ≤ n) ∧ (0 ≤ x5.revOf u ∧ x5.revOf u ≤ n) ∧
          x5.revOf (x5.thr u) = u ∧ x5.thr (x5.revOf u) = u) := by
  constructor
  · intro ns n m hs hnn han hn1 hnm
    have hm : ns.arc_num.toNat = m := by rw [han]; simp
    obtain ⟨x1, hr, k1⟩ := NetSimplex.runReset_ok n m ns.arc_num.toNat 0
      { ns with iterations := 0 } (NetSimplex.sized_iterations hs 0) (le_refl _)
      (by rw [hm]; simp)
    have hs1 : x1.Sized n m := k1.sized (NetSimplex.sized_iterations hs 0)
    have hn1' : x1.node_num = n := (k1.2.2.1 Sc.node_num (by simp)).trans hnn
    obtain ⟨A, hi, _⟩ := NetSimplex.init_ok x1 n m hs1 hn1' hn1 hnm
    obtain ⟨sA, ss, hroot, _, hstar, hnode, _⟩ :=
      NetSimplex.run_prepared n m ns x1 A hs hnn han hn1 hnm hr hi
    have hp : ns.prepared = some A := by
      simp only [NetSimplex.prepared, Option.bind_eq_bind, hr, Option.some_bind, hi]
    have hAn : A.node_num = n := ss.1.trans hnn
    have ht := NetSimplex.star_threaded n m A ns.artCost sA hAn hroot hn1 hnm hstar
      (fun v v0 vn => by
        obtain ⟨c, _, _, sn⟩ := hnode v v0 vn
        exact ⟨c, sn⟩)
    exact ⟨A, hp, ht, ht.inverse⟩
  · intro x x1 x2 x3 x4 x5 n m T ht hs hg h1 h2 h3 h4 h5
    obtain ⟨pre, blk, post, B', _, _, _, _, q5⟩ :=
      NetSimplex.pivot_threaded ht hs hg h1 h2 h3 h4 h5
    exact ⟨⟨_, q5⟩, q5.inverse⟩

/-- C25 on scenario S1 for `init` and on the stem scenario for its second pivot. -/
theorem C25_thread_inverse_Stem :
    (∃ A, solverS1.prepared = some A ∧
      A.Threaded 2 3 (((2 : Nat) : Int) :: arcsFrom 0 2) ∧
      ∀ u : Int, 0 ≤ u → u ≤ (2 : Nat) →
        (0 ≤ A.thr u ∧ A.thr u ≤ (2 : Nat)) ∧ (0 ≤ A.revOf u ∧ A.revOf u ≤ (2 : Nat)) ∧
          A.revOf (A.thr u) = u ∧ A.thr (A.revOf u) = u) ∧
    enteredStem.Threaded 3 5 [3, 1, 2, 0] ∧
    ((∃ T', potentialStem.Threaded 3 5 T') ∧
    (∀ u : Int, 0 ≤ u → u ≤ (3 : Nat) →
      (0 ≤ potentialStem.thr u ∧ potentialStem.thr u ≤ (3 : Nat)) ∧
        (0 ≤ potentialStem.revOf u ∧ potentialStem.revOf u ≤ (3 : Nat)) ∧
        potentialStem.revOf (potentialStem.thr u) = u ∧
        potentialStem.thr (potentialStem.revOf u) = u)) :=
  ⟨C25_thread_inverse.1 solverS1 2 3 ⟨fun f => by cases f <;> decide, by decide⟩
      (by decide) (by decide) (by decide) (by decide),
    enteredStem_threaded,
    C25_thread_inverse.2 enteredStem joinedStem leavingStem.2 changedStem treeStem
      potentialStem 3 5 [3, 1, 2, 0] enteredStem_threaded (by decide) (by decide) (by decide)
      (by decide) (by decide) (by decide) (by decide)⟩

/-! ## The loop of updatePotential -/

namespace NetSimplex

theorem piOf_eq {ns : NetSimplex} {u p : Int} (h : rd ns.pi u = some p) : ns.piOf u = p := by
  unfold piOf
  rw [h]
  rfl

theorem costOf_eq {ns : NetSimplex} {e c : Int} (h : rd ns.cost e = some c) :
    ns.costOf e = c := by
  unfold costOf
  rw [h]
  rfl

theorem piOf_congr {a b : NetSimplex} (h : b.pi = a.pi) (x : Int) : b.piOf x = a.piOf x := by
  unfold piOf
  rw [h]

theorem costOf_congr {a b : NetSimplex} (h : b.cost = a.cost) (x : Int) :
    b.costOf x = a.costOf x := by
  unfold costOf
  rw [h]

theorem piOf_set {a b : NetSimplex} {i v : Int} (h : a.set_pi i v = some b) (x : Int) :
    b.piOf x = if x = i then v else a.piOf x := by
  obtain ⟨hw, _, _⟩ := set_pi_spec h
  unfold piOf
  by_cases he : x = i
  · rw [if_pos he, he, rd_wr_same hw]
    rfl
  · rw [if_neg he, rd_wr_ne hw he]

/-- The reduced cost of an arc, when it can be read, in terms of the entries. -/
theorem redCost_value {ns : NetSimplex} {e r : Int} (h : ns.redCost e = some r) :
    r = ns.costOf e + ns.piOf (ns.srcOf e) - ns.piOf (ns.tgtOf e) := by
  simp only [redCost, Option.bind_eq_bind, Option.bind_eq_some, Option.some.injEq] at h
  obtain ⟨c, hc, s, hs, t, ht, ps, hps, pt, hpt, e1⟩ := h
  rw [costOf_eq hc, srcOf_eq hs, tgtOf_eq ht, piOf_eq hps, piOf_eq hpt, e1]

/-- The reduced cost of an arc below `m` with both ends among the nodes can be read. -/
theorem redCost_read {ns : NetSimplex} {n m : Nat} (hs : ns.Sized n m) {e : Int}
    (e0 : 0 ≤ e) (em : e < m) (hsrc : 0 ≤ ns.srcOf e ∧ ns.srcOf e ≤ n)
    (htgt : 0 ≤ ns.tgtOf e ∧ ns.tgtOf e ≤ n) :
    ns.redCost e = some (ns.costOf e + ns.piOf (ns.srcOf e) - ns.piOf (ns.tgtOf e)) := by
  have lc : ((ns.cost).length : Int) = m := by
    have := hs.1 Fld.cost
    have : ns.cost.length = m := this
    rw [this]
  have ls : ((ns.source).length : Int) = m := by
    have := hs.1 Fld.source
    have : ns.source.length = m := this
    rw [this]
  have lt : ((ns.target).length : Int) = m := by
    have := hs.1 Fld.target
    have : ns.target.length = m := this
    rw [this]
  have lp : ((ns.pi).length : Int) = n + 1 := by
    have := hs.1 Fld.pi
    have : ns.pi.length = n + 1 := this
    rw [this]
    push_cast
    rfl
  obtain ⟨c, hc⟩ := rd_of_range ns.cost e0 (by rw [lc]; exact em)
  obtain ⟨s, hs'⟩ := rd_of_range ns.source e0 (by rw [ls]; exact em)
  obtain ⟨t, ht'⟩ := rd_of_range ns.target e0 (by rw [lt]; exact em)
  rw [srcOf_eq hs'] at hsrc
  rw [tgtOf_eq ht'] at htgt
  obtain ⟨ps, hps⟩ := rd_of_range ns.pi hsrc.1 (by rw [lp]; omega)
  obtain ⟨pt, hpt⟩ := rd_of_range ns.pi htgt.1 (by rw [lp]; omega)
  rw [costOf_eq hc, srcOf_eq hs', tgtOf_eq ht', piOf_eq hps, piOf_eq hpt]
  simp only [redCost, Option.bind_eq_bind, hc, hs', ht', hps, hpt, Option.some_bind]

/-- The loop of `updatePotential` along the thread: when `_thread` leads through the nodes of
`L` and then to `stop`, the loop adds `sigma` to the potential of the nodes of `L` and to no
other. -/
theorem potentialLoop_spec (sg stop : Int) : ∀ (L : List Int) (k : Nat) (a : NetSimplex)
    (u : Int) (b : NetSimplex), potentialLoop sg stop k a u = some b →
    List.Chain' (fun x y => a.thr x = y) (L ++ [stop]) → (L ++ [stop]).head? = some u →
    stop ∉ L → L.Nodup →
    ∀ x, b.piOf x = if x ∈ L then a.piOf x + sg else a.piOf x := by
  intro L
  induction L with
  | nil =>
    intro k a u b h _ hh _ _ x
    have hu : u = stop := by simpa using hh.symm
    cases k with
    | zero => simp [potentialLoop] at h
    | succ k =>
      unfold potentialLoop at h
      rw [if_pos hu] at h
      simp only [Option.some.injEq] at h
      subst h
      simp
  | cons v L ih =>
    intro k a u b h hc hh hs nd x
    have hu : u = v := by simpa using hh.symm
    have hvs : v ≠ stop := fun e => hs (by rw [e]; exact List.mem_cons_self _ _)
    cases k with
    | zero => simp [potentialLoop] at h
    | succ k =>
      unfold potentialLoop at h
      rw [if_neg (by rw [hu]; exact hvs)] at h
      simp only [Option.bind_eq_bind, Option.bind_eq_some] at h
      obtain ⟨p0, hp0, n1, h1, t, ht, h⟩ := h
      rw [hu] at hp0 h1 ht
      have k1 : Writes [Fld.pi] a n1 := set_pi_writes h1 (by decide)
      have et : n1.thr = a.thr := funext (thr_congr (k1.vec Fld.thread (by decide)))
      have hc' : List.Chain' (fun x y => a.thr x = y) (v :: (L ++ [stop])) := hc
      obtain ⟨z, tl, ez⟩ : ∃ z tl, L ++ [stop] = z :: tl := by
        cases L with
        | nil => exact ⟨stop, [], rfl⟩
        | cons z tl => exact ⟨z, tl ++ [stop], rfl⟩
      rw [ez] at hc'
      obtain ⟨hvz, hc2⟩ := List.chain'_cons.1 hc'
      have htz : t = z := by
        rw [← hvz, ← et]
        exact (thr_eq ht).symm
      have hv := ih k n1 t b h (by rw [et, ez]; exact hc2) (by rw [ez, htz]; rfl)
        (fun m => hs (List.mem_cons_of_mem _ m)) (List.nodup_cons.1 nd).2 x
      have hvL : v ∉ L := (List.nodup_cons.1 nd).1
      rw [hv, piOf_set h1 x]
      by_cases hx : x = v
      · rw [hx, if_neg hvL, if_pos rfl, if_pos (List.mem_cons_self _ _), piOf_eq hp0]
      · rw [if_neg hx]
        by_cases hxL : x ∈ L
        · rw [if_pos hxL, if_pos (List.mem_cons_of_mem _ hxL)]
        · have : x ∉ v :: L := fun m => by
            rcases List.mem_cons.1 m with e | e
            · exact hx e
            · exact hxL e
          rw [if_neg hxL, if_neg this]

/-- The loop of `updatePotential` returns when `_thread` leads through the nodes of `L`, all
among the nodes, and then to `stop`, and the fuel exceeds the length of `L`. -/
theorem potentialLoop_total (sg stop : Int) {n m : Nat} : ∀ (L : List Int) (k : Nat)
    (a : NetSimplex) (u : Int), a.Sized n m → L.length < k →
    List.Chain' (fun x y => a.thr x = y) (L ++ [stop]) → (L ++ [stop]).head? = some u →
    stop ∉ L → (∀ x ∈ L, 0 ≤ x ∧ x ≤ n) →
    ∃ b, potentialLoop sg stop k a u = some b := by
  intro L
  induction L with
  | nil =>
    intro k a u _ hk _ hh _ _
    have hu : u = stop := by simpa using hh.symm
    obtain ⟨k', rfl⟩ : ∃ k', k = k' + 1 := ⟨k - 1, by simp at hk; omega⟩
    exact ⟨a, by unfold potentialLoop; rw [if_pos hu]⟩
  | cons v L ih =>
    intro k a u hz hk hc hh hs hr
    have hu : u = v := by simpa using hh.symm
    have hvs : v ≠ stop := fun e => hs (by rw [e]; exact List.mem_cons_self _ _)
    obtain ⟨k', rfl⟩ : ∃ k', k = k' + 1 := ⟨k - 1, by simp at hk; omega⟩
    have hv := hr v (List.mem_cons_self _ _)
    have lp : ((a.pi).length : Int) = n + 1 := by
      have := hz.1 Fld.pi
      have : a.pi.length = n + 1 := this
      rw [this]
      push_cast
      rfl
    obtain ⟨p0, hp0⟩ := rd_of_range a.pi hv.1 (by rw [lp]; omega)
    obtain ⟨n1, h1⟩ := set_pi_ok a (p0 + sg) hv.1 (by
      show v < ((a.pi).length : Int)
      rw [lp]; omega)
    have k1 : Writes [Fld.pi] a n1 := set_pi_writes h1 (by decide)
    have hz1 : n1.Sized n m := k1.keeps_sized hz
    have lt : ((n1.thread).length : Int) = n + 1 := by
      have := hz1.1 Fld.thread
      have : n1.thread.length = n + 1 := this
      rw [this]
      push_cast
      rfl
    obtain ⟨t, ht⟩ := rd_of_range n1.thread hv.1 (by rw [lt]; omega)
    have et : n1.thr = a.thr := funext (thr_congr (k1.vec Fld.thread (by decide)))
    have hc' : List.Chain' (fun x y => a.thr x = y) (v :: (L ++ [stop])) := hc
    obtain ⟨z, tl, ez⟩ : ∃ z tl, L ++ [stop] = z :: tl := by
      cases L with
      | nil => exact ⟨stop, [], rfl⟩
      | cons z tl => exact ⟨z, tl ++ [stop], rfl⟩
    rw [ez] at hc'
    obtain ⟨hvz, hc2⟩ := List.chain'_cons.1 hc'
    have htz : t = z := by
      rw [← hvz, ← et]
      exact (thr_eq ht).symm
    obtain ⟨b, hb⟩ := ih k' n1 t hz1 (by simp at hk; omega) (by rw [et, ez]; exact hc2)
      (by rw [ez, htz]; rfl) (fun m => hs (List.mem_cons_of_mem _ m))
      (fun x hx => hr x (List.mem_cons_of_mem _ hx))
    refine ⟨b, ?_⟩
    unfold potentialLoop
    rw [if_neg (by rw [hu]; exact hvs), hu]
    simp only [Option.bind_eq_bind, hp0, Option.some_bind, h1, ht, hb]

end NetSimplex

/-! ## updatePotential on the thread order -/

namespace NetSimplex

/-- The thread order has `n + 1` nodes. -/
theorem Threaded.length_eq {ns : NetSimplex} {n m : Nat} {T : List Int}
    (ht : Threaded ns n m T) : T.length = n + 1 := by
  have nd : ((n : Int) :: arcsFrom 0 n).Nodup := by
    refine List.nodup_cons.2 ⟨?_, arcsFrom_nodup _ _⟩
    rw [mem_arcsFrom]
    omega
  have h2 := ((List.perm_ext_iff_of_nodup ht.nodup nd).2 (fun w => by
    rw [ht.mem w, List.mem_cons, mem_arcsFrom]
    omega)).length_eq
  rw [h2, List.length_cons, arcsFrom_length]

/-- The subtree of a real node in the thread order: `_thread` leads from the node through
its block and from `_last_succ` of the node to a node outside the block. -/
theorem Threaded.block_chain {a : NetSimplex} {n m : Nat} {T : List Int}
    (ht : Threaded a n m T) {u : Int} (u0 : 0 ≤ u) (un : u < n) :
    ∃ blk : List Int, (∀ w, w ∈ u :: blk ↔ a.Anc u w) ∧ (u :: blk).Nodup ∧
      (u :: blk).length ≤ n ∧
      a.thr (a.lastOf u) ∉ u :: blk ∧ (0 ≤ a.lastOf u ∧ a.lastOf u ≤ n) ∧
      List.Chain' (fun x y => a.thr x = y) ((u :: blk) ++ [a.thr (a.lastOf u)]) := by
  obtain ⟨pre, blk, post, hT, hm, _, hlast⟩ := ht.blocks u u0 (le_of_lt un)
  have nd := ht.nodup
  rw [hT] at nd
  have ndB : (u :: blk).Nodup := (List.nodup_append.1 (List.nodup_append.1 nd).1).2.1
  have hlk : List.Chain' (fun x y => a.thr x = y) (T ++ [(n : Int)]) :=
    ht.link.imp (fun _ _ h => h.1)
  obtain ⟨z, tl, ez⟩ : ∃ z tl, post ++ [(n : Int)] = z :: tl := by
    cases post with
    | nil => exact ⟨n, [], rfl⟩
    | cons z tl => exact ⟨z, tl ++ [(n : Int)], rfl⟩
  have e1 : T ++ [(n : Int)] = pre ++ ((u :: blk) ++ z :: tl) := by
    rw [hT, ← ez]
    simp
  rw [e1] at hlk
  have c1 : List.Chain' (fun x y => a.thr x = y) ((u :: blk) ++ z :: tl) :=
    hlk.right_of_append
  have hz : a.thr (a.lastOf u) = z :=
    @chain_at (fun x y => a.thr x = y) (u :: blk) (a.lastOf u) z tl c1 hlast
  have c2 : List.Chain' (fun x y => a.thr x = y) ((u :: blk) ++ [z]) := by
    have : (u :: blk) ++ z :: tl = ((u :: blk) ++ [z]) ++ tl := by simp
    rw [this] at c1
    exact c1.left_of_append
  have hpre : pre ≠ [] := by
    intro e
    have hh := ht.head
    rw [hT, e] at hh
    have : u = n := by simpa using hh
    omega
  have hlen : (u :: blk).length ≤ n := by
    have h1 := ht.length_eq
    rw [hT] at h1
    have h2 : 0 < pre.length := List.length_pos.2 hpre
    simp only [List.length_append] at h1
    omega
  have hlm : a.lastOf u ∈ u :: blk := mem_of_getLast hlast
  have hlr : 0 ≤ a.lastOf u ∧ a.lastOf u ≤ n := by
    refine (ht.mem _).1 ?_
    rw [hT]
    exact List.mem_append_left _ (List.mem_append_right _ hlm)
  refine ⟨blk, hm, ndB, hlen, ?_, hlr, by rw [hz]; exact c2⟩
  rw [hz]
  intro hzB
  cases post with
  | nil =>
    have : z = n := by
      have := ez
      simp at this
      exact this.1.symm
    rw [this] at hzB
    have := ht.tree.anc_root u0 ((hm _).1 hzB)
    omega
  | cons y tl2 =>
    have : z = y := by
      have := ez
      simp at this
      exact this.1.symm
    rw [this] at hzB
    have d := (List.nodup_append.1 nd).2.2
    exact d (List.mem_append_right _ hzB) (List.mem_cons_self _ _)

set_option maxHeartbeats 1000000 in
/-- Method `updatePotential()` on a state with the traversal invariants: it returns and adds
`sigma = pi[v_in] - pi[u_in] - pred_dir[u_in] * cost[in_arc]` to the potential of exactly the
nodes of the subtree of `u_in`. -/
theorem updatePotential_shift {a : NetSimplex} {n m : Nat} {T : List Int}
    (ht : Threaded a n m T) (hu : 0 ≤ a.u_in ∧ a.u_in < n) (hv : 0 ≤ a.v_in ∧ a.v_in ≤ n)
    (he : 0 ≤ a.in_arc ∧ a.in_arc < m) :
    ∃ b, updatePotential a = some b ∧
      ∀ x, (a.Anc a.u_in x → b.piOf x =
          a.piOf x + (a.piOf a.v_in - a.piOf a.u_in - a.dirOf a.u_in * a.costOf a.in_arc)) ∧
        (¬ a.Anc a.u_in x → b.piOf x = a.piOf x) := by
  have hz := ht.tree.sized
  obtain ⟨blk, hm, nd, hlen, hstop, hlr, hc⟩ := ht.block_chain hu.1 hu.2
  have ln : ∀ f : Fld, f.isNode = true → ((a.arr f).length : Int) = n + 1 := by
    intro f hf
    rw [hz.len_node f hf]
    push_cast
    rfl
  obtain ⟨pv, hpv⟩ := rd_of_range a.pi hv.1 (by
    have := ln Fld.pi rfl
    have e : ((a.pi).length : Int) = n + 1 := this
    rw [e]; omega)
  obtain ⟨pu, hpu⟩ := rd_of_range a.pi hu.1 (by
    have := ln Fld.pi rfl
    have e : ((a.pi).length : Int) = n + 1 := this
    rw [e]; omega)
  obtain ⟨dir, hdir⟩ := rd_of_range a.pred_dir hu.1 (by
    have := ln Fld.pred_dir rfl
    have e : ((a.pred_dir).length : Int) = n + 1 := this
    rw [e]; omega)
  obtain ⟨c, hcst⟩ := rd_of_range a.cost he.1 (by
    have := hz.len_arc Fld.cost rfl
    have e : (a.cost).length = m := this
    rw [e]; exact he.2)
  obtain ⟨l, hl⟩ := rd_of_range a.last_succ hu.1 (by
    have := ln Fld.last_succ rfl
    have e : ((a.last_succ).length : Int) = n + 1 := this
    rw [e]; omega)
  have el : l = a.lastOf a.u_in := (lastOf_eq hl).symm
  obtain ⟨stop, hst⟩ := @rd_of_range Int a.thread l (by rw [el]; exact hlr.1) (by
    have := ln Fld.thread rfl
    have e : ((a.thread).length : Int) = n + 1 := this
    rw [e, el]; omega)
  have es : stop = a.thr (a.lastOf a.u_in) := by rw [← el]; exact (thr_eq hst).symm
  rw [← es] at hstop hc
  have hfuel : (a.u_in :: blk).length < a.loopBound := by
    have e : a.loopBound = (n + 2) * (n + 2) := by
      unfold loopBound
      rw [ht.tree.nodes]
      simp
    rw [e]
    nlinarith
  obtain ⟨b, hb⟩ := potentialLoop_total (pv - pu - dir * c) stop (a.u_in :: blk) a.loopBound a
    a.u_in hz hfuel hc rfl hstop
    (fun x hx => ht.tree.anc_range hu.1 (le_of_lt hu.2) ((hm x).1 hx))
  have hsp := potentialLoop_spec (pv - pu - dir * c) stop (a.u_in :: blk) a.loopBound a
    a.u_in b hb hc rfl hstop nd
  refine ⟨b, ?_, ?_⟩
  · simp only [updatePotential, Option.bind_eq_bind, hpv, hpu, hdir, hcst, hl, hst,
      Option.some_bind]
    exact hb
  · intro x
    rw [hsp x, piOf_eq hpv, piOf_eq hpu, dirOf_eq hdir, costOf_eq hcst]
    constructor
    · intro hx
      rw [if_pos ((hm x).2 hx)]
    · intro hx
      rw [if_neg (fun g => hx ((hm x).1 g))]

end NetSimplex

/-! ## The reduced costs of the tree arcs after a pivot -/

namespace NetSimplex

set_option maxHeartbeats 4000000 in
/-- A pivot with a leaving arc on the potentials: `updatePotential` adds
`sigma = pi[v_in] - pi[u_in] - pred_dir[u_in] * cost[in_arc]` to the potential of exactly the
nodes of the new subtree of `u_in`, and afterwards the arc states match the new tree and the
tree arcs have reduced cost zero again. -/
theorem pivot_reduced {x x1 x2 x3 x4 x5 : NetSimplex} {n m : Nat} {T : List Int}
    (ht : Threaded x n m T) (hst : StatesMatch x n m) (hz : TreeReduced x m)
    (hin : x.stateAt x.in_arc = STATE_LOWER)
    (hs : 0 ≤ x.srcOf x.in_arc ∧ x.srcOf x.in_arc ≤ n)
    (hg : 0 ≤ x.tgtOf x.in_arc ∧ x.tgtOf x.in_arc ≤ n)
    (h1 : findJoinNode x = some x1) (h2 : findLeavingArc x1 = some (true, x2))
    (h3 : changeFlow x2 = some x3) (h4 : updateTreeStructure x3 = some x4)
    (h5 : updatePotential x4 = some x5) :
    StatesMatch x5 n m ∧ TreeReduced x5 m ∧
    ∀ u, (x4.Anc x2.u_in u → x5.piOf u = x.piOf u +
        (x.piOf x2.v_in - x.piOf x2.u_in - x4.dirOf x2.u_in * x.costOf x.in_arc)) ∧
      (¬ x4.Anc x2.u_in u → x5.piOf u = x.piOf u) := by
  have hb := ht.tree_basis
  obtain ⟨e23, hv, l, hw, hl, hav⟩ := pivot_stem hb hs hg h1 h2 h3
  obtain ⟨_, hui, hout, hj0⟩ := pivot_ends hb hs hg h1 h2 h3
  obtain ⟨st4, sm4, _, _, _⟩ := pivot_states hb hst hin hs hg h1 h2 h3 h4
  obtain ⟨_, tset, _⟩ := pivot_tree hb hs hg h1 h2 h3 h4
  obtain ⟨pre, blk, post, B', _, _, _, _, q5⟩ := pivot_threaded ht hs hg h1 h2 h3 h4 h5
  have k5 : Writes [Fld.pi] x4 x5 := updatePotential_writes h5
  have ht4 : Threaded x4 n m (insAfter x2.v_in B' (pre ++ post)) :=
    q5.carry st4 (k5.vec Fld.parent (by decide)).symm (k5.vec Fld.thread (by decide)).symm
      (k5.vec Fld.rev_thread (by decide)).symm (k5.vec Fld.succ_num (by decide)).symm
      (k5.vec Fld.last_succ (by decide)).symm
  have W4 := updateTreeStructure_writes h4
  have f_par : x3.parent = x.parent := by rw [e23]
  have f_ui : x3.u_in = x2.u_in := by rw [e23]
  have f_vi : x3.v_in = x2.v_in := by rw [e23]
  have f_ia : x3.in_arc = x.in_arc := by rw [e23]
  have f_pi : x3.pi = x.pi := by rw [e23]
  have f_cs : x3.cost = x.cost := by rw [e23]
  have f_sr : x3.source = x.source := by rw [e23]
  have f_tg : x3.target = x.target := by rw [e23]
  have g_ui : x4.u_in = x2.u_in := W4.eq_u_in.trans f_ui
  have g_vi : x4.v_in = x2.v_in := W4.eq_v_in.trans f_vi
  have g_ia : x4.in_arc = x.in_arc := W4.eq_in_arc.trans f_ia
  have g_pi : x4.piOf = x.piOf :=
    funext (piOf_congr ((W4.vec Fld.pi (by decide)).trans f_pi))
  have g_cs : x4.costOf = x.costOf :=
    funext (costOf_congr ((W4.vec Fld.cost (by decide)).trans f_cs))
  have g_sr : x4.srcOf = x.srcOf :=
    funext (srcOf_congr ((W4.vec Fld.source (by decide)).trans f_sr))
  have g_tg : x4.tgtOf = x.tgtOf :=
    funext (tgtOf_congr ((W4.vec Fld.target (by decide)).trans f_tg))
  have c_cs : x5.costOf = x4.costOf := funext (costOf_congr (k5.vec Fld.cost (by decide)))
  have c_sr : x5.srcOf = x4.srcOf := funext (srcOf_congr (k5.vec Fld.source (by decide)))
  have c_tg : x5.tgtOf = x4.tgtOf := funext (tgtOf_congr (k5.vec Fld.target (by decide)))
  have c_pr : x5.predOf = x4.predOf := funext (predOf_congr (k5.vec Fld.pred (by decide)))
  have c_st : x5.stateAt = x4.stateAt := funext (stateAt_congr k5.2)
  have hw3 : Walk x3 x3.u_out x3.u_in l := Walk.congr f_par _ _ _ hw
  obtain ⟨_, hpar4, hpred4, hdir4⟩ := updateTreeStructure_tree h4 hw3
  have par_in : x4.par x2.u_in = x2.v_in := by
    rw [hpar4, ← f_ui, stemParent_head hw3, f_vi]
  have pred_in : x4.predOf x2.u_in = x.in_arc := by
    rw [hpred4, ← f_ui, if_pos rfl, f_ia]
  -- the entering arc is an arc
  obtain ⟨_, _, ⟨s, hsrc⟩, _⟩ := findJoinNode_spec h1
  have hia : 0 ≤ x.in_arc ∧ x.in_arc < m := by
    have r := rd_some_range hsrc
    have e : (x.source.length : Int) = m := by
      have : x.source.length = m := hb.sized.len_arc Fld.source rfl
      rw [this]
    rw [e] at r
    exact r
  obtain ⟨b, hb5, hsh⟩ := updatePotential_shift ht4 (by rw [g_ui]; exact hui)
    (by rw [g_vi, ← f_vi]; exact hv) (by rw [g_ia]; exact hia)
  have eb : b = x5 := Option.some.inj (hb5.symm.trans h5)
  rw [eb, g_ui, g_vi, g_ia, g_pi, g_cs] at hsh
  have sm5 : StatesMatch x5 n m := by
    intro e e0 em
    rw [c_st, c_pr]
    exact sm4 e e0 em
  refine ⟨sm5, ?_, hsh⟩
  intro e e0 em hstate
  rw [c_st] at hstate
  obtain ⟨u, u0, un, hue⟩ := (sm4 e e0 em).1 hstate
  have hpr := st4.parent_range u u0 un
  have harc := st4.pred_arc u u0 un
  rw [hue] at harc
  have hends : (0 ≤ x5.srcOf e ∧ x5.srcOf e ≤ n) ∧ (0 ≤ x5.tgtOf e ∧ x5.tgtOf e ≤ n) := by
    rw [c_sr, c_tg]
    rcases harc with ⟨_, a2, a3⟩ | ⟨_, a2, a3⟩
    · rw [a2, a3]; exact ⟨⟨u0, le_of_lt un⟩, hpr⟩
    · rw [a2, a3]; exact ⟨hpr, ⟨u0, le_of_lt un⟩⟩
  rw [redCost_read (k5.keeps_sized st4.sized) e0 em hends.1 hends.2, c_cs, c_sr, c_tg, g_cs,
    g_sr, g_tg]
  rw [g_sr, g_tg] at harc
  congr 1
  by_cases hu : u = x2.u_in
  · -- the entering arc
    rw [hu] at harc hue
    have ee : e = x.in_arc := by rw [← hue, pred_in]
    rw [par_in] at harc
    have hself := (hsh x2.u_in).1 (Anc.self _ _)
    have hoff : ¬ x4.Anc x2.u_in x2.v_in := by
      intro ha
      have h2' : x4.Anc x2.v_in x2.u_in := by
        have := Anc.of_par x4 x2.u_in
        rw [par_in] at this
        exact this
      have := st4.anc_antisymm hui.1 (le_of_lt hui.2) ha h2'
      have hne := st4.par_ne hui.1 hui.2
      rw [par_in] at hne
      exact hne this.symm
    have hvv := (hsh x2.v_in).2 hoff
    rcases harc with ⟨a1, a2, a3⟩ | ⟨a1, a2, a3⟩
    · rw [a2, a3, hself, hvv, a1, ee]
      unfold DIR_UP
      ring
    · rw [a2, a3, hself, hvv, a1, ee]
      unfold DIR_DOWN
      ring
  · -- an arc of the old tree
    have hold : ∃ u' : Int, 0 ≤ u' ∧ u' < n ∧ x.predOf u' = e := by
      rcases (tset e).1 ⟨u, u0, un, hue⟩ with g | ⟨g, _⟩
      · exfalso
        have : x4.predOf u = x4.predOf x2.u_in := by rw [hue, pred_in, g]
        exact hu (st4.pred_one_one u0 un hui.1 hui.2 this)
      · exact g
    have hzero := redCost_value (hz e e0 em ((hst e e0 em).2 hold))
    have hup : x4.Anc x2.u_in u ↔ x4.Anc x2.u_in (x4.par u) :=
      ⟨fun h => h.parent hu, fun h => h.up (Anc.of_par x4 u)⟩
    by_cases hA : x4.Anc x2.u_in u
    · have p1 := (hsh u).1 hA
      have p2 := (hsh (x4.par u)).1 (hup.1 hA)
      rcases harc with ⟨_, a2, a3⟩ | ⟨_, a2, a3⟩
      · rw [a2, a3] at hzero ⊢
        rw [p1, p2]
        omega
      · rw [a2, a3] at hzero ⊢
        rw [p1, p2]
        omega
    · have p1 := (hsh u).2 hA
      have p2 := (hsh (x4.par u)).2 (fun h => hA (hup.2 h))
      rcases harc with ⟨_, a2, a3⟩ | ⟨_, a2, a3⟩
      · rw [a2, a3] at hzero ⊢
        rw [p1, p2]
        omega
      · rw [a2, a3] at hzero ⊢
        rw [p1, p2]
        omega

end NetSimplex

/-! ## C27: tree arcs have zero reduced cost -/

namespace NetSimplex

/-- After the reset loop of `run` and `init` the tree arcs, which are the artificial arcs,
have reduced cost zero. -/
theorem prepared_reduced (ns : NetSimplex) (n m : Nat) (hs : Sized ns n m)
    (hnn : ns.node_num = n) (han : ns.arc_num = m) (hn1 : 1 ≤ n) (hnm : n ≤ m) :
    ∃ A, ns.prepared = some A ∧ Threaded A n m ((n : Int) :: arcsFrom 0 n) ∧
      StatesMatch A n m ∧ TreeReduced A m := by
  have hm : ns.arc_num.toNat = m := by rw [han]; simp
  obtain ⟨x1, hr, k1⟩ := runReset_ok n m ns.arc_num.toNat 0 { ns with iterations := 0 }
    (sized_iterations hs 0) (le_refl _) (by rw [hm]; simp)
  have hs1 : Sized x1 n m := k1.sized (sized_iterations hs 0)
  have hn1' : x1.node_num = n := (k1.2.2.1 Sc.node_num (by simp)).trans hnn
  obtain ⟨A, hi, _⟩ := init_ok x1 n m hs1 hn1' hn1 hnm
  obtain ⟨sA, ss, hroot, _, hstar, hnode, harc, _⟩ :=
    run_prepared n m ns x1 A hs hnn han hn1 hnm hr hi
  have hp : ns.prepared = some A := by
    simp only [prepared, Option.bind_eq_bind, hr, Option.some_bind, hi]
  have hAn : A.node_num = n := ss.1.trans hnn
  have ht := star_threaded n m A ns.artCost sA hAn hroot hn1 hnm hstar
    (fun v v0 vn => by
      obtain ⟨c, _, _, sn⟩ := hnode v v0 vn
      exact ⟨c, sn⟩)
  obtain ⟨A', hp', m0, _, _⟩ := prepared_states ns n m hs hnn han hn1 hnm
  have eA : A' = A := Option.some.inj (hp'.symm.trans hp)
  rw [eA] at m0
  refine ⟨A, hp, ht, m0, ?_⟩
  intro e e0 em hst
  have hen : e < n := by
    by_contra g
    have := (harc e (not_lt.1 g) em).2.2.2.2
    have h' : A.stateAt e = STATE_LOWER := by unfold stateAt; rw [this]; rfl
    rw [h'] at hst
    exact absurd hst (by decide)
  obtain ⟨c, _, _, t1, t2, t3, t4, t5, t6, t7, t8, t9, t10, t11, t12, t13⟩ := hnode e e0 hen
  have hrp : rd A.pi A.root = some 0 := hstar.2.2.2.2.2.2.2
  by_cases hc : c ≥ 0
  · rw [if_pos hc] at t9 t10 t11 t13
    simp only [redCost, Option.bind_eq_bind, t13, t10, t11, t9, hrp, Option.some_bind]
    rfl
  · rw [if_neg hc] at t9 t10 t11 t13
    simp only [redCost, Option.bind_eq_bind, t13, t10, t11, t9, hrp, Option.some_bind]
    congr 1
    omega

end NetSimplex

/-- C27: tree arcs have zero reduced cost. After the reset loop of `run` and `init` the
traversal invariants hold, the arcs in state `TREE` are the predecessor arcs of the real
nodes, and every arc in state `TREE` has `cost[e] + pi[source[e]] - pi[target[e]] = 0`.
On a state with the traversal invariants `updatePotential` returns and adds
`sigma = pi[v_in] - pi[u_in] - pred_dir[u_in] * cost[in_arc]` to the potential of exactly the
nodes of the subtree of `u_in`. A complete pivot with a leaving arc from a state with these
three invariants, whose entering arc is at its lower bound, ends in a state with the three
invariants, and the potentials have changed by `sigma` on exactly the new subtree of
`u_in`. -/
theorem C27_tree_arcs_reduced_cost :
    (∀ (ns : NetSimplex) (n m : Nat), ns.Sized n m → ns.node_num = n → ns.arc_num = m →
      1 ≤ n → n ≤ m → ∃ A, ns.prepared = some A ∧
        A.Threaded n m ((n : Int) :: arcsFrom 0 n) ∧ A.StatesMatch n m ∧ A.TreeReduced m) ∧
    (∀ (a : NetSimplex) (n m : Nat) (T : List Int), a.Threaded n m T →
      (0 ≤ a.u_in ∧ a.u_in < n) → (0 ≤ a.v_in ∧ a.v_in ≤ n) →
      (0 ≤ a.in_arc ∧ a.in_arc < m) →
      ∃ b, a.updatePotential = some b ∧
        ∀ u, (a.Anc a.u_in u → b.piOf u = a.piOf u +
            (a.piOf a.v_in - a.piOf a.u_in - a.dirOf a.u_in * a.costOf a.in_arc)) ∧
          (¬ a.Anc a.u_in u → b.piOf u = a.piOf u)) ∧
    (∀ (x x1 x2 x3 x4 x5 : NetSimplex) (n m : Nat) (T : List Int), x.Threaded n m T →
      x.StatesMatch n m → x.TreeReduced m → x.stateAt x.in_arc = STATE_LOWER →
      (0 ≤ x.srcOf x.in_arc ∧ x.srcOf x.in_arc ≤ n) →
      (0 ≤ x.tgtOf x.in_arc ∧ x.tgtOf x.in_arc ≤ n) →
      x.findJoinNode = some x1 → x1.findLeavingArc = some (true, x2) →
      x2.changeFlow = some x3 → x3.updateTreeStructure = some x4 →
      x4.updatePotential = some x5 →
      (∃ T', x5.Threaded n m T') ∧ x5.StatesMatch n m ∧ x5.TreeReduced m ∧
      ∀ u, (x4.Anc x2.u_in u → x5.piOf u = x.piOf u +
          (x.piOf x2.v_in - x.piOf x2.u_in - x4.dirOf x2.u_in * x.costOf x.in_arc)) ∧
        (¬ x4.Anc x2.u_in u → x5.piOf u = x.piOf u)) := by
  refine ⟨NetSimplex.prepared_reduced, ?_, ?_⟩
  · intro a n m T ht hu hv he
    exact NetSimplex.updatePotential_shift ht hu hv he
  · intro x x1 x2 x3 x4 x5 n m T ht hst hz hin hs hg h1 h2 h3 h4 h5
    obtain ⟨pre, blk, post, B', _, _, _, _, q5⟩ :=
      NetSimplex.pivot_threaded ht hs hg h1 h2 h3 h4 h5
    obtain ⟨r1, r2, r3⟩ := NetSimplex.pivot_reduced ht hst hz hin hs hg h1 h2 h3 h4 h5
    exact ⟨⟨_, q5⟩, r1, r2, r3⟩

/-- C27 on scenario S1 for `init` and on the stem scenario for `updatePotential` and for its
second pivot. -/
theorem C27_tree_arcs_reduced_cost_Stem :
    (∃ A, solverS1.prepared = some A ∧
      A.Threaded 2 3 (((2 : Nat) : Int) :: arcsFrom 0 2) ∧ A.StatesMatch 2 3 ∧
      A.TreeReduced 3) ∧
    (∃ b, enteredStem.updatePotential = some b ∧
      ∀ u, (enteredStem.Anc enteredStem.u_in u → b.piOf u = enteredStem.piOf u +
          (enteredStem.piOf enteredStem.v_in - enteredStem.piOf enteredStem.u_in -
            enteredStem.dirOf enteredStem.u_in * enteredStem.costOf enteredStem.in_arc)) ∧
        (¬ enteredStem.Anc enteredStem.u_in u → b.piOf u = enteredStem.piOf u)) ∧
    ((∃ T', potentialStem.Threaded 3 5 T') ∧ potentialStem.StatesMatch 3 5 ∧
      potentialStem.TreeReduced 5 ∧
      ∀ u, (treeStem.Anc leavingStem.2.u_in u → potentialStem.piOf u = enteredStem.piOf u +
          (enteredStem.piOf leavingStem.2.v_in - enteredStem.piOf leavingStem.2.u_in -
            treeStem.dirOf leavingStem.2.u_in * enteredStem.costOf enteredStem.in_arc)) ∧
        (¬ treeStem.Anc leavingStem.2.u_in u → potentialStem.piOf u = enteredStem.piOf u)) :=
  ⟨C27_tree_arcs_reduced_cost.1 solverS1 2 3 ⟨fun f => by cases f <;> decide, by decide⟩
      (by decide) (by decide) (by decide) (by decide),
    C27_tree_arcs_reduced_cost.2.1 enteredStem 3 5 [3, 1, 2, 0] enteredStem_threaded
      (by decide) (by decide) (by decide),
    C27_tree_arcs_reduced_cost.2.2 enteredStem joinedStem leavingStem.2 changedStem treeStem
      potentialStem 3 5 [3, 1, 2, 0] enteredStem_threaded
      (NetSimplex.StatesMatch.of_lists (by decide))
      (fun e e0 em => by
        have em' : e < 5 := em
        interval_cases e <;> decide)
      (by decide) (by decide) (by decide) (by decide) (by decide) (by decide) (by decide)
      (by decide)⟩

/-! ## The net outflow of a node -/

namespace NetSimplex

theorem list_sum_range (f : Nat → Int) : ∀ m : Nat,
    ((List.range m).map f).sum = Finset.sum (Finset.range m) f := by
  intro m
  induction m with
  | zero => simp
  | succ m ih =>
    rw [List.range_succ, List.map_append, List.sum_append, Finset.sum_range_succ, ih]
    simp

theorem netOut_eq (ns : NetSimplex) (m : Nat) (u : Int) :
    ns.netOut m u = Finset.sum (Finset.range m) (fun e : Nat => ns.flowAt e * ns.incid u e) := by
  unfold netOut
  rw [list_sum_range, list_sum_range, ← Finset.sum_sub_distrib]
  apply Finset.sum_congr rfl
  intro e _
  unfold incid
  split_ifs <;> ring

/-- The net outflow after the flows have changed by `d`. -/
theorem netOut_shift {a b : NetSimplex} (m : Nat) (u : Int) (d : Int → Int)
    (hs : b.srcOf = a.srcOf) (ht : b.tgtOf = a.tgtOf)
    (hf : ∀ e, b.flowAt e = a.flowAt e + d e) :
    b.netOut m u = a.netOut m u +
      Finset.sum (Finset.range m) (fun e : Nat => d e * a.incid u e) := by
  rw [netOut_eq, netOut_eq, ← Finset.sum_add_distrib]
  apply Finset.sum_congr rfl
  intro e _
  have : b.incid u e = a.incid u e := by unfold incid; rw [hs, ht]
  rw [this, hf]
  ring

theorem sum_arc_pick (m : Nat) (w : Int → Int) (c : Int) {k : Int} (k0 : 0 ≤ k) (km : k < m) :
    Finset.sum (Finset.range m) (fun e : Nat => (if k = (e : Int) then c else 0) * w e) =
      c * w k := by
  obtain ⟨j, rfl⟩ : ∃ j : Nat, k = (j : Int) := ⟨k.toNat, by omega⟩
  have hj : j < m := by exact_mod_cast km
  rw [Finset.sum_eq_single j]
  · rw [if_pos rfl]
  · intro e _ hne
    have : ¬ (j : Int) = (e : Int) := fun h => hne (by exact_mod_cast h.symm)
    rw [if_neg this, zero_mul]
  · intro h
    exact absurd (Finset.mem_range.2 hj) h

/-- The sum over the arcs of the walk counts of a list of nodes is the sum over the nodes
of the list. -/
theorem sum_dirSum (ns : NetSimplex) (m : Nat) (w : Int → Int) : ∀ l : List Int,
    (∀ x ∈ l, 0 ≤ ns.predOf x ∧ ns.predOf x < m) →
    Finset.sum (Finset.range m) (fun e : Nat => ns.dirSum l e * w e) =
      (l.map fun x => ns.dirOf x * w (ns.predOf x)).sum := by
  intro l
  induction l with
  | nil =>
    intro _
    simp [dirSum_nil]
  | cons x l ih =>
    intro h
    have hx := h x (List.mem_cons_self _ _)
    have e1 : (fun e : Nat => ns.dirSum (x :: l) e * w e) =
        fun e : Nat => (if ns.predOf x = (e : Int) then ns.dirOf x else 0) * w e +
          ns.dirSum l e * w e := by
      funext e
      rw [dirSum_cons, add_mul]
    rw [e1, Finset.sum_add_distrib, sum_arc_pick m w _ hx.1 hx.2,
      ih (fun y hy => h y (List.mem_cons_of_mem _ hy)), List.map_cons, List.sum_cons]

/-- Along a walk of real nodes of a tree the signed incidences of the predecessor arcs at a
node `u` add up to the incidence of the start minus that of the end. -/
theorem walk_incid_sum {a : NetSimplex} {n m : Nat} (hb : TreeBasis a n m) (u j : Int) :
    ∀ (l : List Int) (s : Int), Walk a j s l → (∀ x ∈ l, 0 ≤ x ∧ x < n) →
    (l.map fun x => a.dirOf x * a.incid u (a.predOf x)).sum =
      (if s = u then 1 else 0) - (if j = u then 1 else 0) := by
  intro l
  induction l with
  | nil =>
    intro s hw _
    have : s = j := hw
    rw [this]
    simp
  | cons x l ih =>
    intro s hw hr
    obtain ⟨hxs, _, hw'⟩ := hw
    have hx := hr x (List.mem_cons_self _ _)
    rw [List.map_cons, List.sum_cons, ih (a.par s) hw' (fun y hy => hr y (List.mem_cons_of_mem _ hy))]
    rw [hxs]
    rw [hxs] at hx
    unfold incid
    rcases hb.pred_arc s hx.1 hx.2 with ⟨g, g2, g3⟩ | ⟨g, g2, g3⟩
    · rw [g, g2, g3]
      unfold DIR_UP
      ring
    · rw [g, g2, g3]
      unfold DIR_DOWN
      ring

end NetSimplex

/-! ## The flow balance after init and after a pivot -/

namespace NetSimplex

theorem netOut_congr {a b : NetSimplex} (hf : b.flow = a.flow) (hs : b.source = a.source)
    (ht : b.target = a.target) (m : Nat) (u : Int) : b.netOut m u = a.netOut m u := by
  unfold netOut srcOf tgtOf flowAt
  rw [hf, hs, ht]

theorem supplyOf_congr {a b : NetSimplex} (h : b.supply = a.supply) (u : Int) :
    b.supplyOf u = a.supplyOf u := by
  unfold supplyOf
  rw [h]

set_option maxHeartbeats 2000000 in
/-- The augmentation of `changeFlow` sends `delta` around the cycle of the entering arc, so
it changes the net outflow of no node. -/
theorem changeFlow_netOut {x x1 x2 x3 : NetSimplex} {n m : Nat} {r : Bool}
    (hb : TreeBasis x n m)
    (hs : 0 ≤ x.srcOf x.in_arc ∧ x.srcOf x.in_arc ≤ n)
    (ht : 0 ≤ x.tgtOf x.in_arc ∧ x.tgtOf x.in_arc ≤ n)
    (h1 : findJoinNode x = some x1) (h2 : findLeavingArc x1 = some (r, x2))
    (h3 : changeFlow x2 = some x3) (u : Int) : x3.netOut m u = x.netOut m u := by
  obtain ⟨e2, l1, l2, w1, w2, _, r1, r2, _⟩ := pivot_cycle hb h1 h2 hs ht
  obtain ⟨e3, _, _, hin, _, _, fz, fp⟩ := changeFlow_spec h3
  have q1 : x2.parent = x.parent := by rw [e2]
  have q2 : x2.pred = x.pred := by rw [e2]
  have q3 : x2.pred_dir = x.pred_dir := by rw [e2]
  have q4 : x2.flow = x.flow := by rw [e2]
  have q5 : x2.in_arc = x.in_arc := by rw [e2]
  have q6 : x2.source = x.source := by rw [e2]
  have q7 : x2.target = x.target := by rw [e2]
  have q8 : x2.state = x.state := by rw [e2]
  have p6 : x3.source = x2.source := by rw [e3]
  have p7 : x3.target = x2.target := by rw [e3]
  have fa : ∀ e, x2.flowAt e = x.flowAt e := fun e => by unfold flowAt; rw [q4]
  by_cases hpos : x2.delta > 0
  · obtain ⟨l1', l2', v1, v2, hf⟩ := fp hpos
    have es : x2.srcOf x2.in_arc = x.srcOf x.in_arc := by unfold srcOf; rw [q5, q6]
    have et : x2.tgtOf x2.in_arc = x.tgtOf x.in_arc := by unfold tgtOf; rw [q5, q7]
    rw [es] at v1
    rw [et] at v2
    have u1 := Walk.unique _ _ _ (Walk.congr q1.symm _ _ _ v1) w1
    have u2 := Walk.unique _ _ _ (Walk.congr q1.symm _ _ _ v2) w2
    have hia : 0 ≤ x.in_arc ∧ x.in_arc < m := by
      rw [q5, q8, hb.sized.2] at hin
      exact hin
    have hf' : ∀ e, x3.flowAt e = x.flowAt e +
        ((if x.in_arc = e then x2.delta else 0) - x2.delta * x.dirSum l1 e +
          x2.delta * x.dirSum l2 e) := by
      intro e
      rw [hf e, fa e, q5, u1, u2, dirSum_congr q2 q3, dirSum_congr q2 q3]
      by_cases he : e = x.in_arc
      · rw [if_pos he, if_pos he.symm]
        ring
      · rw [if_neg he, if_neg (fun g => he g.symm)]
        ring
    rw [netOut_shift m u _ (funext (srcOf_congr (p6.trans q6)))
      (funext (tgtOf_congr (p7.trans q7))) hf']
    have hpr : ∀ l : List Int, (∀ y ∈ l, 0 ≤ y ∧ y < n) →
        ∀ y ∈ l, 0 ≤ x.predOf y ∧ x.predOf y < m :=
      fun l hl y hy => hb.pred_range y (hl y hy).1 (hl y hy).2
    have esum : (fun e : Nat => ((if x.in_arc = (e : Int) then x2.delta else 0) -
          x2.delta * x.dirSum l1 e + x2.delta * x.dirSum l2 e) * x.incid u e) =
        fun e : Nat => (if x.in_arc = (e : Int) then x2.delta else 0) * x.incid u e -
          x2.delta * (x.dirSum l1 e * x.incid u e) +
          x2.delta * (x.dirSum l2 e * x.incid u e) := by
      funext e
      ring
    rw [esum, Finset.sum_add_distrib, Finset.sum_sub_distrib, ← Finset.mul_sum,
      ← Finset.mul_sum, sum_arc_pick m (x.incid u) _ hia.1 hia.2,
      sum_dirSum x m (x.incid u) l1 (hpr l1 r1), sum_dirSum x m (x.incid u) l2 (hpr l2 r2),
      walk_incid_sum hb u x2.join l1 _ w1 r1, walk_incid_sum hb u x2.join l2 _ w2 r2]
    unfold incid
    ring
  · have := fz hpos
    exact netOut_congr (this.trans q4) (p6.trans q6) (p7.trans q7) m u

/-- A complete pivot on a tree basis keeps the flow balance. -/
theorem pivot_balanced {x y : NetSimplex} {n m : Nat} (hb : TreeBasis x n m)
    (hs : 0 ≤ x.srcOf x.in_arc ∧ x.srcOf x.in_arc ≤ n)
    (ht : 0 ≤ x.tgtOf x.in_arc ∧ x.tgtOf x.in_arc ≤ n)
    (hbal : Balanced x n m) (h : pivot x = some y) : Balanced y n m := by
  simp only [pivot, Option.bind_eq_bind, Option.bind_eq_some, Option.some.injEq] at h
  obtain ⟨x1, h1, ⟨r, x2⟩, h2, x3, h3, x4, h4, x5, h5, rfl⟩ := h
  have g3 := changeFlow_netOut hb hs ht h1 h2 h3
  have W4 := updateTreeStructure_writes h4
  have W5 := updatePotential_writes h5
  obtain ⟨e2, _⟩ := pivot_cycle hb h1 h2 hs ht
  obtain ⟨e3, _⟩ := changeFlow_spec h3
  have s2 : x2.supply = x.supply := by rw [e2]
  have s3 : x3.supply = x2.supply := by rw [e3]
  have s4 : x4.supply = x3.supply := W4.vec Fld.supply (by decide)
  have s5 : x5.supply = x4.supply := W5.vec Fld.supply (by decide)
  intro u u0 un
  have n5 : x5.netOut m u = x4.netOut m u :=
    netOut_congr (W5.vec Fld.flow (by decide)) (W5.vec Fld.source (by decide))
      (W5.vec Fld.target (by decide)) m u
  have n4 : x4.netOut m u = x3.netOut m u :=
    netOut_congr (W4.vec Fld.flow (by decide)) (W4.vec Fld.source (by decide))
      (W4.vec Fld.target (by decide)) m u
  show netOut { x5 with iterations := x5.iterations + 1 } m u =
    supplyOf { x5 with iterations := x5.iterations + 1 } u
  have a1 : netOut { x5 with iterations := x5.iterations + 1 } m u = x5.netOut m u := rfl
  have a2 : supplyOf { x5 with iterations := x5.iterations + 1 } u = x5.supplyOf u := rfl
  rw [a1, a2, n5, n4, g3 u, supplyOf_congr (((s5.trans s4).trans s3).trans s2), hbal u u0 un]

set_option maxHeartbeats 2000000 in
/-- After the reset loop of `run` and `init` the flows are balanced: the artificial arc of a
node carries its supply to or from the root, and the real arcs carry nothing. -/
theorem prepared_balanced (ns : NetSimplex) (n m : Nat) (hs : Sized ns n m)
    (hnn : ns.node_num = n) (han : ns.arc_num = m) (hn1 : 1 ≤ n) (hnm : n ≤ m) :
    ∃ A, ns.prepared = some A ∧ Balanced A n m ∧
      ∀ u : Int, 0 ≤ u → u < n → A.supplyOf u = ns.supplyOf u := by
  have hm : ns.arc_num.toNat = m := by rw [han]; simp
  obtain ⟨x1, hr, k1⟩ := runReset_ok n m ns.arc_num.toNat 0 { ns with iterations := 0 }
    (sized_iterations hs 0) (le_refl _) (by rw [hm]; simp)
  have hs1 : Sized x1 n m := k1.sized (sized_iterations hs 0)
  have hn1' : x1.node_num = n := (k1.2.2.1 Sc.node_num (by simp)).trans hnn
  obtain ⟨A, hi, _⟩ := init_ok x1 n m hs1 hn1' hn1 hnm
  obtain ⟨sA, _, hroot, _, _, hnode, harc, _⟩ :=
    run_prepared n m ns x1 A hs hnn han hn1 hnm hr hi
  have hp : ns.prepared = some A := by
    simp only [prepared, Option.bind_eq_bind, hr, Option.some_bind, hi]
  refine ⟨A, hp, ?_, ?_⟩
  · intro u u0 un
    obtain ⟨c, _, hsu, st⟩ := hnode u u0 un
    obtain ⟨j, rfl⟩ : ∃ j : Nat, u = (j : Int) := ⟨u.toNat, by omega⟩
    have hj : j < m := by
      have : j < n := by exact_mod_cast un
      omega
    have hsup : A.supplyOf (j : Int) = c := by unfold supplyOf; rw [hsu]; rfl
    rw [netOut_eq, hsup, Finset.sum_eq_single j]
    · obtain ⟨_, _, _, _, _, _, _, _, _, t10, t11, t12, _⟩ := st
      have hf : A.flowAt (j : Int) = initFlow c := by unfold flowAt; rw [t12]; rfl
      unfold incid
      rw [hf, srcOf_eq t10, tgtOf_eq t11, hroot]
      unfold initFlow
      by_cases hc : c ≥ 0
      · rw [if_pos hc, if_pos hc, if_pos hc, if_pos rfl, if_neg (by omega)]
        ring
      · rw [if_neg hc, if_neg hc, if_neg hc, if_neg (by omega), if_pos rfl]
        ring
    · intro e he hne
      have em : e < m := Finset.mem_range.1 he
      have hne' : (e : Int) ≠ (j : Int) := fun g => hne (by exact_mod_cast g)
      by_cases en : (e : Int) < n
      · obtain ⟨c', _, _, st'⟩ := hnode e (by omega) en
        obtain ⟨_, _, _, _, _, _, _, _, _, t10, t11, _, _⟩ := st'
        unfold incid
        rw [srcOf_eq t10, tgtOf_eq t11, hroot]
        by_cases hc : c' ≥ 0
        · rw [if_pos hc, if_pos hc, if_neg hne', if_neg (by omega)]
          ring
        · rw [if_neg hc, if_neg hc, if_neg (by omega), if_neg hne']
          ring
      · obtain ⟨_, _, _, hf, _⟩ := harc e (by omega) (by exact_mod_cast em)
        have : A.flowAt (e : Int) = 0 := by unfold flowAt; rw [hf]; rfl
        rw [this, zero_mul]
    · intro h
      exact absurd (Finset.mem_range.2 hj) h
  · intro u u0 un
    obtain ⟨c, h1, h2, _⟩ := hnode u u0 un
    unfold supplyOf
    rw [h1, h2]

end NetSimplex

/-! ## C3: flow balance -/

/-- C3: flow balance is an invariant of the solve. After the reset loop of `run` and `init`,
for every real node `u` the sum of the flows of the arcs with source `u` minus the sum of the
flows of the arcs with target `u`, over all arcs (dummy and real), is `supply[u]`, and the
supplies of the real nodes are those given. A complete pivot from a tree basis with balanced
flows ends with balanced flows and the same supplies (exact integer arithmetic), whether a
leaving arc is found or not. -/
theorem C3_flow_balance :
    (∀ (ns : NetSimplex) (n m : Nat), ns.Sized n m → ns.node_num = n → ns.arc_num = m →
      1 ≤ n → n ≤ m → ∃ A, ns.prepared = some A ∧ A.Balanced n m ∧
        ∀ u : Int, 0 ≤ u → u < n → A.supplyOf u = ns.supplyOf u) ∧
    (∀ (x y : NetSimplex) (n m : Nat), x.TreeBasis n m →
      (0 ≤ x.srcOf x.in_arc ∧ x.srcOf x.in_arc ≤ n) →
      (0 ≤ x.tgtOf x.in_arc ∧ x.tgtOf x.in_arc ≤ n) →
      x.Balanced n m → x.pivot = some y →
      y.Balanced n m ∧ ∀ u : Int, y.supplyOf u = x.supplyOf u) := by
  refine ⟨NetSimplex.prepared_balanced, ?_⟩
  intro x y n m hb hs ht hbal h
  refine ⟨NetSimplex.pivot_balanced hb hs ht hbal h, ?_⟩
  intro u
  have hy := hbal
  simp only [NetSimplex.pivot, Option.bind_eq_bind, Option.bind_eq_some,
    Option.some.injEq] at h
  obtain ⟨x1, h1, ⟨r, x2⟩, h2, x3, h3, x4, h4, x5, h5, rfl⟩ := h
  obtain ⟨e2, _⟩ := NetSimplex.pivot_cycle hb h1 h2 hs ht
  obtain ⟨e3, _⟩ := NetSimplex.changeFlow_spec h3
  have s2 : x2.supply = x.supply := by rw [e2]
  have s3 : x3.supply = x2.supply := by rw [e3]
  have s4 : x4.supply = x3.supply :=
    (NetSimplex.updateTreeStructure_writes h4).vec Fld.supply (by decide)
  have s5 : x5.supply = x4.supply :=
    (NetSimplex.updatePotential_writes h5).vec Fld.supply (by decide)
  exact NetSimplex.supplyOf_congr (((s5.trans s4).trans s3).trans s2) u

/-- C3 on scenario S1 for `init` and on the stem scenario for its second pivot. -/
theorem C3_flow_balance_Stem :
    (∃ A, solverS1.prepared = some A ∧ A.Balanced 2 3 ∧
      ∀ u : Int, 0 ≤ u → u < (2 : Nat) → A.supplyOf u = solverS1.supplyOf u) ∧
    (enteredStem.pivot = some pivotedStem ∧ enteredStem.Balanced 3 5 ∧
      pivotedStem.Balanced 3 5 ∧ ∀ u : Int, pivotedStem.supplyOf u = enteredStem.supplyOf u) :=
  ⟨C3_flow_balance.1 solverS1 2 3 ⟨fun f => by cases f <;> decide, by decide⟩
      (by decide) (by decide) (by decide) (by decide),
    by decide,
    fun u u0 un => by
      have un' : u < 3 := un
      interval_cases u <;> decide,
    C3_flow_balance.2 enteredStem pivotedStem 3 5 enteredStem_basis (by decide) (by decide)
      (fun u u0 un => by
        have un' : u < 3 := un
        interval_cases u <;> decide)
      (by decide)⟩

/-! ## C5: the pivot loop on full supplies -/

namespace NetSimplex

set_option maxHeartbeats 4000000 in
theorem fullSupply_even (i : Nat) :
    rounds 1 (fullSupplyRule 7) (fullSupplyEven i) =
      some (fullSupplyRule 5, fullSupplyOdd (i + 1)) :=
  rfl

set_option maxHeartbeats 4000000 in
theorem fullSupply_odd (i : Nat) :
    rounds 1 (fullSupplyRule 5) (fullSupplyOdd i) =
      some (fullSupplyRule 7, fullSupplyEven (i + 1)) :=
  rfl

/-- The loop of `start` never ends on the full supply scenario. -/
theorem fullSupply_loops : ∀ (fuel i : Nat),
    startLoop fuel (fullSupplyRule 7) (fullSupplyEven i) = none ∧
    startLoop fuel (fullSupplyRule 5) (fullSupplyOdd i) = none := by
  intro fuel
  induction fuel with
  | zero => intro i; exact ⟨rfl, rfl⟩
  | succ fuel ih =>
    intro i
    obtain ⟨x1, a1, a2⟩ := rounds_one (fullSupply_even i)
    obtain ⟨x2, b1, b2⟩ := rounds_one (fullSupply_odd i)
    exact ⟨by rw [startLoop_go a1 a2]; exact (ih (i + 1)).2,
      by rw [startLoop_go b1 b2]; exact (ih (i + 1)).1⟩

/-- On the cycle of the full supply scenario every round finds an entering arc and completes
its pivot. -/
theorem fullSupply_rounds : ∀ (k i : Nat),
    (∃ p y, rounds k (fullSupplyRule 7) (fullSupplyEven i) = some (p, y)) ∧
    (∃ p y, rounds k (fullSupplyRule 5) (fullSupplyOdd i) = some (p, y)) := by
  intro k
  induction k with
  | zero => intro i; exact ⟨⟨_, _, rfl⟩, ⟨_, _, rfl⟩⟩
  | succ k ih =>
    intro i
    obtain ⟨x1, a1, a2⟩ := rounds_one (fullSupply_even i)
    obtain ⟨x2, b1, b2⟩ := rounds_one (fullSupply_odd i)
    exact ⟨by rw [rounds_succ a1 a2]; exact (ih (i + 1)).2,
      by rw [rounds_succ b1 b2]; exact (ih (i + 1)).1⟩

theorem rounds_add (j : Nat) :
    ∀ (k : Nat) (p p' : BlockSearchPivotRule) (x y : NetSimplex),
      rounds k p x = some (p', y) → rounds (k + j) p x = rounds j p' y := by
  intro k
  induction k with
  | zero =>
    intro p p' x y h
    simp only [rounds, Option.some.injEq, Prod.mk.injEq] at h
    obtain ⟨rfl, rfl⟩ := h
    rw [Nat.zero_add]
  | succ k ih =>
    intro p p' x y h
    obtain ⟨p1, y1, h1, h2, _⟩ := rounds_succ_inv h
    obtain ⟨x', a1, a2⟩ := rounds_one h1
    have e : k + 1 + j = (k + j) + 1 := by omega
    rw [e, rounds_succ a1 a2]
    exact ih p1 p' y1 y h2

set_option maxRecDepth 100000 in
/-- The full supply scenario reaches its cycle of two states after four pivots. -/
theorem fullSupply_prefix :
    ∃ x1 x0, runReset solverFullSupply.arc_num.toNat 0 { solverFullSupply with iterations := 0 } =
        some x1 ∧ init x1 = some (true, x0) ∧ solverFullSupply.prepared = some x0 ∧
      rounds 4 (BlockSearchPivotRule.create x0) x0 =
        some (fullSupplyRule 7, fullSupplyEven 4) :=
  ⟨(runReset solverFullSupply.arc_num.toNat 0 { solverFullSupply with iterations := 0 }).getD
      solverFullSupply,
    ((init ((runReset solverFullSupply.arc_num.toNat 0
      { solverFullSupply with iterations := 0 }).getD solverFullSupply)).getD
        (false, solverFullSupply)).2,
    by decide, by decide, by decide, by decide⟩

end NetSimplex

/-- C5 (code defect): on the full supply scenario (five nodes with supplies `MAX, -MAX, MAX,
-MAX, 0` for the largest `int` `MAX`, the arcs `0 -> 4`, `1 -> 3`, `4 -> 1` of cost 0, so
integer supplies and non-negative costs, every value within `int`) the pivot loop never
ends: `run` returns for no number of rounds, and after `init` every number `4 + j` of rounds
can be done, each with an entering arc and a complete pivot. From the fourth pivot on the solver
alternates between two states with `delta = 0`. -/
theorem C5_full_supply_never_returns :
    (∀ fuel : Nat, NetSimplex.run fuel solverFullSupply = none) ∧
    (∀ j : Nat, ∃ p y, (solverFullSupply.prepared.bind fun x =>
      NetSimplex.rounds (4 + j) (BlockSearchPivotRule.create x) x) = some (p, y)) ∧
    (∀ i : Nat, NetSimplex.rounds 2 (fullSupplyRule 7) (fullSupplyEven i) =
      some (fullSupplyRule 7, fullSupplyEven (i + 2))) := by
  obtain ⟨x1, x0, h1, h2, h3, h4⟩ := NetSimplex.fullSupply_prefix
  refine ⟨?_, ?_, ?_⟩
  · intro fuel
    have hr : NetSimplex.run fuel solverFullSupply =
        NetSimplex.startLoop fuel (BlockSearchPivotRule.create x0) x0 := by
      simp only [NetSimplex.run, Option.bind_eq_bind, h1, Option.some_bind, h2, if_true,
        NetSimplex.start]
    rw [hr]
    by_cases hf : fuel ≤ 4
    · exact NetSimplex.startLoop_short 4 _ _ _ _ h4 fuel hf
    · obtain ⟨f, rfl⟩ : ∃ f, fuel = 4 + f := ⟨fuel - 4, by omega⟩
      rw [NetSimplex.startLoop_rounds f 4 _ _ _ _ h4]
      exact (NetSimplex.fullSupply_loops f 4).1
  · intro j
    rw [h3, Option.some_bind, NetSimplex.rounds_add j 4 _ _ _ _ h4]
    exact (NetSimplex.fullSupply_rounds j 4).1
  · intro i
    obtain ⟨x1, a1, a2⟩ := NetSimplex.rounds_one (NetSimplex.fullSupply_even i)
    rw [NetSimplex.rounds_succ a1 a2]
    exact NetSimplex.fullSupply_odd (i + 1)

/-! ## Scenario S5 in full -/

set_option maxRecDepth 100000 in
/-- C10 (code defect): in scenario S5 with nine chain arcs of cost 1 the last `reRun()`
returns OPTIMAL with `totalCost()` equal to 0, not 9: only the arcs `8->9`, `1->2`, `2->3`
are stored, none of them carries flow, and the dummy arcs of the nodes 0 and 9 keep flow 1. -/
theorem C10_chain_not_stored :
    scenarioS5.map (fun r => r.1) = some ProblemType.OPTIMAL ∧
    scenarioS5.map (fun r => r.2.totalCost) = some (some 0) ∧
    scenarioS5.map (fun r => (r.2.arc_num, r.2.source.drop 10, r.2.target.drop 10)) =
      some (13, [8, 1, 2], [9, 2, 3]) ∧
    scenarioS5.map (fun r => r.2.flow) = some [1, 0, 0, 0, 0, 0, 0, 0, 0, 1, 0, 0, 0] := by
  decide

/-! ## The single-arc instance -/

namespace NetSimplex

theorem ofInstance_twoNode (s c : Int) :
    ofInstance [s, -s] [⟨0, 1, c⟩] = some (solverTwoNode s c) := rfl

theorem runReset_twoNode (s c : Int) :
    runReset 3 0 { solverTwoNode s c with iterations := 0 } = some (solverTwoNode s c) := rfl

theorem init_twoNode (s c : Int) (hs : 0 < s) :
    init (solverTwoNode s c) = some (true, starTwoNode s c) := by
  have h1 : ¬ (-s ≥ 0) := by omega
  have h2 : s ≥ 0 := by omega
  simp [init, initSum, initRoot, initArcs, initArc, initArcTree, initArcUp, initArcDown,
    solverTwoNode, starTwoNode, rd, wr, set_parent, set_pred, set_thread, set_rev_thread,
    set_succ_num, set_last_succ, set_state, set_pred_dir, set_pi, set_source, set_target,
    set_flow, set_cost, set_supply, artCost, h1, h2, DIR_UP, DIR_DOWN, STATE_TREE]

theorem create_twoNode (s c : Int) :
    BlockSearchPivotRule.create (starTwoNode s c) = ruleTwoNode := rfl

theorem enter_twoNode (s c : Int) (hc : c < 1073741824) :
    ruleTwoNode.findEnteringArc (starTwoNode s c) =
      some (true, ruleTwoNode, enteredTwoNode s c) := by
  have h1 : c - 1073741824 < 0 := by omega
  have h2 : ¬ (c - 1073741824 ≥ 0) := by omega
  simp [BlockSearchPivotRule.findEnteringArc, BlockSearchPivotRule.scanArcs, signedRedCost,
    redCost, starTwoNode, solverTwoNode, enteredTwoNode, ruleTwoNode, rd, h1, h2]

theorem join_twoNode (s c : Int) :
    findJoinNode (enteredTwoNode s c) = some (joinedTwoNode s c) := rfl

theorem findLeavingArc_steps {ns ns1 ns2 : NetSimplex} {first second r1 r2 : Int}
    (h1 : rd ns.source ns.in_arc = some first) (h2 : rd ns.target ns.in_arc = some second)
    (e1 : findLeavingFirst ns.loopBound first { ns with delta := ns.MAX } 0 = some (ns1, r1))
    (e2 : findLeavingSecond ns1.loopBound second ns1 r1 = some (ns2, r2)) :
    findLeavingArc ns =
      if r2 = 1 then some (true, { ns2 with u_in := first, v_in := second })
      else some (decide (r2 ≠ 0), { ns2 with u_in := second, v_in := first }) := by
  have e1' : findLeavingFirst
      (loopBound { ns with delta := ns.MAX }) first { ns with delta := ns.MAX } 0 =
        some (ns1, r1) := e1
  simp only [findLeavingArc, Option.bind_eq_bind, h1, h2, Option.some_bind, e1', e2]

theorem leaving_twoNode (s c : Int) (hs2 : s ≤ 2147483647) :
    findLeavingArc (joinedTwoNode s c) = some (true, leavingTwoNode s c) := by
  have a1 : findLeavingFirst 16 0 { joinedTwoNode s c with delta := 2147483647 } 0 =
      if s < 2147483647 then some ({ joinedTwoNode s c with delta := s, u_out := 0 }, 1)
      else some ({ joinedTwoNode s c with delta := 2147483647 }, 0) := rfl
  have a2 : findLeavingSecond 16 1 { joinedTwoNode s c with delta := s, u_out := 0 } 1 =
      if s ≤ s then some ({ joinedTwoNode s c with delta := s, u_out := 1 }, 2)
      else some ({ joinedTwoNode s c with delta := s, u_out := 0 }, 1) := rfl
  have a3 : findLeavingSecond 16 1 { joinedTwoNode s c with delta := 2147483647 } 0 =
      if s ≤ 2147483647 then some ({ joinedTwoNode s c with delta := s, u_out := 1 }, 2)
      else some ({ joinedTwoNode s c with delta := 2147483647 }, 0) := rfl
  rw [if_pos (le_refl s)] at a2
  rw [if_pos hs2] at a3
  by_cases h : s < 2147483647
  · rw [if_pos h] at a1
    exact @findLeavingArc_steps (joinedTwoNode s c) _ _ 0 1 1 2 rfl rfl a1 a2
  · rw [if_neg h] at a1
    exact @findLeavingArc_steps (joinedTwoNode s c) _ _ 0 1 0 2 rfl rfl a1 a3

theorem changeFlow_twoNode (s c : Int) (hs : 0 < s) :
    changeFlow (leavingTwoNode s c) = some (changedTwoNode s c) := by
  have e : changeFlow (leavingTwoNode s c) =
      if s > 0 then
        some { leavingTwoNode s c with flow := [s - 1 * s, s + -1 * s, 0 + s],
                                       state := [false, true, false] }
      else some { leavingTwoNode s c with state := [false, true, false] } := rfl
  have f1 : s - 1 * s = 0 := by omega
  have f2 : s + -1 * s = 0 := by omega
  have f3 : 0 + s = s := by omega
  rw [e, if_pos hs, f1, f2, f3]
  rfl

theorem tree_twoNode (s c : Int) :
    updateTreeStructure (changedTwoNode s c) = some (treeTwoNode s c) := rfl

theorem potential_twoNode (s c : Int) :
    updatePotential (treeTwoNode s c) = some { solvedTwoNode s c with iterations := 0 } := by
  have e : updatePotential (treeTwoNode s c) =
      some { solvedTwoNode s c with
             iterations := 0, pi := [0, 1073741824 + (0 - 1073741824 - -1 * c), 0] } := rfl
  have f1 : (1073741824 : Int) + (0 - 1073741824 - -1 * c) = c := by omega
  rw [e, f1]
  rfl

theorem pivot_twoNode (s c : Int) (hs : 0 < s) (hs2 : s ≤ 2147483647) :
    pivot (enteredTwoNode s c) = some (solvedTwoNode s c) := by
  simp only [pivot, Option.bind_eq_bind, join_twoNode, Option.some_bind,
    leaving_twoNode s c hs2, changeFlow_twoNode s c hs, tree_twoNode, potential_twoNode]
  rfl

theorem stop_twoNode (s c : Int) :
    ruleTwoNode.findEnteringArc (solvedTwoNode s c) =
      some (false, ruleTwoNode, solvedTwoNode s c) := by
  simp [BlockSearchPivotRule.findEnteringArc, BlockSearchPivotRule.scanArcs, signedRedCost,
    redCost, solvedTwoNode, starTwoNode, solverTwoNode, ruleTwoNode, rd]

theorem run_twoNode (fuel : Nat) (s c : Int) (hs : 0 < s) (hs2 : s ≤ 2147483647)
    (hc : c < 1073741824) :
    run (fuel + 2) (solverTwoNode s c) = some (ProblemType.OPTIMAL, solvedTwoNode s c) := by
  have e0 : (solverTwoNode s c).arc_num.toNat = 3 := rfl
  simp only [run, Option.bind_eq_bind, e0, runReset_twoNode, Option.some_bind,
    init_twoNode s c hs, if_true, start, create_twoNode, startLoop, enter_twoNode s c hc,
    pivot_twoNode s c hs hs2, stop_twoNode]
  rfl

theorem enter_none_twoNode (s c : Int) (hc : 1073741824 ≤ c) :
    ruleTwoNode.findEnteringArc (starTwoNode s c) =
      some (false, ruleTwoNode, starTwoNode s c) := by
  have h1 : ¬ (c - 1073741824 < 0) := by omega
  have h2 : c - 1073741824 ≥ 0 := by omega
  simp [BlockSearchPivotRule.findEnteringArc, BlockSearchPivotRule.scanArcs, signedRedCost,
    redCost, starTwoNode, solverTwoNode, ruleTwoNode, rd, h1, h2]

theorem run_star_twoNode (fuel : Nat) (s c : Int) (hs : 0 < s) (hc : 1073741824 ≤ c) :
    run (fuel + 1) (solverTwoNode s c) = some (ProblemType.OPTIMAL, starTwoNode s c) := by
  have e0 : (solverTwoNode s c).arc_num.toNat = 3 := rfl
  simp only [run, Option.bind_eq_bind, e0, runReset_twoNode, Option.some_bind,
    init_twoNode s c hs, if_true, start, create_twoNode, startLoop, enter_none_twoNode s c hc]
  rfl

theorem totalCost_twoNode (s c : Int) : (solvedTwoNode s c).totalCost = some (s * c) := by
  have e : (solvedTwoNode s c).totalCost = some (0 + s * c) := rfl
  rw [e, zero_add]

theorem totalCost_star_twoNode (s c : Int) : (starTwoNode s c).totalCost = some 0 := by
  have e : (starTwoNode s c).totalCost = some (0 + 0 * c) := rfl
  rw [e, zero_mul, zero_add]

end NetSimplex

/-- C6, as stated, fails for a large cost: on the instance with supplies `+1, -1` and the one
arc `0 -> 1` of cost `1073741824` (the artificial cost of a 32-bit cost type), `run()` returns
OPTIMAL with flow 0 on the arc, flow 1 on both dummy arcs and `totalCost()` equal to 0. -/
theorem C6_cost_at_artificial :
    ((NetSimplex.ofInstance [1, -1] [⟨0, 1, 1073741824⟩]).bind (NetSimplex.run 5)).map (fun r => r.1) =
      some ProblemType.OPTIMAL ∧
    ((NetSimplex.ofInstance [1, -1] [⟨0, 1, 1073741824⟩]).bind (NetSimplex.run 5)).map (fun r => r.2.flow) =
      some [1, 1, 0] ∧
    ((NetSimplex.ofInstance [1, -1] [⟨0, 1, 1073741824⟩]).bind (NetSimplex.run 5)).map (fun r => r.2.totalCost) =
      some (some 0) := by
  decide

/-- C6, amended: for one source with supply `s`, `0 < s <= 2147483647`, one sink with supply
`-s` and the single arc `0 -> 1` of cost `c`, `0 <= c <= 2147483647`, `run()` returns OPTIMAL
(with any fuel of at least 2 rounds).  When `c < 1073741824`, the artificial cost, the final
flows are `[0, 0, s]` (both dummy arcs at 0, flow `s` on the arc) and `totalCost()` is
`s * c` when that product fits the cost type; when `c >= 1073741824` the arc never enters:
the final flows are `[s, s, 0]` and `totalCost()` is 0. -/
theorem C6_single_arc (fuel : Nat) (s c : Int) (hs : 0 < s) (hs2 : s ≤ 2147483647)
    (hc0 : 0 ≤ c) (hc2 : c ≤ 2147483647) :
    ∃ y, (NetSimplex.ofInstance [s, -s] [⟨0, 1, c⟩]).bind (NetSimplex.run (fuel + 2)) =
        some (ProblemType.OPTIMAL, y) ∧
      (c < 1073741824 → y.flow = [0, 0, s] ∧
        (s * c ≤ 2147483647 → y.totalCost = some (s * c))) ∧
      (1073741824 ≤ c → y.flow = [s, s, 0] ∧ y.totalCost = some 0) := by
  rw [NetSimplex.ofInstance_twoNode, Option.some_bind]
  by_cases hc : c < 1073741824
  · refine ⟨solvedTwoNode s c, NetSimplex.run_twoNode fuel s c hs hs2 hc,
      fun _ => ⟨rfl, fun _ => NetSimplex.totalCost_twoNode s c⟩, fun h => absurd hc (by omega)⟩
  · refine ⟨starTwoNode s c, NetSimplex.run_star_twoNode (fuel + 1) s c hs (by omega),
      fun h => absurd h hc, fun _ => ⟨rfl, NetSimplex.totalCost_star_twoNode s c⟩⟩

/-- Scenario S1 (`s = 1`, `c = 7`) under the amended C6: `run()` returns OPTIMAL, the flow
on the arc `0 -> 1` is 1 and `totalCost()` is 7. -/
theorem C6_single_arc_S1 :
    ∃ y, scenarioS1.bind (NetSimplex.run 5) = some (ProblemType.OPTIMAL, y) ∧
      (y.flow = [0, 0, 1] ∧ y.totalCost = some 7) ∧ rd y.flow 2 = some 1 := by
  obtain ⟨y, h1, h2, _⟩ := C6_single_arc 3 1 7 (by decide) (by decide) (by decide) (by decide)
  obtain ⟨h3, h4⟩ := h2 (by decide)
  refine ⟨y, h1, ⟨h3, h4 (by decide)⟩, ?_⟩
  rw [h3]
  rfl

/-! ## The leaving arc on instances without negative cycles -/

namespace NetSimplex

theorem dir_cases {x : NetSimplex} {n m : Nat} (hb : TreeBasis x n m) {u : Int} (u0 : 0 ≤ u)
    (un : u < n) : x.dirOf u = DIR_UP ∨ x.dirOf u = DIR_DOWN := by
  rcases hb.pred_arc u u0 un with h | h
  · exact Or.inl h.1
  · exact Or.inr h.1

theorem tree_arc_rc {x : NetSimplex} {n m : Nat} (hb : TreeBasis x n m)
    (hst : StatesMatch x n m) (hz : TreeReduced x m) {u : Int} (u0 : 0 ≤ u) (un : u < n) :
    x.costOf (x.predOf u) + x.piOf (x.srcOf (x.predOf u)) - x.piOf (x.tgtOf (x.predOf u)) = 0
    := by
  obtain ⟨p0, pm⟩ := hb.pred_range u u0 un
  have st : x.stateAt (x.predOf u) = STATE_TREE := (hst _ p0 pm).2 ⟨u, u0, un, rfl⟩
  exact (redCost_value (hz _ p0 pm st)).symm

/-- Along a walk whose predecessor arcs all point down, the potential minus a feasible
potential `p` does not decrease towards the start of the walk. -/
theorem walk_pi_down {x : NetSimplex} {n m : Nat} (hb : TreeBasis x n m)
    (hst : StatesMatch x n m) (hz : TreeReduced x m)
    {p : Int → Int}
    (hc : ∀ e : Int, 0 ≤ e → e < m → 0 ≤ x.costOf e + p (x.srcOf e) - p (x.tgtOf e))
    {j : Int} :
    ∀ (l : List Int) (u : Int), Walk x j u l → (∀ y ∈ l, 0 ≤ y ∧ y < n) →
      (∀ y ∈ l, x.dirOf y = DIR_DOWN) → x.piOf j - p j ≤ x.piOf u - p u := by
  intro l
  induction l with
  | nil =>
    intro u hw _ _
    have : u = j := hw
    rw [this]
  | cons a l ih =>
    intro u hw hr hd
    obtain ⟨rfl, _, hw'⟩ := hw
    obtain ⟨u0, un⟩ := hr a (List.mem_cons_self _ _)
    have hda := hd a (List.mem_cons_self _ _)
    have ih' := ih (x.par a) hw' (fun y hy => hr y (List.mem_cons_of_mem _ hy))
      (fun y hy => hd y (List.mem_cons_of_mem _ hy))
    have e0 := tree_arc_rc hb hst hz u0 un
    obtain ⟨p0, pm⟩ := hb.pred_range a u0 un
    have c0 := hc _ p0 pm
    rcases hb.pred_arc a u0 un with ⟨h1, _, _⟩ | ⟨_, h2, h3⟩
    · rw [hda] at h1
      exact absurd h1 (by decide)
    · rw [h2, h3] at e0 c0
      omega

/-- Along a walk whose predecessor arcs all point up, the potential minus a feasible
potential `p` does not increase towards the start of the walk. -/
theorem walk_pi_up {x : NetSimplex} {n m : Nat} (hb : TreeBasis x n m)
    (hst : StatesMatch x n m) (hz : TreeReduced x m)
    {p : Int → Int}
    (hc : ∀ e : Int, 0 ≤ e → e < m → 0 ≤ x.costOf e + p (x.srcOf e) - p (x.tgtOf e))
    {j : Int} :
    ∀ (l : List Int) (u : Int), Walk x j u l → (∀ y ∈ l, 0 ≤ y ∧ y < n) →
      (∀ y ∈ l, x.dirOf y = DIR_UP) → x.piOf u - p u ≤ x.piOf j - p j := by
  intro l
  induction l with
  | nil =>
    intro u hw _ _
    have : u = j := hw
    rw [this]
  | cons a l ih =>
    intro u hw hr hd
    obtain ⟨rfl, _, hw'⟩ := hw
    obtain ⟨u0, un⟩ := hr a (List.mem_cons_self _ _)
    have hda := hd a (List.mem_cons_self _ _)
    have ih' := ih (x.par a) hw' (fun y hy => hr y (List.mem_cons_of_mem _ hy))
      (fun y hy => hd y (List.mem_cons_of_mem _ hy))
    have e0 := tree_arc_rc hb hst hz u0 un
    obtain ⟨p0, pm⟩ := hb.pred_range a u0 un
    have c0 := hc _ p0 pm
    rcases hb.pred_arc a u0 un with ⟨_, h2, h3⟩ | ⟨h1, _, _⟩
    · rw [h2, h3] at e0 c0
      omega
    · rw [hda] at h1
      exact absurd h1 (by decide)

/-- When some potential `p` gives every arc a non-negative reduced cost (so that no cycle
has a negative cost), the cycle of an entering arc of negative reduced cost holds a
tree arc whose flow decreases: one that points up on the walk from the source, or one that
points down on the walk from the target. -/
theorem decreasing_exists {x : NetSimplex} {n m : Nat} (hb : TreeBasis x n m)
    (hst : StatesMatch x n m) (hz : TreeReduced x m)
    {p : Int → Int}
    (hc : ∀ e : Int, 0 ≤ e → e < m → 0 ≤ x.costOf e + p (x.srcOf e) - p (x.tgtOf e))
    {j : Int} {l1 l2 : List Int}
    (he : 0 ≤ x.in_arc ∧ x.in_arc < m) (hrc : x.rcOf x.in_arc < 0)
    (w1 : Walk x j (x.srcOf x.in_arc) l1) (w2 : Walk x j (x.tgtOf x.in_arc) l2)
    (r1 : ∀ y ∈ l1, 0 ≤ y ∧ y < n) (r2 : ∀ y ∈ l2, 0 ≤ y ∧ y < n) :
    (∃ y ∈ l1, x.dirOf y = DIR_UP) ∨ (∃ y ∈ l2, x.dirOf y = DIR_DOWN) := by
  by_contra hno
  push_neg at hno
  obtain ⟨n1, n2⟩ := hno
  have d1 : ∀ y ∈ l1, x.dirOf y = DIR_DOWN := by
    intro y hy
    obtain ⟨y0, yn⟩ := r1 y hy
    rcases dir_cases hb y0 yn with h | h
    · exact absurd h (n1 y hy)
    · exact h
  have d2 : ∀ y ∈ l2, x.dirOf y = DIR_UP := by
    intro y hy
    obtain ⟨y0, yn⟩ := r2 y hy
    rcases dir_cases hb y0 yn with h | h
    · exact h
    · exact absurd h (n2 y hy)
  have p1 := walk_pi_down hb hst hz hc l1 _ w1 r1 d1
  have p2 := walk_pi_up hb hst hz hc l2 _ w2 r2 d2
  have c0 := hc _ he.1 he.2
  unfold rcOf at hrc
  omega

/-- With a feasible potential and tree flows between 0 and a bound `B` with `2 * B < MAX`,
the search for the leaving arc succeeds on the cycle of an entering arc of negative reduced
cost: it returns true, `delta` is at most `B`, and the arc that leaves is one whose flow
decreases. -/
theorem pivot_regular {x x1 x2 : NetSimplex} {n m : Nat} {r : Bool} {B : Int}
    (hb : TreeBasis x n m) (hst : StatesMatch x n m) (hz : TreeReduced x m)
    {p : Int → Int}
    (hc : ∀ e : Int, 0 ≤ e → e < m → 0 ≤ x.costOf e + p (x.srcOf e) - p (x.tgtOf e))
    (he : 0 ≤ x.in_arc ∧ x.in_arc < m) (hrc : x.rcOf x.in_arc < 0)
    (hs : 0 ≤ x.srcOf x.in_arc ∧ x.srcOf x.in_arc ≤ n)
    (ht : 0 ≤ x.tgtOf x.in_arc ∧ x.tgtOf x.in_arc ≤ n)
    (hfl : ∀ e, 0 ≤ x.flowAt e)
    (hB : ∀ u : Int, 0 ≤ u → u < n → x.flowAt (x.predOf u) ≤ B) (h2B : 2 * B < x.MAX)
    (h1 : findJoinNode x = some x1) (h2 : findLeavingArc x1 = some (r, x2)) :
    r = true ∧ x2.delta ≤ B ∧ x2.delta < x.MAX ∧
      x.dirOf x2.u_out = (if x2.u_in = x.srcOf x.in_arc then DIR_UP else DIR_DOWN) := by
  obtain ⟨_, l1, l2, w1, w2, _, r1, r2, _, _, _, m1, m2, hfound⟩ := pivot_cycle hb h1 h2 hs ht
  have hne : x.srcOf x.in_arc ≠ x.tgtOf x.in_arc := by
    intro e
    have c0 := hc _ he.1 he.2
    unfold rcOf at hrc
    rw [e] at hrc c0
    omega
  have hd : x2.delta ≤ B := by
    rcases decreasing_exists hb hst hz hc he hrc w1 w2 r1 r2 with ⟨y, hy, dy⟩ | ⟨y, hy, dy⟩
    · have := m1 y hy
      obtain ⟨y0, yn⟩ := r1 y hy
      have fb := hB y y0 yn
      unfold walkResidual at this
      rw [dy] at this
      simp only [if_true] at this
      rw [if_neg (by decide)] at this
      omega
    · have := m2 y hy
      obtain ⟨y0, yn⟩ := r2 y hy
      have fb := hB y y0 yn
      unfold walkResidual at this
      rw [dy] at this
      simp only [Bool.false_eq_true, if_false] at this
      rw [if_neg (by decide)] at this
      omega
  have B0 : 0 ≤ B := by
    obtain ⟨k, hk⟩ := hb.reach 0 (le_refl _) (by
      have := hb.parent_range
      by_contra h
      have hn0 : n = 0 := by omega
      subst hn0
      have := hs.2
      have := ht.2
      have e1 : x.srcOf x.in_arc = 0 := by omega
      have e2 : x.tgtOf x.in_arc = 0 := by omega
      exact hne (e1.trans e2.symm))
    have n1 : (0 : Int) < n := by
      by_contra h
      have hn0 : n = 0 := by omega
      subst hn0
      have e1 : x.srcOf x.in_arc = 0 := by have := hs.2; omega
      have e2 : x.tgtOf x.in_arc = 0 := by have := ht.2; omega
      exact hne (e1.trans e2.symm)
    have := hB 0 (le_refl _) n1
    have := hfl (x.predOf 0)
    omega
  have hdM : x2.delta < x.MAX := by omega
  obtain ⟨hr, hcase⟩ := hfound hdM
  refine ⟨hr, hd, hdM, ?_⟩
  rcases hcase with ⟨e1, _, mem, res⟩ | ⟨e1, _, mem, res⟩
  · rw [if_pos e1]
    obtain ⟨y0, yn⟩ := r1 _ mem
    rcases dir_cases hb y0 yn with h | h
    · exact h
    · exfalso
      have fb := hB _ y0 yn
      unfold walkResidual at res
      rw [h] at res
      simp only [if_true] at res
      unfold INF at res
      omega
  · rw [if_neg (by rw [e1]; exact fun h => hne h.symm)]
    obtain ⟨y0, yn⟩ := r2 _ mem
    rcases dir_cases hb y0 yn with h | h
    · exfalso
      have fb := hB _ y0 yn
      unfold walkResidual at res
      rw [h] at res
      simp only [Bool.false_eq_true, if_false, if_true] at res
      unfold INF at res
      omega
    · exact h

end NetSimplex

/-! ## The cut of a subtree -/

namespace NetSimplex

theorem sum_swap (m : Nat) (F : Int → Nat → Int) : ∀ L : List Int,
    (L.map fun w => Finset.sum (Finset.range m) (F w)).sum =
      Finset.sum (Finset.range m) (fun e => (L.map fun w => F w e).sum) := by
  intro L
  induction L with
  | nil => simp
  | cons a L ih =>
    simp only [List.map_cons, List.sum_cons]
    rw [ih, ← Finset.sum_add_distrib]

theorem sum_indicator (a : Int) : ∀ L : List Int, L.Nodup →
    (L.map fun w => if a = w then (1 : Int) else 0).sum = if a ∈ L then 1 else 0 := by
  intro L
  induction L with
  | nil => intro _; simp
  | cons b L ih =>
    intro hn
    obtain ⟨h1, h2⟩ := List.nodup_cons.1 hn
    simp only [List.map_cons, List.sum_cons, ih h2, List.mem_cons]
    by_cases hab : a = b
    · subst hab
      simp [h1]
    · simp [hab]

theorem sum_incid (x : NetSimplex) (e : Int) (L : List Int) (hn : L.Nodup) :
    (L.map fun w => x.incid w e).sum =
      (if x.srcOf e ∈ L then 1 else 0) - (if x.tgtOf e ∈ L then 1 else 0) := by
  have h : ∀ M : List Int, (M.map fun w => x.incid w e).sum =
      (M.map fun w => if x.srcOf e = w then (1 : Int) else 0).sum -
        (M.map fun w => if x.tgtOf e = w then (1 : Int) else 0).sum := by
    intro M
    induction M with
    | nil => simp
    | cons b M ih =>
      simp only [List.map_cons, List.sum_cons, ih]
      unfold incid
      ring
  rw [h, sum_indicator _ L hn, sum_indicator _ L hn]

/-- The cut of a subtree: with flow balance and no flow off the tree, the flow of the
predecessor arc of a real node `u`, signed by `pred_dir[u]`, is the sum of the supplies over
the subtree of `u`. -/
theorem tree_flow_cut {x : NetSimplex} {n m : Nat} {T : List Int} (ht : Threaded x n m T)
    (hst : StatesMatch x n m) (hbal : Balanced x n m)
    (hoff : ∀ e : Int, 0 ≤ e → e < m → x.stateAt e ≠ STATE_TREE → x.flowAt e = 0)
    {u : Int} (u0 : 0 ≤ u) (un : u < n) :
    ∃ L : List Int, L.Nodup ∧ (∀ w ∈ L, 0 ≤ w ∧ w < n) ∧
      x.dirOf u * x.flowAt (x.predOf u) = (L.map x.supplyOf).sum := by
  have hb := ht.tree_basis
  have hsp := ht.tree
  obtain ⟨blk, hmem, hnd, _, _, _, _⟩ := ht.block_chain u0 un
  have hrange : ∀ w ∈ u :: blk, 0 ≤ w ∧ w < n := by
    intro w hw
    have ha := (hmem w).1 hw
    obtain ⟨w0, wn⟩ := hsp.anc_range u0 (le_of_lt un) ha
    refine ⟨w0, lt_of_le_of_ne wn ?_⟩
    intro e
    rw [e] at ha
    have := hsp.anc_root u0 ha
    omega
  refine ⟨u :: blk, hnd, hrange, ?_⟩
  have e1 : ((u :: blk).map x.supplyOf).sum = ((u :: blk).map fun w => x.netOut m w).sum := by
    congr 1
    apply List.map_congr_left
    intro w hw
    obtain ⟨w0, wn⟩ := hrange w hw
    exact (hbal w w0 wn).symm
  have e2 : ((u :: blk).map fun w => x.netOut m w).sum =
      ((u :: blk).map fun w =>
        Finset.sum (Finset.range m) (fun e : Nat => x.flowAt e * x.incid w e)).sum := by
    congr 1
    apply List.map_congr_left
    intro w _
    exact netOut_eq x m w
  rw [e1, e2, sum_swap m (fun w e => x.flowAt e * x.incid w e)]
  obtain ⟨p0, pm⟩ := hb.pred_range u u0 un
  have hpu : x.par u ∉ u :: blk := by
    intro h
    have ha := (hmem _).1 h
    have hpr := hb.parent_range u u0 un
    have := hsp.anc_antisymm u0 (le_of_lt un) ha (Anc.of_par x u)
    have h1 := hsp.no_cycle u0 un 0
    exact h1 this.symm
  have term : ∀ e ∈ Finset.range m,
      ((u :: blk).map fun w => x.flowAt (e : Int) * x.incid w (e : Int)).sum =
        (if x.predOf u = (e : Int) then x.dirOf u else 0) * x.flowAt (e : Int) := by
    intro e he
    have em : ((e : Nat) : Int) < m := by exact_mod_cast Finset.mem_range.1 he
    have e0 : (0 : Int) ≤ (e : Int) := Int.natCast_nonneg e
    have fac : ((u :: blk).map fun w => x.flowAt (e : Int) * x.incid w (e : Int)).sum =
        x.flowAt (e : Int) * ((u :: blk).map fun w => x.incid w (e : Int)).sum := by
      rw [← List.sum_map_mul_left]
    rw [fac, sum_incid x _ _ hnd]
    by_cases hst' : x.stateAt (e : Int) = STATE_TREE
    · obtain ⟨v, v0, vn, hv⟩ := (hst _ e0 em).1 hst'
      by_cases hvu : v = u
      · subst hvu
        rw [if_pos hv]
        rcases hb.pred_arc v u0 un with ⟨d, s, t⟩ | ⟨d, s, t⟩
        · rw [hv] at s t
          rw [s, t, if_pos (List.mem_cons_self _ _), if_neg hpu, d]
          unfold DIR_UP
          ring
        · rw [hv] at s t
          rw [s, t, if_neg hpu, if_pos (List.mem_cons_self _ _), d]
          unfold DIR_DOWN
          ring
      · have hne : ¬ x.predOf u = (e : Int) := by
          intro h
          exact hvu (hb.pred_inj v0 vn u0 un (hv.trans h.symm))
        rw [if_neg hne, zero_mul]
        have iff1 : v ∈ u :: blk ↔ x.par v ∈ u :: blk := by
          rw [hmem, hmem]
          constructor
          · intro ha
            exact ha.parent hvu
          · intro ha
            exact ha.up (Anc.of_par x v)
        rcases hb.pred_arc v v0 vn with ⟨_, s, t⟩ | ⟨_, s, t⟩
        · rw [hv] at s t
          rw [s, t]
          by_cases hin : v ∈ u :: blk
          · rw [if_pos hin, if_pos (iff1.1 hin)]
            ring
          · rw [if_neg hin, if_neg (fun h => hin (iff1.2 h))]
            ring
        · rw [hv] at s t
          rw [s, t]
          by_cases hin : v ∈ u :: blk
          · rw [if_pos hin, if_pos (iff1.1 hin)]
            ring
          · rw [if_neg hin, if_neg (fun h => hin (iff1.2 h))]
            ring
    · have hne : ¬ x.predOf u = (e : Int) := by
        intro h
        apply hst'
        rw [← h]
        exact (hst _ p0 pm).2 ⟨u, u0, un, rfl⟩
      rw [if_neg hne, hoff _ e0 em hst']
      ring
  rw [Finset.sum_congr rfl term]
  exact (sum_arc_pick m x.flowAt (x.dirOf u) p0 pm).symm

theorem sum_abs_le (b : Int → Int) (n : Nat) : ∀ L : List Int, L.Nodup →
    (∀ w ∈ L, 0 ≤ w ∧ w < n) →
    (L.map fun w => |b w|).sum ≤ ((List.range n).map fun v : Nat => |b (v : Int)|).sum := by
  intro L hn hr
  have e1 : (L.map fun w => |b w|).sum =
      ((L.map Int.toNat).map fun v : Nat => |b (v : Int)|).sum := by
    rw [List.map_map]
    congr 1
    apply List.map_congr_left
    intro w hw
    have := (hr w hw).1
    simp only [Function.comp]
    rw [Int.toNat_of_nonneg this]
  have hn' : (L.map Int.toNat).Nodup := by
    apply List.Nodup.map_on _ hn
    intro a ha c hc h
    have := (hr a ha).1
    have := (hr c hc).1
    omega
  rw [e1, list_sum_range, ← List.sum_toFinset _ hn']
  apply Finset.sum_le_sum_of_subset_of_nonneg
  · intro v hv
    rw [List.mem_toFinset, List.mem_map] at hv
    obtain ⟨w, hw, rfl⟩ := hv
    have := hr w hw
    rw [Finset.mem_range]
    omega
  · intro v _ _
    exact abs_nonneg _

theorem abs_list_sum (b : Int → Int) : ∀ L : List Int,
    |(L.map b).sum| ≤ (L.map fun w => |b w|).sum := by
  intro L
  induction L with
  | nil => simp
  | cons a L ih =>
    simp only [List.map_cons, List.sum_cons]
    exact (abs_add _ _).trans (by omega)

/-- The flow of every tree arc is at most the sum of the absolute supplies. -/
theorem tree_flow_bound {x : NetSimplex} {n m : Nat} {T : List Int} (ht : Threaded x n m T)
    (hst : StatesMatch x n m) (hbal : Balanced x n m)
    (hoff : ∀ e : Int, 0 ≤ e → e < m → x.stateAt e ≠ STATE_TREE → x.flowAt e = 0)
    (hfl : ∀ e, 0 ≤ x.flowAt e) {u : Int} (u0 : 0 ≤ u) (un : u < n) :
    x.flowAt (x.predOf u) ≤ x.supplyAbs n := by
  obtain ⟨L, hn, hr, e⟩ := tree_flow_cut ht hst hbal hoff u0 un
  have h1 := abs_list_sum x.supplyOf L
  have h2 := sum_abs_le x.supplyOf n L hn hr
  rw [← e] at h1
  have f0 := hfl (x.predOf u)
  have h3 : |x.dirOf u * x.flowAt (x.predOf u)| = x.flowAt (x.predOf u) := by
    rcases dir_cases ht.tree_basis u0 un with h | h
    · rw [h]
      unfold DIR_UP
      rw [one_mul, abs_of_nonneg f0]
    · rw [h]
      unfold DIR_DOWN
      rw [neg_one_mul, abs_neg, abs_of_nonneg f0]
  unfold supplyAbs
  simp only [Int.natCast_natAbs]
  omega

end NetSimplex

/-! ## The invariant of the pivot loop -/

namespace NetSimplex

theorem sameVectors_in_arc (a : NetSimplex) (e : Int) : SameVectors a { a with in_arc := e } :=
  ⟨fun f => by cases f <;> rfl, rfl, rfl, rfl, rfl, rfl⟩

theorem sameVectors_iterations (a : NetSimplex) (k : Nat) :
    SameVectors a { a with iterations := k } :=
  ⟨fun f => by cases f <;> rfl, rfl, rfl, rfl, rfl, rfl⟩

theorem supplyAbs_congr {a b : NetSimplex} (h : b.supply = a.supply) (n : Nat) :
    b.supplyAbs n = a.supplyAbs n := by
  unfold supplyAbs
  congr 1
  apply List.map_congr_left
  intro v _
  rw [supplyOf_congr h]

theorem redCost_same {a b : NetSimplex} (hv : SameVectors a b) (e : Int) :
    b.redCost e = a.redCost e := by
  have e1 : b.cost = a.cost := hv.1 Fld.cost
  have e2 : b.source = a.source := hv.1 Fld.source
  have e3 : b.target = a.target := hv.1 Fld.target
  have e4 : b.pi = a.pi := hv.1 Fld.pi
  unfold redCost
  rw [e1, e2, e3, e4]

theorem regular_same {a b : NetSimplex} {n m : Nat} {p : Int → Int} (h : Regular a n m p)
    (hv : SameVectors a b) : Regular b n m p := by
  have e1 : b.cost = a.cost := hv.1 Fld.cost
  have e2 : b.source = a.source := hv.1 Fld.source
  have e3 : b.target = a.target := hv.1 Fld.target
  have e4 : b.supply = a.supply := hv.1 Fld.supply
  refine ⟨?_, ?_, ?_, ?_⟩
  · intro e h1 h2
    rw [srcOf_congr e2, tgtOf_congr e3]
    exact h.real_arcs e h1 h2
  · intro e h1 h2
    have ea : b.artCost = a.artCost := by unfold artCost; rw [hv.2.2.2.2.2]
    rw [srcOf_congr e2, tgtOf_congr e3, costOf_congr e1, ea]
    exact h.dummy_arcs e h1 h2
  · intro e h1 h2
    rw [costOf_congr e1, srcOf_congr e2, tgtOf_congr e3]
    exact h.dual e h1 h2
  · rw [supplyAbs_congr e4, hv.2.2.2.2.1]
    exact h.supplies

theorem optimizing_same {a b : NetSimplex} {n m : Nat} (h : Optimizing a n m)
    (hv : SameVectors a b) : Optimizing b n m := by
  obtain ⟨T, ht⟩ := h.threaded
  have hb := ht.tree_basis
  have sz : b.Sized n m := by
    refine ⟨fun f => ?_, ?_⟩
    · rw [hv.1 f]
      exact hb.sized.1 f
    · rw [hv.2.1]
      exact hb.sized.2
  have hb' : TreeBasis b n m :=
    hb.transfer sz hv.2.2.1 hv.2.2.2.1 (hv.1 Fld.parent) (hv.1 Fld.pred) (hv.1 Fld.pred_dir)
      (hv.1 Fld.source) (hv.1 Fld.target) (hv.1 Fld.succ_num)
  have ht' : Threaded b n m T :=
    ht.carry hb'.spanning (hv.1 Fld.parent) (hv.1 Fld.thread) (hv.1 Fld.rev_thread)
      (hv.1 Fld.succ_num) (hv.1 Fld.last_succ)
  have est : b.stateAt = a.stateAt := funext (stateAt_congr hv.2.1)
  have efl : b.flowAt = a.flowAt := funext (flowAt_congr (hv.1 Fld.flow))
  have epr : b.predOf = a.predOf := funext (predOf_congr (hv.1 Fld.pred))
  refine ⟨⟨T, ht'⟩, ?_, ?_, ?_, ?_, ?_, ?_⟩
  · intro e e0 em
    rw [est, epr]
    exact h.states e e0 em
  · intro e e0 em hst
    rw [redCost_same hv]
    rw [est] at hst
    exact h.reduced e e0 em hst
  · intro u u0 un
    rw [netOut_congr (hv.1 Fld.flow) (hv.1 Fld.source) (hv.1 Fld.target),
      supplyOf_congr (hv.1 Fld.supply)]
    exact h.balanced u u0 un
  · intro e e0 em hst
    rw [efl]
    rw [est] at hst
    exact h.off e e0 em hst
  · intro e
    rw [efl]
    exact h.nonneg e
  · rw [piOf_congr (hv.1 Fld.pi)]
    exact h.pi_root

theorem supplyAbs_nonneg (ns : NetSimplex) (n : Nat) : 0 ≤ ns.supplyAbs n := by
  unfold supplyAbs
  apply List.sum_nonneg
  intro v hv
  rw [List.mem_map] at hv
  obtain ⟨w, _, rfl⟩ := hv
  exact Int.natCast_nonneg _

/-- On a regular instance in the loop invariant every flow lies between 0 and `INF`, and
the flow of every tree arc is at most the sum of the absolute supplies. -/
theorem optimizing_flow_le {x : NetSimplex} {n m : Nat} {p : Int → Int}
    (hI : Optimizing x n m) (hR : Regular x n m p) :
    (∀ u : Int, 0 ≤ u → u < n → x.flowAt (x.predOf u) ≤ x.supplyAbs n) ∧
    ∀ e, 0 ≤ x.flowAt e ∧ x.flowAt e ≤ x.INF := by
  obtain ⟨T, ht⟩ := hI.threaded
  have hB : ∀ u : Int, 0 ≤ u → u < n → x.flowAt (x.predOf u) ≤ x.supplyAbs n :=
    fun u u0 un => tree_flow_bound ht hI.states hI.balanced hI.off hI.nonneg u0 un
  refine ⟨hB, fun e => ⟨hI.nonneg e, ?_⟩⟩
  have s0 := supplyAbs_nonneg x n
  have s1 := hR.supplies
  unfold INF
  by_cases he : 0 ≤ e ∧ e < m
  · by_cases hst : x.stateAt e = STATE_TREE
    · obtain ⟨u, u0, un, hu⟩ := (hI.states e he.1 he.2).1 hst
      have := hB u u0 un
      rw [hu] at this
      omega
    · rw [hI.off e he.1 he.2 hst]
      omega
  · have : x.flowAt e = 0 := by
      unfold flowAt
      have hlen : x.flow.length = m := by
        have := ht.tree_basis.sized.1 Fld.flow
        simpa [arr, Fld.isNode] using this
      by_cases e0 : 0 ≤ e
      · rw [rd_none_of_ge x.flow (by rw [hlen]; omega)]
        rfl
      · rw [rd_none_of_neg x.flow (by omega)]
        rfl
    rw [this]
    omega

/-- A pivot on a real arc of negative reduced cost that is at its lower bound keeps the
loop invariant of a regular instance. -/
theorem pivot_optimizing {x y : NetSimplex} {n m : Nat} {p : Int → Int}
    (hI : Optimizing x n m) (hR : Regular x n m p)
    (he : (n : Int) ≤ x.in_arc ∧ x.in_arc < m)
    (hin : x.stateAt x.in_arc = STATE_LOWER) (hrc : x.rcOf x.in_arc < 0)
    (h : pivot x = some y) : Optimizing y n m ∧ Regular y n m p := by
  obtain ⟨T, ht⟩ := hI.threaded
  have hb := ht.tree_basis
  obtain ⟨⟨s0, sn⟩, ⟨t0, tn⟩⟩ := hR.real_arcs _ he.1 he.2
  have hs : 0 ≤ x.srcOf x.in_arc ∧ x.srcOf x.in_arc ≤ n := ⟨s0, le_of_lt sn⟩
  have hg : 0 ≤ x.tgtOf x.in_arc ∧ x.tgtOf x.in_arc ≤ n := ⟨t0, le_of_lt tn⟩
  have he' : 0 ≤ x.in_arc ∧ x.in_arc < m := ⟨by omega, he.2⟩
  obtain ⟨hB, hfl⟩ := optimizing_flow_le hI hR
  have hbal := pivot_balanced hb hs hg hI.balanced h
  obtain ⟨a1, a2, a3, a4⟩ := pivot_arcs h
  have hMAX : y.MAX = x.MAX := (pivot_sameSize h).2.2.2.2.1
  have hCM : y.COST_MAX = x.COST_MAX := (pivot_sameSize h).2.2.2.2.2
  have h0 := h
  simp only [pivot, Option.bind_eq_bind, Option.bind_eq_some, Option.some.injEq] at h
  obtain ⟨x1, h1, ⟨r, x2⟩, h2, x3, h3, x4, h4, x5, h5, rfl⟩ := h
  obtain ⟨hr, _, hdM, hdir⟩ := pivot_regular hb hI.states hI.reduced hR.dual he' hrc hs hg
    hI.nonneg hB hR.supplies h1 h2
  subst hr
  obtain ⟨_, _, _, _, _, _, _, _, ht5⟩ := pivot_threaded ht hs hg h1 h2 h3 h4 h5
  obtain ⟨st5, rd5, hpi⟩ := pivot_reduced ht hI.states hI.reduced hin hs hg h1 h2 h3 h4 h5
  obtain ⟨sp4, _, _, f43, hoff4⟩ := pivot_states hb hI.states hin hs hg h1 h2 h3 h4
  have hne : ∀ u : Int, 0 ≤ u → u < n → x.predOf u ≠ x.in_arc := by
    intro u u0 un e
    have : x.stateAt x.in_arc = STATE_TREE := (hI.states _ he'.1 he'.2).2 ⟨u, u0, un, e⟩
    rw [hin] at this
    exact absurd this (by decide)
  obtain ⟨_, _, hl0, _⟩ := leaving_flow hb hs hg hne hfl h1 h2 hdM h3
  have k5 : Writes [Fld.pi] x4 x5 := updatePotential_writes h5
  have f54 : x5.flow = x4.flow := k5.vec Fld.flow (by decide)
  have s54 : x5.state = x4.state := k5.2
  have nn3 := changeFlow_nonneg hb hs hg hI.nonneg h1 h2 h3
  have I5 : Optimizing x5 n m := by
    refine ⟨⟨_, ht5⟩, st5, rd5, ?_, ?_, ?_, ?_⟩
    · intro u u0 un
      have := hbal u u0 un
      exact this
    · intro e e0 em hst
      rw [flowAt_congr f54]
      rw [stateAt_congr s54] at hst
      by_cases hev : e = x.predOf x2.u_out
      · rw [hev, f43]
        exact hl0 hdir
      · obtain ⟨g1, g2⟩ := hoff4 e e0 em hst hev
        rw [g1]
        exact hI.off e e0 em (by rw [g2]; decide)
    · intro e
      rw [flowAt_congr f54, f43]
      exact nn3 e
    · obtain ⟨_, ⟨ui0, uin⟩, _, _⟩ := pivot_ends hb hs hg h1 h2 h3
      have hnot : ¬ x4.Anc x2.u_in n := by
        intro ha
        have := sp4.anc_root ui0 ha
        omega
      rw [(hpi n).2 hnot]
      exact hI.pi_root
  refine ⟨optimizing_same I5 (sameVectors_iterations x5 _), ?_⟩
  refine ⟨?_, ?_, ?_, ?_⟩
  · intro e h1 h2
    rw [srcOf_congr a1, tgtOf_congr a2]
    exact hR.real_arcs e h1 h2
  · intro e h1 h2
    have ea : ({ x5 with iterations := x5.iterations + 1 } : NetSimplex).artCost = x.artCost := by
      unfold artCost
      rw [hCM]
    rw [srcOf_congr a1, tgtOf_congr a2, costOf_congr a3, ea]
    exact hR.dummy_arcs e h1 h2
  · intro e h1 h2
    rw [costOf_congr a3, srcOf_congr a1, tgtOf_congr a2]
    exact hR.dual e h1 h2
  · rw [supplyAbs_congr a4, hMAX]
    exact hR.supplies

end NetSimplex

/-! ## The pivot loop keeps its invariant -/

namespace NetSimplex

theorem stateAt_read {x : NetSimplex} {n m : Nat} (hs : Sized x n m) {e : Int} (e0 : 0 ≤ e)
    (em : e < m) : rd x.state e = some (x.stateAt e) := by
  obtain ⟨v, hv⟩ := @rd_of_range Bool x.state e e0 (by rw [hs.2]; exact em)
  unfold stateAt
  rw [hv]
  rfl

/-- The signed reduced cost of a real arc of a regular instance. -/
theorem signedRedCost_read {x : NetSimplex} {n m : Nat} {p : Int → Int} (hs : Sized x n m)
    (hR : Regular x n m p) {e : Int} (he : (n : Int) ≤ e) (em : e < m) :
    x.signedRedCost e = some ((if x.stateAt e then 1 else 0) * x.rcOf e) := by
  have e0 : 0 ≤ e := by omega
  obtain ⟨⟨s0, sn⟩, ⟨t0, tn⟩⟩ := hR.real_arcs e he em
  have h1 := redCost_read hs e0 em ⟨s0, le_of_lt sn⟩ ⟨t0, le_of_lt tn⟩
  unfold signedRedCost
  rw [stateAt_read hs e0 em, h1]
  rfl

/-- The pivot loop keeps the loop invariant of a regular instance. -/
theorem startLoop_optimizing {n m : Nat} {q : Int → Int} : ∀ (fuel : Nat)
    (p : BlockSearchPivotRule) (x y : NetSimplex) (st : ProblemType),
    startLoop fuel p x = some (st, y) →
    Optimizing x n m → Regular x n m q → p.dummy_arc = n → p.arc_num = m →
    (n : Int) ≤ p.next_arc → p.next_arc ≤ m → 1 ≤ p.block_size →
    Optimizing y n m ∧ Regular y n m q := by
  intro fuel
  induction fuel with
  | zero => intro p x y st h; simp [startLoop] at h
  | succ fuel ih =>
    intro p x y st h hI hR pd pa pn1 pn2 pb
    obtain ⟨T, ht⟩ := hI.threaded
    have hs := ht.tree_basis.sized
    have hread : ∀ j : Int, p.dummy_arc ≤ j → j < p.arc_num →
        ∃ c, x.signedRedCost j = some c := by
      intro j j1 j2
      rw [pd] at j1
      rw [pa] at j2
      exact ⟨_, signedRedCost_read hs hR j1 j2⟩
    rcases BlockSearchPivotRule.findEnteringArc_scan p x (by rw [pd]; exact pn1)
      (by rw [pa]; exact pn2) pb hread with ⟨e1, _⟩ | ⟨a, e1, g⟩
    · rw [startLoop_stop e1] at h
      obtain ⟨_, rfl⟩ := Prod.mk.inj (Option.some.inj h)
      exact ⟨hI, hR⟩
    · obtain ⟨m1, m2⟩ := g.mem
      obtain ⟨a1, a2⟩ := (BlockSearchPivotRule.mem_scanOrder (by rw [pd]; exact pn1)
        (by rw [pa]; exact pn2) a).1 m1
      rw [pd] at a1
      rw [pa] at a2
      have hsg := signedRedCost_read hs hR a1 a2
      rw [signedOf_eq hsg] at m2
      have hlow : x.stateAt a = STATE_LOWER := by
        cases hst : x.stateAt a with
        | true => rfl
        | false =>
          rw [hst] at m2
          simp at m2
      have hrc : x.rcOf a < 0 := by
        rw [hlow] at m2
        simpa [STATE_LOWER] using m2
      have hv := sameVectors_in_arc x a
      have hI' := optimizing_same hI hv
      have hR' := regular_same hR hv
      have h' := h
      simp only [startLoop, Option.bind_eq_bind, e1, Option.some_bind, if_true,
        Option.bind_eq_some] at h'
      obtain ⟨b, hp, hrest⟩ := h'
      have hin' : ({ x with in_arc := a } : NetSimplex).stateAt
          ({ x with in_arc := a } : NetSimplex).in_arc = STATE_LOWER := hlow
      have hrc' : ({ x with in_arc := a } : NetSimplex).rcOf
          ({ x with in_arc := a } : NetSimplex).in_arc < 0 := hrc
      obtain ⟨hIb, hRb⟩ := pivot_optimizing hI' hR' ⟨a1, a2⟩ hin' hrc' hp
      exact ih { p with next_arc := a } b y st hrest hIb hRb pd pa a1 (le_of_lt a2) pb

/-- The solver prepared by `run` on an instance with a feasible potential `p`, real arcs
between real nodes and small supplies: the star basis satisfies the loop invariant. -/
theorem prepared_optimizing (ns : NetSimplex) (n m : Nat) (p : Int → Int)
    (hs : Sized ns n m)
    (hnn : ns.node_num = n) (han : ns.arc_num = m) (hn1 : 1 ≤ n) (hnm : n ≤ m)
    (hreal : ∀ e : Int, (n : Int) ≤ e → e < m →
      (0 ≤ ns.srcOf e ∧ ns.srcOf e < n) ∧ (0 ≤ ns.tgtOf e ∧ ns.tgtOf e < n))
    (hpot : ∀ v : Int, 0 ≤ v → v < n → p n ≤ p v ∧ p v ≤ p n + ns.artCost)
    (hcost : ∀ e : Int, (n : Int) ≤ e → e < m →
      0 ≤ ns.costOf e + p (ns.srcOf e) - p (ns.tgtOf e))
    (hsup : 2 * ns.supplyAbs n < ns.MAX) :
    ∃ A, ns.prepared = some A ∧ Optimizing A n m ∧ Regular A n m p ∧
      (∀ e : Int, (n : Int) ≤ e → e < m →
        A.srcOf e = ns.srcOf e ∧ A.tgtOf e = ns.tgtOf e ∧ A.costOf e = ns.costOf e) ∧
      (∀ u : Int, 0 ≤ u → u < n → A.supplyOf u = ns.supplyOf u) ∧
      A.artCost = ns.artCost := by
  obtain ⟨A, hp, ht, hst, hz⟩ := prepared_reduced ns n m hs hnn han hn1 hnm
  obtain ⟨A2, hp2, hbal, hsupp⟩ := prepared_balanced ns n m hs hnn han hn1 hnm
  obtain ⟨A3, hp3, _, _, hoff⟩ := prepared_states ns n m hs hnn han hn1 hnm
  obtain ⟨A4, hp4, hnn4⟩ := prepared_flow_nonneg ns n m hs hnn han hn1 hnm
  have e2 : A2 = A := Option.some.inj (hp2.symm.trans hp)
  have e3 : A3 = A := Option.some.inj (hp3.symm.trans hp)
  have e4 : A4 = A := Option.some.inj (hp4.symm.trans hp)
  subst e2 e3 e4
  have hp' := hp
  simp only [prepared, Option.bind_eq_bind, Option.bind_eq_some, Option.some.injEq] at hp'
  obtain ⟨x1, hr, ⟨ok, A'⟩, hi, rfl⟩ := hp'
  have hm : ns.arc_num.toNat = m := by rw [han]; simp
  have hs1 : Sized x1 n m := by
    obtain ⟨k1, _, _⟩ := runReset_frame _ _ _ _ hr
    exact k1.sized (sized_iterations hs 0)
  have hn1' : x1.node_num = n :=
    (runReset_sameSize _ _ { ns with iterations := 0 } x1 hr).1.trans hnn
  obtain ⟨A'', hA'', _⟩ := init_ok x1 n m hs1 hn1' hn1 hnm
  rw [hi] at hA''
  have hok : ok = true := (Prod.mk.inj (Option.some.inj hA'')).1
  subst hok
  obtain ⟨sA, ssA, rA, _, RA, NA, EA, _, _⟩ :=
    run_prepared n m ns x1 A' hs hnn han hn1 hnm hr hi
  have hsrc : ∀ e : Int, (n : Int) ≤ e → e < m →
      A'.srcOf e = ns.srcOf e ∧ A'.tgtOf e = ns.tgtOf e ∧ A'.costOf e = ns.costOf e := by
    intro e e1 e2
    obtain ⟨q1, q2, q3, _⟩ := EA e e1 e2
    refine ⟨?_, ?_, ?_⟩
    · unfold srcOf
      rw [q1]
    · unfold tgtOf
      rw [q2]
    · unfold costOf
      rw [q3]
  have hdum : ∀ e : Int, 0 ≤ e → e < n →
      (A'.srcOf e = e ∧ A'.tgtOf e = n ∧ A'.costOf e = 0) ∨
      (A'.srcOf e = n ∧ A'.tgtOf e = e ∧ A'.costOf e = ns.artCost) := by
    intro e e0 en
    obtain ⟨c, _, _, sn⟩ := NA e e0 en
    obtain ⟨_, _, _, _, _, _, _, _, _, s10, s11, _, s13⟩ := sn
    rw [rA] at s10 s11
    have g1 := srcOf_eq s10
    have g2 := tgtOf_eq s11
    have g3 : A'.costOf e = if c ≥ 0 then 0 else ns.artCost := by
      unfold costOf
      rw [s13]
      rfl
    by_cases hc : c ≥ 0
    · rw [if_pos hc] at g1 g2 g3
      exact Or.inl ⟨g1, g2, g3⟩
    · rw [if_neg hc] at g1 g2 g3
      exact Or.inr ⟨g1, g2, g3⟩
  have hflow : ∀ e, 0 ≤ A'.flowAt e := by
    intro e
    unfold flowAt
    cases hrd : rd A'.flow e with
    | none => simp
    | some v =>
      have hmem : v ∈ A'.flow := by
        obtain ⟨_, h2⟩ := rd_eq_some.1 hrd
        exact List.getElem?_mem h2
      simpa using hnn4 v hmem
  have hpi : A'.piOf n = 0 := by
    have := RA.2.2.2.2.2.2.2
    rw [rA] at this
    unfold piOf
    rw [this]
    rfl
  have hsa : A'.supplyAbs n = ns.supplyAbs n := by
    unfold supplyAbs
    congr 1
    apply List.map_congr_left
    intro v hv
    have hvn : v < n := List.mem_range.1 hv
    rw [hsupp (v : Int) (Int.natCast_nonneg v) (by exact_mod_cast hvn)]
  have hartA : A'.artCost = ns.artCost := by
    unfold artCost
    rw [ssA.2.2.2.2.2]
  refine ⟨A', hp, ⟨⟨_, ht⟩, hst, hz, hbal, fun e e0 em h => (hoff e e0 em h).2, hflow, hpi⟩,
    ⟨?_, fun e e0 en => by rw [hartA]; exact hdum e e0 en, ?_, ?_⟩, hsrc, hsupp, hartA⟩
  · intro e e1 e2
    obtain ⟨q1, q2, _⟩ := hsrc e e1 e2
    rw [q1, q2]
    exact hreal e e1 e2
  · intro e e0 em
    by_cases hen : e < n
    · obtain ⟨p1, p2⟩ := hpot e e0 hen
      rcases hdum e e0 hen with ⟨s, t, h⟩ | ⟨s, t, h⟩
      · rw [s, t, h]
        omega
      · rw [s, t, h]
        omega
    · obtain ⟨q1, q2, q3⟩ := hsrc e (by omega) em
      rw [q1, q2, q3]
      exact hcost e (by omega) em
  · rw [hsa, ssA.2.2.2.2.1]
    exact hsup

end NetSimplex

/-! ## Weak duality at the end of the loop -/

namespace NetSimplex

/-- What a `run` that returns leaves on an instance with a feasible potential `p`, real
arcs between real nodes and small supplies: the status is OPTIMAL, the loop invariant holds,
no real arc at its lower bound has a negative reduced cost, and the instance data are
kept. -/
theorem run_optimizing (fuel n m : Nat) (ns y : NetSimplex) (st : ProblemType)
    (p : Int → Int)
    (hs : Sized ns n m) (hnn : ns.node_num = n) (han : ns.arc_num = m)
    (hdn : ns.dummy_arc = n) (hx : (n : Int) ≤ ns.next_arc ∧ ns.next_arc ≤ m) (hn1 : 1 ≤ n)
    (hreal : ∀ e : Int, (n : Int) ≤ e → e < m →
      (0 ≤ ns.srcOf e ∧ ns.srcOf e < n) ∧ (0 ≤ ns.tgtOf e ∧ ns.tgtOf e < n))
    (hpot : ∀ v : Int, 0 ≤ v → v < n → p n ≤ p v ∧ p v ≤ p n + ns.artCost)
    (hcost : ∀ e : Int, (n : Int) ≤ e → e < m →
      0 ≤ ns.costOf e + p (ns.srcOf e) - p (ns.tgtOf e))
    (hsup : 2 * ns.supplyAbs n < ns.MAX)
    (h : run fuel ns = some (st, y)) :
    st = ProblemType.OPTIMAL ∧ Optimizing y n m ∧ Regular y n m p ∧
      (∀ e : Int, (n : Int) ≤ e → e < m → y.stateAt e = STATE_LOWER → 0 ≤ y.rcOf e) ∧
      (∀ e : Int, (n : Int) ≤ e → e < m →
        y.srcOf e = ns.srcOf e ∧ y.tgtOf e = ns.tgtOf e ∧ y.costOf e = ns.costOf e) ∧
      (∀ u : Int, 0 ≤ u → u < n → y.supplyOf u = ns.supplyOf u) ∧
      y.artCost = ns.artCost ∧ y.dummy_arc = n ∧ y.arc_num = m := by
  have hnm : n ≤ m := by omega
  obtain ⟨x1, A, hr, hi, hl⟩ := run_split fuel n m ns y st hs hnn hn1 hnm h
  obtain ⟨A', hp, hI, hR, hsrc, hsupp, hart⟩ :=
    prepared_optimizing ns n m p hs hnn han hn1 hnm hreal hpot hcost hsup
  have hpA : ns.prepared = some A := by
    simp only [prepared, Option.bind_eq_bind, hr, Option.some_bind, hi]
  have eA : A' = A := Option.some.inj (hp.symm.trans hpA)
  subst eA
  obtain ⟨_, ssA, _⟩ := run_prepared n m ns x1 A' hs hnn han hn1 hnm hr hi
  have pd : (BlockSearchPivotRule.create A').dummy_arc = n := by
    show A'.dummy_arc = n
    rw [ssA.2.2.1, hdn]
  have pa : (BlockSearchPivotRule.create A').arc_num = m := by
    show A'.arc_num = m
    rw [ssA.2.1, han]
  have pn : (BlockSearchPivotRule.create A').next_arc = ns.next_arc := ssA.2.2.2.1
  have pb : 1 ≤ (BlockSearchPivotRule.create A').block_size :=
    le_max_of_le_right (by norm_num)
  obtain ⟨hIy, hRy⟩ := startLoop_optimizing fuel _ A' y st hl hI hR pd pa
    (by rw [pn]; exact hx.1) (by rw [pn]; exact hx.2) pb
  obtain ⟨hst, hsig⟩ := NetSimplex.startLoop_optimal fuel _ A' y st hl
  obtain ⟨k1, _, _⟩ := startLoop_keeps fuel _ A' y st hl
  have ssy := startLoop_sameSize fuel _ A' y st hl
  obtain ⟨T, ht⟩ := hIy.threaded
  have hsy := ht.tree_basis.sized
  have q1 : y.source = A'.source := k1 Fld.source (by decide)
  have q2 : y.target = A'.target := k1 Fld.target (by decide)
  have q3 : y.cost = A'.cost := k1 Fld.cost (by decide)
  have q4 : y.supply = A'.supply := k1 Fld.supply (by decide)
  refine ⟨hst, hIy, hRy, ?_, ?_, ?_, ?_, by rw [ssy.2.2.1]; exact pd, by rw [ssy.2.1]; exact pa⟩
  · intro e e1 e2 hlow
    obtain ⟨r, hr1, hr2⟩ := hsig e (by rw [pd]; exact e1) (by rw [pa]; exact e2)
    rw [signedRedCost_read hsy hRy e1 e2, hlow] at hr1
    have : r = y.rcOf e := by
      have := Option.some.inj hr1
      simpa [STATE_LOWER] using this.symm
    rw [← this]
    exact hr2
  · intro e e1 e2
    obtain ⟨g1, g2, g3⟩ := hsrc e e1 e2
    rw [srcOf_congr q1, tgtOf_congr q2, costOf_congr q3]
    exact ⟨g1, g2, g3⟩
  · intro u u0 un
    rw [supplyOf_congr q4]
    exact hsupp u u0 un
  · have : y.artCost = A'.artCost := by
      unfold artCost
      rw [ssy.2.2.2.2.2]
    rw [this, hart]

theorem sum_pick_node (n : Nat) (pi : Int → Int) {s : Int} (s0 : 0 ≤ s) (sn : s ≤ n) :
    Finset.sum (Finset.range (n + 1))
      (fun v : Nat => pi (v : Int) * (if s = (v : Int) then 1 else 0)) = pi s := by
  have := sum_arc_pick (n + 1) pi 1 s0 (by push_cast; omega)
  rw [one_mul] at this
  rw [← this]
  apply Finset.sum_congr rfl
  intro v _
  ring

/-- Summation by parts over the arcs: the sum over the nodes `0..n` of a potential times the
net outflow of a flow `h` is the sum over the arcs of the flow times the difference of the
potential along the arc. -/
theorem sum_potential (x : NetSimplex) (n m : Nat) (pi h : Int → Int)
    (hends : ∀ e : Nat, e < m →
      (0 ≤ x.srcOf e ∧ x.srcOf e ≤ n) ∧ (0 ≤ x.tgtOf e ∧ x.tgtOf e ≤ n)) :
    Finset.sum (Finset.range (n + 1)) (fun v : Nat =>
      pi (v : Int) * Finset.sum (Finset.range m) (fun e : Nat => h e * x.incid v e)) =
    Finset.sum (Finset.range m) (fun e : Nat => h e * (pi (x.srcOf e) - pi (x.tgtOf e))) := by
  have e1 : ∀ v ∈ Finset.range (n + 1),
      pi ((v : Nat) : Int) * Finset.sum (Finset.range m) (fun e : Nat => h e * x.incid v e) =
      Finset.sum (Finset.range m) (fun e : Nat => pi (v : Int) * (h e * x.incid v e)) := by
    intro v _
    rw [Finset.mul_sum]
  rw [Finset.sum_congr rfl e1, Finset.sum_comm]
  apply Finset.sum_congr rfl
  intro e he
  obtain ⟨⟨s0, sn⟩, ⟨t0, tn⟩⟩ := hends e (Finset.mem_range.1 he)
  have e2 : ∀ v ∈ Finset.range (n + 1),
      pi ((v : Nat) : Int) * (h e * x.incid v e) =
      h e * (pi (v : Int) * (if x.srcOf e = (v : Int) then 1 else 0) -
        pi (v : Int) * (if x.tgtOf e = (v : Int) then 1 else 0)) := by
    intro v _
    unfold incid
    ring
  rw [Finset.sum_congr rfl e2, ← Finset.mul_sum, Finset.sum_sub_distrib,
    sum_pick_node n pi s0 sn, sum_pick_node n pi t0 tn]

theorem sum_real (n m : Nat) (hnm : n ≤ m) (a : Int → Int) :
    Finset.sum (Finset.range m) (fun e : Nat => if ((e : Nat) : Int) < n then 0 else a e) =
      Finset.sum (Finset.range (m - n)) (fun i : Nat => a ((n : Int) + (i : Int))) := by
  obtain ⟨k, rfl⟩ : ∃ k, m = n + k := ⟨m - n, by omega⟩
  rw [Finset.sum_range_add, Nat.add_sub_cancel_left]
  have z : Finset.sum (Finset.range n)
      (fun e : Nat => if ((e : Nat) : Int) < n then 0 else a e) = 0 := by
    apply Finset.sum_eq_zero
    intro e he
    have : ((e : Nat) : Int) < n := by exact_mod_cast Finset.mem_range.1 he
    rw [if_pos this]
  rw [z, zero_add]
  apply Finset.sum_congr rfl
  intro i _
  have : ¬ (((n + i : Nat) : Int) < n) := by push_cast; omega
  rw [if_neg this]
  push_cast
  rfl

theorem realOut_eq (x : NetSimplex) (n m : Nat) (hnm : n ≤ m) (g : Int → Int) (u : Int) :
    x.realOut n m g u = Finset.sum (Finset.range m) (fun e : Nat =>
      (if ((e : Nat) : Int) < n then 0 else g e) * x.incid u e) := by
  unfold realOut
  rw [list_sum_range, ← sum_real n m hnm (fun e => g e * x.incid u e)]
  apply Finset.sum_congr rfl
  intro e _
  split_ifs <;> ring

theorem realCost_eq (x : NetSimplex) (n m : Nat) (hnm : n ≤ m) (g : Int → Int) :
    x.realCost n m g = Finset.sum (Finset.range m) (fun e : Nat =>
      x.costOf e * (if ((e : Nat) : Int) < n then 0 else g e)) := by
  unfold realCost
  rw [list_sum_range, ← sum_real n m hnm (fun e => x.costOf e * g e)]
  apply Finset.sum_congr rfl
  intro e _
  split_ifs <;> ring

theorem regular_ends {x : NetSimplex} {n m : Nat} {p : Int → Int} (hR : Regular x n m p) :
    ∀ e : Nat, e < m →
      (0 ≤ x.srcOf e ∧ x.srcOf e ≤ n) ∧ (0 ≤ x.tgtOf e ∧ x.tgtOf e ≤ n) := by
  intro e em
  have em' : ((e : Nat) : Int) < m := by exact_mod_cast em
  have e0 : (0 : Int) ≤ (e : Int) := Int.natCast_nonneg e
  by_cases hen : ((e : Nat) : Int) < n
  · rcases hR.dummy_arcs e e0 hen with ⟨s, t, _⟩ | ⟨s, t, _⟩
    · rw [s, t]
      omega
    · rw [s, t]
      omega
  · obtain ⟨⟨s0, sn⟩, ⟨t0, tn⟩⟩ := hR.real_arcs e (by omega) em'
    omega

/-- Weak duality at the end of the loop: the cost of the flows of all arcs, dummy arcs
included, is at most the cost of any non-negative flow on the real arcs that meets the
supplies. -/
theorem dual_bound {y : NetSimplex} {n m : Nat} {p : Int → Int} (hI : Optimizing y n m)
    (hR : Regular y n m p) (hnm : n ≤ m)
    (hopt : ∀ e : Int, (n : Int) ≤ e → e < m → y.stateAt e = STATE_LOWER → 0 ≤ y.rcOf e)
    (g : Int → Int) (g0 : ∀ e : Int, (n : Int) ≤ e → e < m → 0 ≤ g e)
    (gb : ∀ u : Int, 0 ≤ u → u < n → y.realOut n m g u = y.supplyOf u) :
    Finset.sum (Finset.range m) (fun e : Nat => y.costOf e * y.flowAt e) ≤
      y.realCost n m g := by
  let G : Int → Int := fun e => if e < n then 0 else g e
  let h : Int → Int := fun e => G e - y.flowAt e
  have hA : 0 ≤ Finset.sum (Finset.range m) (fun e : Nat => h e * y.rcOf e) := by
    apply Finset.sum_nonneg
    intro e he
    have em : ((e : Nat) : Int) < m := by exact_mod_cast Finset.mem_range.1 he
    have e0 : (0 : Int) ≤ (e : Int) := Int.natCast_nonneg e
    by_cases hst : y.stateAt e = STATE_TREE
    · have := redCost_value (hI.reduced e e0 em hst)
      have hz : y.rcOf e = 0 := by unfold rcOf; omega
      rw [hz, mul_zero]
    · have hlow : y.stateAt e = STATE_LOWER := by
        cases hs : y.stateAt e with
        | true => rfl
        | false => exact absurd hs hst
      have hf := hI.off e e0 em hst
      show 0 ≤ ((if ((e : Nat) : Int) < n then 0 else g e) - y.flowAt e) * y.rcOf e
      rw [hf, sub_zero]
      by_cases hen : ((e : Nat) : Int) < n
      · rw [if_pos hen, zero_mul]
      · rw [if_neg hen]
        exact mul_nonneg (g0 e (by omega) em) (hopt e (by omega) em hlow)
  have hB : Finset.sum (Finset.range m) (fun e : Nat => h e * y.rcOf e) =
      Finset.sum (Finset.range m) (fun e : Nat => h e * y.costOf e) +
      Finset.sum (Finset.range m)
        (fun e : Nat => h e * (y.piOf (y.srcOf e) - y.piOf (y.tgtOf e))) := by
    rw [← Finset.sum_add_distrib]
    apply Finset.sum_congr rfl
    intro e _
    unfold rcOf
    ring
  have hC : Finset.sum (Finset.range m)
      (fun e : Nat => h e * (y.piOf (y.srcOf e) - y.piOf (y.tgtOf e))) = 0 := by
    rw [← sum_potential y n m y.piOf h (regular_ends hR)]
    apply Finset.sum_eq_zero
    intro v hv
    have hvn : v ≤ n := by
      have := Finset.mem_range.1 hv
      omega
    by_cases hlt : v < n
    · have v0 : (0 : Int) ≤ (v : Int) := Int.natCast_nonneg v
      have vn : ((v : Nat) : Int) < n := by exact_mod_cast hlt
      have s1 : Finset.sum (Finset.range m) (fun e : Nat => h e * y.incid v e) =
          y.realOut n m g v - y.netOut m v := by
        rw [realOut_eq y n m hnm, netOut_eq, ← Finset.sum_sub_distrib]
        apply Finset.sum_congr rfl
        intro e _
        show ((if ((e : Nat) : Int) < n then 0 else g e) - y.flowAt e) * y.incid v e = _
        ring
      rw [s1, gb v v0 vn, hI.balanced v v0 vn, sub_self, mul_zero]
    · have : v = n := by omega
      rw [this, hI.pi_root, zero_mul]
  have hD : Finset.sum (Finset.range m) (fun e : Nat => h e * y.costOf e) =
      y.realCost n m g -
        Finset.sum (Finset.range m) (fun e : Nat => y.costOf e * y.flowAt e) := by
    rw [realCost_eq y n m hnm, ← Finset.sum_sub_distrib]
    apply Finset.sum_congr rfl
    intro e _
    show ((if ((e : Nat) : Int) < n then 0 else g e) - y.flowAt e) * y.costOf e = _
    ring
  rw [hB, hC, add_zero, hD] at hA
  omega

end NetSimplex

/-! ## Optimality and the dummy arcs -/

namespace NetSimplex

theorem realOut_congr {a b : NetSimplex} (n m : Nat)
    (h : ∀ e : Int, (n : Int) ≤ e → e < m → b.srcOf e = a.srcOf e ∧ b.tgtOf e = a.tgtOf e)
    (g : Int → Int) (u : Int) : b.realOut n m g u = a.realOut n m g u := by
  unfold realOut
  congr 1
  apply List.map_congr_left
  intro i hi
  have hi' : i < m - n := List.mem_range.1 hi
  obtain ⟨h1, h2⟩ := h ((n : Int) + (i : Int)) (by omega) (by omega)
  unfold incid
  rw [h1, h2]

theorem realCost_congr {a b : NetSimplex} (n m : Nat)
    (h : ∀ e : Int, (n : Int) ≤ e → e < m → b.costOf e = a.costOf e)
    (g : Int → Int) : b.realCost n m g = a.realCost n m g := by
  unfold realCost
  congr 1
  apply List.map_congr_left
  intro i hi
  have hi' : i < m - n := List.mem_range.1 hi
  rw [h ((n : Int) + (i : Int)) (by omega) (by omega)]

/-- At the end of the loop, when the dummy arcs carry no flow, the flows of the real arcs
meet the supplies and cost no more than any non-negative flow that meets them. -/
theorem optimal_of_dummy_zero {y : NetSimplex} {n m : Nat} {p : Int → Int}
    (hI : Optimizing y n m) (hR : Regular y n m p) (hnm : n ≤ m)
    (hopt : ∀ e : Int, (n : Int) ≤ e → e < m → y.stateAt e = STATE_LOWER → 0 ≤ y.rcOf e)
    (hd : ∀ e : Int, 0 ≤ e → e < n → y.flowAt e = 0) :
    (∀ u : Int, 0 ≤ u → u < n → y.realOut n m y.flowAt u = y.supplyOf u) ∧
    ∀ g : Int → Int, (∀ e : Int, (n : Int) ≤ e → e < m → 0 ≤ g e) →
      (∀ u : Int, 0 ≤ u → u < n → y.realOut n m g u = y.supplyOf u) →
      y.realCost n m y.flowAt ≤ y.realCost n m g := by
  have hz : ∀ e : Nat, (if ((e : Nat) : Int) < n then 0 else y.flowAt e) = y.flowAt e := by
    intro e
    by_cases h : ((e : Nat) : Int) < n
    · rw [if_pos h, hd e (Int.natCast_nonneg e) h]
    · rw [if_neg h]
  refine ⟨?_, ?_⟩
  · intro u u0 un
    rw [realOut_eq y n m hnm, ← hI.balanced u u0 un, netOut_eq]
    apply Finset.sum_congr rfl
    intro e _
    rw [hz]
  · intro g g0 gb
    have := dual_bound hI hR hnm hopt g g0 gb
    rw [realCost_eq y n m hnm y.flowAt]
    have e1 : Finset.sum (Finset.range m) (fun e : Nat =>
        y.costOf e * (if ((e : Nat) : Int) < n then 0 else y.flowAt e)) =
        Finset.sum (Finset.range m) (fun e : Nat => y.costOf e * y.flowAt e) := by
      apply Finset.sum_congr rfl
      intro e _
      rw [hz]
    rw [e1]
    exact this

/-- At the end of the loop, when some non-negative flow on the real arcs meets the supplies
at a cost below the artificial cost, no dummy arc carries flow. -/
theorem dummy_zero {y : NetSimplex} {n m : Nat} (hI : Optimizing y n m)
    (hR : Regular y n m (fun _ => 0)) (hnm : n ≤ m)
    (hopt : ∀ e : Int, (n : Int) ≤ e → e < m → y.stateAt e = STATE_LOWER → 0 ≤ y.rcOf e)
    (g : Int → Int) (g0 : ∀ e : Int, (n : Int) ≤ e → e < m → 0 ≤ g e)
    (gb : ∀ u : Int, 0 ≤ u → u < n → y.realOut n m g u = y.supplyOf u)
    (hlt : y.realCost n m g < y.artCost) :
    ∀ e : Int, 0 ≤ e → e < n → y.flowAt e = 0 := by
  have hdb := dual_bound hI hR hnm hopt g g0 gb
  have hcosts : ∀ e : Int, 0 ≤ e → e < m → 0 ≤ y.costOf e := by
    intro e e0 em
    have := hR.dual e e0 em
    omega
  -- the arcs root -> e carry no flow
  have sink : ∀ e : Int, 0 ≤ e → e < n → y.costOf e = y.artCost → y.flowAt e = 0 := by
    intro e e0 en hc
    obtain ⟨k, rfl⟩ : ∃ k : Nat, e = k := ⟨e.toNat, by omega⟩
    have km : k < m := by omega
    have hle : y.costOf k * y.flowAt k ≤
        Finset.sum (Finset.range m) (fun e : Nat => y.costOf e * y.flowAt e) := by
      apply @Finset.single_le_sum Nat Int _ (fun e : Nat => y.costOf e * y.flowAt e)
        (Finset.range m)
      · intro i hi
        have im : ((i : Nat) : Int) < m := by exact_mod_cast Finset.mem_range.1 hi
        exact mul_nonneg (hcosts i (Int.natCast_nonneg i) im) (hI.nonneg i)
      · exact Finset.mem_range.2 km
    have a0 : 0 ≤ y.artCost := by
      rw [← hc]
      exact hcosts k e0 (by omega)
    have f0 := hI.nonneg (k : Int)
    rw [hc] at hle
    by_contra hne
    have f1 : 1 ≤ y.flowAt k := by omega
    have : y.artCost * 1 ≤ y.artCost * y.flowAt k := mul_le_mul_of_nonneg_left f1 a0
    omega
  -- the sum of the supplies is zero
  let G : Int → Int := fun e => if e < n then 0 else g e
  have one_G := sum_potential y n m (fun _ => 1) G (regular_ends hR)
  have one_F := sum_potential y n m (fun _ => 1) y.flowAt (regular_ends hR)
  simp only [sub_self, mul_zero, Finset.sum_const_zero, one_mul] at one_G one_F
  rw [Finset.sum_range_succ] at one_G one_F
  have real_off : ∀ e : Nat, e < m → ¬ ((e : Nat) : Int) < n → y.incid n e = 0 := by
    intro e em hen
    have em' : ((e : Nat) : Int) < m := by exact_mod_cast em
    obtain ⟨⟨_, sn⟩, ⟨_, tn⟩⟩ := hR.real_arcs e (by omega) em'
    unfold incid
    rw [if_neg (by omega), if_neg (by omega)]
    rfl
  have Gn : Finset.sum (Finset.range m) (fun e : Nat => G e * y.incid n e) = 0 := by
    apply Finset.sum_eq_zero
    intro e he
    show (if ((e : Nat) : Int) < n then 0 else g e) * y.incid n e = 0
    by_cases hen : ((e : Nat) : Int) < n
    · rw [if_pos hen, zero_mul]
    · rw [real_off e (Finset.mem_range.1 he) hen, mul_zero]
  have Gsum : Finset.sum (Finset.range n) (fun v : Nat =>
      Finset.sum (Finset.range m) (fun e : Nat => G e * y.incid v e)) =
      Finset.sum (Finset.range n) (fun v : Nat => y.supplyOf v) := by
    apply Finset.sum_congr rfl
    intro v hv
    have vn : ((v : Nat) : Int) < n := by exact_mod_cast Finset.mem_range.1 hv
    rw [← gb v (Int.natCast_nonneg v) vn, realOut_eq y n m hnm]
  have Fsum : Finset.sum (Finset.range n) (fun v : Nat =>
      Finset.sum (Finset.range m) (fun e : Nat => y.flowAt e * y.incid v e)) =
      Finset.sum (Finset.range n) (fun v : Nat => y.supplyOf v) := by
    apply Finset.sum_congr rfl
    intro v hv
    have vn : ((v : Nat) : Int) < n := by exact_mod_cast Finset.mem_range.1 hv
    rw [← hI.balanced v (Int.natCast_nonneg v) vn, netOut_eq]
  rw [Gn, Gsum, add_zero] at one_G
  rw [Fsum, one_G, zero_add] at one_F
  -- every term of the balance at the root is non-positive
  have term : ∀ e ∈ Finset.range m, y.flowAt (e : Nat) * y.incid n (e : Nat) ≤ 0 := by
    intro e he
    have em := Finset.mem_range.1 he
    by_cases hen : ((e : Nat) : Int) < n
    · rcases hR.dummy_arcs e (Int.natCast_nonneg e) hen with ⟨s, t, _⟩ | ⟨_, _, c⟩
      · unfold incid
        rw [s, t, if_neg (by omega), if_pos rfl]
        have := hI.nonneg (e : Int)
        omega
      · rw [sink e (Int.natCast_nonneg e) hen c, zero_mul]
    · rw [real_off e em hen, mul_zero]
  have all0 := (Finset.sum_eq_zero_iff_of_nonpos term).1 one_F
  intro e e0 en
  obtain ⟨k, rfl⟩ : ∃ k : Nat, e = k := ⟨e.toNat, by omega⟩
  rcases hR.dummy_arcs k e0 en with ⟨s, t, _⟩ | ⟨_, _, c⟩
  · have := all0 k (Finset.mem_range.2 (by omega))
    unfold incid at this
    rw [s, t, if_neg (by omega), if_pos rfl] at this
    omega
  · exact sink k e0 en c

/-- The value of `totalCost()` on a regular instance: the cost of the flows of the real
arcs. -/
theorem totalCost_real {y : NetSimplex} {n m : Nat} {p : Int → Int} (hs : Sized y n m)
    (hR : Regular y n m p) (hroot : y.root = n) (hdn : y.dummy_arc = n)
    (han : y.arc_num = m) (hnm : n ≤ m) :
    y.totalCost = some (y.realCost n m y.flowAt) := by
  have hlen : ∀ f : Fld, f.isNode = false → (y.arr f).length = m := by
    intro f hf
    have := hs.1 f
    rw [hf] at this
    simpa using this
  have hk : (y.arc_num - y.dummy_arc).toNat = m - n := by
    rw [han, hdn]
    omega
  unfold totalCost
  rw [hk, hdn, NetSimplex.totalCostLoop_eq y (m - n) n 0 (fun j j1 j2 => by
    have j0 : 0 ≤ j := by omega
    have jm : j < m := by omega
    obtain ⟨a, ha⟩ := @rd_of_range Int y.source j j0 (by
      rw [show y.source.length = m from hlen Fld.source rfl]; exact jm)
    obtain ⟨b, hb⟩ := @rd_of_range Int y.target j j0 (by
      rw [show y.target.length = m from hlen Fld.target rfl]; exact jm)
    obtain ⟨c, hc⟩ := @rd_of_range Int y.flow j j0 (by
      rw [show y.flow.length = m from hlen Fld.flow rfl]; exact jm)
    obtain ⟨d, hd⟩ := @rd_of_range Int y.cost j j0 (by
      rw [show y.cost.length = m from hlen Fld.cost rfl]; exact jm)
    rw [ha, hb, hc, hd]
    exact ⟨rfl, rfl, rfl, rfl⟩), zero_add]
  congr 1
  unfold realCost
  congr 1
  apply List.map_congr_left
  intro i hi
  have hi' : i < m - n := List.mem_range.1 hi
  obtain ⟨⟨s0, sn⟩, ⟨t0, tn⟩⟩ := hR.real_arcs ((n : Int) + (i : Int)) (by omega) (by omega)
  have j0 : (0 : Int) ≤ (n : Int) + (i : Int) := by omega
  have jm : (n : Int) + (i : Int) < m := by omega
  obtain ⟨a, ha⟩ := @rd_of_range Int y.source _ j0 (by
    rw [show y.source.length = m from hlen Fld.source rfl]; exact jm)
  obtain ⟨b, hb⟩ := @rd_of_range Int y.target _ j0 (by
    rw [show y.target.length = m from hlen Fld.target rfl]; exact jm)
  have ea : y.srcOf ((n : Int) + (i : Int)) = a := srcOf_eq ha
  have eb : y.tgtOf ((n : Int) + (i : Int)) = b := tgtOf_eq hb
  unfold NetSimplex.arcCostSpec
  rw [ha, hb, hroot]
  simp only [Option.getD_some]
  rw [if_pos ⟨by omega, by omega⟩]
  unfold costOf flowAt
  ring

end NetSimplex

/-- C1: on an instance with `n >= 1` nodes whose real arcs join real nodes, whose costs
admit a potential `p` with `p[n] <= p[v] <= p[n] + ART_COST` at every node and
`cost[e] + p[source[e]] - p[target[e]] >= 0` on every real arc (no cycle of negative cost;
for non-negative costs `p = 0` serves), and whose supplies satisfy `2 * sum |supply| < MAX`
(no flow comes near the bounds of the value type): if `run()` returns OPTIMAL and every
dummy arc has flow 0, then the flows of the real arcs are non-negative, they meet the supply
at every real node, `totalCost()` is their cost, and that cost is at most the cost of any
non-negative flow `g` on the real arcs that meets the same supplies. -/
theorem C1_optimal_flow (fuel n m : Nat) (ns y : NetSimplex) (p : Int → Int)
    (hs : ns.Sized n m) (hnn : ns.node_num = n) (han : ns.arc_num = m)
    (hdn : ns.dummy_arc = n) (hx : (n : Int) ≤ ns.next_arc ∧ ns.next_arc ≤ m) (hn1 : 1 ≤ n)
    (hreal : ∀ e : Int, (n : Int) ≤ e → e < m →
      (0 ≤ ns.srcOf e ∧ ns.srcOf e < n) ∧ (0 ≤ ns.tgtOf e ∧ ns.tgtOf e < n))
    (hpot : ∀ v : Int, 0 ≤ v → v < n → p n ≤ p v ∧ p v ≤ p n + ns.artCost)
    (hcost : ∀ e : Int, (n : Int) ≤ e → e < m →
      0 ≤ ns.costOf e + p (ns.srcOf e) - p (ns.tgtOf e))
    (hsup : 2 * ns.supplyAbs n < ns.MAX)
    (h : NetSimplex.run fuel ns = some (ProblemType.OPTIMAL, y))
    (hd : ∀ e : Int, 0 ≤ e → e < n → y.flowAt e = 0) :
    (∀ e : Int, (n : Int) ≤ e → e < m → 0 ≤ y.flowAt e) ∧
    (∀ u : Int, 0 ≤ u → u < n → ns.realOut n m y.flowAt u = ns.supplyOf u) ∧
    y.totalCost = some (ns.realCost n m y.flowAt) ∧
    ∀ g : Int → Int, (∀ e : Int, (n : Int) ≤ e → e < m → 0 ≤ g e) →
      (∀ u : Int, 0 ≤ u → u < n → ns.realOut n m g u = ns.supplyOf u) →
      ns.realCost n m y.flowAt ≤ ns.realCost n m g := by
  have hnm : n ≤ m := by omega
  obtain ⟨_, hI, hR, hopt, hsame, hsupp, _, yd, ya⟩ :=
    NetSimplex.run_optimizing fuel n m ns y _ p hs hnn han hdn hx hn1 hreal hpot hcost hsup h
  obtain ⟨T, ht⟩ := hI.threaded
  have eo : ∀ (g : Int → Int) (u : Int), y.realOut n m g u = ns.realOut n m g u :=
    NetSimplex.realOut_congr n m (fun e e1 e2 => ⟨(hsame e e1 e2).1, (hsame e e1 e2).2.1⟩)
  have ec : ∀ g : Int → Int, y.realCost n m g = ns.realCost n m g :=
    NetSimplex.realCost_congr n m (fun e e1 e2 => (hsame e e1 e2).2.2)
  obtain ⟨b1, b2⟩ := NetSimplex.optimal_of_dummy_zero hI hR hnm hopt hd
  refine ⟨fun e _ _ => hI.nonneg e, ?_, ?_, ?_⟩
  · intro u u0 un
    rw [← eo, ← hsupp u u0 un]
    exact b1 u u0 un
  · rw [← ec]
    exact NetSimplex.totalCost_real ht.tree_basis.sized hR ht.tree_basis.root yd ya hnm
  · intro g g0 gb
    rw [← ec, ← ec]
    apply b2 g g0
    intro u u0 un
    rw [eo, hsupp u u0 un]
    exact gb u u0 un

/-- C1 on scenario S2 (supplies `+3, +2, -1, -4`, four real arcs): `run()` returns OPTIMAL
with the four dummy arcs at flow 0, and the flows of the real arcs are non-negative, meet
the supplies and have the least cost. -/
theorem C1_optimal_flow_S2 :
    NetSimplex.run 10 solverS2 = some (ProblemType.OPTIMAL, solvedS2) ∧
    (∀ e : Int, 0 ≤ e → e < (4 : Nat) → solvedS2.flowAt e = 0) ∧
    (∀ e : Int, ((4 : Nat) : Int) ≤ e → e < (8 : Nat) → 0 ≤ solvedS2.flowAt e) ∧
    (∀ u : Int, 0 ≤ u → u < (4 : Nat) →
      solverS2.realOut 4 8 solvedS2.flowAt u = solverS2.supplyOf u) ∧
    solvedS2.totalCost = some (solverS2.realCost 4 8 solvedS2.flowAt) ∧
    ∀ g : Int → Int, (∀ e : Int, ((4 : Nat) : Int) ≤ e → e < (8 : Nat) → 0 ≤ g e) →
      (∀ u : Int, 0 ≤ u → u < (4 : Nat) → solverS2.realOut 4 8 g u = solverS2.supplyOf u) →
      solverS2.realCost 4 8 solvedS2.flowAt ≤ solverS2.realCost 4 8 g :=
  have hs : solverS2.Sized 4 8 := ⟨fun f => by cases f <;> decide, by decide⟩
  have h : NetSimplex.run 10 solverS2 = some (ProblemType.OPTIMAL, solvedS2) := by decide
  have hd : ∀ e : Int, 0 ≤ e → e < (4 : Nat) → solvedS2.flowAt e = 0 := by
    intro e h1 h2
    have h3 : e < 4 := h2
    interval_cases e <;> decide
  ⟨h, hd, C1_optimal_flow 10 4 8 solverS2 solvedS2 (fun _ => 0) hs (by decide) (by decide)
    (by decide) ⟨by decide, by decide⟩ (by decide)
    (fun e h1 h2 => by
      have h3 : (4 : Int) ≤ e := h1
      have h4 : e < 8 := h2
      interval_cases e <;> decide)
    (fun v _ _ => by
      show (0 : Int) ≤ 0 ∧ (0 : Int) ≤ 0 + solverS2.artCost
      decide)
    (fun e h1 h2 => by
      have h3 : (4 : Int) ≤ e := h1
      have h4 : e < 8 := h2
      interval_cases e <;> decide)
    (by decide) h hd⟩

/-- C4, as stated, fails for a large cost: on the instance with supplies `+1, -1` and the
one arc `0 -> 1` of cost `1073741824` the flow of one unit over that arc meets the supplies
(the instance is feasible), yet `run()` returns OPTIMAL with flow 1 on both dummy arcs. -/
theorem C4_dummy_flow_at_optimum :
    (∀ e : Int, 0 ≤ unitFlow e) ∧
    solverArtCost.realOut 2 3 unitFlow 0 = solverArtCost.supplyOf 0 ∧
    solverArtCost.realOut 2 3 unitFlow 1 = solverArtCost.supplyOf 1 ∧
    (NetSimplex.run 5 solverArtCost).map (fun r => r.1) = some ProblemType.OPTIMAL ∧
    (NetSimplex.run 5 solverArtCost).map (fun r => (r.2.flowAt 0, r.2.flowAt 1)) =
      some (1, 1) := by
  refine ⟨fun e => ?_, by decide, by decide, by decide, by decide⟩
  unfold unitFlow
  split_ifs <;> decide

/-- C4, amended: on an instance with `n >= 1` nodes whose real arcs join real nodes and have
non-negative costs, and whose supplies satisfy `2 * sum |supply| < MAX`, if some
non-negative flow `g` on the real arcs meets the supply of every node at a cost below the
artificial cost (`max / 2 + 1` of the cost type), then a `run()` that returns returns
OPTIMAL and every dummy arc has flow 0. -/
theorem C4_dummy_zero (fuel n m : Nat) (ns y : NetSimplex) (st : ProblemType)
    (hs : ns.Sized n m) (hnn : ns.node_num = n) (han : ns.arc_num = m)
    (hdn : ns.dummy_arc = n) (hx : (n : Int) ≤ ns.next_arc ∧ ns.next_arc ≤ m) (hn1 : 1 ≤ n)
    (hreal : ∀ e : Int, (n : Int) ≤ e → e < m →
      (0 ≤ ns.srcOf e ∧ ns.srcOf e < n) ∧ (0 ≤ ns.tgtOf e ∧ ns.tgtOf e < n))
    (hcost : ∀ e : Int, (n : Int) ≤ e → e < m → 0 ≤ ns.costOf e)
    (hsup : 2 * ns.supplyAbs n < ns.MAX) (hC : 0 ≤ ns.COST_MAX)
    (g : Int → Int) (g0 : ∀ e : Int, (n : Int) ≤ e → e < m → 0 ≤ g e)
    (gb : ∀ u : Int, 0 ≤ u → u < n → ns.realOut n m g u = ns.supplyOf u)
    (hlt : ns.realCost n m g < ns.artCost)
    (h : NetSimplex.run fuel ns = some (st, y)) :
    st = ProblemType.OPTIMAL ∧ ∀ e : Int, 0 ≤ e → e < n → y.flowAt e = 0 := by
  have hnm : n ≤ m := by omega
  obtain ⟨hst, hI, hR, hopt, hsame, hsupp, hart, _, _⟩ :=
    NetSimplex.run_optimizing fuel n m ns y st (fun _ => 0) hs hnn han hdn hx hn1 hreal
      (fun v _ _ => by
        show (0 : Int) ≤ 0 ∧ (0 : Int) ≤ 0 + ns.artCost
        unfold NetSimplex.artCost
        omega)
      (fun e e1 e2 => by
        show 0 ≤ ns.costOf e + 0 - 0
        have := hcost e e1 e2
        omega) hsup h
  have eo : ∀ (g : Int → Int) (u : Int), y.realOut n m g u = ns.realOut n m g u :=
    NetSimplex.realOut_congr n m (fun e e1 e2 => ⟨(hsame e e1 e2).1, (hsame e e1 e2).2.1⟩)
  have ec : ∀ g : Int → Int, y.realCost n m g = ns.realCost n m g :=
    NetSimplex.realCost_congr n m (fun e e1 e2 => (hsame e e1 e2).2.2)
  refine ⟨hst, NetSimplex.dummy_zero hI hR hnm hopt g g0 ?_ ?_⟩
  · intro u u0 un
    rw [eo, hsupp u u0 un]
    exact gb u u0 un
  · rw [ec, hart]
    exact hlt

/-- C4, amended, on scenario S1: one unit over the arc `0 -> 1` meets the supplies at cost
7, below the artificial cost, and `run()` returns OPTIMAL with both dummy arcs at flow 0. -/
theorem C4_dummy_zero_S1 :
    NetSimplex.run 5 solverS1 = some (ProblemType.OPTIMAL, solvedS1) ∧
    solverS1.realCost 2 3 unitFlow < solverS1.artCost ∧
    ∀ e : Int, 0 ≤ e → e < (2 : Nat) → solvedS1.flowAt e = 0 :=
  have hs : solverS1.Sized 2 3 := ⟨fun f => by cases f <;> decide, by decide⟩
  have h : NetSimplex.run 5 solverS1 = some (ProblemType.OPTIMAL, solvedS1) := by decide
  ⟨h, by decide,
    (C4_dummy_zero 5 2 3 solverS1 solvedS1 ProblemType.OPTIMAL hs (by decide) (by decide)
      (by decide) ⟨by decide, by decide⟩ (by decide)
      (fun e h1 h2 => by
        have : e = 2 := by omega
        subst this
        decide)
      (fun e h1 h2 => by
        have : e = 2 := by omega
        subst this
        decide)
      (by decide) (by decide) unitFlow
      (fun e h1 h2 => by
        have : e = 2 := by omega
        subst this
        decide)
      (fun u h1 h2 => by
        have : u = 0 ∨ u = 1 := by omega
        rcases this with rfl | rfl <;> decide)
      (by decide) h).2⟩

end KWD
